import Mathlib

/-!
# Racing balanced search trees

A verification development for the four ordered-set engines of the repository:
`AVLTree` (AVL_Trees/avl_tree.h), `RBTree` (RB_Trees/rbtree.h), `SplayTree`
(Splay_Trees/splay_tree.h) and `BTree` (B_Trees/btree.h).

Modelling conventions.

* Keys are `Int` (the engines are instantiated at `int` with `std::less<int>`; only
  comparisons of keys are performed, so machine overflow plays no role).  The search loop of
  the AVL code is also given with the comparator as a parameter (`descend_with`, `find_with`,
  `add_with`), which at `<` is the loop used everywhere else.
* A `TreeNode *` of the three binary engines is a value of `TreeNode μ`: `null`, or a node
  with its left child, its `val`, one engine specific field (`height` for AVL, `color` for
  red-black, nothing for splay) and its right child.  Ownership is a tree (no sharing), so
  the heap reachable from the root pointer is exactly such a value.
* A position inside a tree is a subtree together with the list of its ancestors, nearest
  first (`Frame`).  This is the explicit `std::stack<TreeNode *>` of the AVL code and the
  chain of `parent` pointers of the red-black and splay code.  A frame remembers on which
  side the path continues, which is what the pointer tests `p->left == n` compute.
* A `Node *` of the B-tree is a value of `BTree.Node`: the keys in the live slots
  `keys[0..num_keys)`, the children in the live slots `children[0..num_keys]` (none for a
  leaf) and the `leaf` flag.  `num_keys` is the length of the key list.
* A loop of the B-tree code that walks down the tree is a recursive function with a bound on
  the number of iterations; the callers pass the depth of the tree, and the theorems
  `bt_*_fuel` show that a larger bound gives the same result.
* Where a statement counts what a call does on the way (the rotations of an AVL `add`, the
  calls of `split_divide` of a B-tree `add`), a second function with the control flow of the
  call returns that trace or count (`add_rotations`, `add_splits`, `add_events`,
  `remove_events`).
* The loop of `clear` runs on an explicit stack of subtrees with a bound on the number of
  iterations (`clear_loop`); two iterations per node are enough.
* The copy constructor allocates, so it is modelled on a memory of `TreeNode` objects
  (`AVLTree.Heap`, a pointer being an address); `AVLTree.Stored` relates a pointer in memory
  to the tree value it is the root of.
* Where a statement is about two AVL trees in one memory, the functions `find`, `add`,
  `balance`, the rotations, `update_height` and `clear` are given a second time on that
  memory, statement by statement (`AVLTree.Ptr`); a read through a pointer that is not the
  address of an object returns `none`.  `AVLTree.Ptr.Rep` relates the memory to a tree value
  whose nodes carry their stored height and their address.
* Where a statement is about the child slots behind the live ones, the B-tree is modelled a
  second time with the whole arrays of every node (`BTree.Slot`): a child slot holds the
  value of the node it points to at the time of the assignment, and a slot is null exactly
  when the pointer in the code is.
* Where a statement is about the `parent` pointers of the splay tree, the tree is modelled a
  second time in a memory with the fields `val`, `children` and `parent` of every node
  (`SplayTree.Ptr`); the loops get the number of allocated nodes as their bound, and a call
  returns `none` when the bound does not suffice or a null parent is dereferenced.
  `Consistent` relates the memory to a tree value whose nodes carry their addresses.
* Where a statement is about the loop of `black_leaf_delete` following the `parent` pointers,
  the red-black tree is modelled a second time in a memory with the fields `val`, `color`,
  `children` and `parent` of every node (`RBTree.Ptr`).  The loop gets a bound on the number
  of passes and returns `none` when the bound does not suffice or a null pointer is
  dereferenced; the two rotation functions count their calls in a field of the memory that
  the code does not have.
* AVL heights are `u_int32_t` in the source.  On tree values they are `Nat` and the sum
  `max(..) + 1` is not reduced: under the hypotheses used there a stored height is at most
  the number of nodes on a path, far below `2 ^ 32` for any tree that fits in memory.  Where
  a statement is about arbitrary stored heights, the sums are taken modulo `2 ^ 32`: the
  rotations on tree values in `AVLTree.U32`, and all of `AVLTree.Ptr`.
-/

set_option autoImplicit false
set_option linter.unusedTactic false
set_option linter.unreachableTactic false
set_option linter.unnecessarySeqFocus false
set_option linter.unusedVariables false

/-! ## Shared data model of the binary engines -/

/-- Child direction: `dir_t` of rbtree.h and `Direction` of splay_tree.h. -/
inductive dir_t where
  | LEFT : dir_t
  | RIGHT : dir_t
deriving DecidableEq, Repr

/-- The index `1 - dir`. -/
def dir_t.flip : dir_t → dir_t
  | .LEFT => .RIGHT
  | .RIGHT => .LEFT

/-- A `TreeNode *`: the null pointer, or a node owning its two children.  The field `tag` is
`height` in avl_tree.h, `color` in rbtree.h and absent (`Unit`) in splay_tree.h. -/
inductive TreeNode (μ : Type) where
  | null : TreeNode μ
  | node (left : TreeNode μ) (val : Int) (tag : μ) (right : TreeNode μ) : TreeNode μ
deriving DecidableEq, Repr

/-- An ancestor on the path from the root to the current node: its key, its engine field, the
child that is not on the path, and the side `dir` on which the path continues. -/
structure Frame (μ : Type) where
  dir : dir_t
  val : Int
  tag : μ
  other : TreeNode μ
deriving DecidableEq, Repr

namespace TreeNode

variable {μ : Type}

/-- In-order key sequence of a subtree. -/
def keys : TreeNode μ → List Int
  | null => []
  | node l v _ r => keys l ++ v :: keys r

/-- Number of nodes on the longest path from this pointer down to a null pointer. -/
def depth : TreeNode μ → Nat
  | null => 0
  | node l _ _ r => max (depth l) (depth r) + 1

/-- The search-tree order stated node by node: every key in the left subtree is below the
node key and every key in the right subtree is above it. -/
def Ordered : TreeNode μ → Prop
  | null => True
  | node l v _ r =>
    Ordered l ∧ Ordered r ∧ (∀ a ∈ keys l, a < v) ∧ (∀ b ∈ keys r, v < b)

/-- The assignment `n->left = t` (no effect on a null `n`). -/
def setLeft : TreeNode μ → TreeNode μ → TreeNode μ
  | null, _ => null
  | node _ v m r, t => node t v m r

/-- The assignment `n->right = t` (no effect on a null `n`). -/
def setRight : TreeNode μ → TreeNode μ → TreeNode μ
  | null, _ => null
  | node l v m _, t => node l v m t

/-- The pointer `n->children[d]` (`n->left` / `n->right`). -/
def child (d : dir_t) : TreeNode μ → TreeNode μ
  | null => null
  | node l _ _ r =>
    match d with
    | .LEFT => l
    | .RIGHT => r

/-- The assignment `n->children[d] = t`. -/
def setChild (d : dir_t) (n t : TreeNode μ) : TreeNode μ :=
  match d with
  | .LEFT => setLeft n t
  | .RIGHT => setRight n t

/-- The assignment of the engine field, `n->color = c` in rbtree.h. -/
def setTag (m : μ) : TreeNode μ → TreeNode μ
  | null => null
  | node l v _ r => node l v m r

/-- The function `left_rotate(gp, p, n)` of rbtree.h and splay_tree.h, seen from the subtree
rooted at `p`, for `n == p->children[RIGHT]`: `n` takes the place of `p` below `gp` (or as the
tree root), `p` becomes the left child of `n` and adopts the former left child of `n`.
Returns the subtree now rooted at `n`.  Keys and engine fields stay with their nodes. -/
def left_rotate : TreeNode μ → TreeNode μ
  | node a x mx (node b y my c) => node (node a x mx b) y my c
  | t => t

/-- The function `right_rotate(gp, p, n)` of rbtree.h and splay_tree.h, seen from the subtree
rooted at `p`, for `n == p->children[LEFT]`; mirror image of `left_rotate`. -/
def right_rotate : TreeNode μ → TreeNode μ
  | node (node a x mx b) y my c => node a x mx (node b y my c)
  | t => t

/-- The statement `if (dir == LEFT) left_rotate(..) else right_rotate(..)`: rotate the subtree
towards side `d`, lifting its child on the other side. -/
def rotate (d : dir_t) (t : TreeNode μ) : TreeNode μ :=
  match d with
  | .LEFT => left_rotate t
  | .RIGHT => right_rotate t

end TreeNode

namespace Frame

variable {μ : Type}

/-- The ancestor node itself, with `t` as its child on the path side. -/
def fill (f : Frame μ) (t : TreeNode μ) : TreeNode μ :=
  match f.dir with
  | .LEFT => .node t f.val f.tag f.other
  | .RIGHT => .node f.other f.val f.tag t

/-- Keys of the ancestor and of its off-path child that precede the path position. -/
def lkeys (f : Frame μ) : List Int :=
  match f.dir with
  | .LEFT => []
  | .RIGHT => f.other.keys ++ [f.val]

/-- Keys of the ancestor and of its off-path child that follow the path position. -/
def rkeys (f : Frame μ) : List Int :=
  match f.dir with
  | .LEFT => f.val :: f.other.keys
  | .RIGHT => []

end Frame

/-- Move the current position from a node to its child on side `d`: the node becomes the
nearest ancestor. -/
def focusChild {μ : Type} (d : dir_t) : TreeNode μ → List (Frame μ) → TreeNode μ × List (Frame μ)
  | .null, st => (.null, st)
  | .node l v m r, st =>
    match d with
    | .LEFT => (l, ⟨.LEFT, v, m, r⟩ :: st)
    | .RIGHT => (r, ⟨.RIGHT, v, m, l⟩ :: st)

/-- Rebuild the whole tree from a subtree and its ancestors (nearest first), without any
restructuring. -/
def plug {μ : Type} : TreeNode μ → List (Frame μ) → TreeNode μ
  | t, [] => t
  | t, f :: st => plug (f.fill t) st

/-- All keys of the tree that precede the position described by the ancestor list. -/
def pathL {μ : Type} : List (Frame μ) → List Int
  | [] => []
  | f :: st => pathL st ++ f.lkeys

/-- All keys of the tree that follow the position described by the ancestor list. -/
def pathR {μ : Type} : List (Frame μ) → List Int
  | [] => []
  | f :: st => f.rkeys ++ pathR st

/-- The search loop of the binary engines, started at `root` below the ancestors `st`:
`for (; root && root->val != val; root = less_than(val, root->val) ? root->left : root->right)`
(avl_tree.h, where each visited node is also pushed on the explicit stack; the same loop
over `children[look(val, root)]` in rbtree.h and over
`children[less_than(val, root->val) ? D_LEFT : D_RIGHT]` in splay_tree.h, where the ancestors
are reached through `parent`).  Returns the final `root` and its ancestors. -/
def descend {μ : Type} (val : Int) : TreeNode μ → List (Frame μ) → TreeNode μ × List (Frame μ)
  | .null, st => (.null, st)
  | .node l v m r, st =>
    if v ≠ val then
      if val < v then descend val l (⟨.LEFT, v, m, r⟩ :: st)
      else descend val r (⟨.RIGHT, v, m, l⟩ :: st)
    else (.node l v m r, st)

/-- Strictly ascending key sequence (hence without duplicates). -/
def Ascending (l : List Int) : Prop := l.Pairwise (fun a b => a < b)

instance (l : List Int) : Decidable (Ascending l) := by
  unfold Ascending; infer_instance

/-- The keys before the path position are below `val`, the keys after it are above. -/
def Between {μ : Type} (val : Int) (st : List (Frame μ)) : Prop :=
  (∀ a ∈ pathL st, a < val) ∧ (∀ b ∈ pathR st, val < b)

/-! ## The reference ordered set and the call sequences driven against it -/

/-- One call of the ordered-set contract. -/
inductive Op where
  | add (k : Int) : Op
  | find (k : Int) : Op
  | remove (k : Int) : Op
deriving DecidableEq, Repr

/-- Reference model, a mathematical finite set: add = insert-if-absent, find = membership,
remove = erase-if-present; each returns the boolean the contract prescribes. -/
def refStep (s : Finset Int) : Op → Bool × Finset Int
  | .add k => (decide (k ∉ s), insert k s)
  | .find k => (decide (k ∈ s), s)
  | .remove k => (decide (k ∈ s), s.erase k)

/-- What one call must return and do to the key sequence to agree with the reference set. -/
def StepSpec (old : List Int) (op : Op) (b : Bool) (new : List Int) : Prop :=
  match op with
  | .add k => b = decide (k ∉ old) ∧ ∀ j, j ∈ new ↔ j = k ∨ j ∈ old
  | .find k => b = decide (k ∈ old) ∧ ∀ j, j ∈ new ↔ j ∈ old
  | .remove k => b = decide (k ∈ old) ∧ ∀ j, j ∈ new ↔ j ∈ old ∧ j ≠ k

/-- Drive a state machine with a call sequence, collecting the returned booleans. -/
def runOps {σ : Type} (step : σ → Op → Bool × σ) : σ → List Op → List Bool × σ
  | s, [] => ([], s)
  | s, op :: ops =>
    let r := step s op
    let rest := runOps step r.2 ops
    (r.1 :: rest.1, rest.2)

/-! ## AVLTree (AVL_Trees/avl_tree.h) -/

namespace AVLTree

/-- An AVL `TreeNode *`; the engine field is the stored `height`. -/
abbrev Node := TreeNode Nat

/-- The constructor `TreeNode(val)`: no children, `height` 1. -/
def newNode (val : Int) : Node := .node .null val 1 .null

/-- The expression `p ? p->height : 0`. -/
def height : Node → Nat
  | .null => 0
  | .node _ _ h _ => h

/-- The function `update_height`, with the sum `max(..) + 1` in `Nat`; the source computes
it in `u_int32_t`, which is the same number as long as both stored heights are below
`2 ^ 32 - 1` (`AVLTree.U32.update_height` is the function with the sum modulo `2 ^ 32`). -/
def update_height : Node → Node
  | .null => .null
  | .node l v _ r => .node l v (max (height l) (height r) + 1) r

/-- The call `left_rotate(l, l->right)` on the subtree rooted at `l`; returns the new subtree
root.  Every call site passes a non-null right child. -/
def left_rotate : Node → Node
  | .node a x h (.node b y h2 c) =>
    update_height (.node (update_height (.node a x h b)) y h2 c)
  | t => t

/-- The call `right_rotate(r, r->left)` on the subtree rooted at `r`; returns the new subtree
root.  Every call site passes a non-null left child. -/
def right_rotate : Node → Node
  | .node (.node a x h b) y h2 c =>
    update_height (.node a x h (update_height (.node b y h2 c)))
  | t => t

/-- The function `balance(root)` for a non-null `root`.  In the first branch `lh > 1 + rh`
forces `root->left` to be non-null, and `lrh > llh` forces `left->right` to be non-null;
symmetrically in the second branch. -/
def balance : Node → Node
  | .null => .null
  | .node l v h r =>
    let lh := height l
    let rh := height r
    if lh > 1 + rh then
      match l with
      | .null => .node l v h r
      | .node ll lv lht lr =>
        let llh := height ll
        let lrh := height lr
        if lrh > llh then
          right_rotate (.node (left_rotate (.node ll lv lht lr)) v h r)
        else
          right_rotate (.node (.node ll lv lht lr) v h r)
    else if rh > 1 + lh then
      match r with
      | .null => .node l v h r
      | .node rl rv rht rr =>
        let rlh := height rl
        let rrh := height rr
        if rlh > rrh then
          left_rotate (.node l v h (right_rotate (.node rl rv rht rr)))
        else
          left_rotate (.node l v h (.node rl rv rht rr))
    else
      update_height (.node l v h r)

/-- The member function `find`. -/
def find (node : Node) (val : Int) : Bool :=
  match (descend val node []).1 with
  | .null => false
  | .node _ _ _ _ => true

/-- The `do ... while (root)` loop that ends `add` and `remove`: `root` is re-balanced and
stored back into the child slot of the next node on the stack, up to the tree root. -/
def rebalance : Node → List (Frame Nat) → Node
  | root, [] => balance root
  | root, n_root :: st => rebalance (n_root.fill (balance root)) st

/-- The member function `add`: the returned boolean and the new root pointer. -/
def add (node : Node) (val : Int) : Bool × Node :=
  match node with
  | .null => (true, newNode val)
  | .node _ _ _ _ =>
    match descend val node [] with
    | (.node _ _ _ _, _) => (false, node)
    | (.null, []) => (false, node)
    | (.null, top :: st) =>
      let root := top.fill .null
      let root := if val < top.val then root.setLeft (newNode val) else root.setRight (newNode val)
      (true, rebalance root st)

/-- The loop `for (; in_ord_suc->left; in_ord_suc = in_ord_suc->left) st.push(in_ord_suc);`
of `remove`. -/
def leftmost : Node → List (Frame Nat) → Node × List (Frame Nat)
  | .node (.node a x h b) v h2 r, st => leftmost (.node a x h b) (⟨.LEFT, v, h2, r⟩ :: st)
  | t, st => (t, st)

/-- The member function `remove`: the returned boolean and the new root pointer.  In the
two-children case the frame pushed for `root` already carries the successor key, which is
what `std::swap(root->val, in_ord_suc->val)` leaves in that node; the successor node
(holding `val` after the swap) is unlinked and deleted. -/
def remove (node : Node) (val : Int) : Bool × Node :=
  match descend val node [] with
  | (.null, _) => (false, node)
  | (.node .null _ _ .null, []) => (true, .null)
  | (.node .null _ _ .null, top :: st) => (true, rebalance (top.fill .null) st)
  | (.node .null _ _ (.node rl rv rh rr), []) => (true, .node rl rv rh rr)
  | (.node .null _ _ (.node rl rv rh rr), top :: st) =>
    (true, rebalance (top.fill (.node rl rv rh rr)) st)
  | (.node (.node ll lv lh lr) _ _ .null, []) => (true, .node ll lv lh lr)
  | (.node (.node ll lv lh lr) _ _ .null, top :: st) =>
    (true, rebalance (top.fill (.node ll lv lh lr)) st)
  | (.node (.node ll lv lh lr) _ h (.node rl rv rh rr), st) =>
    match leftmost (.node rl rv rh rr) [] with
    | (.null, _) => (true, node)
    | (.node _ sv _ sr, seg) =>
      match seg ++ (⟨.RIGHT, sv, h, .node ll lv lh lr⟩ : Frame Nat) :: st with
      | [] => (true, node)
      | top :: st2 => (true, rebalance (top.fill sr) st2)

/-- One call of the contract on an `AVLTree<int>`. -/
def step (node : Node) : Op → Bool × Node
  | .add k => add node k
  | .find k => (find node k, node)
  | .remove k => remove node k

/-- True height of a subtree, as recomputed by `check_height_and_balance` of the test
suite. -/
def realHeight : Node → Nat
  | .null => 0
  | .node l _ _ r => 1 + max (realHeight l) (realHeight r)

/-- The height part of the AVL invariant: at every node the children's true heights differ
by at most 1 and the stored height is 1 + the maximum of the children's true heights. -/
def HeightBalanced : Node → Prop
  | .null => True
  | .node l _ h r =>
    HeightBalanced l ∧ HeightBalanced r ∧
      h = 1 + max (realHeight l) (realHeight r) ∧
      realHeight l ≤ realHeight r + 1 ∧ realHeight r ≤ realHeight l + 1

instance decHeightBalanced : (t : Node) → Decidable (HeightBalanced t)
  | .null => .isTrue trivial
  | .node l _ _ r =>
    @instDecidableAnd _ _ (decHeightBalanced l)
      (@instDecidableAnd _ _ (decHeightBalanced r) inferInstance)

/-- Path invariant: a subtree of true height `h` at the path position makes every ancestor
satisfy the height part of the AVL invariant (stored heights of the ancestors aside, which
`balance` recomputes). -/
def PathBalanced : List (Frame Nat) → Nat → Prop
  | [], _ => True
  | f :: st, h =>
    HeightBalanced f.other ∧ h ≤ realHeight f.other + 1 ∧ realHeight f.other ≤ h + 1 ∧
      PathBalanced st (1 + max h (realHeight f.other))

/-- Height of the whole tree when a subtree of height `h` sits at the path position. -/
def pathHeight : List (Frame Nat) → Nat → Nat
  | [], h => h
  | f :: st, h => pathHeight st (1 + max h (realHeight f.other))

/-- A height balanced five-node tree used to exercise the theorems on a concrete input. -/
def sampleTree : Node :=
  .node (.node .null 10 1 .null) 20 3
    (.node (.node .null 30 1 .null) 40 2 (.node .null 50 1 .null))

end AVLTree

/-! ## RBTree (RB_Trees/rbtree.h) -/

/-- The enumeration `color_t`. -/
inductive color_t where
  | RED : color_t
  | BLACK : color_t
deriving DecidableEq, Repr

namespace RBTree

/-- A red-black `TreeNode *`; the engine field is `color`.  The `parent` pointer of a node is
the head of its ancestor list. -/
abbrev Node := TreeNode color_t

/-- The constructor `TreeNode(val)`: no children, `color` RED. -/
def newNode (val : Int) : Node := .node .null val .RED .null

/-- The function `is_red`: `node && node->color == RED`. -/
def is_red : Node → Bool
  | .node _ _ .RED _ => true
  | _ => false

/-- The field `n->color` of a non-null node. -/
def colorOf : Node → color_t
  | .node _ _ c _ => c
  | .null => .BLACK

/-- The member function `find`. -/
def find (node : Node) (val : Int) : Bool :=
  match (descend val node []).1 with
  | .null => false
  | .node _ _ _ _ => true

/-- The insertion walk of `add`:
`for (TreeNode *ins = node; ins; ins_par = ins, ins = ins->children[look(val, ins)]);`.
Returns the ancestors of the null slot reached, `ins_par` first. -/
def insertion_walk (val : Int) : Node → List (Frame color_t) → List (Frame color_t)
  | .null, st => st
  | .node l v c r, st =>
    if val < v then insertion_walk val l (⟨.LEFT, v, c, r⟩ :: st)
    else insertion_walk val r (⟨.RIGHT, v, c, l⟩ :: st)

/-- One evaluation of the guard and body of the balancing loop `while (is_red(ins_par))` of
`add`.  The state is `ins_node` with its ancestors, `ins_par` first; `none` means that the
guard is false and the loop is left. -/
def add_step : Node × List (Frame color_t) → Option (Node × List (Frame color_t))
  | (_, []) => none
  | (ins_node, ins_par :: rest) =>
    if ins_par.tag = .RED then
      match rest with
      | [] =>
        -- Case 1: the parent is the root
        some (ins_node, [{ ins_par with tag := .BLACK }])
      | gp :: rest2 =>
        if is_red gp.other then
          -- Case 2: red uncle
          some (({ gp with tag := .RED, other := gp.other.setTag .BLACK } : Frame color_t).fill
            (({ ins_par with tag := .BLACK } : Frame color_t).fill ins_node), rest2)
        else if ins_par.dir = .LEFT ∧ gp.dir = .LEFT then
          -- Case 4A
          some (focusChild .LEFT
            (TreeNode.right_rotate (({ gp with tag := .RED } : Frame color_t).fill
              (({ ins_par with tag := .BLACK } : Frame color_t).fill ins_node))) rest2)
        else if ins_par.dir = .RIGHT ∧ gp.dir = .RIGHT then
          -- Case 4B
          some (focusChild .RIGHT
            (TreeNode.left_rotate (({ gp with tag := .RED } : Frame color_t).fill
              (({ ins_par with tag := .BLACK } : Frame color_t).fill ins_node))) rest2)
        else if ins_par.dir = .LEFT ∧ gp.dir = .RIGHT then
          -- Case 3A: afterwards ins_node is the old parent, now the right child of the old ins_node
          some (focusChild .RIGHT (TreeNode.right_rotate (ins_par.fill ins_node)) (gp :: rest2))
        else
          -- Case 3B
          some (focusChild .LEFT (TreeNode.left_rotate (ins_par.fill ins_node)) (gp :: rest2))
    else none

/-- The balancing loop of `add`, run for at most `fuel` iterations. -/
def add_loop : Nat → Node × List (Frame color_t) → Node × List (Frame color_t)
  | 0, s => s
  | fuel + 1, s =>
    match add_step s with
    | none => s
    | some s2 => add_loop fuel s2

/-- A bound on the number of iterations the balancing loop can still make. -/
def add_measure : Node × List (Frame color_t) → Nat
  | (_, []) => 0
  | (_, [p]) => if p.tag = .RED then 3 else 0
  | (_, p :: g :: rest) =>
    if p.tag = .RED then 2 * (rest.length + 2) + (if p.dir = g.dir then 1 else 2) else 0

/-- The member function `add`: the returned boolean and the new root pointer.  The loop is
given `2 * length + 3` iterations, which it never exhausts (`rb_add_loop_exits`). -/
def add (node : Node) (val : Int) : Bool × Node :=
  if find node val then (false, node)
  else
    match insertion_walk val node [] with
    | [] => (true, (newNode val).setTag .BLACK)
    | ins_par :: st =>
      let d := if val < ins_par.val then dir_t.LEFT else dir_t.RIGHT
      let par := (ins_par.fill .null).setChild d (newNode val)
      let s := add_loop (2 * (st.length + 1) + 3) (focusChild d par st)
      match s.2 with
      | [] => (true, s.1.setTag .BLACK)
      | _ :: _ => (true, plug s.1 s.2)

/-- The label `D6` of `black_leaf_delete` on the subtree rooted at `P`, whose child on side
`dir` is the deficient one: the sibling `S` is black and its far child `D` is red. -/
def case_D6 (dir : dir_t) (t : Node) : Node :=
  let pc := colorOf t
  let t2 := TreeNode.rotate dir t
  ((t2.setTag pc).setChild dir ((t2.child dir).setTag .BLACK)).setChild dir.flip
    ((t2.child dir.flip).setTag .BLACK)

/-- The label `D5` of `black_leaf_delete`, falling through to `D6`: the sibling `S` is black,
its near child `C` is red and its far child is black. -/
def case_D5 (dir : dir_t) (t : Node) : Node :=
  let s2 := TreeNode.rotate dir.flip (t.child dir.flip)
  let s3 := (s2.setTag .BLACK).setChild dir.flip ((s2.child dir.flip).setTag .RED)
  case_D6 dir (t.setChild dir.flip s3)

/-- The two statements `S->color = RED; P->color = BLACK; return;`. -/
def case_D4 (dir : dir_t) (t : Node) : Node :=
  (t.setTag .BLACK).setChild dir.flip ((t.child dir.flip).setTag .RED)

/-- The function `black_leaf_delete` from the label `start` on: `N` is the subtree whose
black height is one short (the null pointer at the first pass, the slot of the deleted leaf)
and the head of the ancestor list is `P`.  Returns the new root pointer. -/
def black_leaf_delete : Node → List (Frame color_t) → Node
  | N, [] => N
  | N, P :: rest =>
    let dir := P.dir
    let t := P.fill N
    let S := P.other
    let D := S.child dir.flip
    let C := S.child dir
    if is_red S then
      let t2 := TreeNode.rotate dir t
      let p2 := (t2.child dir).setTag .RED
      let S2 := p2.child dir.flip
      let sub :=
        if is_red (S2.child dir.flip) then case_D6 dir p2
        else if is_red (S2.child dir) then case_D5 dir p2
        else case_D4 dir p2
      plug ((t2.setTag .BLACK).setChild dir sub) rest
    else if is_red D then plug (case_D6 dir t) rest
    else if is_red C then plug (case_D5 dir t) rest
    else if P.tag = .RED then plug (case_D4 dir t) rest
    else black_leaf_delete (t.setChild dir.flip (S.setTag .RED)) rest

/-- The loop `for (; inord->children[LEFT]; inord = inord->children[LEFT]);` of `remove`,
with the ancestors passed on the way. -/
def leftmost : Node → List (Frame color_t) → Node × List (Frame color_t)
  | .node (.node a x c b) v c2 r, st => leftmost (.node a x c b) (⟨.LEFT, v, c2, r⟩ :: st)
  | t, st => (t, st)

/-- The part of `remove` after the two-children swap: `del_node` with its ancestors has at
most one child.  Returns the new root pointer. -/
def remove_node : Node → List (Frame color_t) → Node
  | .null, st => plug .null st
  | .node (.node a x c b) _ _ .null, st =>
    -- one_child_policy(LEFT)
    plug ((TreeNode.node a x c b).setTag .BLACK) st
  | .node .null _ _ (.node a x c b), st =>
    -- one_child_policy(RIGHT)
    plug ((TreeNode.node a x c b).setTag .BLACK) st
  | .node _ _ _ _, [] => .null
  | .node l v c r, P :: rest =>
    if is_red (.node l v c r) then plug .null (P :: rest)
    else black_leaf_delete .null (P :: rest)

/-- The member function `remove`: the returned boolean and the new root pointer.  In the
two-children case the frame of the found node carries the successor key after
`std::swap(del_node->val, inord->val)`, and the successor node (now holding `val`) is the
node to unlink. -/
def remove (node : Node) (val : Int) : Bool × Node :=
  match descend val node [] with
  | (.null, _) => (false, node)
  | (.node (.node ll lv lc lr) _ c (.node rl rv rc rr), st) =>
    match leftmost (.node rl rv rc rr) [] with
    | (.null, _) => (true, node)
    | (.node sl sv sc sr, seg) =>
      (true, remove_node (.node sl val sc sr)
        (seg ++ (⟨.RIGHT, sv, c, .node ll lv lc lr⟩ : Frame color_t) :: st))
  | (del_node, st) => (true, remove_node del_node st)

/-- One call of the contract on an `RBTree<int>`. -/
def step (node : Node) : Op → Bool × Node
  | .add k => add node k
  | .find k => (find node k, node)
  | .remove k => remove node k

/-- Number of black nodes on the leftmost path from a pointer down to null. -/
def blackHeight : Node → Nat
  | .null => 0
  | .node l _ c _ => blackHeight l + (if c = .BLACK then 1 else 0)

/-- Every path from this pointer down to a null pointer holds the same number of black
nodes: at every node the two children have equal black height. -/
def BlackBalanced : Node → Prop
  | .null => True
  | .node l _ _ r => BlackBalanced l ∧ BlackBalanced r ∧ blackHeight l = blackHeight r

/-- No red node has a red child. -/
def NoRedRed : Node → Prop
  | .null => True
  | .node l _ c r =>
    NoRedRed l ∧ NoRedRed r ∧ (c = .RED → is_red l = false ∧ is_red r = false)

instance decBlackBalanced : (t : Node) → Decidable (BlackBalanced t)
  | .null => .isTrue trivial
  | .node l _ _ r =>
    @instDecidableAnd _ _ (decBlackBalanced l)
      (@instDecidableAnd _ _ (decBlackBalanced r) inferInstance)

instance decNoRedRed : (t : Node) → Decidable (NoRedRed t)
  | .null => .isTrue trivial
  | .node l _ _ r =>
    @instDecidableAnd _ _ (decNoRedRed l)
      (@instDecidableAnd _ _ (decNoRedRed r) inferInstance)

/-- The nearest ancestor exists and is red. -/
def topRed : List (Frame color_t) → Bool
  | [] => false
  | f :: _ => decide (f.tag = .RED)

/-- Path invariant: the ancestors and their off-path subtrees are such that a subtree of
black height `h` at the path position (not red below a red ancestor) completes a tree without
red-red pair and with equal black counts. -/
def PathRB : List (Frame color_t) → Nat → Prop
  | [], _ => True
  | f :: st, h =>
    NoRedRed f.other ∧ BlackBalanced f.other ∧ blackHeight f.other = h ∧
      (f.tag = .RED → is_red f.other = false ∧ topRed st = false) ∧
      PathRB st (h + (if f.tag = .BLACK then 1 else 0))

/-- Invariant of a position reached by walking down a red-black tree. -/
def DescInv (t : Node) (st : List (Frame color_t)) : Prop :=
  NoRedRed t ∧ BlackBalanced t ∧ PathRB st (blackHeight t) ∧
    (topRed st = true → is_red t = false)

/-- Invariant of the balancing loop of `add`: `ins_node` is red, its subtree satisfies the
red-black conditions, and its ancestors satisfy the path invariant. -/
def AddInv (s : Node × List (Frame color_t)) : Prop :=
  is_red s.1 = true ∧ NoRedRed s.1 ∧ BlackBalanced s.1 ∧ PathRB s.2 (blackHeight s.1)

/-- Invariant of `black_leaf_delete`: the subtree `N` is not red, satisfies the red-black
conditions and is one black node short of what its ancestors expect. -/
def DelInv (N : Node) (st : List (Frame color_t)) : Prop :=
  is_red N = false ∧ NoRedRed N ∧ BlackBalanced N ∧ PathRB st (blackHeight N + 1)

/-- A red-black tree with five nodes used to exercise the theorems on a concrete input:
black 20 with children black 10 (red children 5 and 15) and black 30. -/
def sampleTree : Node :=
  .node (.node (.node .null 5 .RED .null) 10 .BLACK (.node .null 15 .RED .null)) 20 .BLACK
    (.node .null 30 .BLACK .null)

end RBTree

/-! ## SplayTree (Splay_Trees/splay_tree.h) -/

namespace SplayTree

/-- A splay `TreeNode *`: key and two children, no balance field.  The `parent` pointer of a
node is the head of its ancestor list. -/
abbrev Node := TreeNode Unit

/-- The constructor `TreeNode(val)`. -/
def newNode (val : Int) : Node := .node .null val () .null

/-- The function `fix(root)`: the loop `while (root != node)` that rotates `root` to the top.
With one ancestor left (`gp == nullptr`) one rotation over the parent is made; otherwise two
rotations chosen by the sides of `p` below `gp` and of `root` below `p`, after which `root`
hangs below the former parent of `gp`.  Returns the new root pointer. -/
def fix : Node → List (Frame Unit) → Node
  | root, [] => root
  | root, [p] =>
    match p.dir with
    | .LEFT => TreeNode.right_rotate (p.fill root)
    | .RIGHT => TreeNode.left_rotate (p.fill root)
  | root, p :: gp :: rest =>
    match gp.dir, p.dir with
    | .LEFT, .LEFT =>
      fix (TreeNode.right_rotate (TreeNode.right_rotate (gp.fill (p.fill root)))) rest
    | .LEFT, .RIGHT =>
      fix (TreeNode.right_rotate (gp.fill (TreeNode.left_rotate (p.fill root)))) rest
    | .RIGHT, .LEFT =>
      fix (TreeNode.left_rotate (gp.fill (TreeNode.right_rotate (p.fill root)))) rest
    | .RIGHT, .RIGHT =>
      fix (TreeNode.left_rotate (TreeNode.left_rotate (gp.fill (p.fill root)))) rest

/-- The member function `find`: the returned boolean and the root pointer afterwards.  A
search that ends at a null pointer returns before `fix` and leaves the tree as it was. -/
def find (node : Node) (val : Int) : Bool × Node :=
  match descend val node [] with
  | (.null, _) => (false, node)
  | (.node l v m r, st) => (true, fix (.node l v m r) st)

/-- The member function `add`: the returned boolean and the new root pointer. -/
def add (node : Node) (val : Int) : Bool × Node :=
  match node with
  | .null => (true, newNode val)
  | .node _ _ _ _ =>
    match descend val node [] with
    | (.node _ _ _ _, _) => (false, node)
    | (.null, []) => (false, node)
    | (.null, root_par :: st) =>
      let d := if val < root_par.val then dir_t.LEFT else dir_t.RIGHT
      let par := (root_par.fill .null).setChild d (newNode val)
      let s := focusChild d par st
      (true, fix s.1 s.2)

/-- The loop `for (; in_ord_suc->children[D_RIGHT]; in_ord_suc = in_ord_suc->children[D_RIGHT]);`
of `remove`, with the ancestors passed on the way. -/
def rightmost : Node → List (Frame Unit) → Node × List (Frame Unit)
  | .node l v m (.node a x m2 b), st => rightmost (.node a x m2 b) (⟨.RIGHT, v, m, l⟩ :: st)
  | t, st => (t, st)

/-- The member function `remove`: the returned boolean and the new root pointer.  After a
successful `find` the root holds `val`; it is deleted, the largest node of its left subtree
is rotated to the top of that subtree and adopts the right subtree.  The two `assert`s are
not part of the model. -/
def remove (node : Node) (val : Int) : Bool × Node :=
  match find node val with
  | (false, t) => (false, t)
  | (true, .null) => (true, .null)
  | (true, .node .null _ _ right) => (true, right)
  | (true, .node (.node a x m b) _ _ right) =>
    let s := rightmost (.node a x m b) []
    (true, (fix s.1 s.2).setRight right)

/-- One call of the contract on a `SplayTree<int>`. -/
def step (node : Node) : Op → Bool × Node
  | .add k => add node k
  | .find k => find node k
  | .remove k => remove node k

/-- The boolean returned by `find` on its own. -/
def contains (node : Node) (val : Int) : Bool := (find node val).1

end SplayTree

/-! ## BTree (B_Trees/btree.h) -/

namespace BTree

/-- A non-null `Node *` of `BTree<int, N>`.  `keys` holds the live slots `keys[0..num_keys)`,
so `num_keys` is its length; `children` holds the live slots `children[0..num_keys]` of an
internal node and is empty for a leaf, whose child slots are all null; `leaf` is the flag.
Slots beyond the live ones are not part of the model: `find`, `add` and `remove` never read
them. -/
inductive Node where
  | mk (keys : List Int) (children : List Node) (leaf : Bool) : Node
deriving Repr

namespace Node

/-- The live keys `keys[0..num_keys)`. -/
def keys : Node → List Int
  | mk ks _ _ => ks

/-- The live children `children[0..num_keys]`. -/
def children : Node → List Node
  | mk _ cs _ => cs

/-- The field `leaf`. -/
def leaf : Node → Bool
  | mk _ _ b => b

/-- The field `num_keys`. -/
def num_keys (n : Node) : Nat := n.keys.length

/-- The key `keys[i]`. -/
def key (n : Node) (i : Nat) : Int := n.keys.getD i 0

/-- The node `*children[i]`; a slot that holds no child reads as an empty leaf, which does
not occur on a well-formed tree. -/
def child (n : Node) (i : Nat) : Node := n.children.getD i (mk [] [] true)

/-- The assignment `children[i] = c`. -/
def setChild (n : Node) (i : Nat) (c : Node) : Node :=
  mk n.keys (n.children.set i c) n.leaf

end Node

mutual
/-- Number of nodes on the leftmost path from a node down to a leaf. -/
def Node.depth : Node → Nat
  | .mk _ cs _ => depthList cs + 1
/-- Depth below the first child of a child list. -/
def depthList : List Node → Nat
  | [] => 0
  | c :: _ => c.depth
end

mutual
/-- All keys below a node in in-order: `children[0]`, `keys[0]`, `children[1]`, ... -/
def Node.allKeys : Node → List Int
  | .mk ks cs _ => interleave cs ks
/-- In-order keys of a child list interleaved with a key list. -/
def interleave : List Node → List Int → List Int
  | [], ks => ks
  | c :: cs, [] => c.allKeys ++ interleave cs []
  | c :: cs, k :: ks => c.allKeys ++ k :: interleave cs ks
end

/-- Keys-first interleaving: `keys[0]`, `children[0]`, `keys[1]`, ... -/
def interleaveK : List Int → List Node → List Int
  | [], cs => interleave cs []
  | k :: ks, cs => k :: interleave cs ks

/-- The loop of `bin_search` on the interval `[l, r]`, for at most `fuel` iterations. -/
def bin_search_loop (keys : List Int) (val : Int) : Nat → Int → Int → Int
  | 0, _, r => r
  | fuel + 1, l, r =>
    if l ≤ r then
      let m := (l + r) / 2
      if val < keys.getD m.toNat 0 then bin_search_loop keys val fuel l (m - 1)
      else bin_search_loop keys val fuel (m + 1) r
    else r

/-- The function `bin_search`: the last index whose key is not above `val`, or -1.  The
interval shrinks in every iteration, so `num_keys` iterations are enough. -/
def bin_search (node : Node) (val : Int) : Int :=
  bin_search_loop node.keys val node.keys.length 0 (node.keys.length - 1)

/-- The loop of `find`, for at most `fuel` levels. -/
def find_loop : Nat → Node → Int → Bool
  | 0, _, _ => false
  | fuel + 1, node, val =>
    let idx := bin_search node val
    if idx < 0 then
      match node.children[0]? with
      | none => false
      | some c => find_loop fuel c val
    else if node.key idx.toNat = val then true
    else
      match node.children[idx.toNat + 1]? with
      | none => false
      | some c => find_loop fuel c val

/-- The member function `find` on the root pointer.  The loop gets the depth of the tree as
its bound. -/
def find (root : Option Node) (val : Int) : Bool :=
  match root with
  | none => false
  | some r => find_loop r.depth r val

/-- The function `split_divide(curr, adj_node)` on a full node: the shrunken `curr` and the
new `adj_node`, which takes `keys[N..2N-2]` and `children[N..2N-1]`. -/
def split_divide (N : Nat) (curr : Node) : Node × Node :=
  (.mk (curr.keys.take (N - 1)) (curr.children.take N) curr.leaf,
    .mk ((curr.keys.drop N).take (N - 1)) ((curr.children.drop N).take N) curr.leaf)

/-- The descent loop `while (curr)` of `add`, for at most `fuel` levels: the returned boolean
and the node `curr` as the loop leaves it. -/
def add_loop (N : Nat) : Nat → Node → Int → Bool × Node
  | 0, curr, _ => (false, curr)
  | fuel + 1, curr, val =>
    let idx := bin_search curr val
    if 0 ≤ idx ∧ val = curr.key idx.toNat then (false, curr)
    else
      let i := (idx + 1).toNat
      if curr.leaf then
        (true, .mk (curr.keys.take i ++ val :: curr.keys.drop i) curr.children true)
      else if (curr.child i).num_keys = 2 * N - 1 then
        let curr_node := curr.child i
        let median := curr_node.key (N - 1)
        let halves := split_divide N curr_node
        let curr2 : Node :=
          .mk (curr.keys.take i ++ median :: curr.keys.drop i)
            (curr.children.take i ++ halves.1 :: halves.2 :: curr.children.drop (i + 1)) false
        if val < median then
          let r := add_loop N fuel halves.1 val
          (r.1, curr2.setChild i r.2)
        else if val = median then (false, curr2)
        else
          let r := add_loop N fuel halves.2 val
          (r.1, curr2.setChild (i + 1) r.2)
      else
        let r := add_loop N fuel (curr.child i) val
        (r.1, curr.setChild i r.2)

/-- The member function `add`: the returned boolean and the new root pointer.  The descent
starts at the root, or at the new root above the two halves of a full root, and gets the
depth of that node as its bound. -/
def add (N : Nat) (root : Option Node) (val : Int) : Bool × Option Node :=
  match root with
  | none => (true, some (.mk [val] [] true))
  | some curr =>
    let top : Node :=
      if curr.num_keys = 2 * N - 1 then
        .mk [curr.key (N - 1)] [(split_divide N curr).1, (split_divide N curr).2] false
      else curr
    let r := add_loop N top.depth top val
    (r.1, some r.2)

/-- The function `merge(mer_node, adj_node, median)`: the median is stored behind the keys of
`mer_node`, then `keys[i - N]` and `children[i - N]` of `adj_node` are copied while
`i < 2N - 1`, and one more child.  Returns `mer_node`. -/
def merge (N : Nat) (mer_node adj_node : Node) (median : Int) : Node :=
  let k := mer_node.num_keys + 1
  .mk (mer_node.keys ++ median :: (adj_node.keys.drop (k - N)).take (2 * N - 1 - k))
    (mer_node.children ++ (adj_node.children.drop (k - N)).take (2 * N - k))
    mer_node.leaf

/-- The function `left_shift(root, idx)`: `children[idx]` takes `keys[idx]` and the first
child of `children[idx + 1]`, whose first key moves up. -/
def left_shift (root : Node) (idx : Nat) : Node :=
  let left := root.child idx
  let right := root.child (idx + 1)
  let left2 : Node :=
    .mk (left.keys ++ [root.key idx]) (left.children ++ right.children.take 1) left.leaf
  let right2 : Node := .mk (right.keys.drop 1) (right.children.drop 1) right.leaf
  .mk (root.keys.set idx (right.key 0)) ((root.children.set idx left2).set (idx + 1) right2)
    root.leaf

/-- The function `right_shift(root, idx)`: `children[idx]` takes `keys[idx - 1]` and the last
child of `children[idx - 1]`, whose last key moves up. -/
def right_shift (root : Node) (idx : Nat) : Node :=
  let left := root.child (idx - 1)
  let right := root.child idx
  let right2 : Node :=
    .mk (root.key (idx - 1) :: right.keys)
      ((left.children.drop left.num_keys).take 1 ++ right.children) right.leaf
  let left2 : Node :=
    .mk (left.keys.take (left.num_keys - 1)) (left.children.take left.num_keys) left.leaf
  .mk (root.keys.set (idx - 1) (left.key (left.num_keys - 1)))
    ((root.children.set (idx - 1) left2).set idx right2) root.leaf

/-- The function `merge_right(node, idx)`: `children[idx]` absorbs `keys[idx]` and
`children[idx + 1]`, which leave the node. -/
def merge_right (N : Nat) (node : Node) (idx : Nat) : Node :=
  let merged := merge N (node.child idx) (node.child (idx + 1)) (node.key idx)
  .mk (node.keys.eraseIdx idx) ((node.children.set idx merged).eraseIdx (idx + 1)) node.leaf

/-- Case 3b for the rightmost child `idx == num_keys`: `children[idx - 1]` absorbs
`keys[idx - 1]` and `children[idx]`; `children[idx] = nullptr; num_keys--`. -/
def merge_last (N : Nat) (node : Node) (idx : Nat) : Node :=
  let merged := merge N (node.child (idx - 1)) (node.child idx) (node.key (idx - 1))
  .mk (node.keys.take (node.num_keys - 1)) ((node.children.set (idx - 1) merged).take idx)
    node.leaf

/-- Case 2a: the walk `for (; src->children[src->num_keys]; src = src->children[src->num_keys])`
to the in-order predecessor, followed by `std::swap(node->keys[idx], src->keys[src->num_keys - 1])`
seen from the subtree: returns the predecessor key and the subtree now holding `val` in its
place. -/
def swap_pred : Nat → Node → Int → Int × Node
  | 0, src, val => (val, src)
  | fuel + 1, src, val =>
    match src.children[src.num_keys]? with
    | some c =>
      let r := swap_pred fuel c val
      (r.1, src.setChild src.num_keys r.2)
    | none =>
      (src.key (src.num_keys - 1),
        .mk (src.keys.set (src.num_keys - 1) val) src.children src.leaf)

/-- Case 2b: the walk `for (; src->children[0]; src = src->children[0])` to the in-order
successor, followed by `std::swap(node->keys[idx], src->keys[0])` seen from the subtree. -/
def swap_succ : Nat → Node → Int → Int × Node
  | 0, src, val => (val, src)
  | fuel + 1, src, val =>
    match src.children[0]? with
    | some c =>
      let r := swap_succ fuel c val
      (r.1, src.setChild 0 r.2)
    | none => (src.key 0, .mk (src.keys.set 0 val) src.children src.leaf)

/-- The descent loop `while (!node->leaf)` of `remove` and the deletion from the leaf, for at
most `fuel` levels: the returned boolean and `node` as the loop leaves it.  A descent into
`children[i]` stores the result of the remaining levels back into that slot. -/
def remove_loop (N : Nat) : Nat → Node → Int → Bool × Node
  | 0, node, _ => (false, node)
  | fuel + 1, node, val =>
    let idx := bin_search node val
    if node.leaf then
      if 0 ≤ idx ∧ node.key idx.toNat = val then
        (true, .mk (node.keys.eraseIdx idx.toNat) node.children node.leaf)
      else (false, node)
    else if 0 ≤ idx ∧ node.key idx.toNat = val then
      let i := idx.toNat
      if N ≤ (node.child i).num_keys then
        -- 2a
        let s := swap_pred fuel (node.child i) val
        let r := remove_loop N fuel s.2 val
        (r.1, .mk (node.keys.set i s.1) (node.children.set i r.2) node.leaf)
      else if N ≤ (node.child (i + 1)).num_keys then
        -- 2b
        let s := swap_succ fuel (node.child (i + 1)) val
        let r := remove_loop N fuel s.2 val
        (r.1, .mk (node.keys.set i s.1) (node.children.set (i + 1) r.2) node.leaf)
      else
        -- 2c
        let node2 := merge_right N node i
        let r := remove_loop N fuel (node2.child i) val
        (r.1, node2.setChild i r.2)
    else
      let i := (idx + 1).toNat
      if N ≤ (node.child i).num_keys then
        let r := remove_loop N fuel (node.child i) val
        (r.1, node.setChild i r.2)
      else if i = 0 then
        if N ≤ (node.child (i + 1)).num_keys then
          let node2 := left_shift node i
          let r := remove_loop N fuel (node2.child i) val
          (r.1, node2.setChild i r.2)
        else
          let node2 := merge_right N node i
          let r := remove_loop N fuel (node2.child i) val
          (r.1, node2.setChild i r.2)
      else if i = node.num_keys then
        if N ≤ (node.child (i - 1)).num_keys then
          let node2 := right_shift node i
          let r := remove_loop N fuel (node2.child i) val
          (r.1, node2.setChild i r.2)
        else
          let node2 := merge_last N node i
          let r := remove_loop N fuel (node2.child (i - 1)) val
          (r.1, node2.setChild (i - 1) r.2)
      else
        if N ≤ (node.child (i + 1)).num_keys then
          let node2 := left_shift node i
          let r := remove_loop N fuel (node2.child i) val
          (r.1, node2.setChild i r.2)
        else if N ≤ (node.child (i - 1)).num_keys then
          let node2 := right_shift node i
          let r := remove_loop N fuel (node2.child i) val
          (r.1, node2.setChild i r.2)
        else
          let node2 := merge_right N node i
          let r := remove_loop N fuel (node2.child i) val
          (r.1, node2.setChild i r.2)

/-- The member function `remove`: the returned boolean and the new root pointer.  The
descent starts at the root, or at the merge of a one-key root with its two minimal children,
and gets the depth of that node as its bound; the root pointer becomes null when the leaf
deletion has taken the last key of the root. -/
def remove (N : Nat) (root : Option Node) (val : Int) : Bool × Option Node :=
  match root with
  | none => (false, none)
  | some r =>
    let top : Node :=
      if r.num_keys = 1 ∧ r.children.length ≠ 0 ∧ (r.child 0).num_keys = N - 1 ∧
          (r.child 1).num_keys = N - 1 then
        merge N (r.child 0) (r.child 1) (r.key 0)
      else r
    let res := remove_loop N top.depth top val
    if res.1 = true ∧ res.2.num_keys = 0 then (true, none) else (res.1, some res.2)

/-- One call of the contract on a `BTree<int, N>`. -/
def step (N : Nat) (root : Option Node) : Op → Bool × Option Node
  | .add k => add N root k
  | .find k => (find root k, root)
  | .remove k => remove N root k

/-- In-order key sequence of the whole tree. -/
def treeKeys : Option Node → List Int
  | none => []
  | some r => r.allKeys

/-- A well-formed subtree of height `h` (0 for a leaf) whose top node holds at least `lo`
keys: every node holds at most `2N - 1` keys, every node below the top holds at least
`N - 1`, a node at height 0 is flagged as leaf and has no children, a node above is flagged
as internal and has one child more than keys, and all children have height `h - 1`, which
puts all leaves at the same depth. -/
def WF (N : Nat) (lo : Nat) : Nat → Node → Prop
  | 0, n =>
    n.leaf = true ∧ n.children = [] ∧ lo ≤ n.num_keys ∧ n.num_keys ≤ 2 * N - 1
  | h + 1, n =>
    n.leaf = false ∧ n.children.length = n.num_keys + 1 ∧ lo ≤ n.num_keys ∧
      n.num_keys ≤ 2 * N - 1 ∧ ∀ c ∈ n.children, WF N (N - 1) h c

/-- The B-tree invariant on the root pointer: an empty tree, or a well-formed tree of some
height whose root holds at least one key. -/
def Inv (N : Nat) : Option Node → Prop
  | none => True
  | some r => ∃ h, WF N 1 h r

/-- No two neighbouring children are both below `N` keys. -/
def NoMinPair (N : Nat) (node : Node) : Prop :=
  ∀ j, j + 1 < node.children.length →
    N ≤ (node.child j).num_keys ∨ N ≤ (node.child (j + 1)).num_keys

/-- A subtree all of whose downward paths end after at most `h` steps in a node that is
flagged as leaf and has no children.  It bounds the number of iterations of every descent
loop and holds of every well-formed subtree of height `h`. -/
def Shallow : Nat → Node → Prop
  | 0, n => n.leaf = true ∧ n.children = []
  | h + 1, n => ∀ c ∈ n.children, Shallow h c

/-- A B-tree on which the theorems are exercised, for `N = 2`: root key 10 over the leaves
`[5]` and `[15, 20]`. -/
def sampleRoot : Option Node :=
  some (.mk [10] [.mk [5] [] true, .mk [15, 20] [] true] false)

end BTree

/-! ## AVLTree: the rotations a call performs -/

namespace AVLTree

/-- The calls of `left_rotate` / `right_rotate` made by one call `balance(root)`, in order:
the key of the node passed as first argument (the node that moves down) and the direction
of the rotation. -/
def balance_rotations : Node → List (Int × dir_t)
  | .null => []
  | .node l v _ r =>
    let lh := height l
    let rh := height r
    if lh > 1 + rh then
      match l with
      | .null => []
      | .node ll lv _ lr =>
        if height lr > height ll then [(lv, .LEFT), (v, .RIGHT)] else [(v, .RIGHT)]
    else if rh > 1 + lh then
      match r with
      | .null => []
      | .node rl rv _ rr =>
        if height rl > height rr then [(rv, .RIGHT), (v, .LEFT)] else [(v, .LEFT)]
    else []

/-- The rotations made by the `do ... while (root)` loop that ends `add` and `remove`. -/
def rebalance_rotations : Node → List (Frame Nat) → List (Int × dir_t)
  | root, [] => balance_rotations root
  | root, n_root :: st =>
    balance_rotations root ++ rebalance_rotations (n_root.fill (balance root)) st

/-- The rotations made by one call of `add`. -/
def add_rotations (node : Node) (val : Int) : List (Int × dir_t) :=
  match node with
  | .null => []
  | .node _ _ _ _ =>
    match descend val node [] with
    | (.node _ _ _ _, _) => []
    | (.null, []) => []
    | (.null, top :: st) =>
      let root := top.fill .null
      let root := if val < top.val then root.setLeft (newNode val) else root.setRight (newNode val)
      rebalance_rotations root st

end AVLTree

/-! ## SplayTree: a sample tree -/

namespace SplayTree

/-- A three-node splay tree used to exercise the theorems on a concrete input: root 10 with
the children 5 and 15. -/
def sampleTree : Node :=
  .node (.node .null 5 () .null) 10 () (.node .null 15 () .null)

end SplayTree
/-! ## BTree: the search-tree order, and the splits a call performs -/

namespace BTree

/-- Every key below `children[i]` lies strictly between `keys[i-1]` and `keys[i]`, as far as
these keys exist. -/
def ChildrenBetween (ks : List Int) (cs : List Node) : Prop :=
  ∀ (i : Nat) (c : Node), cs[i]? = some c → ∀ x ∈ c.allKeys,
    (∀ k, ks[i]? = some k → x < k) ∧ (∀ j k, i = j + 1 → ks[j]? = some k → k < x)

mutual
/-- The search-tree order stated node by node, as `validateNode` of the test suite checks it:
the keys of every node are strictly ascending and every key below `children[i]` lies strictly
between `keys[i-1]` and `keys[i]`. -/
def Node.SearchOrder : Node → Prop
  | .mk ks cs _ => Ascending ks ∧ ChildrenBetween ks cs ∧ SearchOrderList cs
/-- The search-tree order in every node of a child list. -/
def SearchOrderList : List Node → Prop
  | [] => True
  | c :: cs => c.SearchOrder ∧ SearchOrderList cs
end

/-- The search-tree order on the root pointer. -/
def TreeOrdered : Option Node → Prop
  | none => True
  | some r => r.SearchOrder

/-- Number of calls of `split_divide` made by the descent loop of `add`, for at most `fuel`
levels. -/
def add_loop_splits (N : Nat) : Nat → Node → Int → Nat
  | 0, _, _ => 0
  | fuel + 1, curr, val =>
    let idx := bin_search curr val
    if 0 ≤ idx ∧ val = curr.key idx.toNat then 0
    else
      let i := (idx + 1).toNat
      if curr.leaf then 0
      else if (curr.child i).num_keys = 2 * N - 1 then
        let curr_node := curr.child i
        let median := curr_node.key (N - 1)
        let halves := split_divide N curr_node
        if val < median then 1 + add_loop_splits N fuel halves.1 val
        else if val = median then 1
        else 1 + add_loop_splits N fuel halves.2 val
      else add_loop_splits N fuel (curr.child i) val

/-- Number of calls of `split_divide` made by one call of `add`: the split of a full root
and the splits of the descent loop. -/
def add_splits (N : Nat) (root : Option Node) (val : Int) : Nat :=
  match root with
  | none => 0
  | some curr =>
    if curr.num_keys = 2 * N - 1 then
      let top : Node :=
        .mk [curr.key (N - 1)] [(split_divide N curr).1, (split_divide N curr).2] false
      1 + add_loop_splits N top.depth top val
    else add_loop_splits N curr.depth curr val

/-- Adding a list of keys one after the other: the final root pointer and the total number
of calls of `split_divide`. -/
def add_all (N : Nat) : Option Node → List Int → Option Node × Nat
  | root, [] => (root, 0)
  | root, k :: ks =>
    let r := add_all N (add N root k).2 ks
    (r.1, add_splits N root k + r.2)

/-- A full leaf as root, for `N = 2`. -/
def fullRoot : Option Node := some (.mk [1, 2, 3] [] true)

end BTree
/-! ## Definitions for the concrete, depth, comparator, copy, move and clear statements -/

namespace RBTree

/-- The number of black nodes met on each path from this pointer down to a null pointer,
listed from the leftmost path to the rightmost. -/
def pathBlacks : Node → List Nat
  | .null => [0]
  | .node l _ c r => (pathBlacks l ++ pathBlacks r).map (fun n => n + (if c = .BLACK then 1 else 0))

end RBTree

namespace SplayTree

/-- The call sequence `add(1), add(2), ..., add(n)`. -/
def ascendingAdds : Nat → List Op
  | 0 => []
  | n + 1 => ascendingAdds n ++ [.add ((n : Int) + 1)]

/-- The tree in which `n` is the root, `n - 1` its left child, `n - 2` the left child of that
one, and so on down to 1; no node has a right child. -/
def leftChain : Nat → Node
  | 0 => .null
  | n + 1 => .node (leftChain n) ((n : Int) + 1) () .null

end SplayTree

/-- The search loop `for (; root && root->val != val; root = less_than(val, root->val) ?
root->left : root->right)` for an arbitrary comparator object `less_than`: whether the loop
stops is decided by `!=` on the keys, the comparator only chooses the side. -/
def descend_with {μ : Type} (less_than : Int → Int → Bool) (val : Int) :
    TreeNode μ → List (Frame μ) → TreeNode μ × List (Frame μ)
  | .null, st => (.null, st)
  | .node l v m r, st =>
    if v ≠ val then
      if less_than val v then descend_with less_than val l (⟨.LEFT, v, m, r⟩ :: st)
      else descend_with less_than val r (⟨.RIGHT, v, m, l⟩ :: st)
    else (.node l v m r, st)

/-- The requirements on a `Compare` object: irreflexive, transitive, and with a transitive
equivalence (two keys are equivalent when neither is ordered before the other). -/
def StrictWeakOrder (less_than : Int → Int → Bool) : Prop :=
  (∀ a, less_than a a = false) ∧
  (∀ a b c, less_than a b = true → less_than b c = true → less_than a c = true) ∧
  (∀ a b c, less_than a b = false → less_than b a = false → less_than b c = false →
    less_than c b = false → less_than a c = false ∧ less_than c a = false)

/-- A comparator on `int` other than `std::less<int>`: order by absolute value. -/
def abs_less (a b : Int) : Bool := decide (a.natAbs < b.natAbs)

namespace AVLTree

/-- The member function `find` of `AVLTree<int, Compare>` for the comparator `less_than`. -/
def find_with (less_than : Int → Int → Bool) (node : Node) (val : Int) : Bool :=
  match (descend_with less_than val node []).1 with
  | .null => false
  | .node _ _ _ _ => true

/-- The member function `add` of `AVLTree<int, Compare>` for the comparator `less_than`. -/
def add_with (less_than : Int → Int → Bool) (node : Node) (val : Int) : Bool × Node :=
  match node with
  | .null => (true, newNode val)
  | .node _ _ _ _ =>
    match descend_with less_than val node [] with
    | (.node _ _ _ _, _) => (false, node)
    | (.null, []) => (false, node)
    | (.null, top :: st) =>
      let root := top.fill .null
      let root :=
        if less_than val top.val then root.setLeft (newNode val) else root.setRight (newNode val)
      (true, rebalance root st)

end AVLTree

/-- Key sequence strictly ascending under the comparator `less_than`. -/
def SortedBy (less_than : Int → Int → Bool) (l : List Int) : Prop :=
  l.Pairwise (fun a b => less_than a b = true)

instance (less_than : Int → Int → Bool) (l : List Int) : Decidable (SortedBy less_than l) := by
  unfold SortedBy; infer_instance

/-- A comparator under which no two distinct keys are equivalent. -/
def SeparatesKeys (less_than : Int → Int → Bool) : Prop :=
  ∀ a b, less_than a b = false → less_than b a = false → a = b

/-- The comparator `std::greater<int>`. -/
def greater (a b : Int) : Bool := decide (b < a)

namespace AVLTree

/-- A tree built with `std::greater<int>`, used to exercise the theorems on a concrete input:
20 over 30 on the left and 10 on the right. -/
def sampleGreater : Node := .node (.node .null 30 1 .null) 20 2 (.node .null 10 1 .null)

end AVLTree

namespace AVLTree

/-- The tree built from the empty tree by the calls `add(k)` for the keys of a list, in
order, under the comparator `less_than`. -/
def build_with (less_than : Int → Int → Bool) (ks : List Int) : Node :=
  ks.foldl (fun t k => (add_with less_than t k).2) .null

end AVLTree

namespace TreeNode

variable {μ : Type}

/-- The statement `if (c) st.push(c);` of the private function `clear`. -/
def push_child : TreeNode μ → List (TreeNode μ) → List (TreeNode μ)
  | null, st => st
  | node l v m r, st => node l v m r :: st

/-- The loop `while (!st.empty())` of the private function `clear(TreeNode *node)`, the same
text in avl_tree.h, rbtree.h and splay_tree.h.  The stack holds the nodes still to delete,
top first, each with the children it still points to; `freed` collects the keys of the
deleted nodes.  A top with a child pushes its children and forgets them, a top without
children is deleted and popped.  Returns the deleted keys once the stack is empty, `none`
when the iterations granted do not suffice. -/
def clear_loop : Nat → List (TreeNode μ) → List Int → Option (List Int)
  | _, [], freed => some freed
  | 0, _ :: _, _ => none
  | _ + 1, null :: _, _ => none
  | fuel + 1, node null v _ null :: st, freed => clear_loop fuel st (v :: freed)
  | fuel + 1, node l v m r :: st, freed =>
    clear_loop fuel (push_child r (push_child l (node null v m null :: st))) freed

/-- Number of nodes of a subtree. -/
def size : TreeNode μ → Nat
  | null => 0
  | node l _ _ r => size l + size r + 1

/-- Iterations the loop of `clear` spends on a subtree: one to delete each node and one more
for each node that has a child. -/
def clearCost : TreeNode μ → Nat
  | null => 0
  | node null _ _ null => 1
  | node l _ _ r => clearCost l + clearCost r + 2

/-- The private function `clear(TreeNode *node)`: the keys of the nodes it deletes.  The loop
is given two iterations per node, which it never exhausts (`clear_nodes_spec`). -/
def clear_nodes : TreeNode μ → Option (List Int)
  | null => some []
  | node l v m r => clear_loop (2 * size (node l v m r)) [node l v m r] []

/-- The member function `clear()`: `clear(node); node = nullptr;`.  Returns the new root
pointer. -/
def clear (node : TreeNode μ) : Option (TreeNode μ) :=
  match clear_nodes node with
  | none => none
  | some _ => some null

end TreeNode

namespace AVLTree

/-- A `TreeNode` object in memory.  A pointer is the address of an object, `none` for
`nullptr`. -/
structure Cell where
  val : Int
  left : Option Nat
  right : Option Nat
  height : Nat
deriving DecidableEq

/-- The `TreeNode` objects allocated so far: the address of an object is its position in the
list, and `new` appends one. -/
abbrev Heap := List Cell

/-- Reading a member through a pointer, `p->field`; `none` on an address never allocated. -/
def Heap.read {α : Type} (h : Heap) (p : Nat) (field : Cell → α) : Option α :=
  (h[p]?).map field

/-- Assigning to a member through a pointer, `p->field = ...`. -/
def Heap.write (h : Heap) (p : Nat) (f : Cell → Cell) : Heap :=
  match h[p]? with
  | none => h
  | some c => h.set p (f c)

/-- The pointer `p` in memory `h` is the root of the tree `t` (same shape, keys and stored
heights), and every object of that tree has its address in `lo ≤ address < hi`. -/
def Stored (h : Heap) (lo hi : Nat) : Option Nat → Node → Prop
  | none, .null => True
  | some p, .node l v ht r =>
    lo ≤ p ∧ p < hi ∧ ∃ c, h[p]? = some c ∧ c.val = v ∧ c.height = ht ∧
      Stored h lo hi c.left l ∧ Stored h lo hi c.right r
  | none, .node _ _ _ _ => False
  | some _, .null => False

/-- The lambda `copy` of the copy constructor, called on the pointer `root`: the pointer it
returns and the memory afterwards.  The recursion depth is limited by `fuel`; more than the
depth of the tree at `root` is never needed (`copy_spec`). -/
def copy : Nat → Heap → Option Nat → Option (Option Nat × Heap)
  | _, h, none => some (none, h)
  | 0, _, some _ => none
  | fuel + 1, h, some root =>
    match h.read root Cell.val with
    | none => none
    | some v =>
      let ret := h.length
      let h1 := h ++ [⟨v, none, none, 1⟩]
      match h1.read root Cell.height with
      | none => none
      | some ht =>
        let h2 := h1.write ret (fun c => { c with height := ht })
        match h2.read root Cell.left with
        | none => none
        | some l =>
          match copy fuel h2 l with
          | none => none
          | some (pl, h3) =>
            let h4 := h3.write ret (fun c => { c with left := pl })
            match h4.read root Cell.right with
            | none => none
            | some r =>
              match copy fuel h4 r with
              | none => none
              | some (pr, h5) => some (some ret, h5.write ret (fun c => { c with right := pr }))

/-- The copy constructor `AVLTree(const AVLTree &other)`: the root pointer of the new object
and the memory afterwards. -/
def copy_construct (fuel : Nat) (h : Heap) (other : Option Nat) : Option (Option Nat × Heap) :=
  copy fuel h other

/-- The move constructor `AVLTree(AVLTree &&other)`: `node(other.node)` and
`other.node = nullptr`.  Returns the root pointers of the new object and of `other`. -/
def move_construct (other : Node) : Node × Node := (other, .null)

/-- Move assignment between two distinct objects: `clear(node); node = other.node;
other.node = nullptr;`.  Returns the root pointers of the assigned object and of `other`. -/
def move_assign (node other : Node) : Option (Node × Node) :=
  match TreeNode.clear_nodes node with
  | none => none
  | some _ => some (other, .null)

end AVLTree

namespace AVLTree

/-- A memory holding one tree, used to exercise the copy on a concrete input: the root 10 (of
stored height 2) at address 0 and its left child 5 at address 1. -/
def sampleHeap : Heap := [⟨10, some 1, none, 2⟩, ⟨5, none, none, 1⟩]

/-- The tree held by `sampleHeap` at address 0. -/
def sampleSmall : Node := .node (.node .null 5 1 .null) 10 2 .null

end AVLTree
/-! ## BTree: what `add` writes and what the descent of `remove` enters and merges -/

namespace BTree

/-- What `add` writes into the arrays of a node.  `receive`: a node holding `held` keys takes
one more key (the leaf takes `val`, a parent or a new root takes a median); the writes go to
the slots `keys[..]` below `keys_end` and to the slots `children[..]` below `children_end`
(0 when no child slot is written).  `split`: the writes of one call of `split_divide` to the
two nodes it is given. -/
inductive AddEvent where
  | receive (held keys_end children_end : Nat) : AddEvent
  | split (keys_end children_end : Nat) : AddEvent
deriving DecidableEq, Repr

/-- The writes stay inside the arrays `keys[2 * N - 1]` and `children[2 * N]`, and a node that
takes a key is not full. -/
def AddEvent.InBounds (N : Nat) : AddEvent → Prop
  | .receive held keys_end children_end =>
    held < 2 * N - 1 ∧ keys_end ≤ 2 * N - 1 ∧ children_end ≤ 2 * N
  | .split keys_end children_end => keys_end ≤ 2 * N - 1 ∧ children_end ≤ 2 * N

instance (N : Nat) (e : AddEvent) : Decidable (e.InBounds N) := by
  cases e <;> unfold AddEvent.InBounds <;> infer_instance

/-- The events of the descent loop of `add`, in the order of the statements of `add_loop`.  A
leaf shifts `keys[i..num_keys)` up by one, so it writes up to `keys[num_keys]`; a parent of a
full child shifts keys and children likewise, so it writes up to `keys[num_keys]` and
`children[num_keys + 1]`; `split_divide` writes `keys[0..N-2]` and `children[0..N-1]` of the
new node and clears `children[N..2N-1]` of the old one. -/
def add_loop_events (N : Nat) : Nat → Node → Int → List AddEvent
  | 0, _, _ => []
  | fuel + 1, curr, val =>
    let idx := bin_search curr val
    if 0 ≤ idx ∧ val = curr.key idx.toNat then []
    else
      let i := (idx + 1).toNat
      if curr.leaf then [.receive curr.num_keys (curr.num_keys + 1) 0]
      else if (curr.child i).num_keys = 2 * N - 1 then
        let curr_node := curr.child i
        let median := curr_node.key (N - 1)
        let halves := split_divide N curr_node
        let evs : List AddEvent :=
          [.receive curr.num_keys (curr.num_keys + 1) (curr.num_keys + 2), .split (N - 1) (2 * N)]
        if val < median then evs ++ add_loop_events N fuel halves.1 val
        else if val = median then evs
        else evs ++ add_loop_events N fuel halves.2 val
      else add_loop_events N fuel (curr.child i) val

/-- The events of one call of `add`: the first key of an empty tree goes to `keys[0]` of a
new leaf; a full root hands its median to `keys[0]` of a new root, which also gets
`children[0]` and `children[1]`, and is split; then the descent loop. -/
def add_events (N : Nat) (root : Option Node) (val : Int) : List AddEvent :=
  match root with
  | none => [.receive 0 1 0]
  | some curr =>
    let top : Node :=
      if curr.num_keys = 2 * N - 1 then
        .mk [curr.key (N - 1)] [(split_divide N curr).1, (split_divide N curr).2] false
      else curr
    (if curr.num_keys = 2 * N - 1 then [AddEvent.receive 0 1 2, AddEvent.split (N - 1) (2 * N)]
      else []) ++ add_loop_events N top.depth top val

end BTree

namespace BTree

/-- What the descent of `remove` does to the nodes.  `enter`: the statement
`node = node->children[..]` moves into a child holding `held` keys.  `merge`: a call
`merge(mer_node, adj_node, median)` on nodes holding `mer` and `adj` keys, after which
`mer_node` holds `merged` keys. -/
inductive RemoveEvent where
  | enter (held : Nat) : RemoveEvent
  | merge (mer adj merged : Nat) : RemoveEvent
deriving DecidableEq, Repr

/-- A node that is entered holds at least `N` keys; a merge takes two nodes of `N - 1` keys
each and leaves one of `2N - 1` keys. -/
def RemoveEvent.Ok (N : Nat) : RemoveEvent → Prop
  | .enter held => N ≤ held
  | .merge mer adj merged => mer = N - 1 ∧ adj = N - 1 ∧ merged = 2 * N - 1

instance (N : Nat) (e : RemoveEvent) : Decidable (e.Ok N) := by
  cases e <;> unfold RemoveEvent.Ok <;> infer_instance

/-- The event of the call `merge(mer_node, adj_node, median)`. -/
def merge_event (N : Nat) (mer_node adj_node : Node) (median : Int) : RemoveEvent :=
  .merge mer_node.num_keys adj_node.num_keys (merge N mer_node adj_node median).num_keys

/-- The events of the descent loop of `remove`, in the order of the statements of
`remove_loop`: in each iteration the merge, if one is made, and the child the loop moves
into. -/
def remove_loop_events (N : Nat) : Nat → Node → Int → List RemoveEvent
  | 0, _, _ => []
  | fuel + 1, node, val =>
    let idx := bin_search node val
    if node.leaf then []
    else if 0 ≤ idx ∧ node.key idx.toNat = val then
      let i := idx.toNat
      if N ≤ (node.child i).num_keys then
        let s := swap_pred fuel (node.child i) val
        .enter s.2.num_keys :: remove_loop_events N fuel s.2 val
      else if N ≤ (node.child (i + 1)).num_keys then
        let s := swap_succ fuel (node.child (i + 1)) val
        .enter s.2.num_keys :: remove_loop_events N fuel s.2 val
      else
        let node2 := merge_right N node i
        merge_event N (node.child i) (node.child (i + 1)) (node.key i) ::
          .enter (node2.child i).num_keys :: remove_loop_events N fuel (node2.child i) val
    else
      let i := (idx + 1).toNat
      if N ≤ (node.child i).num_keys then
        .enter (node.child i).num_keys :: remove_loop_events N fuel (node.child i) val
      else if i = 0 then
        if N ≤ (node.child (i + 1)).num_keys then
          let node2 := left_shift node i
          .enter (node2.child i).num_keys :: remove_loop_events N fuel (node2.child i) val
        else
          let node2 := merge_right N node i
          merge_event N (node.child i) (node.child (i + 1)) (node.key i) ::
            .enter (node2.child i).num_keys :: remove_loop_events N fuel (node2.child i) val
      else if i = node.num_keys then
        if N ≤ (node.child (i - 1)).num_keys then
          let node2 := right_shift node i
          .enter (node2.child i).num_keys :: remove_loop_events N fuel (node2.child i) val
        else
          let node2 := merge_last N node i
          merge_event N (node.child (i - 1)) (node.child i) (node.key (i - 1)) ::
            .enter (node2.child (i - 1)).num_keys ::
              remove_loop_events N fuel (node2.child (i - 1)) val
      else
        if N ≤ (node.child (i + 1)).num_keys then
          let node2 := left_shift node i
          .enter (node2.child i).num_keys :: remove_loop_events N fuel (node2.child i) val
        else if N ≤ (node.child (i - 1)).num_keys then
          let node2 := right_shift node i
          .enter (node2.child i).num_keys :: remove_loop_events N fuel (node2.child i) val
        else
          let node2 := merge_right N node i
          merge_event N (node.child i) (node.child (i + 1)) (node.key i) ::
            .enter (node2.child i).num_keys :: remove_loop_events N fuel (node2.child i) val

/-- The events of one call of `remove`: the merge of the two children of a one-key root, if
it is made (the merged node becomes the root), then the descent loop. -/
def remove_events (N : Nat) (root : Option Node) (val : Int) : List RemoveEvent :=
  match root with
  | none => []
  | some r =>
    let top : Node :=
      if r.num_keys = 1 ∧ r.children.length ≠ 0 ∧ (r.child 0).num_keys = N - 1 ∧
          (r.child 1).num_keys = N - 1 then
        merge N (r.child 0) (r.child 1) (r.key 0)
      else r
    (if r.num_keys = 1 ∧ r.children.length ≠ 0 ∧ (r.child 0).num_keys = N - 1 ∧
          (r.child 1).num_keys = N - 1 then
        [merge_event N (r.child 0) (r.child 1) (r.key 0)]
      else []) ++ remove_loop_events N top.depth top val

/-- A B-tree of three levels for `N = 2`, every node below the root holding one key: the
descent of `remove` has to merge on its way. -/
def thinRoot : Option Node :=
  some (.mk [40]
    [.mk [20] [.mk [10] [] true, .mk [30] [] true] false,
      .mk [60] [.mk [50] [] true, .mk [70] [] true] false] false)

end BTree
/-! ## Definitions for the statements on rotations, assertions, the red-black root, the
passes of `black_leaf_delete`, child slots and parent pointers -/

namespace AVLTree

/-- The stored height of this node is 1 + the maximum of the stored heights of its children
(0 for a null child), which is what `update_height` assigns. -/
def StoredHeightOK : Node → Prop
  | .null => True
  | .node l _ h r => h = 1 + max (height l) (height r)

instance (t : Node) : Decidable (StoredHeightOK t) := by
  cases t <;> unfold StoredHeightOK <;> infer_instance

end AVLTree

namespace RBTree

/-- The constructor `RBTree(const T &val)`: `node = new TreeNode(val);`.  Returns the root
pointer; the colour is the one `TreeNode(val)` gives, RED. -/
def construct (val : Int) : Node := newNode val

end RBTree

namespace RBTree

/-- The farthest ancestor of a position, if there is one (it is the root of the tree), is
black. -/
def LastBlack (st : List (Frame color_t)) : Prop :=
  ∀ f, st.getLast? = some f → f.tag = .BLACK

end RBTree

namespace SplayTree

/-- The member function `remove` with its two `assert`s: `none` when one of them fails (or
when `node->val` would be read through a null root), otherwise what `remove` returns.  The
first is `assert(node->val == val)` after the successful `find`; the second is
`assert(in_ord_suc->children[D_RIGHT] == nullptr)` after `fix(in_ord_suc)`, where
`in_ord_suc` is then the root of the former left subtree. -/
def remove_checked (node : Node) (val : Int) : Option (Bool × Node) :=
  match find node val with
  | (false, t) => some (false, t)
  | (true, .null) => none
  | (true, .node left v _ right) =>
    if v = val then
      match left with
      | .null => some (true, right)
      | .node a x m b =>
        let s := rightmost (.node a x m b) []
        let in_ord_suc := fix s.1 s.2
        match in_ord_suc.child .RIGHT with
        | .null => some (true, in_ord_suc.setRight right)
        | .node _ _ _ _ => none
    else none

end SplayTree

namespace RBTree

/-- What one pass through the loop of `black_leaf_delete` does.  `S` is the sibling pointer
read by `S = P->children[1 - dir]` and dereferenced in the next statement; `new_S` is, in the
red-sibling branch, the pointer assigned by `S = C` and dereferenced after the rotation;
`rotations` is the number of calls of `left_rotate` / `right_rotate` made up to the `return`;
`up` tells that the pass ends with `N = P` and the loop goes on one level higher. -/
structure Pass where
  S : Node
  new_S : Option Node
  rotations : Nat
  up : Bool
deriving DecidableEq, Repr

/-- The passes of `black_leaf_delete`, in order, with the case analysis of
`black_leaf_delete`: a red sibling costs one rotation and then none (recolouring), one (`D6`)
or two more (`D5`, `D6`); a black sibling with a red far nephew one (`D6`), with a red near
nephew two (`D5`, `D6`); a red parent none; otherwise the pass moves up. -/
def black_leaf_delete_passes : Node → List (Frame color_t) → List Pass
  | _, [] => []
  | N, P :: rest =>
    let dir := P.dir
    let t := P.fill N
    let S := P.other
    let D := S.child dir.flip
    let C := S.child dir
    if is_red S then
      [⟨S, some C,
        1 + (if is_red (C.child dir.flip) then 1 else if is_red (C.child dir) then 2 else 0),
        false⟩]
    else if is_red D then [⟨S, none, 1, false⟩]
    else if is_red C then [⟨S, none, 2, false⟩]
    else if P.tag = .RED then [⟨S, none, 0, false⟩]
    else
      ⟨S, none, 0, true⟩ ::
        black_leaf_delete_passes (t.setChild dir.flip (S.setTag .RED)) rest

/-- The ancestors with which `remove_node` calls `black_leaf_delete`, `none` when it does not
call it (the patterns are those of `remove_node`). -/
def remove_node_call : Node → List (Frame color_t) → Option (List (Frame color_t))
  | .null, _ => none
  | .node (.node _ _ _ _) _ _ .null, _ => none
  | .node .null _ _ (.node _ _ _ _), _ => none
  | .node _ _ _ _, [] => none
  | .node l v c r, P :: rest =>
    if is_red (.node l v c r) then none else some (P :: rest)

/-- The ancestors of the black leaf for which `remove` calls `black_leaf_delete`, nearest
first, `none` when it does not call it (the patterns are those of `remove`).  The length of
the list is the depth of the removed leaf. -/
def remove_call (node : Node) (val : Int) : Option (List (Frame color_t)) :=
  match descend val node [] with
  | (.null, _) => none
  | (.node (.node ll lv lc lr) _ c (.node rl rv rc rr), st) =>
    match leftmost (.node rl rv rc rr) [] with
    | (.null, _) => none
    | (.node sl sv sc sr, seg) =>
      remove_node_call (.node sl val sc sr)
        (seg ++ (⟨.RIGHT, sv, c, .node ll lv lc lr⟩ : Frame color_t) :: st)
  | (del_node, st) => remove_node_call del_node st

end RBTree

/-! ## BTree with all slots (B_Trees/btree.h)

The model of `BTree` above keeps the live slots of a node only.  The one below keeps the
whole arrays `keys[2N - 1]` and `children[2N]` with what the code leaves in the slots behind
the live ones, which is what the copy constructor reads. -/

namespace BTree.Slot

/-- A `Node *` of `BTree<int, N>`: null, or a node with its arrays `keys[2N - 1]` and
`children[2N]` and the fields `num_keys` and `leaf`.  A child slot holds the value of the
node it points to at the time of the assignment, so that a slot behind `children[num_keys]`
keeps the value it was given last; whether a slot is null is what the pointer in the code
is.  Keys of `new Node`, which the code leaves uninitialised, are 0. -/
inductive Node where
  | null : Node
  | mk (keys : List Int) (children : List Node) (num_keys : Nat) (leaf : Bool) : Node
deriving Repr

namespace Node

/-- The array `keys`. -/
def keys : Node → List Int
  | null => []
  | mk ks _ _ _ => ks

/-- The array `children`. -/
def children : Node → List Node
  | null => []
  | mk _ cs _ _ => cs

/-- The field `num_keys`. -/
def num_keys : Node → Nat
  | null => 0
  | mk _ _ n _ => n

/-- The field `leaf`. -/
def leaf : Node → Bool
  | null => false
  | mk _ _ _ b => b

/-- The test `node != nullptr`. -/
def isNode : Node → Bool
  | null => false
  | mk _ _ _ _ => true

/-- The key `keys[i]`. -/
def key (n : Node) (i : Nat) : Int := n.keys.getD i 0

/-- The pointer `children[i]`. -/
def child (n : Node) (i : Nat) : Node := n.children.getD i null

/-- The assignment `keys[i] = k`. -/
def setKey : Node → Nat → Int → Node
  | null, _, _ => null
  | mk ks cs n b, i, k => mk (ks.set i k) cs n b

/-- The assignment `children[i] = c`. -/
def setChild : Node → Nat → Node → Node
  | null, _, _ => null
  | mk ks cs n b, i, c => mk ks (cs.set i c) n b

/-- The assignment `num_keys = k`. -/
def setNumKeys : Node → Nat → Node
  | null, _ => null
  | mk ks cs _ b, k => mk ks cs k b

/-- The assignment `leaf = b`. -/
def setLeaf : Node → Bool → Node
  | null, _ => null
  | mk ks cs n _, b => mk ks cs n b

end Node

/-- The expression `new Node`: `children[2N] = {nullptr}`, `num_keys(0)`, `leaf(false)`. -/
def new_node (N : Nat) : Node :=
  .mk (List.replicate (2 * N - 1) 0) (List.replicate (2 * N) .null) 0 false

mutual
/-- Number of nodes on the path through `children[0]` from a node down to a null pointer. -/
def Node.depth : Node → Nat
  | .null => 0
  | .mk _ cs _ _ => depthList cs + 1
/-- Depth below the first slot of a child array. -/
def depthList : List Node → Nat
  | [] => 0
  | c :: _ => c.depth
end

/-- The function `bin_search` on the keys `keys[0..num_keys)`. -/
def bin_search (node : Node) (val : Int) : Int :=
  bin_search_loop node.keys val node.num_keys 0 ((node.num_keys : Int) - 1)

/-- The function `split_divide(curr, adj_node)`: the two nodes after the call.  The loop
runs over `i = N, ..., 2N - 2`. -/
def split_divide (N : Nat) (curr adj_node : Node) : Node × Node :=
  let adj1 := (adj_node.setLeaf curr.leaf).setNumKeys (N - 1)
  let curr1 := curr.setNumKeys (N - 1)
  let r := (List.range' N (N - 1)).foldl
    (fun (p : Node × Node) i =>
      (p.1.setChild i .null,
        (p.2.setKey (i - N) (p.1.key i)).setChild (i - N) (p.1.child i)))
    (curr1, adj1)
  (r.1.setChild (2 * N - 1) .null, r.2.setChild (N - 1) (r.1.child (2 * N - 1)))

/-- The function `merge(mer_node, adj_node, median)`: `mer_node` after the call.  The loop
runs over `i = num_keys, ..., 2N - 2` and increments `num_keys` with `i`. -/
def merge (N : Nat) (mer_node adj_node : Node) (median : Int) : Node :=
  let m1 := (mer_node.setKey mer_node.num_keys median).setNumKeys (mer_node.num_keys + 1)
  let m2 := (List.range' m1.num_keys (2 * N - 1 - m1.num_keys)).foldl
    (fun (m : Node) i =>
      ((m.setKey i (adj_node.key (i - N))).setChild i (adj_node.child (i - N))).setNumKeys
        (m.num_keys + 1))
    m1
  m2.setChild m2.num_keys (adj_node.child (m2.num_keys - N))

/-- The function `left_shift(root, idx)`: `root` after the call, with the two changed
children stored back in their slots.  The loop runs over `i = 0, ..., num_keys - 1` of the
decremented `num_keys` of `right`, and the statement behind it copies `children[i + 1]` for
`i = num_keys`; the slot `children[num_keys + 1]` it reads is not written. -/
def left_shift (root : Node) (idx : Nat) : Node :=
  let left := root.child idx
  let right := root.child (idx + 1)
  let left1 := (left.setKey left.num_keys (root.key idx)).setNumKeys (left.num_keys + 1)
  let left2 := left1.setChild left1.num_keys (right.child 0)
  let root1 := root.setKey idx (right.key 0)
  let right1 := right.setNumKeys (right.num_keys - 1)
  let right2 := (List.range' 0 right1.num_keys).foldl
    (fun (r : Node) i => (r.setKey i (r.key (i + 1))).setChild i (r.child (i + 1))) right1
  let right3 := right2.setChild right1.num_keys (right2.child (right1.num_keys + 1))
  (root1.setChild idx left2).setChild (idx + 1) right3

/-- The function `right_shift(root, idx)`: `root` after the call, with the two changed
children stored back in their slots.  The loop runs over `i = num_keys - 1, ..., 1` of the
incremented `num_keys` of `right`; `left->children[left->num_keys--]` is read and the slot
is not written. -/
def right_shift (root : Node) (idx : Nat) : Node :=
  let left := root.child (idx - 1)
  let right := root.child idx
  let right1 := right.setNumKeys (right.num_keys + 1)
  let right2 := right1.setChild right1.num_keys (right1.child (right1.num_keys - 1))
  let right3 := (List.range' 1 (right2.num_keys - 1)).foldr
    (fun i (r : Node) => (r.setKey i (r.key (i - 1))).setChild i (r.child (i - 1))) right2
  let right4 := right3.setKey 0 (root.key (idx - 1))
  let right5 := right4.setChild 0 (left.child left.num_keys)
  let left1 := left.setNumKeys (left.num_keys - 1)
  let root1 := root.setKey (idx - 1) (left1.key left1.num_keys)
  (root1.setChild (idx - 1) left1).setChild idx right5

/-- The function `merge_right(node, idx)`: `node` after the call.  The loop runs over
`i = idx + 1, ..., num_keys - 1`; then `children[num_keys] = nullptr; num_keys--`. -/
def merge_right (N : Nat) (node : Node) (idx : Nat) : Node :=
  let merged := merge N (node.child idx) (node.child (idx + 1)) (node.key idx)
  let node1 := node.setChild idx merged
  let node2 := (List.range' (idx + 1) (node1.num_keys - (idx + 1))).foldl
    (fun (n : Node) i => (n.setKey (i - 1) (n.key i)).setChild i (n.child (i + 1))) node1
  (node2.setChild node2.num_keys .null).setNumKeys (node2.num_keys - 1)

/-- Case 3b of `remove` for the rightmost child `idx == num_keys`: `merge` into
`children[idx - 1]`, then `children[idx] = nullptr; num_keys--`. -/
def merge_last (N : Nat) (node : Node) (idx : Nat) : Node :=
  let merged := merge N (node.child (idx - 1)) (node.child idx) (node.key (idx - 1))
  let node1 := node.setChild (idx - 1) merged
  (node1.setChild idx .null).setNumKeys (node1.num_keys - 1)

/-- The descent loop `while (curr)` of `add`, for at most `fuel` levels: the returned boolean
and the node `curr` as the loop leaves it.  The two shifting loops run over
`idx = num_keys, ..., i + 1` and increment `num_keys` first. -/
def add_loop (N : Nat) : Nat → Node → Int → Bool × Node
  | 0, curr, _ => (false, curr)
  | fuel + 1, curr, val =>
    let idx := bin_search curr val
    if 0 ≤ idx ∧ val = curr.key idx.toNat then (false, curr)
    else
      let i := (idx + 1).toNat
      if curr.leaf then
        let c1 := curr.setNumKeys (curr.num_keys + 1)
        let c2 := (List.range' (i + 1) (curr.num_keys - i)).foldr
          (fun idx (c : Node) => c.setKey idx (c.key (idx - 1))) c1
        (true, c2.setKey i val)
      else if (curr.child i).num_keys = 2 * N - 1 then
        let curr_node := curr.child i
        let c1 := curr.setNumKeys (curr.num_keys + 1)
        let c2 := (List.range' (i + 1) (curr.num_keys - i)).foldr
          (fun idx (c : Node) =>
            (c.setKey idx (c.key (idx - 1))).setChild (idx + 1) (c.child idx)) c1
        let c3 := c2.setKey i (curr_node.key (N - 1))
        let halves := split_divide N curr_node (new_node N)
        let c4 := (c3.setChild i halves.1).setChild (i + 1) halves.2
        if val < c4.key i then
          let r := add_loop N fuel halves.1 val
          (r.1, c4.setChild i r.2)
        else if val = c4.key i then (false, c4)
        else
          let r := add_loop N fuel halves.2 val
          (r.1, c4.setChild (i + 1) r.2)
      else
        let r := add_loop N fuel (curr.child i) val
        (r.1, curr.setChild i r.2)

/-- The member function `add`: the returned boolean and the new root pointer. -/
def add (N : Nat) (root : Node) (val : Int) : Bool × Node :=
  match root with
  | .null => (true, (((new_node N).setLeaf true).setKey 0 val).setNumKeys 1)
  | curr =>
    let top : Node :=
      if curr.num_keys = 2 * N - 1 then
        let new_root := (((new_node N).setLeaf false).setNumKeys 1).setKey 0 (curr.key (N - 1))
        let halves := split_divide N curr (new_node N)
        (new_root.setChild 0 halves.1).setChild 1 halves.2
      else curr
    add_loop N top.depth top val

/-- Case 2a of `remove`: the walk to the in-order predecessor through
`src->children[src->num_keys]` and the swap of the keys, seen from the subtree. -/
def swap_pred : Nat → Node → Int → Int × Node
  | 0, src, val => (val, src)
  | fuel + 1, src, val =>
    if (src.child src.num_keys).isNode then
      let r := swap_pred fuel (src.child src.num_keys) val
      (r.1, src.setChild src.num_keys r.2)
    else (src.key (src.num_keys - 1), src.setKey (src.num_keys - 1) val)

/-- Case 2b of `remove`: the walk to the in-order successor through `src->children[0]` and
the swap of the keys, seen from the subtree. -/
def swap_succ : Nat → Node → Int → Int × Node
  | 0, src, val => (val, src)
  | fuel + 1, src, val =>
    if (src.child 0).isNode then
      let r := swap_succ fuel (src.child 0) val
      (r.1, src.setChild 0 r.2)
    else (src.key 0, src.setKey 0 val)

/-- The descent loop `while (!node->leaf)` of `remove` and the deletion from the leaf, for at
most `fuel` levels: the returned boolean and `node` as the loop leaves it.  The loop of the
deletion runs over `i = idx + 1, ..., num_keys - 1`. -/
def remove_loop (N : Nat) : Nat → Node → Int → Bool × Node
  | 0, node, _ => (false, node)
  | fuel + 1, node, val =>
    let idx := bin_search node val
    if node.leaf then
      if 0 ≤ idx ∧ node.key idx.toNat = val then
        let n1 := (List.range' (idx.toNat + 1) (node.num_keys - (idx.toNat + 1))).foldl
          (fun (n : Node) i => n.setKey (i - 1) (n.key i)) node
        (true, n1.setNumKeys (n1.num_keys - 1))
      else (false, node)
    else if 0 ≤ idx ∧ node.key idx.toNat = val then
      let i := idx.toNat
      if N ≤ (node.child i).num_keys then
        -- 2a
        let s := swap_pred fuel (node.child i) val
        let r := remove_loop N fuel s.2 val
        (r.1, (node.setKey i s.1).setChild i r.2)
      else if N ≤ (node.child (i + 1)).num_keys then
        -- 2b
        let s := swap_succ fuel (node.child (i + 1)) val
        let r := remove_loop N fuel s.2 val
        (r.1, (node.setKey i s.1).setChild (i + 1) r.2)
      else
        -- 2c
        let node2 := merge_right N node i
        let r := remove_loop N fuel (node2.child i) val
        (r.1, node2.setChild i r.2)
    else
      let i := (idx + 1).toNat
      if N ≤ (node.child i).num_keys then
        let r := remove_loop N fuel (node.child i) val
        (r.1, node.setChild i r.2)
      else if i = 0 then
        if N ≤ (node.child (i + 1)).num_keys then
          let node2 := left_shift node i
          let r := remove_loop N fuel (node2.child i) val
          (r.1, node2.setChild i r.2)
        else
          let node2 := merge_right N node i
          let r := remove_loop N fuel (node2.child i) val
          (r.1, node2.setChild i r.2)
      else if i = node.num_keys then
        if N ≤ (node.child (i - 1)).num_keys then
          let node2 := right_shift node i
          let r := remove_loop N fuel (node2.child i) val
          (r.1, node2.setChild i r.2)
        else
          let node2 := merge_last N node i
          let r := remove_loop N fuel (node2.child (i - 1)) val
          (r.1, node2.setChild (i - 1) r.2)
      else
        if N ≤ (node.child (i + 1)).num_keys then
          let node2 := left_shift node i
          let r := remove_loop N fuel (node2.child i) val
          (r.1, node2.setChild i r.2)
        else if N ≤ (node.child (i - 1)).num_keys then
          let node2 := right_shift node i
          let r := remove_loop N fuel (node2.child i) val
          (r.1, node2.setChild i r.2)
        else
          let node2 := merge_right N node i
          let r := remove_loop N fuel (node2.child i) val
          (r.1, node2.setChild i r.2)

/-- The member function `remove`: the returned boolean and the new root pointer. -/
def remove (N : Nat) (root : Node) (val : Int) : Bool × Node :=
  match root with
  | .null => (false, .null)
  | r =>
    let top : Node :=
      if r.num_keys = 1 ∧ (r.child 0).isNode = true ∧ (r.child 0).num_keys = N - 1 ∧
          (r.child 1).num_keys = N - 1 then
        merge N (r.child 0) (r.child 1) (r.key 0)
      else r
    let res := remove_loop N top.depth top val
    if res.1 = true ∧ res.2.num_keys = 0 then (true, .null) else res

/-- The loop of `find`, for at most `fuel` levels. -/
def find_loop : Nat → Node → Int → Bool
  | 0, _, _ => false
  | fuel + 1, node, val =>
    if node.isNode then
      let idx := bin_search node val
      if idx < 0 then find_loop fuel (node.child 0) val
      else if node.key idx.toNat = val then true
      else find_loop fuel (node.child (idx.toNat + 1)) val
    else false

/-- The member function `find` on the root pointer; the loop ends at the null pointer under
a leaf, so one iteration more than the depth is enough. -/
def find (root : Node) (val : Int) : Bool := find_loop (root.depth + 1) root val

/-- One call of the contract on the root pointer. -/
def step (N : Nat) (root : Node) : Op → Bool × Node
  | .add k => add N root k
  | .find k => (find root k, root)
  | .remove k => remove N root k

mutual
/-- The condition on a subtree: in every node reached through the live slots
`children[0..num_keys]`, the slots `children[num_keys + 1 ..]` are null. -/
def Node.deadSlotsNull : Node → Bool
  | .null => true
  | .mk _ cs n _ => slotsOK cs (n + 1)
/-- The condition on a child array of which the first `live` slots are live. -/
def slotsOK : List Node → Nat → Bool
  | [], _ => true
  | c :: cs, 0 => !c.isNode && slotsOK cs 0
  | c :: cs, live + 1 => c.deadSlotsNull && slotsOK cs live
end

mutual
/-- The number of `new Node` in the lambda `copy` of the copy constructor, which follows all
`2N` child slots of every node, counted on the values the slots hold.  A slot behind the live
ones holds the node as it was when the slot was assigned; this is the count of the code as
long as that node has not changed since. -/
def Node.copy_allocs : Node → Nat
  | .null => 0
  | .mk _ cs _ _ => 1 + copy_allocs_list cs
/-- The allocations for a child array. -/
def copy_allocs_list : List Node → Nat
  | [] => 0
  | c :: cs => c.copy_allocs + copy_allocs_list cs
end

mutual
/-- The number of `delete` in `clear`, which follows the slots `children[0..num_keys]` of
every node not flagged as leaf. -/
def Node.clear_deletes : Node → Nat
  | .null => 0
  | .mk _ cs n b => 1 + (if b then 0 else clear_deletes_list cs (n + 1))
/-- The deletions for the first `live` slots of a child array. -/
def clear_deletes_list : List Node → Nat → Nat
  | [], _ => 0
  | _ :: _, 0 => 0
  | c :: cs, live + 1 => c.clear_deletes + clear_deletes_list cs live
end

mutual
/-- The live part of a node as a node of the model `BTree.Node`: the keys
`keys[0..num_keys)` and, unless the node is flagged as leaf, the children
`children[0..num_keys]`. -/
def Node.live : Node → BTree.Node
  | .null => .mk [] [] true
  | .mk ks cs n b => .mk (ks.take n) (if b then [] else liveList cs (n + 1)) b
/-- The live part of the first `live` slots of a child array. -/
def liveList : List Node → Nat → List BTree.Node
  | [], _ => []
  | _ :: _, 0 => []
  | c :: cs, live + 1 => c.live :: liveList cs live
end

/-- The live part of the root pointer. -/
def liveRoot : Node → Option BTree.Node
  | .null => none
  | n => some n.live

/-- The calls `add(1)`, ..., `add(10)` on an empty `BTree<int, 2>`. -/
def tenAdds : List Op :=
  [.add 1, .add 2, .add 3, .add 4, .add 5, .add 6, .add 7, .add 8, .add 9, .add 10]

/-- The calls `add(10)`, ..., `add(1)` on an empty `BTree<int, 2>`. -/
def tenAddsDown : List Op :=
  [.add 10, .add 9, .add 8, .add 7, .add 6, .add 5, .add 4, .add 3, .add 2, .add 1]

end BTree.Slot

/-! ## SplayTree with parent pointers (Splay_Trees/splay_tree.h)

The model of `SplayTree` above reads the `parent` pointer of a node off its ancestor list.
The model below keeps the nodes in a memory with the fields `val`, `children[2]` and `parent`
of every node, and `fix`, `left_rotate` and `right_rotate` read and write these fields as the
code does. -/

namespace SplayTree.Ptr

/-- The memory of a `SplayTree<int>`: the fields `val`, `children[d]` and `parent` of the
`TreeNode` at every address (a null pointer is `none`), the address `next` that the next
`new TreeNode` returns, and the member `node` of the tree object.  A deleted node keeps its
address. -/
structure Mem where
  val : Nat → Int
  children : Nat → dir_t → Option Nat
  parent : Nat → Option Nat
  next : Nat
  node : Option Nat

namespace Mem

/-- The assignment `a->children[d] = c`. -/
def setChild (m : Mem) (a : Nat) (d : dir_t) (c : Option Nat) : Mem :=
  ⟨m.val, fun b e => if b = a ∧ e = d then c else m.children b e, m.parent, m.next, m.node⟩

/-- The assignment `a->parent = c`. -/
def setParent (m : Mem) (a : Nat) (c : Option Nat) : Mem :=
  ⟨m.val, m.children, fun b => if b = a then c else m.parent b, m.next, m.node⟩

/-- The assignment `node = c` to the member of the tree object. -/
def setNode (m : Mem) (c : Option Nat) : Mem :=
  ⟨m.val, m.children, m.parent, m.next, c⟩

/-- The expression `new TreeNode(val)`: the node at address `next` gets the key, two null
children and a null parent. -/
def alloc (m : Mem) (v : Int) : Mem :=
  ⟨fun b => if b = m.next then v else m.val b,
    fun b e => if b = m.next then none else m.children b e,
    fun b => if b = m.next then none else m.parent b, m.next + 1, m.node⟩

end Mem

/-- The first statement of `left_rotate` and `right_rotate`: with `gp == nullptr` the node
`n` becomes the root, otherwise it takes the place of `p` below `gp`. -/
def relink (m : Mem) (gp : Option Nat) (p n : Nat) : Mem :=
  match gp with
  | none => (m.setNode (some n)).setParent n none
  | some g =>
    (m.setChild g (if m.children g .RIGHT = some p then .RIGHT else .LEFT) (some n)).setParent n
      (some g)

/-- The statements of a rotation after the first: `p->children[1 - d] = n->children[d]`, the
parent of that child if there is one, `n->children[d] = p` and `p->parent = n`. -/
def turn (d : dir_t) (m : Mem) (p n : Nat) : Mem :=
  let m2 := m.setChild p d.flip (m.children n d)
  let m3 :=
    match m2.children n d with
    | none => m2
    | some b => m2.setParent b (some p)
  (m3.setChild n d (some p)).setParent p (some n)

/-- The function `left_rotate(gp, p, n)`. -/
def left_rotate (m : Mem) (gp : Option Nat) (p n : Nat) : Mem :=
  let m1 :=
    match gp with
    | none => (m.setNode (some n)).setParent n none
    | some g =>
      (m.setChild g (if m.children g .RIGHT = some p then .RIGHT else .LEFT)
        (some n)).setParent n (some g)
  let m2 := m1.setChild p .RIGHT (m1.children n .LEFT)
  let m3 :=
    match m2.children n .LEFT with
    | none => m2
    | some b => m2.setParent b (some p)
  (m3.setChild n .LEFT (some p)).setParent p (some n)

/-- The function `right_rotate(gp, p, n)`. -/
def right_rotate (m : Mem) (gp : Option Nat) (p n : Nat) : Mem :=
  let m1 :=
    match gp with
    | none => (m.setNode (some n)).setParent n none
    | some g =>
      (m.setChild g (if m.children g .RIGHT = some p then .RIGHT else .LEFT)
        (some n)).setParent n (some g)
  let m2 := m1.setChild p .LEFT (m1.children n .RIGHT)
  let m3 :=
    match m2.children n .RIGHT with
    | none => m2
    | some b => m2.setParent b (some p)
  (m3.setChild n .RIGHT (some p)).setParent p (some n)

/-- The function `fix(root)`, for at most `fuel` passes through `while (root != node)`;
`none` when the passes do not suffice or a null `p` is dereferenced. -/
def fix : Nat → Mem → Nat → Option Mem
  | 0, _, _ => none
  | fuel + 1, m, root =>
    if m.node = some root then some m
    else
      match m.parent root with
      | none => none
      | some p =>
        match m.parent p with
        | none =>
          if m.children p .LEFT = some root then fix fuel (right_rotate m none p root) root
          else fix fuel (left_rotate m none p root) root
        | some gp =>
          if m.children gp .LEFT = some p then
            if m.children p .LEFT = some root then
              let m1 := right_rotate m (m.parent gp) gp p
              fix fuel (right_rotate m1 (m1.parent p) p root) root
            else
              let m1 := left_rotate m (some gp) p root
              fix fuel (right_rotate m1 (m1.parent gp) gp root) root
          else
            if m.children p .LEFT = some root then
              let m1 := right_rotate m (some gp) p root
              fix fuel (left_rotate m1 (m1.parent gp) gp root) root
            else
              let m1 := left_rotate m (m.parent gp) gp p
              fix fuel (left_rotate m1 (m1.parent p) p root) root

/-- The search loop of `find` and `add`,
`for (; root && root->val != val; root_par = root, root = root->children[...])`, for at most
`fuel` steps: the final `root` and `root_par`. -/
def search : Nat → Mem → Option Nat → Option Nat → Int → Option (Option Nat × Option Nat)
  | 0, _, _, _, _ => none
  | _ + 1, _, none, root_par, _ => some (none, root_par)
  | fuel + 1, m, some a, root_par, val =>
    if m.val a ≠ val then
      search fuel m (m.children a (if val < m.val a then .LEFT else .RIGHT)) (some a) val
    else some (some a, root_par)

/-- The member function `find`: the returned boolean and the memory afterwards.  The loops
get the number of allocated nodes as their bound. -/
def find (m : Mem) (val : Int) : Option (Bool × Mem) :=
  match search (m.next + 1) m m.node none val with
  | none => none
  | some (none, _) => some (false, m)
  | some (some root, _) =>
    match fix (m.next + 1) m root with
    | none => none
    | some m1 => some (true, m1)

/-- The member function `add`: the returned boolean and the memory afterwards. -/
def add (m : Mem) (val : Int) : Option (Bool × Mem) :=
  match m.node with
  | none => some (true, (m.alloc val).setNode (some m.next))
  | some _ =>
    match search (m.next + 1) m m.node none val with
    | none => none
    | some (some _, _) => some (false, m)
    | some (none, none) => none
    | some (none, some root_par) =>
      let ins_node := m.next
      let m1 := m.alloc val
      let m2 :=
        m1.setChild root_par (if val < m1.val root_par then .LEFT else .RIGHT) (some ins_node)
      let m3 := m2.setParent ins_node (some root_par)
      match fix (m3.next + 1) m3 ins_node with
      | none => none
      | some m4 => some (true, m4)

/-- The loop `for (; in_ord_suc->children[D_RIGHT]; in_ord_suc = in_ord_suc->children[D_RIGHT]);`
of `remove`, for at most `fuel` steps. -/
def rightmost : Nat → Mem → Nat → Option Nat
  | 0, _, _ => none
  | fuel + 1, m, a =>
    match m.children a .RIGHT with
    | none => some a
    | some b => rightmost fuel m b

/-- The member function `remove`: the returned boolean and the memory afterwards.  The two
`assert`s are not part of the model. -/
def remove (m : Mem) (val : Int) : Option (Bool × Mem) :=
  match find m val with
  | none => none
  | some (false, m1) => some (false, m1)
  | some (true, m1) =>
    match m1.node with
    | none => none
    | some old =>
      let left := m1.children old .LEFT
      let right := m1.children old .RIGHT
      let m2 := ((m1.setChild old .LEFT none).setChild old .RIGHT none).setNode none
      match left with
      | none =>
        let m3 := m2.setNode right
        match right with
        | none => some (true, m3)
        | some r => some (true, m3.setParent r none)
      | some l =>
        let m3 := (m2.setNode (some l)).setParent l none
        match rightmost (m3.next + 1) m3 l with
        | none => none
        | some in_ord_suc =>
          match fix (m3.next + 1) m3 in_ord_suc with
          | none => none
          | some m4 =>
            let m5 := m4.setChild in_ord_suc .RIGHT right
            let m6 :=
              match right with
              | none => m5
              | some r => m5.setParent r (some in_ord_suc)
            some (true, (m6.setParent in_ord_suc none).setNode (some in_ord_suc))

/-- The empty tree of the constructor `SplayTree()`. -/
def empty : Mem := ⟨fun _ => 0, fun _ _ => none, fun _ => none, 0, none⟩

/-- One call of the contract on the memory; a call that does not return leaves it. -/
def step (m : Mem) : Op → Bool × Mem
  | .add k => (add m k).getD (false, m)
  | .find k => (find m k).getD (false, m)
  | .remove k => (remove m k).getD (false, m)

/-- The function `is_parent_pointers_valid(node, parent)` of the tester in main.cpp, for at
most `fuel` levels. -/
def is_parent_pointers_valid : Nat → Mem → Option Nat → Option Nat → Bool
  | 0, _, _, _ => false
  | _ + 1, _, none, _ => true
  | fuel + 1, m, some a, parent =>
    if m.parent a ≠ parent then false
    else
      is_parent_pointers_valid fuel m (m.children a .LEFT) (some a) &&
        is_parent_pointers_valid fuel m (m.children a .RIGHT) (some a)

/-- The tree below a pointer, read from the memory for at most `fuel` levels. -/
def toTree : Nat → Mem → Option Nat → Node
  | 0, _, _ => .null
  | _ + 1, _, none => .null
  | fuel + 1, m, some a =>
    .node (toTree fuel m (m.children a .LEFT)) (m.val a) ()
      (toTree fuel m (m.children a .RIGHT))

/-- The pointer to a tree whose nodes carry their addresses. -/
def ptrOf : TreeNode Nat → Option Nat
  | .null => none
  | .node _ _ a _ => some a

/-- The addresses of the nodes of a tree. -/
def addrs : TreeNode Nat → List Nat
  | .null => []
  | .node l _ a r => a :: (addrs l ++ addrs r)

/-- The `parent` pointer of the node below the ancestors `st`. -/
def parentPtr : List (Frame Nat) → Option Nat
  | [] => none
  | f :: _ => some f.tag

/-- The addresses of the ancestors `st` and of the nodes of their off-path subtrees. -/
def ctxAddrs : List (Frame Nat) → List Nat
  | [] => []
  | f :: st => f.tag :: (addrs f.other ++ ctxAddrs st)

/-- The memory holds the tree `t` below a node at `parent`: every node of `t` lies at its
address with its key, the pointers to its two subtrees, and as `parent` the address of the
node that holds it as a child. -/
def Rep (m : Mem) : TreeNode Nat → Option Nat → Prop
  | .null, _ => True
  | .node l v a r, parent =>
    m.val a = v ∧ m.children a .LEFT = ptrOf l ∧ m.children a .RIGHT = ptrOf r ∧
      m.parent a = parent ∧ Rep m l (some a) ∧ Rep m r (some a)

/-- The memory holds the ancestors `st` (nearest first) of a node at `hole`, with their
off-path subtrees; the last ancestor is the root and has a null parent. -/
def RepCtx (m : Mem) : List (Frame Nat) → Option Nat → Prop
  | [], _ => True
  | f :: st, hole =>
    m.val f.tag = f.val ∧ m.children f.tag f.dir = hole ∧
      m.children f.tag f.dir.flip = ptrOf f.other ∧ m.parent f.tag = parentPtr st ∧
      Rep m f.other (some f.tag) ∧ RepCtx m st (some f.tag)

/-- The parent back-references of the tree are consistent: the nodes reached from `node` are
a tree `t` of distinct allocated nodes in which the root has a null parent and every other
node has as parent the node that holds it as a child. -/
def Consistent (m : Mem) : Prop :=
  ∃ t : TreeNode Nat, Rep m t none ∧ m.node = ptrOf t ∧ (addrs t).Nodup ∧
    ∀ a ∈ addrs t, a < m.next

end SplayTree.Ptr

namespace SplayTree.Ptr

/-- Two memories agree on the fields of the node at `a`. -/
def AgreeAt (m m2 : Mem) (a : Nat) : Prop :=
  m2.val a = m.val a ∧ (∀ e, m2.children a e = m.children a e) ∧ m2.parent a = m.parent a

/-- The pointer to the root of the whole tree, for a node at `hole` below the ancestors. -/
def rootPtr : Option Nat → List (Frame Nat) → Option Nat
  | hole, [] => hole
  | _, f :: st => rootPtr (some f.tag) st

/-- The addresses of a subtree and of what lies around it. -/
def foot (t : TreeNode Nat) (st : List (Frame Nat)) : List Nat := addrs t ++ ctxAddrs st

/-- The memory holds the subtree `t` below the ancestors `st` as a tree of distinct nodes
with consistent parent pointers, and `node` points to the root. -/
def Good (m : Mem) (t : TreeNode Nat) (st : List (Frame Nat)) : Prop :=
  Rep m t (parentPtr st) ∧ RepCtx m st (ptrOf t) ∧ m.node = rootPtr (ptrOf t) st ∧
    (foot t st).Nodup

/-- From a memory that holds `t` below `st` to one that holds `t2` below `st2` with the same
nodes, the same keys and nothing changed outside these nodes. -/
def Moves (m : Mem) (t : TreeNode Nat) (st : List (Frame Nat)) (m2 : Mem) (t2 : TreeNode Nat)
    (st2 : List (Frame Nat)) : Prop :=
  Good m2 t2 st2 ∧ m2.next = m.next ∧ m2.val = m.val ∧ (foot t2 st2).Perm (foot t st) ∧
    ∀ a, a ∉ foot t st → AgreeAt m m2 a

end SplayTree.Ptr

namespace SplayTree.Ptr

/-- A memory on which the theorems are exercised: the root 10 at address 0 with the children
5 at address 1 and 20 at address 2. -/
def sampleMem : Mem :=
  ⟨fun a => if a = 0 then 10 else if a = 1 then 5 else 20,
    fun a d => if a = 0 then (match d with | .LEFT => some 1 | .RIGHT => some 2) else none,
    fun a => if a = 0 then none else some 0, 3, some 0⟩

/-- The tree held by `sampleMem`, every node with its address. -/
def sampleAddressed : TreeNode Nat :=
  .node (.node .null 5 1 .null) 10 0 (.node .null 20 2 .null)

end SplayTree.Ptr
/-! ## Definitions for the validator with a comparator and for heights in 32 bits -/

namespace AVLTree

/-- The function `is_bst_valid<T, Compare>(node, min_val, max_val)` of the tester in main.cpp
for the comparator `less`; a null bound is `none`.  A key that the comparator does not order
strictly inside the bounds is rejected, so two equivalent keys on one path are. -/
def is_bst_valid (less : Int → Int → Bool) : Node → Option Int → Option Int → Bool
  | .null, _, _ => true
  | .node l v _ r, min_val, max_val =>
    if (match min_val with
        | none => false
        | some mn => less v mn || !less mn v) ||
       (match max_val with
        | none => false
        | some mx => less mx v || !less v mx) then false
    else is_bst_valid less l min_val (some v) && is_bst_valid less r (some v) max_val

end AVLTree

namespace AVLTree.U32

/-- The function `update_height` with the arithmetic of the field `u_int32_t height`:
`std::max(..) + 1` is taken modulo `2 ^ 32`. -/
def update_height : Node → Node
  | .null => .null
  | .node l v _ r => .node l v ((max (height l) (height r) + 1) % 2 ^ 32) r

/-- The call `left_rotate(l, l->right)` on the subtree rooted at `l`, with `update_height` in
32 bits; returns the new subtree root. -/
def left_rotate : Node → Node
  | .node a x h (.node b y h2 c) =>
    update_height (.node (update_height (.node a x h b)) y h2 c)
  | t => t

/-- The call `right_rotate(r, r->left)` on the subtree rooted at `r`, with `update_height` in
32 bits; returns the new subtree root. -/
def right_rotate : Node → Node
  | .node (.node a x h b) y h2 c =>
    update_height (.node a x h (update_height (.node b y h2 c)))
  | t => t

/-- The stored heights of the children and of the grandchildren of a node are below `bound`
(a null pointer counts as height 0). -/
def HeightsBelow (bound : Nat) : Node → Prop
  | .null => True
  | .node l _ _ r =>
    height l < bound ∧ height r < bound ∧
      height (l.child .LEFT) < bound ∧ height (l.child .RIGHT) < bound ∧
      height (r.child .LEFT) < bound ∧ height (r.child .RIGHT) < bound

instance (bound : Nat) (t : Node) : Decidable (HeightsBelow bound t) := by
  cases t <;> unfold HeightsBelow <;> infer_instance

end AVLTree.U32

/-! ## RBTree with parent pointers (RB_Trees/rbtree.h)

The model of `RBTree` above reads the `parent` pointer of a node off its ancestor list, which
makes the walk of `black_leaf_delete` towards the root a recursion on that list.  The model
below keeps the nodes in a memory with the fields `val`, `color`, `children[2]` and `parent`
of every node; `black_leaf_delete` follows `N->parent` as the code does, and its loop gets a
bound on the number of passes. -/

namespace RBTree.Ptr

/-- The memory of an `RBTree<int>`: the fields `val`, `color`, `children[d]` and `parent` of
the `TreeNode` at every address (a null pointer is `none`) and the member `node` of the tree
object.  `rotations` is not part of the code: it counts the calls of `left_rotate` and
`right_rotate` made so far. -/
structure Mem where
  val : Nat → Int
  color : Nat → color_t
  children : Nat → dir_t → Option Nat
  parent : Nat → Option Nat
  node : Option Nat
  rotations : Nat

namespace Mem

/-- The assignment `a->children[d] = c`. -/
def setChild (m : Mem) (a : Nat) (d : dir_t) (c : Option Nat) : Mem :=
  { m with children := fun b e => if b = a ∧ e = d then c else m.children b e }

/-- The assignment `a->parent = c`. -/
def setParent (m : Mem) (a : Nat) (c : Option Nat) : Mem :=
  { m with parent := fun b => if b = a then c else m.parent b }

/-- The assignment `a->color = c`. -/
def setColor (m : Mem) (a : Nat) (c : color_t) : Mem :=
  { m with color := fun b => if b = a then c else m.color b }

/-- The assignment `node = c` to the member of the tree object. -/
def setNode (m : Mem) (c : Option Nat) : Mem := { m with node := c }

/-- One more call of a rotation. -/
def tick (m : Mem) : Mem := { m with rotations := m.rotations + 1 }

/-- The fields that the rotations read and write, as a memory of the splay model, whose
rotations are statement by statement those of rbtree.h. -/
def toSplay (m : Mem) : SplayTree.Ptr.Mem := ⟨m.val, m.children, m.parent, 0, m.node⟩

end Mem

/-- The function `is_red`: `node && node->color == RED`. -/
def is_red (m : Mem) : Option Nat → Bool
  | none => false
  | some a => decide (m.color a = .RED)

/-- The function `left_rotate(gp, p, n)`. -/
def left_rotate (m : Mem) (gp : Option Nat) (p n : Nat) : Mem :=
  let m1 :=
    match gp with
    | none => (m.tick.setNode (some n)).setParent n none
    | some g =>
      (m.tick.setChild g (if m.children g .RIGHT = some p then .RIGHT else .LEFT)
        (some n)).setParent n (some g)
  let m2 := m1.setChild p .RIGHT (m1.children n .LEFT)
  let m3 :=
    match m2.children n .LEFT with
    | none => m2
    | some b => m2.setParent b (some p)
  (m3.setChild n .LEFT (some p)).setParent p (some n)

/-- The function `right_rotate(gp, p, n)`. -/
def right_rotate (m : Mem) (gp : Option Nat) (p n : Nat) : Mem :=
  let m1 :=
    match gp with
    | none => (m.tick.setNode (some n)).setParent n none
    | some g =>
      (m.tick.setChild g (if m.children g .RIGHT = some p then .RIGHT else .LEFT)
        (some n)).setParent n (some g)
  let m2 := m1.setChild p .LEFT (m1.children n .RIGHT)
  let m3 :=
    match m2.children n .RIGHT with
    | none => m2
    | some b => m2.setParent b (some p)
  (m3.setChild n .RIGHT (some p)).setParent p (some n)

/-- The statement `if (dir == LEFT) left_rotate(gp, p, n); else right_rotate(gp, p, n);`. -/
def rotate (dir : dir_t) (m : Mem) (gp : Option Nat) (p n : Nat) : Mem :=
  match dir with
  | .LEFT => left_rotate m gp p n
  | .RIGHT => right_rotate m gp p n

/-- What one pass through the loop of `black_leaf_delete` did: the deficient node `N` at the
label `start`, the number of calls of `left_rotate` and `right_rotate` made during the pass
(the difference of the counter), and whether the pass ended with `N = P` (`up`) or with
`return`. -/
structure Pass where
  N : Nat
  rotations : Nat
  up : Bool
deriving DecidableEq, Repr

/-- The label `D6` of `black_leaf_delete`: one rotation of `S` over `P`, then
`S->color = P->color; P->color = BLACK; D->color = BLACK; return;`.  `none` when `D` is
null. -/
def case_D6 (m : Mem) (dir : dir_t) (P S : Nat) (D : Option Nat) : Option Mem :=
  let m1 := rotate dir m (m.parent P) P S
  let m2 := (m1.setColor S (m1.color P)).setColor P .BLACK
  match D with
  | none => none
  | some d => some (m2.setColor d .BLACK)

/-- The label `D5` of `black_leaf_delete`, which falls through to `D6`: one rotation of `C`
over `S` (`left_rotate` for `dir == RIGHT`), then
`S->color = RED; C->color = BLACK; D = S; S = C;`.  `none` when `C` is
null. -/
def case_D5 (m : Mem) (dir : dir_t) (P S : Nat) (C : Option Nat) : Option Mem :=
  match C with
  | none => none
  | some c =>
    let m1 := rotate dir.flip m (some P) S c
    case_D6 ((m1.setColor S .RED).setColor c .BLACK) dir P c (some S)

/-- The loop of `black_leaf_delete` from the label `start` on, for at most `fuel` passes:
the memory at the `return` and the passes made.  `none` when the passes do not suffice or a
null `S` is dereferenced. -/
def delete_loop : Nat → Mem → Nat → Nat → dir_t → Option (Mem × List Pass)
  | 0, _, _, _, _ => none
  | fuel + 1, m, N, P, dir =>
    match m.children P dir.flip with
    | none => none
    | some S =>
      let D := m.children S dir.flip
      let C := m.children S dir
      if is_red m (some S) then
        let m1 := rotate dir m (m.parent P) P S
        let m2 := (m1.setColor P .RED).setColor S .BLACK
        match C with
        | none => none
        | some S2 =>
          let D2 := m2.children S2 dir.flip
          if is_red m2 D2 then
            (case_D6 m2 dir P S2 D2).map fun m3 => (m3, [⟨N, m3.rotations - m.rotations, false⟩])
          else
            let C2 := m2.children S2 dir
            if is_red m2 C2 then
              (case_D5 m2 dir P S2 C2).map fun m3 =>
                (m3, [⟨N, m3.rotations - m.rotations, false⟩])
            else
              some ((m2.setColor S2 .RED).setColor P .BLACK,
                [⟨N, m2.rotations - m.rotations, false⟩])
      else if is_red m D then
        (case_D6 m dir P S D).map fun m3 => (m3, [⟨N, m3.rotations - m.rotations, false⟩])
      else if is_red m C then
        (case_D5 m dir P S C).map fun m3 => (m3, [⟨N, m3.rotations - m.rotations, false⟩])
      else if is_red m (some P) then
        some ((m.setColor S .RED).setColor P .BLACK, [⟨N, m.rotations - m.rotations, false⟩])
      else
        let m1 := m.setColor S .RED
        match m1.parent P with
        | none => some (m1, [⟨N, m1.rotations - m.rotations, true⟩])
        | some P2 =>
          match delete_loop fuel m1 P P2
              (if m1.children P2 .LEFT = some P then .LEFT else .RIGHT) with
          | none => none
          | some (m2, log) => some (m2, ⟨N, m1.rotations - m.rotations, true⟩ :: log)

/-- The function `black_leaf_delete(N)`: `P = N->parent`, the side `dir` of `N` below `P`,
`P->children[dir] = nullptr`, and the loop entered at `start`.  `none` also when `P` is
null. -/
def black_leaf_delete (fuel : Nat) (m : Mem) (N : Nat) : Option (Mem × List Pass) :=
  match m.parent N with
  | none => none
  | some P =>
    let dir := if m.children P .LEFT = some N then dir_t.LEFT else dir_t.RIGHT
    delete_loop fuel (m.setChild P dir none) N P dir

/-- The tree whose nodes carry their addresses, with the colours the memory holds. -/
def paint (c : Nat → color_t) : TreeNode Nat → Node
  | .null => .null
  | .node l v a r => .node (paint c l) v (c a) (paint c r)

/-- The tree below a pointer, read from the memory for at most `fuel` levels. -/
def toTree : Nat → Mem → Option Nat → Node
  | 0, _, _ => .null
  | _ + 1, _, none => .null
  | fuel + 1, m, some a =>
    .node (toTree fuel m (m.children a .LEFT)) (m.val a) (m.color a)
      (toTree fuel m (m.children a .RIGHT))

/-- An ancestor with the colours the memory holds. -/
def paintF (c : Nat → color_t) (f : Frame Nat) : Frame color_t :=
  ⟨f.dir, f.val, c f.tag, paint c f.other⟩

end RBTree.Ptr
namespace RBTree.Ptr

/-- A memory on which the theorems are exercised, holding `RBTree.sampleTree`: black 20 at
address 0 over black 10 at 1 (with red 5 at 2 and red 15 at 3) and black 30 at 4. -/
def sampleMem : Mem :=
  { val := fun a => if a = 0 then 20 else if a = 1 then 10 else if a = 2 then 5
      else if a = 3 then 15 else 30
    color := fun a => if a = 2 ∨ a = 3 then .RED else .BLACK
    children := fun a d =>
      if a = 0 then (match d with | .LEFT => some 1 | .RIGHT => some 4)
      else if a = 1 then (match d with | .LEFT => some 2 | .RIGHT => some 3)
      else none
    parent := fun a => if a = 0 then none else if a = 1 ∨ a = 4 then some 0 else some 1
    node := some 0
    rotations := 0 }

/-- The ancestor of the leaf 30 in `sampleMem`: the root 20 with its left subtree. -/
def sampleFrame : Frame Nat :=
  ⟨.RIGHT, 20, 0, .node (.node .null 5 2 .null) 10 1 (.node .null 15 3 .null)⟩

end RBTree.Ptr
/-! ## AVLTree on the objects in memory

The functions of avl_tree.h that `add` and `find` run, statement by statement on the memory
of `TreeNode` objects (`Heap`), so that two trees in one memory can be told apart: a pointer
is an address, a member is read with `Heap.read` and assigned with `Heap.write`, `new`
appends an object, and every read through a pointer that is not the address of an object
ends the run with `none`.  The member `height` is a `u_int32_t`: the sums `max(..) + 1` of
`update_height` and `1 + rh`, `1 + lh` of `balance` are taken modulo `2 ^ 32`. -/

namespace AVLTree.Ptr

/-- The expression `p ? p->height : 0`. -/
def height (h : Heap) : Option Nat → Option Nat
  | none => some 0
  | some p => h.read p Cell.height

/-- The function `update_height(node)`:
`node->height = std::max(node->left ? node->left->height : 0,
node->right ? node->right->height : 0) + 1`. -/
def update_height (h : Heap) (node : Nat) : Option Heap :=
  match h.read node Cell.left, h.read node Cell.right with
  | some l, some r =>
    match height h l, height h r with
    | some lh, some rh =>
      some (h.write node (fun c => { c with height := (max lh rh + 1) % 2 ^ 32 }))
    | _, _ => none
  | _, _ => none

/-- The function `left_rotate(l, r)`: `l->right = r->left; r->left = l; update_height(l);
update_height(r); return r;`. -/
def left_rotate (h : Heap) (l r : Nat) : Option (Nat × Heap) :=
  match h.read r Cell.left with
  | none => none
  | some rl =>
    let h1 := h.write l (fun c => { c with right := rl })
    let h2 := h1.write r (fun c => { c with left := some l })
    match update_height h2 l with
    | none => none
    | some h3 =>
      match update_height h3 r with
      | none => none
      | some h4 => some (r, h4)

/-- The function `right_rotate(r, l)`: `r->left = l->right; l->right = r; update_height(r);
update_height(l); return l;`. -/
def right_rotate (h : Heap) (r l : Nat) : Option (Nat × Heap) :=
  match h.read l Cell.right with
  | none => none
  | some lr =>
    let h1 := h.write r (fun c => { c with left := lr })
    let h2 := h1.write l (fun c => { c with right := some r })
    match update_height h2 r with
    | none => none
    | some h3 =>
      match update_height h3 l with
      | none => none
      | some h4 => some (l, h4)

/-- The first branch of `balance(root)`, entered when `lh > 1 + rh`: `left = root->left`, the
heights `llh` and `lrh` of its children, `root->left = left_rotate(left, left->right)` when
`lrh > llh`, then `return right_rotate(root, root->left)`. -/
def balance_left (h : Heap) (root : Nat) : Option (Nat × Heap) :=
  match h.read root Cell.left with
  | some (some left) =>
    match h.read left Cell.left, h.read left Cell.right with
    | some ll, some lr =>
      match height h ll, height h lr with
      | some llh, some lrh =>
        let step : Option Heap :=
          if lrh > llh then
            match lr with
            | none => none
            | some p =>
              match left_rotate h left p with
              | none => none
              | some (q, h1) => some (h1.write root (fun c => { c with left := some q }))
          else some h
        match step with
        | none => none
        | some h2 =>
          match h2.read root Cell.left with
          | some (some p) => right_rotate h2 root p
          | _ => none
      | _, _ => none
    | _, _ => none
  | _ => none

/-- The second branch of `balance(root)`, entered when `rh > 1 + lh`; mirror image of the
first. -/
def balance_right (h : Heap) (root : Nat) : Option (Nat × Heap) :=
  match h.read root Cell.right with
  | some (some right) =>
    match h.read right Cell.left, h.read right Cell.right with
    | some rl, some rr =>
      match height h rl, height h rr with
      | some rlh, some rrh =>
        let step : Option Heap :=
          if rlh > rrh then
            match rl with
            | none => none
            | some p =>
              match right_rotate h right p with
              | none => none
              | some (q, h1) => some (h1.write root (fun c => { c with right := some q }))
          else some h
        match step with
        | none => none
        | some h2 =>
          match h2.read root Cell.right with
          | some (some p) => left_rotate h2 root p
          | _ => none
      | _, _ => none
    | _, _ => none
  | _ => none

/-- The function `balance(root)`: the pointer it returns and the memory afterwards. -/
def balance (h : Heap) (root : Nat) : Option (Nat × Heap) :=
  match h.read root Cell.left, h.read root Cell.right with
  | some l, some r =>
    match height h l, height h r with
    | some lh, some rh =>
      if lh > (1 + rh) % 2 ^ 32 then balance_left h root
      else if rh > (1 + lh) % 2 ^ 32 then balance_right h root
      else
        match update_height h root with
        | none => none
        | some h1 => some (root, h1)
    | _, _ => none
  | _, _ => none

/-- The loop of the member function `find`, started at the pointer `root`:
`for (; root && root->val != val; root = less_than(val, root->val) ? root->left :
root->right)`, then `return root != nullptr`.  The number of iterations is limited by `fuel`;
more than the depth of the tree at `root` is never needed (`avp_find_stored`). -/
def find : Nat → Heap → Option Nat → Int → Option Bool
  | _, _, none, _ => some false
  | 0, _, some _, _ => none
  | fuel + 1, h, some root, val =>
    match h.read root Cell.val, h.read root Cell.left, h.read root Cell.right with
    | some v, some l, some r =>
      if v ≠ val then find fuel h (if val < v then l else r) val
      else some true
    | _, _, _ => none

/-- The search loop of `add`, which also pushes every node it leaves:
`for (; root && root->val != val; root = ...) st.push(root);`.  Returns the final `root` and
the stack, top first. -/
def search : Nat → Heap → Option Nat → List Nat → Int → Option (Option Nat × List Nat)
  | _, _, none, st, _ => some (none, st)
  | 0, _, some _, _, _ => none
  | fuel + 1, h, some root, st, val =>
    match h.read root Cell.val, h.read root Cell.left, h.read root Cell.right with
    | some v, some l, some r =>
      if v ≠ val then search fuel h (if val < v then l else r) (root :: st) val
      else some (some root, st)
    | _, _, _ => none

/-- The loop `do { ... } while (root);` that ends `add`, one iteration for `root` and one for
each pointer on the stack: with the stack empty `node = balance(root)` and the loop ends,
otherwise `balance(root)` is stored into the child slot of `n_root = st.top()` that held
`root` (`n_root->left == root` is tested before the call) and `root = n_root`.  Returns the
new value of the member `node` and the memory afterwards. -/
def rebalance : Heap → Nat → List Nat → Option (Option Nat × Heap)
  | h, root, [] =>
    match balance h root with
    | none => none
    | some (b, h1) => some (some b, h1)
  | h, root, n_root :: st =>
    match h.read n_root Cell.left with
    | none => none
    | some nl =>
      match balance h root with
      | none => none
      | some (b, h1) =>
        if nl = some root then
          rebalance (h1.write n_root (fun c => { c with left := some b })) n_root st
        else
          rebalance (h1.write n_root (fun c => { c with right := some b })) n_root st

/-- The member function `add` of the object whose member `node` is the given pointer: the
returned boolean, the new value of `node` and the memory afterwards. -/
def add (fuel : Nat) (h : Heap) (node : Option Nat) (val : Int) :
    Option (Bool × Option Nat × Heap) :=
  match node with
  | none => some (true, some h.length, h ++ [⟨val, none, none, 1⟩])
  | some _ =>
    match search fuel h node [] val with
    | none => none
    | some (some _, _) => some (false, node, h)
    | some (none, []) => none
    | some (none, root :: st) =>
      let ins_node := h.length
      let h1 := h ++ [⟨val, none, none, 1⟩]
      match h1.read root Cell.val with
      | none => none
      | some v =>
        let h2 :=
          if val < v then h1.write root (fun c => { c with left := some ins_node })
          else h1.write root (fun c => { c with right := some ins_node })
        match rebalance h2 root st with
        | none => none
        | some (nd, h3) => some (true, nd, h3)

/-- The loop `while (!st.empty())` of the private function `clear(TreeNode *node)` on the
stack of pointers `st`, top first: a top with a child pushes its children and sets the two
members to null, a top without children is deleted and popped.  A deleted object keeps its
address (`new` never hands it out again).  The number of iterations is limited by `fuel`; two
per node are never exhausted (`avp_clear_loop`). -/
def clear_loop : Nat → Heap → List Nat → Option Heap
  | _, h, [] => some h
  | 0, _, _ :: _ => none
  | fuel + 1, h, top :: st =>
    match h.read top Cell.left, h.read top Cell.right with
    | some l, some r =>
      if l.isSome || r.isSome then
        let h1 := if l.isSome then h.write top (fun c => { c with left := none }) else h
        let st1 := match l with
          | some p => p :: top :: st
          | none => top :: st
        match h1.read top Cell.right with
        | none => none
        | some r1 =>
          let h2 := if r1.isSome then h1.write top (fun c => { c with right := none }) else h1
          let st2 := match r1 with
            | some p => p :: st1
            | none => st1
          clear_loop fuel h2 st2
      else clear_loop fuel h st
    | _, _ => none

/-- The private function `clear(TreeNode *node)`. -/
def clear (fuel : Nat) (h : Heap) : Option Nat → Option Heap
  | none => some h
  | some node => clear_loop fuel h [node]

/-- A tree whose nodes carry, next to the key, the stored height and the address of the
object. -/
abbrev ANode := TreeNode (Nat × Nat)

/-- The pointer to the root of an addressed tree. -/
def ptrOf : ANode → Option Nat
  | .null => none
  | .node _ _ m _ => some m.2

/-- Addresses of the objects of an addressed tree. -/
def addrs : ANode → List Nat
  | .null => []
  | .node l _ m r => m.2 :: (addrs l ++ addrs r)

/-- The tree of an addressed tree: shape, keys and stored heights. -/
def strip : ANode → Node
  | .null => .null
  | .node l v m r => .node (strip l) v m.1 (strip r)

/-- The memory holds the addressed tree: each node is the object at its address, with the
pointers to its children in `left` and `right`. -/
def Rep (h : Heap) : ANode → Prop
  | .null => True
  | .node l v m r => h[m.2]? = some ⟨v, ptrOf l, ptrOf r, m.1⟩ ∧ Rep h l ∧ Rep h r

/-- Addresses of the ancestors on a path and of the subtrees hanging off it. -/
def ctxAddrs : List (Frame (Nat × Nat)) → List Nat
  | [] => []
  | f :: st => f.tag.2 :: (addrs f.other ++ ctxAddrs st)

/-- The memory holds the ancestors of a position (nearest first) and the subtrees hanging off
the path; the child slot of the nearest ancestor on the path side holds the pointer
`hole`. -/
def RepCtx (h : Heap) : List (Frame (Nat × Nat)) → Option Nat → Prop
  | [], _ => True
  | f :: st, hole =>
    h[f.tag.2]? = some (match f.dir with
      | .LEFT => ⟨f.val, hole, ptrOf f.other, f.tag.1⟩
      | .RIGHT => ⟨f.val, ptrOf f.other, hole, f.tag.1⟩) ∧
    Rep h f.other ∧ RepCtx h st (some f.tag.2)

end AVLTree.Ptr

namespace AVLTree

/-- The copy assignment `operator=(const AVLTree &other)` of the object at address `self`,
whose member `node` is the pointer `node`, from the object at address `other`, whose member
`node` is `otherNode`: nothing happens when `this == &other`; otherwise
`AVLTree new_tree(other);` copies the tree of `other`, `std::swap(node, new_tree.node)` gives
the copy to this object and the former tree to `new_tree`, whose destructor runs
`clear` on it when the function returns.  Returns the new value of `node` and the memory
afterwards; `fuel` limits the recursion of the copy and `fuel2` the loop of `clear`. -/
def copy_assign (fuel fuel2 : Nat) (h : Heap) (self other : Nat) (node otherNode : Option Nat) :
    Option (Option Nat × Heap) :=
  if self = other then some (node, h)
  else
    match copy_construct fuel h otherNode with
    | none => none
    | some (new_node, h1) =>
      match Ptr.clear fuel2 h1 node with
      | none => none
      | some h2 => some (new_node, h2)

/-- A memory holding the trees of two objects, used to exercise the copy on a concrete input:
the tree of `sampleHeap` at the addresses 0 and 1, and a single node 7 at address 2. -/
def sampleHeap2 : Heap := sampleHeap ++ [⟨7, none, none, 1⟩]

/-- The tree held by `sampleHeap2` at address 0, with the addresses of its nodes. -/
def sampleAddressed : Ptr.ANode := .node (.node .null 5 (1, 1) .null) 10 (2, 0) .null

/-- The tree held by `sampleHeap2` at address 2, with the address of its node. -/
def sampleOld : Ptr.ANode := .node .null 7 (1, 2) .null

end AVLTree

namespace RBTree.Ptr

/-- A second memory on which the theorems are exercised: seven black nodes, 40 at address 0
over 20 at 1 (with 10 at 3 and 30 at 4) and 60 at 2 (with 50 at 5 and 70 at 6). -/
def sampleBlack : Mem :=
  { val := fun a => if a = 0 then 40 else if a = 1 then 20 else if a = 2 then 60
      else if a = 3 then 10 else if a = 4 then 30 else if a = 5 then 50 else 70
    color := fun _ => .BLACK
    children := fun a d =>
      if a = 0 then (match d with | .LEFT => some 1 | .RIGHT => some 2)
      else if a = 1 then (match d with | .LEFT => some 3 | .RIGHT => some 4)
      else if a = 2 then (match d with | .LEFT => some 5 | .RIGHT => some 6)
      else none
    parent := fun a => if a = 0 then none else if a = 1 ∨ a = 2 then some 0
      else if a = 3 ∨ a = 4 then some 1 else some 2
    node := some 0
    rotations := 0 }

/-- The ancestors of the leaf 70 in `sampleBlack`, nearest first: 60 with its left child 50,
and the root 40 with its left subtree. -/
def sampleAncestors : List (Frame Nat) :=
  [⟨.RIGHT, 60, 2, .node .null 50 5 .null⟩,
    ⟨.RIGHT, 40, 0, .node (.node .null 10 3 .null) 20 1 (.node .null 30 4 .null)⟩]

end RBTree.Ptr
/-! ## Shared lemmas on positions and key sequences -/

section Common

variable {μ : Type}

theorem keys_fill (f : Frame μ) (t : TreeNode μ) :
    (f.fill t).keys = f.lkeys ++ t.keys ++ f.rkeys := by
  cases f with
  | mk d v m o => cases d <;> simp [Frame.fill, Frame.lkeys, Frame.rkeys, TreeNode.keys]

theorem keys_plug (t : TreeNode μ) (st : List (Frame μ)) :
    (plug t st).keys = pathL st ++ t.keys ++ pathR st := by
  induction st generalizing t with
  | nil => simp [plug, pathL, pathR]
  | cons f st ih => simp [plug, pathL, pathR, ih, keys_fill]

theorem pathL_append (s1 s2 : List (Frame μ)) : pathL (s1 ++ s2) = pathL s2 ++ pathL s1 := by
  induction s1 with
  | nil => simp [pathL]
  | cons f s1 ih => simp [pathL, ih]

theorem pathR_append (s1 s2 : List (Frame μ)) : pathR (s1 ++ s2) = pathR s1 ++ pathR s2 := by
  induction s1 with
  | nil => simp [pathR]
  | cons f s1 ih => simp [pathR, ih]

theorem plug_append (t : TreeNode μ) (s1 s2 : List (Frame μ)) :
    plug t (s1 ++ s2) = plug (plug t s1) s2 := by
  induction s1 generalizing t with
  | nil => simp [plug]
  | cons f s1 ih => simp [plug, ih]

theorem plug_descend (val : Int) (t : TreeNode μ) :
    ∀ st : List (Frame μ), plug (descend val t st).1 (descend val t st).2 = plug t st := by
  induction t with
  | null => intro st; rfl
  | node l v m r ihl ihr =>
    intro st
    unfold descend
    split_ifs with c1 c2
    · rw [ihl]; rfl
    · rw [ihr]; rfl
    · rfl

/-- Every frame pushed by the search loop records the side chosen by the comparison. -/
theorem descend_dirs (val : Int) (t : TreeNode μ) :
    ∀ st : List (Frame μ), (∀ f ∈ st, (f.dir = .LEFT ↔ val < f.val)) →
      ∀ f ∈ (descend val t st).2, (f.dir = .LEFT ↔ val < f.val) := by
  induction t with
  | null => intro st hst; exact hst
  | node l v m r ihl ihr =>
    intro st hst
    unfold descend
    split_ifs with c1 c2
    · apply ihl
      intro f hf
      rcases List.mem_cons.1 hf with rfl | hf
      · simp [c2]
      · exact hst f hf
    · apply ihr
      intro f hf
      rcases List.mem_cons.1 hf with rfl | hf
      · simp [c2]
      · exact hst f hf
    · exact hst

/-- The search loop stops at a null pointer or at a node holding `val`. -/
theorem descend_stop (val : Int) (t : TreeNode μ) :
    ∀ st : List (Frame μ), (descend val t st).1 = .null ∨
      ∃ l m r, (descend val t st).1 = .node l val m r := by
  induction t with
  | null => intro st; exact Or.inl rfl
  | node l v m r ihl ihr =>
    intro st
    unfold descend
    split_ifs with c1 c2
    · exact ihl _
    · exact ihr _
    · right
      have : v = val := not_not.1 c1
      exact ⟨l, m, r, by rw [this]⟩

theorem ascending_append {l1 l2 : List Int} :
    Ascending (l1 ++ l2) ↔ Ascending l1 ∧ Ascending l2 ∧ ∀ a ∈ l1, ∀ b ∈ l2, a < b :=
  List.pairwise_append

theorem ascending_cons {a : Int} {l : List Int} :
    Ascending (a :: l) ↔ (∀ b ∈ l, a < b) ∧ Ascending l :=
  List.pairwise_cons

/-- In a strictly ascending tree the search loop keeps the keys before its position below
`val` and the keys after its position above `val`. -/
theorem descend_between (val : Int) (t : TreeNode μ) :
    ∀ st : List (Frame μ), Ascending (pathL st ++ t.keys ++ pathR st) → Between val st →
      Between val (descend val t st).2 := by
  induction t with
  | null => intro st _ hb; exact hb
  | node l v m r ihl ihr =>
    intro st hs hb
    unfold descend
    have hs2 := hs
    simp only [TreeNode.keys, ascending_append, ascending_cons, List.mem_append, List.mem_cons]
      at hs2
    obtain ⟨⟨_, ⟨_, ⟨hvr, _⟩, hlv⟩, _⟩, _, _⟩ := hs2
    split_ifs with c1 c2
    · refine ihl _ ?_ ?_
      · simpa [pathL, pathR, Frame.lkeys, Frame.rkeys, TreeNode.keys] using hs
      · refine ⟨by simpa [pathL, Frame.lkeys] using hb.1, ?_⟩
        intro b hb2
        simp only [pathR, Frame.rkeys, List.mem_append, List.mem_cons] at hb2
        rcases hb2 with (rfl | hb2) | hb2
        · exact c2
        · have := hvr b hb2; omega
        · exact hb.2 b hb2
    · refine ihr _ ?_ ?_
      · simpa [pathL, pathR, Frame.lkeys, Frame.rkeys, TreeNode.keys] using hs
      · refine ⟨?_, by simpa [pathR, Frame.rkeys] using hb.2⟩
        intro a ha
        simp only [pathL, Frame.lkeys, List.mem_append, List.mem_singleton] at ha
        rcases ha with ha | ha | rfl
        · exact hb.1 a ha
        · have := hlv a ha v (Or.inl rfl)
          omega
        · omega
    · exact hb

/-- Removing one element from a strictly ascending sequence. -/
theorem ascending_remove {l1 l2 : List Int} {x : Int} (h : Ascending (l1 ++ x :: l2)) :
    Ascending (l1 ++ l2) ∧ ∀ j, j ∈ l1 ++ l2 ↔ j ∈ l1 ++ x :: l2 ∧ j ≠ x := by
  simp only [ascending_append, ascending_cons, List.mem_cons] at h
  obtain ⟨h1, ⟨hx2, h2⟩, h12⟩ := h
  refine ⟨ascending_append.2 ⟨h1, h2, fun a ha b hb => h12 a ha b (Or.inr hb)⟩, ?_⟩
  intro j
  simp only [List.mem_append, List.mem_cons]
  constructor
  · rintro (hj | hj)
    · exact ⟨Or.inl hj, by have := h12 j hj x (Or.inl rfl); omega⟩
    · exact ⟨Or.inr (Or.inr hj), by have := hx2 j hj; omega⟩
  · rintro ⟨hj | hj | hj, hne⟩
    · exact Or.inl hj
    · exact absurd hj hne
    · exact Or.inr hj

/-- Strictly ascending in-order keys and the node-by-node search-tree order are the same
property. -/
theorem ascending_keys_iff_ordered (t : TreeNode μ) : Ascending t.keys ↔ t.Ordered := by
  induction t with
  | null => simp [TreeNode.keys, TreeNode.Ordered, Ascending]
  | node l v m r ihl ihr =>
    simp only [TreeNode.keys, TreeNode.Ordered, ascending_append, ascending_cons, ihl, ihr,
      List.mem_cons]
    constructor
    · rintro ⟨h1, ⟨h2, h3⟩, h4⟩
      exact ⟨h1, h3, fun a ha => h4 a ha v (Or.inl rfl), h2⟩
    · rintro ⟨h1, h2, h3, h4⟩
      refine ⟨h1, ⟨h4, h2⟩, ?_⟩
      rintro a ha b (rfl | hb)
      · exact h3 a ha
      · have := h3 a ha
        have := h4 b hb
        omega

/-- Inserting an element between the keys below it and the keys above it. -/
theorem ascending_insert {l1 l2 : List Int} {x : Int} (h : Ascending (l1 ++ l2))
    (h1 : ∀ a ∈ l1, a < x) (h2 : ∀ b ∈ l2, x < b) :
    Ascending (l1 ++ x :: l2) ∧ ∀ j, j ∈ l1 ++ x :: l2 ↔ j = x ∨ j ∈ l1 ++ l2 := by
  obtain ⟨a1, a2, a12⟩ := ascending_append.1 h
  refine ⟨ascending_append.2 ⟨a1, ascending_cons.2 ⟨h2, a2⟩, ?_⟩, ?_⟩
  · intro a ha b hb
    rcases List.mem_cons.1 hb with rfl | hb
    · exact h1 a ha
    · exact a12 a ha b hb
  · intro j
    simp only [List.mem_append, List.mem_cons]
    tauto

/-- A key strictly between the two halves of a sequence is not in it. -/
theorem not_mem_between {l1 l2 : List Int} {x : Int}
    (h1 : ∀ a ∈ l1, a < x) (h2 : ∀ b ∈ l2, x < b) : x ∉ l1 ++ l2 := by
  intro hx
  rcases List.mem_append.1 hx with hx | hx
  · have := h1 x hx; omega
  · have := h2 x hx; omega

end Common

/-- Lockstep agreement with the reference set, for any engine whose calls meet `StepSpec`
under an invariant that they preserve. -/
theorem runOps_refines {σ : Type} (step : σ → Op → Bool × σ) (keysOf : σ → List Int)
    (findOf : σ → Int → Bool) (Inv : σ → Prop)
    (hstep : ∀ s op, Inv s →
      Inv (step s op).2 ∧ StepSpec (keysOf s) op (step s op).1 (keysOf (step s op).2))
    (hfind : ∀ s k, Inv s → findOf s k = decide (k ∈ keysOf s)) :
    ∀ (ops : List Op) (s : σ) (m : Finset Int), Inv s → (∀ j, j ∈ keysOf s ↔ j ∈ m) →
      (runOps step s ops).1 = (runOps refStep m ops).1 ∧
        ∀ k, findOf (runOps step s ops).2 k = decide (k ∈ (runOps refStep m ops).2) := by
  intro ops
  induction ops with
  | nil =>
    intro s m hi hk
    refine ⟨rfl, fun k => ?_⟩
    simp only [runOps]
    rw [hfind s k hi]
    simp [hk k]
  | cons op ops ih =>
    intro s m hi hk
    obtain ⟨hi2, hsp⟩ := hstep s op hi
    have key : (step s op).1 = (refStep m op).1 ∧
        ∀ j, j ∈ keysOf (step s op).2 ↔ j ∈ (refStep m op).2 := by
      cases op with
      | add k =>
        simp only [StepSpec] at hsp
        refine ⟨by simp [refStep, hsp.1, hk k], fun j => ?_⟩
        simp [refStep, hsp.2 j, hk j]
      | find k =>
        simp only [StepSpec] at hsp
        refine ⟨by simp [refStep, hsp.1, hk k], fun j => ?_⟩
        simp [refStep, hsp.2 j, hk j]
      | remove k =>
        simp only [StepSpec] at hsp
        refine ⟨by simp [refStep, hsp.1, hk k], fun j => ?_⟩
        simp [refStep, hsp.2 j, hk j]
        tauto
    obtain ⟨r1, r2⟩ := ih (step s op).2 (refStep m op).2 hi2 key.2
    simp only [runOps]
    exact ⟨by rw [key.1, r1], r2⟩

/-! ## AVLTree: the height invariant -/

namespace AVLTree

theorem height_null : height .null = 0 := rfl

theorem height_node (l r : Node) (v : Int) (h : Nat) : height (.node l v h r) = h := rfl

theorem update_height_node (l r : Node) (v : Int) (h : Nat) :
    update_height (.node l v h r) = .node l v (max (height l) (height r) + 1) r := rfl

theorem height_eq_realHeight {t : Node} (h : HeightBalanced t) : height t = realHeight t := by
  cases t with
  | null => rfl
  | node l v ht r =>
    simp only [HeightBalanced] at h
    simp [height_node, realHeight, h.2.2.1]

/-- What `balance` achieves on a node whose children are height balanced and differ in height
by at most 2: a height balanced subtree whose height is `1 + max` of the children's heights,
or one less. -/
theorem balance_heightBalanced (l r : Node) (v : Int) (h : Nat)
    (hl : HeightBalanced l) (hr : HeightBalanced r)
    (h1 : realHeight l ≤ realHeight r + 2) (h2 : realHeight r ≤ realHeight l + 2) :
    HeightBalanced (balance (.node l v h r)) ∧
      realHeight (balance (.node l v h r)) ≤ 1 + max (realHeight l) (realHeight r) ∧
      max (realHeight l) (realHeight r) ≤ realHeight (balance (.node l v h r)) ∧
      (realHeight (balance (.node l v h r)) = 1 + max (realHeight l) (realHeight r) ∨
        realHeight r + 1 < realHeight l ∨ realHeight l + 1 < realHeight r) := by
  have el := height_eq_realHeight hl
  have er := height_eq_realHeight hr
  unfold balance
  simp only [el, er]
  split_ifs with c1 c2
  · -- left heavy
    cases l with
    | null => simp [realHeight] at c1
    | node ll lv lht lr =>
      simp only [HeightBalanced] at hl
      obtain ⟨hll, hlr, e1, b1, b2⟩ := hl
      have ell := height_eq_realHeight hll
      have elr := height_eq_realHeight hlr
      simp only [realHeight] at c1 h1 h2 ⊢
      simp only [ell, elr]
      split_ifs with c3
      · cases lr with
        | null => simp [realHeight] at c3
        | node a x hx b =>
          simp only [HeightBalanced] at hlr
          obtain ⟨ha, hb, e2, b3, b4⟩ := hlr
          have ea := height_eq_realHeight ha
          have eb := height_eq_realHeight hb
          simp only [realHeight] at c1 c3 b1 b2 h1 h2 ⊢
          simp only [left_rotate, right_rotate, update_height_node, height_node, HeightBalanced, realHeight,
            ell, ea, eb, er]
          refine ⟨⟨⟨hll, ha, ?_, ?_, ?_⟩, ⟨hb, hr, ?_, ?_, ?_⟩, ?_, ?_, ?_⟩, ?_, ?_, ?_⟩ <;> omega
      · simp only [right_rotate, update_height_node, height_node, HeightBalanced, realHeight,
          ell, elr, er]
        refine ⟨⟨hll, ⟨hlr, hr, ?_, ?_, ?_⟩, ?_, ?_, ?_⟩, ?_, ?_, ?_⟩ <;> omega
  · -- right heavy
    cases r with
    | null => simp [realHeight] at c2
    | node rl rv rht rr =>
      simp only [HeightBalanced] at hr
      obtain ⟨hrl, hrr, e1, b1, b2⟩ := hr
      have erl := height_eq_realHeight hrl
      have err := height_eq_realHeight hrr
      simp only [realHeight] at c1 c2 h1 h2 ⊢
      simp only [erl, err]
      split_ifs with c3
      · cases rl with
        | null => simp [realHeight] at c3
        | node a x hx b =>
          simp only [HeightBalanced] at hrl
          obtain ⟨ha, hb, e2, b3, b4⟩ := hrl
          have ea := height_eq_realHeight ha
          have eb := height_eq_realHeight hb
          simp only [realHeight] at c1 c2 c3 b1 b2 h1 h2 ⊢
          simp only [left_rotate, right_rotate, update_height_node, height_node, HeightBalanced, realHeight,
            err, ea, eb, el]
          refine ⟨⟨⟨hl, ha, ?_, ?_, ?_⟩, ⟨hb, hrr, ?_, ?_, ?_⟩, ?_, ?_, ?_⟩, ?_, ?_, ?_⟩ <;> omega
      · simp only [left_rotate, update_height_node, height_node, HeightBalanced, realHeight,
          erl, err, el]
        refine ⟨⟨⟨hl, hrl, ?_, ?_, ?_⟩, hrr, ?_, ?_, ?_⟩, ?_, ?_, ?_⟩ <;> omega
  · simp only [update_height_node, HeightBalanced, realHeight, el, er]
    refine ⟨⟨hl, hr, ?_, ?_, ?_⟩, ?_, ?_, ?_⟩ <;> first | omega | simp

/-- The same statement for an ancestor frame filled with a subtree. -/
theorem balance_fill_heightBalanced (f : Frame Nat) (t : Node)
    (ht : HeightBalanced t) (ho : HeightBalanced f.other)
    (h1 : realHeight t ≤ realHeight f.other + 2) (h2 : realHeight f.other ≤ realHeight t + 2) :
    HeightBalanced (balance (f.fill t)) ∧
      realHeight (balance (f.fill t)) ≤ 1 + max (realHeight t) (realHeight f.other) ∧
      max (realHeight t) (realHeight f.other) ≤ realHeight (balance (f.fill t)) ∧
      (realHeight (balance (f.fill t)) = 1 + max (realHeight t) (realHeight f.other) ∨
        realHeight f.other + 1 < realHeight t ∨ realHeight t + 1 < realHeight f.other) := by
  obtain ⟨d, v, m, o⟩ := f
  cases d
  · have := balance_heightBalanced t o v m ht ho h1 h2
    simpa [Frame.fill] using this
  · have := balance_heightBalanced o t v m ho ht h2 h1
    simp only [Frame.fill]
    refine ⟨this.1, ?_, ?_, ?_⟩
    · have := this.2.1; simp only [max_comm] at this ⊢; omega
    · have := this.2.2.1; simp only [max_comm] at this ⊢; omega
    · have := this.2.2.2; simp only [max_comm] at this ⊢; omega

/-- The re-balancing loop restores the height invariant along the whole stack when the
subtree handed to it differs in height by at most one from the subtree it replaces. -/
theorem rebalance_heightBalanced (st : List (Frame Nat)) :
    ∀ (f : Frame Nat) (t : Node) (h : Nat), PathBalanced (f :: st) h → HeightBalanced t →
      realHeight t ≤ h + 1 → h ≤ realHeight t + 1 →
      HeightBalanced (rebalance (f.fill t) st) := by
  induction st with
  | nil =>
    intro f t h hp ht h1 h2
    simp only [PathBalanced] at hp
    simp only [rebalance]
    exact (balance_fill_heightBalanced f t ht hp.1 (by omega) (by omega)).1
  | cons g st ih =>
    intro f t h hp ht h1 h2
    simp only [PathBalanced] at hp
    obtain ⟨ho, b1, b2, hg⟩ := hp
    have hb := balance_fill_heightBalanced f t ht ho (by omega) (by omega)
    simp only [rebalance]
    refine ih g (balance (f.fill t)) (1 + max h (realHeight f.other))
      (by simpa only [PathBalanced] using hg) hb.1 ?_ ?_
    · have := hb.2.1; omega
    · have := hb.2.2.1; have := hb.2.2.2; omega

theorem pathBalanced_append (s1 s2 : List (Frame Nat)) (h : Nat) :
    PathBalanced (s1 ++ s2) h ↔ PathBalanced s1 h ∧ PathBalanced s2 (pathHeight s1 h) := by
  induction s1 generalizing h with
  | nil => simp [PathBalanced, pathHeight]
  | cons f s1 ih =>
    rw [List.cons_append]
    simp only [PathBalanced, pathHeight]
    rw [ih]
    tauto

/-- The search loop keeps the height invariant of the subtree it stops at and of the
stack it has pushed. -/
theorem descend_pathBalanced (val : Int) (t : Node) :
    ∀ st : List (Frame Nat), HeightBalanced t → PathBalanced st (realHeight t) →
      HeightBalanced (descend val t st).1 ∧
        PathBalanced (descend val t st).2 (realHeight (descend val t st).1) := by
  induction t with
  | null => intro st ht hp; exact ⟨ht, hp⟩
  | node l v h r ihl ihr =>
    intro st ht hp
    have ht2 := ht
    simp only [HeightBalanced] at ht2
    obtain ⟨hl, hr, e, b1, b2⟩ := ht2
    simp only [realHeight] at hp
    unfold descend
    split_ifs with c1 c2
    · refine ihl _ hl ?_
      simp only [PathBalanced]
      exact ⟨hr, b1, b2, hp⟩
    · refine ihr _ hr ?_
      simp only [PathBalanced]
      exact ⟨hl, b2, b1, by rw [max_comm]; exact hp⟩
    · exact ⟨ht, by simpa only [realHeight] using hp⟩

/-- The node linked in by `add` sits on the side of the stack top on which the search
left the tree. -/
theorem add_link (val : Int) (top : Frame Nat) (hd : top.dir = .LEFT ↔ val < top.val) (n : Node) :
    (if val < top.val then (top.fill .null).setLeft n else (top.fill .null).setRight n)
      = top.fill n := by
  obtain ⟨d, v, m, o⟩ := top
  cases d
  · have : val < v := by simpa using hd
    simp [Frame.fill, TreeNode.setLeft, this]
  · have : ¬ val < v := by simpa using hd
    simp [Frame.fill, TreeNode.setRight, this]

theorem add_heightBalanced (t : Node) (x : Int) (hb : HeightBalanced t) :
    HeightBalanced (add t x).2 := by
  cases t with
  | null => simp [add, newNode, HeightBalanced, realHeight]
  | node l v h r =>
    have hd := descend_pathBalanced x (.node l v h r) [] hb (by simp [PathBalanced])
    have hdir := descend_dirs x (.node l v h r) [] (by simp)
    simp only [add]
    generalize descend x (.node l v h r) [] = res at hd hdir
    obtain ⟨t2, st2⟩ := res
    cases t2 with
    | node _ _ _ _ => exact hb
    | null =>
      cases st2 with
      | nil => exact hb
      | cons top st =>
        simp only
        rw [add_link x top (hdir top (by simp))]
        refine rebalance_heightBalanced st top (newNode x) 0 hd.2 ?_ ?_ ?_
        · simp [newNode, HeightBalanced, realHeight]
        · simp [newNode, realHeight]
        · simp

/-- The successor walk of `remove` stops at a node without left child and keeps the height
invariant of that node and of the stack segment it has pushed. -/
theorem leftmost_pathBalanced (t : Node) :
    ∀ st : List (Frame Nat), HeightBalanced t → PathBalanced st (realHeight t) → t ≠ .null →
      ∃ sv sh sr seg, leftmost t st = (.node .null sv sh sr, seg) ∧
        HeightBalanced sr ∧ realHeight sr ≤ 1 ∧
        PathBalanced seg (1 + realHeight sr) ∧
        pathHeight seg (1 + realHeight sr) = pathHeight st (realHeight t) := by
  induction t with
  | null => intro st _ _ hne; exact absurd rfl hne
  | node l v h r ihl _ =>
    intro st ht hp _
    simp only [HeightBalanced] at ht
    obtain ⟨hl, hr, e, b1, b2⟩ := ht
    cases l with
    | null =>
      refine ⟨v, h, r, st, by simp [leftmost], hr, ?_, ?_, ?_⟩
      · simpa [realHeight] using b2
      · simpa [realHeight] using hp
      · simp [realHeight]
    | node a x hx b =>
      have hp2 : PathBalanced (⟨.LEFT, v, h, r⟩ :: st) (realHeight (.node a x hx b)) := by
        simp only [PathBalanced]
        exact ⟨hr, b1, b2, by simpa [realHeight] using hp⟩
      obtain ⟨sv, sh, sr, seg, e1, e2, e3, e4, e5⟩ := ihl (⟨.LEFT, v, h, r⟩ :: st) hl hp2 (by simp)
      refine ⟨sv, sh, sr, seg, ?_, e2, e3, e4, ?_⟩
      · rw [leftmost]; exact e1
      · rw [e5]; simp [pathHeight, realHeight]

theorem remove_heightBalanced (t : Node) (x : Int) (hb : HeightBalanced t) :
    HeightBalanced (remove t x).2 := by
  have hd := descend_pathBalanced x t [] hb (by simp [PathBalanced])
  unfold remove
  generalize descend x t [] = res at hd
  obtain ⟨t2, st2⟩ := res
  obtain ⟨h2, hp⟩ := hd
  simp only at h2 hp
  cases t2 with
  | null => exact hb
  | node l v h r =>
    have h2c := h2
    simp only [HeightBalanced] at h2c
    obtain ⟨hl, hr, e, b1, b2⟩ := h2c
    cases l with
    | null =>
      cases r with
      | null =>
        cases st2 with
        | nil => simp [HeightBalanced]
        | cons top st =>
          refine rebalance_heightBalanced st top .null _ hp (by simp [HeightBalanced]) ?_ ?_
            <;> simp [realHeight]
      | node rl rv rh rr =>
        cases st2 with
        | nil => exact hr
        | cons top st =>
          refine rebalance_heightBalanced st top _ _ hp hr ?_ ?_
          · simp only [realHeight] at b1 b2 ⊢; omega
          · simp only [realHeight] at b1 b2 ⊢; omega
    | node ll lv lh lr =>
      cases r with
      | null =>
        cases st2 with
        | nil => exact hl
        | cons top st =>
          refine rebalance_heightBalanced st top _ _ hp hl ?_ ?_
          · simp only [realHeight] at b1 b2 ⊢; omega
          · simp only [realHeight] at b1 b2 ⊢; omega
      | node rl rv rh rr =>
        obtain ⟨sv, sh, sr, seg, e1, e2, e3, e4, e5⟩ :=
          leftmost_pathBalanced (.node rl rv rh rr) [] hr (by simp [PathBalanced]) (by simp)
        simp only [e1]
        have hstack : PathBalanced (seg ++ (⟨.RIGHT, sv, h, .node ll lv lh lr⟩ : Frame Nat) :: st2)
            (1 + realHeight sr) := by
          rw [pathBalanced_append]
          refine ⟨e4, ?_⟩
          rw [e5]
          simp only [pathHeight, PathBalanced]
          refine ⟨hl, b2, b1, ?_⟩
          rw [max_comm]
          simpa only [realHeight] using hp
        generalize seg ++ (⟨.RIGHT, sv, h, .node ll lv lh lr⟩ : Frame Nat) :: st2 = stack at hstack
        cases stack with
        | nil => exact hb
        | cons top st3 =>
          refine rebalance_heightBalanced st3 top sr _ hstack e2 ?_ ?_ <;> omega

end AVLTree
/-! ## AVLTree: key sequences, sortedness and agreement with the reference set -/

namespace AVLTree

theorem keys_update_height (t : Node) : (update_height t).keys = t.keys := by
  cases t <;> rfl

theorem keys_left_rotate (t : Node) : (left_rotate t).keys = t.keys := by
  unfold left_rotate
  split
  · simp [keys_update_height, update_height_node, TreeNode.keys]
  · rfl

theorem keys_right_rotate (t : Node) : (right_rotate t).keys = t.keys := by
  unfold right_rotate
  split
  · simp [keys_update_height, update_height_node, TreeNode.keys]
  · rfl

/-- Re-balancing a node never changes the in-order key sequence. -/
theorem keys_balance (t : Node) : (balance t).keys = t.keys := by
  cases t with
  | null => rfl
  | node l v h r =>
    simp only [balance]
    split_ifs
    · cases l with
      | null => rfl
      | node ll lv lht lr =>
        simp only
        split_ifs
        · rw [keys_right_rotate]; simp only [TreeNode.keys, keys_left_rotate]
        · rw [keys_right_rotate]
    · cases r with
      | null => rfl
      | node rl rv rht rr =>
        simp only
        split_ifs
        · rw [keys_left_rotate]; simp only [TreeNode.keys, keys_right_rotate]
        · rw [keys_left_rotate]
    · rw [keys_update_height]

theorem keys_rebalance (st : List (Frame Nat)) :
    ∀ root : Node, (rebalance root st).keys = pathL st ++ root.keys ++ pathR st := by
  induction st with
  | nil => intro root; simp [rebalance, keys_balance, pathL, pathR]
  | cons f st ih =>
    intro root
    simp [rebalance, ih, keys_fill, keys_balance, pathL, pathR]

theorem keys_descend (val : Int) (t : Node) :
    t.keys = pathL (descend val t []).2 ++ (descend val t []).1.keys ++ pathR (descend val t []).2 := by
  have := congrArg TreeNode.keys (plug_descend val t [])
  rw [keys_plug] at this
  simpa [plug] using this.symm

/-- The member function `find` decides membership in a strictly ascending tree. -/
theorem find_eq_mem (t : Node) (x : Int) (hs : Ascending t.keys) :
    find t x = decide (x ∈ t.keys) := by
  have hk := keys_descend x t
  have hb := descend_between x t [] (by simpa [pathL, pathR] using hs) (by simp [Between, pathL, pathR])
  have hstop := descend_stop x t ([] : List (Frame Nat))
  unfold find
  generalize descend x t [] = res at hk hb hstop
  obtain ⟨t2, st2⟩ := res
  rcases hstop with h | ⟨l, m, r, h⟩
  · simp only at h
    subst h
    simp only [TreeNode.keys, List.append_nil] at hk
    have := not_mem_between hb.1 hb.2
    rw [← hk] at this
    simp [this]
  · simp only at h
    subst h
    have : x ∈ t.keys := by rw [hk]; simp [TreeNode.keys]
    simp [this]

theorem leftmost_keys (t : Node) :
    ∀ st : List (Frame Nat), pathL (leftmost t st).2 = pathL st ∧
      (leftmost t st).1.keys ++ pathR (leftmost t st).2 = t.keys ++ pathR st := by
  induction t with
  | null => intro st; simp [leftmost]
  | node l v h r ihl _ =>
    intro st
    cases l with
    | null => simp [leftmost]
    | node a x hx b =>
      rw [leftmost]
      obtain ⟨e1, e2⟩ := ihl (⟨.LEFT, v, h, r⟩ :: st)
      refine ⟨by rw [e1]; simp [pathL, Frame.lkeys], ?_⟩
      rw [e2]
      simp [pathR, Frame.rkeys, TreeNode.keys]

theorem leftmost_shape (t : Node) :
    ∀ st : List (Frame Nat), t ≠ .null →
      ∃ sv sh sr, (leftmost t st).1 = .node .null sv sh sr := by
  induction t with
  | null => intro st hne; exact absurd rfl hne
  | node l v h r ihl _ =>
    intro st _
    cases l with
    | null => exact ⟨v, h, r, by simp [leftmost]⟩
    | node a x hx b =>
      rw [leftmost]
      exact ihl _ (by simp)

/-- Key sequence after `add`: unchanged when the key is present, otherwise the key is put
between the keys below it and the keys above it. -/
theorem add_keys (t : Node) (x : Int) (hs : Ascending t.keys) :
    (x ∈ t.keys ∧ add t x = (false, t)) ∨
      (x ∉ t.keys ∧ (add t x).1 = true ∧ ∃ l1 l2, t.keys = l1 ++ l2 ∧
        (add t x).2.keys = l1 ++ x :: l2 ∧ (∀ a ∈ l1, a < x) ∧ (∀ b ∈ l2, x < b)) := by
  cases t with
  | null =>
    right
    exact ⟨by simp [TreeNode.keys], rfl, [], [], by simp [TreeNode.keys, add, newNode]⟩
  | node l v h r =>
    have hk := keys_descend x (.node l v h r)
    have hb := descend_between x (.node l v h r) [] (by simpa [pathL, pathR] using hs)
      (by simp [Between, pathL, pathR])
    have hstop := descend_stop x (.node l v h r) ([] : List (Frame Nat))
    have hdir := descend_dirs x (.node l v h r) ([] : List (Frame Nat)) (by simp)
    have hplug := plug_descend x (.node l v h r) ([] : List (Frame Nat))
    simp only [add]
    generalize hT : TreeNode.node l v h r = T at hs hk hb hstop hdir hplug ⊢
    generalize descend x T [] = res at hk hb hstop hdir hplug
    obtain ⟨t2, st2⟩ := res
    rcases hstop with e | ⟨l2, m2, r2, e⟩
    · simp only at e
      subst e
      cases st2 with
      | nil => simp only [plug] at hplug; rw [← hplug] at hT; cases hT
      | cons top st =>
        right
        simp only [TreeNode.keys, List.append_nil] at hk
        refine ⟨by rw [hk]; exact not_mem_between hb.1 hb.2, rfl, pathL (top :: st),
          pathR (top :: st), hk, ?_, hb.1, hb.2⟩
        simp only
        rw [add_link x top (hdir top (by simp)), keys_rebalance, keys_fill]
        simp [newNode, TreeNode.keys, pathL, pathR]
    · simp only at e
      subst e
      left
      exact ⟨by rw [hk]; simp [TreeNode.keys], rfl⟩

/-- Key sequence after `remove`: unchanged when the key is absent, otherwise the key is
taken out and everything else stays in place. -/
theorem remove_keys (t : Node) (x : Int) (hs : Ascending t.keys) :
    (x ∉ t.keys ∧ remove t x = (false, t)) ∨
      ((remove t x).1 = true ∧ ∃ l1 l2, t.keys = l1 ++ x :: l2 ∧
        (remove t x).2.keys = l1 ++ l2) := by
  have hk := keys_descend x t
  have hb := descend_between x t [] (by simpa [pathL, pathR] using hs)
    (by simp [Between, pathL, pathR])
  have hstop := descend_stop x t ([] : List (Frame Nat))
  unfold remove
  generalize descend x t [] = res at hk hb hstop
  obtain ⟨t2, st2⟩ := res
  rcases hstop with e | ⟨l, m, r, e⟩
  · simp only at e
    subst e
    left
    simp only [TreeNode.keys, List.append_nil] at hk
    exact ⟨by rw [hk]; exact not_mem_between hb.1 hb.2, rfl⟩
  · simp only at e
    subst e
    right
    cases l with
    | null =>
      cases r with
      | null =>
        cases st2 with
        | nil => exact ⟨rfl, [], [], by simpa [TreeNode.keys, pathL, pathR] using hk, rfl⟩
        | cons top st =>
          refine ⟨rfl, pathL (top :: st), pathR (top :: st),
            by simpa [TreeNode.keys] using hk, ?_⟩
          simp [keys_rebalance, keys_fill, TreeNode.keys, pathL, pathR]
      | node rl rv rh rr =>
        cases st2 with
        | nil =>
          exact ⟨rfl, [], (TreeNode.node rl rv rh rr).keys,
            by simpa [TreeNode.keys, pathL, pathR] using hk, rfl⟩
        | cons top st =>
          refine ⟨rfl, pathL (top :: st), (TreeNode.node rl rv rh rr).keys ++ pathR (top :: st),
            by simpa [TreeNode.keys] using hk, ?_⟩
          simp [keys_rebalance, keys_fill, TreeNode.keys, pathL, pathR]
    | node ll lv lh lr =>
      cases r with
      | null =>
        cases st2 with
        | nil =>
          exact ⟨rfl, (TreeNode.node ll lv lh lr).keys, [],
            by simpa [TreeNode.keys, pathL, pathR] using hk, by simp⟩
        | cons top st =>
          refine ⟨rfl, pathL (top :: st) ++ (TreeNode.node ll lv lh lr).keys, pathR (top :: st),
            by simpa [TreeNode.keys] using hk, ?_⟩
          simp [keys_rebalance, keys_fill, TreeNode.keys, pathL, pathR]
      | node rl rv rh rr =>
        obtain ⟨sv, sh, sr, e1⟩ := leftmost_shape (.node rl rv rh rr) [] (by simp)
        obtain ⟨k1, k2⟩ := leftmost_keys (.node rl rv rh rr) []
        generalize hres : leftmost (.node rl rv rh rr) [] = res2 at e1 k1 k2
        obtain ⟨suc, seg⟩ := res2
        simp only at e1 k1 k2
        subst e1
        simp only [hres]
        have hne : seg ++ (⟨.RIGHT, sv, m, .node ll lv lh lr⟩ : Frame Nat) :: st2 ≠ [] := by simp
        have hL := pathL_append seg ((⟨.RIGHT, sv, m, .node ll lv lh lr⟩ : Frame Nat) :: st2)
        have hR := pathR_append seg ((⟨.RIGHT, sv, m, .node ll lv lh lr⟩ : Frame Nat) :: st2)
        generalize seg ++ (⟨.RIGHT, sv, m, .node ll lv lh lr⟩ : Frame Nat) :: st2 = stack
          at hne hL hR
        cases stack with
        | nil => exact absurd rfl hne
        | cons top st3 =>
          refine ⟨rfl, pathL st2 ++ (TreeNode.node ll lv lh lr).keys,
            (TreeNode.node rl rv rh rr).keys ++ pathR st2,
            by simpa [TreeNode.keys] using hk, ?_⟩
          simp only
          rw [keys_rebalance]
          have e4 : pathL st3 ++ (top.fill sr).keys ++ pathR st3
              = pathL (top :: st3) ++ sr.keys ++ pathR (top :: st3) := by
            simp [keys_fill, pathL, pathR]
          rw [e4, hL, hR, k1]
          simp only [TreeNode.keys, pathL, pathR, Frame.lkeys, Frame.rkeys, List.nil_append,
            List.append_nil, List.append_assoc, List.cons_append, List.singleton_append] at k2 ⊢
          have k3 := congrArg (fun l => l ++ pathR st2) k2
          simpa using k3

theorem add_spec (t : Node) (x : Int) (hs : Ascending t.keys) :
    Ascending (add t x).2.keys ∧ StepSpec t.keys (.add x) (add t x).1 (add t x).2.keys := by
  rcases add_keys t x hs with ⟨hm, e⟩ | ⟨hm, e1, l1, l2, k1, k2, b1, b2⟩
  · rw [e]
    refine ⟨hs, ?_⟩
    simp only [StepSpec]
    refine ⟨by simp [hm], fun j => ?_⟩
    constructor
    · exact Or.inr
    · rintro (rfl | h)
      · exact hm
      · exact h
  · rw [k1] at hs
    obtain ⟨a1, a2⟩ := ascending_insert hs b1 b2
    rw [k2]
    refine ⟨a1, ?_⟩
    simp only [StepSpec]
    refine ⟨by simp [hm, e1], fun j => ?_⟩
    rw [a2 j, k1]

theorem remove_spec (t : Node) (x : Int) (hs : Ascending t.keys) :
    Ascending (remove t x).2.keys ∧
      StepSpec t.keys (.remove x) (remove t x).1 (remove t x).2.keys := by
  rcases remove_keys t x hs with ⟨hm, e⟩ | ⟨e1, l1, l2, k1, k2⟩
  · rw [e]
    refine ⟨hs, ?_⟩
    simp only [StepSpec]
    refine ⟨by simp [hm], fun j => ?_⟩
    constructor
    · intro h
      exact ⟨h, fun e => hm (e ▸ h)⟩
    · exact fun h => h.1
  · rw [k1] at hs
    obtain ⟨a1, a2⟩ := ascending_remove hs
    rw [k2]
    refine ⟨a1, ?_⟩
    simp only [StepSpec]
    refine ⟨by simp [k1, e1], fun j => ?_⟩
    rw [a2 j, k1]

end AVLTree
/-! ## RBTree: the colour invariants under `add` -/

section CommonRotations

variable {μ : Type}

theorem plug_focusChild (d : dir_t) (t : TreeNode μ) (st : List (Frame μ)) :
    plug (focusChild d t st).1 (focusChild d t st).2 = plug t st := by
  cases t with
  | null => rfl
  | node l v m r => cases d <;> rfl

theorem keys_tn_left_rotate (t : TreeNode μ) : (TreeNode.left_rotate t).keys = t.keys := by
  unfold TreeNode.left_rotate
  split
  · simp [TreeNode.keys]
  · rfl

theorem keys_tn_right_rotate (t : TreeNode μ) : (TreeNode.right_rotate t).keys = t.keys := by
  unfold TreeNode.right_rotate
  split
  · simp [TreeNode.keys]
  · rfl

theorem keys_tn_rotate (d : dir_t) (t : TreeNode μ) : (TreeNode.rotate d t).keys = t.keys := by
  cases d
  · exact keys_tn_left_rotate t
  · exact keys_tn_right_rotate t

theorem keys_setTag (m : μ) (t : TreeNode μ) : (t.setTag m).keys = t.keys := by
  cases t <;> rfl

theorem child_setTag (m : μ) (d : dir_t) (t : TreeNode μ) :
    (t.setTag m).child d = t.child d := by
  cases t <;> rfl

theorem child_setChild_flip (d : dir_t) (t u : TreeNode μ) :
    (t.setChild d u).child d.flip = t.child d.flip := by
  cases t <;> cases d <;> rfl

theorem keys_setChild (d : dir_t) (t u : TreeNode μ) (h : u.keys = (t.child d).keys) :
    (t.setChild d u).keys = t.keys := by
  cases t with
  | null => cases d <;> rfl
  | node l v m r =>
    cases d
    · simp only [TreeNode.child] at h
      simp [TreeNode.setChild, TreeNode.setLeft, TreeNode.keys, h]
    · simp only [TreeNode.child] at h
      simp [TreeNode.setChild, TreeNode.setRight, TreeNode.keys, h]

/-- The key sequence of a tree, split at the position where the search loop stops. -/
theorem keys_descend_split (val : Int) (t : TreeNode μ) :
    t.keys = pathL (descend val t []).2 ++ (descend val t []).1.keys
      ++ pathR (descend val t []).2 := by
  have := congrArg TreeNode.keys (plug_descend val t [])
  rw [keys_plug] at this
  simpa [plug] using this.symm

/-- In a strictly ascending tree the search loop ends at a null pointer exactly when the key
is absent. -/
theorem descend_null_iff (val : Int) (t : TreeNode μ) (hs : Ascending t.keys) :
    (descend val t []).1 = .null ↔ val ∉ t.keys := by
  have hk := keys_descend_split val t
  have hb := descend_between val t [] (by simpa [pathL, pathR] using hs)
    (by simp [Between, pathL, pathR])
  have hstop := descend_stop val t ([] : List (Frame μ))
  generalize descend val t [] = res at hk hb hstop
  obtain ⟨t2, st2⟩ := res
  rcases hstop with h | ⟨l, m, r, h⟩
  · simp only at h
    subst h
    simp only [TreeNode.keys, List.append_nil] at hk
    have := not_mem_between hb.1 hb.2
    rw [← hk] at this
    simp [this]
  · simp only at h
    subst h
    have : val ∈ t.keys := by rw [hk]; simp [TreeNode.keys]
    simp [this]

end CommonRotations

namespace RBTree

theorem rb_is_red_null : is_red .null = false := rfl

theorem rb_is_red_red (l r : Node) (v : Int) : is_red (.node l v .RED r) = true := rfl

theorem rb_is_red_black (l r : Node) (v : Int) : is_red (.node l v .BLACK r) = false := rfl

theorem rb_is_red_setTag_black (t : Node) : is_red (t.setTag .BLACK) = false := by
  cases t <;> rfl

theorem rb_noRedRed_setTag_black (t : Node) (h : NoRedRed t) : NoRedRed (t.setTag .BLACK) := by
  cases t with
  | null => trivial
  | node l v c r =>
    simp only [NoRedRed] at h
    simp only [TreeNode.setTag, NoRedRed]
    exact ⟨h.1, h.2.1, by simp⟩

theorem rb_blackBalanced_setTag (c : color_t) (t : Node) (h : BlackBalanced t) :
    BlackBalanced (t.setTag c) := by
  cases t with
  | null => trivial
  | node l v c2 r => simpa [TreeNode.setTag, BlackBalanced] using h

/-- Filling the path position with a subtree that fits completes a red-black tree. -/
theorem rb_plug_valid (st : List (Frame color_t)) :
    ∀ (t : Node) (h : Nat), PathRB st h → NoRedRed t → BlackBalanced t → blackHeight t = h →
      (topRed st = true → is_red t = false) →
      NoRedRed (plug t st) ∧ BlackBalanced (plug t st) := by
  induction st with
  | nil => intro t h _ h1 h2 _ _; exact ⟨h1, h2⟩
  | cons f st ih =>
    intro t h hp h1 h2 h3 h4
    obtain ⟨d, v, c, o⟩ := f
    simp only [PathRB] at hp
    obtain ⟨p1, p2, p3, p4, p5⟩ := hp
    simp only [plug]
    cases c with
    | RED =>
      have ht : is_red t = false := h4 (by simp [topRed])
      obtain ⟨q1, q2⟩ := p4 rfl
      cases d
      · refine ih _ _ p5 ?_ ?_ ?_ ?_
        · simp [Frame.fill, NoRedRed, h1, p1, ht, q1]
        · simp [Frame.fill, BlackBalanced, h2, p2, h3, p3]
        · simp [Frame.fill, blackHeight, h3]
        · simp [q2]
      · refine ih _ _ p5 ?_ ?_ ?_ ?_
        · simp [Frame.fill, NoRedRed, h1, p1, ht, q1]
        · simp [Frame.fill, BlackBalanced, h2, p2, h3, p3]
        · simp [Frame.fill, blackHeight, p3]
        · simp [q2]
    | BLACK =>
      cases d
      · refine ih _ _ p5 ?_ ?_ ?_ ?_
        · simp [Frame.fill, NoRedRed, h1, p1]
        · simp [Frame.fill, BlackBalanced, h2, p2, h3, p3]
        · simp [Frame.fill, blackHeight, h3]
        · intro _; simp [Frame.fill, is_red]
      · refine ih _ _ p5 ?_ ?_ ?_ ?_
        · simp [Frame.fill, NoRedRed, h1, p1]
        · simp [Frame.fill, BlackBalanced, h2, p2, h3, p3]
        · simp [Frame.fill, blackHeight, p3]
        · intro _; simp [Frame.fill, is_red]

/-- Walking from a node into either child keeps the position invariant. -/
theorem rb_descInv_child (l r : Node) (v : Int) (c : color_t) (st : List (Frame color_t))
    (h : DescInv (.node l v c r) st) :
    DescInv l (⟨.LEFT, v, c, r⟩ :: st) ∧ DescInv r (⟨.RIGHT, v, c, l⟩ :: st) := by
  obtain ⟨h1, h2, h3, h4⟩ := h
  simp only [NoRedRed] at h1
  simp only [BlackBalanced] at h2
  obtain ⟨n1, n2, n3⟩ := h1
  obtain ⟨b1, b2, b3⟩ := h2
  cases c with
  | RED =>
    have ht : topRed st = false := by
      cases hh : topRed st
      · rfl
      · have := h4 hh; simp [is_red] at this
    obtain ⟨r1, r2⟩ := n3 rfl
    simp only [blackHeight] at h3
    constructor
    · refine ⟨n1, b1, ?_, fun _ => r1⟩
      simp only [PathRB]
      exact ⟨n2, b2, b3.symm, fun _ => ⟨r2, ht⟩, h3⟩
    · refine ⟨n2, b2, ?_, fun _ => r2⟩
      simp only [PathRB]
      exact ⟨n1, b1, b3, fun _ => ⟨r1, ht⟩, by rw [← b3]; exact h3⟩
  | BLACK =>
    simp only [blackHeight] at h3
    constructor
    · refine ⟨n1, b1, ?_, by simp [topRed]⟩
      simp only [PathRB]
      exact ⟨n2, b2, b3.symm, by simp, h3⟩
    · refine ⟨n2, b2, ?_, by simp [topRed]⟩
      simp only [PathRB]
      exact ⟨n1, b1, b3, by simp, by rw [← b3]; exact h3⟩

theorem rb_descend_inv (val : Int) (t : Node) :
    ∀ st : List (Frame color_t), DescInv t st →
      DescInv (descend val t st).1 (descend val t st).2 := by
  induction t with
  | null => intro st h; exact h
  | node l v c r ihl ihr =>
    intro st h
    unfold descend
    split_ifs
    · exact ihl _ (rb_descInv_child l r v c st h).1
    · exact ihr _ (rb_descInv_child l r v c st h).2
    · exact h

/-- After an unsuccessful `find` the insertion walk ends where the search ended. -/
theorem rb_insertion_walk_eq (val : Int) (t : Node) :
    ∀ st : List (Frame color_t), (descend val t st).1 = .null →
      insertion_walk val t st = (descend val t st).2 := by
  induction t with
  | null => intro st _; rfl
  | node l v c r ihl ihr =>
    intro st h
    unfold descend at h ⊢
    unfold insertion_walk
    split_ifs at h ⊢ with c1 c2
    · exact ihl _ h
    · exact ihr _ h

theorem rb_add_measure_zero (s : Node × List (Frame color_t)) (h : add_measure s = 0) :
    add_step s = none := by
  obtain ⟨n, st⟩ := s
  match st with
  | [] => rfl
  | [p] =>
    simp only [add_measure] at h
    simp only [add_step]
    split_ifs at h ⊢ with c
    rfl
  | p :: g :: rest =>
    simp only [add_measure] at h
    simp only [add_step]
    split_ifs at h ⊢
    rfl

theorem rb_add_measure_black (n : Node) (p : Frame color_t) (rest : List (Frame color_t))
    (h : p.tag = .BLACK) : add_measure (n, p :: rest) = 0 := by
  cases rest <;> simp [add_measure, h]

/-- One iteration of the balancing loop keeps the loop invariant and lowers the iteration
bound. -/
theorem rb_add_step_inv (s s2 : Node × List (Frame color_t)) (hi : AddInv s)
    (hs : add_step s = some s2) : AddInv s2 ∧ add_measure s2 < add_measure s := by
  obtain ⟨n, st⟩ := s
  obtain ⟨i1, i2, i3, i4⟩ := hi
  simp only at i1 i2 i3 i4
  cases n with
  | null => simp [is_red] at i1
  | node nl nv nc nr =>
  cases nc with
  | BLACK => simp [is_red] at i1
  | RED =>
  simp only [NoRedRed, true_implies] at i2
  simp only [BlackBalanced] at i3
  obtain ⟨n1, n2, n3, n4⟩ := i2
  obtain ⟨b1, b2, b3⟩ := i3
  match st with
  | [] => simp [add_step] at hs
  | [p] =>
    obtain ⟨pd, pv, pc, po⟩ := p
    cases pc with
    | BLACK => simp [add_step] at hs
    | RED =>
      simp only [add_step, if_true] at hs
      cases hs
      simp only [PathRB] at i4
      refine ⟨⟨rfl, ⟨n1, n2, by simp [n3, n4]⟩, ⟨b1, b2, b3⟩, ?_⟩, by simp [add_measure]⟩
      simp only [PathRB]
      exact ⟨i4.1, i4.2.1, i4.2.2.1, by simp, trivial⟩
  | p :: g :: rest =>
    obtain ⟨pd, pv, pc, po⟩ := p
    obtain ⟨gd, gv, gc, go⟩ := g
    cases pc with
    | BLACK => simp [add_step] at hs
    | RED =>
      simp only [PathRB, true_implies, topRed, decide_eq_false_iff_not, blackHeight] at i4
      obtain ⟨p1, p2, p3, ⟨p4, p5⟩, g1, g2, g3, g4, g5⟩ := i4
      cases gc with
      | RED => exact absurd rfl p5
      | BLACK =>
        simp only [add_step, if_true] at hs
        by_cases hu : is_red go = true
        · -- Case 2
          simp only [hu, if_true] at hs
          cases hs
          cases go with
          | null => simp [is_red] at hu
          | node ul uv uc ur =>
          cases uc with
          | BLACK => simp [is_red] at hu
          | RED =>
          simp only [NoRedRed, true_implies] at g1
          simp only [BlackBalanced] at g2
          simp only [blackHeight] at g3 g5 p3
          constructor
          · cases pd <;> cases gd <;>
              simp only [AddInv, Frame.fill, TreeNode.setTag, rb_is_red_red, rb_is_red_black,
                NoRedRed, BlackBalanced, blackHeight] <;>
              simp_all
          · cases rest with
            | nil => simp [add_measure]
            | cons r1 rest1 =>
              cases rest1 <;> simp only [add_measure, List.length] <;> split_ifs <;> omega
        · -- Cases 3 and 4
          simp only [hu] at hs
          simp only [Bool.not_eq_true] at hu
          simp only [blackHeight] at g3 g5 p3
          cases pd <;> cases gd <;> simp at hs <;> cases hs <;>
            simp only [AddInv, Frame.fill, TreeNode.setTag, TreeNode.left_rotate,
              TreeNode.right_rotate, focusChild, rb_is_red_red, rb_is_red_black, NoRedRed,
              BlackBalanced, blackHeight, PathRB, topRed] <;>
            refine ⟨?_, ?_⟩ <;>
            first
              | (rw [rb_add_measure_black _ _ _ rfl]; simp [add_measure])
              | (simp [add_measure] <;> omega)
              | simp_all

/-- The balancing loop, given enough iterations, keeps the loop invariant and stops because
its guard is false. -/
theorem rb_add_loop_spec (fuel : Nat) :
    ∀ s : Node × List (Frame color_t), AddInv s → add_measure s ≤ fuel →
      AddInv (add_loop fuel s) ∧ add_step (add_loop fuel s) = none := by
  induction fuel with
  | zero =>
    intro s hi hm
    exact ⟨hi, rb_add_measure_zero s (by omega)⟩
  | succ k ih =>
    intro s hi hm
    simp only [add_loop]
    cases hs : add_step s with
    | none => exact ⟨hi, hs⟩
    | some s2 =>
      obtain ⟨hi2, hm2⟩ := rb_add_step_inv s s2 hi hs
      exact ih s2 hi2 (by omega)

theorem rb_add_measure_le (n : Node) (st : List (Frame color_t)) :
    add_measure (n, st) ≤ 2 * st.length + 2 := by
  match st with
  | [] => simp [add_measure]
  | [p] => simp only [add_measure]; split_ifs <;> simp
  | p :: g :: rest => simp only [add_measure, List.length]; split_ifs <;> omega

/-- When the balancing loop has stopped, the statement `if (ins_par == nullptr)
ins_node->color = BLACK;` leaves a tree without red-red pair and with equal black counts. -/
theorem rb_add_finish (s : Node × List (Frame color_t)) (hi : AddInv s)
    (hs : add_step s = none) :
    (s.2 = [] → NoRedRed (s.1.setTag .BLACK) ∧ BlackBalanced (s.1.setTag .BLACK)) ∧
      (s.2 ≠ [] → NoRedRed (plug s.1 s.2) ∧ BlackBalanced (plug s.1 s.2)) := by
  obtain ⟨n, st⟩ := s
  obtain ⟨i1, i2, i3, i4⟩ := hi
  simp only at i1 i2 i3 i4 ⊢
  constructor
  · intro _
    exact ⟨rb_noRedRed_setTag_black n i2, rb_blackBalanced_setTag _ n i3⟩
  · intro hne
    refine rb_plug_valid st n _ i4 i2 i3 rfl ?_
    intro htop
    cases st with
    | nil => simp [topRed] at htop
    | cons p rest =>
      simp only [topRed, decide_eq_true_eq] at htop
      cases rest <;> simp [add_step, htop] at hs
      split_ifs at hs

theorem rb_setChild_fill_null (f : Frame color_t) (t : Node) :
    focusChild f.dir ((f.fill .null).setChild f.dir t) = fun st => (t, f :: st) := by
  obtain ⟨d, v, c, o⟩ := f
  cases d <;> rfl

/-- C2 core: `add` keeps the two colour conditions. -/
theorem rb_add_valid (t : Node) (x : Int) (h1 : NoRedRed t) (h2 : BlackBalanced t) :
    NoRedRed (add t x).2 ∧ BlackBalanced (add t x).2 := by
  unfold add
  split_ifs with hf
  · exact ⟨h1, h2⟩
  · have hnull : (descend x t []).1 = .null := by
      unfold find at hf
      cases hd : (descend x t []).1 with
      | null => rfl
      | node _ _ _ _ => simp [hd] at hf
    have hinv := rb_descend_inv x t [] ⟨h1, h2, by simp [PathRB], by simp [topRed]⟩
    have hdir := descend_dirs x t ([] : List (Frame color_t)) (by simp)
    rw [rb_insertion_walk_eq x t [] hnull]
    rw [hnull] at hinv
    generalize (descend x t []).2 = st at hinv hdir
    cases st with
    | nil => simp [newNode, TreeNode.setTag, NoRedRed, BlackBalanced, rb_is_red_null]
    | cons p st =>
      have hd : (if x < p.val then dir_t.LEFT else dir_t.RIGHT) = p.dir := by
        have := hdir p (by simp)
        split_ifs with c
        · exact (this.2 c).symm
        · cases hp : p.dir
          · exact absurd (this.1 hp) c
          · rfl
      simp only [hd, rb_setChild_fill_null]
      have hi0 : AddInv (newNode x, p :: st) :=
        ⟨rfl, by simp [newNode, NoRedRed, rb_is_red_null],
          by simp [newNode, BlackBalanced], by simpa [newNode, blackHeight] using hinv.2.2.1⟩
      have hm0 : add_measure (newNode x, p :: st) ≤ 2 * (st.length + 1) + 3 := by
        have := rb_add_measure_le (newNode x) (p :: st)
        simp only [List.length] at this
        omega
      obtain ⟨hi, hs⟩ := rb_add_loop_spec _ _ hi0 hm0
      obtain ⟨f1, f2⟩ := rb_add_finish _ hi hs
      generalize add_loop (2 * (st.length + 1) + 3) (newNode x, p :: st) = s at f1 f2
      obtain ⟨n, st2⟩ := s
      cases st2 with
      | nil => exact f1 rfl
      | cons q st3 => exact f2 (by simp)

end RBTree
/-! ## RBTree: the colour invariants under `remove` -/

namespace RBTree

theorem rb_is_red_iff (t : Node) : is_red t = true ↔ ∃ l v r, t = .node l v .RED r := by
  cases t with
  | null => simp [rb_is_red_null]
  | node l v c r =>
    cases c
    · simp [rb_is_red_red]
    · simp [rb_is_red_black]

theorem rb_bh_red (l r : Node) (v : Int) :
    blackHeight (.node l v .RED r) = blackHeight l := by
  simp [blackHeight]

theorem rb_bh_black (l r : Node) (v : Int) :
    blackHeight (.node l v .BLACK r) = blackHeight l + 1 := by
  simp [blackHeight]

theorem rb_blackHeight_pos (t : Node) (h : 0 < blackHeight t) (hr : is_red t = false)
    (hb : BlackBalanced t) (hn : NoRedRed t) :
    ∃ l v r, t = .node l v .BLACK r := by
  cases t with
  | null => simp [blackHeight] at h
  | node l v c r =>
    cases c
    · simp [rb_is_red_red] at hr
    · exact ⟨l, v, r, rfl⟩

/-- The repair walk of `black_leaf_delete` ends with a tree without red-red pair and with
equal black counts. -/
theorem rb_black_leaf_delete_valid (st : List (Frame color_t)) :
    ∀ N : Node, DelInv N st →
      NoRedRed (black_leaf_delete N st) ∧ BlackBalanced (black_leaf_delete N st) := by
  induction st with
  | nil => intro N h; exact ⟨h.2.1, h.2.2.1⟩
  | cons P rest ih =>
    intro N h
    obtain ⟨i1, i2, i3, i4⟩ := h
    obtain ⟨d, pv, pc, S⟩ := P
    simp only [PathRB] at i4
    obtain ⟨s1, s2, s3, s4, s5⟩ := i4
    cases S with
    | null => simp [blackHeight] at s3
    | node sl sv sc sr =>
    simp only [NoRedRed] at s1
    simp only [BlackBalanced] at s2
    obtain ⟨sl1, sr1, sc1⟩ := s1
    obtain ⟨sl2, sr2, sb⟩ := s2
    cases sc with
    | RED =>
      -- red sibling: the parent is black and both nephews are black nodes
      obtain ⟨slr, srr⟩ := sc1 rfl
      cases pc with
      | RED => simp [rb_is_red_red] at s4
      | BLACK =>
      simp only [rb_bh_red, if_true, Nat.add_zero] at s3 s5
      obtain ⟨cl, cv, cr, rfl⟩ := rb_blackHeight_pos sl (by omega) slr sl2 sl1
      obtain ⟨dl, dv, dr, rfl⟩ := rb_blackHeight_pos sr (by omega) srr sr2 sr1
      simp only [NoRedRed, BlackBalanced, rb_bh_black] at sl1 sr1 sl2 sr2 sb s3
      cases d
      · simp only [black_leaf_delete, Frame.fill, rb_is_red_red, if_true, TreeNode.rotate,
          TreeNode.left_rotate, TreeNode.child, TreeNode.setTag, dir_t.flip, TreeNode.setChild,
          TreeNode.setLeft, TreeNode.setRight]
        by_cases hD : is_red cr = true
        · obtain ⟨a, x, b, rfl⟩ := (rb_is_red_iff _).1 hD
          simp only [rb_is_red_red, if_true, case_D6, colorOf, TreeNode.rotate,
            TreeNode.left_rotate, TreeNode.child, TreeNode.setTag, dir_t.flip,
            TreeNode.setChild, TreeNode.setLeft, TreeNode.setRight]
          refine rb_plug_valid rest _ _ s5 ?_ ?_ ?_ ?_ <;>
            simp_all [NoRedRed, BlackBalanced, rb_bh_red, rb_bh_black, rb_is_red_red,
              rb_is_red_black] <;> omega
        · simp only [Bool.not_eq_true] at hD
          by_cases hC : is_red cl = true
          · obtain ⟨a, x, b, rfl⟩ := (rb_is_red_iff _).1 hC
            simp only [hD, rb_is_red_red, if_true, if_false, case_D5, case_D6, colorOf,
              TreeNode.rotate, TreeNode.left_rotate, TreeNode.right_rotate, TreeNode.child,
              TreeNode.setTag, dir_t.flip, TreeNode.setChild, TreeNode.setLeft,
              TreeNode.setRight, Bool.false_eq_true]
            refine rb_plug_valid rest _ _ s5 ?_ ?_ ?_ ?_ <;>
              simp_all [NoRedRed, BlackBalanced, rb_bh_red, rb_bh_black, rb_is_red_red,
                rb_is_red_black] <;> omega
          · simp only [Bool.not_eq_true] at hC
            simp only [hD, hC, if_false, case_D4, TreeNode.child, TreeNode.setTag, dir_t.flip,
              TreeNode.setChild, TreeNode.setLeft, TreeNode.setRight, Bool.false_eq_true]
            refine rb_plug_valid rest _ _ s5 ?_ ?_ ?_ ?_ <;>
              simp_all [NoRedRed, BlackBalanced, rb_bh_red, rb_bh_black, rb_is_red_red,
                rb_is_red_black] <;> omega
      · simp only [black_leaf_delete, Frame.fill, rb_is_red_red, if_true, TreeNode.rotate,
          TreeNode.right_rotate, TreeNode.child, TreeNode.setTag, dir_t.flip, TreeNode.setChild,
          TreeNode.setLeft, TreeNode.setRight]
        by_cases hD : is_red dl = true
        · obtain ⟨a, x, b, rfl⟩ := (rb_is_red_iff _).1 hD
          simp only [rb_is_red_red, if_true, case_D6, colorOf, TreeNode.rotate,
            TreeNode.right_rotate, TreeNode.child, TreeNode.setTag, dir_t.flip,
            TreeNode.setChild, TreeNode.setLeft, TreeNode.setRight]
          refine rb_plug_valid rest _ _ s5 ?_ ?_ ?_ ?_ <;>
            simp_all [NoRedRed, BlackBalanced, rb_bh_red, rb_bh_black, rb_is_red_red,
              rb_is_red_black] <;> omega
        · simp only [Bool.not_eq_true] at hD
          by_cases hC : is_red dr = true
          · obtain ⟨a, x, b, rfl⟩ := (rb_is_red_iff _).1 hC
            simp only [hD, rb_is_red_red, if_true, if_false, case_D5, case_D6, colorOf,
              TreeNode.rotate, TreeNode.left_rotate, TreeNode.right_rotate, TreeNode.child,
              TreeNode.setTag, dir_t.flip, TreeNode.setChild, TreeNode.setLeft,
              TreeNode.setRight, Bool.false_eq_true]
            refine rb_plug_valid rest _ _ s5 ?_ ?_ ?_ ?_ <;>
              simp_all [NoRedRed, BlackBalanced, rb_bh_red, rb_bh_black, rb_is_red_red,
                rb_is_red_black] <;> omega
          · simp only [Bool.not_eq_true] at hC
            simp only [hD, hC, if_false, case_D4, TreeNode.child, TreeNode.setTag, dir_t.flip,
              TreeNode.setChild, TreeNode.setLeft, TreeNode.setRight, Bool.false_eq_true]
            refine rb_plug_valid rest _ _ s5 ?_ ?_ ?_ ?_ <;>
              simp_all [NoRedRed, BlackBalanced, rb_bh_red, rb_bh_black, rb_is_red_red,
                rb_is_red_black] <;> omega
    | BLACK =>
      simp only [rb_bh_black] at s3
      have hN : blackHeight sl = blackHeight N := by omega
      cases d
      · simp only [black_leaf_delete, Frame.fill, rb_is_red_black, TreeNode.child, dir_t.flip,
          Bool.false_eq_true, if_false]
        by_cases hD : is_red sr = true
        · obtain ⟨a, x, b, rfl⟩ := (rb_is_red_iff _).1 hD
          simp only [rb_is_red_red, if_true, case_D6, colorOf, TreeNode.rotate,
            TreeNode.left_rotate, TreeNode.child, TreeNode.setTag, dir_t.flip,
            TreeNode.setChild, TreeNode.setLeft, TreeNode.setRight]
          refine rb_plug_valid rest _ _ s5 ?_ ?_ ?_ ?_ <;> cases pc <;>
            simp_all [NoRedRed, BlackBalanced, rb_bh_red, rb_bh_black, rb_is_red_red,
              rb_is_red_black] <;> omega
        · simp only [Bool.not_eq_true] at hD
          by_cases hC : is_red sl = true
          · obtain ⟨a, x, b, rfl⟩ := (rb_is_red_iff _).1 hC
            simp only [hD, rb_is_red_red, if_true, if_false, case_D5, case_D6, colorOf,
              TreeNode.rotate, TreeNode.left_rotate, TreeNode.right_rotate, TreeNode.child,
              TreeNode.setTag, dir_t.flip, TreeNode.setChild, TreeNode.setLeft,
              TreeNode.setRight, Bool.false_eq_true]
            refine rb_plug_valid rest _ _ s5 ?_ ?_ ?_ ?_ <;> cases pc <;>
              simp_all [NoRedRed, BlackBalanced, rb_bh_red, rb_bh_black, rb_is_red_red,
                rb_is_red_black] <;> omega
          · simp only [Bool.not_eq_true] at hC
            simp only [hD, hC, if_false, Bool.false_eq_true]
            cases pc with
            | RED =>
              simp only [if_true, case_D4, TreeNode.child, TreeNode.setTag, dir_t.flip,
                TreeNode.setChild, TreeNode.setLeft, TreeNode.setRight]
              refine rb_plug_valid rest _ _ s5 ?_ ?_ ?_ ?_ <;>
                simp_all [NoRedRed, BlackBalanced, rb_bh_red, rb_bh_black, rb_is_red_red,
                  rb_is_red_black] <;> omega
            | BLACK =>
              simp only [reduceCtorEq, if_false, TreeNode.setTag, TreeNode.setChild,
                TreeNode.setRight]
              refine ih _ ⟨rfl, ?_, ?_, ?_⟩ <;>
                simp_all [NoRedRed, BlackBalanced, rb_bh_red, rb_bh_black, rb_is_red_red,
                  rb_is_red_black] <;> omega
      · simp only [black_leaf_delete, Frame.fill, rb_is_red_black, TreeNode.child, dir_t.flip,
          Bool.false_eq_true, if_false]
        by_cases hD : is_red sl = true
        · obtain ⟨a, x, b, rfl⟩ := (rb_is_red_iff _).1 hD
          simp only [rb_is_red_red, if_true, case_D6, colorOf, TreeNode.rotate,
            TreeNode.right_rotate, TreeNode.child, TreeNode.setTag, dir_t.flip,
            TreeNode.setChild, TreeNode.setLeft, TreeNode.setRight]
          refine rb_plug_valid rest _ _ s5 ?_ ?_ ?_ ?_ <;> cases pc <;>
            simp_all [NoRedRed, BlackBalanced, rb_bh_red, rb_bh_black, rb_is_red_red,
              rb_is_red_black] <;> omega
        · simp only [Bool.not_eq_true] at hD
          by_cases hC : is_red sr = true
          · obtain ⟨a, x, b, rfl⟩ := (rb_is_red_iff _).1 hC
            simp only [hD, rb_is_red_red, if_true, if_false, case_D5, case_D6, colorOf,
              TreeNode.rotate, TreeNode.left_rotate, TreeNode.right_rotate, TreeNode.child,
              TreeNode.setTag, dir_t.flip, TreeNode.setChild, TreeNode.setLeft,
              TreeNode.setRight, Bool.false_eq_true]
            refine rb_plug_valid rest _ _ s5 ?_ ?_ ?_ ?_ <;> cases pc <;>
              simp_all [NoRedRed, BlackBalanced, rb_bh_red, rb_bh_black, rb_is_red_red,
                rb_is_red_black] <;> omega
          · simp only [Bool.not_eq_true] at hC
            simp only [hD, hC, if_false, Bool.false_eq_true]
            cases pc with
            | RED =>
              simp only [if_true, case_D4, TreeNode.child, TreeNode.setTag, dir_t.flip,
                TreeNode.setChild, TreeNode.setLeft, TreeNode.setRight]
              refine rb_plug_valid rest _ _ s5 ?_ ?_ ?_ ?_ <;>
                simp_all [NoRedRed, BlackBalanced, rb_bh_red, rb_bh_black, rb_is_red_red,
                  rb_is_red_black] <;> omega
            | BLACK =>
              simp only [reduceCtorEq, if_false, TreeNode.setTag, TreeNode.setChild,
                TreeNode.setLeft]
              refine ih _ ⟨rfl, ?_, ?_, ?_⟩ <;>
                simp_all [NoRedRed, BlackBalanced, rb_bh_red, rb_bh_black, rb_is_red_red,
                  rb_is_red_black] <;> omega

theorem rb_leftmost_inv (t : Node) :
    ∀ st : List (Frame color_t), DescInv t st →
      DescInv (leftmost t st).1 (leftmost t st).2 := by
  induction t with
  | null => intro st h; exact h
  | node l v c r ihl _ =>
    intro st h
    cases l with
    | null => exact h
    | node a x c2 b =>
      rw [leftmost]
      exact ihl _ (rb_descInv_child _ r v c st h).1

theorem rb_leftmost_shape (t : Node) :
    ∀ st : List (Frame color_t), t ≠ .null →
      ∃ sv sc sr, (leftmost t st).1 = .node .null sv sc sr := by
  induction t with
  | null => intro st hne; exact absurd rfl hne
  | node l v c r ihl _ =>
    intro st _
    cases l with
    | null => exact ⟨v, c, r, rfl⟩
    | node a x c2 b =>
      rw [leftmost]
      exact ihl _ (by simp)

theorem rb_leftmost_append (t : Node) :
    ∀ st : List (Frame color_t),
      leftmost t st = ((leftmost t []).1, (leftmost t []).2 ++ st) := by
  induction t with
  | null => intro st; rfl
  | node l v c r ihl _ =>
    intro st
    cases l with
    | null => rfl
    | node a x c2 b =>
      rw [leftmost, leftmost, ihl (⟨.LEFT, v, c, r⟩ :: st), ihl [⟨.LEFT, v, c, r⟩]]
      simp

theorem rb_topRed_append_val (seg st : List (Frame color_t)) (d : dir_t) (v1 v2 : Int)
    (c : color_t) (o : Node) :
    topRed (seg ++ ⟨d, v1, c, o⟩ :: st) = topRed (seg ++ ⟨d, v2, c, o⟩ :: st) := by
  cases seg <;> rfl

/-- The path invariant does not depend on the key stored in an ancestor. -/
theorem rb_pathRB_val (seg st : List (Frame color_t)) (d : dir_t) (v1 v2 : Int)
    (c : color_t) (o : Node) :
    ∀ h, PathRB (seg ++ ⟨d, v1, c, o⟩ :: st) h → PathRB (seg ++ ⟨d, v2, c, o⟩ :: st) h := by
  induction seg with
  | nil => intro h hp; simpa [PathRB] using hp
  | cons g seg ih =>
    intro h hp
    rw [List.cons_append, PathRB] at hp ⊢
    obtain ⟨a1, a2, a3, a4, a5⟩ := hp
    refine ⟨a1, a2, a3, ?_, ih _ a5⟩
    intro hr
    refine ⟨(a4 hr).1, ?_⟩
    rw [← rb_topRed_append_val seg st d v1 v2 c o]
    exact (a4 hr).2

/-- Unlinking a node with at most one child, including the black-leaf repair, leaves a tree
without red-red pair and with equal black counts. -/
theorem rb_remove_node_valid (del : Node) (st : List (Frame color_t)) (h : DescInv del st)
    (hc : del.child .LEFT = .null ∨ del.child .RIGHT = .null) :
    NoRedRed (remove_node del st) ∧ BlackBalanced (remove_node del st) := by
  obtain ⟨h1, h2, h3, h4⟩ := h
  cases del with
  | null =>
    simp only [remove_node]
    exact rb_plug_valid st _ _ h3 trivial trivial rfl (fun _ => rfl)
  | node l v c r =>
    simp only [NoRedRed] at h1
    simp only [BlackBalanced] at h2
    obtain ⟨n1, n2, n3⟩ := h1
    obtain ⟨b1, b2, b3⟩ := h2
    cases l with
    | null =>
      cases r with
      | null =>
        cases st with
        | nil => simp [remove_node, NoRedRed, BlackBalanced]
        | cons P rest =>
          simp only [remove_node]
          cases c with
          | RED =>
            simp only [rb_is_red_red, if_true]
            exact rb_plug_valid _ _ _ h3 trivial trivial (by simp [blackHeight]) (fun _ => rfl)
          | BLACK =>
            simp only [rb_is_red_black, Bool.false_eq_true, if_false]
            exact rb_black_leaf_delete_valid _ _
              ⟨rfl, trivial, trivial, by simpa [blackHeight] using h3⟩
      | node a x c2 b =>
        simp only [remove_node, TreeNode.setTag]
        cases c2 with
        | BLACK => simp [blackHeight] at b3
        | RED =>
          cases c with
          | RED => simp [rb_is_red_red] at n3
          | BLACK =>
            simp only [NoRedRed, BlackBalanced] at n2 b2
            refine rb_plug_valid st _ _ h3 ?_ ?_ ?_ ?_ <;>
              simp_all [NoRedRed, BlackBalanced, blackHeight, rb_is_red_black]
    | node a x c2 b =>
      cases r with
      | node _ _ _ _ => simp [TreeNode.child] at hc
      | null =>
        simp only [remove_node, TreeNode.setTag]
        cases c2 with
        | BLACK => simp [blackHeight] at b3
        | RED =>
          cases c with
          | RED => simp [rb_is_red_red] at n3
          | BLACK =>
            simp only [NoRedRed, BlackBalanced] at n1 b1
            refine rb_plug_valid st _ _ h3 ?_ ?_ ?_ ?_ <;>
              simp_all [NoRedRed, BlackBalanced, blackHeight, rb_is_red_black]

/-- C3 core: `remove` keeps the two colour conditions. -/
theorem rb_remove_valid (t : Node) (x : Int) (h1 : NoRedRed t) (h2 : BlackBalanced t) :
    NoRedRed (remove t x).2 ∧ BlackBalanced (remove t x).2 := by
  have hinv := rb_descend_inv x t [] ⟨h1, h2, by simp [PathRB], by simp [topRed]⟩
  unfold remove
  generalize descend x t [] = res at hinv
  obtain ⟨del, st⟩ := res
  simp only at hinv
  cases del with
  | null => exact ⟨h1, h2⟩
  | node l v c r =>
    cases l with
    | null => exact rb_remove_node_valid _ _ hinv (Or.inl rfl)
    | node ll lv lc lr =>
      cases r with
      | null => exact rb_remove_node_valid _ _ hinv (Or.inr rfl)
      | node rl rv rc rr =>
        have hr := (rb_descInv_child _ _ v c st hinv).2
        have hl := rb_leftmost_inv _ _ hr
        rw [rb_leftmost_append] at hl
        obtain ⟨sv, sc, sr, e⟩ := rb_leftmost_shape (.node rl rv rc rr) [] (by simp)
        generalize hres : leftmost (.node rl rv rc rr) [] = res2 at hl e
        obtain ⟨suc, seg⟩ := res2
        simp only at hl e
        subst e
        simp only [hres]
        refine rb_remove_node_valid (.node .null x sc sr) _ ?_ (Or.inl rfl)
        obtain ⟨q1, q2, q3, q4⟩ := hl
        refine ⟨by simpa [NoRedRed] using q1, by simpa [BlackBalanced] using q2, ?_, ?_⟩
        · have := rb_pathRB_val seg st .RIGHT v sv c (.node ll lv lc lr) _ q3
          simpa [blackHeight] using this
        · intro ht
          rw [← rb_topRed_append_val seg st .RIGHT v sv c (.node ll lv lc lr)] at ht
          have := q4 ht
          cases sc
          · simp [rb_is_red_red] at this
          · rfl

end RBTree
/-! ## RBTree: key sequences, sortedness and agreement with the reference set -/

namespace RBTree

theorem rb_find_eq_mem (t : Node) (x : Int) (hs : Ascending t.keys) :
    find t x = decide (x ∈ t.keys) := by
  have h := descend_null_iff x t hs
  unfold find
  cases hd : (descend x t []).1 with
  | null => simp [(h.1 hd)]
  | node l v c r =>
    have : x ∈ t.keys := by
      by_contra hc
      rw [h.2 hc] at hd
      cases hd
    simp [this]

/-- One iteration of the balancing loop of `add` does not change the key sequence. -/
theorem rb_add_step_keys (s s2 : Node × List (Frame color_t)) (hs : add_step s = some s2) :
    (plug s2.1 s2.2).keys = (plug s.1 s.2).keys := by
  obtain ⟨n, st⟩ := s
  match st with
  | [] => simp [add_step] at hs
  | [p] =>
    obtain ⟨pd, pv, pc, po⟩ := p
    simp only [add_step] at hs
    split_ifs at hs
    cases hs
    cases pd <;> simp [plug, Frame.fill, TreeNode.keys]
  | p :: g :: rest =>
    obtain ⟨pd, pv, pc, po⟩ := p
    obtain ⟨gd, gv, gc, go⟩ := g
    simp only [add_step] at hs
    split_ifs at hs <;> cases hs <;>
      simp only [plug_focusChild, plug, keys_plug, keys_tn_left_rotate, keys_tn_right_rotate] <;>
      cases pd <;> cases gd <;>
      simp [Frame.fill, TreeNode.keys, keys_setTag, keys_tn_left_rotate, keys_tn_right_rotate]

theorem rb_add_loop_keys (fuel : Nat) :
    ∀ s : Node × List (Frame color_t),
      (plug (add_loop fuel s).1 (add_loop fuel s).2).keys = (plug s.1 s.2).keys := by
  induction fuel with
  | zero => intro s; rfl
  | succ k ih =>
    intro s
    simp only [add_loop]
    cases hs : add_step s with
    | none => rfl
    | some s2 =>
      simp only
      rw [ih s2, rb_add_step_keys s s2 hs]

/-- Key sequence after `add`: unchanged when the key is present, otherwise the key is put
between the keys below it and the keys above it. -/
theorem rb_add_keys (t : Node) (x : Int) (hs : Ascending t.keys) :
    (x ∈ t.keys ∧ add t x = (false, t)) ∨
      (x ∉ t.keys ∧ (add t x).1 = true ∧ ∃ l1 l2, t.keys = l1 ++ l2 ∧
        (add t x).2.keys = l1 ++ x :: l2 ∧ (∀ a ∈ l1, a < x) ∧ (∀ b ∈ l2, x < b)) := by
  have hf := rb_find_eq_mem t x hs
  by_cases hm : x ∈ t.keys
  · left
    refine ⟨hm, ?_⟩
    unfold add
    simp [hf, hm]
  · right
    refine ⟨hm, ?_⟩
    have hnull := (descend_null_iff x t hs).2 hm
    have hk := keys_descend_split x t
    have hb := descend_between x t [] (by simpa [pathL, pathR] using hs)
      (by simp [Between, pathL, pathR])
    have hdir := descend_dirs x t ([] : List (Frame color_t)) (by simp)
    unfold add
    simp only [hf, hm, decide_False, Bool.false_eq_true, if_false]
    rw [rb_insertion_walk_eq x t [] hnull]
    rw [hnull] at hk
    simp only [TreeNode.keys, List.append_nil] at hk
    generalize (descend x t []).2 = st at hk hb hdir
    cases st with
    | nil =>
      exact ⟨rfl, [], [], by simpa [pathL, pathR] using hk,
        by simp [newNode, TreeNode.setTag, TreeNode.keys], by simp, by simp⟩
    | cons p st =>
      have hd : (if x < p.val then dir_t.LEFT else dir_t.RIGHT) = p.dir := by
        have := hdir p (by simp)
        split_ifs with c
        · exact (this.2 c).symm
        · cases hp : p.dir
          · exact absurd (this.1 hp) c
          · rfl
      simp only [hd, rb_setChild_fill_null]
      have hkeys := rb_add_loop_keys (2 * (st.length + 1) + 3) (newNode x, p :: st)
      generalize add_loop (2 * (st.length + 1) + 3) (newNode x, p :: st) = s at hkeys
      obtain ⟨n, st2⟩ := s
      simp only at hkeys
      have hkeys2 : (plug n st2).keys = pathL (p :: st) ++ x :: pathR (p :: st) := by
        rw [hkeys, keys_plug]
        simp [newNode, TreeNode.keys]
      cases st2 with
      | nil =>
        refine ⟨rfl, pathL (p :: st), pathR (p :: st), hk, ?_, hb.1, hb.2⟩
        simp only
        rw [keys_setTag]
        simpa [plug] using hkeys2
      | cons q st3 =>
        exact ⟨rfl, pathL (p :: st), pathR (p :: st), hk, hkeys2, hb.1, hb.2⟩

theorem rb_keys_case_D4 (dir : dir_t) (t : Node) : (case_D4 dir t).keys = t.keys := by
  unfold case_D4
  rw [keys_setChild, keys_setTag]
  rw [keys_setTag, child_setTag]

theorem rb_keys_case_D6 (dir : dir_t) (t : Node) : (case_D6 dir t).keys = t.keys := by
  unfold case_D6
  simp only
  rw [keys_setChild, keys_setChild, keys_setTag, keys_tn_rotate]
  · rw [keys_setTag, child_setTag]
  · rw [keys_setTag, child_setChild_flip, child_setTag]

theorem rb_keys_case_D5 (dir : dir_t) (t : Node) : (case_D5 dir t).keys = t.keys := by
  unfold case_D5
  simp only
  rw [rb_keys_case_D6, keys_setChild]
  rw [keys_setChild, keys_setTag, keys_tn_rotate]
  rw [keys_setTag, child_setTag]

/-- The repair walk of `black_leaf_delete` does not change the key sequence. -/
theorem rb_black_leaf_delete_keys (st : List (Frame color_t)) :
    ∀ N : Node, (black_leaf_delete N st).keys = pathL st ++ N.keys ++ pathR st := by
  induction st with
  | nil => intro N; simp [black_leaf_delete, pathL, pathR]
  | cons P rest ih =>
    intro N
    have hfill : pathL rest ++ (P.fill N).keys ++ pathR rest
        = pathL (P :: rest) ++ N.keys ++ pathR (P :: rest) := by
      simp [keys_fill, pathL, pathR]
    rw [← hfill]
    simp only [black_leaf_delete]
    split_ifs
    · rw [keys_plug, keys_setChild, keys_setTag, keys_tn_rotate]
      rw [rb_keys_case_D6, keys_setTag, child_setTag]
    · rw [keys_plug, keys_setChild, keys_setTag, keys_tn_rotate]
      rw [rb_keys_case_D5, keys_setTag, child_setTag]
    · rw [keys_plug, keys_setChild, keys_setTag, keys_tn_rotate]
      rw [rb_keys_case_D4, keys_setTag, child_setTag]
    · rw [keys_plug, rb_keys_case_D6]
    · rw [keys_plug, rb_keys_case_D5]
    · rw [keys_plug, rb_keys_case_D4]
    · rw [ih, keys_setChild]
      obtain ⟨d, v, c, o⟩ := P
      cases d <;> simp [Frame.fill, TreeNode.child, dir_t.flip, keys_setTag]

/-- Unlinking a node with at most one child removes exactly its key. -/
theorem rb_remove_node_keys (l r : Node) (v : Int) (c : color_t) (st : List (Frame color_t))
    (hc : l = .null ∨ r = .null) :
    (remove_node (.node l v c r) st).keys = pathL st ++ (l.keys ++ r.keys) ++ pathR st := by
  cases l with
  | null =>
    cases r with
    | null =>
      cases st with
      | nil => simp [remove_node, TreeNode.keys, pathL, pathR]
      | cons P rest =>
        simp only [remove_node]
        split_ifs
        · rw [keys_plug]; simp [TreeNode.keys]
        · rw [rb_black_leaf_delete_keys]; simp [TreeNode.keys]
    | node a x c2 b => simp only [remove_node]; rw [keys_plug, keys_setTag]; simp [TreeNode.keys]
  | node a x c2 b =>
    cases r with
    | null => simp only [remove_node]; rw [keys_plug, keys_setTag]; simp [TreeNode.keys]
    | node _ _ _ _ => simp at hc

/-- Key sequence after `remove`: unchanged when the key is absent, otherwise the key is
taken out and everything else stays in place. -/
theorem rb_remove_keys (t : Node) (x : Int) (hs : Ascending t.keys) :
    (x ∉ t.keys ∧ remove t x = (false, t)) ∨
      ((remove t x).1 = true ∧ ∃ l1 l2, t.keys = l1 ++ x :: l2 ∧
        (remove t x).2.keys = l1 ++ l2) := by
  have hk := keys_descend_split x t
  have hb := descend_between x t [] (by simpa [pathL, pathR] using hs)
    (by simp [Between, pathL, pathR])
  have hstop := descend_stop x t ([] : List (Frame color_t))
  unfold remove
  generalize descend x t [] = res at hk hb hstop
  obtain ⟨t2, st2⟩ := res
  rcases hstop with e | ⟨l, m, r, e⟩
  · simp only at e
    subst e
    left
    simp only [TreeNode.keys, List.append_nil] at hk
    exact ⟨by rw [hk]; exact not_mem_between hb.1 hb.2, rfl⟩
  · simp only at e
    subst e
    right
    simp only [TreeNode.keys] at hk
    cases l with
    | null =>
      refine ⟨rfl, pathL st2, r.keys ++ pathR st2, by simpa [TreeNode.keys] using hk, ?_⟩
      simp only
      rw [rb_remove_node_keys _ _ _ _ _ (Or.inl rfl)]
      simp [TreeNode.keys]
    | node ll lv lc lr =>
      cases r with
      | null =>
        refine ⟨rfl, pathL st2 ++ (TreeNode.node ll lv lc lr).keys, pathR st2,
          by simpa [TreeNode.keys] using hk, ?_⟩
        simp only
        rw [rb_remove_node_keys _ _ _ _ _ (Or.inr rfl)]
        simp [TreeNode.keys]
      | node rl rv rc rr =>
        obtain ⟨sv, sc, sr, e1⟩ := rb_leftmost_shape (.node rl rv rc rr) [] (by simp)
        have hpl := congrArg TreeNode.keys
          (show plug (leftmost (.node rl rv rc rr) []).1 (leftmost (.node rl rv rc rr) []).2
            = plug (.node rl rv rc rr) [] from by
              have : ∀ (t : Node) (st : List (Frame color_t)),
                  plug (leftmost t st).1 (leftmost t st).2 = plug t st := by
                intro t
                induction t with
                | null => intro st; rfl
                | node l v c r ihl _ =>
                  intro st
                  cases l with
                  | null => rfl
                  | node a x c2 b => rw [leftmost, ihl]; rfl
              exact this _ _)
        have hL : pathL (leftmost (.node rl rv rc rr) []).2 = [] := by
          have : ∀ (t : Node) (st : List (Frame color_t)),
              pathL (leftmost t st).2 = pathL st := by
            intro t
            induction t with
            | null => intro st; rfl
            | node l v c r ihl _ =>
              intro st
              cases l with
              | null => rfl
              | node a x c2 b => rw [leftmost, ihl]; simp [pathL, Frame.lkeys]
          simpa [pathL] using this (.node rl rv rc rr) []
        generalize hres : leftmost (.node rl rv rc rr) [] = res2 at e1 hpl hL
        obtain ⟨suc, seg⟩ := res2
        simp only at e1 hpl hL
        subst e1
        simp only [hres]
        refine ⟨trivial, pathL st2 ++ (TreeNode.node ll lv lc lr).keys,
          (TreeNode.node rl rv rc rr).keys ++ pathR st2, by simpa [TreeNode.keys] using hk, ?_⟩
        rw [rb_remove_node_keys _ _ _ _ _ (Or.inl rfl), pathL_append, pathR_append, hL]
        rw [keys_plug, hL] at hpl
        simp only [plug, TreeNode.keys, List.nil_append] at hpl
        simp only [TreeNode.keys, pathL, pathR, Frame.lkeys, Frame.rkeys, List.nil_append,
          List.append_nil, List.append_assoc, List.cons_append, List.singleton_append]
        have k3 := congrArg (fun l => l ++ pathR st2) hpl
        simpa using k3

theorem rb_add_spec (t : Node) (x : Int) (hs : Ascending t.keys) :
    Ascending (add t x).2.keys ∧ StepSpec t.keys (.add x) (add t x).1 (add t x).2.keys := by
  rcases rb_add_keys t x hs with ⟨hm, e⟩ | ⟨hm, e1, l1, l2, k1, k2, b1, b2⟩
  · rw [e]
    refine ⟨hs, ?_⟩
    simp only [StepSpec]
    refine ⟨by simp [hm], fun j => ?_⟩
    constructor
    · exact Or.inr
    · rintro (rfl | h)
      · exact hm
      · exact h
  · rw [k1] at hs
    obtain ⟨a1, a2⟩ := ascending_insert hs b1 b2
    rw [k2]
    refine ⟨a1, ?_⟩
    simp only [StepSpec]
    refine ⟨by simp [hm, e1], fun j => ?_⟩
    rw [a2 j, k1]

theorem rb_remove_spec (t : Node) (x : Int) (hs : Ascending t.keys) :
    Ascending (remove t x).2.keys ∧
      StepSpec t.keys (.remove x) (remove t x).1 (remove t x).2.keys := by
  rcases rb_remove_keys t x hs with ⟨hm, e⟩ | ⟨e1, l1, l2, k1, k2⟩
  · rw [e]
    refine ⟨hs, ?_⟩
    simp only [StepSpec]
    refine ⟨by simp [hm], fun j => ?_⟩
    constructor
    · intro h
      exact ⟨h, fun e => hm (e ▸ h)⟩
    · exact fun h => h.1
  · rw [k1] at hs
    obtain ⟨a1, a2⟩ := ascending_remove hs
    rw [k2]
    refine ⟨a1, ?_⟩
    simp only [StepSpec]
    refine ⟨by simp [k1, e1], fun j => ?_⟩
    rw [a2 j, k1]

end RBTree
/-! ## SplayTree: key sequences and agreement with the reference set -/

namespace SplayTree

/-- Splaying does not change the in-order key sequence. -/
theorem splay_keys_fix : ∀ (st : List (Frame Unit)) (root : Node),
    (fix root st).keys = pathL st ++ root.keys ++ pathR st
  | [], root => by simp [fix, pathL, pathR]
  | [p], root => by
    obtain ⟨d, v, m, o⟩ := p
    cases d <;>
      simp [fix, keys_tn_left_rotate, keys_tn_right_rotate, keys_fill, pathL, pathR]
  | p :: gp :: rest, root => by
    obtain ⟨d, v, m, o⟩ := p
    obtain ⟨d2, v2, m2, o2⟩ := gp
    cases d <;> cases d2 <;>
      simp [fix, splay_keys_fix rest, keys_tn_left_rotate, keys_tn_right_rotate, keys_fill,
        Frame.fill, TreeNode.keys, pathL, pathR, Frame.lkeys, Frame.rkeys]

/-- Splaying a node puts that node, with its key, at the root. -/
theorem splay_fix_root : ∀ (st : List (Frame Unit)) (a b : Node) (v : Int),
    ∃ a2 b2, fix (.node a v () b) st = .node a2 v () b2
  | [], a, b, v => ⟨a, b, rfl⟩
  | [p], a, b, v => by
    obtain ⟨d, pv, m, o⟩ := p
    cases d
    · exact ⟨a, _, rfl⟩
    · exact ⟨_, b, rfl⟩
  | p :: gp :: rest, a, b, v => by
    obtain ⟨d, pv, m, o⟩ := p
    obtain ⟨d2, v2, m2, o2⟩ := gp
    cases d <;> cases d2 <;>
      simp only [fix, Frame.fill, TreeNode.left_rotate, TreeNode.right_rotate] <;>
      exact splay_fix_root rest _ _ v

/-- Splaying the last node of a right spine leaves it without right child. -/
theorem splay_fix_right_null : ∀ (st : List (Frame Unit)) (a : Node) (v : Int),
    (∀ f ∈ st, f.dir = .RIGHT) → ∃ a2, fix (.node a v () .null) st = .node a2 v () .null
  | [], a, v, _ => ⟨a, rfl⟩
  | [p], a, v, h => by
    obtain ⟨d, pv, m, o⟩ := p
    have : d = .RIGHT := h ⟨d, pv, m, o⟩ (by simp)
    subst this
    exact ⟨_, rfl⟩
  | p :: gp :: rest, a, v, h => by
    obtain ⟨d, pv, m, o⟩ := p
    obtain ⟨d2, v2, m2, o2⟩ := gp
    have e1 : d = .RIGHT := h ⟨d, pv, m, o⟩ (by simp)
    have e2 : d2 = .RIGHT := h ⟨d2, v2, m2, o2⟩ (by simp)
    subst e1 e2
    simp only [fix, Frame.fill, TreeNode.left_rotate]
    exact splay_fix_right_null rest _ v (fun f hf => h f (by simp [hf]))

theorem splay_rightmost_spec (t : Node) :
    ∀ st : List (Frame Unit), (∀ f ∈ st, f.dir = .RIGHT) → t ≠ .null →
      (∃ a v, (rightmost t st).1 = .node a v () .null) ∧
        (∀ f ∈ (rightmost t st).2, f.dir = .RIGHT) ∧
        plug (rightmost t st).1 (rightmost t st).2 = plug t st := by
  induction t with
  | null => intro st _ hne; exact absurd rfl hne
  | node l v m r _ ihr =>
    intro st hst _
    cases r with
    | null => exact ⟨⟨l, v, rfl⟩, hst, rfl⟩
    | node a x m2 b =>
      rw [rightmost]
      obtain ⟨h1, h2, h3⟩ := ihr (⟨.RIGHT, v, m, l⟩ :: st)
        (by intro f hf; rcases List.mem_cons.1 hf with rfl | hf; rfl; exact hst f hf) (by simp)
      exact ⟨h1, h2, by rw [h3]; rfl⟩

/-- The member function `find` decides membership and keeps the key sequence. -/
theorem splay_find_spec (t : Node) (x : Int) (hs : Ascending t.keys) :
    (find t x).1 = decide (x ∈ t.keys) ∧ (find t x).2.keys = t.keys := by
  have h := descend_null_iff x t hs
  have hk := keys_descend_split x t
  unfold find
  generalize descend x t [] = res at h hk
  obtain ⟨t2, st2⟩ := res
  cases t2 with
  | null => simp [h.1 rfl]
  | node l v m r =>
    have : x ∈ t.keys := by
      by_contra hc
      have := h.2 hc
      cases this
    simp only [this, decide_True, true_and]
    rw [splay_keys_fix, hk]

/-- After a successful `find` the root holds the key. -/
theorem splay_find_root (t : Node) (x : Int) (hf : (find t x).1 = true) :
    ∃ a b, (find t x).2 = .node a x () b := by
  have hstop := descend_stop x t ([] : List (Frame Unit))
  unfold find at hf ⊢
  generalize descend x t [] = res at hf hstop
  obtain ⟨t2, st2⟩ := res
  rcases hstop with e | ⟨l, m, r, e⟩
  · simp only at e; subst e; simp at hf
  · simp only at e; subst e
    exact splay_fix_root st2 l r x

theorem splay_add_keys (t : Node) (x : Int) (hs : Ascending t.keys) :
    (x ∈ t.keys ∧ add t x = (false, t)) ∨
      (x ∉ t.keys ∧ (add t x).1 = true ∧ ∃ l1 l2, t.keys = l1 ++ l2 ∧
        (add t x).2.keys = l1 ++ x :: l2 ∧ (∀ a ∈ l1, a < x) ∧ (∀ b ∈ l2, x < b)) := by
  cases t with
  | null =>
    right
    exact ⟨by simp [TreeNode.keys], rfl, [], [], by simp [TreeNode.keys, add, newNode]⟩
  | node l v h r =>
    have hk := keys_descend_split x (.node l v h r)
    have hb := descend_between x (.node l v h r) [] (by simpa [pathL, pathR] using hs)
      (by simp [Between, pathL, pathR])
    have hstop := descend_stop x (.node l v h r) ([] : List (Frame Unit))
    have hdir := descend_dirs x (.node l v h r) ([] : List (Frame Unit)) (by simp)
    have hplug := plug_descend x (.node l v h r) ([] : List (Frame Unit))
    simp only [add]
    generalize hT : TreeNode.node l v h r = T at hs hk hb hstop hdir hplug ⊢
    generalize descend x T [] = res at hk hb hstop hdir hplug
    obtain ⟨t2, st2⟩ := res
    rcases hstop with e | ⟨l2, m2, r2, e⟩
    · simp only at e
      subst e
      cases st2 with
      | nil => simp only [plug] at hplug; rw [← hplug] at hT; cases hT
      | cons p st =>
        right
        simp only [TreeNode.keys, List.append_nil] at hk
        refine ⟨by rw [hk]; exact not_mem_between hb.1 hb.2, rfl, pathL (p :: st),
          pathR (p :: st), hk, ?_, hb.1, hb.2⟩
        have hd : (if x < p.val then dir_t.LEFT else dir_t.RIGHT) = p.dir := by
          have := hdir p (by simp)
          split_ifs with c
          · exact (this.2 c).symm
          · cases hp : p.dir
            · exact absurd (this.1 hp) c
            · rfl
        simp only [hd]
        have : focusChild p.dir ((p.fill .null).setChild p.dir (newNode x)) st
            = (newNode x, p :: st) := by
          obtain ⟨d, pv, m, o⟩ := p
          cases d <;> rfl
        rw [this, splay_keys_fix]
        simp [newNode, TreeNode.keys]
    · simp only at e
      subst e
      left
      exact ⟨by rw [hk]; simp [TreeNode.keys], rfl⟩

theorem splay_remove_keys (t : Node) (x : Int) (hs : Ascending t.keys) :
    (x ∉ t.keys ∧ remove t x = (false, t)) ∨
      ((remove t x).1 = true ∧ ∃ l1 l2, t.keys = l1 ++ x :: l2 ∧
        (remove t x).2.keys = l1 ++ l2) := by
  obtain ⟨f1, f2⟩ := splay_find_spec t x hs
  have f3 := splay_find_root t x
  by_cases hm : x ∈ t.keys
  · right
    simp only [hm, decide_True] at f1
    obtain ⟨a, b, e⟩ := f3 f1
    unfold remove
    generalize find t x = res at f1 f2 e
    obtain ⟨bb, t2⟩ := res
    simp only at f1 f2 e
    subst f1 e
    simp only [TreeNode.keys] at f2
    cases a with
    | null =>
      exact ⟨rfl, [], b.keys, by simpa [TreeNode.keys] using f2.symm, rfl⟩
    | node al av am ar =>
      obtain ⟨⟨c, w, e1⟩, h2, h3⟩ := splay_rightmost_spec (.node al av am ar) [] (by simp) (by simp)
      refine ⟨rfl, (TreeNode.node al av am ar).keys, b.keys, f2.symm, ?_⟩
      simp only
      have hk := congrArg TreeNode.keys h3
      rw [keys_plug] at hk
      generalize rightmost (.node al av am ar) [] = s at e1 h2 hk
      obtain ⟨suc, seg⟩ := s
      simp only at e1 h2 hk
      subst e1
      obtain ⟨a2, e2⟩ := splay_fix_right_null seg c w h2
      have hk2 := splay_keys_fix seg (.node c w () .null)
      rw [e2] at hk2
      rw [e2]
      simp only [TreeNode.setRight, TreeNode.keys, plug] at hk hk2 ⊢
      rw [← hk, ← hk2]
      simp
  · left
    refine ⟨hm, ?_⟩
    simp only [hm, decide_False] at f1
    unfold remove
    have e : find t x = (false, t) := by
      unfold find at f1 ⊢
      generalize descend x t [] = res at f1
      obtain ⟨t2, st2⟩ := res
      cases t2 with
      | null => rfl
      | node _ _ _ _ => simp at f1
    rw [e]

theorem splay_step_spec (t : Node) (op : Op) (hs : Ascending t.keys) :
    Ascending (step t op).2.keys ∧ StepSpec t.keys op (step t op).1 (step t op).2.keys := by
  cases op with
  | add x =>
    simp only [step]
    rcases splay_add_keys t x hs with ⟨hm, e⟩ | ⟨hm, e1, l1, l2, k1, k2, b1, b2⟩
    · rw [e]
      refine ⟨hs, ?_⟩
      simp only [StepSpec]
      refine ⟨by simp [hm], fun j => ?_⟩
      constructor
      · exact Or.inr
      · rintro (rfl | h)
        · exact hm
        · exact h
    · rw [k1] at hs
      obtain ⟨a1, a2⟩ := ascending_insert hs b1 b2
      rw [k2]
      refine ⟨a1, ?_⟩
      simp only [StepSpec]
      refine ⟨by simp [hm, e1], fun j => ?_⟩
      rw [a2 j, k1]
  | find x =>
    obtain ⟨f1, f2⟩ := splay_find_spec t x hs
    simp only [step, StepSpec]
    rw [f2]
    exact ⟨hs, f1, fun j => Iff.rfl⟩
  | remove x =>
    simp only [step]
    rcases splay_remove_keys t x hs with ⟨hm, e⟩ | ⟨e1, l1, l2, k1, k2⟩
    · rw [e]
      refine ⟨hs, ?_⟩
      simp only [StepSpec]
      refine ⟨by simp [hm], fun j => ?_⟩
      constructor
      · intro h
        exact ⟨h, fun e => hm (e ▸ h)⟩
      · exact fun h => h.1
    · rw [k1] at hs
      obtain ⟨a1, a2⟩ := ascending_remove hs
      rw [k2]
      refine ⟨a1, ?_⟩
      simp only [StepSpec]
      refine ⟨by simp [k1, e1], fun j => ?_⟩
      rw [a2 j, k1]

end SplayTree
/-! ## BTree: the occupancy and depth invariant under `add` -/

namespace BTree

theorem bt_num_keys_mk (ks : List Int) (cs : List Node) (b : Bool) :
    (Node.mk ks cs b).num_keys = ks.length := rfl

theorem bt_keys_mk (ks : List Int) (cs : List Node) (b : Bool) : (Node.mk ks cs b).keys = ks :=
  rfl

theorem bt_children_mk (ks : List Int) (cs : List Node) (b : Bool) :
    (Node.mk ks cs b).children = cs := rfl

theorem bt_leaf_mk (ks : List Int) (cs : List Node) (b : Bool) : (Node.mk ks cs b).leaf = b :=
  rfl

theorem bt_child_mem (n : Node) (i : Nat) (h : i < n.children.length) :
    n.child i ∈ n.children := by
  unfold Node.child
  rw [List.getD_eq_getElem _ _ h]
  exact List.getElem_mem _

/-- The binary search stays inside `[l - 1, r]`. -/
theorem bt_bin_search_loop_range (keys : List Int) (val : Int) (fuel : Nat) :
    ∀ l r : Int, l ≤ r + 1 →
      l - 1 ≤ bin_search_loop keys val fuel l r ∧ bin_search_loop keys val fuel l r ≤ r := by
  induction fuel with
  | zero => intro l r h; simp only [bin_search_loop]; omega
  | succ k ih =>
    intro l r h
    simp only [bin_search_loop]
    split_ifs with c1 c2
    · have := ih l ((l + r) / 2 - 1) (by omega)
      omega
    · have := ih ((l + r) / 2 + 1) r (by omega)
      omega
    · omega

theorem bt_bin_search_range (node : Node) (val : Int) :
    -1 ≤ bin_search node val ∧ bin_search node val < node.num_keys := by
  have := bt_bin_search_loop_range node.keys val node.keys.length 0 (node.keys.length - 1)
    (by omega)
  unfold bin_search Node.num_keys
  omega

/-- A weaker lower bound on the top node keeps a subtree well formed. -/
theorem bt_wf_mono (N lo lo2 h : Nat) (n : Node) (hw : WF N lo h n) (hl : lo2 ≤ n.num_keys) :
    WF N lo2 h n := by
  cases h with
  | zero => simp only [WF] at hw ⊢; exact ⟨hw.1, hw.2.1, hl, hw.2.2.2⟩
  | succ h => simp only [WF] at hw ⊢; exact ⟨hw.1, hw.2.1, hl, hw.2.2.2.1, hw.2.2.2.2⟩

theorem bt_wf_lo (N lo h : Nat) (n : Node) (hw : WF N lo h n) : lo ≤ n.num_keys := by
  cases h with
  | zero => simp only [WF] at hw; exact hw.2.2.1
  | succ h => simp only [WF] at hw; exact hw.2.2.1

theorem bt_wf_hi (N lo h : Nat) (n : Node) (hw : WF N lo h n) : n.num_keys ≤ 2 * N - 1 := by
  cases h with
  | zero => simp only [WF] at hw; exact hw.2.2.2
  | succ h => simp only [WF] at hw; exact hw.2.2.2.1

/-- A well-formed subtree of height `h` has `h + 1` nodes on its leftmost path. -/
theorem bt_wf_depth (N : Nat) : ∀ (h lo : Nat) (n : Node), WF N lo h n → n.depth = h + 1 := by
  intro h
  induction h with
  | zero =>
    intro lo n hw
    obtain ⟨ks, cs, b⟩ := n
    simp only [WF, bt_children_mk] at hw
    simp [Node.depth, hw.2.1, depthList]
  | succ h ih =>
    intro lo n hw
    obtain ⟨ks, cs, b⟩ := n
    simp only [WF, bt_children_mk, bt_num_keys_mk] at hw
    cases cs with
    | nil => simp at hw
    | cons c cs =>
      simp only [Node.depth, depthList]
      rw [ih _ c (hw.2.2.2.2 c (by simp))]

/-- The two halves of a full node are well formed and minimal. -/
theorem bt_split_divide_wf (N lo h : Nat) (hN : 1 < N) (c : Node) (hw : WF N lo h c)
    (hf : c.num_keys = 2 * N - 1) :
    WF N (N - 1) h (split_divide N c).1 ∧ WF N (N - 1) h (split_divide N c).2 ∧
      (split_divide N c).1.num_keys = N - 1 ∧ (split_divide N c).2.num_keys = N - 1 := by
  obtain ⟨ks, cs, b⟩ := c
  simp only [bt_num_keys_mk] at hf
  cases h with
  | zero =>
    simp only [WF, bt_children_mk, bt_leaf_mk, bt_num_keys_mk] at hw
    obtain ⟨h1, h2, h3, h4⟩ := hw
    subst h2
    simp only [split_divide, WF, bt_children_mk, bt_leaf_mk, bt_num_keys_mk, bt_keys_mk,
      List.length_take, List.length_drop, List.take_nil, List.drop_nil]
    refine ⟨⟨h1, trivial, ?_, ?_⟩, ⟨h1, trivial, ?_, ?_⟩, ?_, ?_⟩ <;> omega
  | succ h =>
    simp only [WF, bt_children_mk, bt_leaf_mk, bt_num_keys_mk] at hw
    obtain ⟨h1, h2, h3, h4, h5⟩ := hw
    simp only [split_divide, WF, bt_children_mk, bt_leaf_mk, bt_num_keys_mk, bt_keys_mk,
      List.length_take, List.length_drop]
    refine ⟨⟨h1, ?_, ?_, ?_, ?_⟩, ⟨h1, ?_, ?_, ?_, ?_⟩, ?_, ?_⟩
    all_goals first
      | omega
      | (intro c hc; exact h5 c (List.mem_of_mem_take hc))
      | (intro c hc; exact h5 c (List.mem_of_mem_drop (List.mem_of_mem_take hc)))

theorem bt_wf_setChild (N lo h : Nat) (n c : Node) (i : Nat) (hw : WF N lo (h + 1) n)
    (hc : WF N (N - 1) h c) : WF N lo (h + 1) (n.setChild i c) := by
  obtain ⟨ks, cs, b⟩ := n
  simp only [WF, bt_children_mk, bt_leaf_mk, bt_num_keys_mk, Node.setChild, bt_keys_mk,
    List.length_set] at hw ⊢
  refine ⟨hw.1, hw.2.1, hw.2.2.1, hw.2.2.2.1, ?_⟩
  intro c2 hc2
  rcases List.mem_or_eq_of_mem_set hc2 with h1 | h1
  · exact hw.2.2.2.2 c2 h1
  · rw [h1]; exact hc

theorem bt_num_keys_setChild (n c : Node) (i : Nat) : (n.setChild i c).num_keys = n.num_keys :=
  rfl

/-- The descent of `add` keeps a subtree that is not full well formed, with the same height
and without losing keys. -/
theorem bt_add_loop_wf (N : Nat) (hN : 1 < N) (val : Int) :
    ∀ (h fuel lo : Nat) (curr : Node), h < fuel → WF N lo h curr →
      curr.num_keys < 2 * N - 1 →
      WF N lo h (add_loop N fuel curr val).2 := by
  intro h
  induction h with
  | zero =>
    intro fuel lo curr hf hw hnf
    obtain ⟨k, rfl⟩ : ∃ k, fuel = k + 1 := ⟨fuel - 1, by omega⟩
    have hr := bt_bin_search_range curr val
    simp only [add_loop]
    split_ifs with c1 c2 c3 c4 c5
    · exact hw
    · obtain ⟨ks, cs, b⟩ := curr
      simp only [WF, bt_children_mk, bt_leaf_mk, bt_num_keys_mk, bt_keys_mk, List.length_append,
        List.length_take, List.length_cons, List.length_drop] at hw hnf hr ⊢
      refine ⟨trivial, hw.2.1, ?_, ?_⟩ <;> omega
    all_goals (simp only [WF] at hw; simp [hw.1] at c2)
  | succ h ih =>
    intro fuel lo curr hf hw hnf
    obtain ⟨k, rfl⟩ : ∃ k, fuel = k + 1 := ⟨fuel - 1, by omega⟩
    have hr := bt_bin_search_range curr val
    have hw2 := hw
    simp only [WF] at hw2
    obtain ⟨w1, w2, w3, w4, w5⟩ := hw2
    have hi : (bin_search curr val + 1).toNat < curr.children.length := by omega
    have hcw := w5 _ (bt_child_mem curr _ hi)
    simp only [add_loop]
    split_ifs with c1 c2 c3 c4 c5
    · exact hw
    · simp [w1] at c2
    · -- the child is full: split it first
      obtain ⟨s1, s2, s3, s4⟩ := bt_split_divide_wf N _ h hN _ hcw c3
      have hcurr2 : WF N lo (h + 1)
          (Node.mk
            (curr.keys.take (bin_search curr val + 1).toNat ++
              (curr.child (bin_search curr val + 1).toNat).key (N - 1) ::
                curr.keys.drop (bin_search curr val + 1).toNat)
            (curr.children.take (bin_search curr val + 1).toNat ++
              (split_divide N (curr.child (bin_search curr val + 1).toNat)).1 ::
                (split_divide N (curr.child (bin_search curr val + 1).toNat)).2 ::
                  curr.children.drop ((bin_search curr val + 1).toNat + 1)) false) := by
        simp only [WF, bt_children_mk, bt_leaf_mk, bt_num_keys_mk, List.length_append,
          List.length_take, List.length_cons, List.length_drop]
        unfold Node.num_keys at w2 w3 w4 hnf hr
        refine ⟨trivial, by omega, by omega, by omega, ?_⟩
        intro c hc
        simp only [List.mem_append, List.mem_cons] at hc
        rcases hc with hc | rfl | rfl | hc
        · exact w5 c (List.mem_of_mem_take hc)
        · exact s1
        · exact s2
        · exact w5 c (List.mem_of_mem_drop hc)
      exact bt_wf_setChild N lo h _ _ _ hcurr2
        (ih k (N - 1) _ (by omega) s1 (by omega))
    · obtain ⟨s1, s2, s3, s4⟩ := bt_split_divide_wf N _ h hN _ hcw c3
      simp only [WF, bt_children_mk, bt_leaf_mk, bt_num_keys_mk, List.length_append,
        List.length_take, List.length_cons, List.length_drop]
      unfold Node.num_keys at w2 w3 w4 hnf hr
      refine ⟨trivial, by omega, by omega, by omega, ?_⟩
      intro c hc
      simp only [List.mem_append, List.mem_cons] at hc
      rcases hc with hc | rfl | rfl | hc
      · exact w5 c (List.mem_of_mem_take hc)
      · exact s1
      · exact s2
      · exact w5 c (List.mem_of_mem_drop hc)
    · obtain ⟨s1, s2, s3, s4⟩ := bt_split_divide_wf N _ h hN _ hcw c3
      have hcurr2 : WF N lo (h + 1)
          (Node.mk
            (curr.keys.take (bin_search curr val + 1).toNat ++
              (curr.child (bin_search curr val + 1).toNat).key (N - 1) ::
                curr.keys.drop (bin_search curr val + 1).toNat)
            (curr.children.take (bin_search curr val + 1).toNat ++
              (split_divide N (curr.child (bin_search curr val + 1).toNat)).1 ::
                (split_divide N (curr.child (bin_search curr val + 1).toNat)).2 ::
                  curr.children.drop ((bin_search curr val + 1).toNat + 1)) false) := by
        simp only [WF, bt_children_mk, bt_leaf_mk, bt_num_keys_mk, List.length_append,
          List.length_take, List.length_cons, List.length_drop]
        unfold Node.num_keys at w2 w3 w4 hnf hr
        refine ⟨trivial, by omega, by omega, by omega, ?_⟩
        intro c hc
        simp only [List.mem_append, List.mem_cons] at hc
        rcases hc with hc | rfl | rfl | hc
        · exact w5 c (List.mem_of_mem_take hc)
        · exact s1
        · exact s2
        · exact w5 c (List.mem_of_mem_drop hc)
      exact bt_wf_setChild N lo h _ _ _ hcurr2
        (ih k (N - 1) _ (by omega) s2 (by omega))
    · have hb := bt_wf_hi N _ h _ hcw
      exact bt_wf_setChild N lo h _ _ _ hw (ih k (N - 1) _ (by omega) hcw (by omega))

/-- C4 core: `add` keeps the B-tree invariant. -/
theorem bt_add_inv (N : Nat) (hN : 1 < N) (root : Option Node) (val : Int)
    (hi : Inv N root) : Inv N (add N root val).2 := by
  cases root with
  | none =>
    refine ⟨0, ?_⟩
    simp only [WF, bt_children_mk, bt_leaf_mk, bt_num_keys_mk, List.length_singleton]
    exact ⟨trivial, trivial, le_refl _, by omega⟩
  | some curr =>
    obtain ⟨h, hw⟩ := hi
    simp only [add]
    split_ifs with c
    · obtain ⟨s1, s2, s3, s4⟩ := bt_split_divide_wf N _ h hN _ hw c
      have htop : WF N 1 (h + 1)
          (Node.mk [curr.key (N - 1)] [(split_divide N curr).1, (split_divide N curr).2]
            false) := by
        simp only [WF, bt_children_mk, bt_leaf_mk, bt_num_keys_mk, List.length_cons,
          List.length_nil, List.mem_cons, List.mem_singleton]
        refine ⟨trivial, trivial, by omega, by omega, ?_⟩
        intro c hc
        simp only [List.not_mem_nil, or_false] at hc
        rcases hc with rfl | rfl
        · exact s1
        · exact s2
      refine ⟨h + 1, ?_⟩
      rw [bt_wf_depth N _ _ _ htop]
      exact bt_add_loop_wf N hN val _ _ _ _ (by omega) htop
        (by simp only [bt_num_keys_mk, List.length_singleton]; omega)
    · refine ⟨h, ?_⟩
      rw [bt_wf_depth N _ _ _ hw]
      have := bt_wf_hi N _ _ _ hw
      exact bt_add_loop_wf N hN val _ _ _ _ (by omega) hw (by omega)

end BTree
/-! ## BTree: the occupancy and depth invariant under `remove` -/

namespace BTree

section ListAt

variable {α : Type}

theorem bt_getD_at (pre post : List α) (a d : α) (i : Nat) (h : pre.length = i) :
    (pre ++ a :: post).getD i d = a := by
  subst h
  induction pre with
  | nil => rfl
  | cons x pre ih => simpa using ih

theorem bt_getD_at1 (pre post : List α) (a b d : α) (i : Nat) (h : pre.length = i) :
    (pre ++ a :: b :: post).getD (i + 1) d = b := by
  have := bt_getD_at (pre ++ [a]) post b d (i + 1) (by simp [h])
  simpa using this

theorem bt_set_at (pre post : List α) (a x : α) (i : Nat) (h : pre.length = i) :
    (pre ++ a :: post).set i x = pre ++ x :: post := by
  subst h
  induction pre with
  | nil => rfl
  | cons y pre ih => simp

theorem bt_set_at1 (pre post : List α) (a b x : α) (i : Nat) (h : pre.length = i) :
    (pre ++ a :: b :: post).set (i + 1) x = pre ++ a :: x :: post := by
  have := bt_set_at (pre ++ [a]) post b x (i + 1) (by simp [h])
  simpa using this

theorem bt_eraseIdx_at (pre post : List α) (a : α) (i : Nat) (h : pre.length = i) :
    (pre ++ a :: post).eraseIdx i = pre ++ post := by
  subst h
  induction pre with
  | nil => rfl
  | cons y pre ih => simpa using ih

theorem bt_eraseIdx_at1 (pre post : List α) (a b : α) (i : Nat) (h : pre.length = i) :
    (pre ++ a :: b :: post).eraseIdx (i + 1) = pre ++ a :: post := by
  have := bt_eraseIdx_at (pre ++ [a]) post b (i + 1) (by simp [h])
  simpa using this

theorem bt_take_at (pre l : List α) (i : Nat) (h : pre.length = i) :
    (pre ++ l).take i = pre := by
  subst h; simp

theorem bt_drop_at (pre l : List α) (i : Nat) (h : pre.length = i) :
    (pre ++ l).drop i = l := by
  subst h; simp

/-- A list split at a valid index. -/
theorem bt_split_at (l : List α) (i : Nat) (d : α) (h : i < l.length) :
    l = l.take i ++ l.getD i d :: l.drop (i + 1) ∧ (l.take i).length = i := by
  constructor
  · rw [List.getD_eq_getElem _ _ h]
    conv_lhs => rw [← List.take_append_drop i l, List.drop_eq_getElem_cons h]
  · simp; omega

/-- A list split at two neighbouring valid indices. -/
theorem bt_split_at2 (l : List α) (i : Nat) (d : α) (h : i + 1 < l.length) :
    l = l.take i ++ l.getD i d :: l.getD (i + 1) d :: l.drop (i + 2) ∧
      (l.take i).length = i := by
  constructor
  · rw [List.getD_eq_getElem _ _ (by omega : i < l.length), List.getD_eq_getElem _ _ h]
    conv_lhs =>
      rw [← List.take_append_drop i l, List.drop_eq_getElem_cons (by omega : i < l.length),
        List.drop_eq_getElem_cons h]
  · simp; omega

end ListAt

/-- Two minimal siblings and their separating key merge into one full well-formed node. -/
theorem bt_merge_wf (N h : Nat) (hN : 1 < N) (a b : Node) (m : Int)
    (ha : WF N (N - 1) h a) (hb : WF N (N - 1) h b)
    (ca : a.num_keys = N - 1) (cb : b.num_keys = N - 1) :
    WF N (N - 1) h (merge N a b m) ∧ (merge N a b m).num_keys = 2 * N - 1 := by
  obtain ⟨ka, csa, la⟩ := a
  obtain ⟨kb, csb, lb⟩ := b
  simp only [bt_num_keys_mk] at ca cb
  cases h with
  | zero =>
    simp only [WF, bt_children_mk, bt_leaf_mk, bt_num_keys_mk] at ha hb
    obtain ⟨a1, a2, a3, a4⟩ := ha
    obtain ⟨b1, b2, b3, b4⟩ := hb
    subst a2 b2
    simp only [merge, WF, bt_children_mk, bt_leaf_mk, bt_num_keys_mk, bt_keys_mk,
      List.length_append, List.length_cons, List.length_take, List.length_drop,
      List.drop_nil, List.take_nil, List.append_nil]
    refine ⟨⟨a1, trivial, ?_, ?_⟩, ?_⟩ <;> omega
  | succ h =>
    simp only [WF, bt_children_mk, bt_leaf_mk, bt_num_keys_mk] at ha hb
    obtain ⟨a1, a2, a3, a4, a5⟩ := ha
    obtain ⟨b1, b2, b3, b4, b5⟩ := hb
    simp only [merge, WF, bt_children_mk, bt_leaf_mk, bt_num_keys_mk, bt_keys_mk,
      List.length_append, List.length_cons, List.length_take, List.length_drop]
    refine ⟨⟨a1, ?_, ?_, ?_, ?_⟩, ?_⟩
    all_goals first
      | omega
      | skip
    intro c hc
    rcases List.mem_append.1 hc with hc | hc
    · exact a5 c hc
    · exact b5 c (List.mem_of_mem_drop (List.mem_of_mem_take hc))

/-- The predecessor swap changes one key of a leaf and nothing of the structure. -/
theorem bt_swap_pred_wf (N : Nat) (val : Int) :
    ∀ (h fuel lo : Nat) (c : Node), WF N lo h c →
      WF N lo h (swap_pred fuel c val).2 ∧ (swap_pred fuel c val).2.num_keys = c.num_keys := by
  intro h
  induction h with
  | zero =>
    intro fuel lo c hw
    cases fuel with
    | zero => exact ⟨hw, rfl⟩
    | succ k =>
      obtain ⟨ks, cs, b⟩ := c
      simp only [WF, bt_children_mk, bt_leaf_mk, bt_num_keys_mk] at hw
      obtain ⟨h1, h2, h3, h4⟩ := hw
      subst h2
      simp only [swap_pred, bt_children_mk, List.getElem?_nil]
      simp only [WF, bt_children_mk, bt_leaf_mk, bt_num_keys_mk, bt_keys_mk, List.length_set]
      exact ⟨⟨h1, trivial, h3, h4⟩, trivial⟩
  | succ h ih =>
    intro fuel lo c hw
    cases fuel with
    | zero => exact ⟨hw, rfl⟩
    | succ k =>
      have hw2 := hw
      simp only [WF] at hw2
      obtain ⟨h1, h2, h3, h4, h5⟩ := hw2
      simp only [swap_pred]
      have hlt : c.num_keys < c.children.length := by omega
      rw [List.getElem?_eq_getElem hlt]
      simp only
      exact ⟨bt_wf_setChild N lo h _ _ _ hw (ih k _ _ (h5 _ (List.getElem_mem _))).1, rfl⟩

/-- The successor swap changes one key of a leaf and nothing of the structure. -/
theorem bt_swap_succ_wf (N : Nat) (val : Int) :
    ∀ (h fuel lo : Nat) (c : Node), WF N lo h c →
      WF N lo h (swap_succ fuel c val).2 ∧ (swap_succ fuel c val).2.num_keys = c.num_keys := by
  intro h
  induction h with
  | zero =>
    intro fuel lo c hw
    cases fuel with
    | zero => exact ⟨hw, rfl⟩
    | succ k =>
      obtain ⟨ks, cs, b⟩ := c
      simp only [WF, bt_children_mk, bt_leaf_mk, bt_num_keys_mk] at hw
      obtain ⟨h1, h2, h3, h4⟩ := hw
      subst h2
      simp only [swap_succ, bt_children_mk, List.getElem?_nil]
      simp only [WF, bt_children_mk, bt_leaf_mk, bt_num_keys_mk, bt_keys_mk, List.length_set]
      exact ⟨⟨h1, trivial, h3, h4⟩, trivial⟩
  | succ h ih =>
    intro fuel lo c hw
    cases fuel with
    | zero => exact ⟨hw, rfl⟩
    | succ k =>
      have hw2 := hw
      simp only [WF] at hw2
      obtain ⟨h1, h2, h3, h4, h5⟩ := hw2
      simp only [swap_succ]
      have hlt : 0 < c.children.length := by omega
      rw [List.getElem?_eq_getElem hlt]
      simp only
      exact ⟨bt_wf_setChild N lo h _ _ _ hw (ih k _ _ (h5 _ (List.getElem_mem _))).1, rfl⟩

theorem bt_children_split (cs : List Node) (i : Nat) (h : i < cs.length) :
    ∃ pre c post, cs = pre ++ c :: post ∧ pre.length = i :=
  ⟨_, _, _, (bt_split_at cs i (Node.mk [] [] true) h).1,
    (bt_split_at cs i (Node.mk [] [] true) h).2⟩

theorem bt_children_split2 (cs : List Node) (i : Nat) (h : i + 1 < cs.length) :
    ∃ pre a b post, cs = pre ++ a :: b :: post ∧ pre.length = i :=
  ⟨_, _, _, _, (bt_split_at2 cs i (Node.mk [] [] true) h).1,
    (bt_split_at2 cs i (Node.mk [] [] true) h).2⟩

theorem bt_child_at (ks : List Int) (pre post : List Node) (c : Node) (lf : Bool) (i : Nat)
    (h : pre.length = i) : (Node.mk ks (pre ++ c :: post) lf).child i = c := by
  simp only [Node.child, bt_children_mk]
  exact bt_getD_at pre post c _ i h

theorem bt_child_at1 (ks : List Int) (pre post : List Node) (a b : Node) (lf : Bool) (i : Nat)
    (h : pre.length = i) : (Node.mk ks (pre ++ a :: b :: post) lf).child (i + 1) = b := by
  simp only [Node.child, bt_children_mk]
  exact bt_getD_at1 pre post a b _ i h

/-- Shape of `left_shift` on a node whose children are split around the two siblings. -/
theorem bt_left_shift_eq (ks : List Int) (pre post : List Node) (a b : Node) (lf : Bool)
    (i : Nat) (h : pre.length = i) :
    left_shift (Node.mk ks (pre ++ a :: b :: post) lf) i =
      Node.mk (ks.set i (b.key 0))
        (pre ++ Node.mk (a.keys ++ [ks.getD i 0]) (a.children ++ b.children.take 1) a.leaf ::
          Node.mk (b.keys.drop 1) (b.children.drop 1) b.leaf :: post) lf := by
  simp only [left_shift, bt_child_at _ _ _ _ _ _ h, bt_child_at1 _ _ _ _ _ _ _ h,
    bt_children_mk, bt_keys_mk, bt_leaf_mk, Node.key, bt_set_at _ _ _ _ _ h,
    bt_set_at1 _ _ _ _ _ _ h]

/-- Shape of `right_shift` on a node whose children are split around the two siblings. -/
theorem bt_right_shift_eq (ks : List Int) (pre post : List Node) (a b : Node) (lf : Bool)
    (i : Nat) (h : pre.length = i) :
    right_shift (Node.mk ks (pre ++ a :: b :: post) lf) (i + 1) =
      Node.mk (ks.set i (a.key (a.num_keys - 1)))
        (pre ++ Node.mk (a.keys.take (a.num_keys - 1)) (a.children.take a.num_keys) a.leaf ::
          Node.mk (ks.getD i 0 :: b.keys)
            ((a.children.drop a.num_keys).take 1 ++ b.children) b.leaf :: post) lf := by
  simp only [right_shift, Nat.add_sub_cancel, bt_child_at _ _ _ _ _ _ h,
    bt_child_at1 _ _ _ _ _ _ _ h, bt_children_mk, bt_keys_mk, bt_leaf_mk, Node.key,
    bt_set_at _ _ _ _ _ h, bt_set_at1 _ _ _ _ _ _ h]

/-- Shape of `merge_right` on a node whose children are split around the two siblings. -/
theorem bt_merge_right_eq (N : Nat) (ks : List Int) (pre post : List Node) (a b : Node)
    (lf : Bool) (i : Nat) (h : pre.length = i) :
    merge_right N (Node.mk ks (pre ++ a :: b :: post) lf) i =
      Node.mk (ks.eraseIdx i) (pre ++ merge N a b (ks.getD i 0) :: post) lf := by
  simp only [merge_right, bt_child_at _ _ _ _ _ _ h, bt_child_at1 _ _ _ _ _ _ _ h,
    bt_children_mk, bt_keys_mk, bt_leaf_mk, Node.key, bt_set_at _ _ _ _ _ h,
    bt_eraseIdx_at1 _ _ _ _ _ h]

/-- Shape of the rightmost merge on a node whose children end with the two siblings. -/
theorem bt_merge_last_eq (N : Nat) (ks : List Int) (pre : List Node) (a b : Node)
    (lf : Bool) (i : Nat) (h : pre.length = i) :
    merge_last N (Node.mk ks (pre ++ [a, b]) lf) (i + 1) =
      Node.mk (ks.take (ks.length - 1)) (pre ++ [merge N a b (ks.getD i 0)]) lf := by
  simp only [merge_last, Nat.add_sub_cancel, bt_child_at _ _ _ _ _ _ h,
    bt_child_at1 _ _ _ _ _ _ _ h, bt_children_mk, bt_keys_mk, bt_leaf_mk, Node.key,
    bt_set_at _ _ _ _ _ h, bt_num_keys_mk]
  congr 1
  have : (pre ++ [merge N a b (ks.getD i 0), b]).take (i + 1)
      = pre ++ [merge N a b (ks.getD i 0)] := by
    subst h
    rw [List.take_append]
    rfl
  exact this

theorem bt_wf_mk_iff1 (N lo h : Nat) (ks : List Int) (pre post : List Node) (c : Node)
    (lf : Bool) :
    WF N lo (h + 1) (Node.mk ks (pre ++ c :: post) lf) ↔
      (lf = false ∧ pre.length + post.length + 1 = ks.length + 1 ∧ lo ≤ ks.length ∧
        ks.length ≤ 2 * N - 1 ∧ (∀ x ∈ pre, WF N (N - 1) h x) ∧ WF N (N - 1) h c ∧
        (∀ x ∈ post, WF N (N - 1) h x)) := by
  simp only [WF, bt_children_mk, bt_leaf_mk, bt_num_keys_mk, List.length_append,
    List.length_cons, List.mem_append, List.mem_cons]
  constructor
  · rintro ⟨h1, h2, h3, h4, h5⟩
    exact ⟨h1, by omega, h3, h4, fun x hx => h5 x (Or.inl hx), h5 c (Or.inr (Or.inl rfl)),
      fun x hx => h5 x (Or.inr (Or.inr hx))⟩
  · rintro ⟨h1, h2, h3, h4, h5, h6, h7⟩
    refine ⟨h1, by omega, h3, h4, ?_⟩
    rintro x (hx | rfl | hx)
    · exact h5 x hx
    · exact h6
    · exact h7 x hx

theorem bt_wf_mk_iff2 (N lo h : Nat) (ks : List Int) (pre post : List Node) (a b : Node)
    (lf : Bool) :
    WF N lo (h + 1) (Node.mk ks (pre ++ a :: b :: post) lf) ↔
      (lf = false ∧ pre.length + post.length + 2 = ks.length + 1 ∧ lo ≤ ks.length ∧
        ks.length ≤ 2 * N - 1 ∧ (∀ x ∈ pre, WF N (N - 1) h x) ∧ WF N (N - 1) h a ∧
        WF N (N - 1) h b ∧ (∀ x ∈ post, WF N (N - 1) h x)) := by
  rw [bt_wf_mk_iff1]
  simp only [List.length_cons, List.mem_cons]
  constructor
  · rintro ⟨h1, h2, h3, h4, h5, h6, h7⟩
    exact ⟨h1, by omega, h3, h4, h5, h6, h7 b (Or.inl rfl), fun x hx => h7 x (Or.inr hx)⟩
  · rintro ⟨h1, h2, h3, h4, h5, h6, h7, h8⟩
    refine ⟨h1, by omega, h3, h4, h5, h6, ?_⟩
    rintro x (rfl | hx)
    · exact h7
    · exact h8 x hx

/-- The two siblings after `left_shift` are well formed; the left one has gained a key. -/
theorem bt_left_shift_children_wf (N h : Nat) (hN : 1 < N) (a b : Node) (m : Int)
    (ha : WF N (N - 1) h a) (hb : WF N (N - 1) h b) (ca : a.num_keys < N)
    (cb : N ≤ b.num_keys) :
    WF N (N - 1) h (Node.mk (a.keys ++ [m]) (a.children ++ b.children.take 1) a.leaf) ∧
      WF N (N - 1) h (Node.mk (b.keys.drop 1) (b.children.drop 1) b.leaf) := by
  obtain ⟨ka, csa, la⟩ := a
  obtain ⟨kb, csb, lb⟩ := b
  simp only [bt_num_keys_mk, bt_keys_mk, bt_children_mk, bt_leaf_mk] at ca cb ⊢
  cases h with
  | zero =>
    simp only [WF, bt_children_mk, bt_leaf_mk, bt_num_keys_mk] at ha hb ⊢
    obtain ⟨a1, a2, a3, a4⟩ := ha
    obtain ⟨b1, b2, b3, b4⟩ := hb
    subst a2 b2
    simp only [List.length_append, List.length_cons, List.length_nil, List.length_drop,
      List.take_nil, List.drop_nil, List.append_nil]
    refine ⟨⟨a1, trivial, ?_, ?_⟩, ⟨b1, trivial, ?_, ?_⟩⟩ <;> omega
  | succ h =>
    simp only [WF, bt_children_mk, bt_leaf_mk, bt_num_keys_mk] at ha hb ⊢
    obtain ⟨a1, a2, a3, a4, a5⟩ := ha
    obtain ⟨b1, b2, b3, b4, b5⟩ := hb
    simp only [List.length_append, List.length_cons, List.length_nil, List.length_drop,
      List.length_take]
    refine ⟨⟨a1, ?_, ?_, ?_, ?_⟩, ⟨b1, ?_, ?_, ?_, ?_⟩⟩
    all_goals first
      | omega
      | skip
    · intro c hc
      rcases List.mem_append.1 hc with hc | hc
      · exact a5 c hc
      · exact b5 c (List.mem_of_mem_take hc)
    · intro c hc
      exact b5 c (List.mem_of_mem_drop hc)

/-- The two siblings after `right_shift` are well formed; the right one has gained a key. -/
theorem bt_right_shift_children_wf (N h : Nat) (hN : 1 < N) (a b : Node) (m : Int)
    (ha : WF N (N - 1) h a) (hb : WF N (N - 1) h b) (ca : N ≤ a.num_keys)
    (cb : b.num_keys < N) :
    WF N (N - 1) h
        (Node.mk (a.keys.take (a.num_keys - 1)) (a.children.take a.num_keys) a.leaf) ∧
      WF N (N - 1) h
        (Node.mk (m :: b.keys) ((a.children.drop a.num_keys).take 1 ++ b.children) b.leaf) := by
  obtain ⟨ka, csa, la⟩ := a
  obtain ⟨kb, csb, lb⟩ := b
  simp only [bt_num_keys_mk, bt_keys_mk, bt_children_mk, bt_leaf_mk] at ca cb ⊢
  cases h with
  | zero =>
    simp only [WF, bt_children_mk, bt_leaf_mk, bt_num_keys_mk] at ha hb ⊢
    obtain ⟨a1, a2, a3, a4⟩ := ha
    obtain ⟨b1, b2, b3, b4⟩ := hb
    subst a2 b2
    simp only [List.length_append, List.length_cons, List.length_nil, List.length_take,
      List.take_nil, List.drop_nil, List.append_nil]
    refine ⟨⟨a1, trivial, ?_, ?_⟩, ⟨b1, trivial, ?_, ?_⟩⟩ <;> omega
  | succ h =>
    simp only [WF, bt_children_mk, bt_leaf_mk, bt_num_keys_mk] at ha hb ⊢
    obtain ⟨a1, a2, a3, a4, a5⟩ := ha
    obtain ⟨b1, b2, b3, b4, b5⟩ := hb
    simp only [List.length_append, List.length_cons, List.length_nil, List.length_drop,
      List.length_take]
    refine ⟨⟨a1, ?_, ?_, ?_, ?_⟩, ⟨b1, ?_, ?_, ?_, ?_⟩⟩
    all_goals first
      | omega
      | skip
    · intro c hc
      exact a5 c (List.mem_of_mem_take hc)
    · intro c hc
      rcases List.mem_append.1 hc with hc | hc
      · exact a5 c (List.mem_of_mem_drop (List.mem_of_mem_take hc))
      · exact b5 c hc

/-- Descending into a child that can spare a key and storing the result back keeps the node
well formed, given the statement for the level below. -/
theorem bt_remove_child_wf (N : Nat) (hN : 1 < N) (val : Int) (h k : Nat)
    (ih : ∀ node : Node, WF N 1 h node → (0 < h → 2 ≤ node.num_keys ∨ NoMinPair N node) →
      WF N 0 h (remove_loop N k node val).2 ∧
        node.num_keys ≤ (remove_loop N k node val).2.num_keys + 1)
    (lo : Nat) (ks : List Int) (pre post : List Node) (c : Node) (lf : Bool) (j : Nat)
    (hj : pre.length = j) (hw : WF N lo (h + 1) (Node.mk ks (pre ++ c :: post) lf))
    (hc : N ≤ c.num_keys) :
    WF N lo (h + 1)
      ((Node.mk ks (pre ++ c :: post) lf).setChild j (remove_loop N k c val).2) := by
  rw [bt_wf_mk_iff1] at hw
  obtain ⟨h1, h2, h3, h4, h5, h6, h7⟩ := hw
  obtain ⟨r1, r2⟩ := ih c (bt_wf_mono N _ 1 h c h6 (by omega)) (fun _ => Or.inl (by omega))
  simp only [Node.setChild, bt_children_mk, bt_keys_mk, bt_leaf_mk, bt_set_at _ _ _ _ _ hj]
  rw [bt_wf_mk_iff1]
  exact ⟨h1, h2, h3, h4, h5, bt_wf_mono N 0 (N - 1) h _ r1 (by omega), h7⟩

end BTree
namespace BTree

/-- The descent of `remove` keeps a subtree well formed: the node it leaves behind has lost
at most one key, and an internal node keeps at least one. -/
theorem bt_remove_loop_wf (N : Nat) (hN : 1 < N) (val : Int) :
    ∀ (h fuel : Nat) (node : Node), h < fuel → WF N 1 h node →
      (0 < h → 2 ≤ node.num_keys ∨ NoMinPair N node) →
      WF N 0 h (remove_loop N fuel node val).2 ∧
        node.num_keys ≤ (remove_loop N fuel node val).2.num_keys + 1 ∧
        (0 < h → 1 ≤ (remove_loop N fuel node val).2.num_keys) := by
  intro h
  induction h with
  | zero =>
    intro fuel node hf hw hp
    obtain ⟨k, rfl⟩ : ∃ k, fuel = k + 1 := ⟨fuel - 1, by omega⟩
    obtain ⟨ks, cs, lf⟩ := node
    have hr := bt_bin_search_range (Node.mk ks cs lf) val
    simp only [WF, bt_children_mk, bt_leaf_mk, bt_num_keys_mk] at hw hr
    obtain ⟨h1, h2, h3, h4⟩ := hw
    subst h1 h2
    simp only [remove_loop, bt_leaf_mk, if_true]
    split_ifs with c1
    · simp only [WF, bt_children_mk, bt_leaf_mk, bt_num_keys_mk, bt_keys_mk,
        List.length_eraseIdx]
      split_ifs <;> refine ⟨⟨trivial, trivial, ?_, ?_⟩, ?_, ?_⟩ <;> omega
    · simp only [WF, bt_children_mk, bt_leaf_mk, bt_num_keys_mk]
      refine ⟨⟨trivial, trivial, ?_, ?_⟩, ?_, ?_⟩ <;> omega
  | succ h ih =>
    intro fuel node hf hw hp
    obtain ⟨k, rfl⟩ : ∃ k, fuel = k + 1 := ⟨fuel - 1, by omega⟩
    have ih2 : ∀ node : Node, WF N 1 h node → (0 < h → 2 ≤ node.num_keys ∨ NoMinPair N node) →
        WF N 0 h (remove_loop N k node val).2 ∧
          node.num_keys ≤ (remove_loop N k node val).2.num_keys + 1 := by
      intro nd h1 h2
      have := ih k nd (by omega) h1 h2
      exact ⟨this.1, this.2.1⟩
    obtain ⟨ks, cs, lf⟩ := node
    have hr := bt_bin_search_range (Node.mk ks cs lf) val
    have hw2 := hw
    simp only [WF, bt_children_mk, bt_leaf_mk, bt_num_keys_mk] at hw2 hr
    obtain ⟨h1, h2, h3, h4, h5⟩ := hw2
    subst h1
    simp only [remove_loop, bt_leaf_mk, Bool.false_eq_true, if_false, bt_num_keys_mk]
    generalize bin_search (Node.mk ks cs false) val = idx at hr ⊢
    have hp2 : 2 ≤ ks.length ∨ NoMinPair N (Node.mk ks cs false) := hp (by omega)
    split_ifs with c1 c2 c3 c4 c5 c6 c7 c8 c9 c10
    · -- 2a: predecessor
      obtain ⟨pre, a, b, post, rfl, hl⟩ := bt_children_split2 cs idx.toNat (by omega)
      simp only [bt_child_at _ _ _ _ _ _ hl, bt_children_mk, bt_keys_mk] at c2 ⊢
      rw [bt_set_at _ _ _ _ _ hl]
      obtain ⟨w1, w2, w3, w4, w5, w6, w7, w8⟩ := (bt_wf_mk_iff2 _ _ _ _ _ _ _ _ _).1 hw
      obtain ⟨s1, s2⟩ := bt_swap_pred_wf N val h k (N - 1) a w6
      obtain ⟨r1, r2⟩ := ih2 (swap_pred k a val).2 (bt_wf_mono N _ 1 h _ s1 (by omega))
        (fun _ => Or.inl (by omega))
      refine ⟨(bt_wf_mk_iff2 _ _ _ _ _ _ _ _ _).2 ⟨rfl, by simpa using w2, by simp,
        by simpa using w4, w5, bt_wf_mono N 0 _ h _ r1 (by omega), w7, w8⟩, ?_, ?_⟩
      · simp [bt_num_keys_mk]
      · intro _; simp only [bt_num_keys_mk, List.length_set]; omega
    · -- 2b: successor
      obtain ⟨pre, a, b, post, rfl, hl⟩ := bt_children_split2 cs idx.toNat (by omega)
      simp only [bt_child_at1 _ _ _ _ _ _ _ hl, bt_children_mk, bt_keys_mk] at c3 ⊢
      rw [bt_set_at1 _ _ _ _ _ _ hl]
      obtain ⟨w1, w2, w3, w4, w5, w6, w7, w8⟩ := (bt_wf_mk_iff2 _ _ _ _ _ _ _ _ _).1 hw
      obtain ⟨s1, s2⟩ := bt_swap_succ_wf N val h k (N - 1) b w7
      obtain ⟨r1, r2⟩ := ih2 (swap_succ k b val).2 (bt_wf_mono N _ 1 h _ s1 (by omega))
        (fun _ => Or.inl (by omega))
      refine ⟨(bt_wf_mk_iff2 _ _ _ _ _ _ _ _ _).2 ⟨rfl, by simpa using w2, by simp,
        by simpa using w4, w5, w6, bt_wf_mono N 0 _ h _ r1 (by omega), w8⟩, ?_, ?_⟩
      · simp [bt_num_keys_mk]
      · intro _; simp only [bt_num_keys_mk, List.length_set]; omega
    · -- 2c: merge around the key
      obtain ⟨pre, a, b, post, rfl, hl⟩ := bt_children_split2 cs idx.toNat (by omega)
      simp only [bt_child_at _ _ _ _ _ _ hl, bt_child_at1 _ _ _ _ _ _ _ hl] at c2 c3
      obtain ⟨w1, w2, w3, w4, w5, w6, w7, w8⟩ := (bt_wf_mk_iff2 _ _ _ _ _ _ _ _ _).1 hw
      have ca := bt_wf_lo _ _ _ _ w6
      have cb := bt_wf_lo _ _ _ _ w7
      have h2k : 2 ≤ ks.length := by
        rcases hp2 with hp2 | hp2
        · exact hp2
        · have := hp2 idx.toNat (by simp only [bt_children_mk]; omega)
          simp only [bt_child_at _ _ _ _ _ _ hl, bt_child_at1 _ _ _ _ _ _ _ hl] at this
          omega
      obtain ⟨m1, m2⟩ := bt_merge_wf N h hN a b (ks.getD idx.toNat 0) w6 w7 (by omega) (by omega)
      rw [bt_merge_right_eq N ks pre post a b false _ hl, bt_child_at _ _ _ _ _ _ hl]
      have hlen : (ks.eraseIdx idx.toNat).length = ks.length - 1 := by
        rw [List.length_eraseIdx]; split_ifs <;> omega
      have hw2 : WF N 0 (h + 1)
          (Node.mk (ks.eraseIdx idx.toNat) (pre ++ merge N a b (ks.getD idx.toNat 0) :: post)
            false) :=
        (bt_wf_mk_iff1 _ _ _ _ _ _ _ _).2 ⟨rfl, by omega,
          by omega, by omega, w5, m1, w8⟩
      refine ⟨bt_remove_child_wf N hN val h k ih2 0 _ _ _ _ _ _ hl hw2 (by omega), ?_, ?_⟩
      · simp only [bt_num_keys_setChild, bt_num_keys_mk]; omega
      · intro _; simp only [bt_num_keys_setChild, bt_num_keys_mk]; omega
    · -- 3: the child can spare a key
      obtain ⟨pre, c, post, rfl, hl⟩ := bt_children_split cs (idx + 1).toNat (by omega)
      simp only [bt_child_at _ _ _ _ _ _ hl] at c4 ⊢
      refine ⟨bt_remove_child_wf N hN val h k ih2 0 _ _ _ _ _ _ hl
        (bt_wf_mono N _ 0 _ _ hw (by omega)) c4, ?_, ?_⟩
      · simp only [bt_num_keys_setChild, bt_num_keys_mk]; omega
      · intro _; simp only [bt_num_keys_setChild, bt_num_keys_mk]; omega
    · -- 3a leftmost child: borrow from the right sibling
      obtain ⟨pre, a, b, post, rfl, hl⟩ := bt_children_split2 cs (idx + 1).toNat (by omega)
      simp only [bt_child_at _ _ _ _ _ _ hl, bt_child_at1 _ _ _ _ _ _ _ hl] at c4 c6
      obtain ⟨w1, w2, w3, w4, w5, w6, w7, w8⟩ := (bt_wf_mk_iff2 _ _ _ _ _ _ _ _ _).1 hw
      obtain ⟨l1, l2⟩ := bt_left_shift_children_wf N h hN a b (ks.getD (idx + 1).toNat 0) w6 w7
        (by omega) c6
      rw [bt_left_shift_eq ks pre post a b false _ hl, bt_child_at _ _ _ _ _ _ hl]
      have hw2 := (bt_wf_mk_iff2 N 0 h (ks.set (idx + 1).toNat (b.key 0)) pre post _ _ false).2
        ⟨rfl, by simpa using w2, by omega, by simpa using w4, w5, l1, l2, w8⟩
      have ca := bt_wf_lo _ _ _ _ w6
      refine ⟨bt_remove_child_wf N hN val h k ih2 0 _ _ _ _ _ _ hl hw2
        (by simp only [bt_num_keys_mk, List.length_append, List.length_singleton]
            unfold Node.num_keys at ca; omega), ?_, ?_⟩
      · simp only [bt_num_keys_setChild, bt_num_keys_mk, List.length_set]; omega
      · intro _; simp only [bt_num_keys_setChild, bt_num_keys_mk, List.length_set]; omega
    · -- 3b leftmost child: merge with the right sibling
      obtain ⟨pre, a, b, post, rfl, hl⟩ := bt_children_split2 cs (idx + 1).toNat (by omega)
      simp only [bt_child_at _ _ _ _ _ _ hl, bt_child_at1 _ _ _ _ _ _ _ hl] at c4 c6
      obtain ⟨w1, w2, w3, w4, w5, w6, w7, w8⟩ := (bt_wf_mk_iff2 _ _ _ _ _ _ _ _ _).1 hw
      have ca := bt_wf_lo _ _ _ _ w6
      have cb := bt_wf_lo _ _ _ _ w7
      have h2k : 2 ≤ ks.length := by
        rcases hp2 with hp2 | hp2
        · exact hp2
        · have := hp2 (idx + 1).toNat (by simp only [bt_children_mk]; omega)
          simp only [bt_child_at _ _ _ _ _ _ hl, bt_child_at1 _ _ _ _ _ _ _ hl] at this
          omega
      obtain ⟨m1, m2⟩ := bt_merge_wf N h hN a b (ks.getD (idx + 1).toNat 0) w6 w7
        (by omega) (by omega)
      rw [bt_merge_right_eq N ks pre post a b false _ hl, bt_child_at _ _ _ _ _ _ hl]
      have hlen : (ks.eraseIdx (idx + 1).toNat).length = ks.length - 1 := by
        rw [List.length_eraseIdx]; split_ifs <;> omega
      have hw2 : WF N 0 (h + 1)
          (Node.mk (ks.eraseIdx (idx + 1).toNat)
            (pre ++ merge N a b (ks.getD (idx + 1).toNat 0) :: post) false) :=
        (bt_wf_mk_iff1 _ _ _ _ _ _ _ _).2 ⟨rfl, by omega, by omega, by omega, w5, m1, w8⟩
      refine ⟨bt_remove_child_wf N hN val h k ih2 0 _ _ _ _ _ _ hl hw2 (by omega), ?_, ?_⟩
      · simp only [bt_num_keys_setChild, bt_num_keys_mk]; omega
      · intro _; simp only [bt_num_keys_setChild, bt_num_keys_mk]; omega
    · -- 3a rightmost child: borrow from the left sibling
      obtain ⟨j, hj⟩ : ∃ j, (idx + 1).toNat = j + 1 := ⟨(idx + 1).toNat - 1, by omega⟩
      rw [hj] at c4 c8 ⊢
      simp only [Nat.add_sub_cancel] at c8 ⊢
      obtain ⟨pre, a, b, post, rfl, hl⟩ := bt_children_split2 cs j (by omega)
      simp only [bt_child_at _ _ _ _ _ _ hl, bt_child_at1 _ _ _ _ _ _ _ hl] at c4 c8
      obtain ⟨w1, w2, w3, w4, w5, w6, w7, w8⟩ := (bt_wf_mk_iff2 _ _ _ _ _ _ _ _ _).1 hw
      obtain ⟨l1, l2⟩ := bt_right_shift_children_wf N h hN a b (ks.getD j 0) w6 w7
        c8 (by omega)
      rw [bt_right_shift_eq ks pre post a b false _ hl]
      have hl1 : (pre ++ [Node.mk (a.keys.take (a.num_keys - 1)) (a.children.take a.num_keys)
          a.leaf]).length = j + 1 := by simp [hl]
      have hw2 := (bt_wf_mk_iff2 N 0 h (ks.set j (a.key (a.num_keys - 1))) pre post _ _ false).2
        ⟨rfl, by simpa using w2, by omega, by simpa using w4, w5, l1, l2, w8⟩
      have cb := bt_wf_lo _ _ _ _ w7
      have e : ∀ (x y : Node) (l1 l2 : List Node), l1 ++ x :: y :: l2 = (l1 ++ [x]) ++ y :: l2 := by
        intro x y l1 l2; simp
      rw [e] at hw2 ⊢
      rw [bt_child_at _ _ _ _ _ _ hl1]
      refine ⟨bt_remove_child_wf N hN val h k ih2 0 _ _ _ _ _ _ hl1 hw2
        (by simp only [bt_num_keys_mk, List.length_cons]
            unfold Node.num_keys at cb; omega), ?_, ?_⟩
      · simp only [bt_num_keys_setChild, bt_num_keys_mk, List.length_set]; omega
      · intro _; simp only [bt_num_keys_setChild, bt_num_keys_mk, List.length_set]; omega
    · -- 3b rightmost child: merge with the left sibling
      obtain ⟨j, hj⟩ : ∃ j, (idx + 1).toNat = j + 1 := ⟨(idx + 1).toNat - 1, by omega⟩
      rw [hj] at c4 c7 c8 ⊢
      simp only [Nat.add_sub_cancel] at c8 ⊢
      obtain ⟨pre, a, b, post, rfl, hl⟩ := bt_children_split2 cs j (by omega)
      have hpost : post = [] := by
        simp only [List.length_append, List.length_cons] at h2
        exact List.length_eq_zero.1 (by omega)
      subst hpost
      simp only [bt_child_at _ _ _ _ _ _ hl, bt_child_at1 _ _ _ _ _ _ _ hl] at c4 c8
      obtain ⟨w1, w2, w3, w4, w5, w6, w7, w8⟩ := (bt_wf_mk_iff2 _ _ _ _ _ _ _ _ _).1 hw
      have ca := bt_wf_lo _ _ _ _ w6
      have cb := bt_wf_lo _ _ _ _ w7
      have h2k : 2 ≤ ks.length := by
        rcases hp2 with hp2 | hp2
        · exact hp2
        · have := hp2 j (by simp only [bt_children_mk]; omega)
          simp only [bt_child_at _ _ _ _ _ _ hl, bt_child_at1 _ _ _ _ _ _ _ hl] at this
          omega
      obtain ⟨m1, m2⟩ := bt_merge_wf N h hN a b (ks.getD j 0) w6 w7 (by omega) (by omega)
      rw [bt_merge_last_eq N ks pre a b false _ hl, bt_child_at _ _ _ _ _ _ hl]
      have hw2 : WF N 0 (h + 1)
          (Node.mk (ks.take (ks.length - 1)) (pre ++ [merge N a b (ks.getD j 0)]) false) :=
        (bt_wf_mk_iff1 _ _ _ _ _ _ _ _).2 ⟨rfl, by simp only [List.length_take, List.length_nil]; omega,
          by omega, by simp only [List.length_take]; omega, w5, m1, by simp⟩
      refine ⟨bt_remove_child_wf N hN val h k ih2 0 _ _ _ _ _ _ hl hw2 (by omega), ?_, ?_⟩
      · simp only [bt_num_keys_setChild, bt_num_keys_mk, List.length_take]; omega
      · intro _; simp only [bt_num_keys_setChild, bt_num_keys_mk, List.length_take]; omega
    · -- 3a inner child: borrow from the right sibling
      obtain ⟨pre, a, b, post, rfl, hl⟩ := bt_children_split2 cs (idx + 1).toNat (by omega)
      simp only [bt_child_at _ _ _ _ _ _ hl, bt_child_at1 _ _ _ _ _ _ _ hl] at c4 c9
      obtain ⟨w1, w2, w3, w4, w5, w6, w7, w8⟩ := (bt_wf_mk_iff2 _ _ _ _ _ _ _ _ _).1 hw
      obtain ⟨l1, l2⟩ := bt_left_shift_children_wf N h hN a b (ks.getD (idx + 1).toNat 0) w6 w7
        (by omega) c9
      rw [bt_left_shift_eq ks pre post a b false _ hl, bt_child_at _ _ _ _ _ _ hl]
      have hw2 := (bt_wf_mk_iff2 N 0 h (ks.set (idx + 1).toNat (b.key 0)) pre post _ _ false).2
        ⟨rfl, by simpa using w2, by omega, by simpa using w4, w5, l1, l2, w8⟩
      have ca := bt_wf_lo _ _ _ _ w6
      refine ⟨bt_remove_child_wf N hN val h k ih2 0 _ _ _ _ _ _ hl hw2
        (by simp only [bt_num_keys_mk, List.length_append, List.length_singleton]
            unfold Node.num_keys at ca; omega), ?_, ?_⟩
      · simp only [bt_num_keys_setChild, bt_num_keys_mk, List.length_set]; omega
      · intro _; simp only [bt_num_keys_setChild, bt_num_keys_mk, List.length_set]; omega
    · -- 3a inner child: borrow from the left sibling
      obtain ⟨j, hj⟩ : ∃ j, (idx + 1).toNat = j + 1 := ⟨(idx + 1).toNat - 1, by omega⟩
      rw [hj] at c4 c9 c10 ⊢
      simp only [Nat.add_sub_cancel] at c10 ⊢
      obtain ⟨pre, a, b, post, rfl, hl⟩ := bt_children_split2 cs j (by omega)
      simp only [bt_child_at _ _ _ _ _ _ hl, bt_child_at1 _ _ _ _ _ _ _ hl] at c4 c9 c10
      obtain ⟨w1, w2, w3, w4, w5, w6, w7, w8⟩ := (bt_wf_mk_iff2 _ _ _ _ _ _ _ _ _).1 hw
      obtain ⟨l1, l2⟩ := bt_right_shift_children_wf N h hN a b (ks.getD j 0) w6 w7
        c10 (by omega)
      rw [bt_right_shift_eq ks pre post a b false _ hl]
      have hl1 : (pre ++ [Node.mk (a.keys.take (a.num_keys - 1)) (a.children.take a.num_keys)
          a.leaf]).length = j + 1 := by simp [hl]
      have hw2 := (bt_wf_mk_iff2 N 0 h (ks.set j (a.key (a.num_keys - 1))) pre post _ _ false).2
        ⟨rfl, by simpa using w2, by omega, by simpa using w4, w5, l1, l2, w8⟩
      have cb := bt_wf_lo _ _ _ _ w7
      have e : ∀ (x y : Node) (l1 l2 : List Node), l1 ++ x :: y :: l2 = (l1 ++ [x]) ++ y :: l2 := by
        intro x y l1 l2; simp
      rw [e] at hw2 ⊢
      rw [bt_child_at _ _ _ _ _ _ hl1]
      refine ⟨bt_remove_child_wf N hN val h k ih2 0 _ _ _ _ _ _ hl1 hw2
        (by simp only [bt_num_keys_mk, List.length_cons]
            unfold Node.num_keys at cb; omega), ?_, ?_⟩
      · simp only [bt_num_keys_setChild, bt_num_keys_mk, List.length_set]; omega
      · intro _; simp only [bt_num_keys_setChild, bt_num_keys_mk, List.length_set]; omega
    · -- 3b inner child: merge with the right sibling
      obtain ⟨pre, a, b, post, rfl, hl⟩ := bt_children_split2 cs (idx + 1).toNat (by omega)
      simp only [bt_child_at _ _ _ _ _ _ hl, bt_child_at1 _ _ _ _ _ _ _ hl] at c4 c9
      obtain ⟨w1, w2, w3, w4, w5, w6, w7, w8⟩ := (bt_wf_mk_iff2 _ _ _ _ _ _ _ _ _).1 hw
      have ca := bt_wf_lo _ _ _ _ w6
      have cb := bt_wf_lo _ _ _ _ w7
      have h2k : 2 ≤ ks.length := by
        rcases hp2 with hp2 | hp2
        · exact hp2
        · have := hp2 (idx + 1).toNat (by simp only [bt_children_mk]; omega)
          simp only [bt_child_at _ _ _ _ _ _ hl, bt_child_at1 _ _ _ _ _ _ _ hl] at this
          omega
      obtain ⟨m1, m2⟩ := bt_merge_wf N h hN a b (ks.getD (idx + 1).toNat 0) w6 w7
        (by omega) (by omega)
      rw [bt_merge_right_eq N ks pre post a b false _ hl, bt_child_at _ _ _ _ _ _ hl]
      have hlen : (ks.eraseIdx (idx + 1).toNat).length = ks.length - 1 := by
        rw [List.length_eraseIdx]; split_ifs <;> omega
      have hw2 : WF N 0 (h + 1)
          (Node.mk (ks.eraseIdx (idx + 1).toNat)
            (pre ++ merge N a b (ks.getD (idx + 1).toNat 0) :: post) false) :=
        (bt_wf_mk_iff1 _ _ _ _ _ _ _ _).2 ⟨rfl, by omega, by omega, by omega, w5, m1, w8⟩
      refine ⟨bt_remove_child_wf N hN val h k ih2 0 _ _ _ _ _ _ hl hw2 (by omega), ?_, ?_⟩
      · simp only [bt_num_keys_setChild, bt_num_keys_mk]; omega
      · intro _; simp only [bt_num_keys_setChild, bt_num_keys_mk]; omega

theorem bt_remove_loop_leaf_false (N fuel : Nat) (node : Node) (val : Int)
    (hl : node.leaf = true) (hr : (remove_loop N fuel node val).1 = false) :
    (remove_loop N fuel node val).2 = node := by
  cases fuel with
  | zero => rfl
  | succ k =>
    simp only [remove_loop, hl, if_true] at hr ⊢
    split_ifs at hr ⊢ with c
    all_goals first
      | rfl
      | simp at hr

/-- C5 core: `remove` keeps the B-tree invariant (the empty tree included). -/
theorem bt_remove_inv (N : Nat) (hN : 1 < N) (root : Option Node) (val : Int)
    (hi : Inv N root) : Inv N (remove N root val).2 := by
  cases root with
  | none => trivial
  | some r =>
    obtain ⟨h, hw⟩ := hi
    simp only [remove]
    split_ifs with c1 c2 c3
    · -- the root was merged with its two children and the leaf deletion emptied it
      trivial
    · -- the root was merged with its two children
      obtain ⟨ks, cs, lf⟩ := r
      obtain ⟨q1, q2, q3, q4⟩ := c1
      simp only [bt_num_keys_mk, bt_children_mk] at q1 q2
      cases h with
      | zero => simp only [WF, bt_children_mk] at hw; rw [hw.2.1] at q2; simp at q2
      | succ h =>
        obtain ⟨pre, a, b, post, rfl, hl⟩ := bt_children_split2 cs 0 (by
          simp only [WF, bt_children_mk, bt_num_keys_mk] at hw; omega)
        simp only [bt_child_at _ _ _ _ _ _ hl, bt_child_at1 _ _ _ _ _ _ _ hl] at q3 q4 c2 ⊢
        obtain ⟨w1, w2, w3, w4, w5, w6, w7, w8⟩ := (bt_wf_mk_iff2 _ _ _ _ _ _ _ _ _).1 hw
        obtain ⟨m1, m2⟩ := bt_merge_wf N h hN a b ((Node.mk ks (pre ++ a :: b :: post) lf).key 0)
          w6 w7 q3 q4
        have hd := bt_wf_depth N _ _ _ m1
        generalize merge N a b ((Node.mk ks (pre ++ a :: b :: post) lf).key 0) = mg
          at m1 m2 hd c2 ⊢
        obtain ⟨r1, r2, r3⟩ := bt_remove_loop_wf N hN val h mg.depth mg (by rw [hd]; omega)
          (bt_wf_mono N _ 1 h _ m1 (by omega)) (fun _ => Or.inl (by omega))
        exact ⟨h, bt_wf_mono N _ 1 h _ r1 (by omega)⟩
    · trivial
    · -- no merge at the root
      have hd := bt_wf_depth N _ _ _ hw
      have hpre : 0 < h → 2 ≤ r.num_keys ∨ NoMinPair N r := by
        intro hh
        by_cases h2 : 2 ≤ r.num_keys
        · exact Or.inl h2
        · right
          obtain ⟨h', rfl⟩ : ∃ h', h = h' + 1 := ⟨h - 1, by omega⟩
          have hw2 := hw
          simp only [WF] at hw2
          obtain ⟨w1, w2, w3, w4, w5⟩ := hw2
          intro j hj
          have hj0 : j = 0 := by omega
          subst hj0
          have ha := bt_wf_lo _ _ _ _ (w5 _ (bt_child_mem r 0 (by omega)))
          have hb := bt_wf_lo _ _ _ _ (w5 _ (bt_child_mem r 1 (by omega)))
          simp only [Nat.zero_add]
          by_contra hc
          apply c1
          refine ⟨by omega, by omega, ?_, ?_⟩ <;> omega
      obtain ⟨r1, r2, r3⟩ := bt_remove_loop_wf N hN val h r.depth r (by rw [hd]; omega) hw hpre
      refine ⟨h, bt_wf_mono N _ 1 h _ r1 ?_⟩
      cases h with
      | succ h => exact r3 (by omega)
      | zero =>
        by_cases hb : (remove_loop N r.depth r val).1 = true
        · have : (remove_loop N r.depth r val).2.num_keys ≠ 0 := fun e => c3 ⟨hb, e⟩
          omega
        · have hl : r.leaf = true := by simp only [WF] at hw; exact hw.1
          rw [bt_remove_loop_leaf_false N _ r val hl (by simpa using hb)]
          exact bt_wf_lo _ _ _ _ hw

end BTree
/-! ## BTree: key sequences -/

namespace BTree

theorem bt_allKeys_mk (ks : List Int) (cs : List Node) (lf : Bool) :
    (Node.mk ks cs lf).allKeys = interleave cs ks := by
  simp [Node.allKeys]

theorem bt_interleave_nil (ks : List Int) : interleave [] ks = ks := by
  simp [interleave]

theorem bt_interleave_cons (c : Node) (cs : List Node) (ks : List Int) :
    interleave (c :: cs) ks = c.allKeys ++ interleaveK ks cs := by
  cases ks <;> simp [interleave, interleaveK]

theorem bt_interleaveK_nil (ks : List Int) : interleaveK ks [] = ks := by
  cases ks <;> simp [interleaveK, interleave]

theorem bt_interleaveK_cons (k : Int) (ks : List Int) (cs : List Node) :
    interleaveK (k :: ks) cs = k :: interleave cs ks := rfl

/-- Splitting the in-order sequence of a node where children and keys are cut at the same
index. -/
theorem bt_interleave_append (pre : List Node) :
    ∀ (kpre : List Int) (cs : List Node) (ks : List Int), pre.length = kpre.length →
      interleave (pre ++ cs) (kpre ++ ks) = interleave pre kpre ++ interleave cs ks := by
  induction pre with
  | nil =>
    intro kpre cs ks h
    have : kpre = [] := List.length_eq_zero.1 h.symm
    subst this
    simp [bt_interleave_nil]
  | cons c pre ih =>
    intro kpre cs ks h
    cases kpre with
    | nil => simp at h
    | cons k kpre =>
      simp only [List.length_cons, Nat.add_right_cancel_iff] at h
      simp only [List.cons_append, bt_interleave_cons, bt_interleaveK_cons, ih kpre cs ks h,
        List.append_assoc]

/-- Splitting the in-order sequence of a node behind a child. -/
theorem bt_interleave_append_succ (cs : List Node) :
    ∀ (ks : List Int) (cs2 : List Node) (ks2 : List Int), cs.length = ks.length + 1 →
      interleave (cs ++ cs2) (ks ++ ks2) = interleave cs ks ++ interleaveK ks2 cs2 := by
  induction cs with
  | nil => intro ks cs2 ks2 h; simp at h
  | cons c cs ih =>
    intro ks cs2 ks2 h
    cases ks with
    | nil =>
      have : cs = [] := List.length_eq_zero.1 (by simpa using h)
      subst this
      simp [bt_interleave_cons, bt_interleaveK_nil]
    | cons k ks =>
      simp only [List.length_cons, Nat.add_right_cancel_iff] at h
      simp only [List.cons_append, bt_interleave_cons, bt_interleaveK_cons, ih ks cs2 ks2 h,
        List.append_assoc]

/-- The keys stored in a node are part of its in-order sequence. -/
theorem bt_keys_subset (cs : List Node) :
    ∀ (ks : List Int) (x : Int), x ∈ ks → x ∈ interleave cs ks := by
  induction cs with
  | nil => intro ks x hx; simpa [bt_interleave_nil] using hx
  | cons c cs ih =>
    intro ks x hx
    cases ks with
    | nil => simp at hx
    | cons k ks =>
      simp only [bt_interleave_cons, bt_interleaveK_cons, List.mem_append, List.mem_cons]
      rcases List.mem_cons.1 hx with rfl | hx
      · exact Or.inr (Or.inl rfl)
      · exact Or.inr (Or.inr (ih ks x hx))

/-- The keys stored in a node are ascending when its in-order sequence is. -/
theorem bt_keys_ascending (cs : List Node) :
    ∀ ks : List Int, Ascending (interleave cs ks) → Ascending ks := by
  induction cs with
  | nil => intro ks h; simpa [bt_interleave_nil] using h
  | cons c cs ih =>
    intro ks h
    cases ks with
    | nil => simp [Ascending]
    | cons k ks =>
      simp only [bt_interleave_cons, bt_interleaveK_cons, ascending_append, ascending_cons] at h
      obtain ⟨_, ⟨h2, h3⟩, _⟩ := h
      exact ascending_cons.2 ⟨fun b hb => h2 b (bt_keys_subset cs ks b hb), ih ks h3⟩

/-- Everything to the left of a child is below `val` when the keys to its left are. -/
theorem bt_left_bound (val : Int) (pre : List Node) :
    ∀ kpre : List Int, pre.length = kpre.length → Ascending (interleave pre kpre) →
      (∀ x ∈ kpre, x < val) → ∀ x ∈ interleave pre kpre, x < val := by
  induction pre with
  | nil =>
    intro kpre h _ hk x hx
    rw [bt_interleave_nil] at hx
    exact hk x hx
  | cons c pre ih =>
    intro kpre h ha hk x hx
    cases kpre with
    | nil => simp at h
    | cons k kpre =>
      simp only [List.length_cons, Nat.add_right_cancel_iff] at h
      simp only [bt_interleave_cons, bt_interleaveK_cons, ascending_append, ascending_cons,
        List.mem_append, List.mem_cons] at ha hx
      obtain ⟨_, ⟨_, a3⟩, a4⟩ := ha
      rcases hx with hx | rfl | hx
      · have := a4 x hx k (Or.inl rfl)
        have := hk k (by simp)
        omega
      · exact hk x (by simp)
      · exact ih kpre h a3 (fun y hy => hk y (by simp [hy])) x hx

/-- Everything to the right of a child is above `val` when the keys to its right are. -/
theorem bt_right_bound (val : Int) (post : List Node) :
    ∀ kpost : List Int, post.length = kpost.length → Ascending (interleaveK kpost post) →
      (∀ x ∈ kpost, val < x) → ∀ x ∈ interleaveK kpost post, val < x := by
  induction post with
  | nil =>
    intro kpost h _ hk x hx
    rw [bt_interleaveK_nil] at hx
    exact hk x hx
  | cons c post ih =>
    intro kpost h ha hk x hx
    cases kpost with
    | nil => simp at h
    | cons k kpost =>
      simp only [List.length_cons, Nat.add_right_cancel_iff] at h
      simp only [bt_interleave_cons, bt_interleaveK_cons, ascending_append, ascending_cons,
        List.mem_append, List.mem_cons] at ha hx
      obtain ⟨a1, a2, a3, a4⟩ := ha
      rcases hx with rfl | hx | hx
      · exact hk x (by simp)
      · have := a1 x (Or.inl hx)
        have := hk k (by simp)
        omega
      · exact ih kpost h a3 (fun y hy => hk y (by simp [hy])) x hx

/-- Loop invariant of the binary search on ascending keys: the keys before `l` are not above
`val`, the keys behind `r` are above it. -/
theorem bt_bin_search_loop_spec (keys : List Int) (val : Int) (hs : Ascending keys)
    (fuel : Nat) :
    ∀ l r : Int, 0 ≤ l → l ≤ r + 1 → r < keys.length → r + 1 - l ≤ fuel →
      (∀ x ∈ keys.take l.toNat, x ≤ val) → (∀ x ∈ keys.drop (r + 1).toNat, val < x) →
      (∀ x ∈ keys.take (bin_search_loop keys val fuel l r + 1).toNat, x ≤ val) ∧
        (∀ x ∈ keys.drop (bin_search_loop keys val fuel l r + 1).toNat, val < x) := by
  induction fuel with
  | zero =>
    intro l r h0 h1 h2 h3 hl hrr
    simp only [bin_search_loop]
    have : r + 1 = l := by omega
    rw [this]
    exact ⟨hl, by rw [← this]; exact hrr⟩
  | succ k ih =>
    intro l r h0 h1 h2 h3 hl hrr
    simp only [bin_search_loop]
    split_ifs with c1 c2
    · -- val < keys[m]
      have hm : ((l + r) / 2).toNat < keys.length := by omega
      refine ih l ((l + r) / 2 - 1) h0 (by omega) (by omega) (by omega) hl ?_
      have e : ((l + r) / 2 - 1 + 1).toNat = ((l + r) / 2).toNat := by
        rw [Int.sub_add_cancel]
      rw [e, List.drop_eq_getElem_cons hm]
      rw [List.getD_eq_getElem _ _ hm] at c2
      have hd : Ascending (keys.drop ((l + r) / 2).toNat) :=
        List.Pairwise.sublist (List.drop_sublist _ _) hs
      rw [List.drop_eq_getElem_cons hm] at hd
      intro x hx
      rcases List.mem_cons.1 hx with rfl | hx
      · exact c2
      · have := (ascending_cons.1 hd).1 x hx
        omega
    · -- keys[m] ≤ val
      have hm : ((l + r) / 2).toNat < keys.length := by omega
      refine ih ((l + r) / 2 + 1) r (by omega) (by omega) h2 (by omega) ?_ hrr
      have e : ((l + r) / 2 + 1).toNat = ((l + r) / 2).toNat + 1 := by omega
      rw [e, List.take_succ, List.getElem?_eq_getElem hm]
      rw [List.getD_eq_getElem _ _ hm] at c2
      have hd : Ascending (keys.take (((l + r) / 2).toNat + 1)) :=
        List.Pairwise.sublist (List.take_sublist _ _) hs
      rw [List.take_succ, List.getElem?_eq_getElem hm] at hd
      simp only [Option.toList] at hd ⊢
      intro x hx
      rcases List.mem_append.1 hx with hx | hx
      · have := (ascending_append.1 hd).2.2 x hx _ (List.mem_singleton.2 rfl)
        omega
      · rw [List.mem_singleton.1 hx]
        omega
    · have : r + 1 = l := by omega
      rw [this]
      exact ⟨hl, by rw [← this]; exact hrr⟩

/-- What the binary search finds on ascending keys: either the key at the returned index, or
a cut with all keys before it below `val` and all keys behind it above. -/
theorem bt_bin_search_spec (node : Node) (val : Int) (hs : Ascending node.keys) :
    (0 ≤ bin_search node val ∧ node.key (bin_search node val).toNat = val ∧ val ∈ node.keys) ∨
      (¬(0 ≤ bin_search node val ∧ node.key (bin_search node val).toNat = val) ∧
        (∀ x ∈ node.keys.take (bin_search node val + 1).toNat, x < val) ∧
        (∀ x ∈ node.keys.drop (bin_search node val + 1).toNat, val < x)) := by
  have hr := bt_bin_search_range node val
  have hsp := bt_bin_search_loop_spec node.keys val hs node.keys.length 0
    (node.keys.length - 1) (le_refl _) (by omega) (by omega) (by omega) (by simp)
    (by simp)
  unfold Node.num_keys at hr
  unfold bin_search at hr ⊢
  generalize bin_search_loop node.keys val node.keys.length 0 (node.keys.length - 1) = idx
    at hr hsp ⊢
  by_cases c : 0 ≤ idx ∧ node.key idx.toNat = val
  · left
    refine ⟨c.1, c.2, ?_⟩
    have hlt : idx.toNat < node.keys.length := by omega
    have := c.2
    unfold Node.key at this
    rw [List.getD_eq_getElem _ _ hlt] at this
    rw [← this]
    exact List.getElem_mem _
  · right
    refine ⟨c, ?_, hsp.2⟩
    intro x hx
    have hle := hsp.1 x hx
    by_contra hnl
    have hxv : x = val := by omega
    subst hxv
    -- val is among the keys up to idx, hence it is the key at idx
    have h0 : 0 ≤ idx := by
      by_contra h0
      have : (idx + 1).toNat = 0 := by omega
      rw [this] at hx
      simp at hx
    apply c
    refine ⟨h0, ?_⟩
    have hlt : idx.toNat < node.keys.length := by omega
    have e : (idx + 1).toNat = idx.toNat + 1 := by omega
    rw [e, List.take_succ, List.getElem?_eq_getElem hlt] at hx
    have hd : Ascending (node.keys.take (idx.toNat + 1)) :=
      List.Pairwise.sublist (List.take_sublist _ _) hs
    rw [List.take_succ, List.getElem?_eq_getElem hlt] at hd
    simp only [Option.toList] at hd hx
    unfold Node.key
    rw [List.getD_eq_getElem _ _ hlt]
    rcases List.mem_append.1 hx with hx | hx
    · have h1 := (ascending_append.1 hd).2.2 x hx _ (List.mem_singleton.2 rfl)
      have h2 := hsp.1 (node.keys[idx.toNat]) (by
        rw [e, List.take_succ, List.getElem?_eq_getElem hlt]
        exact List.mem_append_right _ (List.mem_singleton.2 rfl))
      omega
    · exact (List.mem_singleton.1 hx).symm

end BTree
/-! ## BTree: cutting a node at the searched position, and `find` -/

namespace BTree

/-- In-order sequence of a node whose children and keys are cut around one child. -/
theorem bt_allKeys_cut1 (kpre kpost : List Int) (pre post : List Node) (c : Node) (lf : Bool)
    (h : pre.length = kpre.length) :
    (Node.mk (kpre ++ kpost) (pre ++ c :: post) lf).allKeys =
      interleave pre kpre ++ (c.allKeys ++ interleaveK kpost post) := by
  rw [bt_allKeys_mk, bt_interleave_append pre kpre _ _ h, bt_interleave_cons]

/-- In-order sequence of a node whose children and keys are cut around two neighbouring
children and the key between them. -/
theorem bt_allKeys_cut2 (kpre kpost : List Int) (m : Int) (pre post : List Node) (a b : Node)
    (lf : Bool) (h : pre.length = kpre.length) :
    (Node.mk (kpre ++ m :: kpost) (pre ++ a :: b :: post) lf).allKeys =
      interleave pre kpre ++ (a.allKeys ++ m :: (b.allKeys ++ interleaveK kpost post)) := by
  rw [bt_allKeys_cut1 _ _ _ _ _ _ h, bt_interleaveK_cons, bt_interleave_cons]

/-- When `val` is not the key at the index returned by `bin_search`, an internal node is cut
around the child the search continues in: everything before that child is below `val`,
everything behind it is above. -/
theorem bt_cut (N lo h : Nat) (ks : List Int) (cs : List Node) (val idx : Int)
    (hw : WF N lo (h + 1) (Node.mk ks cs false)) (ha : Ascending (interleave cs ks))
    (hidx : bin_search (Node.mk ks cs false) val = idx)
    (hnf : ¬(0 ≤ idx ∧ (Node.mk ks cs false).key idx.toNat = val)) :
    ∃ kpre kpost pre c post, ks = kpre ++ kpost ∧ cs = pre ++ c :: post ∧
      pre.length = (idx + 1).toNat ∧ kpre.length = (idx + 1).toNat ∧
      post.length = kpost.length ∧ (∀ x ∈ interleave pre kpre, x < val) ∧
      (∀ x ∈ interleaveK kpost post, val < x) := by
  have hr := bt_bin_search_range (Node.mk ks cs false) val
  have hsp := bt_bin_search_spec (Node.mk ks cs false) val (bt_keys_ascending cs ks ha)
  rw [hidx] at hr hsp
  simp only [WF, bt_children_mk, bt_leaf_mk, bt_num_keys_mk, bt_keys_mk] at hw hr hsp
  obtain ⟨-, h2, -, -, -⟩ := hw
  rcases hsp with hsp | ⟨-, s1, s2⟩
  · exact absurd ⟨hsp.1, hsp.2.1⟩ hnf
  · have hi : (idx + 1).toNat < cs.length := by omega
    obtain ⟨e1, e2⟩ := bt_split_at cs (idx + 1).toNat (Node.mk [] [] true) hi
    have e3 : (ks.take (idx + 1).toNat).length = (idx + 1).toNat := by
      rw [List.length_take]; omega
    have e4 : (cs.drop ((idx + 1).toNat + 1)).length = (ks.drop (idx + 1).toNat).length := by
      rw [List.length_drop, List.length_drop]; omega
    have hk : ks = ks.take (idx + 1).toNat ++ ks.drop (idx + 1).toNat :=
      (List.take_append_drop _ _).symm
    have ha2 : Ascending (interleave
        (cs.take (idx + 1).toNat ++
          cs.getD (idx + 1).toNat (Node.mk [] [] true) :: cs.drop ((idx + 1).toNat + 1))
        (ks.take (idx + 1).toNat ++ ks.drop (idx + 1).toNat)) := by
      rw [← e1, ← hk]
      exact ha
    rw [bt_interleave_append _ _ _ _ (e2.trans e3.symm), bt_interleave_cons,
      ascending_append, ascending_append] at ha2
    obtain ⟨a1, ⟨-, a2, -⟩, -⟩ := ha2
    exact ⟨_, _, _, _, _, hk, e1, e2, e3, e4,
      bt_left_bound val _ _ (e2.trans e3.symm) a1 s1, bt_right_bound val _ _ e4 a2 s2⟩

/-- When `val` is the key at the index returned by `bin_search`, an internal node is cut
around that key and the two children next to it. -/
theorem bt_cut_found (N lo h : Nat) (ks : List Int) (cs : List Node) (val idx : Int)
    (hw : WF N lo (h + 1) (Node.mk ks cs false))
    (hidx : bin_search (Node.mk ks cs false) val = idx)
    (hf : 0 ≤ idx ∧ (Node.mk ks cs false).key idx.toNat = val) :
    ∃ kpre kpost pre a b post, ks = kpre ++ val :: kpost ∧ cs = pre ++ a :: b :: post ∧
      pre.length = idx.toNat ∧ kpre.length = idx.toNat ∧ post.length = kpost.length := by
  have hr := bt_bin_search_range (Node.mk ks cs false) val
  rw [hidx] at hr
  simp only [WF, bt_children_mk, bt_leaf_mk, bt_num_keys_mk, bt_keys_mk, Node.key] at hw hr hf
  obtain ⟨-, h2, -, -, -⟩ := hw
  have hi : idx.toNat < ks.length := by omega
  obtain ⟨e1, e2⟩ := bt_split_at2 cs idx.toNat (Node.mk [] [] true) (by omega)
  obtain ⟨e3, e4⟩ := bt_split_at ks idx.toNat 0 hi
  rw [hf.2] at e3
  refine ⟨_, _, _, _, _, _, e3, e1, e2, e4, ?_⟩
  rw [List.length_drop, List.length_drop]
  omega

/-- The loop of `find` continues in `children[idx + 1]` unless it stops at `keys[idx]`. -/
theorem bt_find_loop_succ (k : Nat) (node : Node) (val : Int) :
    find_loop (k + 1) node val =
      if 0 ≤ bin_search node val ∧ node.key (bin_search node val).toNat = val then true
      else
        match node.children[(bin_search node val + 1).toNat]? with
        | none => false
        | some c => find_loop k c val := by
  have hr := bt_bin_search_range node val
  simp only [find_loop]
  generalize bin_search node val = idx at hr ⊢
  by_cases c1 : idx < 0
  · have e : (idx + 1).toNat = 0 := by omega
    rw [if_pos c1, if_neg (by omega), e]
  · have e : (idx + 1).toNat = idx.toNat + 1 := by omega
    rw [if_neg c1, e]
    by_cases c2 : node.key idx.toNat = val
    · rw [if_pos c2, if_pos ⟨by omega, c2⟩]
    · rw [if_neg c2, if_neg (fun hh => c2 hh.2)]

/-- On a well-formed subtree with ascending in-order keys, the loop of `find` decides
membership in the key sequence. -/
theorem bt_find_loop_spec (N : Nat) (val : Int) :
    ∀ (h fuel lo : Nat) (node : Node), h < fuel → WF N lo h node → Ascending node.allKeys →
      find_loop fuel node val = decide (val ∈ node.allKeys) := by
  intro h
  induction h with
  | zero =>
    intro fuel lo node hf hw ha
    obtain ⟨k, rfl⟩ : ∃ k, fuel = k + 1 := ⟨fuel - 1, by omega⟩
    obtain ⟨ks, cs, lf⟩ := node
    simp only [WF, bt_children_mk, bt_leaf_mk, bt_num_keys_mk] at hw
    obtain ⟨h1, h2, -, -⟩ := hw
    subst h1 h2
    rw [bt_allKeys_mk, bt_interleave_nil] at ha ⊢
    have hsp := bt_bin_search_spec (Node.mk ks [] true) val ha
    rw [bt_find_loop_succ]
    simp only [bt_children_mk, bt_keys_mk] at hsp ⊢
    rcases hsp with hsp | ⟨s0, s1, s2⟩
    · rw [if_pos ⟨hsp.1, hsp.2.1⟩]
      exact (decide_eq_true hsp.2.2).symm
    · rw [if_neg s0]
      simp only [List.getElem?_nil]
      symm
      apply decide_eq_false
      intro hm
      rw [← List.take_append_drop (bin_search (Node.mk ks [] true) val + 1).toNat ks] at hm
      rcases List.mem_append.1 hm with hm | hm
      · exact lt_irrefl _ (s1 val hm)
      · exact lt_irrefl _ (s2 val hm)
  | succ h ih =>
    intro fuel lo node hf hw ha
    obtain ⟨k, rfl⟩ : ∃ k, fuel = k + 1 := ⟨fuel - 1, by omega⟩
    obtain ⟨ks, cs, lf⟩ := node
    have hlf : lf = false := by
      simp only [WF, bt_leaf_mk] at hw
      exact hw.1
    subst hlf
    rw [bt_find_loop_succ]
    rw [bt_allKeys_mk] at ha
    by_cases c : 0 ≤ bin_search (Node.mk ks cs false) val ∧
        (Node.mk ks cs false).key (bin_search (Node.mk ks cs false) val).toNat = val
    · rw [if_pos c]
      have hsp := bt_bin_search_spec (Node.mk ks cs false) val (bt_keys_ascending cs ks ha)
      rcases hsp with hsp | hsp
      · symm
        apply decide_eq_true
        rw [bt_allKeys_mk]
        exact bt_keys_subset cs ks val hsp.2.2
      · exact absurd c hsp.1
    · rw [if_neg c]
      obtain ⟨kpre, kpost, pre, c0, post, rfl, rfl, e1, e2, e3, hL, hR⟩ :=
        bt_cut N lo h ks cs val _ hw ha rfl c
      rw [bt_allKeys_cut1 _ _ _ _ _ _ (e1.trans e2.symm)]
      simp only [bt_children_mk]
      rw [← e1, List.getElem?_append_right (le_refl _), Nat.sub_self]
      simp only [List.getElem?_cons_zero]
      rw [bt_wf_mk_iff1] at hw
      rw [← e1] at e2
      rw [bt_interleave_append _ _ _ _ e2.symm, bt_interleave_cons, ascending_append,
        ascending_append] at ha
      rw [ih k (N - 1) c0 (by omega) hw.2.2.2.2.2.1 ha.2.1.1]
      apply Bool.decide_congr
      simp only [List.mem_append]
      constructor
      · intro hm; exact Or.inr (Or.inl hm)
      · rintro (hm | hm | hm)
        · exact absurd (hL val hm) (lt_irrefl _)
        · exact hm
        · exact absurd (hR val hm) (lt_irrefl _)

/-- On a B-tree with ascending in-order keys, `find` decides membership. -/
theorem bt_find_spec (N : Nat) (root : Option Node) (val : Int) (hi : Inv N root)
    (ha : Ascending (treeKeys root)) : find root val = decide (val ∈ treeKeys root) := by
  cases root with
  | none => simp [find, treeKeys]
  | some r =>
    obtain ⟨h, hw⟩ := hi
    simp only [find, treeKeys] at ha ⊢
    exact bt_find_loop_spec N val h _ 1 r (by rw [bt_wf_depth N h 1 r hw]; omega) hw ha

end BTree
/-! ## BTree: the key sequence under `add` -/

namespace BTree

section Filters

/-- Filtering a list of elements below `val`. -/
theorem bt_filter_below (val : Int) (l : List Int) (h : ∀ x ∈ l, x < val) :
    l.filter (fun x => decide (x < val)) = l ∧ l.filter (fun x => decide (val < x)) = [] := by
  constructor
  · exact List.filter_eq_self.2 (fun x hx => decide_eq_true (h x hx))
  · apply List.filter_eq_nil_iff.2
    intro x hx
    have := h x hx
    simp only [decide_eq_true_eq]
    omega

/-- Filtering a list of elements above `val`. -/
theorem bt_filter_above (val : Int) (l : List Int) (h : ∀ x ∈ l, val < x) :
    l.filter (fun x => decide (x < val)) = [] ∧ l.filter (fun x => decide (val < x)) = l := by
  constructor
  · apply List.filter_eq_nil_iff.2
    intro x hx
    have := h x hx
    simp only [decide_eq_true_eq]
    omega
  · exact List.filter_eq_self.2 (fun x hx => decide_eq_true (h x hx))

/-- Sorted insertion into the middle part of a sequence whose outer parts lie below and
above `val`. -/
theorem bt_insert_between (val : Int) (l c r : List Int) (hl : ∀ x ∈ l, x < val)
    (hr : ∀ x ∈ r, val < x) :
    (l ++ (c ++ r)).filter (fun x => decide (x < val)) ++
        val :: (l ++ (c ++ r)).filter (fun x => decide (val < x)) =
      l ++ ((c.filter (fun x => decide (x < val)) ++
        val :: c.filter (fun x => decide (val < x))) ++ r) ∧
    (val ∈ l ++ (c ++ r) ↔ val ∈ c) := by
  obtain ⟨l1, l2⟩ := bt_filter_below val l hl
  obtain ⟨r1, r2⟩ := bt_filter_above val r hr
  constructor
  · simp only [List.filter_append, l1, l2, r1, r2, List.append_nil, List.nil_append,
      List.append_assoc, List.cons_append]
  · simp only [List.mem_append]
    constructor
    · rintro (hm | hm | hm)
      · exact absurd (hl val hm) (lt_irrefl _)
      · exact hm
      · exact absurd (hr val hm) (lt_irrefl _)
    · intro hm; exact Or.inr (Or.inl hm)

/-- Sorted insertion of a key that is present leaves an ascending sequence as it is. -/
theorem bt_insert_present (val : Int) (l : List Int) (ha : Ascending l) (hm : val ∈ l) :
    l.filter (fun x => decide (x < val)) ++ val :: l.filter (fun x => decide (val < x)) = l := by
  obtain ⟨l1, l2, rfl⟩ := List.append_of_mem hm
  rw [ascending_append, ascending_cons] at ha
  obtain ⟨-, ⟨a2, -⟩, a3⟩ := ha
  obtain ⟨f1, f2⟩ := bt_filter_below val l1 (fun x hx => a3 x hx val (List.mem_cons_self _ _))
  obtain ⟨g1, g2⟩ := bt_filter_above val l2 a2
  simp only [List.filter_append, List.filter_cons, f1, f2, g1, g2, lt_irrefl, decide_False,
    List.append_nil, List.nil_append, Bool.false_eq_true, if_false]

/-- The sorted insertion is ascending and adds exactly `val`. -/
theorem bt_insert_ascending (val : Int) (l : List Int) (ha : Ascending l) :
    Ascending (l.filter (fun x => decide (x < val)) ++
      val :: l.filter (fun x => decide (val < x))) ∧
    ∀ j, j ∈ l.filter (fun x => decide (x < val)) ++
      val :: l.filter (fun x => decide (val < x)) ↔ j = val ∨ j ∈ l := by
  constructor
  · rw [ascending_append, ascending_cons]
    refine ⟨List.Pairwise.sublist (List.filter_sublist _) ha,
      ⟨?_, List.Pairwise.sublist (List.filter_sublist _) ha⟩, ?_⟩
    · intro b hb
      simpa using (List.mem_filter.1 hb).2
    · intro a h1 b h2
      have h3 : a < val := by simpa using (List.mem_filter.1 h1).2
      rcases List.mem_cons.1 h2 with rfl | h2
      · exact h3
      · have h4 : val < b := by simpa using (List.mem_filter.1 h2).2
        omega
  · intro j
    simp only [List.mem_append, List.mem_cons, List.mem_filter, decide_eq_true_eq]
    constructor
    · rintro (hj | hj | hj)
      · exact Or.inr hj.1
      · exact Or.inl hj
      · exact Or.inr hj.1
    · rintro (hj | hj)
      · exact Or.inr (Or.inl hj)
      · rcases lt_trichotomy j val with c | c | c
        · exact Or.inl ⟨hj, c⟩
        · exact Or.inr (Or.inl c)
        · exact Or.inr (Or.inr ⟨hj, c⟩)

end Filters

theorem bt_drop_at1 {α : Type} (pre l : List α) (a : α) (i : Nat) (h : pre.length = i) :
    (pre ++ a :: l).drop (i + 1) = l := by
  subst h
  induction pre with
  | nil => rfl
  | cons x pre ih => simp

/-- Splitting a full node keeps its in-order sequence: the left half, the median, the right
half. -/
theorem bt_split_divide_keys (N lo h : Nat) (hN : 1 < N) (c : Node) (hw : WF N lo h c)
    (hf : c.num_keys = 2 * N - 1) :
    c.allKeys =
      (split_divide N c).1.allKeys ++ c.key (N - 1) :: (split_divide N c).2.allKeys := by
  obtain ⟨ks, cs, b⟩ := c
  simp only [bt_num_keys_mk] at hf
  have hk : ks = ks.take (N - 1) ++ ks.getD (N - 1) 0 :: ks.drop N := by
    have := (bt_split_at ks (N - 1) 0 (by omega)).1
    rwa [Nat.sub_add_cancel (by omega)] at this
  have hk2 : (ks.drop N).take (N - 1) = ks.drop N :=
    List.take_of_length_le (by rw [List.length_drop]; omega)
  cases h with
  | zero =>
    simp only [WF, bt_children_mk, bt_leaf_mk, bt_num_keys_mk] at hw
    obtain ⟨-, h2, -, -⟩ := hw
    subst h2
    simp only [split_divide, bt_allKeys_mk, bt_keys_mk, bt_children_mk, Node.key,
      List.take_nil, List.drop_nil, bt_interleave_nil, hk2]
    exact hk
  | succ h =>
    simp only [WF, bt_children_mk, bt_leaf_mk, bt_num_keys_mk] at hw
    obtain ⟨-, h2, -, -, -⟩ := hw
    have hc2 : (cs.drop N).take N = cs.drop N :=
      List.take_of_length_le (by rw [List.length_drop]; omega)
    simp only [split_divide, bt_allKeys_mk, bt_keys_mk, bt_children_mk, Node.key, hk2, hc2]
    have e := bt_interleave_append_succ (cs.take N) (ks.take (N - 1)) (cs.drop N)
      (ks.getD (N - 1) 0 :: ks.drop N) (by rw [List.length_take, List.length_take]; omega)
    rw [List.take_append_drop, ← hk, bt_interleaveK_cons] at e
    exact e

/-- The descent of `add` on a well-formed subtree with ascending keys that is not full:
it returns whether `val` was absent, and the key sequence becomes the sorted insertion of
`val`. -/
theorem bt_add_loop_keys (N : Nat) (hN : 1 < N) (val : Int) :
    ∀ (h fuel lo : Nat) (curr : Node), h < fuel → WF N lo h curr →
      curr.num_keys < 2 * N - 1 → Ascending curr.allKeys →
      (add_loop N fuel curr val).1 = decide (val ∉ curr.allKeys) ∧
        (add_loop N fuel curr val).2.allKeys =
          curr.allKeys.filter (fun x => decide (x < val)) ++
            val :: curr.allKeys.filter (fun x => decide (val < x)) := by
  intro h
  induction h with
  | zero =>
    intro fuel lo curr hf hw hnf ha
    obtain ⟨k, rfl⟩ : ∃ k, fuel = k + 1 := ⟨fuel - 1, by omega⟩
    obtain ⟨ks, cs, lf⟩ := curr
    simp only [WF, bt_children_mk, bt_leaf_mk, bt_num_keys_mk] at hw
    obtain ⟨h1, h2, -, -⟩ := hw
    subst h1 h2
    rw [bt_allKeys_mk, bt_interleave_nil] at ha ⊢
    have hsp := bt_bin_search_spec (Node.mk ks [] true) val ha
    simp only [add_loop, bt_leaf_mk, if_true, bt_keys_mk, bt_children_mk]
    generalize bin_search (Node.mk ks [] true) val = idx at hsp ⊢
    simp only [bt_keys_mk] at hsp
    rcases hsp with ⟨s1, s2, s3⟩ | ⟨s0, s1, s2⟩
    · rw [if_pos ⟨s1, s2.symm⟩]
      simp only [bt_allKeys_mk, bt_interleave_nil]
      exact ⟨by simp [s3], (bt_insert_present val ks ha s3).symm⟩
    · rw [if_neg (fun hh => s0 ⟨hh.1, hh.2.symm⟩)]
      simp only [bt_allKeys_mk, bt_interleave_nil]
      have hb := bt_insert_between val _ [] _ s1 s2
      have hnm : val ∉ ks := by
        intro hm
        rw [← List.take_append_drop (idx + 1).toNat ks] at hm
        exact List.not_mem_nil val (hb.2.1 (by simpa using hm))
      have hb1 := hb.1
      simp only [List.nil_append, List.take_append_drop, List.filter_nil, List.cons_append]
        at hb1
      exact ⟨by simp [hnm], hb1.symm⟩
  | succ h ih =>
    intro fuel lo curr hf hw hnf ha
    obtain ⟨k, rfl⟩ : ∃ k, fuel = k + 1 := ⟨fuel - 1, by omega⟩
    obtain ⟨ks, cs, lf⟩ := curr
    have hlf : lf = false := by
      simp only [WF, bt_leaf_mk] at hw
      exact hw.1
    subst hlf
    rw [bt_allKeys_mk] at ha
    simp only [add_loop, bt_leaf_mk, Bool.false_eq_true, if_false]
    generalize hidx : bin_search (Node.mk ks cs false) val = idx
    by_cases c1 : 0 ≤ idx ∧ val = (Node.mk ks cs false).key idx.toNat
    · rw [if_pos c1]
      have hsp := bt_bin_search_spec (Node.mk ks cs false) val (bt_keys_ascending cs ks ha)
      rw [hidx] at hsp
      have hm : val ∈ interleave cs ks := by
        rcases hsp with hsp | hsp
        · exact bt_keys_subset cs ks val hsp.2.2
        · exact absurd ⟨c1.1, c1.2.symm⟩ hsp.1
      simp only [bt_allKeys_mk]
      exact ⟨by simp [hm], (bt_insert_present val _ ha hm).symm⟩
    · rw [if_neg c1]
      obtain ⟨kpre, kpost, pre, c, post, rfl, rfl, e1, e2, e3, hL, hR⟩ :=
        bt_cut N lo h ks cs val idx hw ha hidx (fun hh => c1 ⟨hh.1, hh.2.symm⟩)
      have e12 : pre.length = kpre.length := e1.trans e2.symm
      have hwc := ((bt_wf_mk_iff1 _ _ _ _ _ _ _ _).1 hw).2.2.2.2.2.1
      rw [bt_interleave_append _ _ _ _ e12, bt_interleave_cons] at ha
      obtain ⟨aL, aCR, aLCR⟩ := ascending_append.1 ha
      obtain ⟨aC, aR, aCR2⟩ := ascending_append.1 aCR
      simp only [bt_keys_mk, bt_children_mk, bt_child_at _ _ _ _ _ _ e1, bt_take_at _ _ _ e2,
        bt_drop_at _ _ _ e2, bt_take_at _ _ _ e1, bt_drop_at1 _ _ _ _ e1, Node.setChild,
        bt_leaf_mk, bt_set_at _ _ _ _ _ e1, bt_set_at1 _ _ _ _ _ _ e1]
      rw [bt_allKeys_cut1 _ _ _ _ _ _ e12]
      split_ifs with c2 c3 c4
      · -- full child, descent into the left half
        obtain ⟨s1, s2, s3, s4⟩ := bt_split_divide_wf N _ h hN c hwc c2
        have hk := bt_split_divide_keys N _ h hN c hwc c2
        rw [hk, ascending_append, ascending_cons] at aC
        obtain ⟨aC1, ⟨aC2, aC3⟩, aC4⟩ := aC
        obtain ⟨r1, r2⟩ := ih k (N - 1) _ (by omega) s1 (by omega) aC1
        rw [bt_allKeys_cut2 _ _ _ _ _ _ _ _ e12, r1, r2, hk]
        have hb := bt_insert_between val (interleave pre kpre) (split_divide N c).1.allKeys
          (c.key (N - 1) :: ((split_divide N c).2.allKeys ++ interleaveK kpost post)) hL (by
            intro x hx
            rcases List.mem_cons.1 hx with rfl | hx
            · exact c3
            · rcases List.mem_append.1 hx with hx | hx
              · have := aC2 x hx; omega
              · exact hR x hx)
        constructor
        · apply Bool.decide_congr
          rw [← hb.2]
          simp only [List.append_assoc, List.cons_append]
        · simp only [List.append_assoc, List.cons_append] at hb ⊢
          exact hb.1.symm
      · -- full child whose median is `val`
        have hk := bt_split_divide_keys N _ h hN c hwc c2
        rw [bt_allKeys_cut2 _ _ _ _ _ _ _ _ e12, hk, ← c4]
        have hm : val ∈ interleave pre kpre ++
            (((split_divide N c).1.allKeys ++ val :: (split_divide N c).2.allKeys) ++
              interleaveK kpost post) := by simp
        have ha2 : Ascending (interleave pre kpre ++
            (((split_divide N c).1.allKeys ++ val :: (split_divide N c).2.allKeys) ++
              interleaveK kpost post)) := by
          rw [c4, ← hk]; exact ha
        refine ⟨by simp, ?_⟩
        rw [bt_insert_present val _ ha2 hm]
        simp only [List.append_assoc, List.cons_append]
      · -- full child, descent into the right half
        obtain ⟨s1, s2, s3, s4⟩ := bt_split_divide_wf N _ h hN c hwc c2
        have hk := bt_split_divide_keys N _ h hN c hwc c2
        rw [hk, ascending_append, ascending_cons] at aC
        obtain ⟨aC1, ⟨aC2, aC3⟩, aC4⟩ := aC
        obtain ⟨r1, r2⟩ := ih k (N - 1) _ (by omega) s2 (by omega) aC3
        rw [bt_allKeys_cut2 _ _ _ _ _ _ _ _ e12, r1, r2, hk]
        have hb := bt_insert_between val
          (interleave pre kpre ++ ((split_divide N c).1.allKeys ++ [c.key (N - 1)]))
          (split_divide N c).2.allKeys (interleaveK kpost post) (by
            intro x hx
            rcases List.mem_append.1 hx with hx | hx
            · exact hL x hx
            · rcases List.mem_append.1 hx with hx | hx
              · have := aC4 x hx _ (List.mem_cons_self _ _); omega
              · rw [List.mem_singleton.1 hx]; omega) hR
        constructor
        · apply Bool.decide_congr
          rw [← hb.2]
          simp only [List.append_assoc, List.cons_append, List.singleton_append,
            List.nil_append]
        · simp only [List.append_assoc, List.cons_append, List.singleton_append,
            List.nil_append] at hb ⊢
          exact hb.1.symm
      · -- the child has room
        have hb1 := bt_wf_hi N _ h _ hwc
        obtain ⟨r1, r2⟩ := ih k (N - 1) c (by omega) hwc (by omega) aC
        rw [bt_allKeys_cut1 _ _ _ _ _ _ e12, r1, r2]
        have hb := bt_insert_between val _ c.allKeys _ hL hR
        exact ⟨Bool.decide_congr (not_congr hb.2.symm), hb.1.symm⟩

end BTree
/-! ## BTree: the key sequence under the restructuring steps of `remove` -/

namespace BTree

/-- Merging two minimal siblings around their separating key concatenates the sequences. -/
theorem bt_merge_keys (N h : Nat) (hN : 1 < N) (a b : Node) (m : Int)
    (ha : WF N (N - 1) h a) (hb : WF N (N - 1) h b)
    (ca : a.num_keys = N - 1) (cb : b.num_keys = N - 1) :
    (merge N a b m).allKeys = a.allKeys ++ m :: b.allKeys := by
  obtain ⟨ka, csa, la⟩ := a
  obtain ⟨kb, csb, lb⟩ := b
  simp only [bt_num_keys_mk] at ca cb
  have e1 : N - 1 + 1 - N = 0 := by omega
  have e2 : kb.take (2 * N - 1 - (N - 1 + 1)) = kb := List.take_of_length_le (by omega)
  cases h with
  | zero =>
    simp only [WF, bt_children_mk, bt_leaf_mk, bt_num_keys_mk] at ha hb
    obtain ⟨-, a2, -, -⟩ := ha
    obtain ⟨-, b2, -, -⟩ := hb
    subst a2 b2
    simp only [merge, bt_num_keys_mk, bt_keys_mk, bt_children_mk, bt_leaf_mk, ca, e1,
      List.drop_zero, e2, List.drop_nil, List.take_nil, List.append_nil, bt_allKeys_mk,
      bt_interleave_nil]
  | succ h =>
    simp only [WF, bt_children_mk, bt_leaf_mk, bt_num_keys_mk] at ha hb
    obtain ⟨-, a2, -, -, -⟩ := ha
    obtain ⟨-, b2, -, -, -⟩ := hb
    have e3 : csb.take (2 * N - (N - 1 + 1)) = csb := List.take_of_length_le (by omega)
    simp only [merge, bt_num_keys_mk, bt_keys_mk, bt_children_mk, bt_leaf_mk, ca, e1,
      List.drop_zero, e2, e3, bt_allKeys_mk]
    rw [bt_interleave_append_succ csa ka csb (m :: kb) a2, bt_interleaveK_cons]

/-- The two siblings after `left_shift`: the left one has gained the separating key and the
first subtree of the right one, whose first key has become the new separator. -/
theorem bt_left_shift_keys (N h lo1 lo2 : Nat) (a b : Node) (m : Int)
    (ha : WF N lo1 h a) (hb : WF N lo2 h b) (cb : 1 ≤ b.num_keys) :
    ∃ b0, (Node.mk (a.keys ++ [m]) (a.children ++ b.children.take 1) a.leaf).allKeys =
        a.allKeys ++ m :: b0 ∧
      b.allKeys =
        b0 ++ b.key 0 :: (Node.mk (b.keys.drop 1) (b.children.drop 1) b.leaf).allKeys := by
  obtain ⟨ka, csa, la⟩ := a
  obtain ⟨kb, csb, lb⟩ := b
  simp only [bt_num_keys_mk] at cb
  obtain ⟨k0, kb, rfl⟩ : ∃ k0 kb2, kb = k0 :: kb2 := by
    cases kb with
    | nil => simp at cb
    | cons k0 kb2 => exact ⟨k0, kb2, rfl⟩
  cases h with
  | zero =>
    simp only [WF, bt_children_mk, bt_leaf_mk, bt_num_keys_mk] at ha hb
    obtain ⟨-, a2, -, -⟩ := ha
    obtain ⟨-, b2, -, -⟩ := hb
    subst a2 b2
    refine ⟨[], ?_, ?_⟩
    · simp only [bt_keys_mk, bt_children_mk, List.take_nil, List.append_nil, bt_allKeys_mk,
        bt_interleave_nil]
    · simp only [bt_keys_mk, bt_children_mk, List.drop_nil, bt_allKeys_mk, bt_interleave_nil,
        Node.key, List.nil_append]
      rfl
  | succ h =>
    simp only [WF, bt_children_mk, bt_leaf_mk, bt_num_keys_mk] at ha hb
    obtain ⟨-, a2, -, -, -⟩ := ha
    obtain ⟨-, b2, -, -, -⟩ := hb
    obtain ⟨c0, csb, rfl⟩ : ∃ c0 csb2, csb = c0 :: csb2 := by
      cases csb with
      | nil => simp at b2
      | cons c0 csb2 => exact ⟨c0, csb2, rfl⟩
    refine ⟨c0.allKeys, ?_, ?_⟩
    · simp only [bt_keys_mk, bt_children_mk, bt_allKeys_mk]
      have : (c0 :: csb).take 1 = [c0] := rfl
      rw [this, bt_interleave_append_succ csa ka [c0] [m] a2, bt_interleaveK_cons,
        bt_interleave_cons, bt_interleaveK_nil, List.append_nil]
    · simp only [bt_keys_mk, bt_children_mk, bt_allKeys_mk, bt_interleave_cons,
        bt_interleaveK_cons, Node.key]
      rfl

/-- The two siblings after `right_shift`: the right one has gained the separating key and
the last subtree of the left one, whose last key has become the new separator. -/
theorem bt_right_shift_keys (N h lo1 lo2 : Nat) (a b : Node) (m : Int)
    (ha : WF N lo1 h a) (hb : WF N lo2 h b) (ca : 1 ≤ a.num_keys) :
    ∃ a0, (Node.mk (m :: b.keys) ((a.children.drop a.num_keys).take 1 ++ b.children)
          b.leaf).allKeys = a0 ++ m :: b.allKeys ∧
      a.allKeys =
        (Node.mk (a.keys.take (a.num_keys - 1)) (a.children.take a.num_keys) a.leaf).allKeys ++
          a.key (a.num_keys - 1) :: a0 := by
  obtain ⟨ka, csa, la⟩ := a
  obtain ⟨kb, csb, lb⟩ := b
  simp only [bt_num_keys_mk] at ca
  have hk : ka = ka.take (ka.length - 1) ++ [ka.getD (ka.length - 1) 0] := by
    have := (bt_split_at ka (ka.length - 1) 0 (by omega)).1
    rw [Nat.sub_add_cancel ca, List.drop_length] at this
    exact this
  cases h with
  | zero =>
    simp only [WF, bt_children_mk, bt_leaf_mk, bt_num_keys_mk] at ha hb
    obtain ⟨-, a2, -, -⟩ := ha
    obtain ⟨-, b2, -, -⟩ := hb
    subst a2 b2
    refine ⟨[], ?_, ?_⟩
    · simp only [bt_keys_mk, bt_children_mk, List.take_nil, List.drop_nil, List.append_nil,
        bt_allKeys_mk, bt_interleave_nil, List.nil_append]
    · simp only [bt_keys_mk, bt_children_mk, List.take_nil, bt_allKeys_mk, bt_interleave_nil,
        Node.key, bt_num_keys_mk]
      exact hk
  | succ h =>
    simp only [WF, bt_children_mk, bt_leaf_mk, bt_num_keys_mk] at ha hb
    obtain ⟨-, a2, -, -, -⟩ := ha
    obtain ⟨-, b2, -, -, -⟩ := hb
    have hc : csa = csa.take ka.length ++ [csa.getD ka.length (Node.mk [] [] true)] := by
      have := (bt_split_at csa ka.length (Node.mk [] [] true) (by omega)).1
      rw [← a2, List.drop_length] at this
      exact this
    have hd : (csa.drop ka.length).take 1 = [csa.getD ka.length (Node.mk [] [] true)] := by
      rw [List.drop_eq_getElem_cons (by omega), List.getD_eq_getElem _ _ (by omega)]
      rfl
    refine ⟨(csa.getD ka.length (Node.mk [] [] true)).allKeys, ?_, ?_⟩
    · simp only [bt_keys_mk, bt_children_mk, bt_allKeys_mk, bt_num_keys_mk, hd,
        List.singleton_append, bt_interleave_cons, bt_interleaveK_cons]
    · simp only [bt_keys_mk, bt_children_mk, bt_allKeys_mk, bt_num_keys_mk, Node.key]
      have e := bt_interleave_append_succ (csa.take ka.length) (ka.take (ka.length - 1))
        [csa.getD ka.length (Node.mk [] [] true)] [ka.getD (ka.length - 1) 0]
        (by rw [List.length_take, List.length_take]; omega)
      rw [← hc, ← hk, bt_interleaveK_cons, bt_interleave_cons, bt_interleaveK_nil,
        List.append_nil] at e
      exact e

/-- The predecessor swap of case 2a: the subtree ends with its largest key, which is
returned, and `val` takes its place. -/
theorem bt_swap_pred_keys (N : Nat) (hN : 1 < N) (val : Int) :
    ∀ (h fuel lo : Nat) (c : Node), h < fuel → 1 ≤ lo → WF N lo h c →
      ∃ l0, c.allKeys = l0 ++ [(swap_pred fuel c val).1] ∧
        (swap_pred fuel c val).2.allKeys = l0 ++ [val] := by
  intro h
  induction h with
  | zero =>
    intro fuel lo c hf hlo hw
    obtain ⟨k, rfl⟩ : ∃ k, fuel = k + 1 := ⟨fuel - 1, by omega⟩
    obtain ⟨ks, cs, b⟩ := c
    simp only [WF, bt_children_mk, bt_leaf_mk, bt_num_keys_mk] at hw
    obtain ⟨-, h2, h3, -⟩ := hw
    subst h2
    have hk := (bt_split_at ks (ks.length - 1) 0 (by omega)).1
    rw [Nat.sub_add_cancel (by omega), List.drop_length] at hk
    refine ⟨ks.take (ks.length - 1), ?_, ?_⟩
    · simp only [swap_pred, bt_children_mk, List.getElem?_nil, bt_allKeys_mk,
        bt_interleave_nil, Node.key, bt_keys_mk, bt_num_keys_mk]
      exact hk
    · simp only [swap_pred, bt_children_mk, List.getElem?_nil, bt_allKeys_mk,
        bt_interleave_nil, bt_keys_mk, bt_num_keys_mk]
      nth_rewrite 1 [hk]
      exact bt_set_at _ _ _ _ _ (by rw [List.length_take]; omega)
  | succ h ih =>
    intro fuel lo c hf hlo hw
    obtain ⟨k, rfl⟩ : ∃ k, fuel = k + 1 := ⟨fuel - 1, by omega⟩
    obtain ⟨ks, cs, b⟩ := c
    have hw2 := hw
    simp only [WF, bt_children_mk, bt_leaf_mk, bt_num_keys_mk] at hw2
    obtain ⟨-, h2, -, -, h5⟩ := hw2
    obtain ⟨pre, last, post, rfl, hl⟩ := bt_children_split cs ks.length (by omega)
    have hpost : post = [] := by
      apply List.length_eq_zero.1
      simp only [List.length_append, List.length_cons] at h2
      omega
    subst hpost
    obtain ⟨l0, i1, i2⟩ := ih k (N - 1) last (by omega) (by omega)
      (h5 last (by simp))
    have hget : (pre ++ [last])[ks.length]? = some last := by
      rw [← hl, List.getElem?_append_right (le_refl _), Nat.sub_self]
      rfl
    refine ⟨interleave pre ks ++ l0, ?_, ?_⟩
    · simp only [swap_pred, bt_children_mk, bt_num_keys_mk, hget, bt_allKeys_mk]
      have := bt_interleave_append pre ks [last] [] hl
      rw [List.append_nil] at this
      rw [this, bt_interleave_cons, bt_interleaveK_nil, List.append_nil, i1,
        List.append_assoc]
    · simp only [swap_pred, bt_children_mk, bt_num_keys_mk, hget, Node.setChild, bt_keys_mk,
        bt_leaf_mk, bt_set_at _ _ _ _ _ hl, bt_allKeys_mk]
      have := bt_interleave_append pre ks [(swap_pred k last val).2] [] hl
      rw [List.append_nil] at this
      rw [this, bt_interleave_cons, bt_interleaveK_nil, List.append_nil, i2,
        List.append_assoc]

/-- The successor swap of case 2b: the subtree starts with its smallest key, which is
returned, and `val` takes its place. -/
theorem bt_swap_succ_keys (N : Nat) (hN : 1 < N) (val : Int) :
    ∀ (h fuel lo : Nat) (c : Node), h < fuel → 1 ≤ lo → WF N lo h c →
      ∃ l0, c.allKeys = (swap_succ fuel c val).1 :: l0 ∧
        (swap_succ fuel c val).2.allKeys = val :: l0 := by
  intro h
  induction h with
  | zero =>
    intro fuel lo c hf hlo hw
    obtain ⟨k, rfl⟩ : ∃ k, fuel = k + 1 := ⟨fuel - 1, by omega⟩
    obtain ⟨ks, cs, b⟩ := c
    simp only [WF, bt_children_mk, bt_leaf_mk, bt_num_keys_mk] at hw
    obtain ⟨-, h2, h3, -⟩ := hw
    subst h2
    obtain ⟨k0, ks, rfl⟩ : ∃ k0 ks2, ks = k0 :: ks2 := by
      cases ks with
      | nil => simp at h3; omega
      | cons k0 ks2 => exact ⟨k0, ks2, rfl⟩
    refine ⟨ks, ?_, ?_⟩
    · simp only [swap_succ, bt_children_mk, List.getElem?_nil, bt_allKeys_mk,
        bt_interleave_nil, Node.key, bt_keys_mk]
      rfl
    · simp only [swap_succ, bt_children_mk, List.getElem?_nil, bt_allKeys_mk,
        bt_interleave_nil, bt_keys_mk, List.set_cons_zero]
  | succ h ih =>
    intro fuel lo c hf hlo hw
    obtain ⟨k, rfl⟩ : ∃ k, fuel = k + 1 := ⟨fuel - 1, by omega⟩
    obtain ⟨ks, cs, b⟩ := c
    have hw2 := hw
    simp only [WF, bt_children_mk, bt_leaf_mk, bt_num_keys_mk] at hw2
    obtain ⟨-, h2, -, -, h5⟩ := hw2
    obtain ⟨c0, cs, rfl⟩ : ∃ c0 cs2, cs = c0 :: cs2 := by
      cases cs with
      | nil => simp at h2
      | cons c0 cs2 => exact ⟨c0, cs2, rfl⟩
    obtain ⟨l0, i1, i2⟩ := ih k (N - 1) c0 (by omega) (by omega) (h5 c0 (by simp))
    refine ⟨l0 ++ interleaveK ks cs, ?_, ?_⟩
    · simp only [swap_succ, bt_children_mk, List.getElem?_cons_zero, bt_allKeys_mk,
        bt_interleave_cons, i1, List.cons_append]
    · simp only [swap_succ, bt_children_mk, List.getElem?_cons_zero, Node.setChild,
        bt_keys_mk, bt_leaf_mk, List.set_cons_zero, bt_allKeys_mk, bt_interleave_cons, i2,
        List.cons_append]

end BTree
/-! ## BTree: the restructuring steps of `remove` seen from the parent node -/

namespace BTree

theorem bt_keys_split (ks : List Int) (i : Nat) (h : i < ks.length) :
    ∃ kpre m kpost, ks = kpre ++ m :: kpost ∧ kpre.length = i :=
  ⟨_, _, _, (bt_split_at ks i 0 h).1, (bt_split_at ks i 0 h).2⟩

theorem bt_snoc_split {α : Type} (l : List α) (i : Nat) (h : l.length = i + 1) :
    ∃ l0 x, l = l0 ++ [x] ∧ l0.length = i := by
  have hne : l ≠ [] := by
    intro e; rw [e] at h; simp at h
  refine ⟨l.dropLast, l.getLast hne, (List.dropLast_append_getLast hne).symm, ?_⟩
  rw [List.length_dropLast, h]
  rfl

/-- Removing `val` from an ascending sequence that holds it at a known place. -/
theorem bt_filter_ne_at (val : Int) (l1 l2 : List Int) (ha : Ascending (l1 ++ val :: l2)) :
    (l1 ++ val :: l2).filter (fun x => decide (x ≠ val)) = l1 ++ l2 := by
  rw [ascending_append, ascending_cons] at ha
  obtain ⟨-, ⟨a2, -⟩, a3⟩ := ha
  have f1 : l1.filter (fun x => decide (x ≠ val)) = l1 :=
    List.filter_eq_self.2 (fun x hx => decide_eq_true
      (ne_of_lt (a3 x hx val (List.mem_cons_self _ _))))
  have f2 : l2.filter (fun x => decide (x ≠ val)) = l2 :=
    List.filter_eq_self.2 (fun x hx => decide_eq_true (ne_of_gt (a2 x hx)))
  simp only [List.filter_append, List.filter_cons, f1, f2, ne_eq, not_true_eq_false,
    decide_False, Bool.false_eq_true, if_false]

/-- Removing `val` from a sequence that does not hold it. -/
theorem bt_filter_ne_absent (val : Int) (l : List Int) (h : val ∉ l) :
    l.filter (fun x => decide (x ≠ val)) = l :=
  List.filter_eq_self.2 (fun x hx => decide_eq_true (fun e => h (e ▸ hx)))

/-- The filtered sequence is ascending and holds the other keys. -/
theorem bt_filter_ne_ascending (val : Int) (l : List Int) (ha : Ascending l) :
    Ascending (l.filter (fun x => decide (x ≠ val))) ∧
      ∀ j, j ∈ l.filter (fun x => decide (x ≠ val)) ↔ j ∈ l ∧ j ≠ val := by
  refine ⟨List.Pairwise.sublist (List.filter_sublist _) ha, ?_⟩
  intro j
  simp only [List.mem_filter, decide_eq_true_eq]

/-- `left_shift` seen from the parent: the in-order sequence stays, and the left sibling,
into which the descent continues, keeps its keys and is no longer minimal. -/
theorem bt_left_shift_node (N lo h : Nat) (hN : 1 < N) (ks : List Int) (pre post : List Node)
    (a b : Node) (i : Nat) (hl : pre.length = i)
    (hw : WF N lo (h + 1) (Node.mk ks (pre ++ a :: b :: post) false))
    (ca : a.num_keys < N) (cb : N ≤ b.num_keys) :
    ∃ ks2 a2 b2, left_shift (Node.mk ks (pre ++ a :: b :: post) false) i =
        Node.mk ks2 (pre ++ a2 :: b2 :: post) false ∧ ks2.length = ks.length ∧
      (Node.mk ks2 (pre ++ a2 :: b2 :: post) false).allKeys =
        (Node.mk ks (pre ++ a :: b :: post) false).allKeys ∧
      WF N 1 h a2 ∧ (∀ x ∈ a.allKeys, x ∈ a2.allKeys) := by
  obtain ⟨-, w2, -, -, -, w6, w7, -⟩ := (bt_wf_mk_iff2 _ _ _ _ _ _ _ _ _).1 hw
  obtain ⟨kpre, m, kpost, rfl, hkl⟩ := bt_keys_split ks i (by omega)
  have hpk : pre.length = kpre.length := hl.trans hkl.symm
  obtain ⟨l1, -⟩ := bt_left_shift_children_wf N h hN a b m w6 w7 ca cb
  obtain ⟨b0, k1, k2⟩ := bt_left_shift_keys N h _ _ a b m w6 w7 (by omega)
  have alo := bt_wf_lo _ _ _ _ w6
  refine ⟨_, _, _, bt_left_shift_eq _ pre post a b false i hl, by simp, ?_, ?_, ?_⟩
  · rw [bt_getD_at _ _ _ _ _ hkl, bt_set_at _ _ _ _ _ hkl, bt_allKeys_cut2 _ _ _ _ _ _ _ _ hpk,
      bt_allKeys_cut2 _ _ _ _ _ _ _ _ hpk, k1]
    rw [k2]
    simp only [List.append_assoc, List.cons_append]
  · rw [bt_getD_at _ _ _ _ _ hkl]
    exact bt_wf_mono N (N - 1) 1 h _ l1 (le_trans (by omega) (bt_wf_lo _ _ _ _ l1))
  · intro x hx
    rw [bt_getD_at _ _ _ _ _ hkl, k1]
    exact List.mem_append_left _ hx

/-- `right_shift` seen from the parent: the in-order sequence stays, and the right sibling,
into which the descent continues, keeps its keys and is no longer minimal. -/
theorem bt_right_shift_node (N lo h : Nat) (hN : 1 < N) (ks : List Int) (pre post : List Node)
    (a b : Node) (i : Nat) (hl : pre.length = i)
    (hw : WF N lo (h + 1) (Node.mk ks (pre ++ a :: b :: post) false))
    (ca : N ≤ a.num_keys) (cb : b.num_keys < N) :
    ∃ ks2 a2 b2, right_shift (Node.mk ks (pre ++ a :: b :: post) false) (i + 1) =
        Node.mk ks2 (pre ++ a2 :: b2 :: post) false ∧ ks2.length = ks.length ∧
      (Node.mk ks2 (pre ++ a2 :: b2 :: post) false).allKeys =
        (Node.mk ks (pre ++ a :: b :: post) false).allKeys ∧
      WF N 1 h b2 ∧ (∀ x ∈ b.allKeys, x ∈ b2.allKeys) := by
  obtain ⟨-, w2, -, -, -, w6, w7, -⟩ := (bt_wf_mk_iff2 _ _ _ _ _ _ _ _ _).1 hw
  obtain ⟨kpre, m, kpost, rfl, hkl⟩ := bt_keys_split ks i (by omega)
  have hpk : pre.length = kpre.length := hl.trans hkl.symm
  obtain ⟨-, l2⟩ := bt_right_shift_children_wf N h hN a b m w6 w7 ca cb
  obtain ⟨a0, k1, k2⟩ := bt_right_shift_keys N h _ _ a b m w6 w7 (by omega)
  have blo := bt_wf_lo _ _ _ _ w7
  refine ⟨_, _, _, bt_right_shift_eq _ pre post a b false i hl, by simp, ?_, ?_, ?_⟩
  · rw [bt_getD_at _ _ _ _ _ hkl, bt_set_at _ _ _ _ _ hkl, bt_allKeys_cut2 _ _ _ _ _ _ _ _ hpk,
      bt_allKeys_cut2 _ _ _ _ _ _ _ _ hpk, k1]
    rw [k2]
    simp only [List.append_assoc, List.cons_append]
  · rw [bt_getD_at _ _ _ _ _ hkl]
    exact bt_wf_mono N (N - 1) 1 h _ l2 (le_trans (by omega) (bt_wf_lo _ _ _ _ l2))
  · intro x hx
    rw [bt_getD_at _ _ _ _ _ hkl, k1]
    exact List.mem_append_right _ (List.mem_cons_of_mem _ hx)

/-- `merge_right` seen from the parent: the in-order sequence stays, and the merged child
holds the keys of both siblings and the key between them. -/
theorem bt_merge_right_node (N lo h : Nat) (hN : 1 < N) (ks : List Int) (pre post : List Node)
    (a b : Node) (i : Nat) (hl : pre.length = i)
    (hw : WF N lo (h + 1) (Node.mk ks (pre ++ a :: b :: post) false))
    (ca : a.num_keys < N) (cb : b.num_keys < N) :
    ∃ ks2 mg, merge_right N (Node.mk ks (pre ++ a :: b :: post) false) i =
        Node.mk ks2 (pre ++ mg :: post) false ∧ ks2.length + 1 = ks.length ∧
      (Node.mk ks2 (pre ++ mg :: post) false).allKeys =
        (Node.mk ks (pre ++ a :: b :: post) false).allKeys ∧
      WF N 1 h mg ∧ mg.allKeys = a.allKeys ++ ks.getD i 0 :: b.allKeys := by
  obtain ⟨-, w2, -, -, -, w6, w7, -⟩ := (bt_wf_mk_iff2 _ _ _ _ _ _ _ _ _).1 hw
  obtain ⟨kpre, m, kpost, rfl, hkl⟩ := bt_keys_split ks i (by omega)
  have hpk : pre.length = kpre.length := hl.trans hkl.symm
  have alo := bt_wf_lo _ _ _ _ w6
  have blo := bt_wf_lo _ _ _ _ w7
  obtain ⟨m1, -⟩ := bt_merge_wf N h hN a b m w6 w7 (by omega) (by omega)
  have km := bt_merge_keys N h hN a b m w6 w7 (by omega) (by omega)
  refine ⟨_, _, bt_merge_right_eq N _ pre post a b false i hl, ?_, ?_, ?_, ?_⟩
  · rw [bt_eraseIdx_at _ _ _ _ hkl]
    simp only [List.length_append, List.length_cons]
    omega
  · rw [bt_getD_at _ _ _ _ _ hkl, bt_eraseIdx_at _ _ _ _ hkl, bt_allKeys_cut1 _ _ _ _ _ _ hpk,
      bt_allKeys_cut2 _ _ _ _ _ _ _ _ hpk, km]
    simp only [List.append_assoc, List.cons_append]
  · rw [bt_getD_at _ _ _ _ _ hkl]
    exact bt_wf_mono N (N - 1) 1 h _ m1 (le_trans (by omega) (bt_wf_lo _ _ _ _ m1))
  · rw [bt_getD_at _ _ _ _ _ hkl]
    exact km

/-- The rightmost merge seen from the parent. -/
theorem bt_merge_last_node (N lo h : Nat) (hN : 1 < N) (ks : List Int) (pre : List Node)
    (a b : Node) (i : Nat) (hl : pre.length = i)
    (hw : WF N lo (h + 1) (Node.mk ks (pre ++ [a, b]) false))
    (ca : a.num_keys < N) (cb : b.num_keys < N) :
    ∃ ks2 mg, merge_last N (Node.mk ks (pre ++ [a, b]) false) (i + 1) =
        Node.mk ks2 (pre ++ [mg]) false ∧ ks2.length + 1 = ks.length ∧
      (Node.mk ks2 (pre ++ [mg]) false).allKeys = (Node.mk ks (pre ++ [a, b]) false).allKeys ∧
      WF N 1 h mg ∧ mg.allKeys = a.allKeys ++ ks.getD i 0 :: b.allKeys := by
  obtain ⟨-, w2, -, -, -, w6, w7, -⟩ := (bt_wf_mk_iff2 _ _ _ _ _ _ _ _ _).1 hw
  obtain ⟨kpre, m, kpost, rfl, hkl⟩ := bt_keys_split ks i (by
    simp only [List.length_nil] at w2; omega)
  have hkp : kpost = [] := by
    apply List.length_eq_zero.1
    simp only [List.length_append, List.length_cons, List.length_nil] at w2
    omega
  subst hkp
  have hpk : pre.length = kpre.length := hl.trans hkl.symm
  have alo := bt_wf_lo _ _ _ _ w6
  have blo := bt_wf_lo _ _ _ _ w7
  obtain ⟨m1, -⟩ := bt_merge_wf N h hN a b m w6 w7 (by omega) (by omega)
  have km := bt_merge_keys N h hN a b m w6 w7 (by omega) (by omega)
  have ht : (kpre ++ [m]).take ((kpre ++ [m]).length - 1) = kpre := by
    simp
  refine ⟨_, _, bt_merge_last_eq N _ pre a b false i hl, ?_, ?_, ?_, ?_⟩
  · rw [ht]; simp
  · have e := bt_allKeys_cut1 kpre [] pre [] (merge N a b m) false hpk
    have e2 := bt_allKeys_cut2 kpre [] m pre [] a b false hpk
    rw [List.append_nil] at e
    rw [bt_getD_at _ _ _ _ _ hkl, ht, e, e2, km]
    simp only [List.append_assoc, List.cons_append]
  · rw [bt_getD_at _ _ _ _ _ hkl]
    exact bt_wf_mono N (N - 1) 1 h _ m1 (le_trans (by omega) (bt_wf_lo _ _ _ _ m1))
  · rw [bt_getD_at _ _ _ _ _ hkl]
    exact km

end BTree
/-! ## BTree: the key sequence under `remove` -/

namespace BTree

/-- Descending into `children[j]` and storing the result back, given the statement for the
level below: when `val` can only be in that child, the node loses exactly `val`. -/
theorem bt_remove_descend (N : Nat) (val : Int) (h k : Nat)
    (ih : ∀ node : Node, WF N 1 h node → Ascending node.allKeys →
      (remove_loop N k node val).1 = decide (val ∈ node.allKeys) ∧
        (remove_loop N k node val).2.allKeys =
          node.allKeys.filter (fun x => decide (x ≠ val)))
    (ks : List Int) (pre post : List Node) (c : Node) (j : Nat) (hj : pre.length = j)
    (hjk : j ≤ ks.length) (orig : List Int) (ha : Ascending orig)
    (heq : (Node.mk ks (pre ++ c :: post) false).allKeys = orig)
    (hc : WF N 1 h c) (hm : val ∈ orig → val ∈ c.allKeys) :
    (remove_loop N k c val).1 = decide (val ∈ orig) ∧
      ((Node.mk ks (pre ++ c :: post) false).setChild j (remove_loop N k c val).2).allKeys =
        orig.filter (fun x => decide (x ≠ val)) := by
  have hpk : pre.length = (ks.take j).length := by
    rw [List.length_take]; omega
  have e : ∀ x : Node, (Node.mk ks (pre ++ x :: post) false).allKeys =
      interleave pre (ks.take j) ++ (x.allKeys ++ interleaveK (ks.drop j) post) := by
    intro x
    have := bt_allKeys_cut1 (ks.take j) (ks.drop j) pre post x false hpk
    rwa [List.take_append_drop] at this
  rw [e] at heq
  subst heq
  obtain ⟨aP, aCQ, aPCQ⟩ := ascending_append.1 ha
  obtain ⟨aC, aQ, aCQ2⟩ := ascending_append.1 aCQ
  obtain ⟨r1, r2⟩ := ih c hc aC
  have hP : val ∉ interleave pre (ks.take j) := by
    intro hx
    have := aPCQ val hx val (List.mem_append_left _ (hm (List.mem_append_left _ hx)))
    omega
  have hQ : val ∉ interleaveK (ks.drop j) post := by
    intro hx
    have := aCQ2 val (hm (List.mem_append_right _ (List.mem_append_right _ hx))) val hx
    omega
  constructor
  · rw [r1]
    apply Bool.decide_congr
    constructor
    · intro hx; exact List.mem_append_right _ (List.mem_append_left _ hx)
    · exact hm
  · simp only [Node.setChild, bt_keys_mk, bt_children_mk, bt_leaf_mk, bt_set_at _ _ _ _ _ hj]
    rw [e, r2, List.filter_append, List.filter_append, bt_filter_ne_absent val _ hP,
      bt_filter_ne_absent val _ hQ]

/-- The same for a child that follows a known left sibling. -/
theorem bt_remove_descend1 (N : Nat) (val : Int) (h k : Nat)
    (ih : ∀ node : Node, WF N 1 h node → Ascending node.allKeys →
      (remove_loop N k node val).1 = decide (val ∈ node.allKeys) ∧
        (remove_loop N k node val).2.allKeys =
          node.allKeys.filter (fun x => decide (x ≠ val)))
    (ks : List Int) (pre post : List Node) (a c : Node) (j : Nat) (hj : pre.length = j)
    (hjk : j + 1 ≤ ks.length) (orig : List Int) (ha : Ascending orig)
    (heq : (Node.mk ks (pre ++ a :: c :: post) false).allKeys = orig)
    (hc : WF N 1 h c) (hm : val ∈ orig → val ∈ c.allKeys) :
    (remove_loop N k c val).1 = decide (val ∈ orig) ∧
      ((Node.mk ks (pre ++ a :: c :: post) false).setChild (j + 1)
        (remove_loop N k c val).2).allKeys = orig.filter (fun x => decide (x ≠ val)) := by
  have e : pre ++ a :: c :: post = (pre ++ [a]) ++ c :: post := by simp
  rw [e] at heq ⊢
  exact bt_remove_descend N val h k ih ks (pre ++ [a]) post c (j + 1) (by simp [hj]) hjk orig
    ha heq hc hm

/-- The descent of `remove` on a well-formed subtree with ascending keys: it returns whether
`val` was present, and the key sequence loses exactly `val`. -/
theorem bt_remove_loop_keys (N : Nat) (hN : 1 < N) (val : Int) :
    ∀ (h fuel : Nat) (node : Node), h < fuel → WF N 1 h node → Ascending node.allKeys →
      (remove_loop N fuel node val).1 = decide (val ∈ node.allKeys) ∧
        (remove_loop N fuel node val).2.allKeys =
          node.allKeys.filter (fun x => decide (x ≠ val)) := by
  intro h
  induction h with
  | zero =>
    intro fuel node hf hw ha
    obtain ⟨k, rfl⟩ : ∃ k, fuel = k + 1 := ⟨fuel - 1, by omega⟩
    obtain ⟨ks, cs, lf⟩ := node
    have hr := bt_bin_search_range (Node.mk ks cs lf) val
    simp only [WF, bt_children_mk, bt_leaf_mk, bt_num_keys_mk] at hw hr
    obtain ⟨h1, h2, -, -⟩ := hw
    subst h1 h2
    rw [bt_allKeys_mk, bt_interleave_nil] at ha ⊢
    have hsp := bt_bin_search_spec (Node.mk ks [] true) val ha
    simp only [remove_loop, bt_leaf_mk, if_true, bt_keys_mk, bt_children_mk]
    generalize bin_search (Node.mk ks [] true) val = idx at hsp hr ⊢
    simp only [bt_keys_mk] at hsp
    rcases hsp with ⟨s1, s2, s3⟩ | ⟨s0, s1, s2⟩
    · rw [if_pos ⟨s1, s2⟩]
      obtain ⟨kpre, m, kpost, rfl, hkl⟩ := bt_keys_split ks idx.toNat (by omega)
      simp only [Node.key, bt_keys_mk, bt_getD_at _ _ _ _ _ hkl] at s2
      subst s2
      simp only [bt_allKeys_mk, bt_interleave_nil, bt_eraseIdx_at _ _ _ _ hkl]
      exact ⟨by simp, (bt_filter_ne_at m kpre kpost ha).symm⟩
    · rw [if_neg s0]
      have hnm : val ∉ ks := by
        intro hm
        rw [← List.take_append_drop (idx + 1).toNat ks] at hm
        rcases List.mem_append.1 hm with hm | hm
        · exact lt_irrefl _ (s1 val hm)
        · exact lt_irrefl _ (s2 val hm)
      simp only [bt_allKeys_mk, bt_interleave_nil]
      exact ⟨by simp [hnm], (bt_filter_ne_absent val ks hnm).symm⟩
  | succ h ih =>
    intro fuel node hf hw ha
    obtain ⟨k, rfl⟩ : ∃ k, fuel = k + 1 := ⟨fuel - 1, by omega⟩
    have ih2 : ∀ node : Node, WF N 1 h node → Ascending node.allKeys →
        (remove_loop N k node val).1 = decide (val ∈ node.allKeys) ∧
          (remove_loop N k node val).2.allKeys =
            node.allKeys.filter (fun x => decide (x ≠ val)) :=
      fun node => ih k node (by omega)
    obtain ⟨ks, cs, lf⟩ := node
    have hlf : lf = false := by
      simp only [WF, bt_leaf_mk] at hw
      exact hw.1
    subst hlf
    have ha2 : Ascending (interleave cs ks) := by
      rw [← bt_allKeys_mk ks cs false]; exact ha
    simp only [remove_loop, bt_leaf_mk, Bool.false_eq_true, if_false]
    generalize hidx : bin_search (Node.mk ks cs false) val = idx
    by_cases c1 : 0 ≤ idx ∧ (Node.mk ks cs false).key idx.toNat = val
    · rw [if_pos c1]
      obtain ⟨kpre, kpost, pre, a, b, post, rfl, rfl, f1, f2, f3⟩ :=
        bt_cut_found N 1 h ks cs val idx hw hidx c1
      clear hidx c1 ha2
      generalize idx.toNat = i at f1 f2 ⊢
      have hpk := f1.trans f2.symm
      obtain ⟨-, w2, -, -, -, wa, wb, -⟩ := (bt_wf_mk_iff2 _ _ _ _ _ _ _ _ _).1 hw
      have alo := bt_wf_lo _ _ _ _ wa
      have blo := bt_wf_lo _ _ _ _ wb
      have hcut := bt_allKeys_cut2 kpre kpost val pre post a b false hpk
      have ha3 := ha
      rw [hcut] at ha3
      obtain ⟨aP, aR, aPR⟩ := ascending_append.1 ha3
      obtain ⟨aA, aVR, aAV⟩ := ascending_append.1 aR
      obtain ⟨aV, aBQ⟩ := ascending_cons.1 aVR
      simp only [bt_child_at _ _ _ _ _ _ f1, bt_child_at1 _ _ _ _ _ _ _ f1, bt_keys_mk,
        bt_children_mk, bt_leaf_mk, bt_set_at _ _ _ _ _ f2, bt_set_at _ _ _ _ _ f1,
        bt_set_at1 _ _ _ _ _ _ f1]
      split_ifs with c2 c3
      · -- 2a: swap with the predecessor
        obtain ⟨l0, p1, p2⟩ := bt_swap_pred_keys N hN val h k (N - 1) a (by omega) (by omega) wa
        obtain ⟨s1, s2⟩ := bt_swap_pred_wf N val h k (N - 1) a wa
        generalize swap_pred k a val = s at p1 p2 s1 s2 ⊢
        rw [p1] at aA aAV ha3 hcut
        have asc2 : Ascending (l0 ++ [val]) :=
          ascending_append.2 ⟨(ascending_append.1 aA).1, by simp [Ascending], fun x hx y hy => by
            rw [List.mem_singleton.1 hy]
            exact aAV x (List.mem_append_left _ hx) val (List.mem_cons_self _ _)⟩
        obtain ⟨r1, r2⟩ := ih2 s.2
          (bt_wf_mono N (N - 1) 1 h _ s1 (le_trans (by omega) (bt_wf_lo _ _ _ _ s1)))
          (by rw [p2]; exact asc2)
        rw [p2] at r1 r2
        rw [bt_filter_ne_at val l0 [] asc2, List.append_nil] at r2
        constructor
        · rw [r1, hcut]; simp
        · have hre : interleave pre kpre ++ ((l0 ++ [s.1]) ++ val :: (b.allKeys ++
              interleaveK kpost post)) = (interleave pre kpre ++ (l0 ++ [s.1])) ++ val ::
                (b.allKeys ++ interleaveK kpost post) := by
            simp only [List.append_assoc]
          rw [bt_allKeys_cut2 _ _ _ _ _ _ _ _ hpk, r2, hcut, hre,
            bt_filter_ne_at val _ _ (hre ▸ ha3)]
          simp only [List.append_assoc, List.cons_append, List.singleton_append,
            List.nil_append]
      · -- 2b: swap with the successor
        obtain ⟨l0, p1, p2⟩ := bt_swap_succ_keys N hN val h k (N - 1) b (by omega) (by omega) wb
        obtain ⟨s1, s2⟩ := bt_swap_succ_wf N val h k (N - 1) b wb
        generalize swap_succ k b val = s at p1 p2 s1 s2 ⊢
        rw [p1] at aV aBQ ha3 hcut
        have asc2 : Ascending (val :: l0) :=
          ascending_cons.2 ⟨fun x hx =>
            aV x (List.mem_append_left _ (List.mem_cons_of_mem _ hx)),
            (ascending_cons.1 (ascending_append.1 aBQ).1).2⟩
        obtain ⟨r1, r2⟩ := ih2 s.2
          (bt_wf_mono N (N - 1) 1 h _ s1 (le_trans (by omega) (bt_wf_lo _ _ _ _ s1)))
          (by rw [p2]; exact asc2)
        rw [p2] at r1 r2
        have hf0 := bt_filter_ne_at val [] l0 asc2
        simp only [List.nil_append] at hf0
        rw [hf0] at r2
        constructor
        · rw [r1, hcut]; simp
        · have hre : interleave pre kpre ++ (a.allKeys ++ val :: ((s.1 :: l0) ++
              interleaveK kpost post)) = (interleave pre kpre ++ a.allKeys) ++ val ::
                ((s.1 :: l0) ++ interleaveK kpost post) := by
            simp only [List.append_assoc]
          rw [bt_allKeys_cut2 _ _ _ _ _ _ _ _ hpk, r2, hcut, hre,
            bt_filter_ne_at val _ _ (hre ▸ ha3)]
          simp only [List.append_assoc, List.cons_append, List.singleton_append,
            List.nil_append]
      · -- 2c: merge around the key
        obtain ⟨ks2, mg, hshape, hlen, heq, wmg, kmg⟩ := bt_merge_right_node N 1 h hN _ pre post
          a b i f1 hw (by omega) (by omega)
        rw [hshape, bt_child_at _ _ _ _ _ _ f1]
        rw [bt_getD_at _ _ _ _ _ f2] at kmg
        exact bt_remove_descend N val h k ih2 ks2 pre post mg i f1
          (by simp only [List.length_append, List.length_cons] at hlen; omega) _ ha heq wmg
          (fun _ => by rw [kmg]; simp)
    · rw [if_neg c1]
      obtain ⟨kpre, kpost, pre, c, post, rfl, rfl, e1, e2, e3, hL, hR⟩ :=
        bt_cut N 1 h ks cs val idx hw ha2 hidx c1
      clear hidx c1 ha2
      generalize (idx + 1).toNat = i at e1 e2 ⊢
      have hpk := e1.trans e2.symm
      obtain ⟨-, w2, w3, -, -, wc, -⟩ := (bt_wf_mk_iff1 _ _ _ _ _ _ _ _).1 hw
      simp only [List.length_append] at w2 w3
      have hcut := bt_allKeys_cut1 kpre kpost pre post c false hpk
      have hmc : val ∈ (Node.mk (kpre ++ kpost) (pre ++ c :: post) false).allKeys →
          val ∈ c.allKeys := by
        rw [hcut]
        intro hm
        rcases List.mem_append.1 hm with hm | hm
        · exact absurd (hL val hm) (lt_irrefl _)
        · rcases List.mem_append.1 hm with hm | hm
          · exact hm
          · exact absurd (hR val hm) (lt_irrefl _)
      have clo := bt_wf_lo _ _ _ _ wc
      clear hcut hL hR
      simp only [bt_num_keys_mk, List.length_append]
      split_ifs with c2 c3 c4 c5 c6 c7 c8
      · -- the child can spare a key
        rw [bt_child_at _ _ _ _ _ _ e1] at c2 ⊢
        exact bt_remove_descend N val h k ih2 _ pre post c i e1
          (by simp only [List.length_append]; omega) _ ha rfl
          (bt_wf_mono N (N - 1) 1 h c wc (by omega)) hmc
      · -- leftmost child, borrow from the right sibling
        obtain ⟨b, post, rfl⟩ : ∃ b post2, post = b :: post2 := by
          cases post with
          | nil => simp only [List.length_nil] at e3; omega
          | cons b post2 => exact ⟨b, post2, rfl⟩
        rw [bt_child_at _ _ _ _ _ _ e1] at c2
        rw [bt_child_at1 _ _ _ _ _ _ _ e1] at c4
        obtain ⟨ks2, a2, b2, hshape, hlen, heq, wa2, hsub⟩ := bt_left_shift_node N 1 h hN _ pre
          post c b i e1 hw (by omega) c4
        rw [hshape, bt_child_at _ _ _ _ _ _ e1]
        exact bt_remove_descend N val h k ih2 ks2 pre (b2 :: post) a2 i e1
          (by rw [hlen]; simp only [List.length_append]; omega) _ ha heq wa2
          (fun hm => hsub _ (hmc hm))
      · -- leftmost child, merge with the right sibling
        obtain ⟨b, post, rfl⟩ : ∃ b post2, post = b :: post2 := by
          cases post with
          | nil => simp only [List.length_nil] at e3; omega
          | cons b post2 => exact ⟨b, post2, rfl⟩
        rw [bt_child_at _ _ _ _ _ _ e1] at c2
        rw [bt_child_at1 _ _ _ _ _ _ _ e1] at c4
        have blo := bt_wf_lo _ _ _ _ ((bt_wf_mk_iff2 _ _ _ _ _ _ _ _ _).1 hw).2.2.2.2.2.2.1
        obtain ⟨ks2, mg, hshape, hlen, heq, wmg, kmg⟩ := bt_merge_right_node N 1 h hN _ pre post
          c b i e1 hw (by omega) (by omega)
        rw [hshape, bt_child_at _ _ _ _ _ _ e1]
        simp only [List.length_cons] at e3
        exact bt_remove_descend N val h k ih2 ks2 pre post mg i e1
          (by simp only [List.length_append] at hlen; omega) _ ha heq wmg
          (fun hm => by rw [kmg]; exact List.mem_append_left _ (hmc hm))
      · -- rightmost child, borrow from the left sibling
        obtain ⟨i, rfl⟩ : ∃ i2, i = i2 + 1 := ⟨i - 1, by omega⟩
        obtain ⟨pre, a, rfl, hp⟩ := bt_snoc_split pre i e1
        have ecs : (pre ++ [a]) ++ c :: post = pre ++ a :: c :: post := by simp
        rw [ecs] at hw ha hmc c2 c6 ⊢
        simp only [Nat.add_sub_cancel] at c6 ⊢
        rw [bt_child_at1 _ _ _ _ _ _ _ hp] at c2
        rw [bt_child_at _ _ _ _ _ _ hp] at c6
        obtain ⟨ks2, a2, b2, hshape, hlen, heq, wb2, hsub⟩ := bt_right_shift_node N 1 h hN _ pre
          post a c i hp hw c6 (by omega)
        rw [hshape, bt_child_at1 _ _ _ _ _ _ _ hp]
        exact bt_remove_descend1 N val h k ih2 ks2 pre post a2 b2 i hp
          (by rw [hlen]; simp only [List.length_append]; omega) _ ha heq wb2
          (fun hm => hsub _ (hmc hm))
      · -- rightmost child, merge with the left sibling
        obtain ⟨i, rfl⟩ : ∃ i2, i = i2 + 1 := ⟨i - 1, by omega⟩
        obtain ⟨pre, a, rfl, hp⟩ := bt_snoc_split pre i e1
        have hpost : post = [] := List.length_eq_zero.1 (by omega)
        subst hpost
        have ecs : (pre ++ [a]) ++ [c] = pre ++ [a, c] := by simp
        rw [ecs] at hw ha hmc c2 c6 ⊢
        simp only [Nat.add_sub_cancel] at c6 ⊢
        rw [bt_child_at1 _ _ _ _ _ _ _ hp] at c2
        rw [bt_child_at _ _ _ _ _ _ hp] at c6
        have alo := bt_wf_lo _ _ _ _ ((bt_wf_mk_iff2 _ _ _ _ _ _ _ _ _).1 hw).2.2.2.2.2.1
        obtain ⟨ks2, mg, hshape, hlen, heq, wmg, kmg⟩ := bt_merge_last_node N 1 h hN _ pre a c
          i hp hw (by omega) (by omega)
        rw [hshape, bt_child_at _ _ _ _ _ _ hp]
        exact bt_remove_descend N val h k ih2 ks2 pre [] mg i hp
          (by simp only [List.length_append] at hlen; omega) _ ha heq wmg
          (fun hm => by rw [kmg]; exact List.mem_append_right _ (List.mem_cons_of_mem _ (hmc hm)))
      · -- inner child, borrow from the right sibling
        obtain ⟨b, post, rfl⟩ : ∃ b post2, post = b :: post2 := by
          cases post with
          | nil => simp only [List.length_nil] at e3; omega
          | cons b post2 => exact ⟨b, post2, rfl⟩
        rw [bt_child_at _ _ _ _ _ _ e1] at c2
        rw [bt_child_at1 _ _ _ _ _ _ _ e1] at c7
        obtain ⟨ks2, a2, b2, hshape, hlen, heq, wa2, hsub⟩ := bt_left_shift_node N 1 h hN _ pre
          post c b i e1 hw (by omega) c7
        rw [hshape, bt_child_at _ _ _ _ _ _ e1]
        exact bt_remove_descend N val h k ih2 ks2 pre (b2 :: post) a2 i e1
          (by rw [hlen]; simp only [List.length_append]; omega) _ ha heq wa2
          (fun hm => hsub _ (hmc hm))
      · -- inner child, borrow from the left sibling
        obtain ⟨i, rfl⟩ : ∃ i2, i = i2 + 1 := ⟨i - 1, by omega⟩
        obtain ⟨pre, a, rfl, hp⟩ := bt_snoc_split pre i e1
        have ecs : (pre ++ [a]) ++ c :: post = pre ++ a :: c :: post := by simp
        rw [ecs] at hw ha hmc c2 c8 ⊢
        simp only [Nat.add_sub_cancel] at c8 ⊢
        rw [bt_child_at1 _ _ _ _ _ _ _ hp] at c2
        rw [bt_child_at _ _ _ _ _ _ hp] at c8
        obtain ⟨ks2, a2, b2, hshape, hlen, heq, wb2, hsub⟩ := bt_right_shift_node N 1 h hN _ pre
          post a c i hp hw c8 (by omega)
        rw [hshape, bt_child_at1 _ _ _ _ _ _ _ hp]
        exact bt_remove_descend1 N val h k ih2 ks2 pre post a2 b2 i hp
          (by rw [hlen]; simp only [List.length_append]; omega) _ ha heq wb2
          (fun hm => hsub _ (hmc hm))
      · -- inner child, merge with the right sibling
        obtain ⟨b, post, rfl⟩ : ∃ b post2, post = b :: post2 := by
          cases post with
          | nil => simp only [List.length_nil] at e3; omega
          | cons b post2 => exact ⟨b, post2, rfl⟩
        rw [bt_child_at _ _ _ _ _ _ e1] at c2
        rw [bt_child_at1 _ _ _ _ _ _ _ e1] at c7
        have blo := bt_wf_lo _ _ _ _ ((bt_wf_mk_iff2 _ _ _ _ _ _ _ _ _).1 hw).2.2.2.2.2.2.1
        obtain ⟨ks2, mg, hshape, hlen, heq, wmg, kmg⟩ := bt_merge_right_node N 1 h hN _ pre post
          c b i e1 hw (by omega) (by omega)
        rw [hshape, bt_child_at _ _ _ _ _ _ e1]
        simp only [List.length_cons] at e3
        exact bt_remove_descend N val h k ih2 ks2 pre post mg i e1
          (by simp only [List.length_append] at hlen; omega) _ ha heq wmg
          (fun hm => by rw [kmg]; exact List.mem_append_left _ (hmc hm))

end BTree
/-! ## BTree: `add` and `remove` against the reference set -/

namespace BTree

/-- The node the descent of `add` starts from: the root, or the new root above the two halves
of a full root.  It is well formed, not full, and has the key sequence of the root. -/
theorem bt_add_top (N h : Nat) (hN : 1 < N) (curr : Node) (hw : WF N 1 h curr) :
    ∃ h2, WF N 1 h2
        (if curr.num_keys = 2 * N - 1 then
          Node.mk [curr.key (N - 1)] [(split_divide N curr).1, (split_divide N curr).2] false
        else curr) ∧
      (if curr.num_keys = 2 * N - 1 then
          Node.mk [curr.key (N - 1)] [(split_divide N curr).1, (split_divide N curr).2] false
        else curr).num_keys < 2 * N - 1 ∧
      (if curr.num_keys = 2 * N - 1 then
          Node.mk [curr.key (N - 1)] [(split_divide N curr).1, (split_divide N curr).2] false
        else curr).allKeys = curr.allKeys := by
  split_ifs with c
  · obtain ⟨s1, s2, s3, s4⟩ := bt_split_divide_wf N _ h hN _ hw c
    refine ⟨h + 1, ?_, ?_, ?_⟩
    · simp only [WF, bt_children_mk, bt_leaf_mk, bt_num_keys_mk, List.length_cons,
        List.length_nil, List.mem_cons, List.mem_singleton]
      refine ⟨trivial, trivial, by omega, by omega, ?_⟩
      intro c hc
      simp only [List.not_mem_nil, or_false] at hc
      rcases hc with rfl | rfl
      · exact s1
      · exact s2
    · simp only [bt_num_keys_mk, List.length_singleton]; omega
    · rw [bt_split_divide_keys N _ h hN curr hw c, bt_allKeys_mk, bt_interleave_cons,
        bt_interleaveK_cons, bt_interleave_cons, bt_interleaveK_nil, List.append_nil]
  · have := bt_wf_hi N _ _ _ hw
    exact ⟨h, hw, by omega, rfl⟩

/-- The call `add(val)` on a B-tree with ascending keys meets the reference set and keeps the
keys ascending. -/
theorem bt_add_spec (N : Nat) (hN : 1 < N) (root : Option Node) (val : Int)
    (hi : Inv N root) (ha : Ascending (treeKeys root)) :
    Ascending (treeKeys (add N root val).2) ∧
      StepSpec (treeKeys root) (.add val) (add N root val).1 (treeKeys (add N root val).2) := by
  cases root with
  | none =>
    simp only [add, treeKeys, StepSpec, bt_allKeys_mk, bt_interleave_nil]
    refine ⟨by simp [Ascending], by simp, by simp⟩
  | some curr =>
    obtain ⟨h, hw⟩ := hi
    obtain ⟨h2, t1, t2, t3⟩ := bt_add_top N h hN curr hw
    simp only [add, treeKeys, StepSpec] at ha ⊢
    generalize (if curr.num_keys = 2 * N - 1 then
      Node.mk [curr.key (N - 1)] [(split_divide N curr).1, (split_divide N curr).2] false
      else curr) = top at t1 t2 t3 ⊢
    obtain ⟨r1, r2⟩ := bt_add_loop_keys N hN val h2 top.depth 1 top
      (by rw [bt_wf_depth N _ _ _ t1]; omega) t1 t2 (by rw [t3]; exact ha)
    rw [t3] at r1 r2
    obtain ⟨i1, i2⟩ := bt_insert_ascending val curr.allKeys ha
    rw [r2]
    exact ⟨i1, r1, i2⟩

/-- The node the descent of `remove` starts from: the root, or the merge of a one-key root
with its two minimal children.  It is well formed, satisfies the entry condition of the
descent, and has the key sequence of the root. -/
theorem bt_remove_top (N h : Nat) (hN : 1 < N) (r : Node) (hw : WF N 1 h r) :
    ∃ h2, WF N 1 h2
        (if r.num_keys = 1 ∧ r.children.length ≠ 0 ∧ (r.child 0).num_keys = N - 1 ∧
            (r.child 1).num_keys = N - 1 then
          merge N (r.child 0) (r.child 1) (r.key 0)
        else r) ∧
      (0 < h2 → 2 ≤ (if r.num_keys = 1 ∧ r.children.length ≠ 0 ∧
            (r.child 0).num_keys = N - 1 ∧ (r.child 1).num_keys = N - 1 then
          merge N (r.child 0) (r.child 1) (r.key 0)
        else r).num_keys ∨ NoMinPair N (if r.num_keys = 1 ∧ r.children.length ≠ 0 ∧
            (r.child 0).num_keys = N - 1 ∧ (r.child 1).num_keys = N - 1 then
          merge N (r.child 0) (r.child 1) (r.key 0)
        else r)) ∧
      (if r.num_keys = 1 ∧ r.children.length ≠ 0 ∧ (r.child 0).num_keys = N - 1 ∧
            (r.child 1).num_keys = N - 1 then
          merge N (r.child 0) (r.child 1) (r.key 0)
        else r).allKeys = r.allKeys := by
  split_ifs with c1
  · obtain ⟨ks, cs, lf⟩ := r
    obtain ⟨q1, q2, q3, q4⟩ := c1
    simp only [bt_num_keys_mk, bt_children_mk] at q1 q2
    cases h with
    | zero => simp only [WF, bt_children_mk] at hw; rw [hw.2.1] at q2; simp at q2
    | succ h =>
      obtain ⟨pre, a, b, post, rfl, hl⟩ := bt_children_split2 cs 0 (by
        simp only [WF, bt_children_mk, bt_num_keys_mk] at hw; omega)
      simp only [bt_child_at _ _ _ _ _ _ hl, bt_child_at1 _ _ _ _ _ _ _ hl] at q3 q4 ⊢
      obtain ⟨w1, w2, w3, w4, w5, w6, w7, w8⟩ := (bt_wf_mk_iff2 _ _ _ _ _ _ _ _ _).1 hw
      subst w1
      have hpre : pre = [] := List.length_eq_zero.1 hl
      have hpost : post = [] := List.length_eq_zero.1 (by omega)
      subst hpre hpost
      obtain ⟨m, rfl⟩ : ∃ m, ks = [m] := List.length_eq_one.1 q1
      obtain ⟨m1, m2⟩ := bt_merge_wf N h hN a b ((Node.mk [m] ([] ++ [a, b]) false).key 0)
        w6 w7 q3 q4
      have km := bt_merge_keys N h hN a b ((Node.mk [m] ([] ++ [a, b]) false).key 0)
        w6 w7 q3 q4
      refine ⟨h, bt_wf_mono N _ 1 h _ m1 (by omega), fun _ => Or.inl (by omega), ?_⟩
      rw [km]
      simp only [Node.key, bt_keys_mk, List.nil_append, bt_allKeys_mk, bt_interleave_cons,
        bt_interleaveK_cons, bt_interleaveK_nil, List.append_nil]
      rfl
  · refine ⟨h, hw, ?_, rfl⟩
    intro hh
    by_cases h2 : 2 ≤ r.num_keys
    · exact Or.inl h2
    · right
      obtain ⟨h', rfl⟩ : ∃ h', h = h' + 1 := ⟨h - 1, by omega⟩
      have hw2 := hw
      simp only [WF] at hw2
      obtain ⟨w1, w2, w3, w4, w5⟩ := hw2
      intro j hj
      have hj0 : j = 0 := by omega
      subst hj0
      have ha := bt_wf_lo _ _ _ _ (w5 _ (bt_child_mem r 0 (by omega)))
      have hb := bt_wf_lo _ _ _ _ (w5 _ (bt_child_mem r 1 (by omega)))
      simp only [Nat.zero_add]
      by_contra hc
      apply c1
      refine ⟨by omega, by omega, ?_, ?_⟩ <;> omega

/-- The call `remove(val)` on a B-tree with ascending keys meets the reference set and keeps
the keys ascending. -/
theorem bt_remove_spec (N : Nat) (hN : 1 < N) (root : Option Node) (val : Int)
    (hi : Inv N root) (ha : Ascending (treeKeys root)) :
    Ascending (treeKeys (remove N root val).2) ∧
      StepSpec (treeKeys root) (.remove val) (remove N root val).1
        (treeKeys (remove N root val).2) := by
  cases root with
  | none =>
    simp only [remove, treeKeys, StepSpec]
    refine ⟨by simp [Ascending], by simp, by simp⟩
  | some r =>
    obtain ⟨h, hw⟩ := hi
    obtain ⟨h2, t1, t2, t3⟩ := bt_remove_top N h hN r hw
    simp only [remove, treeKeys, StepSpec] at ha ⊢
    generalize (if r.num_keys = 1 ∧ r.children.length ≠ 0 ∧ (r.child 0).num_keys = N - 1 ∧
        (r.child 1).num_keys = N - 1 then merge N (r.child 0) (r.child 1) (r.key 0)
      else r) = top at t1 t2 t3 ⊢
    have hd : h2 < top.depth := by rw [bt_wf_depth N _ _ _ t1]; omega
    obtain ⟨r1, r2⟩ := bt_remove_loop_keys N hN val h2 top.depth top hd t1
      (by rw [t3]; exact ha)
    obtain ⟨v1, v2, v3⟩ := bt_remove_loop_wf N hN val h2 top.depth top hd t1 t2
    rw [t3] at r1 r2
    obtain ⟨i1, i2⟩ := bt_filter_ne_ascending val r.allKeys ha
    generalize remove_loop N top.depth top val = res at r1 r2 v1 v2 v3 ⊢
    split_ifs with c
    · -- the last key has left the root
      have hnil : res.2.allKeys = [] := by
        cases h2 with
        | succ h3 => have := v3 (by omega); omega
        | zero =>
          have key : ∀ nd : Node, WF N 0 0 nd → nd.num_keys = 0 → nd.allKeys = [] := by
            intro nd hnd hk
            obtain ⟨ks, cs, lf⟩ := nd
            simp only [WF, bt_children_mk, bt_leaf_mk, bt_num_keys_mk] at hnd hk
            obtain ⟨-, w2, -, -⟩ := hnd
            subst w2
            rw [bt_allKeys_mk, bt_interleave_nil]
            exact List.length_eq_zero.1 hk
          exact key res.2 v1 c.2
      rw [hnil] at r2
      simp only [treeKeys]
      refine ⟨by simp [Ascending], ?_, ?_⟩
      · rw [← r1]; exact c.1.symm
      · intro j
        rw [← i2 j, ← r2]
    · simp only [treeKeys]
      rw [r2]
      exact ⟨i1, r1, i2⟩

/-- Every call on a B-tree with ascending keys keeps the invariant and the ascending keys and
meets the reference set. -/
theorem bt_step_spec (N : Nat) (hN : 1 < N) (root : Option Node) (op : Op)
    (hi : Inv N root) (ha : Ascending (treeKeys root)) :
    (Inv N (step N root op).2 ∧ Ascending (treeKeys (step N root op).2)) ∧
      StepSpec (treeKeys root) op (step N root op).1 (treeKeys (step N root op).2) := by
  cases op with
  | add k =>
    exact ⟨⟨bt_add_inv N hN root k hi, (bt_add_spec N hN root k hi ha).1⟩,
      (bt_add_spec N hN root k hi ha).2⟩
  | find k =>
    refine ⟨⟨hi, ha⟩, ?_⟩
    simp only [step, StepSpec]
    exact ⟨bt_find_spec N root k hi ha, fun j => trivial⟩
  | remove k =>
    exact ⟨⟨bt_remove_inv N hN root k hi, (bt_remove_spec N hN root k hi ha).1⟩,
      (bt_remove_spec N hN root k hi ha).2⟩

end BTree
/-! ## BTree: the iteration bounds of the loops are never what stops them -/

namespace BTree

theorem bt_shallow_zero_mk (ks : List Int) (cs : List Node) (lf : Bool) :
    Shallow 0 (Node.mk ks cs lf) ↔ lf = true ∧ cs = [] := by
  simp only [Shallow, bt_leaf_mk, bt_children_mk]

theorem bt_shallow_succ_mk (h : Nat) (ks : List Int) (cs : List Node) (lf : Bool) :
    Shallow (h + 1) (Node.mk ks cs lf) ↔ ∀ c ∈ cs, Shallow h c := by
  simp only [Shallow, bt_children_mk]

/-- A well-formed subtree of height `h` is `Shallow h`. -/
theorem bt_wf_shallow (N : Nat) :
    ∀ (h lo : Nat) (n : Node), WF N lo h n → Shallow h n := by
  intro h
  induction h with
  | zero =>
    intro lo n hw
    simp only [WF] at hw
    exact ⟨hw.1, hw.2.1⟩
  | succ h ih =>
    intro lo n hw
    simp only [WF] at hw
    intro c hc
    exact ih _ c (hw.2.2.2.2 c hc)

theorem bt_shallow_default (h : Nat) : Shallow h (Node.mk [] [] true) := by
  cases h with
  | zero => exact ⟨rfl, rfl⟩
  | succ h => intro c hc; simp [Node.children] at hc

theorem bt_shallow_child (h : Nat) (n : Node) (i : Nat) (hs : Shallow (h + 1) n) :
    Shallow h (n.child i) := by
  unfold Node.child
  by_cases hi : i < n.children.length
  · rw [List.getD_eq_getElem _ _ hi]
    exact hs _ (List.getElem_mem _)
  · rw [List.getD_eq_default _ _ (by omega)]
    exact bt_shallow_default h

theorem bt_shallow_getElem (h : Nat) (n c : Node) (i : Nat) (hs : Shallow (h + 1) n)
    (hc : n.children[i]? = some c) : Shallow h c :=
  hs c (List.getElem?_mem hc)

theorem bt_shallow_zero_getElem (n : Node) (i : Nat) (hs : Shallow 0 n) :
    n.children[i]? = none := by
  rw [hs.2]; rfl

theorem bt_shallow_merge (N h : Nat) (a b : Node) (m : Int) (ha : Shallow h a)
    (hb : Shallow h b) : Shallow h (merge N a b m) := by
  cases h with
  | zero =>
    simp only [merge, bt_shallow_zero_mk, ha.1, ha.2, hb.2, List.drop_nil, List.take_nil,
      List.append_nil, and_self]
  | succ h =>
    simp only [merge, bt_shallow_succ_mk]
    intro c hc
    rcases List.mem_append.1 hc with hc | hc
    · exact ha c hc
    · exact hb c (List.mem_of_mem_drop (List.mem_of_mem_take hc))

theorem bt_shallow_split_divide (N h : Nat) (c : Node) (hs : Shallow h c) :
    Shallow h (split_divide N c).1 ∧ Shallow h (split_divide N c).2 := by
  cases h with
  | zero =>
    simp only [split_divide, bt_shallow_zero_mk, hs.1, hs.2, List.drop_nil, List.take_nil,
      and_self]
  | succ h =>
    simp only [split_divide, bt_shallow_succ_mk]
    exact ⟨fun x hx => hs x (List.mem_of_mem_take hx),
      fun x hx => hs x (List.mem_of_mem_drop (List.mem_of_mem_take hx))⟩

theorem bt_shallow_left_shift (h : Nat) (n : Node) (i : Nat) (hs : Shallow (h + 1) n) :
    Shallow (h + 1) (left_shift n i) := by
  have ha := bt_shallow_child h n i hs
  have hb := bt_shallow_child h n (i + 1) hs
  simp only [left_shift, bt_shallow_succ_mk]
  intro c hc
  rcases List.mem_or_eq_of_mem_set hc with hc | rfl
  · rcases List.mem_or_eq_of_mem_set hc with hc | rfl
    · exact hs c hc
    · cases h with
      | zero =>
        simp only [bt_shallow_zero_mk, ha.1, ha.2, hb.2, List.take_nil, List.append_nil,
          and_self]
      | succ h =>
        rw [bt_shallow_succ_mk]
        intro x hx
        rcases List.mem_append.1 hx with hx | hx
        · exact ha x hx
        · exact hb x (List.mem_of_mem_take hx)
  · cases h with
    | zero => simp only [bt_shallow_zero_mk, hb.1, hb.2, List.drop_nil, and_self]
    | succ h =>
      rw [bt_shallow_succ_mk]
      intro x hx
      exact hb x (List.mem_of_mem_drop hx)

theorem bt_shallow_right_shift (h : Nat) (n : Node) (i : Nat) (hs : Shallow (h + 1) n) :
    Shallow (h + 1) (right_shift n i) := by
  have ha := bt_shallow_child h n (i - 1) hs
  have hb := bt_shallow_child h n i hs
  simp only [right_shift, bt_shallow_succ_mk]
  intro c hc
  rcases List.mem_or_eq_of_mem_set hc with hc | rfl
  · rcases List.mem_or_eq_of_mem_set hc with hc | rfl
    · exact hs c hc
    · cases h with
      | zero => simp only [bt_shallow_zero_mk, ha.1, ha.2, List.take_nil, and_self]
      | succ h =>
        rw [bt_shallow_succ_mk]
        intro x hx
        exact ha x (List.mem_of_mem_take hx)
  · cases h with
    | zero =>
      simp only [bt_shallow_zero_mk, hb.1, hb.2, ha.2, List.drop_nil, List.take_nil,
        List.append_nil, and_self]
    | succ h =>
      rw [bt_shallow_succ_mk]
      intro x hx
      rcases List.mem_append.1 hx with hx | hx
      · exact ha x (List.mem_of_mem_drop (List.mem_of_mem_take hx))
      · exact hb x hx

theorem bt_shallow_merge_right (N h : Nat) (n : Node) (i : Nat) (hs : Shallow (h + 1) n) :
    Shallow (h + 1) (merge_right N n i) := by
  have hm := bt_shallow_merge N h _ _ (n.key i) (bt_shallow_child h n i hs)
    (bt_shallow_child h n (i + 1) hs)
  simp only [merge_right, bt_shallow_succ_mk]
  intro c hc
  rcases List.mem_or_eq_of_mem_set (List.mem_of_mem_eraseIdx hc) with hc | rfl
  · exact hs c hc
  · exact hm

theorem bt_shallow_merge_last (N h : Nat) (n : Node) (i : Nat) (hs : Shallow (h + 1) n) :
    Shallow (h + 1) (merge_last N n i) := by
  have hm := bt_shallow_merge N h _ _ (n.key (i - 1)) (bt_shallow_child h n (i - 1) hs)
    (bt_shallow_child h n i hs)
  simp only [merge_last, bt_shallow_succ_mk]
  intro c hc
  rcases List.mem_or_eq_of_mem_set (List.mem_of_mem_take hc) with hc | rfl
  · exact hs c hc
  · exact hm

/-- The walk to the predecessor stays within the height, whatever bound it is given above
the height, and leaves a subtree of the same height. -/
theorem bt_swap_pred_fuel (val : Int) :
    ∀ (h f1 f2 : Nat) (c : Node), h < f1 → h < f2 → Shallow h c →
      swap_pred f1 c val = swap_pred f2 c val ∧ Shallow h (swap_pred f1 c val).2 := by
  intro h
  induction h with
  | zero =>
    intro f1 f2 c h1 h2 hs
    obtain ⟨a, rfl⟩ : ∃ a, f1 = a + 1 := ⟨f1 - 1, by omega⟩
    obtain ⟨b, rfl⟩ : ∃ b, f2 = b + 1 := ⟨f2 - 1, by omega⟩
    simp only [swap_pred, bt_shallow_zero_getElem c _ hs, bt_shallow_zero_mk, hs.1, hs.2,
      List.getElem?_nil, and_self]
  | succ h ih =>
    intro f1 f2 c h1 h2 hs
    obtain ⟨a, rfl⟩ : ∃ a, f1 = a + 1 := ⟨f1 - 1, by omega⟩
    obtain ⟨b, rfl⟩ : ∃ b, f2 = b + 1 := ⟨f2 - 1, by omega⟩
    simp only [swap_pred]
    cases hc : c.children[c.num_keys]? with
    | none => exact ⟨rfl, (bt_shallow_succ_mk h _ _ _).2 hs⟩
    | some c2 =>
      obtain ⟨e, s⟩ := ih a b c2 (by omega) (by omega) (bt_shallow_getElem h c c2 _ hs hc)
      dsimp only
      rw [← e]
      refine ⟨rfl, ?_⟩
      simp only [Node.setChild, bt_shallow_succ_mk]
      intro x hx
      rcases List.mem_or_eq_of_mem_set hx with hx | rfl
      · exact hs x hx
      · exact s

/-- The walk to the successor stays within the height, whatever bound it is given above the
height, and leaves a subtree of the same height. -/
theorem bt_swap_succ_fuel (val : Int) :
    ∀ (h f1 f2 : Nat) (c : Node), h < f1 → h < f2 → Shallow h c →
      swap_succ f1 c val = swap_succ f2 c val ∧ Shallow h (swap_succ f1 c val).2 := by
  intro h
  induction h with
  | zero =>
    intro f1 f2 c h1 h2 hs
    obtain ⟨a, rfl⟩ : ∃ a, f1 = a + 1 := ⟨f1 - 1, by omega⟩
    obtain ⟨b, rfl⟩ : ∃ b, f2 = b + 1 := ⟨f2 - 1, by omega⟩
    simp only [swap_succ, bt_shallow_zero_getElem c _ hs, bt_shallow_zero_mk, hs.1, hs.2,
      List.getElem?_nil, and_self]
  | succ h ih =>
    intro f1 f2 c h1 h2 hs
    obtain ⟨a, rfl⟩ : ∃ a, f1 = a + 1 := ⟨f1 - 1, by omega⟩
    obtain ⟨b, rfl⟩ : ∃ b, f2 = b + 1 := ⟨f2 - 1, by omega⟩
    simp only [swap_succ]
    cases hc : c.children[0]? with
    | none => exact ⟨rfl, (bt_shallow_succ_mk h _ _ _).2 hs⟩
    | some c2 =>
      obtain ⟨e, s⟩ := ih a b c2 (by omega) (by omega) (bt_shallow_getElem h c c2 _ hs hc)
      dsimp only
      rw [← e]
      refine ⟨rfl, ?_⟩
      simp only [Node.setChild, bt_shallow_succ_mk]
      intro x hx
      rcases List.mem_or_eq_of_mem_set hx with hx | rfl
      · exact hs x hx
      · exact s

/-- The binary search leaves its loop through the guard `l <= r`: any bound of at least the
length of the interval gives the same result. -/
theorem bt_bin_search_loop_fuel (keys : List Int) (val : Int) :
    ∀ (f1 f2 : Nat) (l r : Int), r + 1 - l ≤ f1 → r + 1 - l ≤ f2 →
      bin_search_loop keys val f1 l r = bin_search_loop keys val f2 l r := by
  intro f1
  induction f1 with
  | zero =>
    intro f2 l r h1 h2
    cases f2 with
    | zero => rfl
    | succ b =>
      simp only [bin_search_loop]
      rw [if_neg (by omega)]
  | succ a ih =>
    intro f2 l r h1 h2
    cases f2 with
    | zero =>
      simp only [bin_search_loop]
      rw [if_neg (by omega)]
    | succ b =>
      simp only [bin_search_loop]
      split_ifs with c1 c2
      · exact ih b l _ (by omega) (by omega)
      · exact ih b _ r (by omega) (by omega)
      · rfl

/-- The loop of `find` ends at a leaf: any bound above the height gives the same result. -/
theorem bt_find_loop_fuel (val : Int) :
    ∀ (h f1 f2 : Nat) (node : Node), h < f1 → h < f2 → Shallow h node →
      find_loop f1 node val = find_loop f2 node val := by
  intro h
  induction h with
  | zero =>
    intro f1 f2 node h1 h2 hs
    obtain ⟨a, rfl⟩ : ∃ a, f1 = a + 1 := ⟨f1 - 1, by omega⟩
    obtain ⟨b, rfl⟩ : ∃ b, f2 = b + 1 := ⟨f2 - 1, by omega⟩
    simp only [find_loop, bt_shallow_zero_getElem node _ hs]
  | succ h ih =>
    intro f1 f2 node h1 h2 hs
    obtain ⟨a, rfl⟩ : ∃ a, f1 = a + 1 := ⟨f1 - 1, by omega⟩
    obtain ⟨b, rfl⟩ : ∃ b, f2 = b + 1 := ⟨f2 - 1, by omega⟩
    simp only [find_loop]
    split_ifs with c1 c2
    · cases hc : node.children[0]? with
      | none => rfl
      | some c => exact ih a b c (by omega) (by omega) (bt_shallow_getElem h node c _ hs hc)
    · rfl
    · cases hc : node.children[(bin_search node val).toNat + 1]? with
      | none => rfl
      | some c => exact ih a b c (by omega) (by omega) (bt_shallow_getElem h node c _ hs hc)

/-- The descent of `add` ends at a leaf: any bound above the height gives the same result. -/
theorem bt_add_loop_fuel (N : Nat) (val : Int) :
    ∀ (h f1 f2 : Nat) (curr : Node), h < f1 → h < f2 → Shallow h curr →
      add_loop N f1 curr val = add_loop N f2 curr val := by
  intro h
  induction h with
  | zero =>
    intro f1 f2 curr h1 h2 hs
    obtain ⟨a, rfl⟩ : ∃ a, f1 = a + 1 := ⟨f1 - 1, by omega⟩
    obtain ⟨b, rfl⟩ : ∃ b, f2 = b + 1 := ⟨f2 - 1, by omega⟩
    simp only [add_loop, hs.1, if_true]
  | succ h ih =>
    intro f1 f2 curr h1 h2 hs
    obtain ⟨a, rfl⟩ : ∃ a, f1 = a + 1 := ⟨f1 - 1, by omega⟩
    obtain ⟨b, rfl⟩ : ∃ b, f2 = b + 1 := ⟨f2 - 1, by omega⟩
    simp only [add_loop]
    generalize (bin_search curr val + 1).toNat = i
    have hc := bt_shallow_child h curr i hs
    obtain ⟨s1, s2⟩ := bt_shallow_split_divide N h _ hc
    rw [ih a b _ (by omega) (by omega) hc, ih a b _ (by omega) (by omega) s1,
      ih a b _ (by omega) (by omega) s2]

/-- The descent of `remove` ends at a leaf: any bound above the height gives the same
result. -/
theorem bt_remove_loop_fuel (N : Nat) (val : Int) :
    ∀ (h f1 f2 : Nat) (node : Node), h < f1 → h < f2 → Shallow h node →
      remove_loop N f1 node val = remove_loop N f2 node val := by
  intro h
  induction h with
  | zero =>
    intro f1 f2 node h1 h2 hs
    obtain ⟨a, rfl⟩ : ∃ a, f1 = a + 1 := ⟨f1 - 1, by omega⟩
    obtain ⟨b, rfl⟩ : ∃ b, f2 = b + 1 := ⟨f2 - 1, by omega⟩
    simp only [remove_loop, hs.1, if_true]
  | succ h ih =>
    intro f1 f2 node h1 h2 hs
    obtain ⟨a, rfl⟩ : ∃ a, f1 = a + 1 := ⟨f1 - 1, by omega⟩
    obtain ⟨b, rfl⟩ : ∃ b, f2 = b + 1 := ⟨f2 - 1, by omega⟩
    have ih2 : ∀ c : Node, Shallow h c → remove_loop N a c val = remove_loop N b c val :=
      fun c hc => ih a b c (by omega) (by omega) hc
    simp only [remove_loop]
    generalize bin_search node val = idx
    have p1 := bt_swap_pred_fuel val h a b (node.child idx.toNat) (by omega) (by omega)
      (bt_shallow_child h node _ hs)
    have p2 := bt_swap_succ_fuel val h a b (node.child (idx.toNat + 1)) (by omega) (by omega)
      (bt_shallow_child h node _ hs)
    have q1 := ih2 _ p1.2
    have q2 := ih2 _ p2.2
    rw [p1.1] at q1
    rw [p2.1] at q2
    simp only [p1.1, p2.1, q1, q2,
      ih2 _ (bt_shallow_child h node (idx + 1).toNat hs),
      ih2 _ (bt_shallow_child h _ idx.toNat (bt_shallow_merge_right N h node idx.toNat hs)),
      ih2 _ (bt_shallow_child h _ (idx + 1).toNat
        (bt_shallow_merge_right N h node (idx + 1).toNat hs)),
      ih2 _ (bt_shallow_child h _ (idx + 1).toNat
        (bt_shallow_left_shift h node (idx + 1).toNat hs)),
      ih2 _ (bt_shallow_child h _ (idx + 1).toNat
        (bt_shallow_right_shift h node (idx + 1).toNat hs)),
      ih2 _ (bt_shallow_child h _ ((idx + 1).toNat - 1)
        (bt_shallow_merge_last N h node (idx + 1).toNat hs))]

/-- On a well-formed subtree the three descent loops give the same result for every bound
from the depth of the subtree on, which is the bound `find`, `add` and `remove` pass. -/
theorem bt_loops_fuel (N lo h : Nat) (node : Node) (val : Int) (hw : WF N lo h node)
    (fuel : Nat) (hf : node.depth ≤ fuel) :
    find_loop fuel node val = find_loop node.depth node val ∧
      add_loop N fuel node val = add_loop N node.depth node val ∧
      remove_loop N fuel node val = remove_loop N node.depth node val := by
  have hd := bt_wf_depth N h lo node hw
  have hs := bt_wf_shallow N h lo node hw
  exact ⟨bt_find_loop_fuel val h _ _ node (by omega) (by omega) hs,
    bt_add_loop_fuel N val h _ _ node (by omega) (by omega) hs,
    bt_remove_loop_fuel N val h _ _ node (by omega) (by omega) hs⟩

/-- The function `bin_search` gives the same result for every bound from `num_keys` on. -/
theorem bt_bin_search_fuel (node : Node) (val : Int) (fuel : Nat)
    (hf : node.keys.length ≤ fuel) :
    bin_search_loop node.keys val fuel 0 (node.keys.length - 1) = bin_search node val :=
  bt_bin_search_loop_fuel node.keys val _ _ _ _ (by omega) (by omega)

end BTree
/-! ## SplayTree: what the root holds after a call -/

namespace SplayTree

/-- A `find` that returns false leaves the tree as it was. -/
theorem splay_find_false (t : Node) (x : Int) (hf : (find t x).1 = false) :
    find t x = (false, t) := by
  unfold find at hf ⊢
  generalize descend x t [] = res at hf
  obtain ⟨t2, st2⟩ := res
  cases t2 with
  | null => rfl
  | node _ _ _ _ => simp at hf

/-- After a successful `add` the root holds the new key. -/
theorem splay_add_root (t : Node) (x : Int) (hf : (add t x).1 = true) :
    ∃ a b, (add t x).2 = .node a x () b := by
  cases t with
  | null => exact ⟨.null, .null, rfl⟩
  | node l v h r =>
    simp only [add] at hf ⊢
    generalize descend x (TreeNode.node l v h r) [] = res at hf
    obtain ⟨t2, st2⟩ := res
    cases t2 with
    | node _ _ _ _ => simp at hf
    | null =>
      cases st2 with
      | nil => simp at hf
      | cons p st =>
        obtain ⟨pd, pv, m, o⟩ := p
        by_cases c : x < pv <;> cases pd <;>
          simp only [Frame.fill, TreeNode.setChild, TreeNode.setLeft, TreeNode.setRight,
            focusChild, newNode, c, if_true, if_false] <;>
          exact splay_fix_root _ _ _ _

/-- The tree `remove` builds for a present key that is not the smallest: with `val` splayed
to the root over the subtrees `l` and `r`, the new root holds the largest key of `l`, which is
the largest key below `val`, and its right subtree is `r`. -/
theorem splay_remove_root (t : Node) (x : Int) (hs : Ascending t.keys) (hx : x ∈ t.keys)
    (hk : ∃ k ∈ t.keys, k < x) :
    ∃ l r l2 m, (find t x).2 = .node l x () r ∧ (remove t x).2 = .node l2 m () r ∧
      m ∈ t.keys ∧ m < x ∧ ∀ k ∈ t.keys, k < x → k ≤ m := by
  obtain ⟨f1, f2⟩ := splay_find_spec t x hs
  simp only [hx, decide_True] at f1
  obtain ⟨a, b, e⟩ := splay_find_root t x f1
  unfold remove
  generalize find t x = res at f1 f2 e
  obtain ⟨bb, t2⟩ := res
  simp only at f1 f2 e
  subst f1 e
  simp only [TreeNode.keys] at f2
  rw [← f2] at hs hk ⊢
  obtain ⟨aA, aXB, aAXB⟩ := ascending_append.1 hs
  obtain ⟨aX, aB⟩ := ascending_cons.1 aXB
  have hlow : ∀ k ∈ a.keys ++ x :: b.keys, k < x → k ∈ a.keys := by
    intro k hk1 hk2
    rcases List.mem_append.1 hk1 with h | h
    · exact h
    · rcases List.mem_cons.1 h with h | h
      · omega
      · have := aX k h; omega
  cases a with
  | null =>
    obtain ⟨k, hk1, hk2⟩ := hk
    have := hlow k hk1 hk2
    simp [TreeNode.keys] at this
  | node al av am ar =>
    obtain ⟨⟨c, w, e1⟩, h2, h3⟩ :=
      splay_rightmost_spec (.node al av am ar) [] (by simp) (by simp)
    have hkeys := congrArg TreeNode.keys h3
    rw [keys_plug] at hkeys
    simp only
    generalize rightmost (.node al av am ar) [] = s at e1 h2 hkeys
    obtain ⟨suc, seg⟩ := s
    simp only at e1 h2 hkeys
    subst e1
    obtain ⟨a2, e2⟩ := splay_fix_right_null seg c w h2
    have hk2 := splay_keys_fix seg (.node c w () .null)
    rw [e2] at hk2
    rw [hkeys] at hk2
    simp only [plug, TreeNode.keys, List.append_nil] at hk2
    have hk3 : (TreeNode.node al av am ar).keys = a2.keys ++ [w] := by
      simp only [TreeNode.keys]
      exact hk2.symm
    rw [hk3] at aA aAXB hlow ⊢
    refine ⟨_, b, a2, w, rfl, by rw [e2]; rfl, ?_, ?_, ?_⟩
    · simp
    · exact aAXB w (by simp) x (List.mem_cons_self _ _)
    · intro k hk1 hk4
      rcases List.mem_append.1 (hlow k hk1 hk4) with h | h
      · have := (ascending_append.1 aA).2.2 k h w (by simp)
        omega
      · have := List.mem_singleton.1 h
        omega

end SplayTree
/-! ## BTree: the search-tree order and the ascending in-order sequence -/

namespace BTree

theorem bt_searchOrder_mk (ks : List Int) (cs : List Node) (lf : Bool) :
    (Node.mk ks cs lf).SearchOrder ↔
      Ascending ks ∧ ChildrenBetween ks cs ∧ SearchOrderList cs := by
  simp [Node.SearchOrder]

theorem bt_searchOrderList_iff (cs : List Node) :
    SearchOrderList cs ↔ ∀ c ∈ cs, c.SearchOrder := by
  induction cs with
  | nil => simp [SearchOrderList]
  | cons c cs ih => simp [SearchOrderList, ih]

/-- The keys below a node are its own keys and the keys below its children. -/
theorem bt_mem_interleave (x : Int) (cs : List Node) :
    ∀ ks : List Int, x ∈ interleave cs ks ↔ x ∈ ks ∨ ∃ c ∈ cs, x ∈ c.allKeys := by
  induction cs with
  | nil => intro ks; simp [bt_interleave_nil]
  | cons c cs ih =>
    intro ks
    cases ks with
    | nil =>
      have e : interleaveK [] cs = interleave cs [] := rfl
      simp only [bt_interleave_cons, e, List.mem_append, ih [], List.not_mem_nil, false_or,
        List.mem_cons, exists_eq_or_imp]
    | cons k ks =>
      simp only [bt_interleave_cons, bt_interleaveK_cons, List.mem_append, List.mem_cons, ih ks,
        exists_eq_or_imp]
      tauto

/-- For a node with one child more than keys: the in-order sequence is strictly ascending
exactly when the keys of the node are, every child lies between its neighbouring keys, and
the sequence of every child is strictly ascending. -/
theorem bt_interleave_ascending_iff :
    ∀ (ks : List Int) (cs : List Node), cs.length = ks.length + 1 →
      (Ascending (interleave cs ks) ↔
        Ascending ks ∧ ChildrenBetween ks cs ∧ ∀ c ∈ cs, Ascending c.allKeys)
  | [], cs, h => by
    obtain ⟨c, rfl⟩ : ∃ c, cs = [c] := List.length_eq_one.1 (by simpa using h)
    simp only [bt_interleave_cons, bt_interleaveK_nil, List.append_nil, List.mem_singleton,
      forall_eq]
    constructor
    · intro hc
      refine ⟨by simp [Ascending], ?_, hc⟩
      intro i c2 _ x _
      exact ⟨fun k hk => by simp at hk, fun j k _ hk => by simp at hk⟩
    · exact fun hc => hc.2.2
  | k :: ks, cs, h => by
    obtain ⟨c, cs, rfl⟩ : ∃ c cs2, cs = c :: cs2 := by
      cases cs with
      | nil => simp at h
      | cons c cs2 => exact ⟨c, cs2, rfl⟩
    have h2 : cs.length = ks.length + 1 := by simpa using h
    have ih := bt_interleave_ascending_iff ks cs h2
    rw [bt_interleave_cons, bt_interleaveK_cons, ascending_append, ascending_cons, ih]
    constructor
    · rintro ⟨aC, ⟨hkb, aK, cb, hall⟩, hcb⟩
      refine ⟨ascending_cons.2 ⟨fun b hb => hkb b (bt_keys_subset cs ks b hb), aK⟩, ?_, ?_⟩
      · intro i c2 hc x hx
        cases i with
        | zero =>
          simp only [List.getElem?_cons_zero, Option.some.injEq] at hc
          subst hc
          refine ⟨fun k2 hk2 => ?_, fun j k2 hj _ => by omega⟩
          simp only [List.getElem?_cons_zero, Option.some.injEq] at hk2
          subst hk2
          exact hcb x hx _ (List.mem_cons_self _ _)
        | succ i =>
          simp only [List.getElem?_cons_succ] at hc
          obtain ⟨u1, u2⟩ := cb i c2 hc x hx
          refine ⟨fun k2 hk2 => u1 k2 (by simpa using hk2), fun j k2 hj hk2 => ?_⟩
          obtain rfl : j = i := by omega
          cases j with
          | zero =>
            simp only [List.getElem?_cons_zero, Option.some.injEq] at hk2
            subst hk2
            exact hkb x ((bt_mem_interleave x cs ks).2 (Or.inr ⟨c2, List.getElem?_mem hc, hx⟩))
          | succ j => exact u2 j k2 rfl (by simpa using hk2)
      · intro c2 hc2
        rcases List.mem_cons.1 hc2 with rfl | hc2
        · exact aC
        · exact hall c2 hc2
    · rintro ⟨aKK, cb, hall⟩
      obtain ⟨hk1, aK⟩ := ascending_cons.1 aKK
      have cb2 : ChildrenBetween ks cs := by
        intro i c2 hc x hx
        obtain ⟨u1, u2⟩ := cb (i + 1) c2 (by simpa using hc) x hx
        exact ⟨fun k2 hk2 => u1 k2 (by simpa using hk2),
          fun j k2 hj hk2 => u2 (j + 1) k2 (by omega) (by simpa using hk2)⟩
      have hkb : ∀ b ∈ interleave cs ks, k < b := by
        intro b hb
        rcases (bt_mem_interleave b cs ks).1 hb with hb | ⟨c2, hc2, hb⟩
        · exact hk1 b hb
        · obtain ⟨i, hi, hic⟩ := List.getElem_of_mem hc2
          have hget : (c :: cs)[i + 1]? = some c2 := by
            rw [List.getElem?_cons_succ, List.getElem?_eq_getElem hi, hic]
          have u2 := (cb (i + 1) c2 hget b hb).2 i
          cases i with
          | zero => exact u2 k rfl (List.getElem?_cons_zero)
          | succ i =>
            have hi2 : i < ks.length := by omega
            have := u2 ks[i] rfl (by rw [List.getElem?_cons_succ, List.getElem?_eq_getElem hi2])
            have := hk1 ks[i] (List.getElem_mem _)
            omega
      refine ⟨hall c (List.mem_cons_self _ _),
        ⟨hkb, aK, cb2, fun c2 hc2 => hall c2 (List.mem_cons_of_mem _ hc2)⟩, ?_⟩
      intro a ha b hb
      have hak : a < k := (cb 0 c List.getElem?_cons_zero a ha).1 k List.getElem?_cons_zero
      rcases List.mem_cons.1 hb with rfl | hb
      · exact hak
      · have := hkb b hb
        omega

/-- On a well-formed subtree the search-tree order stated node by node holds exactly when the
in-order key sequence is strictly ascending. -/
theorem bt_search_order_iff (N : Nat) :
    ∀ (h lo : Nat) (n : Node), WF N lo h n → (n.SearchOrder ↔ Ascending n.allKeys) := by
  intro h
  induction h with
  | zero =>
    intro lo n hw
    obtain ⟨ks, cs, lf⟩ := n
    simp only [WF, bt_children_mk] at hw
    obtain ⟨-, h2, -, -⟩ := hw
    subst h2
    rw [bt_searchOrder_mk, bt_allKeys_mk, bt_interleave_nil]
    constructor
    · exact fun hc => hc.1
    · intro hc
      refine ⟨hc, ?_, trivial⟩
      intro i c hi
      simp at hi
  | succ h ih =>
    intro lo n hw
    obtain ⟨ks, cs, lf⟩ := n
    simp only [WF, bt_children_mk, bt_num_keys_mk] at hw
    obtain ⟨-, h2, -, -, h5⟩ := hw
    rw [bt_searchOrder_mk, bt_allKeys_mk, bt_interleave_ascending_iff ks cs h2,
      bt_searchOrderList_iff]
    constructor
    · rintro ⟨a1, a2, a3⟩
      exact ⟨a1, a2, fun c hc => (ih _ c (h5 c hc)).1 (a3 c hc)⟩
    · rintro ⟨a1, a2, a3⟩
      exact ⟨a1, a2, fun c hc => (ih _ c (h5 c hc)).2 (a3 c hc)⟩

/-- On a B-tree the search-tree order holds exactly when the in-order key sequence of the
whole tree is strictly ascending. -/
theorem bt_tree_ordered_iff (N : Nat) (root : Option Node) (hi : Inv N root) :
    TreeOrdered root ↔ Ascending (treeKeys root) := by
  cases root with
  | none => simp [TreeOrdered, treeKeys, Ascending]
  | some r =>
    obtain ⟨h, hw⟩ := hi
    exact bt_search_order_iff N h 1 r hw

/-- Two strictly ascending sequences with the same members are equal. -/
theorem bt_ascending_ext (l1 l2 : List Int) (h1 : Ascending l1) (h2 : Ascending l2)
    (h : ∀ j, j ∈ l1 ↔ j ∈ l2) : l1 = l2 :=
  List.eq_of_perm_of_sorted ((List.perm_ext_iff_of_nodup (List.Pairwise.imp ne_of_lt h1)
    (List.Pairwise.imp ne_of_lt h2)).2 h) h1 h2

end BTree
/-! ## AVLTree: height against size; SplayTree: the chain of ascending insertions -/

namespace AVLTree

theorem avl_balanced_size (t : Node) (hb : HeightBalanced t) :
    2 ^ ((realHeight t + 1) / 2) ≤ t.keys.length + 1 := by
  induction t with
  | null => simp [realHeight, TreeNode.keys]
  | node l v h r ihl ihr =>
    obtain ⟨b1, b2, _, b4, b5⟩ := hb
    have i1 := ihl b1
    have i2 := ihr b2
    simp only [realHeight, TreeNode.keys, List.length_append, List.length_cons]
    have e : (1 + max (realHeight l) (realHeight r) + 1) / 2
        = max (realHeight l) (realHeight r) / 2 + 1 := by omega
    rw [e, pow_succ]
    have p1 : 2 ^ (max (realHeight l) (realHeight r) / 2) ≤ 2 ^ ((realHeight l + 1) / 2) :=
      Nat.pow_le_pow_right (by decide) (by omega)
    have p2 : 2 ^ (max (realHeight l) (realHeight r) / 2) ≤ 2 ^ ((realHeight r + 1) / 2) :=
      Nat.pow_le_pow_right (by decide) (by omega)
    omega

theorem avl_balanced_height (t : Node) (hb : HeightBalanced t) :
    2 ^ realHeight t ≤ (t.keys.length + 1) ^ 2 := by
  have h1 := avl_balanced_size t hb
  have h2 : 2 ^ realHeight t ≤ 2 ^ (((realHeight t + 1) / 2) * 2) :=
    Nat.pow_le_pow_right (by decide) (by omega)
  rw [pow_mul] at h2
  exact le_trans h2 (Nat.pow_le_pow_left h1 2)

theorem avl_runOps_balanced (ops : List Op) (t : Node) (hb : HeightBalanced t) :
    HeightBalanced (runOps step t ops).2 := by
  induction ops generalizing t with
  | nil => exact hb
  | cons op ops ih =>
    simp only [runOps]
    apply ih
    cases op with
    | add k => exact add_heightBalanced t k hb
    | find k => exact hb
    | remove k => exact remove_heightBalanced t k hb

end AVLTree

theorem runOps_append {σ : Type} (step : σ → Op → Bool × σ) (s : σ) (a b : List Op) :
    (runOps step s (a ++ b)).2 = (runOps step (runOps step s a).2 b).2 := by
  induction a generalizing s with
  | nil => rfl
  | cons op a ih =>
    rw [List.cons_append]
    simp only [runOps]
    exact ih _

theorem depth_le_keys {μ : Type} (t : TreeNode μ) : t.depth ≤ t.keys.length := by
  induction t with
  | null => simp [TreeNode.depth]
  | node l v m r ihl ihr =>
    simp only [TreeNode.depth, TreeNode.keys, List.length_append, List.length_cons]
    omega

namespace SplayTree

theorem splay_add_leftChain (n : Nat) :
    add (leftChain n) ((n : Int) + 1) = (true, leftChain (n + 1)) := by
  cases n with
  | zero => rfl
  | succ k =>
    have h1 : ((k : Int) + 1) ≠ ((k + 1 : Nat) : Int) + 1 := by push_cast; omega
    have h2 : ¬ (((k + 1 : Nat) : Int) + 1 < (k : Int) + 1) := by push_cast; omega
    simp only [leftChain, add, descend, h1, h2, ne_eq, not_false_eq_true, if_true, if_false,
      Frame.fill, TreeNode.setChild, TreeNode.setRight, focusChild, fix, newNode,
      TreeNode.left_rotate]

theorem splay_ascendingAdds (n : Nat) :
    (runOps step .null (ascendingAdds n)).2 = leftChain n := by
  induction n with
  | zero => rfl
  | succ k ih =>
    simp only [ascendingAdds, runOps_append, ih, runOps, step, splay_add_leftChain]

theorem splay_leftChain_depth (n : Nat) :
    (leftChain n).depth = n ∧ (leftChain n).keys.length = n := by
  induction n with
  | zero => simp [leftChain, TreeNode.depth, TreeNode.keys]
  | succ k ih =>
    simp [leftChain, TreeNode.depth, TreeNode.keys, ih.1, ih.2]

theorem splay_pow_bound (c : Nat) : c * (3 * c + 4) + 2 ≤ 8 ^ (c + 1) := by
  induction c with
  | zero => decide
  | succ k ih =>
    rw [pow_succ]
    nlinarith

end SplayTree

/-! ## AVLTree with a comparator parameter -/

theorem descend_with_lt {μ : Type} (val : Int) (t : TreeNode μ) (st : List (Frame μ)) :
    descend_with (fun a b => decide (a < b)) val t st = descend val t st := by
  induction t generalizing st with
  | null => rfl
  | node l v m r ihl ihr =>
    simp only [descend_with, descend, decide_eq_true_eq, ihl, ihr]

theorem abs_less_strictWeakOrder : StrictWeakOrder abs_less := by
  refine ⟨fun a => ?_, fun a b c h1 h2 => ?_, fun a b c h1 h2 h3 h4 => ?_⟩
  · simp [abs_less]
  · simp only [abs_less, decide_eq_true_eq] at *
    omega
  · simp only [abs_less, decide_eq_false_iff_not] at *
    omega

namespace AVLTree

theorem find_with_lt (t : Node) (x : Int) :
    find_with (fun a b => decide (a < b)) t x = find t x := by
  simp only [find_with, find, descend_with_lt]
  all_goals (cases (descend x t []).1 <;> rfl)

theorem add_with_lt (t : Node) (x : Int) :
    add_with (fun a b => decide (a < b)) t x = add t x := by
  cases t with
  | null => rfl
  | node l v h r =>
    simp only [add_with, add, descend_with_lt, decide_eq_true_eq]
    all_goals (rcases descend x (.node l v h r) [] with ⟨_ | _, _ | _⟩ <;> rfl)

end AVLTree

section Comparator

variable {μ : Type} (less_than : Int → Int → Bool)

theorem plug_descend_with (val : Int) (t : TreeNode μ) :
    ∀ st : List (Frame μ),
      plug (descend_with less_than val t st).1 (descend_with less_than val t st).2
        = plug t st := by
  induction t with
  | null => intro st; rfl
  | node l v m r ihl ihr =>
    intro st
    unfold descend_with
    split_ifs with c1 c2
    · rw [ihl]; rfl
    · rw [ihr]; rfl
    · rfl

theorem descend_with_dirs (val : Int) (t : TreeNode μ) :
    ∀ st : List (Frame μ), (∀ f ∈ st, (f.dir = .LEFT ↔ less_than val f.val = true)) →
      ∀ f ∈ (descend_with less_than val t st).2,
        (f.dir = .LEFT ↔ less_than val f.val = true) := by
  induction t with
  | null => intro st hst; exact hst
  | node l v m r ihl ihr =>
    intro st hst
    unfold descend_with
    split_ifs with c1 c2
    · apply ihl
      intro f hf
      rcases List.mem_cons.1 hf with rfl | hf
      · simp [c2]
      · exact hst f hf
    · apply ihr
      intro f hf
      rcases List.mem_cons.1 hf with rfl | hf
      · simp [c2]
      · exact hst f hf
    · exact hst

theorem descend_with_stop (val : Int) (t : TreeNode μ) :
    ∀ st : List (Frame μ), (descend_with less_than val t st).1 = .null ∨
      ∃ l m r, (descend_with less_than val t st).1 = .node l val m r := by
  induction t with
  | null => intro st; exact Or.inl rfl
  | node l v m r ihl ihr =>
    intro st
    unfold descend_with
    split_ifs with c1 c2
    · exact ihl _
    · exact ihr _
    · right
      have : v = val := not_not.1 c1
      exact ⟨l, m, r, by rw [this]⟩

/-- Under a strict weak ordering that separates the keys, the search loop keeps the keys
before its position ordered before `val` and the keys after its position ordered after
`val`. -/
theorem descend_with_between (hw : StrictWeakOrder less_than) (ht : SeparatesKeys less_than)
    (val : Int) (t : TreeNode μ) :
    ∀ st : List (Frame μ), SortedBy less_than (pathL st ++ t.keys ++ pathR st) →
      ((∀ a ∈ pathL st, less_than a val = true) ∧
        (∀ b ∈ pathR st, less_than val b = true)) →
      (∀ a ∈ pathL (descend_with less_than val t st).2, less_than a val = true) ∧
        (∀ b ∈ pathR (descend_with less_than val t st).2, less_than val b = true) := by
  obtain ⟨_, htr, _⟩ := hw
  induction t with
  | null => intro st _ hb; exact hb
  | node l v m r ihl ihr =>
    intro st hs hb
    unfold descend_with
    have hs2 := hs
    simp only [SortedBy, TreeNode.keys, List.pairwise_append, List.pairwise_cons,
      List.mem_append, List.mem_cons] at hs2
    obtain ⟨⟨_, ⟨_, ⟨hvr, _⟩, hlv⟩, _⟩, _, _⟩ := hs2
    split_ifs with c1 c2
    · refine ihl _ ?_ ?_
      · simpa [SortedBy, pathL, pathR, Frame.lkeys, Frame.rkeys, TreeNode.keys] using hs
      · refine ⟨by simpa [pathL, Frame.lkeys] using hb.1, ?_⟩
        intro b hb2
        simp only [pathR, Frame.rkeys, List.mem_append, List.mem_cons] at hb2
        rcases hb2 with (rfl | hb2) | hb2
        · exact c2
        · exact htr _ _ _ c2 (hvr b hb2)
        · exact hb.2 b hb2
    · have hv : less_than v val = true := by
        by_contra hc
        exact c1 (ht v val (by simpa using hc) (by simpa using c2))
      refine ihr _ ?_ ?_
      · simpa [SortedBy, pathL, pathR, Frame.lkeys, Frame.rkeys, TreeNode.keys] using hs
      · refine ⟨?_, by simpa [pathR, Frame.rkeys] using hb.2⟩
        intro a ha
        simp only [pathL, Frame.lkeys, List.mem_append, List.mem_singleton] at ha
        rcases ha with ha | ha | rfl
        · exact hb.1 a ha
        · exact htr _ _ _ (hlv a ha v (Or.inl rfl)) hv
        · exact hv
    · exact hb

end Comparator

namespace AVLTree

theorem add_with_link (less_than : Int → Int → Bool) (val : Int) (top : Frame Nat)
    (hd : top.dir = .LEFT ↔ less_than val top.val = true) (n : Node) :
    (if less_than val top.val = true then (top.fill .null).setLeft n
      else (top.fill .null).setRight n) = top.fill n := by
  obtain ⟨d, v, m, o⟩ := top
  cases d
  · have : less_than val v = true := by simpa using hd
    simp [Frame.fill, TreeNode.setLeft, this]
  · have : ¬ less_than val v = true := by simpa using hd
    simp [Frame.fill, TreeNode.setRight, this]

/-- Key sequence after `add` under a strict weak ordering that separates the keys: unchanged
when the key is present, otherwise the key is put between the keys ordered before it and the
keys ordered after it. -/
theorem add_with_keys (less_than : Int → Int → Bool) (hw : StrictWeakOrder less_than)
    (ht : SeparatesKeys less_than) (t : Node) (x : Int) (hs : SortedBy less_than t.keys) :
    (x ∈ t.keys ∧ add_with less_than t x = (false, t)) ∨
      (x ∉ t.keys ∧ (add_with less_than t x).1 = true ∧ ∃ l1 l2, t.keys = l1 ++ l2 ∧
        (add_with less_than t x).2.keys = l1 ++ x :: l2 ∧
        (∀ a ∈ l1, less_than a x = true) ∧ (∀ b ∈ l2, less_than x b = true)) := by
  cases t with
  | null =>
    right
    exact ⟨by simp [TreeNode.keys], rfl, [], [], by simp [TreeNode.keys, add_with, newNode]⟩
  | node l v h r =>
    have hplug := plug_descend_with less_than x (.node l v h r) ([] : List (Frame Nat))
    have hk := congrArg TreeNode.keys hplug
    rw [keys_plug] at hk
    simp only [plug] at hk
    have hb := descend_with_between less_than hw ht x (.node l v h r) []
      (by simpa [pathL, pathR] using hs) (by simp [pathL, pathR])
    have hstop := descend_with_stop less_than x (.node l v h r) ([] : List (Frame Nat))
    have hdir := descend_with_dirs less_than x (.node l v h r) ([] : List (Frame Nat))
      (by simp)
    simp only [add_with]
    generalize hT : TreeNode.node l v h r = T at hs hk hb hstop hdir hplug ⊢
    generalize descend_with less_than x T [] = res at hk hb hstop hdir hplug
    obtain ⟨t2, st2⟩ := res
    have hirr : ∀ a, less_than a a = false := hw.1
    have hnm : ∀ l1 l2 : List Int, (∀ a ∈ l1, less_than a x = true) →
        (∀ b ∈ l2, less_than x b = true) → x ∉ l1 ++ l2 := by
      intro l1 l2 h1 h2 hx
      rcases List.mem_append.1 hx with hx | hx
      · have := h1 x hx; rw [hirr] at this; cases this
      · have := h2 x hx; rw [hirr] at this; cases this
    rcases hstop with e | ⟨l2, m2, r2, e⟩
    · simp only at e
      subst e
      cases st2 with
      | nil => simp only [plug] at hplug; rw [← hplug] at hT; cases hT
      | cons top st =>
        right
        simp only [TreeNode.keys, List.append_nil] at hk
        refine ⟨by rw [← hk]; exact hnm _ _ hb.1 hb.2, rfl, pathL (top :: st),
          pathR (top :: st), hk.symm, ?_, hb.1, hb.2⟩
        simp only
        rw [add_with_link less_than x top (hdir top (by simp)), keys_rebalance, keys_fill]
        simp [newNode, TreeNode.keys, pathL, pathR]
    · simp only at e
      subst e
      left
      exact ⟨by rw [← hk]; simp [TreeNode.keys], rfl⟩

theorem lt_strictWeakOrder :
    StrictWeakOrder (fun a b => decide (a < b)) ∧ SeparatesKeys (fun a b => decide (a < b)) := by
  refine ⟨⟨fun a => by simp, fun a b c h1 h2 => ?_, fun a b c h1 h2 h3 h4 => ?_⟩,
    fun a b h1 h2 => ?_⟩
  · simp only [decide_eq_true_eq] at *
    omega
  · simp only [decide_eq_false_iff_not, not_lt] at *
    omega
  · simp only [decide_eq_false_iff_not, not_lt] at *
    omega

theorem greater_strictWeakOrder : StrictWeakOrder greater ∧ SeparatesKeys greater := by
  refine ⟨⟨fun a => by simp [greater], fun a b c h1 h2 => ?_, fun a b c h1 h2 h3 h4 => ?_⟩,
    fun a b h1 h2 => ?_⟩
  · simp only [greater, decide_eq_true_eq] at *
    omega
  · simp only [greater, decide_eq_false_iff_not, not_lt] at *
    omega
  · simp only [greater, decide_eq_false_iff_not, not_lt] at *
    omega

end AVLTree

namespace AVLTree

/-- Under a strict weak ordering that separates the keys, `add` keeps the in-order keys
strictly ascending under the comparator. -/
theorem add_with_sorted (less_than : Int → Int → Bool) (hw : StrictWeakOrder less_than)
    (ht : SeparatesKeys less_than) (t : Node) (hs : SortedBy less_than t.keys) (k : Int) :
    SortedBy less_than (add_with less_than t k).2.keys := by
  rcases add_with_keys less_than hw ht t k hs with ⟨hm, e⟩ | ⟨hm, _, l1, l2, k1, k2, b1, b2⟩
  · rw [e]
    exact hs
  · rw [k2]
    rw [k1] at hs
    obtain ⟨a1, a2, a12⟩ := List.pairwise_append.1 hs
    refine List.pairwise_append.2 ⟨a1, List.pairwise_cons.2 ⟨b2, a2⟩, ?_⟩
    intro a ha b hb
    rcases List.mem_cons.1 hb with rfl | hb
    · exact b1 a ha
    · exact a12 a ha b hb

/-- Every tree built by `add` calls from the empty tree has its in-order keys strictly
ascending under the comparator. -/
theorem build_with_sorted (less_than : Int → Int → Bool) (hw : StrictWeakOrder less_than)
    (ht : SeparatesKeys less_than) (ks : List Int) :
    SortedBy less_than (build_with less_than ks).keys := by
  have key : ∀ (ks : List Int) (t : Node), SortedBy less_than t.keys →
      SortedBy less_than (ks.foldl (fun t k => (add_with less_than t k).2) t).keys := by
    intro ks
    induction ks with
    | nil => intro t h; exact h
    | cons k ks ih =>
      intro t h
      exact ih _ (add_with_sorted less_than hw ht t h k)
  exact key ks .null (by simp [SortedBy, TreeNode.keys])

end AVLTree

/-! ## The loop of `clear` -/

namespace TreeNode

variable {μ : Type}

theorem push_child_keys (c : TreeNode μ) (st : List (TreeNode μ)) :
    ((push_child c st).map keys).flatten = c.keys ++ (st.map keys).flatten := by
  cases c <;> simp [push_child, keys]

theorem push_child_cost (c : TreeNode μ) (st : List (TreeNode μ)) :
    ((push_child c st).map clearCost).sum = c.clearCost + (st.map clearCost).sum := by
  cases c <;> simp [push_child, clearCost]

theorem push_child_ne (c : TreeNode μ) (st : List (TreeNode μ)) (h : ∀ t ∈ st, t ≠ null) :
    ∀ t ∈ push_child c st, t ≠ null := by
  cases c with
  | null => exact h
  | node l v m r =>
    intro t ht
    simp only [push_child, List.mem_cons] at ht
    rcases ht with rfl | ht
    · simp
    · exact h t ht

theorem clearCost_le (t : TreeNode μ) : t.clearCost ≤ 2 * t.size := by
  induction t with
  | null => simp [clearCost]
  | node l v m r ihl ihr =>
    cases l with
    | null =>
      cases r with
      | null => simp [clearCost, size]
      | node rl rv rm rr =>
        simp only [clearCost, size] at ihr ⊢
        omega
    | node ll lv lm lr =>
      simp only [clearCost, size] at ihl ihr ⊢
      omega

theorem clearCost_split (l r : TreeNode μ) (v : Int) (m : μ)
    (h : l ≠ null ∨ r ≠ null) : (node l v m r).clearCost = l.clearCost + r.clearCost + 2 := by
  cases l with
  | null =>
    cases r with
    | null => simp at h
    | node _ _ _ _ => rfl
  | node _ _ _ _ => rfl

theorem clear_loop_split (fuel : Nat) (l r : TreeNode μ) (v : Int) (m : μ)
    (st : List (TreeNode μ)) (freed : List Int) (h : l ≠ null ∨ r ≠ null) :
    clear_loop (fuel + 1) (node l v m r :: st) freed =
      clear_loop fuel (push_child r (push_child l (node null v m null :: st))) freed := by
  cases l with
  | null =>
    cases r with
    | null => simp at h
    | node _ _ _ _ => rfl
  | node _ _ _ _ => rfl

theorem clear_loop_spec (fuel : Nat) (st : List (TreeNode μ)) (freed : List Int)
    (hn : ∀ t ∈ st, t ≠ null) (hf : (st.map clearCost).sum ≤ fuel) :
    ∃ out, clear_loop fuel st freed = some out ∧
      out.Perm (freed ++ (st.map keys).flatten) := by
  induction fuel generalizing st freed with
  | zero =>
    cases st with
    | nil => exact ⟨freed, by simp [clear_loop]⟩
    | cons top rest =>
      exfalso
      have h1 := hn top (List.mem_cons_self _ _)
      cases top with
      | null => exact h1 rfl
      | node l v m r =>
        by_cases hc : l ≠ null ∨ r ≠ null
        · simp only [List.map_cons, List.sum_cons, clearCost_split l r v m hc] at hf
          omega
        · push_neg at hc
          obtain ⟨rfl, rfl⟩ := hc
          simp [clearCost] at hf
  | succ f ih =>
    cases st with
    | nil => exact ⟨freed, by simp [clear_loop]⟩
    | cons top rest =>
      have h1 := hn top (List.mem_cons_self _ _)
      have h2 : ∀ t ∈ rest, t ≠ null := fun t ht => hn t (List.mem_cons_of_mem _ ht)
      cases top with
      | null => exact absurd rfl h1
      | node l v m r =>
        by_cases hc : l ≠ null ∨ r ≠ null
        · rw [clear_loop_split f l r v m rest freed hc]
          simp only [List.map_cons, List.sum_cons, clearCost_split l r v m hc] at hf
          have hn2 : ∀ t ∈ push_child r (push_child l (node null v m null :: rest)),
              t ≠ null := by
            apply push_child_ne
            apply push_child_ne
            intro t ht
            simp only [List.mem_cons] at ht
            rcases ht with rfl | ht
            · simp
            · exact h2 t ht
          obtain ⟨out, o1, o2⟩ := ih _ freed hn2 (by
            rw [push_child_cost, push_child_cost]
            simp only [List.map_cons, List.sum_cons, clearCost]
            omega)
          refine ⟨out, o1, o2.trans ?_⟩
          rw [push_child_keys, push_child_keys]
          simp only [List.map_cons, List.flatten_cons, keys, List.nil_append]
          apply List.Perm.append_left
          have hp : (r.keys ++ (l.keys ++ v :: (rest.map keys).flatten)).Perm
              ((l.keys ++ v :: r.keys) ++ (rest.map keys).flatten) := by
            rw [List.append_assoc, List.cons_append]
            exact List.perm_append_comm.trans (by
              rw [List.append_assoc, List.cons_append]
              exact List.Perm.append_left _ (List.Perm.cons v List.perm_append_comm))
          exact hp
        · push_neg at hc
          obtain ⟨rfl, rfl⟩ := hc
          simp only [List.map_cons, List.sum_cons, clearCost] at hf
          obtain ⟨out, o1, o2⟩ := ih rest (v :: freed) h2 (by omega)
          refine ⟨out, by simpa [clear_loop] using o1, o2.trans ?_⟩
          simp only [List.map_cons, List.flatten_cons, keys, List.nil_append]
          have hp : (v :: freed ++ (rest.map keys).flatten).Perm
              (freed ++ v :: (rest.map keys).flatten) := by
            rw [List.cons_append]
            exact List.perm_middle.symm
          exact hp

theorem clear_nodes_spec (t : TreeNode μ) :
    ∃ out, clear_nodes t = some out ∧ out.Perm t.keys := by
  cases t with
  | null => exact ⟨[], rfl, by simp [keys]⟩
  | node l v m r =>
    obtain ⟨out, o1, o2⟩ := clear_loop_spec (2 * size (node l v m r)) [node l v m r] []
      (by simp) (by simpa using clearCost_le (node l v m r))
    exact ⟨out, o1, by simpa using o2⟩

theorem clear_eq (t : TreeNode μ) : clear t = some null := by
  obtain ⟨out, o1, _⟩ := clear_nodes_spec t
  simp [clear, o1]

end TreeNode

/-! ## AVLTree: the copy in memory -/

namespace AVLTree

theorem heap_write_length (h : Heap) (p : Nat) (f : Cell → Cell) :
    (h.write p f).length = h.length := by
  unfold Heap.write
  cases h[p]? <;> simp

theorem heap_write_ne (h : Heap) (p a : Nat) (f : Cell → Cell) (hne : a ≠ p) :
    (h.write p f)[a]? = h[a]? := by
  unfold Heap.write
  cases h[p]? with
  | none => rfl
  | some c => simp [List.getElem?_set, Ne.symm hne]

theorem heap_write_eq (h : Heap) (p : Nat) (f : Cell → Cell) (c : Cell)
    (hc : h[p]? = some c) : (h.write p f)[p]? = some (f c) := by
  have hl : p < h.length := by
    by_contra hh
    rw [List.getElem?_eq_none (by omega)] at hc
    cases hc
  unfold Heap.write
  rw [hc]
  simp [List.getElem?_set, hl]

theorem stored_frame (t : Node) : ∀ (h h2 : Heap) (lo hi : Nat) (p : Option Nat),
    Stored h lo hi p t → (∀ a, lo ≤ a → a < hi → h2[a]? = h[a]?) →
    Stored h2 lo hi p t := by
  induction t with
  | null =>
    intro h h2 lo hi p hs _
    cases p with
    | none => trivial
    | some _ => exact hs.elim
  | node l v ht r ihl ihr =>
    intro h h2 lo hi p hs hf
    cases p with
    | none => exact hs.elim
    | some a =>
      obtain ⟨s1, s2, c, s3, s4, s5, s6, s7⟩ := hs
      exact ⟨s1, s2, c, by rw [hf a s1 s2]; exact s3, s4, s5, ihl h h2 lo hi _ s6 hf,
        ihr h h2 lo hi _ s7 hf⟩

theorem stored_mono (t : Node) : ∀ (h : Heap) (lo hi lo2 hi2 : Nat) (p : Option Nat),
    Stored h lo hi p t → lo2 ≤ lo → hi ≤ hi2 → Stored h lo2 hi2 p t := by
  induction t with
  | null =>
    intro h lo hi lo2 hi2 p hs _ _
    cases p with
    | none => trivial
    | some _ => exact hs.elim
  | node l v ht r ihl ihr =>
    intro h lo hi lo2 hi2 p hs h1 h2
    cases p with
    | none => exact hs.elim
    | some a =>
      obtain ⟨s1, s2, c, s3, s4, s5, s6, s7⟩ := hs
      exact ⟨by omega, by omega, c, s3, s4, s5, ihl h lo hi lo2 hi2 _ s6 h1 h2,
        ihr h lo hi lo2 hi2 _ s7 h1 h2⟩

end AVLTree

namespace AVLTree

theorem copy_spec (t : Node) : ∀ (fuel : Nat) (h : Heap) (n : Nat) (p : Option Nat),
    n ≤ h.length → Stored h 0 n p t → t.depth < fuel →
    ∃ q h2, copy fuel h p = some (q, h2) ∧ h.length ≤ h2.length ∧
      (∀ a, a < h.length → h2[a]? = h[a]?) ∧ Stored h2 h.length h2.length q t := by
  induction t with
  | null =>
    intro fuel h n p _ hs _
    cases p with
    | some _ => exact hs.elim
    | none =>
      refine ⟨none, h, ?_, le_refl _, fun _ _ => rfl, trivial⟩
      cases fuel <;> rfl
  | node l v ht r ihl ihr =>
    intro fuel h n p hn hs hf
    cases p with
    | none => exact hs.elim
    | some a =>
      obtain ⟨_, s2, c, s3, s4, s5, s6, s7⟩ := hs
      cases fuel with
      | zero => omega
      | succ f =>
        simp only [TreeNode.depth] at hf
        -- the new object
        let h1 : Heap := h ++ [⟨c.val, none, none, 1⟩]
        let h2 : Heap := h1.write h.length (fun x => { x with height := c.height })
        have a1 : ∀ b, b < h.length → h1[b]? = h[b]? := fun b hb =>
          List.getElem?_append_left hb
        have n1 : h1[h.length]? = some ⟨c.val, none, none, 1⟩ := by
          simp [h1]
        have a2 : ∀ b, b < h.length → h2[b]? = h[b]? := fun b hb => by
          rw [heap_write_ne _ _ _ _ (by omega)]
          exact a1 b hb
        have n2 : h2[h.length]? = some ⟨c.val, none, none, c.height⟩ := by
          rw [heap_write_eq _ _ _ _ n1]
        have l2 : h2.length = h.length + 1 := by
          simp [h2, h1, heap_write_length]
        -- the left subtree
        obtain ⟨ql, h3, e3, len3, ag3, st3⟩ := ihl f h2 n c.left (by omega)
          (stored_frame l h h2 0 n _ s6 (fun b _ hb => a2 b (by omega))) (by omega)
        let h4 : Heap := h3.write h.length (fun x => { x with left := ql })
        have a4 : ∀ b, b < h.length → h4[b]? = h[b]? := fun b hb => by
          rw [heap_write_ne _ _ _ _ (by omega), ag3 b (by omega)]
          exact a2 b hb
        have n4 : h4[h.length]? = some ⟨c.val, ql, none, c.height⟩ := by
          rw [heap_write_eq _ _ _ _ ((ag3 _ (by omega)).trans n2)]
        have l4 : h4.length = h3.length := heap_write_length _ _ _
        -- the right subtree
        obtain ⟨qr, h5, e5, len5, ag5, st5⟩ := ihr f h4 n c.right (by omega)
          (stored_frame r h h4 0 n _ s7 (fun b _ hb => a4 b (by omega))) (by omega)
        let h6 : Heap := h5.write h.length (fun x => { x with right := qr })
        have n6 : h6[h.length]? = some ⟨c.val, ql, qr, c.height⟩ := by
          rw [heap_write_eq _ _ _ _ ((ag5 _ (by omega)).trans n4)]
        have l6 : h6.length = h5.length := heap_write_length _ _ _
        have r0 : h.read a Cell.val = some c.val := by simp [Heap.read, s3]
        have r1 : h1.read a Cell.height = some c.height := by
          simp [Heap.read, a1 a (by omega), s3]
        have r2 : h2.read a Cell.left = some c.left := by
          simp [Heap.read, a2 a (by omega), s3]
        have r4 : h4.read a Cell.right = some c.right := by
          simp [Heap.read, a4 a (by omega), s3]
        refine ⟨some h.length, h6, ?_, by omega, fun b hb => ?_, ?_⟩
        · simp only [copy, r0, r1, r2, e3, r4, e5, h1, h2, h4, h6]
        · rw [heap_write_ne _ _ _ _ (by omega), ag5 b (by omega)]
          exact a4 b hb
        · refine ⟨le_refl _, by omega, _, n6, s4, s5, ?_, ?_⟩
          · apply stored_mono l h6 h2.length h3.length _ _ _ _ (by omega) (by omega)
            apply stored_frame l h3 h6 _ _ _ st3
            intro b hb1 hb2
            rw [heap_write_ne _ _ _ _ (by omega), ag5 b (by omega),
              heap_write_ne _ _ _ _ (by omega)]
          · apply stored_mono r h6 h4.length h5.length _ _ _ _ (by omega) (by omega)
            apply stored_frame r h5 h6 _ _ _ st5
            intro b hb1 hb2
            rw [heap_write_ne _ _ _ _ (by omega)]

end AVLTree
/-! ## BTree: the events of `add` and `remove` -/

namespace BTree

/-- In the descent of `add` through a well-formed subtree that is not full, every event is in
bounds; and when the descent returns true, a leaf has received the key. -/
theorem bt_add_loop_events (N : Nat) (hN : 1 < N) (val : Int) :
    ∀ (h fuel lo : Nat) (curr : Node), h < fuel → WF N lo h curr →
      curr.num_keys < 2 * N - 1 →
      (∀ e ∈ add_loop_events N fuel curr val, e.InBounds N) ∧
      ((add_loop N fuel curr val).1 = true →
        ∃ held, AddEvent.receive held (held + 1) 0 ∈ add_loop_events N fuel curr val) := by
  intro h
  induction h with
  | zero =>
    intro fuel lo curr hf hw hnf
    obtain ⟨k, rfl⟩ : ∃ k, fuel = k + 1 := ⟨fuel - 1, by omega⟩
    simp only [add_loop_events, add_loop]
    split_ifs with c1 c2 c3 c4 c5
    · exact ⟨by simp, by simp⟩
    · refine ⟨?_, fun _ => ⟨curr.num_keys, by simp⟩⟩
      intro e he
      simp only [List.mem_singleton] at he
      subst he
      simp only [AddEvent.InBounds]
      omega
    all_goals (simp only [WF] at hw; simp [hw.1] at c2)
  | succ h ih =>
    intro fuel lo curr hf hw hnf
    obtain ⟨k, rfl⟩ : ∃ k, fuel = k + 1 := ⟨fuel - 1, by omega⟩
    have hr := bt_bin_search_range curr val
    have hw2 := hw
    simp only [WF] at hw2
    obtain ⟨w1, w2, w3, w4, w5⟩ := hw2
    have hi : (bin_search curr val + 1).toNat < curr.children.length := by omega
    have hcw := w5 _ (bt_child_mem curr _ hi)
    have hev : ∀ e ∈ [AddEvent.receive curr.num_keys (curr.num_keys + 1) (curr.num_keys + 2),
        AddEvent.split (N - 1) (2 * N)], e.InBounds N := by
      intro e he
      simp only [List.mem_cons, List.mem_singleton, List.not_mem_nil, or_false] at he
      rcases he with rfl | rfl <;> simp only [AddEvent.InBounds] <;> omega
    simp only [add_loop_events, add_loop]
    split_ifs with c1 c2 c3 c4 c5
    · exact ⟨by simp, by simp⟩
    · simp [w1] at c2
    · obtain ⟨s1, s2, s3, s4⟩ := bt_split_divide_wf N _ h hN _ hcw c3
      obtain ⟨i1, i2⟩ := ih k (N - 1) _ (by omega) s1 (by omega)
      refine ⟨?_, fun hb => ?_⟩
      · intro e he
        rcases List.mem_append.1 he with he | he
        · exact hev e he
        · exact i1 e he
      · obtain ⟨held, hh⟩ := i2 hb
        exact ⟨held, List.mem_append_right _ hh⟩
    · exact ⟨hev, by simp⟩
    · obtain ⟨s1, s2, s3, s4⟩ := bt_split_divide_wf N _ h hN _ hcw c3
      obtain ⟨i1, i2⟩ := ih k (N - 1) _ (by omega) s2 (by omega)
      refine ⟨?_, fun hb => ?_⟩
      · intro e he
        rcases List.mem_append.1 he with he | he
        · exact hev e he
        · exact i1 e he
      · obtain ⟨held, hh⟩ := i2 hb
        exact ⟨held, List.mem_append_right _ hh⟩
    · have := bt_wf_hi N _ _ _ hcw
      exact ih k (N - 1) _ (by omega) hcw (by omega)

end BTree

namespace BTree

theorem bt_remove_events_child (N k h : Nat) (hN : 1 < N) (val : Int)
    (ih : ∀ node : Node, WF N 1 h node → ∀ e ∈ remove_loop_events N k node val, e.Ok N)
    (c : Node) (hc : WF N (N - 1) h c) (hn : N ≤ c.num_keys) :
    ∀ e ∈ RemoveEvent.enter c.num_keys :: remove_loop_events N k c val, e.Ok N := by
  intro e he
  rcases List.mem_cons.1 he with rfl | he
  · exact hn
  · exact ih c (bt_wf_mono N _ 1 h c hc (by omega)) e he

theorem bt_remove_events_merge (N k h : Nat) (hN : 1 < N) (val : Int)
    (ih : ∀ node : Node, WF N 1 h node → ∀ e ∈ remove_loop_events N k node val, e.Ok N)
    (a b : Node) (m : Int) (ha : WF N (N - 1) h a) (hb : WF N (N - 1) h b)
    (ca : ¬ N ≤ a.num_keys) (cb : ¬ N ≤ b.num_keys) :
    ∀ e ∈ merge_event N a b m :: RemoveEvent.enter (merge N a b m).num_keys ::
      remove_loop_events N k (merge N a b m) val, e.Ok N := by
  have la := bt_wf_lo _ _ _ _ ha
  have lb := bt_wf_lo _ _ _ _ hb
  obtain ⟨m1, m2⟩ := bt_merge_wf N h hN a b m ha hb (by omega) (by omega)
  intro e he
  rcases List.mem_cons.1 he with rfl | he
  · simp only [merge_event, RemoveEvent.Ok]
    omega
  · exact bt_remove_events_child N k h hN val ih _ m1 (by omega) e he

/-- In the descent of `remove` through a well-formed subtree whose top holds a key, every
node entered holds at least `N` keys and every merge joins two nodes of `N - 1` keys. -/
theorem bt_remove_loop_events (N : Nat) (hN : 1 < N) (val : Int) :
    ∀ (h fuel : Nat) (node : Node), h < fuel → WF N 1 h node →
      ∀ e ∈ remove_loop_events N fuel node val, e.Ok N := by
  intro h
  induction h with
  | zero =>
    intro fuel node hf hw
    obtain ⟨k, rfl⟩ : ∃ k, fuel = k + 1 := ⟨fuel - 1, by omega⟩
    simp only [WF] at hw
    simp [remove_loop_events, hw.1]
  | succ h ih =>
    intro fuel node hf hw
    obtain ⟨k, rfl⟩ : ∃ k, fuel = k + 1 := ⟨fuel - 1, by omega⟩
    have ih2 : ∀ node : Node, WF N 1 h node →
        ∀ e ∈ remove_loop_events N k node val, e.Ok N :=
      fun nd h1 => ih k nd (by omega) h1
    obtain ⟨ks, cs, lf⟩ := node
    have hr := bt_bin_search_range (Node.mk ks cs lf) val
    have hw2 := hw
    simp only [WF, bt_children_mk, bt_leaf_mk, bt_num_keys_mk] at hw2 hr
    obtain ⟨h1, h2, h3, h4, h5⟩ := hw2
    subst h1
    simp only [remove_loop_events, bt_leaf_mk, Bool.false_eq_true, if_false, bt_num_keys_mk]
    generalize bin_search (Node.mk ks cs false) val = idx at hr ⊢
    split_ifs with c1 c2 c3 c4 c5 c6 c7 c8 c9 c10
    · -- 2a: predecessor
      obtain ⟨pre, a, b, post, rfl, hl⟩ := bt_children_split2 cs idx.toNat (by omega)
      simp only [bt_child_at _ _ _ _ _ _ hl] at c2 ⊢
      obtain ⟨w1, w2, w3, w4, w5, w6, w7, w8⟩ := (bt_wf_mk_iff2 _ _ _ _ _ _ _ _ _).1 hw
      obtain ⟨s1, s2⟩ := bt_swap_pred_wf N val h k (N - 1) a w6
      exact bt_remove_events_child N k h hN val ih2 _ s1 (by omega)
    · -- 2b: successor
      obtain ⟨pre, a, b, post, rfl, hl⟩ := bt_children_split2 cs idx.toNat (by omega)
      simp only [bt_child_at1 _ _ _ _ _ _ _ hl] at c3 ⊢
      obtain ⟨w1, w2, w3, w4, w5, w6, w7, w8⟩ := (bt_wf_mk_iff2 _ _ _ _ _ _ _ _ _).1 hw
      obtain ⟨s1, s2⟩ := bt_swap_succ_wf N val h k (N - 1) b w7
      exact bt_remove_events_child N k h hN val ih2 _ s1 (by omega)
    · -- 2c: merge around the key
      obtain ⟨pre, a, b, post, rfl, hl⟩ := bt_children_split2 cs idx.toNat (by omega)
      simp only [bt_child_at _ _ _ _ _ _ hl, bt_child_at1 _ _ _ _ _ _ _ hl] at c2 c3 ⊢
      obtain ⟨w1, w2, w3, w4, w5, w6, w7, w8⟩ := (bt_wf_mk_iff2 _ _ _ _ _ _ _ _ _).1 hw
      rw [bt_merge_right_eq N ks pre post a b false _ hl, bt_child_at _ _ _ _ _ _ hl]
      simp only [Node.key, bt_keys_mk]
      exact bt_remove_events_merge N k h hN val ih2 a b _ w6 w7 c2 c3
    · -- 3: the child can spare a key
      obtain ⟨pre, c, post, rfl, hl⟩ := bt_children_split cs (idx + 1).toNat (by omega)
      simp only [bt_child_at _ _ _ _ _ _ hl] at c4 ⊢
      obtain ⟨w1, w2, w3, w4, w5, w6, w7⟩ := (bt_wf_mk_iff1 _ _ _ _ _ _ _ _).1 hw
      exact bt_remove_events_child N k h hN val ih2 _ w6 c4
    · -- 3a leftmost child: borrow from the right sibling
      obtain ⟨pre, a, b, post, rfl, hl⟩ := bt_children_split2 cs (idx + 1).toNat (by omega)
      simp only [bt_child_at _ _ _ _ _ _ hl, bt_child_at1 _ _ _ _ _ _ _ hl] at c4 c6
      obtain ⟨w1, w2, w3, w4, w5, w6, w7, w8⟩ := (bt_wf_mk_iff2 _ _ _ _ _ _ _ _ _).1 hw
      obtain ⟨l1, l2⟩ := bt_left_shift_children_wf N h hN a b (ks.getD (idx + 1).toNat 0) w6 w7
        (by omega) c6
      rw [bt_left_shift_eq ks pre post a b false _ hl, bt_child_at _ _ _ _ _ _ hl]
      have ca := bt_wf_lo _ _ _ _ w6
      exact bt_remove_events_child N k h hN val ih2 _ l1
        (by simp only [bt_num_keys_mk, List.length_append, List.length_singleton]
            unfold Node.num_keys at ca; omega)
    · -- 3b leftmost child: merge with the right sibling
      obtain ⟨pre, a, b, post, rfl, hl⟩ := bt_children_split2 cs (idx + 1).toNat (by omega)
      simp only [bt_child_at _ _ _ _ _ _ hl, bt_child_at1 _ _ _ _ _ _ _ hl] at c4 c6 ⊢
      obtain ⟨w1, w2, w3, w4, w5, w6, w7, w8⟩ := (bt_wf_mk_iff2 _ _ _ _ _ _ _ _ _).1 hw
      rw [bt_merge_right_eq N ks pre post a b false _ hl, bt_child_at _ _ _ _ _ _ hl]
      simp only [Node.key, bt_keys_mk]
      exact bt_remove_events_merge N k h hN val ih2 a b _ w6 w7 c4 c6
    · -- 3a rightmost child: borrow from the left sibling
      obtain ⟨j, hj⟩ : ∃ j, (idx + 1).toNat = j + 1 := ⟨(idx + 1).toNat - 1, by omega⟩
      rw [hj] at c4 c8 ⊢
      simp only [Nat.add_sub_cancel] at c8 ⊢
      obtain ⟨pre, a, b, post, rfl, hl⟩ := bt_children_split2 cs j (by omega)
      simp only [bt_child_at _ _ _ _ _ _ hl, bt_child_at1 _ _ _ _ _ _ _ hl] at c4 c8
      obtain ⟨w1, w2, w3, w4, w5, w6, w7, w8⟩ := (bt_wf_mk_iff2 _ _ _ _ _ _ _ _ _).1 hw
      obtain ⟨l1, l2⟩ := bt_right_shift_children_wf N h hN a b (ks.getD j 0) w6 w7
        c8 (by omega)
      rw [bt_right_shift_eq ks pre post a b false _ hl, bt_child_at1 _ _ _ _ _ _ _ hl]
      have cb := bt_wf_lo _ _ _ _ w7
      exact bt_remove_events_child N k h hN val ih2 _ l2
        (by simp only [bt_num_keys_mk, List.length_cons]
            unfold Node.num_keys at cb; omega)
    · -- 3b rightmost child: merge with the left sibling
      obtain ⟨j, hj⟩ : ∃ j, (idx + 1).toNat = j + 1 := ⟨(idx + 1).toNat - 1, by omega⟩
      rw [hj] at c4 c7 c8 ⊢
      simp only [Nat.add_sub_cancel] at c8 ⊢
      obtain ⟨pre, a, b, post, rfl, hl⟩ := bt_children_split2 cs j (by omega)
      have hpost : post = [] := by
        simp only [List.length_append, List.length_cons] at h2
        exact List.length_eq_zero.1 (by omega)
      subst hpost
      simp only [bt_child_at _ _ _ _ _ _ hl, bt_child_at1 _ _ _ _ _ _ _ hl] at c4 c8 ⊢
      obtain ⟨w1, w2, w3, w4, w5, w6, w7, w8⟩ := (bt_wf_mk_iff2 _ _ _ _ _ _ _ _ _).1 hw
      rw [bt_merge_last_eq N ks pre a b false _ hl, bt_child_at _ _ _ _ _ _ hl]
      simp only [Node.key, bt_keys_mk]
      exact bt_remove_events_merge N k h hN val ih2 a b _ w6 w7 c8 c4
    · -- 3a inner child: borrow from the right sibling
      obtain ⟨pre, a, b, post, rfl, hl⟩ := bt_children_split2 cs (idx + 1).toNat (by omega)
      simp only [bt_child_at _ _ _ _ _ _ hl, bt_child_at1 _ _ _ _ _ _ _ hl] at c4 c9
      obtain ⟨w1, w2, w3, w4, w5, w6, w7, w8⟩ := (bt_wf_mk_iff2 _ _ _ _ _ _ _ _ _).1 hw
      obtain ⟨l1, l2⟩ := bt_left_shift_children_wf N h hN a b (ks.getD (idx + 1).toNat 0) w6 w7
        (by omega) c9
      rw [bt_left_shift_eq ks pre post a b false _ hl, bt_child_at _ _ _ _ _ _ hl]
      have ca := bt_wf_lo _ _ _ _ w6
      exact bt_remove_events_child N k h hN val ih2 _ l1
        (by simp only [bt_num_keys_mk, List.length_append, List.length_singleton]
            unfold Node.num_keys at ca; omega)
    · -- 3a inner child: borrow from the left sibling
      obtain ⟨j, hj⟩ : ∃ j, (idx + 1).toNat = j + 1 := ⟨(idx + 1).toNat - 1, by omega⟩
      rw [hj] at c4 c9 c10 ⊢
      simp only [Nat.add_sub_cancel] at c10 ⊢
      obtain ⟨pre, a, b, post, rfl, hl⟩ := bt_children_split2 cs j (by omega)
      simp only [bt_child_at _ _ _ _ _ _ hl, bt_child_at1 _ _ _ _ _ _ _ hl] at c4 c9 c10
      obtain ⟨w1, w2, w3, w4, w5, w6, w7, w8⟩ := (bt_wf_mk_iff2 _ _ _ _ _ _ _ _ _).1 hw
      obtain ⟨l1, l2⟩ := bt_right_shift_children_wf N h hN a b (ks.getD j 0) w6 w7
        c10 (by omega)
      rw [bt_right_shift_eq ks pre post a b false _ hl, bt_child_at1 _ _ _ _ _ _ _ hl]
      have cb := bt_wf_lo _ _ _ _ w7
      exact bt_remove_events_child N k h hN val ih2 _ l2
        (by simp only [bt_num_keys_mk, List.length_cons]
            unfold Node.num_keys at cb; omega)
    · -- 3b inner child: merge with the right sibling
      obtain ⟨pre, a, b, post, rfl, hl⟩ := bt_children_split2 cs (idx + 1).toNat (by omega)
      simp only [bt_child_at _ _ _ _ _ _ hl, bt_child_at1 _ _ _ _ _ _ _ hl] at c4 c9 ⊢
      obtain ⟨w1, w2, w3, w4, w5, w6, w7, w8⟩ := (bt_wf_mk_iff2 _ _ _ _ _ _ _ _ _).1 hw
      rw [bt_merge_right_eq N ks pre post a b false _ hl, bt_child_at _ _ _ _ _ _ hl]
      simp only [Node.key, bt_keys_mk]
      exact bt_remove_events_merge N k h hN val ih2 a b _ w6 w7 c4 c9

end BTree

namespace BTree

/-- The events of the descent of `add` do not depend on the bound, once it is above the
height: the list is never cut short. -/
theorem bt_add_loop_events_fuel (N : Nat) (val : Int) :
    ∀ (h f1 f2 : Nat) (curr : Node), h < f1 → h < f2 → Shallow h curr →
      add_loop_events N f1 curr val = add_loop_events N f2 curr val := by
  intro h
  induction h with
  | zero =>
    intro f1 f2 curr h1 h2 hs
    obtain ⟨a, rfl⟩ : ∃ a, f1 = a + 1 := ⟨f1 - 1, by omega⟩
    obtain ⟨b, rfl⟩ : ∃ b, f2 = b + 1 := ⟨f2 - 1, by omega⟩
    simp only [add_loop_events, hs.1, if_true]
  | succ h ih =>
    intro f1 f2 curr h1 h2 hs
    obtain ⟨a, rfl⟩ : ∃ a, f1 = a + 1 := ⟨f1 - 1, by omega⟩
    obtain ⟨b, rfl⟩ : ∃ b, f2 = b + 1 := ⟨f2 - 1, by omega⟩
    simp only [add_loop_events]
    generalize (bin_search curr val + 1).toNat = i
    have hc := bt_shallow_child h curr i hs
    obtain ⟨s1, s2⟩ := bt_shallow_split_divide N h _ hc
    rw [ih a b _ (by omega) (by omega) hc, ih a b _ (by omega) (by omega) s1,
      ih a b _ (by omega) (by omega) s2]

/-- The events of the descent of `remove` do not depend on the bound, once it is above the
height: the list is never cut short. -/
theorem bt_remove_loop_events_fuel (N : Nat) (val : Int) :
    ∀ (h f1 f2 : Nat) (node : Node), h < f1 → h < f2 → Shallow h node →
      remove_loop_events N f1 node val = remove_loop_events N f2 node val := by
  intro h
  induction h with
  | zero =>
    intro f1 f2 node h1 h2 hs
    obtain ⟨a, rfl⟩ : ∃ a, f1 = a + 1 := ⟨f1 - 1, by omega⟩
    obtain ⟨b, rfl⟩ : ∃ b, f2 = b + 1 := ⟨f2 - 1, by omega⟩
    simp only [remove_loop_events, hs.1, if_true]
  | succ h ih =>
    intro f1 f2 node h1 h2 hs
    obtain ⟨a, rfl⟩ : ∃ a, f1 = a + 1 := ⟨f1 - 1, by omega⟩
    obtain ⟨b, rfl⟩ : ∃ b, f2 = b + 1 := ⟨f2 - 1, by omega⟩
    have ih2 : ∀ c : Node, Shallow h c →
        remove_loop_events N a c val = remove_loop_events N b c val :=
      fun c hc => ih a b c (by omega) (by omega) hc
    simp only [remove_loop_events]
    generalize bin_search node val = idx
    have p1 := bt_swap_pred_fuel val h a b (node.child idx.toNat) (by omega) (by omega)
      (bt_shallow_child h node _ hs)
    have p2 := bt_swap_succ_fuel val h a b (node.child (idx.toNat + 1)) (by omega) (by omega)
      (bt_shallow_child h node _ hs)
    have q1 := ih2 _ p1.2
    have q2 := ih2 _ p2.2
    rw [p1.1] at q1
    rw [p2.1] at q2
    simp only [p1.1, p2.1, q1, q2,
      ih2 _ (bt_shallow_child h node (idx + 1).toNat hs),
      ih2 _ (bt_shallow_child h _ idx.toNat (bt_shallow_merge_right N h node idx.toNat hs)),
      ih2 _ (bt_shallow_child h _ (idx + 1).toNat
        (bt_shallow_merge_right N h node (idx + 1).toNat hs)),
      ih2 _ (bt_shallow_child h _ (idx + 1).toNat
        (bt_shallow_left_shift h node (idx + 1).toNat hs)),
      ih2 _ (bt_shallow_child h _ (idx + 1).toNat
        (bt_shallow_right_shift h node (idx + 1).toNat hs)),
      ih2 _ (bt_shallow_child h _ ((idx + 1).toNat - 1)
        (bt_shallow_merge_last N h node (idx + 1).toNat hs))]

/-- On a well-formed subtree the event lists are the same for every bound from the depth of
the subtree on, which is the bound `add_events` and `remove_events` pass. -/
theorem bt_events_fuel (N lo h : Nat) (node : Node) (val : Int) (hw : WF N lo h node)
    (fuel : Nat) (hf : node.depth ≤ fuel) :
    add_loop_events N fuel node val = add_loop_events N node.depth node val ∧
      remove_loop_events N fuel node val = remove_loop_events N node.depth node val := by
  have hd := bt_wf_depth N h lo node hw
  have hs := bt_wf_shallow N h lo node hw
  exact ⟨bt_add_loop_events_fuel N val h _ _ node (by omega) (by omega) hs,
    bt_remove_loop_events_fuel N val h _ _ node (by omega) (by omega) hs⟩

end BTree
/-! ## AVLTree: the claims -/

namespace AVLTree

/-- C1: for every AVL tree that satisfies the AVL invariant (strictly ascending keys, child
heights differing by at most 1 at every node, every stored height equal to 1 + the maximum of
the children's true heights) and every key `x`, both the tree after `add(x)` and the tree
after `remove(x)` again have child heights differing by at most 1 at every node and every
stored height correct. -/
theorem add_remove_keep_heightBalanced (t : Node) (x : Int)
    (_hs : Ascending t.keys) (hb : HeightBalanced t) :
    HeightBalanced (add t x).2 ∧ HeightBalanced (remove t x).2 :=
  ⟨add_heightBalanced t x hb, remove_heightBalanced t x hb⟩

theorem add_remove_keep_heightBalanced_witness :
    Ascending sampleTree.keys ∧ HeightBalanced sampleTree ∧
      HeightBalanced (add sampleTree 20).2 ∧ HeightBalanced (remove sampleTree 20).2 :=
  ⟨by decide, by decide,
    add_remove_keep_heightBalanced sampleTree 20 (by decide) (by decide)⟩

/-- C6: every finite sequence of add/find/remove calls applied to an initially empty
`AVLTree<int>` and in lockstep to the reference set returns the same booleans, and afterwards
`find(k)` equals membership of `k` in the reference set for every `k`. -/
theorem oracle_equivalence (ops : List Op) :
    (runOps step .null ops).1 = (runOps refStep ∅ ops).1 ∧
      ∀ k, find (runOps step .null ops).2 k = decide (k ∈ (runOps refStep ∅ ops).2) := by
  refine runOps_refines step TreeNode.keys find (fun t => Ascending t.keys) ?_ ?_ ops .null ∅
    (by simp [TreeNode.keys, Ascending]) (by simp [TreeNode.keys])
  · intro t op hs
    cases op with
    | add k => exact add_spec t k hs
    | find k =>
      refine ⟨hs, ?_⟩
      simp only [step, StepSpec]
      refine ⟨find_eq_mem t k hs, ?_⟩
      intro j
      trivial
    | remove k => exact remove_spec t k hs
  · intro t k hs
    exact find_eq_mem t k hs

/-- C10: for every AVL tree whose in-order key sequence is strictly ascending and every key
`x`, the in-order key sequence of the tree after `add(x)` and of the tree after `remove(x)`
is strictly ascending; equivalently every node's key is strictly greater than all keys in
its left subtree and strictly less than all keys in its right subtree. -/
theorem add_remove_keep_ascending (t : Node) (x : Int) (hs : Ascending t.keys) :
    (Ascending (add t x).2.keys ∧ (add t x).2.Ordered) ∧
      (Ascending (remove t x).2.keys ∧ (remove t x).2.Ordered) :=
  ⟨⟨(add_spec t x hs).1, (ascending_keys_iff_ordered _).1 (add_spec t x hs).1⟩,
    ⟨(remove_spec t x hs).1, (ascending_keys_iff_ordered _).1 (remove_spec t x hs).1⟩⟩

theorem add_remove_keep_ascending_witness :
    Ascending sampleTree.keys ∧
      (Ascending (add sampleTree 35).2.keys ∧ (add sampleTree 35).2.Ordered) ∧
      (Ascending (remove sampleTree 20).2.keys ∧ (remove sampleTree 20).2.Ordered) :=
  ⟨by decide, (add_remove_keep_ascending sampleTree 35 (by decide)).1,
    (add_remove_keep_ascending sampleTree 20 (by decide)).2⟩

end AVLTree
/-! ## RBTree: the claims -/

namespace RBTree

/-- The balancing loop of `add` is always left through its guard within the iterations the
model grants it: the model never cuts the loop short. -/
theorem rb_add_loop_exits (n : Node) (st : List (Frame color_t)) (hi : AddInv (n, st)) :
    add_step (add_loop (2 * st.length + 3) (n, st)) = none := by
  have := rb_add_measure_le n st
  exact (rb_add_loop_spec _ _ hi (by omega)).2

/-- C2: for every red-black tree with strictly ascending keys, no red node with a red child
and the same number of black nodes on every root-to-null path, and every key `x`, the tree
after `add(x)` has no red node with a red child and the same number of black nodes on every
root-to-null path. -/
theorem rb_add_keeps_colour_invariants (t : Node) (x : Int)
    (_hs : Ascending t.keys) (h1 : NoRedRed t) (h2 : BlackBalanced t) :
    NoRedRed (add t x).2 ∧ BlackBalanced (add t x).2 :=
  rb_add_valid t x h1 h2

theorem rb_add_keeps_colour_invariants_witness :
    Ascending sampleTree.keys ∧ NoRedRed sampleTree ∧ BlackBalanced sampleTree ∧
      NoRedRed (add sampleTree 12).2 ∧ BlackBalanced (add sampleTree 12).2 :=
  ⟨by decide, by decide, by decide,
    rb_add_keeps_colour_invariants sampleTree 12 (by decide) (by decide) (by decide)⟩

/-- C3: for every red-black tree with strictly ascending keys, no red node with a red child
and the same number of black nodes on every root-to-null path, and every key `x`, the tree
after `remove(x)` (two-children successor swap, one-child splice and the black-leaf repair of
`black_leaf_delete` included) has no red node with a red child and the same number of black
nodes on every root-to-null path. -/
theorem rb_remove_keeps_colour_invariants (t : Node) (x : Int)
    (_hs : Ascending t.keys) (h1 : NoRedRed t) (h2 : BlackBalanced t) :
    NoRedRed (remove t x).2 ∧ BlackBalanced (remove t x).2 :=
  rb_remove_valid t x h1 h2

theorem rb_remove_keeps_colour_invariants_witness :
    Ascending sampleTree.keys ∧ NoRedRed sampleTree ∧ BlackBalanced sampleTree ∧
      NoRedRed (remove sampleTree 30).2 ∧ BlackBalanced (remove sampleTree 30).2 :=
  ⟨by decide, by decide, by decide,
    rb_remove_keeps_colour_invariants sampleTree 30 (by decide) (by decide) (by decide)⟩

/-- C7: every finite sequence of add/find/remove calls applied to an initially empty
`RBTree<int>` and in lockstep to the reference set returns the same booleans, and afterwards
`find(k)` equals membership of `k` in the reference set for every `k`. -/
theorem rb_oracle_equivalence (ops : List Op) :
    (runOps step .null ops).1 = (runOps refStep ∅ ops).1 ∧
      ∀ k, find (runOps step .null ops).2 k = decide (k ∈ (runOps refStep ∅ ops).2) := by
  refine runOps_refines step TreeNode.keys find
    (fun t => Ascending t.keys ∧ NoRedRed t ∧ BlackBalanced t) ?_ ?_ ops .null ∅
    ⟨by simp [TreeNode.keys, Ascending], trivial, trivial⟩ (by simp [TreeNode.keys])
  · intro t op hi
    obtain ⟨hs, h1, h2⟩ := hi
    cases op with
    | add k => exact ⟨⟨(rb_add_spec t k hs).1, rb_add_valid t k h1 h2⟩, (rb_add_spec t k hs).2⟩
    | find k =>
      refine ⟨⟨hs, h1, h2⟩, ?_⟩
      simp only [step, StepSpec]
      refine ⟨rb_find_eq_mem t k hs, ?_⟩
      intro j
      trivial
    | remove k =>
      exact ⟨⟨(rb_remove_spec t k hs).1, rb_remove_valid t k h1 h2⟩, (rb_remove_spec t k hs).2⟩
  · intro t k hi
    exact rb_find_eq_mem t k hi.1

end RBTree
/-! ## SplayTree: the claims -/

namespace SplayTree

/-- C8: every finite sequence of add/find/remove calls applied to an initially empty
`SplayTree<int>` and in lockstep to the reference set returns the same booleans, and
afterwards `find(k)` equals membership of `k` in the reference set for every `k`. -/
theorem splay_oracle_equivalence (ops : List Op) :
    (runOps step .null ops).1 = (runOps refStep ∅ ops).1 ∧
      ∀ k, contains (runOps step .null ops).2 k = decide (k ∈ (runOps refStep ∅ ops).2) := by
  refine runOps_refines step TreeNode.keys contains (fun t => Ascending t.keys) ?_ ?_ ops .null ∅
    (by simp [TreeNode.keys, Ascending]) (by simp [TreeNode.keys])
  · intro t op hs
    exact splay_step_spec t op hs
  · intro t k hs
    exact (splay_find_spec t k hs).1

end SplayTree
/-! ## BTree: the claims -/

namespace BTree

/-- C4: for every minimum degree `N > 1`, every `BTree` that satisfies the B-tree invariant
(every non-root node holds between `N-1` and `2N-1` keys, a non-null root holds between 1 and
`2N-1` keys, every internal node with `k` keys has exactly `k+1` children in its slots
`children[0..k]`, all leaves are at the same depth) and every key `x`, the tree after `add(x)`
is non-empty and satisfies the same invariant. -/
theorem bt_add_keeps_invariant (N : Nat) (hN : 1 < N) (root : Option Node) (x : Int)
    (hi : Inv N root) : (add N root x).2 ≠ none ∧ Inv N (add N root x).2 := by
  refine ⟨?_, bt_add_inv N hN root x hi⟩
  cases root <;> simp [add]

theorem bt_add_keeps_invariant_witness :
    1 < 2 ∧ Inv 2 sampleRoot ∧ (add 2 sampleRoot 17).2 ≠ none ∧ Inv 2 (add 2 sampleRoot 17).2 :=
  ⟨by decide, ⟨1, by simp [WF, Node.leaf, Node.children, Node.num_keys, Node.keys]⟩,
    bt_add_keeps_invariant 2 (by decide) sampleRoot 17
      ⟨1, by simp [WF, Node.leaf, Node.children, Node.num_keys, Node.keys]⟩⟩

/-- C5: for every minimum degree `N > 1`, every `BTree` that satisfies the B-tree invariant
and every key `x`, present or absent, the tree after `remove(x)` is either empty or satisfies
the same invariant (`Inv` holds of the empty tree and of every well-formed tree whose root
holds at least one key). -/
theorem bt_remove_keeps_invariant (N : Nat) (hN : 1 < N) (root : Option Node) (x : Int)
    (hi : Inv N root) : Inv N (remove N root x).2 :=
  bt_remove_inv N hN root x hi

theorem bt_remove_keeps_invariant_witness :
    1 < 2 ∧ Inv 2 sampleRoot ∧ Inv 2 (remove 2 sampleRoot 5).2 :=
  ⟨by decide, ⟨1, by simp [WF, Node.leaf, Node.children, Node.num_keys, Node.keys]⟩,
    bt_remove_keeps_invariant 2 (by decide) sampleRoot 5
      ⟨1, by simp [WF, Node.leaf, Node.children, Node.num_keys, Node.keys]⟩⟩

/-- C9: for every minimum degree `N > 1`, every finite sequence of add/find/remove calls
applied to an initially empty `BTree<int, N>` and in lockstep to the reference set returns
the same booleans, and afterwards `find(k)` equals membership of `k` in the reference set for
every `k`. -/
theorem bt_oracle_equivalence (N : Nat) (hN : 1 < N) (ops : List Op) :
    (runOps (step N) none ops).1 = (runOps refStep ∅ ops).1 ∧
      ∀ k, find (runOps (step N) none ops).2 k =
        decide (k ∈ (runOps refStep ∅ ops).2) := by
  refine runOps_refines (step N) treeKeys find (fun t => Inv N t ∧ Ascending (treeKeys t))
    ?_ ?_ ops none ∅ ⟨trivial, by simp [treeKeys, Ascending]⟩ (by simp [treeKeys])
  · intro t op hs
    exact bt_step_spec N hN t op hs.1 hs.2
  · intro t k hs
    exact bt_find_spec N t k hs.1 hs.2

theorem bt_oracle_equivalence_witness :
    1 < 2 ∧
      ((runOps (step 2) none [.add 3, .add 1, .add 2, .add 4, .add 3, .find 2, .remove 1,
          .remove 7, .find 1]).1 =
        (runOps refStep ∅ [.add 3, .add 1, .add 2, .add 4, .add 3, .find 2, .remove 1,
          .remove 7, .find 1]).1 ∧
      ∀ k, find (runOps (step 2) none [.add 3, .add 1, .add 2, .add 4, .add 3, .find 2,
          .remove 1, .remove 7, .find 1]).2 k =
        decide (k ∈ (runOps refStep ∅ [.add 3, .add 1, .add 2, .add 4, .add 3, .find 2,
          .remove 1, .remove 7, .find 1]).2)) :=
  ⟨by decide, bt_oracle_equivalence 2 (by decide) [.add 3, .add 1, .add 2, .add 4, .add 3,
    .find 2, .remove 1, .remove 7, .find 1]⟩

end BTree
/-! ## RBTree: the claim on the key order -/

namespace RBTree

/-- C11: for every `RBTree` that satisfies the red-black invariants and whose in-order key
sequence is strictly ascending, and every key `x`, the in-order key sequence of the tree
after `add(x)` and of the tree after `remove(x)` is strictly ascending; equivalently the
search-tree order holds at every node. -/
theorem rb_add_remove_keep_ascending (t : Node) (x : Int) (_h1 : NoRedRed t)
    (_h2 : BlackBalanced t) (hs : Ascending t.keys) :
    (Ascending (add t x).2.keys ∧ (add t x).2.Ordered) ∧
      (Ascending (remove t x).2.keys ∧ (remove t x).2.Ordered) :=
  ⟨⟨(rb_add_spec t x hs).1, (ascending_keys_iff_ordered _).1 (rb_add_spec t x hs).1⟩,
    ⟨(rb_remove_spec t x hs).1, (ascending_keys_iff_ordered _).1 (rb_remove_spec t x hs).1⟩⟩

theorem rb_add_remove_keep_ascending_witness :
    NoRedRed sampleTree ∧ BlackBalanced sampleTree ∧ Ascending sampleTree.keys ∧
      (Ascending (add sampleTree 12).2.keys ∧ (add sampleTree 12).2.Ordered) ∧
      (Ascending (remove sampleTree 30).2.keys ∧ (remove sampleTree 30).2.Ordered) :=
  ⟨by decide, by decide, by decide,
    (rb_add_remove_keep_ascending sampleTree 12 (by decide) (by decide) (by decide)).1,
    (rb_add_remove_keep_ascending sampleTree 30 (by decide) (by decide) (by decide)).2⟩

end RBTree

/-! ## SplayTree: the claims on the key order and on the root -/

namespace SplayTree

/-- C12: for every `SplayTree` whose in-order key sequence is strictly ascending and every key
`x`, the in-order key sequence of the tree after `find(x)`, after `add(x)` and after
`remove(x)` is strictly ascending. -/
theorem splay_calls_keep_ascending (t : Node) (x : Int) (hs : Ascending t.keys) :
    Ascending (find t x).2.keys ∧ Ascending (add t x).2.keys ∧
      Ascending (remove t x).2.keys :=
  ⟨(splay_step_spec t (.find x) hs).1, (splay_step_spec t (.add x) hs).1,
    (splay_step_spec t (.remove x) hs).1⟩

theorem splay_calls_keep_ascending_witness :
    Ascending sampleTree.keys ∧ Ascending (find sampleTree 5).2.keys ∧
      Ascending (add sampleTree 7).2.keys ∧ Ascending (remove sampleTree 10).2.keys :=
  ⟨by decide, (splay_calls_keep_ascending sampleTree 5 (by decide)).1,
    (splay_calls_keep_ascending sampleTree 7 (by decide)).2.1,
    (splay_calls_keep_ascending sampleTree 10 (by decide)).2.2⟩

/-- C15, the claim as stated fails: in the tree with root 10 over 5 and 15 the search for
the absent key 3 ends at a null pointer below the node 5, `find(3)` returns false, and the
root does not hold 5 afterwards. -/
theorem splay_find_miss_counterexample :
    3 ∉ sampleTree.keys ∧ (descend 3 sampleTree []).1 = .null ∧
      (descend 3 sampleTree []).2.head?.map (fun f => f.val) = some 5 ∧
      (find sampleTree 3).1 = false ∧ ¬ ∃ a b, (find sampleTree 3).2 = .node a 5 () b := by
  refine ⟨by decide, by decide, by decide, by decide, ?_⟩
  rintro ⟨a, b, h⟩
  have e : (find sampleTree 3).2 = sampleTree := by decide
  rw [e] at h
  simp [sampleTree] at h

/-- C15 as amended: for every `SplayTree` with strictly ascending in-order keys and every key
`k` that is absent from it, `find(k)` returns false and leaves the tree exactly as it was:
the search returns before `fix`, no node is splayed and the root is unchanged. -/
theorem splay_find_miss_leaves_tree (t : Node) (k : Int) (hs : Ascending t.keys)
    (hk : k ∉ t.keys) : find t k = (false, t) :=
  splay_find_false t k (by rw [(splay_find_spec t k hs).1]; simp [hk])

theorem splay_find_miss_leaves_tree_witness :
    Ascending sampleTree.keys ∧ 3 ∉ sampleTree.keys ∧ find sampleTree 3 = (false, sampleTree) :=
  ⟨by decide, by decide, splay_find_miss_leaves_tree sampleTree 3 (by decide) (by decide)⟩

/-- C17: for every `SplayTree` with strictly ascending in-order keys and every key `x`: after
`add(x)` returns true the root holds `x`, and after `find(x)` returns true the root holds
`x`. -/
theorem splay_success_puts_key_at_root (t : Node) (x : Int) (_hs : Ascending t.keys) :
    ((add t x).1 = true → ∃ a b, (add t x).2 = .node a x () b) ∧
      ((find t x).1 = true → ∃ a b, (find t x).2 = .node a x () b) :=
  ⟨splay_add_root t x, splay_find_root t x⟩

theorem splay_success_puts_key_at_root_witness :
    Ascending sampleTree.keys ∧ (∃ a b, (add sampleTree 7).2 = .node a 7 () b) ∧
      (∃ a b, (find sampleTree 15).2 = .node a 15 () b) :=
  ⟨by decide, (splay_success_puts_key_at_root sampleTree 7 (by decide)).1 (by decide),
    (splay_success_puts_key_at_root sampleTree 15 (by decide)).2 (by decide)⟩

/-- C18: for every `SplayTree` with strictly ascending in-order keys and every key `x`
present in it, `remove(x)` returns true and produces a tree whose in-order key sequence is
the old sequence with `x` deleted; when `x` is not the smallest key, with `x` splayed to the
root over the subtrees `l` and `r`, the new root holds the largest key smaller than `x` and
its right subtree is exactly `r`. -/
theorem splay_remove_present (t : Node) (x : Int) (hs : Ascending t.keys) (hx : x ∈ t.keys) :
    (remove t x).1 = true ∧
      (∃ l1 l2, t.keys = l1 ++ x :: l2 ∧ (remove t x).2.keys = l1 ++ l2) ∧
      ((∃ k ∈ t.keys, k < x) →
        ∃ l r l2 m, (find t x).2 = .node l x () r ∧ (remove t x).2 = .node l2 m () r ∧
          m ∈ t.keys ∧ m < x ∧ ∀ k ∈ t.keys, k < x → k ≤ m) := by
  rcases splay_remove_keys t x hs with ⟨h, _⟩ | ⟨h1, h2⟩
  · exact absurd hx h
  · exact ⟨h1, h2, splay_remove_root t x hs hx⟩

theorem splay_remove_present_witness :
    Ascending sampleTree.keys ∧ (10 : Int) ∈ sampleTree.keys ∧
      (remove sampleTree 10).1 = true ∧
      (∃ l1 l2, sampleTree.keys = l1 ++ 10 :: l2 ∧ (remove sampleTree 10).2.keys = l1 ++ l2) ∧
      (∃ l r l2 m, (find sampleTree 10).2 = .node l 10 () r ∧
        (remove sampleTree 10).2 = .node l2 m () r ∧
        m ∈ sampleTree.keys ∧ m < 10 ∧ ∀ k ∈ sampleTree.keys, k < 10 → k ≤ m) :=
  ⟨by decide, by decide, (splay_remove_present sampleTree 10 (by decide) (by decide)).1,
    (splay_remove_present sampleTree 10 (by decide) (by decide)).2.1,
    (splay_remove_present sampleTree 10 (by decide) (by decide)).2.2
      ⟨5, by decide, by decide⟩⟩

end SplayTree

/-! ## The three binary engines: rejected calls -/

/-- C16: for `AVLTree`, `RBTree` and `SplayTree`, every tree with strictly ascending in-order
keys and every key `x`: `add(x)` with `x` present returns false, `remove(x)` with `x` absent
returns false, and `find(x)` with `x` absent returns false, and in each of these cases the
resulting tree is the tree before the call (same shape, keys, heights or colours). -/
theorem engines_rejected_calls_leave_tree (a : AVLTree.Node) (r : RBTree.Node)
    (s : SplayTree.Node) (x : Int) (ha : Ascending a.keys) (hr : Ascending r.keys)
    (hs : Ascending s.keys) :
    ((x ∈ a.keys → AVLTree.add a x = (false, a)) ∧
      (x ∉ a.keys → AVLTree.remove a x = (false, a)) ∧
      (x ∉ a.keys → AVLTree.step a (.find x) = (false, a))) ∧
    ((x ∈ r.keys → RBTree.add r x = (false, r)) ∧
      (x ∉ r.keys → RBTree.remove r x = (false, r)) ∧
      (x ∉ r.keys → RBTree.step r (.find x) = (false, r))) ∧
    ((x ∈ s.keys → SplayTree.add s x = (false, s)) ∧
      (x ∉ s.keys → SplayTree.remove s x = (false, s)) ∧
      (x ∉ s.keys → SplayTree.find s x = (false, s))) := by
  refine ⟨⟨?_, ?_, ?_⟩, ⟨?_, ?_, ?_⟩, ⟨?_, ?_, ?_⟩⟩
  · intro hm
    rcases AVLTree.add_keys a x ha with h | h
    · exact h.2
    · exact absurd hm h.1
  · intro hm
    rcases AVLTree.remove_keys a x ha with h | ⟨_, l1, l2, e, _⟩
    · exact h.2
    · exact absurd (by rw [e]; simp) hm
  · intro hm
    simp only [AVLTree.step, AVLTree.find_eq_mem a x ha, hm, decide_False]
  · intro hm
    rcases RBTree.rb_add_keys r x hr with h | h
    · exact h.2
    · exact absurd hm h.1
  · intro hm
    rcases RBTree.rb_remove_keys r x hr with h | ⟨_, l1, l2, e, _⟩
    · exact h.2
    · exact absurd (by rw [e]; simp) hm
  · intro hm
    simp only [RBTree.step, RBTree.rb_find_eq_mem r x hr, hm, decide_False]
  · intro hm
    rcases SplayTree.splay_add_keys s x hs with h | h
    · exact h.2
    · exact absurd hm h.1
  · intro hm
    rcases SplayTree.splay_remove_keys s x hs with h | ⟨_, l1, l2, e, _⟩
    · exact h.2
    · exact absurd (by rw [e]; simp) hm
  · intro hm
    exact SplayTree.splay_find_false s x (by rw [(SplayTree.splay_find_spec s x hs).1]; simp [hm])

theorem engines_rejected_calls_leave_tree_witness :
    Ascending AVLTree.sampleTree.keys ∧ Ascending RBTree.sampleTree.keys ∧
      Ascending SplayTree.sampleTree.keys ∧
      AVLTree.add AVLTree.sampleTree 20 = (false, AVLTree.sampleTree) ∧
      RBTree.add RBTree.sampleTree 20 = (false, RBTree.sampleTree) ∧
      SplayTree.remove SplayTree.sampleTree 20 = (false, SplayTree.sampleTree) ∧
      SplayTree.find SplayTree.sampleTree 20 = (false, SplayTree.sampleTree) :=
  ⟨by decide, by decide, by decide,
    (engines_rejected_calls_leave_tree AVLTree.sampleTree RBTree.sampleTree
      SplayTree.sampleTree 20 (by decide) (by decide) (by decide)).1.1 (by decide),
    (engines_rejected_calls_leave_tree AVLTree.sampleTree RBTree.sampleTree
      SplayTree.sampleTree 20 (by decide) (by decide) (by decide)).2.1.1 (by decide),
    (engines_rejected_calls_leave_tree AVLTree.sampleTree RBTree.sampleTree
      SplayTree.sampleTree 20 (by decide) (by decide) (by decide)).2.2.2.1 (by decide),
    (engines_rejected_calls_leave_tree AVLTree.sampleTree RBTree.sampleTree
      SplayTree.sampleTree 20 (by decide) (by decide) (by decide)).2.2.2.2 (by decide)⟩

/-! ## AVLTree: the concrete insertions -/

namespace AVLTree

/-- C20: starting from an empty `AVLTree`, adding 10, 5, 15 in that order performs no rotation
and yields root 10 with left child 5 and right child 15; adding 10, 20, 30 in that order
yields, after the insertion of 30, root 20 with left child 10 and right child 30, by a single
left rotation at the old root 10. -/
theorem avl_concrete_insertions :
    (add_rotations .null 10 = [] ∧ add_rotations (add .null 10).2 5 = [] ∧
      add_rotations (add (add .null 10).2 5).2 15 = [] ∧
      (add (add (add .null 10).2 5).2 15).2 =
        .node (.node .null 5 1 .null) 10 2 (.node .null 15 1 .null)) ∧
    (add_rotations (add .null 10).2 20 = [] ∧
      add_rotations (add (add .null 10).2 20).2 30 = [(10, .LEFT)] ∧
      (add (add .null 10).2 20).2 = .node .null 10 2 (.node .null 20 1 .null) ∧
      (add (add (add .null 10).2 20).2 30).2 =
        .node (.node .null 10 1 .null) 20 2 (.node .null 30 1 .null)) := by
  decide

end AVLTree
/-! ## BTree: the claims on the key order, on rejected calls and on the concrete insertions -/

namespace BTree

/-- C13: for every minimum degree `N > 1`, every `BTree` that satisfies the B-tree invariant
and the search-tree order (keys within each node strictly ascending; every key in the subtree
`children[i]` strictly between `keys[i-1]` and `keys[i]`) and every key `x`, the tree after
`add(x)` and the tree after `remove(x)` again satisfy the search-tree order, and the in-order
traversal of all keys is strictly ascending. -/
theorem bt_add_remove_keep_search_order (N : Nat) (hN : 1 < N) (root : Option Node) (x : Int)
    (hi : Inv N root) (ho : TreeOrdered root) :
    (TreeOrdered (add N root x).2 ∧ Ascending (treeKeys (add N root x).2)) ∧
      (TreeOrdered (remove N root x).2 ∧ Ascending (treeKeys (remove N root x).2)) := by
  have ha := (bt_tree_ordered_iff N root hi).1 ho
  have h1 := (bt_add_spec N hN root x hi ha).1
  have h2 := (bt_remove_spec N hN root x hi ha).1
  exact ⟨⟨(bt_tree_ordered_iff N _ (bt_add_inv N hN root x hi)).2 h1, h1⟩,
    ⟨(bt_tree_ordered_iff N _ (bt_remove_inv N hN root x hi)).2 h2, h2⟩⟩

theorem bt_add_remove_keep_search_order_witness :
    1 < 2 ∧ Inv 2 sampleRoot ∧ TreeOrdered sampleRoot ∧
      (TreeOrdered (add 2 sampleRoot 17).2 ∧ Ascending (treeKeys (add 2 sampleRoot 17).2)) ∧
      (TreeOrdered (remove 2 sampleRoot 5).2 ∧
        Ascending (treeKeys (remove 2 sampleRoot 5).2)) :=
  ⟨by decide, ⟨1, by simp [WF, Node.leaf, Node.children, Node.num_keys, Node.keys]⟩,
    (bt_tree_ordered_iff 2 sampleRoot
      ⟨1, by simp [WF, Node.leaf, Node.children, Node.num_keys, Node.keys]⟩).2 (by decide),
    (bt_add_remove_keep_search_order 2 (by decide) sampleRoot 17
      ⟨1, by simp [WF, Node.leaf, Node.children, Node.num_keys, Node.keys]⟩
      ((bt_tree_ordered_iff 2 sampleRoot
        ⟨1, by simp [WF, Node.leaf, Node.children, Node.num_keys, Node.keys]⟩).2
          (by decide))).1,
    (bt_add_remove_keep_search_order 2 (by decide) sampleRoot 5
      ⟨1, by simp [WF, Node.leaf, Node.children, Node.num_keys, Node.keys]⟩
      ((bt_tree_ordered_iff 2 sampleRoot
        ⟨1, by simp [WF, Node.leaf, Node.children, Node.num_keys, Node.keys]⟩).2
          (by decide))).2⟩

/-- C14, the claim as stated fails, for `N = 2`: `add(2)` on the full root leaf `[1, 2, 3]`,
which holds 2, returns false after it has split the root into `[2]` over `[1]` and `[3]`; and
`remove(3)` on the root `[10]` over `[5]` and `[15, 20]`, which does not hold 3, returns false
after `left_shift` has turned the tree into `[15]` over `[5, 10]` and `[20]`. -/
theorem bt_rejected_calls_counterexample :
    (Inv 2 fullRoot ∧ Ascending (treeKeys fullRoot) ∧ (2 : Int) ∈ treeKeys fullRoot ∧
      add 2 fullRoot 2 =
        (false, some (.mk [2] [.mk [1] [] true, .mk [3] [] true] false)) ∧
      (add 2 fullRoot 2).2.map Node.keys ≠ fullRoot.map Node.keys) ∧
    (Inv 2 sampleRoot ∧ Ascending (treeKeys sampleRoot) ∧ (3 : Int) ∉ treeKeys sampleRoot ∧
      remove 2 sampleRoot 3 =
        (false, some (.mk [15] [.mk [5, 10] [] true, .mk [20] [] true] false)) ∧
      (remove 2 sampleRoot 3).2.map Node.keys ≠ sampleRoot.map Node.keys) :=
  ⟨⟨⟨0, by simp [WF, Node.leaf, Node.children, Node.num_keys, Node.keys]⟩, by decide,
      by decide, rfl, by decide⟩,
    ⟨⟨1, by simp [WF, Node.leaf, Node.children, Node.num_keys, Node.keys]⟩, by decide,
      by decide, rfl, by decide⟩⟩

/-- C14 as amended: for every minimum degree `N > 1` and every valid `BTree`, `add(x)` of a
key `x` already present returns false and leaves the in-order key sequence unchanged and the
tree valid, and `remove(x)` of a key `x` that is absent returns false and leaves the in-order
key sequence unchanged and the tree valid.  The nodes themselves may change: `add` splits
every full node it meets on the way down, `remove` borrows or merges at every minimal
one. -/
theorem bt_rejected_calls_keep_keys (N : Nat) (hN : 1 < N) (root : Option Node) (x : Int)
    (hi : Inv N root) (ha : Ascending (treeKeys root)) :
    (x ∈ treeKeys root →
      (add N root x).1 = false ∧ treeKeys (add N root x).2 = treeKeys root ∧
        Inv N (add N root x).2) ∧
    (x ∉ treeKeys root →
      (remove N root x).1 = false ∧ treeKeys (remove N root x).2 = treeKeys root ∧
        Inv N (remove N root x).2) := by
  constructor
  · intro hm
    obtain ⟨a1, a2, a3⟩ := bt_add_spec N hN root x hi ha
    refine ⟨by rw [a2]; simp [hm], bt_ascending_ext _ _ a1 ha ?_, bt_add_inv N hN root x hi⟩
    intro j
    rw [a3 j]
    constructor
    · rintro (rfl | h)
      · exact hm
      · exact h
    · exact fun h => Or.inr h
  · intro hm
    obtain ⟨a1, a2, a3⟩ := bt_remove_spec N hN root x hi ha
    refine ⟨by rw [a2]; simp [hm], bt_ascending_ext _ _ a1 ha ?_, bt_remove_inv N hN root x hi⟩
    intro j
    rw [a3 j]
    constructor
    · exact fun h => h.1
    · exact fun h => ⟨h, fun e => hm (e ▸ h)⟩

theorem bt_rejected_calls_keep_keys_witness :
    1 < 2 ∧ Inv 2 fullRoot ∧ Ascending (treeKeys fullRoot) ∧
      ((add 2 fullRoot 2).1 = false ∧ treeKeys (add 2 fullRoot 2).2 = treeKeys fullRoot ∧
        Inv 2 (add 2 fullRoot 2).2) ∧
      ((remove 2 fullRoot 7).1 = false ∧
        treeKeys (remove 2 fullRoot 7).2 = treeKeys fullRoot ∧
        Inv 2 (remove 2 fullRoot 7).2) :=
  ⟨by decide, ⟨0, by simp [WF, Node.leaf, Node.children, Node.num_keys, Node.keys]⟩,
    by decide,
    (bt_rejected_calls_keep_keys 2 (by decide) fullRoot 2
      ⟨0, by simp [WF, Node.leaf, Node.children, Node.num_keys, Node.keys]⟩
      (by decide)).1 (by decide),
    (bt_rejected_calls_keep_keys 2 (by decide) fullRoot 7
      ⟨0, by simp [WF, Node.leaf, Node.children, Node.num_keys, Node.keys]⟩
      (by decide)).2 (by decide)⟩

/-- C19, the claim as stated fails: adding 1, 2, 3, 4, 5 to an empty `BTree` with `N = 2`
does not make two splits, and the two children of the root do not hold 2 keys each. -/
theorem bt_sequential_adds_counterexample :
    ¬ (add_all 2 none [1, 2, 3, 4, 5]).2 = 2 ∧
      ¬ ∃ k a b, (add_all 2 none [1, 2, 3, 4, 5]).1 = some (.mk [k] [a, b] false) ∧
        a.num_keys = 2 ∧ b.num_keys = 2 := by
  have e : add_all 2 none [1, 2, 3, 4, 5] =
      (some (.mk [2] [.mk [1] [] true, .mk [3, 4, 5] [] true] false), 1) := rfl
  rw [e]
  refine ⟨by decide, ?_⟩
  rintro ⟨k, a, b, h, ha, hb⟩
  simp only [Option.some.injEq, Node.mk.injEq, List.cons.injEq, and_true, true_and] at h
  obtain ⟨-, rfl, -⟩ := h
  simp [Node.num_keys, Node.keys] at ha

/-- C19 as amended: adding the keys 1, 2, 3, 4, 5 in that order to an empty `BTree` with
minimum degree `N = 2` causes one node split (of the full root `[1, 2, 3]`, when 4 is added)
and yields a root with exactly one key, 2, and two children, the left one holding the one key
1 and the right one holding the three keys 3, 4, 5. -/
theorem bt_sequential_adds :
    add_all 2 none [1, 2, 3, 4, 5] =
        (some (.mk [2] [.mk [1] [] true, .mk [3, 4, 5] [] true] false), 1) ∧
      add_all 2 none [1, 2, 3] = (some (.mk [1, 2, 3] [] true), 0) ∧
      add_splits 2 (add_all 2 none [1, 2, 3]).1 4 = 1 ∧
      add_splits 2 (add_all 2 none [1, 2, 3, 4]).1 5 = 0 :=
  ⟨rfl, rfl, rfl, rfl⟩

end BTree
/-! ## Claims on the concrete red-black insertions, the round trip, the comparator, the
depth, copy, move and clear -/

namespace RBTree

/-- C21: starting from the empty tree, `add(10)` makes 10 the black root; `add(5)` hangs a
red 5 under it; `add(1)` rotates, so that the root is a black 5 whose children 1 and 10 are
both red, and each of the four paths from the root to a null pointer holds exactly one black
node. -/
theorem rb_concrete_insertions :
    add .null 10 = (true, .node .null 10 .BLACK .null) ∧
    add (add .null 10).2 5 = (true, .node (.node .null 5 .RED .null) 10 .BLACK .null) ∧
    add (add (add .null 10).2 5).2 1 =
      (true, .node (.node .null 1 .RED .null) 5 .BLACK (.node .null 10 .RED .null)) ∧
    pathBlacks (add (add (add .null 10).2 5).2 1).2 = [1, 1, 1, 1] := by
  decide

end RBTree

/-- C22: round trip in the four engines.  For every tree `t` in search order (for the
`BTree`, every tree satisfying the B-tree invariant for a minimum degree `N > 1` whose key
sequence is ascending) and every key `x`: `find(x)` is true on the tree left by `add(x)`,
`find(x)` is false on the tree left by `remove(x)`, and `add(x)` on the tree left by
`remove(x)` returns true (in particular after a successful `remove(x)`). -/
theorem engines_round_trip (a : AVLTree.Node) (r : RBTree.Node) (s : SplayTree.Node)
    (N : Nat) (b : Option BTree.Node) (x : Int) (ha : Ascending a.keys)
    (hr : Ascending r.keys) (hs : Ascending s.keys) (hN : 1 < N) (hi : BTree.Inv N b)
    (hb : Ascending (BTree.treeKeys b)) :
    (AVLTree.find (AVLTree.add a x).2 x = true ∧
      AVLTree.find (AVLTree.remove a x).2 x = false ∧
      (AVLTree.add (AVLTree.remove a x).2 x).1 = true) ∧
    (RBTree.find (RBTree.add r x).2 x = true ∧
      RBTree.find (RBTree.remove r x).2 x = false ∧
      (RBTree.add (RBTree.remove r x).2 x).1 = true) ∧
    ((SplayTree.find (SplayTree.add s x).2 x).1 = true ∧
      (SplayTree.find (SplayTree.remove s x).2 x).1 = false ∧
      (SplayTree.add (SplayTree.remove s x).2 x).1 = true) ∧
    (BTree.find (BTree.add N b x).2 x = true ∧
      BTree.find (BTree.remove N b x).2 x = false ∧
      (BTree.add N (BTree.remove N b x).2 x).1 = true) := by
  refine ⟨?_, ?_, ?_, ?_⟩
  · obtain ⟨a1, a2⟩ := AVLTree.add_spec a x ha
    obtain ⟨r1, r2⟩ := AVLTree.remove_spec a x ha
    obtain ⟨_, q2⟩ := AVLTree.add_spec _ x r1
    simp only [StepSpec] at a2 r2 q2
    have hn : x ∉ (AVLTree.remove a x).2.keys := fun h => ((r2.2 x).1 h).2 rfl
    refine ⟨?_, ?_, ?_⟩
    · rw [AVLTree.find_eq_mem _ x a1]
      exact decide_eq_true ((a2.2 x).2 (Or.inl rfl))
    · rw [AVLTree.find_eq_mem _ x r1]
      exact decide_eq_false hn
    · rw [q2.1]
      exact decide_eq_true hn
  · obtain ⟨a1, a2⟩ := RBTree.rb_add_spec r x hr
    obtain ⟨r1, r2⟩ := RBTree.rb_remove_spec r x hr
    obtain ⟨_, q2⟩ := RBTree.rb_add_spec _ x r1
    simp only [StepSpec] at a2 r2 q2
    have hn : x ∉ (RBTree.remove r x).2.keys := fun h => ((r2.2 x).1 h).2 rfl
    refine ⟨?_, ?_, ?_⟩
    · rw [RBTree.rb_find_eq_mem _ x a1]
      exact decide_eq_true ((a2.2 x).2 (Or.inl rfl))
    · rw [RBTree.rb_find_eq_mem _ x r1]
      exact decide_eq_false hn
    · rw [q2.1]
      exact decide_eq_true hn
  · obtain ⟨a1, a2⟩ := SplayTree.splay_step_spec s (.add x) hs
    obtain ⟨r1, r2⟩ := SplayTree.splay_step_spec s (.remove x) hs
    simp only [SplayTree.step] at a1 a2 r1 r2
    obtain ⟨_, q2⟩ := SplayTree.splay_step_spec _ (.add x) r1
    simp only [SplayTree.step, StepSpec] at a2 r2 q2
    have hn : x ∉ (SplayTree.remove s x).2.keys := fun h => ((r2.2 x).1 h).2 rfl
    refine ⟨?_, ?_, ?_⟩
    · rw [(SplayTree.splay_find_spec _ x a1).1]
      exact decide_eq_true ((a2.2 x).2 (Or.inl rfl))
    · rw [(SplayTree.splay_find_spec _ x r1).1]
      exact decide_eq_false hn
    · rw [q2.1]
      exact decide_eq_true hn
  · obtain ⟨a1, a2⟩ := BTree.bt_add_spec N hN b x hi hb
    obtain ⟨r1, r2⟩ := BTree.bt_remove_spec N hN b x hi hb
    have i1 := BTree.bt_add_inv N hN b x hi
    have i2 := BTree.bt_remove_inv N hN b x hi
    obtain ⟨_, q2⟩ := BTree.bt_add_spec N hN _ x i2 r1
    simp only [StepSpec] at a2 r2 q2
    have hn : x ∉ BTree.treeKeys (BTree.remove N b x).2 := fun h => ((r2.2 x).1 h).2 rfl
    refine ⟨?_, ?_, ?_⟩
    · rw [BTree.bt_find_spec N _ x i1 a1]
      exact decide_eq_true ((a2.2 x).2 (Or.inl rfl))
    · rw [BTree.bt_find_spec N _ x i2 r1]
      exact decide_eq_false hn
    · rw [q2.1]
      exact decide_eq_true hn

theorem engines_round_trip_witness :
    Ascending AVLTree.sampleTree.keys ∧ Ascending RBTree.sampleTree.keys ∧
      Ascending SplayTree.sampleTree.keys ∧ 1 < 2 ∧ BTree.Inv 2 BTree.sampleRoot ∧
      Ascending (BTree.treeKeys BTree.sampleRoot) ∧
      AVLTree.find (AVLTree.add AVLTree.sampleTree 17).2 17 = true ∧
      RBTree.find (RBTree.remove RBTree.sampleTree 17).2 17 = false ∧
      (SplayTree.add (SplayTree.remove SplayTree.sampleTree 17).2 17).1 = true ∧
      BTree.find (BTree.add 2 BTree.sampleRoot 17).2 17 = true :=
  ⟨by decide, by decide, by decide, by decide,
    ⟨1, by simp [BTree.WF, BTree.Node.leaf, BTree.Node.children, BTree.Node.num_keys,
      BTree.Node.keys]⟩, by decide,
    (engines_round_trip AVLTree.sampleTree RBTree.sampleTree SplayTree.sampleTree 2
      BTree.sampleRoot 17 (by decide) (by decide) (by decide) (by decide)
      ⟨1, by simp [BTree.WF, BTree.Node.leaf, BTree.Node.children, BTree.Node.num_keys,
        BTree.Node.keys]⟩ (by decide)).1.1,
    (engines_round_trip AVLTree.sampleTree RBTree.sampleTree SplayTree.sampleTree 2
      BTree.sampleRoot 17 (by decide) (by decide) (by decide) (by decide)
      ⟨1, by simp [BTree.WF, BTree.Node.leaf, BTree.Node.children, BTree.Node.num_keys,
        BTree.Node.keys]⟩ (by decide)).2.1.2.1,
    (engines_round_trip AVLTree.sampleTree RBTree.sampleTree SplayTree.sampleTree 2
      BTree.sampleRoot 17 (by decide) (by decide) (by decide) (by decide)
      ⟨1, by simp [BTree.WF, BTree.Node.leaf, BTree.Node.children, BTree.Node.num_keys,
        BTree.Node.keys]⟩ (by decide)).2.2.1.2.2,
    (engines_round_trip AVLTree.sampleTree RBTree.sampleTree SplayTree.sampleTree 2
      BTree.sampleRoot 17 (by decide) (by decide) (by decide) (by decide)
      ⟨1, by simp [BTree.WF, BTree.Node.leaf, BTree.Node.children, BTree.Node.num_keys,
        BTree.Node.keys]⟩ (by decide)).2.2.2.1⟩

namespace AVLTree

/-- C23 (the code deviates), for `AVLTree<int, Compare>` with `Compare` ordering by
absolute value, a strict weak ordering under which 1 and -1 are equivalent.  After `add(1)`
the call `add(-1)` returns true and hangs -1 to the right of 1, because the search loop
compares keys with `!=` and asks the comparator only for the side; the validator
`is_bst_valid<T, Compare>` of main.cpp, which decides equivalence by the comparator, rejects
that tree.  After a further `add(2)` the rotation puts 1 to the left of -1, where the search
for 1 (sent right by the comparator) cannot reach it: `find(1)` returns false and a second
`add(1)` returns true, so that the tree holds the key 1 twice. -/
theorem avl_comparator_equivalents_inserted :
    StrictWeakOrder abs_less ∧ abs_less 1 (-1) = false ∧ abs_less (-1) 1 = false ∧
    add_with abs_less .null 1 = (true, .node .null 1 1 .null) ∧
    add_with abs_less (.node .null 1 1 .null) (-1) =
      (true, .node .null 1 2 (.node .null (-1) 1 .null)) ∧
    is_bst_valid abs_less (.node .null 1 1 .null) none none = true ∧
    is_bst_valid abs_less (.node .null 1 2 (.node .null (-1) 1 .null)) none none = false ∧
    add_with abs_less (.node .null 1 2 (.node .null (-1) 1 .null)) 2 =
      (true, .node (.node .null 1 1 .null) (-1) 2 (.node .null 2 1 .null)) ∧
    find_with abs_less (.node (.node .null 1 1 .null) (-1) 2 (.node .null 2 1 .null)) 1 =
      false ∧
    (add_with abs_less (.node (.node .null 1 1 .null) (-1) 2 (.node .null 2 1 .null)) 1).1 =
      true ∧
    (add_with abs_less (.node (.node .null 1 1 .null) (-1) 2 (.node .null 2 1 .null))
      1).2.keys = [1, -1, 1, 2] :=
  ⟨abs_less_strictWeakOrder, by decide, by decide, by decide, by decide, by decide, by decide,
    by decide, by decide, by decide, by decide⟩

/-- Where the defect of `add` under a comparator does not show: for every strict weak
ordering supplied as the comparator under which no two distinct keys are equivalent, and
every tree whose in-order keys are strictly ascending under it (which every tree built with
it is, `build_with_sorted`), `add(k)` returns false and inserts nothing whenever the tree
already holds a key `k2` equivalent to `k`, and the keys after `add(k)` are again strictly
ascending under the comparator.  Equality of keys is decided by `!=`, not by the
comparator. -/
theorem avl_comparator_separating (less_than : Int → Int → Bool)
    (hw : StrictWeakOrder less_than) (ht : SeparatesKeys less_than) (t : Node)
    (hs : SortedBy less_than t.keys) (k : Int) :
    (∀ k2 ∈ t.keys, less_than k k2 = false → less_than k2 k = false →
      add_with less_than t k = (false, t)) ∧
    SortedBy less_than (add_with less_than t k).2.keys := by
  refine ⟨fun k2 hk2 h1 h2 => ?_, add_with_sorted less_than hw ht t hs k⟩
  have e := ht k k2 h1 h2
  subst e
  rcases add_with_keys less_than hw ht t k hs with h | h
  · exact h.2
  · exact absurd hk2 h.1

theorem avl_comparator_separating_witness :
    StrictWeakOrder greater ∧ SeparatesKeys greater ∧ SortedBy greater sampleGreater.keys ∧
      (∀ k2 ∈ sampleGreater.keys, greater 10 k2 = false → greater k2 10 = false →
        add_with greater sampleGreater 10 = (false, sampleGreater)) ∧
      SortedBy greater (add_with greater sampleGreater 10).2.keys :=
  ⟨greater_strictWeakOrder.1, greater_strictWeakOrder.2, by decide,
    avl_comparator_separating greater greater_strictWeakOrder.1 greater_strictWeakOrder.2
      sampleGreater (by decide) 10⟩

end AVLTree

namespace AVLTree

/-- C24: every `AVLTree` reached from the empty tree by a sequence of calls has logarithmic
depth: with `n` keys and height `h` (the number of nodes on the longest path from the root
down to a leaf), `2 ^ h ≤ (n + 1) ^ 2`. -/
theorem avl_reachable_height_bound (ops : List Op) :
    2 ^ realHeight (runOps step .null ops).2 ≤ ((runOps step .null ops).2.keys.length + 1) ^ 2 :=
  avl_balanced_height _ (avl_runOps_balanced ops .null trivial)

end AVLTree

namespace SplayTree

/-- C25, the claim as stated fails: no constant `c` bounds the depth of every reachable
`SplayTree` holding `n` keys by `c * (log2 (n + 1) + 1)`.  The logarithm is rounded up here,
which only enlarges the bound; the calls `add(1), ..., add(n)` leave a chain of depth `n`. -/
theorem splay_depth_not_logarithmic :
    ¬ ∃ c : Nat, ∀ ops : List Op,
      (runOps step .null ops).2.depth ≤
        c * (Nat.clog 2 ((runOps step .null ops).2.keys.length + 1) + 1) := by
  rintro ⟨c, hc⟩
  have h := hc (ascendingAdds (2 ^ (3 * (c + 1)) - 1))
  rw [splay_ascendingAdds, (splay_leftChain_depth _).1, (splay_leftChain_depth _).2] at h
  have hp : 0 < 2 ^ (3 * (c + 1)) := Nat.pow_pos (by decide)
  have e : 2 ^ (3 * (c + 1)) - 1 + 1 = 2 ^ (3 * (c + 1)) := by omega
  rw [e, Nat.clog_pow 2 _ (by decide)] at h
  have hb := splay_pow_bound c
  have e2 : 2 ^ (3 * (c + 1)) = 8 ^ (c + 1) := by rw [pow_mul]; rfl
  rw [e2] at h hp
  have e3 : c * (3 * (c + 1) + 1) = c * (3 * c + 4) := by ring
  rw [e3] at h
  omega

/-- C25, amended: the depth of a `SplayTree` is not bounded logarithmically after every
mutation.  Every tree reached from the empty tree by a sequence of calls and holding `n` keys
has depth at most `n`, and this is attained: for every `n`, after `add(1), ..., add(n)` on the
empty tree the tree holds `n` keys and has depth `n`. -/
theorem splay_depth_linear :
    (∀ ops : List Op,
      (runOps step .null ops).2.depth ≤ (runOps step .null ops).2.keys.length) ∧
    ∀ n : Nat, (runOps step .null (ascendingAdds n)).2.keys.length = n ∧
      (runOps step .null (ascendingAdds n)).2.depth = n := by
  refine ⟨fun ops => depth_le_keys _, fun n => ?_⟩
  rw [splay_ascendingAdds]
  exact ⟨(splay_leftChain_depth n).2, (splay_leftChain_depth n).1⟩

end SplayTree

namespace AVLTree

/-- C27: for every tree `a` of `A` and every prior tree `b` of `B`, move construction and
move assignment of `B` from `A` return; afterwards the root of `B` is the former root of `A`,
so `B` holds the keys `A` held, and the root of `A` is null, so `A.find(k)` is false for
every `k`. -/
theorem avl_move_empties_source (a b : Node) (k : Int) :
    ((move_construct a).1 = a ∧ (move_construct a).1.keys = a.keys ∧
      (move_construct a).2 = .null ∧ find (move_construct a).2 k = false) ∧
    ∃ res, move_assign b a = some res ∧ res.1 = a ∧ res.1.keys = a.keys ∧
      res.2 = .null ∧ find res.2 k = false := by
  refine ⟨⟨rfl, rfl, rfl, rfl⟩, ?_⟩
  obtain ⟨out, o1, _⟩ := TreeNode.clear_nodes_spec b
  exact ⟨(a, .null), by simp [move_assign, o1], rfl, rfl, rfl, rfl⟩

end AVLTree

/-- C28: for `AVLTree`, `RBTree` and `SplayTree` and every tree, `clear()` returns and leaves
the null root, on which `find` is false for every key; `clear()` on the empty tree leaves it
empty; and a second `clear()` changes nothing. -/
theorem engines_clear (a : AVLTree.Node) (r : RBTree.Node) (s : SplayTree.Node) (k : Int) :
    (TreeNode.clear a = some .null ∧ AVLTree.find .null k = false ∧
      TreeNode.clear (.null : AVLTree.Node) = some .null ∧
      (TreeNode.clear a).bind TreeNode.clear = TreeNode.clear a) ∧
    (TreeNode.clear r = some .null ∧ RBTree.find .null k = false ∧
      TreeNode.clear (.null : RBTree.Node) = some .null ∧
      (TreeNode.clear r).bind TreeNode.clear = TreeNode.clear r) ∧
    (TreeNode.clear s = some .null ∧ SplayTree.find .null k = (false, .null) ∧
      TreeNode.clear (.null : SplayTree.Node) = some .null ∧
      (TreeNode.clear s).bind TreeNode.clear = TreeNode.clear s) := by
  refine ⟨⟨TreeNode.clear_eq a, rfl, rfl, ?_⟩, ⟨TreeNode.clear_eq r, rfl, rfl, ?_⟩,
    ⟨TreeNode.clear_eq s, rfl, rfl, ?_⟩⟩
  · rw [TreeNode.clear_eq a]; rfl
  · rw [TreeNode.clear_eq r]; rfl
  · rw [TreeNode.clear_eq s]; rfl
/-! ## BTree: the claims on the writes of `add` and on the descent of `remove` -/

namespace BTree

/-- C29: for every minimum degree `N > 1`, every tree satisfying the B-tree invariant and
every key `x`, each node that receives a key during `add(x)` (the leaf that takes `x`, a
parent or new root that takes a promoted median) holds fewer than `2N - 1` keys at that
moment, and every write of `add` and of `split_divide` goes to a key slot below `2N - 1` and
to a child slot below `2N`.  The descent only moves from a node to one of its children, and
when `add(x)` returns true a leaf has received `x`. -/
theorem bt_add_writes_in_bounds (N : Nat) (hN : 1 < N) (root : Option Node) (x : Int)
    (hi : Inv N root) :
    (∀ e ∈ add_events N root x, e.InBounds N) ∧
    ((add N root x).1 = true →
      ∃ held, AddEvent.receive held (held + 1) 0 ∈ add_events N root x) := by
  cases root with
  | none =>
    refine ⟨?_, fun _ => ⟨0, by simp [add_events]⟩⟩
    intro e he
    simp only [add_events, List.mem_singleton] at he
    subst he
    simp only [AddEvent.InBounds]
    omega
  | some curr =>
    obtain ⟨h, hw⟩ := hi
    obtain ⟨h2, t1, t2, _⟩ := bt_add_top N h hN curr hw
    simp only [add_events, add]
    generalize (if curr.num_keys = 2 * N - 1 then
      Node.mk [curr.key (N - 1)] [(split_divide N curr).1, (split_divide N curr).2] false
      else curr) = top at t1 t2 ⊢
    obtain ⟨i1, i2⟩ := bt_add_loop_events N hN x h2 top.depth 1 top
      (by rw [bt_wf_depth N h2 1 top t1]; omega) t1 t2
    refine ⟨?_, fun hb => ?_⟩
    · intro e he
      rcases List.mem_append.1 he with he | he
      · split_ifs at he
        · simp only [List.mem_cons, List.mem_singleton, List.not_mem_nil, or_false] at he
          rcases he with rfl | rfl <;> simp only [AddEvent.InBounds] <;> omega
        · simp at he
      · exact i1 e he
    · obtain ⟨held, hh⟩ := i2 hb
      exact ⟨held, List.mem_append_right _ hh⟩

theorem bt_add_writes_in_bounds_witness :
    1 < 2 ∧ Inv 2 sampleRoot ∧ (∀ e ∈ add_events 2 sampleRoot 17, e.InBounds 2) ∧
      ((add 2 sampleRoot 17).1 = true →
        ∃ held, AddEvent.receive held (held + 1) 0 ∈ add_events 2 sampleRoot 17) :=
  ⟨by decide, ⟨1, by simp [WF, Node.leaf, Node.children, Node.num_keys, Node.keys]⟩,
    bt_add_writes_in_bounds 2 (by decide) sampleRoot 17
      ⟨1, by simp [WF, Node.leaf, Node.children, Node.num_keys, Node.keys]⟩⟩

end BTree

namespace BTree

/-- C30: for every minimum degree `N > 1`, every tree satisfying the B-tree invariant and
every key `x`, during `remove(x)` every node the descent moves into holds at least `N` keys
at that moment, and every call of `merge` (the one on the children of a one-key root
included) is made on two siblings of exactly `N - 1` keys each and leaves a node of exactly
`2N - 1` keys. -/
theorem bt_remove_enters_and_merges (N : Nat) (hN : 1 < N) (root : Option Node) (x : Int)
    (hi : Inv N root) : ∀ e ∈ remove_events N root x, e.Ok N := by
  cases root with
  | none => simp [remove_events]
  | some r =>
    obtain ⟨h, hw⟩ := hi
    obtain ⟨h2, t1, _, _⟩ := bt_remove_top N h hN r hw
    have hpre : ∀ e ∈ (if r.num_keys = 1 ∧ r.children.length ≠ 0 ∧
        (r.child 0).num_keys = N - 1 ∧ (r.child 1).num_keys = N - 1 then
        [merge_event N (r.child 0) (r.child 1) (r.key 0)] else []), e.Ok N := by
      intro e he
      split_ifs at he with c1
      · obtain ⟨q1, q2, q3, q4⟩ := c1
        simp only [List.mem_singleton] at he
        subst he
        cases h with
        | zero => simp only [WF] at hw; rw [hw.2.1] at q2; simp at q2
        | succ h =>
          have hw2 := hw
          simp only [WF] at hw2
          obtain ⟨w1, w2, w3, w4, w5⟩ := hw2
          obtain ⟨_, m2⟩ := bt_merge_wf N h hN (r.child 0) (r.child 1) (r.key 0)
            (w5 _ (bt_child_mem r 0 (by omega))) (w5 _ (bt_child_mem r 1 (by omega))) q3 q4
          exact ⟨q3, q4, m2⟩
      · simp at he
    simp only [remove_events]
    generalize (if r.num_keys = 1 ∧ r.children.length ≠ 0 ∧ (r.child 0).num_keys = N - 1 ∧
      (r.child 1).num_keys = N - 1 then merge N (r.child 0) (r.child 1) (r.key 0)
      else r) = top at t1 ⊢
    intro e he
    rcases List.mem_append.1 he with he | he
    · exact hpre e he
    · exact bt_remove_loop_events N hN x h2 top.depth top
        (by rw [bt_wf_depth N h2 1 top t1]; omega) t1 e he

theorem bt_remove_enters_and_merges_witness :
    1 < 2 ∧ Inv 2 thinRoot ∧ ∀ e ∈ remove_events 2 thinRoot 10, e.Ok 2 :=
  ⟨by decide, ⟨2, by simp [thinRoot, WF, Node.leaf, Node.children, Node.num_keys, Node.keys]⟩,
    bt_remove_enters_and_merges 2 (by decide) thinRoot 10
      ⟨2, by simp [thinRoot, WF, Node.leaf, Node.children, Node.num_keys, Node.keys]⟩⟩

end BTree
/-! ## Lemmas: the B-tree root, the red-black root, the passes of `black_leaf_delete` -/

/-- An invariant kept by every call is kept by a sequence of calls. -/
theorem runOps_invariant {σ : Type} (step : σ → Op → Bool × σ) (P : σ → Prop)
    (hstep : ∀ s op, P s → P (step s op).2) :
    ∀ (ops : List Op) (s : σ), P s → P (runOps step s ops).2 := by
  intro ops
  induction ops with
  | nil => intro s h; exact h
  | cons op ops ih =>
    intro s h
    simp only [runOps]
    exact ih _ (hstep s op h)

namespace BTree

/-- Every tree reached from the empty tree satisfies the B-tree invariant and has ascending
keys. -/
theorem bt_runOps_inv (N : Nat) (hN : 1 < N) (ops : List Op) :
    Inv N (runOps (step N) none ops).2 ∧ Ascending (treeKeys (runOps (step N) none ops).2) :=
  runOps_invariant (step N) (fun t => Inv N t ∧ Ascending (treeKeys t))
    (fun t op h => (bt_step_spec N hN t op h.1 h.2).1) ops none
    ⟨trivial, by simp [treeKeys, Ascending]⟩

/-- Under the B-tree invariant the key sequence is empty exactly when the root pointer is
null. -/
theorem bt_inv_empty_iff (N : Nat) (root : Option Node) (hi : Inv N root) :
    treeKeys root = [] ↔ root = none := by
  cases root with
  | none => simp [treeKeys]
  | some r =>
    obtain ⟨h, hw⟩ := hi
    have hl := bt_wf_lo _ _ _ _ hw
    obtain ⟨ks, cs, lf⟩ := r
    simp only [bt_num_keys_mk] at hl
    constructor
    · intro e
      exfalso
      cases ks with
      | nil => simp at hl
      | cons k ks =>
        have := bt_keys_subset cs (k :: ks) k (by simp)
        simp only [treeKeys, bt_allKeys_mk] at e
        rw [e] at this
        simp at this
    · intro e
      cases e

end BTree

namespace RBTree

/-- The colour of the root of a rebuilt tree is the colour of the farthest ancestor. -/
theorem rb_is_red_plug (t : Node) (st : List (Frame color_t)) (f : Frame color_t)
    (hf : st.getLast? = some f) : is_red (plug t st) = decide (f.tag = .RED) := by
  induction st generalizing t with
  | nil => simp at hf
  | cons g st ih =>
    cases st with
    | nil =>
      simp only [List.getLast?_singleton, Option.some.injEq] at hf
      subst hf
      obtain ⟨d, v, c, o⟩ := g
      cases d <;> cases c <;> simp [plug, Frame.fill, is_red]
    | cons g2 st2 =>
      rw [List.getLast?_cons_cons] at hf
      simp only [plug]
      exact ih _ hf

theorem rb_lastBlack_nil : LastBlack [] := by
  intro f hf
  simp at hf

theorem rb_lastBlack_cons (f : Frame color_t) (st : List (Frame color_t)) :
    LastBlack (f :: st) ↔ (st = [] → f.tag = .BLACK) ∧ LastBlack st := by
  cases st with
  | nil =>
    constructor
    · intro h
      exact ⟨fun _ => h f (by simp), rb_lastBlack_nil⟩
    · intro h g hg
      simp only [List.getLast?_singleton, Option.some.injEq] at hg
      subst hg
      exact h.1 rfl
  | cons g st2 =>
    constructor
    · intro h
      refine ⟨fun e => (by cases e), ?_⟩
      intro x hx
      exact h x (by rw [List.getLast?_cons_cons]; exact hx)
    · intro h x hx
      rw [List.getLast?_cons_cons] at hx
      exact h.2 x hx

theorem rb_lastBlack_append (s1 s2 : List (Frame color_t)) (h2 : s2 ≠ [])
    (h : LastBlack s2) : LastBlack (s1 ++ s2) := by
  intro f hf
  rw [List.getLast?_append_of_ne_nil _ h2] at hf
  exact h f hf

/-- The root of a rebuilt tree is not red when the farthest ancestor is black, or when there
is no ancestor and the subtree itself is not red. -/
theorem rb_plug_root_black (t : Node) (st : List (Frame color_t)) (hl : LastBlack st)
    (ht : st = [] → is_red t = false) : is_red (plug t st) = false := by
  cases hs : st.getLast? with
  | none =>
    have : st = [] := List.getLast?_eq_none_iff.1 hs
    subst this
    exact ht rfl
  | some f =>
    rw [rb_is_red_plug t st f hs, hl f hs]
    rfl

theorem rb_is_red_false_iff (t : Node) : is_red t = false ↔ colorOf t = .BLACK := by
  cases t with
  | null => simp [is_red, colorOf]
  | node l v c r => cases c <;> simp [is_red, colorOf]

theorem rb_focusChild_last (d : dir_t) (t : Node) (st : List (Frame color_t))
    (hl : LastBlack st) (ht : st = [] → is_red t = false) :
    LastBlack (focusChild d t st).2 := by
  cases t with
  | null => exact hl
  | node l v c r =>
    have hc : st = [] → c = .BLACK := by
      intro e
      have := ht e
      cases c
      · simp [is_red] at this
      · rfl
    cases d <;> exact (rb_lastBlack_cons _ _).2 ⟨hc, hl⟩

theorem rb_descend_last (val : Int) (t : Node) :
    ∀ st : List (Frame color_t), LastBlack st → (st = [] → is_red t = false) →
      LastBlack (descend val t st).2 := by
  induction t with
  | null => intro st hl _; exact hl
  | node l v c r ihl ihr =>
    intro st hl ht
    have hc : st = [] → c = .BLACK := by
      intro e
      have := ht e
      cases c
      · simp [is_red] at this
      · rfl
    unfold descend
    split_ifs with c1 c2
    · exact ihl _ ((rb_lastBlack_cons _ _).2 ⟨hc, hl⟩) (fun e => by cases e)
    · exact ihr _ ((rb_lastBlack_cons _ _).2 ⟨hc, hl⟩) (fun e => by cases e)
    · exact hl

theorem rb_insertion_walk_last (val : Int) (t : Node) :
    ∀ st : List (Frame color_t), LastBlack st → (st = [] → is_red t = false) →
      LastBlack (insertion_walk val t st) := by
  induction t with
  | null => intro st hl _; exact hl
  | node l v c r ihl ihr =>
    intro st hl ht
    have hc : st = [] → c = .BLACK := by
      intro e
      have := ht e
      cases c
      · simp [is_red] at this
      · rfl
    unfold insertion_walk
    split_ifs with c1
    · exact ihl _ ((rb_lastBlack_cons _ _).2 ⟨hc, hl⟩) (fun e => by cases e)
    · exact ihr _ ((rb_lastBlack_cons _ _).2 ⟨hc, hl⟩) (fun e => by cases e)

theorem rb_leftmost_last (t : Node) :
    ∀ st : List (Frame color_t), LastBlack st → (st = [] → is_red t = false) →
      LastBlack (leftmost t st).2 := by
  induction t with
  | null => intro st hl _; exact hl
  | node l v c r ihl ihr =>
    intro st hl ht
    cases l with
    | null => exact hl
    | node a x c2 b =>
      have hc : st = [] → c = .BLACK := by
        intro e
        have := ht e
        cases c
        · simp [is_red] at this
        · rfl
      simp only [leftmost]
      exact ihl _ ((rb_lastBlack_cons _ _).2 ⟨hc, hl⟩) (fun e => by cases e)

/-- One pass of the balancing loop of `add` keeps the farthest ancestor black. -/
theorem rb_add_step_last (s s2 : Node × List (Frame color_t)) (hl : LastBlack s.2)
    (h : add_step s = some s2) : LastBlack s2.2 := by
  obtain ⟨ins, st⟩ := s
  cases st with
  | nil => simp [add_step] at h
  | cons p rest =>
    simp only [add_step] at h
    split_ifs at h with c0
    cases rest with
    | nil =>
      simp only [Option.some.injEq] at h
      subst h
      exact (rb_lastBlack_cons _ _).2 ⟨fun _ => rfl, rb_lastBlack_nil⟩
    | cons gp rest2 =>
      have hl2 : LastBlack rest2 := ((rb_lastBlack_cons _ _).1 ((rb_lastBlack_cons _ _).1 hl).2).2
      have hl1 : LastBlack (gp :: rest2) := ((rb_lastBlack_cons _ _).1 hl).2
      simp only at h
      obtain ⟨pd, pv, pc, po⟩ := p
      obtain ⟨gd, gv, gc, go⟩ := gp
      split_ifs at h with c1 c2 c3 c4
      · simp only [Option.some.injEq] at h
        subst h
        exact hl2
      · simp only [Option.some.injEq] at h
        subst h
        obtain ⟨rfl, rfl⟩ := c2
        exact rb_focusChild_last _ _ _ hl2 (fun _ => by
          simp [Frame.fill, TreeNode.right_rotate, is_red])
      · simp only [Option.some.injEq] at h
        subst h
        obtain ⟨rfl, rfl⟩ := c3
        exact rb_focusChild_last _ _ _ hl2 (fun _ => by
          simp [Frame.fill, TreeNode.left_rotate, is_red])
      · simp only [Option.some.injEq] at h
        subst h
        exact rb_focusChild_last _ _ _ hl1 (fun e => by cases e)
      · simp only [Option.some.injEq] at h
        subst h
        exact rb_focusChild_last _ _ _ hl1 (fun e => by cases e)

theorem rb_add_loop_last (fuel : Nat) :
    ∀ s : Node × List (Frame color_t), LastBlack s.2 → LastBlack (add_loop fuel s).2 := by
  induction fuel with
  | zero => intro s h; exact h
  | succ k ih =>
    intro s h
    simp only [add_loop]
    cases hs : add_step s with
    | none => exact h
    | some s2 => exact ih s2 (rb_add_step_last s s2 h hs)

/-- The call `add` leaves a tree whose root is not red, when the root was not red before. -/
theorem rb_add_root_black (t : Node) (x : Int) (ht : is_red t = false) :
    is_red (add t x).2 = false := by
  unfold add
  split_ifs with hf
  · exact ht
  · have hw := rb_insertion_walk_last x t [] rb_lastBlack_nil (fun _ => ht)
    cases hi : insertion_walk x t [] with
    | nil => simp [newNode, TreeNode.setTag, is_red]
    | cons ins_par st =>
      rw [hi] at hw
      simp only
      have h0 : LastBlack (focusChild (if x < ins_par.val then dir_t.LEFT else dir_t.RIGHT)
          ((ins_par.fill .null).setChild (if x < ins_par.val then dir_t.LEFT else dir_t.RIGHT)
            (newNode x)) st).2 := by
        apply rb_focusChild_last _ _ _ ((rb_lastBlack_cons _ _).1 hw).2
        intro e
        have hc := ((rb_lastBlack_cons _ _).1 hw).1 e
        obtain ⟨d, v, c, o⟩ := ins_par
        simp only at hc
        subst hc
        cases d <;> split_ifs <;>
          simp [Frame.fill, TreeNode.setChild, TreeNode.setLeft, TreeNode.setRight, is_red]
      have h1 := rb_add_loop_last (2 * (st.length + 1) + 3) _ h0
      generalize add_loop (2 * (st.length + 1) + 3) _ = s at h1
      obtain ⟨s1, s2⟩ := s
      cases s2 with
      | nil =>
        simp only
        cases s1 <;> simp [TreeNode.setTag, is_red]
      | cons f fs => exact rb_plug_root_black _ _ h1 (fun e => by cases e)

end RBTree

namespace RBTree

theorem rb_is_red_setChild (d : dir_t) (n c : Node) :
    is_red (TreeNode.setChild d n c) = is_red n := by
  cases n with
  | null => cases d <;> rfl
  | node l v k r => cases k <;> cases d <;> rfl

theorem rb_colorOf_setChild (d : dir_t) (n c : Node) :
    colorOf (TreeNode.setChild d n c) = colorOf n := by
  cases n <;> cases d <;> rfl

theorem rb_is_red_setTag (c : color_t) (n : Node) (hc : c = .BLACK) :
    is_red (n.setTag c) = false := by
  subst hc
  cases n <;> rfl

theorem rb_colorOf_fill (f : Frame color_t) (t : Node) : colorOf (f.fill t) = f.tag := by
  obtain ⟨d, v, c, o⟩ := f
  cases d <;> rfl

theorem rb_case_D6_root (dir : dir_t) (t : Node) (h : colorOf t = .BLACK) :
    is_red (case_D6 dir t) = false := by
  simp only [case_D6, rb_is_red_setChild]
  exact rb_is_red_setTag _ _ h

theorem rb_case_D5_root (dir : dir_t) (t : Node) (h : colorOf t = .BLACK) :
    is_red (case_D5 dir t) = false := by
  simp only [case_D5]
  exact rb_case_D6_root _ _ (by rw [rb_colorOf_setChild]; exact h)

theorem rb_case_D4_root (dir : dir_t) (t : Node) : is_red (case_D4 dir t) = false := by
  simp only [case_D4, rb_is_red_setChild]
  exact rb_is_red_setTag _ _ rfl

/-- The fix-up after the removal of a black leaf leaves a root that is not red, when the
farthest ancestor is black. -/
theorem rb_black_leaf_delete_root (st : List (Frame color_t)) :
    ∀ N : Node, LastBlack st → (st = [] → is_red N = false) →
      is_red (black_leaf_delete N st) = false := by
  induction st with
  | nil => intro N _ h; exact h rfl
  | cons P rest ih =>
    intro N hl _
    obtain ⟨hp, hr⟩ := (rb_lastBlack_cons _ _).1 hl
    simp only [black_leaf_delete]
    split_ifs with c1 c2 c3 c4 c5 c6
    all_goals first
      | (apply rb_plug_root_black _ _ hr
         intro e
         first
           | (simp only [rb_is_red_setChild]; exact rb_is_red_setTag _ _ rfl)
           | exact rb_case_D6_root _ _ (by rw [rb_colorOf_fill]; exact hp e)
           | exact rb_case_D5_root _ _ (by rw [rb_colorOf_fill]; exact hp e)
           | exact rb_case_D4_root _ _)
      | (apply ih _ hr
         intro _
         rw [rb_is_red_setChild]
         obtain ⟨d, v, c, o⟩ := P
         cases c
         · simp_all
         · cases d <;> rfl)

/-- The part of `remove` after the two-children swap leaves a root that is not red, when the
farthest ancestor is black. -/
theorem rb_remove_node_root (del : Node) (st : List (Frame color_t)) (hl : LastBlack st) :
    is_red (remove_node del st) = false := by
  have hplug : ∀ t : Node, is_red t = false → is_red (plug t st) = false :=
    fun t ht => rb_plug_root_black t st hl (fun _ => ht)
  cases del with
  | null => exact hplug .null rfl
  | node l v c r =>
    cases l with
    | node a x c2 b =>
      cases r with
      | null =>
        simp only [remove_node]
        exact hplug _ (rb_is_red_setTag_black _)
      | node a2 x2 c3 b2 =>
        cases st with
        | nil => rfl
        | cons P rest =>
          simp only [remove_node]
          split_ifs
          · exact rb_plug_root_black _ _ hl (fun e => by cases e)
          · exact rb_black_leaf_delete_root _ _ hl (fun e => by cases e)
    | null =>
      cases r with
      | node a2 x2 c3 b2 =>
        simp only [remove_node]
        exact hplug _ (rb_is_red_setTag_black _)
      | null =>
        cases st with
        | nil => rfl
        | cons P rest =>
          simp only [remove_node]
          split_ifs
          · exact rb_plug_root_black _ _ hl (fun e => by cases e)
          · exact rb_black_leaf_delete_root _ _ hl (fun e => by cases e)

/-- The call `remove` leaves a tree whose root is not red, when the root was not red
before. -/
theorem rb_remove_root_black (t : Node) (x : Int) (ht : is_red t = false) :
    is_red (remove t x).2 = false := by
  have hd := rb_descend_last x t [] rb_lastBlack_nil (fun _ => ht)
  have hplug := plug_descend x t ([] : List (Frame color_t))
  unfold remove
  generalize descend x t [] = res at hd hplug
  obtain ⟨del, st⟩ := res
  simp only at hd
  cases del with
  | null => exact ht
  | node l v c r =>
    cases l with
    | null => exact rb_remove_node_root _ _ hd
    | node ll lv lc lr =>
      cases r with
      | null => exact rb_remove_node_root _ _ hd
      | node rl rv rc rr =>
        simp only
        cases hm : leftmost (.node rl rv rc rr) [] with
        | mk suc seg =>
          cases suc with
          | null => exact ht
          | node sl sv sc sr =>
            simp only
            apply rb_remove_node_root
            apply rb_lastBlack_append _ _ (by simp)
            refine (rb_lastBlack_cons _ _).2 ⟨fun e => ?_, hd⟩
            subst e
            simp only [plug] at hplug
            rw [← hplug] at ht
            cases c
            · simp [is_red] at ht
            · rfl

end RBTree

namespace RBTree

/-- Under the invariant of `black_leaf_delete`, the sibling read in every pass is not null,
and neither is the new sibling after the rotation of a red sibling. -/
theorem rb_passes_nonnull (st : List (Frame color_t)) :
    ∀ N : Node, DelInv N st →
      ∀ p ∈ black_leaf_delete_passes N st,
        p.S ≠ .null ∧ ∀ c, p.new_S = some c → c ≠ .null := by
  induction st with
  | nil => intro N _ p hp; simp [black_leaf_delete_passes] at hp
  | cons P rest ih =>
    intro N h
    obtain ⟨i1, i2, i3, i4⟩ := h
    obtain ⟨d, pv, pc, S⟩ := P
    simp only [PathRB] at i4
    obtain ⟨s1, s2, s3, s4, s5⟩ := i4
    cases S with
    | null => simp [blackHeight] at s3
    | node sl sv sc sr =>
    simp only [NoRedRed] at s1
    simp only [BlackBalanced] at s2
    obtain ⟨sl1, sr1, sc1⟩ := s1
    obtain ⟨sl2, sr2, sb⟩ := s2
    cases sc with
    | RED =>
      obtain ⟨slr, srr⟩ := sc1 rfl
      cases pc with
      | RED => simp [rb_is_red_red] at s4
      | BLACK =>
      simp only [rb_bh_red, if_true, Nat.add_zero] at s3 s5
      obtain ⟨cl, cv, cr, rfl⟩ := rb_blackHeight_pos sl (by omega) slr sl2 sl1
      obtain ⟨dl, dv, dr, rfl⟩ := rb_blackHeight_pos sr (by omega) srr sr2 sr1
      intro p hp
      cases d <;>
        · simp only [black_leaf_delete_passes, rb_is_red_red, if_true, List.mem_singleton]
            at hp
          subst hp
          simp [TreeNode.child]
    | BLACK =>
      simp only [rb_bh_black] at s3
      have hN : blackHeight sl = blackHeight N := by omega
      cases d
      · simp only [black_leaf_delete_passes, Frame.fill, rb_is_red_black, TreeNode.child,
          dir_t.flip, Bool.false_eq_true, if_false]
        split_ifs with hD hC hP
        · intro p hp; simp only [List.mem_singleton] at hp; subst hp; simp
        · intro p hp; simp only [List.mem_singleton] at hp; subst hp; simp
        · intro p hp; simp only [List.mem_singleton] at hp; subst hp; simp
        · intro p hp
          rcases List.mem_cons.1 hp with rfl | hp
          · simp
          · refine ih _ ?_ p hp
            cases pc with
            | RED => exact absurd rfl hP
            | BLACK =>
              refine ⟨rfl, ?_, ?_, ?_⟩ <;>
                simp_all [NoRedRed, BlackBalanced, rb_bh_red, rb_bh_black, rb_is_red_red,
                  rb_is_red_black, TreeNode.setTag, TreeNode.setChild, TreeNode.setRight,
                  TreeNode.setLeft] <;> omega
      · simp only [black_leaf_delete_passes, Frame.fill, rb_is_red_black, TreeNode.child,
          dir_t.flip, Bool.false_eq_true, if_false]
        split_ifs with hD hC hP
        · intro p hp; simp only [List.mem_singleton] at hp; subst hp; simp
        · intro p hp; simp only [List.mem_singleton] at hp; subst hp; simp
        · intro p hp; simp only [List.mem_singleton] at hp; subst hp; simp
        · intro p hp
          rcases List.mem_cons.1 hp with rfl | hp
          · simp
          · refine ih _ ?_ p hp
            cases pc with
            | RED => exact absurd rfl hP
            | BLACK =>
              refine ⟨rfl, ?_, ?_, ?_⟩ <;>
                simp_all [NoRedRed, BlackBalanced, rb_bh_red, rb_bh_black, rb_is_red_red,
                  rb_is_red_black, TreeNode.setTag, TreeNode.setChild, TreeNode.setRight,
                  TreeNode.setLeft] <;> omega

/-- The number of passes is at most the number of ancestors; a pass that moves up makes no
rotation, any other pass is the last one and makes at most three. -/
theorem rb_passes_bound (st : List (Frame color_t)) :
    ∀ N : Node, (black_leaf_delete_passes N st).length ≤ st.length ∧
      (∀ p ∈ black_leaf_delete_passes N st,
        (p.up = true ∧ p.rotations = 0) ∨ (p.up = false ∧ p.rotations ≤ 3)) ∧
      (∀ p ∈ (black_leaf_delete_passes N st).dropLast, p.up = true) := by
  induction st with
  | nil => intro N; simp [black_leaf_delete_passes]
  | cons P rest ih =>
    intro N
    simp only [black_leaf_delete_passes]
    split_ifs with c1 c2 c3 c4 c5 c6
    all_goals first
      | (refine ⟨by simp, ?_, by simp⟩
         intro p hp
         simp only [List.mem_singleton] at hp
         subst hp
         right
         simp)
      | (obtain ⟨h1, h2, h3⟩ := ih (TreeNode.setChild P.dir.flip (P.fill N)
            (P.other.setTag .RED))
         refine ⟨by simp only [List.length_cons]; omega, ?_, ?_⟩
         · intro p hp
           rcases List.mem_cons.1 hp with rfl | hp
           · left; simp
           · exact h2 p hp
         · intro p hp
           cases hq : black_leaf_delete_passes (TreeNode.setChild P.dir.flip (P.fill N)
               (P.other.setTag .RED)) rest with
           | nil => rw [hq] at hp; simp at hp
           | cons q qs =>
             rw [hq, List.dropLast_cons₂] at hp
             rcases List.mem_cons.1 hp with rfl | hp
             · rfl
             · rw [hq] at h3; exact h3 p hp)

end RBTree

namespace RBTree

theorem rb_remove_node_call_inv (del : Node) (st : List (Frame color_t)) (h : DescInv del st)
    (hc : del.child .LEFT = .null ∨ del.child .RIGHT = .null) :
    ∀ st2, remove_node_call del st = some st2 → DelInv .null st2 := by
  intro st2 hs
  obtain ⟨h1, h2, h3, h4⟩ := h
  cases del with
  | null => simp [remove_node_call] at hs
  | node l v c r =>
    cases l with
    | null =>
      cases r with
      | null =>
        cases st with
        | nil => simp [remove_node_call] at hs
        | cons P rest =>
          simp only [remove_node_call] at hs
          cases c with
          | RED => simp [rb_is_red_red] at hs
          | BLACK =>
            simp only [rb_is_red_black, Bool.false_eq_true, if_false, Option.some.injEq] at hs
            subst hs
            exact ⟨rfl, trivial, trivial, by simpa [blackHeight] using h3⟩
      | node a x c2 b => simp [remove_node_call] at hs
    | node a x c2 b =>
      cases r with
      | node _ _ _ _ => simp [TreeNode.child] at hc
      | null => simp [remove_node_call] at hs

/-- When `remove` on a tree satisfying the two colour conditions calls `black_leaf_delete`,
the invariant of `black_leaf_delete` holds at the call. -/
theorem rb_remove_call_inv (t : Node) (x : Int) (h1 : NoRedRed t) (h2 : BlackBalanced t) :
    ∀ st, remove_call t x = some st → DelInv .null st := by
  have hinv := rb_descend_inv x t [] ⟨h1, h2, by simp [PathRB], by simp [topRed]⟩
  unfold remove_call
  generalize descend x t [] = res at hinv
  obtain ⟨del, st⟩ := res
  simp only at hinv
  cases del with
  | null => intro st2 hs; simp at hs
  | node l v c r =>
    cases l with
    | null => exact rb_remove_node_call_inv _ _ hinv (Or.inl rfl)
    | node ll lv lc lr =>
      cases r with
      | null => exact rb_remove_node_call_inv _ _ hinv (Or.inr rfl)
      | node rl rv rc rr =>
        have hr := (rb_descInv_child _ _ v c st hinv).2
        have hl := rb_leftmost_inv _ _ hr
        rw [rb_leftmost_append] at hl
        obtain ⟨sv, sc, sr, e⟩ := rb_leftmost_shape (.node rl rv rc rr) [] (by simp)
        generalize hres : leftmost (.node rl rv rc rr) [] = res2 at hl e
        obtain ⟨suc, seg⟩ := res2
        simp only at hl e
        subst e
        simp only [hres]
        refine rb_remove_node_call_inv (.node .null x sc sr) _ ?_ (Or.inl rfl)
        obtain ⟨q1, q2, q3, q4⟩ := hl
        refine ⟨by simpa [NoRedRed] using q1, by simpa [BlackBalanced] using q2, ?_, ?_⟩
        · have := rb_pathRB_val seg st .RIGHT v sv c (.node ll lv lc lr) _ q3
          simpa [blackHeight] using this
        · intro ht
          rw [← rb_topRed_append_val seg st .RIGHT v sv c (.node ll lv lc lr)] at ht
          have := q4 ht
          cases sc
          · simp [rb_is_red_red] at this
          · rfl

end RBTree

namespace RBTree

/-- In the red-sibling branch of `black_leaf_delete` the sibling after the rotation, read as
`P->children[1 - dir]` in the rotated tree, is the former near nephew `C`, the node recorded
as `new_S` by `black_leaf_delete_passes`. -/
theorem rb_red_sibling_new_S (N : Node) (P : Frame color_t) (h : is_red P.other = true) :
    (((TreeNode.rotate P.dir (P.fill N)).child P.dir).setTag .RED).child P.dir.flip =
      P.other.child P.dir := by
  obtain ⟨d, v, c, o⟩ := P
  cases o with
  | null => simp [is_red] at h
  | node l w k r => cases d <;> rfl

end RBTree

/-! ## SplayTree: rotations and `fix` in memory -/

namespace SplayTree.Ptr

@[simp] theorem sp_setChild_children (m : Mem) (a : Nat) (d : dir_t) (c : Option Nat) (b : Nat)
    (e : dir_t) :
    (m.setChild a d c).children b e = if b = a ∧ e = d then c else m.children b e := rfl

@[simp] theorem sp_setChild_parent (m : Mem) (a : Nat) (d : dir_t) (c : Option Nat) :
    (m.setChild a d c).parent = m.parent := rfl

@[simp] theorem sp_setChild_val (m : Mem) (a : Nat) (d : dir_t) (c : Option Nat) :
    (m.setChild a d c).val = m.val := rfl

@[simp] theorem sp_setChild_next (m : Mem) (a : Nat) (d : dir_t) (c : Option Nat) :
    (m.setChild a d c).next = m.next := rfl

@[simp] theorem sp_setChild_node (m : Mem) (a : Nat) (d : dir_t) (c : Option Nat) :
    (m.setChild a d c).node = m.node := rfl

@[simp] theorem sp_setParent_children (m : Mem) (a : Nat) (c : Option Nat) :
    (m.setParent a c).children = m.children := rfl

@[simp] theorem sp_setParent_parent (m : Mem) (a : Nat) (c : Option Nat) (b : Nat) :
    (m.setParent a c).parent b = if b = a then c else m.parent b := rfl

@[simp] theorem sp_setParent_val (m : Mem) (a : Nat) (c : Option Nat) :
    (m.setParent a c).val = m.val := rfl

@[simp] theorem sp_setParent_next (m : Mem) (a : Nat) (c : Option Nat) :
    (m.setParent a c).next = m.next := rfl

@[simp] theorem sp_setParent_node (m : Mem) (a : Nat) (c : Option Nat) :
    (m.setParent a c).node = m.node := rfl

@[simp] theorem sp_setNode_children (m : Mem) (c : Option Nat) :
    (m.setNode c).children = m.children := rfl

@[simp] theorem sp_setNode_parent (m : Mem) (c : Option Nat) :
    (m.setNode c).parent = m.parent := rfl

@[simp] theorem sp_setNode_val (m : Mem) (c : Option Nat) : (m.setNode c).val = m.val := rfl

@[simp] theorem sp_setNode_next (m : Mem) (c : Option Nat) : (m.setNode c).next = m.next := rfl

@[simp] theorem sp_setNode_node (m : Mem) (c : Option Nat) : (m.setNode c).node = c := rfl

theorem sp_left_rotate_eq (m : Mem) (gp : Option Nat) (p n : Nat) :
    left_rotate m gp p n = turn .LEFT (relink m gp p n) p n := rfl

theorem sp_right_rotate_eq (m : Mem) (gp : Option Nat) (p n : Nat) :
    right_rotate m gp p n = turn .RIGHT (relink m gp p n) p n := rfl

theorem sp_ptrOf_mem (t : TreeNode Nat) (a : Nat) (h : ptrOf t = some a) : a ∈ addrs t := by
  cases t with
  | null => simp [ptrOf] at h
  | node l v b r => simp [ptrOf] at h; simp [addrs, h]

theorem sp_rep_congr (m m2 : Mem) (t : TreeNode Nat) :
    ∀ par, (∀ a ∈ addrs t, AgreeAt m m2 a) → Rep m t par → Rep m2 t par := by
  induction t with
  | null => intro par _ _; trivial
  | node l v a r ihl ihr =>
    intro par hag h
    obtain ⟨h1, h2, h3, h4, h5, h6⟩ := h
    obtain ⟨g1, g2, g3⟩ := hag a (by simp [addrs])
    refine ⟨by rw [g1, h1], by rw [g2, h2], by rw [g2, h3], by rw [g3, h4], ?_, ?_⟩
    · exact ihl _ (fun b hb => hag b (by simp [addrs, hb])) h5
    · exact ihr _ (fun b hb => hag b (by simp [addrs, hb])) h6

/-- A subtree whose root gets a new parent and whose other fields stay. -/
theorem sp_rep_reparent (m m2 : Mem) (t : TreeNode Nat) (par par2 : Option Nat)
    (hnd : (addrs t).Nodup)
    (hv : ∀ a ∈ addrs t, m2.val a = m.val a ∧ ∀ e, m2.children a e = m.children a e)
    (hp : ∀ a ∈ addrs t, ptrOf t ≠ some a → m2.parent a = m.parent a)
    (hr : ∀ a, ptrOf t = some a → m2.parent a = par2) (h : Rep m t par) : Rep m2 t par2 := by
  cases t with
  | null => trivial
  | node l v a r =>
    obtain ⟨h1, h2, h3, h4, h5, h6⟩ := h
    simp only [addrs, List.nodup_cons, List.mem_append, not_or, List.nodup_append] at hnd
    obtain ⟨⟨na1, na2⟩, _, _, _⟩ := hnd
    have g := hv a (by simp [addrs])
    refine ⟨by rw [g.1, h1], by rw [g.2, h2], by rw [g.2, h3], hr a rfl, ?_, ?_⟩
    · refine sp_rep_congr m m2 l _ (fun b hb => ?_) h5
      have hb2 : b ∈ addrs (TreeNode.node l v a r) := by simp [addrs, hb]
      refine ⟨(hv b hb2).1, (hv b hb2).2, hp b hb2 ?_⟩
      simp only [ptrOf, ne_eq, Option.some.injEq]
      rintro rfl; exact na1 hb
    · refine sp_rep_congr m m2 r _ (fun b hb => ?_) h6
      have hb2 : b ∈ addrs (TreeNode.node l v a r) := by simp [addrs, hb]
      refine ⟨(hv b hb2).1, (hv b hb2).2, hp b hb2 ?_⟩
      simp only [ptrOf, ne_eq, Option.some.injEq]
      rintro rfl; exact na2 hb

theorem sp_repCtx_congr (m m2 : Mem) (st : List (Frame Nat)) :
    ∀ hole, (∀ a ∈ ctxAddrs st, AgreeAt m m2 a) → RepCtx m st hole → RepCtx m2 st hole := by
  induction st with
  | nil => intro _ _ _; trivial
  | cons f st ih =>
    intro hole hag h
    obtain ⟨h1, h2, h3, h4, h5, h6⟩ := h
    obtain ⟨g1, g2, g3⟩ := hag f.tag (by simp [ctxAddrs])
    refine ⟨by rw [g1, h1], by rw [g2, h2], by rw [g2, h3], by rw [g3, h4], ?_, ?_⟩
    · exact sp_rep_congr m m2 _ _ (fun b hb => hag b (by simp [ctxAddrs, hb])) h5
    · exact ih _ (fun b hb => hag b (by simp [ctxAddrs, hb])) h6

/-- The ancestors after the pointer to the node below them has been replaced in the nearest
one. -/
theorem sp_repCtx_hole (m m2 : Mem) (f : Frame Nat) (st : List (Frame Nat))
    (hole hole2 : Option Nat) (hnd : (ctxAddrs (f :: st)).Nodup)
    (hf : m2.val f.tag = m.val f.tag ∧ m2.children f.tag f.dir = hole2 ∧
      m2.children f.tag f.dir.flip = m.children f.tag f.dir.flip ∧
      m2.parent f.tag = m.parent f.tag)
    (hag : ∀ a ∈ ctxAddrs (f :: st), a ≠ f.tag → AgreeAt m m2 a)
    (h : RepCtx m (f :: st) hole) : RepCtx m2 (f :: st) hole2 := by
  obtain ⟨h1, h2, h3, h4, h5, h6⟩ := h
  simp only [ctxAddrs, List.nodup_cons, List.mem_append, not_or, List.nodup_append] at hnd
  obtain ⟨⟨na1, na2⟩, _, _, _⟩ := hnd
  refine ⟨by rw [hf.1, h1], hf.2.1, by rw [hf.2.2.1, h3], by rw [hf.2.2.2, h4], ?_, ?_⟩
  · refine sp_rep_congr m m2 _ _ (fun b hb => hag b (by simp [ctxAddrs, hb]) ?_) h5
    rintro rfl; exact na1 hb
  · refine sp_repCtx_congr m m2 _ _ (fun b hb => hag b (by simp [ctxAddrs, hb]) ?_) h6
    rintro rfl; exact na2 hb

end SplayTree.Ptr

namespace SplayTree.Ptr

theorem sp_turn_fields (d : dir_t) (m : Mem) (p n : Nat) (hnp : n ≠ p) :
    (turn d m p n).val = m.val ∧ (turn d m p n).next = m.next ∧
      (turn d m p n).node = m.node ∧
      (∀ a e, (turn d m p n).children a e =
        if a = n ∧ e = d then some p
        else if a = p ∧ e = d.flip then m.children n d else m.children a e) ∧
      (∀ a, (turn d m p n).parent a =
        if a = p then some n else if m.children n d = some a then some p else m.parent a) := by
  refine ⟨?_, ?_, ?_, ?_, ?_⟩
  all_goals unfold turn
  all_goals simp only [sp_setChild_children, hnp, false_and, if_false]
  · cases m.children n d <;> rfl
  · cases m.children n d <;> rfl
  · cases m.children n d <;> rfl
  · intro a e; cases m.children n d <;> rfl
  · intro a
    cases m.children n d with
    | none => simp
    | some b =>
      by_cases h1 : a = p
      · simp [h1]
      · by_cases h2 : a = b
        · simp [h1, h2]
        · simp [h1, h2, Ne.symm h2]

theorem sp_relink_fields (m : Mem) (p n : Nat) (st : List (Frame Nat))
    (hctx : RepCtx m st (some p)) (hnode : m.node = rootPtr (some p) st)
    (hnd : (ctxAddrs st).Nodup) (hp : p ∉ ctxAddrs st) (hn : n ∉ ctxAddrs st) :
    (relink m (parentPtr st) p n).val = m.val ∧ (relink m (parentPtr st) p n).next = m.next ∧
      (relink m (parentPtr st) p n).node = rootPtr (some n) st ∧
      (∀ a, (relink m (parentPtr st) p n).parent a =
        if a = n then parentPtr st else m.parent a) ∧
      (∀ a, a ∉ ctxAddrs st → ∀ e, (relink m (parentPtr st) p n).children a e =
        m.children a e) ∧
      RepCtx (relink m (parentPtr st) p n) st (some n) := by
  cases st with
  | nil =>
    simp only [parentPtr, relink, rootPtr]
    refine ⟨rfl, rfl, rfl, fun a => rfl, fun a _ e => rfl, trivial⟩
  | cons g rest =>
    have hctx0 := hctx
    obtain ⟨g1, g2, g3, g4, g5, g6⟩ := hctx
    have hgp : p ∉ addrs g.other := fun h => hp (by simp [ctxAddrs, h])
    have hside : (if m.children g.tag .RIGHT = some p then dir_t.RIGHT else dir_t.LEFT) = g.dir := by
      cases hd : g.dir with
      | LEFT =>
        rw [hd] at g3
        simp only [dir_t.flip] at g3
        rw [g3]
        have : ptrOf g.other ≠ some p := fun h => hgp (sp_ptrOf_mem _ _ h)
        simp [this]
      | RIGHT =>
        rw [hd] at g2
        simp [g2]
    have hng : n ≠ g.tag := fun h => hn (by simp [ctxAddrs, h])
    simp only [parentPtr, relink, hside, rootPtr]
    refine ⟨rfl, rfl, ?_, fun a => rfl, fun a ha e => ?_, ?_⟩
    · simpa [rootPtr] using hnode
    · have hag : a ≠ g.tag := fun h => ha (by simp [ctxAddrs, h])
      simp [hag]
    · refine sp_repCtx_hole m _ g rest (some p) (some n) hnd ?_ ?_ hctx0
      · refine ⟨rfl, by simp, ?_, ?_⟩
        · have : g.dir.flip ≠ g.dir := by cases g.dir <;> simp [dir_t.flip]
          simp [this]
        · simp [Ne.symm hng]
      · intro a ha hag
        have han : a ≠ n := by rintro rfl; exact hn ha
        refine ⟨rfl, fun e => by simp [hag], by simp [han]⟩

/-- One rotation in memory: the node `n` and its parent `p`, the two nearest ancestors of
the subtree `B` that changes sides, trade places. -/
theorem sp_rotate_swap (d : dir_t) (m : Mem) (B A C : TreeNode Nat) (x y : Int) (p n : Nat)
    (st : List (Frame Nat)) (hB : Rep m B (some n))
    (hctx : RepCtx m (⟨d, y, n, C⟩ :: ⟨d.flip, x, p, A⟩ :: st) (ptrOf B))
    (hnode : m.node = rootPtr (some p) st)
    (hnd : (addrs B ++ ctxAddrs (⟨d, y, n, C⟩ :: ⟨d.flip, x, p, A⟩ :: st)).Nodup) :
    Rep (turn d (relink m (parentPtr st) p n) p n) B (some p) ∧
      RepCtx (turn d (relink m (parentPtr st) p n) p n)
        (⟨d.flip, x, p, A⟩ :: ⟨d, y, n, C⟩ :: st) (ptrOf B) ∧
      (turn d (relink m (parentPtr st) p n) p n).node = rootPtr (some n) st ∧
      (turn d (relink m (parentPtr st) p n) p n).next = m.next ∧
      (turn d (relink m (parentPtr st) p n) p n).val = m.val ∧
      ∀ a, a ∉ addrs B ++ ctxAddrs (⟨d, y, n, C⟩ :: ⟨d.flip, x, p, A⟩ :: st) →
        AgreeAt m (turn d (relink m (parentPtr st) p n) p n) a := by
  simp only [ctxAddrs, List.nodup_append, List.nodup_cons, List.mem_append, List.mem_cons,
    not_or, List.disjoint_cons_right, List.disjoint_append_right, List.disjoint_cons_left,
    List.disjoint_append_left] at hnd
  obtain ⟨ndB, ⟨⟨nC, nnp, nA, nst⟩, ndC, ⟨⟨pA, pst⟩, ndA, ndst, dAst⟩, pC, dCA, dCst⟩, nB, dBC,
    pB, dBA, dBst⟩ := hnd
  obtain ⟨c1, c2, c3, c4, c5, e1, e2, e3, e4, e5, e6⟩ := hctx
  simp only at c1 c2 c3 c4 e1 e2 e3 e4
  obtain ⟨r1, r2, r3, r4, r5, r6⟩ := sp_relink_fields m p n st e6 hnode ndst pst nst
  obtain ⟨t1, t2, t3, t4, t5⟩ := sp_turn_fields d (relink m (parentPtr st) p n) p n nnp
  generalize relink m (parentPtr st) p n = m1 at r1 r2 r3 r4 r5 r6 t1 t2 t3 t4 t5
  generalize turn d m1 p n = m2 at t1 t2 t3 t4 t5
  have hflip : d.flip ≠ d := by cases d <;> simp [dir_t.flip]
  have hff : d.flip.flip = d := by cases d <;> rfl
  have k1 : m1.children n d = ptrOf B := by rw [r5 n nst, c2]
  -- the fields of the nodes outside `n`, `p`, the root of `B` and the ancestors
  have hout : ∀ a, a ≠ n → a ≠ p → ptrOf B ≠ some a → a ∉ ctxAddrs st → AgreeAt m m2 a := by
    intro a h1 h2 h3 h4
    refine ⟨by rw [t1, r1], fun e => ?_, ?_⟩
    · rw [t4, r5 a h4]; simp [h1, h2]
    · rw [t5, r4, k1]; simp [h1, h2, h3]
  have hBin : ∀ a ∈ addrs B, a ≠ n ∧ a ≠ p ∧ a ∉ ctxAddrs st :=
    fun a ha => ⟨fun h => nB (h ▸ ha), fun h => pB (h ▸ ha), fun h => dBst ha h⟩
  refine ⟨?_, ⟨?_, ?_, ?_, ?_, ?_, ?_, ?_, ?_, ?_, ?_, ?_⟩, ?_, ?_, ?_, ?_⟩
  · -- B below p
    refine sp_rep_reparent m m2 B (some n) (some p) ndB (fun a ha => ?_) (fun a ha hr => ?_)
      (fun a hr => ?_) hB
    · obtain ⟨h1, h2, h3⟩ := hBin a ha
      refine ⟨by rw [t1, r1], fun e => ?_⟩
      rw [t4, r5 a h3]; simp [h1, h2]
    · obtain ⟨h1, h2, h3⟩ := hBin a ha
      rw [t5, r4, k1]; simp [h1, h2, hr]
    · obtain ⟨h1, h2, h3⟩ := hBin a (sp_ptrOf_mem _ _ hr)
      rw [t5, k1]; simp [h2, hr]
  · rw [t1, r1]; exact e1
  · simp only; rw [t4, k1]; simp [Ne.symm nnp]
  · show m2.children p d.flip.flip = ptrOf A
    rw [hff] at e3 ⊢
    simp [t4, r5 p pst, e3, Ne.symm nnp, hflip, hflip.symm]
  · simp only [parentPtr]; rw [t5]; simp
  · refine sp_rep_congr m m2 A _ (fun a ha => hout a ?_ ?_ ?_ ?_) e5
    · rintro rfl; exact nA ha
    · rintro rfl; exact pA ha
    · intro h; exact dBA (sp_ptrOf_mem _ _ h) ha
    · exact fun h => dAst ha h
  · rw [t1, r1]; exact c1
  · simp only; rw [t4]; simp
  · show m2.children n d.flip = ptrOf C
    simp [t4, r5 n nst, c3, hflip, nnp]
  · simp only; rw [t5, r4, k1]
    have : ptrOf B ≠ some n := fun h => nB (sp_ptrOf_mem _ _ h)
    simp [nnp, this]
  · refine sp_rep_congr m m2 C _ (fun a ha => hout a ?_ ?_ ?_ ?_) c5
    · rintro rfl; exact nC ha
    · rintro rfl; exact pC ha
    · intro h; exact dBC (sp_ptrOf_mem _ _ h) ha
    · exact fun h => dCst ha h
  · refine sp_repCtx_congr m1 m2 st _ (fun a ha => ?_) r6
    have h1 : a ≠ n := by rintro rfl; exact nst ha
    have h2 : a ≠ p := by rintro rfl; exact pst ha
    have h3 : ptrOf B ≠ some a := fun h => dBst (sp_ptrOf_mem _ _ h) ha
    refine ⟨by rw [t1], fun e => ?_, ?_⟩
    · rw [t4]; simp [h1, h2]
    · rw [t5, k1]; simp [h2, h3]
  · rw [t3, r3]
  · rw [t2, r2]
  · rw [t1, r1]
  · intro a ha
    simp only [ctxAddrs, List.mem_append, List.mem_cons, not_or] at ha
    obtain ⟨a1, a2, a3, a4, a5, a6⟩ := ha
    exact hout a a2 a4 (fun h => a1 (sp_ptrOf_mem _ _ h)) a6

end SplayTree.Ptr

namespace SplayTree.Ptr

theorem sp_ptrOf_fill (f : Frame Nat) (t : TreeNode Nat) : ptrOf (f.fill t) = some f.tag := by
  obtain ⟨d, v, a, o⟩ := f
  cases d <;> rfl

theorem sp_foot_fill (f : Frame Nat) (t : TreeNode Nat) (st : List (Frame Nat)) :
    (foot (f.fill t) st).Perm (foot t (f :: st)) := by
  obtain ⟨d, v, a, o⟩ := f
  cases d
  · simp only [foot, Frame.fill, addrs, ctxAddrs, List.cons_append, List.append_assoc]
    exact List.perm_middle.symm
  · simp only [foot, Frame.fill, addrs, ctxAddrs, List.cons_append, List.append_assoc]
    refine (List.Perm.cons a ?_).trans List.perm_middle.symm
    rw [← List.append_assoc, ← List.append_assoc]
    exact List.Perm.append_right _ List.perm_append_comm

theorem sp_good_fill (m : Mem) (f : Frame Nat) (t : TreeNode Nat) (st : List (Frame Nat)) :
    Good m (f.fill t) st ↔ Good m t (f :: st) := by
  have hp := sp_foot_fill f t st
  obtain ⟨d, v, a, o⟩ := f
  unfold Good
  rw [hp.nodup_iff]
  cases d
  · simp only [Frame.fill, Rep, RepCtx, ptrOf, rootPtr, parentPtr, dir_t.flip]
    tauto
  · simp only [Frame.fill, Rep, RepCtx, ptrOf, rootPtr, parentPtr, dir_t.flip]
    tauto

theorem sp_foot_swap (B : TreeNode Nat) (f1 f2 : Frame Nat) (st : List (Frame Nat)) :
    (foot B (f1 :: f2 :: st)).Perm (foot B (f2 :: f1 :: st)) := by
  simp only [foot, ctxAddrs]
  refine List.Perm.append_left _ ?_
  have e1 : f1.tag :: (addrs f1.other ++ f2.tag :: (addrs f2.other ++ ctxAddrs st)) =
      (f1.tag :: addrs f1.other) ++ ((f2.tag :: addrs f2.other) ++ ctxAddrs st) := by simp
  have e2 : f2.tag :: (addrs f2.other ++ f1.tag :: (addrs f1.other ++ ctxAddrs st)) =
      (f2.tag :: addrs f2.other) ++ ((f1.tag :: addrs f1.other) ++ ctxAddrs st) := by simp
  rw [e1, e2, ← List.append_assoc, ← List.append_assoc]
  exact List.Perm.append_right _ List.perm_append_comm

theorem sp_moves_refl (m : Mem) (t : TreeNode Nat) (st : List (Frame Nat)) (h : Good m t st) :
    Moves m t st m t st :=
  ⟨h, rfl, rfl, List.Perm.refl _, fun _ _ => ⟨rfl, fun _ => rfl, rfl⟩⟩

theorem sp_moves_trans (m m2 m3 : Mem) (t t2 t3 : TreeNode Nat) (st st2 st3 : List (Frame Nat))
    (h1 : Moves m t st m2 t2 st2) (h2 : Moves m2 t2 st2 m3 t3 st3) :
    Moves m t st m3 t3 st3 := by
  obtain ⟨a1, a2, a3, a4, a5⟩ := h1
  obtain ⟨b1, b2, b3, b4, b5⟩ := h2
  refine ⟨b1, by rw [b2, a2], by rw [b3, a3], b4.trans a4, fun a ha => ?_⟩
  have ha2 : a ∉ foot t2 st2 := fun h => ha (a4.mem_iff.1 h)
  obtain ⟨x1, x2, x3⟩ := a5 a ha
  obtain ⟨y1, y2, y3⟩ := b5 a ha2
  exact ⟨by rw [y1, x1], fun e => by rw [y2, x2], by rw [y3, x3]⟩

/-- The same memory seen from the parent: the nearest ancestor is made part of the
subtree. -/
theorem sp_moves_fill (m m2 : Mem) (t t2 : TreeNode Nat) (st st2 : List (Frame Nat))
    (f : Frame Nat) (h : Moves m t st m2 t2 (f :: st2)) : Moves m t st m2 (f.fill t2) st2 := by
  obtain ⟨a1, a2, a3, a4, a5⟩ := h
  exact ⟨(sp_good_fill m2 f t2 st2).2 a1, a2, a3, (sp_foot_fill f t2 st2).trans a4, a5⟩

/-- One rotation in memory of the node `n` over its parent `p`: `left_rotate` for `d = LEFT`
and `right_rotate` for `d = RIGHT`. -/
theorem sp_rotate_focus (d : dir_t) (m : Mem) (B A C : TreeNode Nat) (x y : Int) (p n : Nat)
    (st : List (Frame Nat))
    (h : Good m ((⟨d, y, n, C⟩ : Frame Nat).fill B) (⟨d.flip, x, p, A⟩ :: st)) :
    Moves m ((⟨d, y, n, C⟩ : Frame Nat).fill B) (⟨d.flip, x, p, A⟩ :: st)
      (turn d (relink m (parentPtr st) p n) p n)
      ((⟨d, y, n, C⟩ : Frame Nat).fill ((⟨d.flip, x, p, A⟩ : Frame Nat).fill B)) st := by
  have h2 := (sp_good_fill m _ B _).1 h
  obtain ⟨g1, g2, g3, g4⟩ := h2
  obtain ⟨r1, r2, r3, r4, r5, r6⟩ :=
    sp_rotate_swap d m B A C x y p n st g1 g2 (by simpa [rootPtr] using g3) g4
  have hgood : Good (turn d (relink m (parentPtr st) p n) p n) B
      (⟨d.flip, x, p, A⟩ :: ⟨d, y, n, C⟩ :: st) :=
    ⟨r1, r2, by simpa [rootPtr] using r3, (sp_foot_swap B _ _ st).nodup_iff.2 g4⟩
  have hperm : (foot B (⟨d.flip, x, p, A⟩ :: ⟨d, y, n, C⟩ :: st)).Perm
      (foot ((⟨d, y, n, C⟩ : Frame Nat).fill B) (⟨d.flip, x, p, A⟩ :: st)) :=
    (sp_foot_swap B _ _ st).trans (sp_foot_fill _ B _).symm
  have hm : Moves m ((⟨d, y, n, C⟩ : Frame Nat).fill B) (⟨d.flip, x, p, A⟩ :: st)
      (turn d (relink m (parentPtr st) p n) p n) B
      (⟨d.flip, x, p, A⟩ :: ⟨d, y, n, C⟩ :: st) := by
    refine ⟨hgood, r4, r5, hperm, fun a ha => r6 a (fun hin => ha ?_)⟩
    exact (sp_foot_fill _ B _).mem_iff.2 hin
  exact sp_moves_fill _ _ _ _ _ _ _ (sp_moves_fill _ _ _ _ _ _ _ hm)

end SplayTree.Ptr

namespace SplayTree.Ptr

theorem sp_moves_unfill_end (m m2 : Mem) (t t2 : TreeNode Nat) (st st2 : List (Frame Nat))
    (f : Frame Nat) (h : Moves m t st m2 (f.fill t2) st2) : Moves m t st m2 t2 (f :: st2) := by
  obtain ⟨a1, a2, a3, a4, a5⟩ := h
  exact ⟨(sp_good_fill m2 f t2 st2).1 a1, a2, a3, (sp_foot_fill f t2 st2).symm.trans a4, a5⟩

theorem sp_moves_unfill_start (m m2 : Mem) (t t2 : TreeNode Nat) (st st2 : List (Frame Nat))
    (f : Frame Nat) (h : Moves m (f.fill t) st m2 t2 st2) : Moves m t (f :: st) m2 t2 st2 := by
  obtain ⟨a1, a2, a3, a4, a5⟩ := h
  refine ⟨a1, a2, a3, a4.trans (sp_foot_fill f t st), fun a ha => a5 a (fun hin => ha ?_)⟩
  exact (sp_foot_fill f t st).mem_iff.1 hin

theorem sp_rot_R (m : Mem) (l r : TreeNode Nat) (v : Int) (root : Nat) (pv : Int) (pt : Nat)
    (po : TreeNode Nat) (st : List (Frame Nat))
    (h : Good m (.node l v root r) (⟨.LEFT, pv, pt, po⟩ :: st)) :
    Moves m (.node l v root r) (⟨.LEFT, pv, pt, po⟩ :: st)
      (right_rotate m (parentPtr st) pt root) (.node l v root (.node r pv pt po)) st :=
  sp_rotate_focus .RIGHT m r po l pv v pt root st h

theorem sp_rot_L (m : Mem) (l r : TreeNode Nat) (v : Int) (root : Nat) (pv : Int) (pt : Nat)
    (po : TreeNode Nat) (st : List (Frame Nat))
    (h : Good m (.node l v root r) (⟨.RIGHT, pv, pt, po⟩ :: st)) :
    Moves m (.node l v root r) (⟨.RIGHT, pv, pt, po⟩ :: st)
      (left_rotate m (parentPtr st) pt root) (.node (.node po pv pt l) v root r) st :=
  sp_rotate_focus .LEFT m l po r pv v pt root st h

theorem sp_rootPtr_mem (st : List (Frame Nat)) :
    ∀ a, ∃ b, rootPtr (some a) st = some b ∧ (b = a ∨ b ∈ ctxAddrs st) := by
  induction st with
  | nil => intro a; exact ⟨a, rfl, Or.inl rfl⟩
  | cons f st ih =>
    intro a
    obtain ⟨b, h1, h2⟩ := ih f.tag
    refine ⟨b, h1, Or.inr ?_⟩
    rcases h2 with h2 | h2
    · simp [ctxAddrs, h2]
    · simp [ctxAddrs, h2]

/-- What `fix` reads at a node that is not the root: its parent, the parent of the parent,
on which side of the parent it hangs, and that it is not the root. -/
theorem sp_good_cons_facts (m : Mem) (l r : TreeNode Nat) (v : Int) (a : Nat) (p : Frame Nat)
    (st : List (Frame Nat)) (h : Good m (.node l v a r) (p :: st)) :
    m.parent a = some p.tag ∧ m.parent p.tag = parentPtr st ∧
      (m.children p.tag .LEFT = some a ↔ p.dir = .LEFT) ∧ m.node ≠ some a := by
  obtain ⟨h1, h2, h3, h4⟩ := h
  obtain ⟨_, _, _, hpar, _, _⟩ := h1
  obtain ⟨_, c2, c3, c4, _, _⟩ := h2
  have hna : a ∉ p.tag :: (addrs p.other ++ ctxAddrs st) := fun hin =>
    (List.nodup_append.1 h4).2.2 (List.mem_cons_self _ _) hin
  simp only [List.mem_cons, List.mem_append, not_or] at hna
  obtain ⟨hap, hao, hast⟩ := hna
  refine ⟨hpar, c4, ?_, ?_⟩
  · obtain ⟨d, pv, pt, po⟩ := p
    cases d with
    | LEFT => simpa [ptrOf] using c2
    | RIGHT =>
      simp only [dir_t.flip] at c3
      rw [c3]
      have : ptrOf po ≠ some a := fun hc => hao (sp_ptrOf_mem _ _ hc)
      simpa using this
  · rw [h3]
    obtain ⟨b, e, hb⟩ := sp_rootPtr_mem st p.tag
    simp only [ptrOf, rootPtr, e, ne_eq, Option.some.injEq]
    rintro rfl
    rcases hb with hb | hb
    · exact hap hb
    · exact hast hb

theorem sp_fix_nil (m : Mem) (l r : TreeNode Nat) (v : Int) (root : Nat) (fuel : Nat)
    (hg : Good m (.node l v root r) []) (hf : 0 < fuel) :
    ∃ m2 l2 r2, fix fuel m root = some m2 ∧
      Moves m (.node l v root r) [] m2 (.node l2 v root r2) [] := by
  obtain ⟨f, rfl⟩ : ∃ f, fuel = f + 1 := ⟨fuel - 1, by omega⟩
  refine ⟨m, l, r, ?_, sp_moves_refl m _ _ hg⟩
  have hn : m.node = some root := hg.2.2.1
  simp [fix, hn]

/-- The function `fix` in memory: started at a node with `st.length` ancestors and given more
passes than that, it returns, the node is the root, and the memory holds a tree of the same
nodes with consistent parent pointers. -/
theorem sp_fix_spec : ∀ (k : Nat) (st : List (Frame Nat)), st.length ≤ k →
    ∀ (m : Mem) (l r : TreeNode Nat) (v : Int) (root : Nat) (fuel : Nat),
      Good m (.node l v root r) st → st.length < fuel →
      ∃ m2 l2 r2, fix fuel m root = some m2 ∧
        Moves m (.node l v root r) st m2 (.node l2 v root r2) [] := by
  intro k
  induction k with
  | zero =>
    intro st hk m l r v root fuel hg hf
    have hst : st = [] := List.length_eq_zero.1 (Nat.le_zero.1 hk)
    subst hst
    exact sp_fix_nil m l r v root fuel hg hf
  | succ k ih =>
    intro st hk m l r v root fuel hg hf
    match st, hk, hg, hf with
    | [], _, hg, hf => exact sp_fix_nil m l r v root fuel hg hf
    | [p], _, hg, hf =>
      obtain ⟨dp, pv, pt, po⟩ := p
      obtain ⟨f, rfl⟩ : ∃ f, fuel = f + 1 := ⟨fuel - 1, by simp at hf; omega⟩
      have hf2 : 0 < f := by simpa using hf
      obtain ⟨q1, q2, q3, q4⟩ := sp_good_cons_facts m l r v root _ _ hg
      simp only [parentPtr] at q1 q2
      cases dp with
      | LEFT =>
        have ht : m.children pt .LEFT = some root := q3.2 rfl
        have hM := sp_rot_R m l r v root pv pt po [] hg
        obtain ⟨m2, l2, r2, e, hM2⟩ := sp_fix_nil _ _ _ v root f hM.1 hf2
        refine ⟨m2, l2, r2, ?_, sp_moves_trans _ _ _ _ _ _ _ _ _ hM hM2⟩
        rw [← e]
        simp [fix, q4, q1, q2, ht, parentPtr]
      | RIGHT =>
        have ht : ¬ m.children pt .LEFT = some root := fun h => by
          have := q3.1 h
          simp at this
        have hM := sp_rot_L m l r v root pv pt po [] hg
        obtain ⟨m2, l2, r2, e, hM2⟩ := sp_fix_nil _ _ _ v root f hM.1 hf2
        refine ⟨m2, l2, r2, ?_, sp_moves_trans _ _ _ _ _ _ _ _ _ hM hM2⟩
        rw [← e]
        simp [fix, q4, q1, q2, ht, parentPtr]
    | p :: gp :: rest, hk, hg, hf =>
      obtain ⟨dp, pv, pt, po⟩ := p
      obtain ⟨dg, gv, gt, go⟩ := gp
      obtain ⟨f, rfl⟩ : ∃ f, fuel = f + 1 := ⟨fuel - 1, by simp at hf; omega⟩
      have hf2 : rest.length < f := by simp at hf; omega
      have hk2 : rest.length ≤ k := by simp at hk; omega
      obtain ⟨q1, q2, q3, q4⟩ := sp_good_cons_facts m l r v root _ _ hg
      simp only [parentPtr] at q1 q2
      have hgp := (sp_good_fill m ⟨dp, pv, pt, po⟩ (.node l v root r) _).2 hg
      cases dp with
      | LEFT =>
        have ht : m.children pt .LEFT = some root := q3.2 rfl
        obtain ⟨_, g2, g3, _⟩ := sp_good_cons_facts m _ _ pv pt _ _ hgp
        cases dg with
        | LEFT =>
          have hs : m.children gt .LEFT = some pt := g3.2 rfl
          have hM1 := sp_rot_R m (.node l v root r) po pv pt gv gt go rest hgp
          have hp1 : (right_rotate m (parentPtr rest) gt pt).parent pt = parentPtr rest :=
            hM1.1.1.2.2.2.1
          have hM1b := sp_moves_unfill_end _ _ _ _ _ _ ⟨.LEFT, pv, pt, .node po gv gt go⟩ hM1
          have hM2 := sp_rot_R _ l r v root pv pt (.node po gv gt go) rest hM1b.1
          have hM := sp_moves_unfill_start _ _ _ _ _ _ ⟨.LEFT, pv, pt, po⟩
            (sp_moves_trans _ _ _ _ _ _ _ _ _ hM1b hM2)
          obtain ⟨m2, l2, r2, e, hM3⟩ := ih rest hk2 _ _ _ v root f hM2.1 hf2
          refine ⟨m2, l2, r2, ?_, sp_moves_trans _ _ _ _ _ _ _ _ _ hM hM3⟩
          rw [← e]
          simp [fix, q4, q1, q2, ht, hs, g2, hp1]
        | RIGHT =>
          have hs : ¬ m.children gt .LEFT = some pt := fun h => by
            have := g3.1 h
            simp at this
          have hM1 := sp_rot_R m l r v root pv pt po (⟨.RIGHT, gv, gt, go⟩ :: rest) hg
          have hp1 : (right_rotate m (some gt) pt root).parent gt = parentPtr rest :=
            hM1.1.2.1.2.2.2.1
          have hM2 := sp_rot_L _ l (.node r pv pt po) v root gv gt go rest hM1.1
          have hM := sp_moves_trans _ _ _ _ _ _ _ _ _ hM1 hM2
          obtain ⟨m2, l2, r2, e, hM3⟩ := ih rest hk2 _ _ _ v root f hM2.1 hf2
          refine ⟨m2, l2, r2, ?_, sp_moves_trans _ _ _ _ _ _ _ _ _ hM hM3⟩
          rw [← e]
          simp [fix, q4, q1, q2, ht, hs, hp1, parentPtr]
      | RIGHT =>
        have ht : ¬ m.children pt .LEFT = some root := fun h => by
          have := q3.1 h
          simp at this
        obtain ⟨_, g2, g3, _⟩ := sp_good_cons_facts m _ _ pv pt _ _ hgp
        cases dg with
        | LEFT =>
          have hs : m.children gt .LEFT = some pt := g3.2 rfl
          have hM1 := sp_rot_L m l r v root pv pt po (⟨.LEFT, gv, gt, go⟩ :: rest) hg
          have hp1 : (left_rotate m (some gt) pt root).parent gt = parentPtr rest :=
            hM1.1.2.1.2.2.2.1
          have hM2 := sp_rot_R _ (.node po pv pt l) r v root gv gt go rest hM1.1
          have hM := sp_moves_trans _ _ _ _ _ _ _ _ _ hM1 hM2
          obtain ⟨m2, l2, r2, e, hM3⟩ := ih rest hk2 _ _ _ v root f hM2.1 hf2
          refine ⟨m2, l2, r2, ?_, sp_moves_trans _ _ _ _ _ _ _ _ _ hM hM3⟩
          rw [← e]
          simp [fix, q4, q1, q2, ht, hs, hp1, parentPtr]
        | RIGHT =>
          have hs : ¬ m.children gt .LEFT = some pt := fun h => by
            have := g3.1 h
            simp at this
          have hM1 := sp_rot_L m po (.node l v root r) pv pt gv gt go rest hgp
          have hp1 : (left_rotate m (parentPtr rest) gt pt).parent pt = parentPtr rest :=
            hM1.1.1.2.2.2.1
          have hM1b := sp_moves_unfill_end _ _ _ _ _ _ ⟨.RIGHT, pv, pt, .node go gv gt po⟩ hM1
          have hM2 := sp_rot_L _ l r v root pv pt (.node go gv gt po) rest hM1b.1
          have hM := sp_moves_unfill_start _ _ _ _ _ _ ⟨.RIGHT, pv, pt, po⟩
            (sp_moves_trans _ _ _ _ _ _ _ _ _ hM1b hM2)
          obtain ⟨m2, l2, r2, e, hM3⟩ := ih rest hk2 _ _ _ v root f hM2.1 hf2
          refine ⟨m2, l2, r2, ?_, sp_moves_trans _ _ _ _ _ _ _ _ _ hM hM3⟩
          rw [← e]
          simp [fix, q4, q1, q2, ht, hs, g2, hp1]

end SplayTree.Ptr

namespace SplayTree.Ptr

@[simp] theorem sp_alloc_val (m : Mem) (v : Int) (b : Nat) :
    (m.alloc v).val b = if b = m.next then v else m.val b := rfl

@[simp] theorem sp_alloc_children (m : Mem) (v : Int) (b : Nat) (e : dir_t) :
    (m.alloc v).children b e = if b = m.next then none else m.children b e := rfl

@[simp] theorem sp_alloc_parent (m : Mem) (v : Int) (b : Nat) :
    (m.alloc v).parent b = if b = m.next then none else m.parent b := rfl

@[simp] theorem sp_alloc_next (m : Mem) (v : Int) : (m.alloc v).next = m.next + 1 := rfl

@[simp] theorem sp_alloc_node (m : Mem) (v : Int) : (m.alloc v).node = m.node := rfl

theorem sp_moves_fill_start (m m2 : Mem) (t t2 : TreeNode Nat) (st st2 : List (Frame Nat))
    (f : Frame Nat) (h : Moves m t (f :: st) m2 t2 st2) : Moves m (f.fill t) st m2 t2 st2 := by
  obtain ⟨a1, a2, a3, a4, a5⟩ := h
  refine ⟨a1, a2, a3, a4.trans (sp_foot_fill f t st).symm, fun a ha => a5 a (fun hin => ha ?_)⟩
  exact (sp_foot_fill f t st).mem_iff.2 hin

theorem sp_search_spec (m : Mem) (val : Int) (t : TreeNode Nat) :
    ∀ (st : List (Frame Nat)) (fuel : Nat), Rep m t (parentPtr st) → t.depth < fuel →
      search fuel m (ptrOf t) (parentPtr st) val =
        some (ptrOf (descend val t st).1, parentPtr (descend val t st).2) := by
  induction t with
  | null =>
    intro st fuel _ hf
    obtain ⟨f, rfl⟩ : ∃ f, fuel = f + 1 := ⟨fuel - 1, by omega⟩
    simp [search, ptrOf, descend]
  | node l v a r ihl ihr =>
    intro st fuel h hf
    obtain ⟨f, rfl⟩ : ∃ f, fuel = f + 1 := ⟨fuel - 1, by omega⟩
    obtain ⟨h1, h2, h3, h4, h5, h6⟩ := h
    simp only [TreeNode.depth] at hf
    by_cases c1 : v = val
    · simp [search, ptrOf, descend, h1, c1]
    · by_cases c2 : val < v
      · have := ihl (⟨.LEFT, v, a, r⟩ :: st) f h5 (by omega)
        simpa [search, ptrOf, descend, h1, c1, c2, h2, parentPtr] using this
      · have := ihr (⟨.RIGHT, v, a, l⟩ :: st) f h6 (by omega)
        simpa [search, ptrOf, descend, h1, c1, c2, h3, parentPtr] using this

theorem sp_descend_moves (m : Mem) (val : Int) (t : TreeNode Nat) :
    ∀ st : List (Frame Nat), Good m t st →
      Moves m t st m (descend val t st).1 (descend val t st).2 := by
  induction t with
  | null => intro st hg; exact sp_moves_refl m _ _ hg
  | node l v a r ihl ihr =>
    intro st hg
    unfold descend
    split_ifs with c1 c2
    · have hg2 := (sp_good_fill m ⟨.LEFT, v, a, r⟩ l st).1 hg
      exact sp_moves_fill_start m m l _ st _ ⟨.LEFT, v, a, r⟩ (ihl _ hg2)
    · have hg2 := (sp_good_fill m ⟨.RIGHT, v, a, l⟩ r st).1 hg
      exact sp_moves_fill_start m m r _ st _ ⟨.RIGHT, v, a, l⟩ (ihr _ hg2)
    · exact sp_moves_refl m _ _ hg

theorem sp_descend_nonempty (val : Int) (t : TreeNode Nat) :
    ∀ st : List (Frame Nat), st ≠ [] → (descend val t st).2 ≠ [] := by
  induction t with
  | null => intro st h; exact h
  | node l v a r ihl ihr =>
    intro st h
    unfold descend
    split_ifs with c1 c2
    · exact ihl _ (by simp)
    · exact ihr _ (by simp)
    · exact h

theorem sp_depth_le_addrs (t : TreeNode Nat) : t.depth ≤ (addrs t).length := by
  induction t with
  | null => simp [TreeNode.depth]
  | node l v a r ihl ihr =>
    simp only [TreeNode.depth, addrs, List.length_cons, List.length_append]
    omega

theorem sp_ctx_length (st : List (Frame Nat)) : st.length ≤ (ctxAddrs st).length := by
  induction st with
  | nil => simp
  | cons f st ih =>
    simp only [ctxAddrs, List.length_cons, List.length_append]
    omega

theorem sp_nodup_bound (L : List Nat) (n : Nat) (hnd : L.Nodup) (hb : ∀ a ∈ L, a < n) :
    L.length ≤ n := by
  have h1 : L.toFinset ⊆ Finset.range n := by
    intro a ha
    simp only [List.mem_toFinset] at ha
    simpa using hb a ha
  have h2 := Finset.card_le_card h1
  rwa [List.toFinset_card_of_nodup hnd, Finset.card_range] at h2

theorem sp_consistent_of_good (m : Mem) (t : TreeNode Nat) (hg : Good m t [])
    (hb : ∀ a ∈ addrs t, a < m.next) : Consistent m := by
  obtain ⟨h1, _, h3, h4⟩ := hg
  refine ⟨t, h1, h3, ?_, hb⟩
  simpa [foot, ctxAddrs] using h4

theorem sp_good_of_consistent (m : Mem) (t : TreeNode Nat) (h1 : Rep m t none)
    (h2 : m.node = ptrOf t) (h3 : (addrs t).Nodup) : Good m t [] :=
  ⟨h1, trivial, h2, by simpa [foot, ctxAddrs] using h3⟩

/-- The member function `find` in memory. -/
theorem sp_find_spec (m : Mem) (val : Int) (t : TreeNode Nat) (hg : Good m t [])
    (hb : ∀ a ∈ addrs t, a < m.next) :
    find m val = some (false, m) ∨
      ∃ m1 l a r, find m val = some (true, m1) ∧ Moves m t [] m1 (.node l val a r) [] := by
  have hlen : (foot t []).length ≤ m.next :=
    sp_nodup_bound _ _ hg.2.2.2 (fun a ha => hb a (by simpa [foot, ctxAddrs] using ha))
  have hd : t.depth < m.next + 1 := by
    have := sp_depth_le_addrs t
    simp only [foot, ctxAddrs, List.append_nil] at hlen
    omega
  have hs := sp_search_spec m val t [] (m.next + 1) hg.1 hd
  have hm := sp_descend_moves m val t [] hg
  have hstop := descend_stop val t ([] : List (Frame Nat))
  have hnode : m.node = ptrOf t := hg.2.2.1
  unfold find
  rw [hnode]
  simp only [parentPtr] at hs
  rw [hs]
  generalize descend val t [] = D at hm hstop
  obtain ⟨t1, st1⟩ := D
  simp only at hm hstop
  cases t1 with
  | null => left; rfl
  | node l v a r =>
    right
    have hv : v = val := by
      rcases hstop with h | ⟨l2, m2, r2, h⟩
      · cases h
      · injection h with _ hv _ _
    subst hv
    have hfl : st1.length < m.next + 1 := by
      have h1 := sp_ctx_length st1
      have h2 := hm.2.2.2.1.length_eq
      simp only [foot, List.length_append] at h2 hlen
      omega
    obtain ⟨m2, l2, r2, e, hM⟩ := sp_fix_spec st1.length st1 (Nat.le_refl _) m l r v a
      (m.next + 1) hm.1 hfl
    refine ⟨m2, l2, a, r2, ?_, sp_moves_trans _ _ _ _ _ _ _ _ _ hm hM⟩
    simp [ptrOf, e]

theorem sp_consistent_of_moves (m m2 : Mem) (t t2 : TreeNode Nat) (st : List (Frame Nat))
    (hb : ∀ a ∈ foot t st, a < m.next) (h : Moves m t st m2 t2 []) : Consistent m2 := by
  obtain ⟨a1, a2, a3, a4, a5⟩ := h
  refine sp_consistent_of_good m2 t2 a1 (fun a ha => ?_)
  rw [a2]
  exact hb a (a4.mem_iff.1 (by simp [foot, ha]))

/-- The member function `add` in memory. -/
theorem sp_add_spec (m : Mem) (val : Int) (t : TreeNode Nat) (hg : Good m t [])
    (hb : ∀ a ∈ addrs t, a < m.next) :
    ∃ b m1, add m val = some (b, m1) ∧ Consistent m1 := by
  have hnode : m.node = ptrOf t := hg.2.2.1
  cases t with
  | null =>
    refine ⟨true, (m.alloc val).setNode (some m.next), ?_, ?_⟩
    · unfold add; rw [hnode]; rfl
    · refine ⟨.node .null val m.next .null, ?_, rfl, by simp [addrs], by simp [addrs]⟩
      simp [Rep, ptrOf]
  | node l0 v0 a0 r0 =>
    have hlen : (foot (.node l0 v0 a0 r0) []).length ≤ m.next :=
      sp_nodup_bound _ _ hg.2.2.2 (fun a ha => hb a (by simpa [foot, ctxAddrs] using ha))
    have hd : (TreeNode.node l0 v0 a0 r0).depth < m.next + 1 := by
      have := sp_depth_le_addrs (.node l0 v0 a0 r0)
      simp only [foot, ctxAddrs, List.append_nil] at hlen
      omega
    have hs := sp_search_spec m val _ [] (m.next + 1) hg.1 hd
    have hm := sp_descend_moves m val _ [] hg
    have hdirs := descend_dirs val (.node l0 v0 a0 r0) ([] : List (Frame Nat)) (by simp)
    have hne : (descend val (.node l0 v0 a0 r0) ([] : List (Frame Nat))).1 = .null →
        (descend val (.node l0 v0 a0 r0) ([] : List (Frame Nat))).2 ≠ [] := by
      intro h0
      unfold descend at h0 ⊢
      split_ifs at h0 ⊢ with c1 c2
      · exact sp_descend_nonempty _ _ _ (by simp)
      · exact sp_descend_nonempty _ _ _ (by simp)
    unfold add
    rw [hnode]
    simp only [parentPtr, ptrOf] at hs
    simp only [ptrOf, hs]
    generalize descend val (.node l0 v0 a0 r0) [] = D at hm hdirs hne
    obtain ⟨t1, st1⟩ := D
    simp only at hm hdirs hne
    cases t1 with
    | node l v a r =>
      exact ⟨false, m, rfl, sp_consistent_of_good m _ hg hb⟩
    | null =>
      cases st1 with
      | nil => exact absurd rfl (hne rfl)
      | cons rp st2 =>
        obtain ⟨g1, g2, g3, g4⟩ := hm.1
        have hbnd : ∀ b ∈ ctxAddrs (rp :: st2), b < m.next := fun b hb2 =>
          hb b (by
            have := hm.2.2.2.1.mem_iff.1 (show b ∈ foot .null (rp :: st2) by simpa [foot, addrs] using hb2)
            simpa [foot, ctxAddrs] using this)
        have hrp : rp.tag < m.next := hbnd _ (by simp [ctxAddrs])
        have hnd : (ctxAddrs (rp :: st2)).Nodup := by simpa [foot, addrs] using g4
        have g2' := g2
        obtain ⟨c1, c2, c3, c4, c5, c6⟩ := g2
        have hside : (if val < (m.alloc val).val rp.tag then dir_t.LEFT else dir_t.RIGHT) = rp.dir := by
          have h1 := hdirs rp (by simp)
          simp only [sp_alloc_val, Nat.ne_of_lt hrp, if_false, c1]
          by_cases c : val < rp.val
          · simp [c, h1.2 c]
          · have : rp.dir ≠ .LEFT := fun h => c (h1.1 h)
            simp only [c, if_false]
            cases hd2 : rp.dir with
            | LEFT => exact absurd hd2 this
            | RIGHT => rfl
        simp only [parentPtr, hside]
        have hG : Good (((m.alloc val).setChild rp.tag rp.dir (some m.next)).setParent m.next
            (some rp.tag)) (.node .null val m.next .null) (rp :: st2) := by
          refine ⟨?_, ?_, ?_, ?_⟩
          · simp [Rep, ptrOf, parentPtr, Nat.ne_of_gt hrp]
          · refine sp_repCtx_hole m _ rp st2 none (some m.next) hnd ?_ ?_ g2'
            · have hfl : rp.dir.flip ≠ rp.dir := by cases rp.dir <;> simp [dir_t.flip]
              simp [Nat.ne_of_lt hrp, hfl]
            · intro b hb2 hbrp
              have hbn : b ≠ m.next := Nat.ne_of_lt (hbnd b hb2)
              exact ⟨by simp [hbn], fun e => by simp [hbn, hbrp], by simp [hbn]⟩
          · simpa [ptrOf, rootPtr] using g3
          · simp only [foot, addrs, List.append_nil, List.cons_append, List.nil_append,
              List.nodup_cons]
            exact ⟨fun h => Nat.lt_irrefl _ (hbnd _ h), hnd⟩
        have hfl : (rp :: st2).length < m.next + 1 + 1 := by
          have h1 := sp_ctx_length (rp :: st2)
          have h2 := sp_nodup_bound _ _ hnd hbnd
          omega
        obtain ⟨m2, l2, r2, e, hM⟩ := sp_fix_spec _ (rp :: st2) (Nat.le_refl _) _ .null .null
          val m.next (m.next + 1 + 1) hG hfl
        refine ⟨true, m2, ?_, sp_consistent_of_moves _ m2 _ _ _ ?_ hM⟩
        · simp only [sp_setParent_next, sp_setChild_next, sp_alloc_next, e]
        · intro b hb2
          simp only [sp_setParent_next, sp_setChild_next, sp_alloc_next]
          simp only [foot, addrs, List.append_nil, List.cons_append, List.nil_append,
            List.mem_cons] at hb2
          rcases hb2 with rfl | hb2
          · omega
          · have := hbnd b hb2
            omega

end SplayTree.Ptr

namespace SplayTree.Ptr

theorem sp_rightmost_spec (m : Mem) (r : TreeNode Nat) :
    ∀ (l : TreeNode Nat) (v : Int) (a : Nat) (st : List (Frame Nat)) (fuel : Nat),
      Good m (.node l v a r) st → r.depth < fuel →
      ∃ l2 v2 s r2 st2, rightmost fuel m a = some s ∧
        Moves m (.node l v a r) st m (.node l2 v2 s r2) st2 := by
  induction r with
  | null =>
    intro l v a st fuel hg hf
    obtain ⟨f, rfl⟩ : ∃ f, fuel = f + 1 := ⟨fuel - 1, by omega⟩
    refine ⟨l, v, a, .null, st, ?_, sp_moves_refl m _ _ hg⟩
    have : m.children a .RIGHT = none := hg.1.2.2.1
    simp [rightmost, this]
  | node rl rv ra rr _ ih =>
    intro l v a st fuel hg hf
    obtain ⟨f, rfl⟩ : ∃ f, fuel = f + 1 := ⟨fuel - 1, by omega⟩
    have hc : m.children a .RIGHT = some ra := hg.1.2.2.1
    have hg2 := (sp_good_fill m ⟨.RIGHT, v, a, l⟩ (.node rl rv ra rr) st).1 hg
    simp only [TreeNode.depth] at hf
    obtain ⟨l2, v2, s, r2, st2, e, hM⟩ := ih rl rv ra (⟨.RIGHT, v, a, l⟩ :: st) f hg2 (by omega)
    refine ⟨l2, v2, s, r2, st2, ?_, sp_moves_fill_start m m _ _ st _ ⟨.RIGHT, v, a, l⟩ hM⟩
    simp [rightmost, hc, e]

/-- The last statements of `remove`: the root `s` of the fixed left subtree adopts the right
subtree `r` of the deleted node. -/
theorem sp_join (m4 : Mem) (l3 r3 r : TreeNode Nat) (v2 : Int) (s : Nat) (par0 : Option Nat)
    (hg : Good m4 (.node l3 v2 s r3) []) (hr : Rep m4 r par0) (hnd : (addrs r).Nodup)
    (hdis : ∀ b ∈ addrs r, b ∉ addrs (.node l3 v2 s r3))
    (hb : ∀ b ∈ addrs (.node l3 v2 s r3), b < m4.next) (hbr : ∀ b ∈ addrs r, b < m4.next) :
    Consistent
      (((match ptrOf r with
          | none => m4.setChild s .RIGHT (ptrOf r)
          | some x => (m4.setChild s .RIGHT (ptrOf r)).setParent x (some s)).setParent s
        none).setNode (some s)) := by
  obtain ⟨⟨h1, h2, h3, h4, h5, h6⟩, _, _, hn⟩ := hg
  simp only [foot, addrs, ctxAddrs, List.append_nil, List.nodup_cons, List.mem_append, not_or,
    List.nodup_append] at hn
  obtain ⟨⟨sl, sr⟩, ndl, ndr, dlr⟩ := hn
  have hsr : s ∉ addrs r := fun h => hdis s h (by simp [addrs])
  have hlr : ∀ b ∈ addrs l3, b ∉ addrs r := fun b hb1 hb2 => hdis b hb2 (by simp [addrs, hb1])
  refine ⟨.node l3 v2 s r, ?_, rfl, ?_, ?_⟩
  · cases r with
    | null =>
      simp only [ptrOf]
      refine ⟨h1, ?_, ?_, ?_, ?_, trivial⟩
      · simpa using h2
      · simp [ptrOf]
      · simp
      · refine sp_rep_congr m4 _ l3 _ (fun b hb1 => ?_) h5
        have hbs : b ≠ s := fun h => sl (h ▸ hb1)
        exact ⟨rfl, fun e => by simp [hbs], by simp [hbs]⟩
    | node rl rv ra rr =>
      have hras : ra ≠ s := fun h => hsr (by simp [addrs, h])
      simp only [ptrOf]
      refine ⟨h1, ?_, ?_, ?_, ?_, ?_⟩
      · simpa [ptrOf] using h2
      · simp [ptrOf]
      · simp [ptrOf]
      · refine sp_rep_congr m4 _ l3 _ (fun b hb1 => ?_) h5
        have hbs : b ≠ s := fun h => sl (h ▸ hb1)
        have hbr2 : b ≠ ra := fun h => hlr b hb1 (by simp [addrs, h])
        exact ⟨rfl, fun e => by simp [ptrOf, hbs], by simp [ptrOf, hbs, hbr2]⟩
      · refine sp_rep_reparent m4 _ _ par0 (some s) hnd (fun b hb1 => ?_) (fun b hb1 hb2 => ?_)
          (fun b hb1 => ?_) hr
        · have hbs : b ≠ s := fun h => hsr (h ▸ hb1)
          exact ⟨rfl, fun e => by simp [ptrOf, hbs]⟩
        · have hbs : b ≠ s := fun h => hsr (h ▸ hb1)
          have hbr2 : b ≠ ra := fun h => hb2 (by simp [ptrOf, h])
          simp [ptrOf, hbs, hbr2]
        · simp only [ptrOf, Option.some.injEq] at hb1
          subst hb1
          simp [ptrOf, hras]
  · simp only [addrs, List.nodup_cons, List.mem_append, not_or, List.nodup_append]
    exact ⟨⟨sl, hsr⟩, ndl, hnd, fun b hb1 hb2 => hlr b hb1 hb2⟩
  · intro b hb1
    have : (match ptrOf r with
          | none => m4.setChild s .RIGHT (ptrOf r)
          | some x => (m4.setChild s .RIGHT (ptrOf r)).setParent x (some s)).next = m4.next := by
      cases ptrOf r <;> rfl
    simp only [sp_setNode_next, sp_setParent_next, this]
    simp only [addrs, List.mem_cons, List.mem_append] at hb1
    rcases hb1 with rfl | hb1 | hb1
    · exact hb _ (by simp [addrs])
    · exact hb _ (by simp [addrs, hb1])
    · exact hbr _ hb1

/-- The member function `remove` in memory. -/
theorem sp_remove_spec (m : Mem) (val : Int) (t : TreeNode Nat) (hg : Good m t [])
    (hb : ∀ a ∈ addrs t, a < m.next) :
    ∃ b m1, remove m val = some (b, m1) ∧ Consistent m1 := by
  rcases sp_find_spec m val t hg hb with h | ⟨m1, l, a, r, h, hM⟩
  · exact ⟨false, m, by simp [remove, h], sp_consistent_of_good m t hg hb⟩
  · obtain ⟨hg1, hnext, _, hperm, _⟩ := hM
    have hb1 : ∀ b ∈ addrs (.node l val a r), b < m1.next := fun b hb2 => by
      rw [hnext]
      exact hb b (by
        have := hperm.mem_iff.1 (show b ∈ foot (.node l val a r) [] by simp [foot, hb2])
        simpa [foot, ctxAddrs] using this)
    have hnode : m1.node = some a := hg1.2.2.1
    obtain ⟨⟨h1, h2, h3, h4, h5, h6⟩, _, _, hn⟩ := hg1
    simp only [foot, addrs, ctxAddrs, List.append_nil, List.nodup_cons, List.mem_append, not_or,
      List.nodup_append] at hn
    obtain ⟨⟨al, ar⟩, ndl, ndr, dlr⟩ := hn
    unfold remove
    simp only [h, hnode, h2, h3]
    cases l with
    | null =>
      simp only [ptrOf]
      cases r with
      | null =>
        simp only [ptrOf]
        exact ⟨true, _, rfl, .null, trivial, rfl, by simp [addrs], by simp [addrs]⟩
      | node rl rv ra rr =>
        simp only [ptrOf]
        refine ⟨true, _, rfl, .node rl rv ra rr, ?_, rfl, ndr, fun b hb2 => ?_⟩
        · refine sp_rep_reparent m1 _ _ (some a) none ndr (fun b hb2 => ?_) (fun b hb2 hb3 => ?_)
            (fun b hb2 => ?_) h6
          · have hba : b ≠ a := fun h => ar (h ▸ hb2)
            exact ⟨rfl, fun e => by simp [hba]⟩
          · have hbr : b ≠ ra := fun h => hb3 (by simp [ptrOf, h])
            simp [hbr]
          · simp only [ptrOf, Option.some.injEq] at hb2
            subst hb2
            simp
        · refine hb1 b ?_
          show b ∈ a :: ([] ++ addrs (.node rl rv ra rr))
          exact List.mem_cons_of_mem _ (by simpa using hb2)
    | node ll lv la lr =>
      simp only [ptrOf]
      have hla : la ≠ a := fun h => al (by simp [addrs, h])
      have hlar : la ∉ addrs r := fun h => dlr (by simp [addrs]) h
      -- the left subtree as a tree of its own
      have hG3 : Good ((((m1.setChild a .LEFT none).setChild a .RIGHT none).setNode none).setNode
          (some la) |>.setParent la none) (.node ll lv la lr) [] := by
        refine ⟨?_, trivial, rfl, by simpa [foot, ctxAddrs] using ndl⟩
        refine sp_rep_reparent m1 _ _ (some a) none ndl (fun b hb2 => ?_) (fun b hb2 hb3 => ?_)
          (fun b hb2 => ?_) h5
        · have hba : b ≠ a := fun h => al (h ▸ hb2)
          exact ⟨rfl, fun e => by simp [hba]⟩
        · have hbl : b ≠ la := fun h => hb3 (by simp [ptrOf, h])
          simp [hbl]
        · simp only [ptrOf, Option.some.injEq] at hb2
          subst hb2
          simp
      have hR3 : Rep ((((m1.setChild a .LEFT none).setChild a .RIGHT none).setNode none).setNode
          (some la) |>.setParent la none) r (some a) := by
        refine sp_rep_congr m1 _ r _ (fun b hb2 => ?_) h6
        have hba : b ≠ a := fun h => ar (h ▸ hb2)
        have hbl : b ≠ la := fun h => hlar (h ▸ hb2)
        exact ⟨rfl, fun e => by simp [hba], by simp [hbl]⟩
      have hnx : ((((m1.setChild a .LEFT none).setChild a .RIGHT none).setNode none).setNode
          (some la) |>.setParent la none).next = m1.next := rfl
      generalize ((((m1.setChild a .LEFT none).setChild a .RIGHT none).setNode none).setNode
          (some la) |>.setParent la none) = m3 at hG3 hR3 hnx ⊢
      have hbl : ∀ b ∈ addrs (.node ll lv la lr), b < m3.next := fun b hb2 => by
        rw [hnx]
        refine hb1 b ?_
        show b ∈ a :: (addrs (.node ll lv la lr) ++ addrs r)
        exact List.mem_cons_of_mem _ (List.mem_append_left _ hb2)
      have hbr : ∀ b ∈ addrs r, b < m3.next := fun b hb2 => by
        rw [hnx]
        refine hb1 b ?_
        show b ∈ a :: (addrs (.node ll lv la lr) ++ addrs r)
        exact List.mem_cons_of_mem _ (List.mem_append_right _ hb2)
      have hlenl : (addrs (.node ll lv la lr)).length ≤ m3.next := sp_nodup_bound _ _ ndl hbl
      have hdl : lr.depth < m3.next + 1 := by
        have := sp_depth_le_addrs (.node ll lv la lr)
        simp only [TreeNode.depth] at this
        omega
      obtain ⟨l2, v2, s, r2, st2, e1, hMr⟩ :=
        sp_rightmost_spec m3 lr ll lv la [] (m3.next + 1) hG3 hdl
      have hfl : st2.length < m3.next + 1 := by
        have h7 := sp_ctx_length st2
        have h8 := hMr.2.2.2.1.length_eq
        simp only [foot, List.length_append, ctxAddrs, List.length_nil] at h8
        omega
      obtain ⟨m4, l3, r3, e2, hMf⟩ :=
        sp_fix_spec st2.length st2 (Nat.le_refl _) m3 l2 r2 v2 s (m3.next + 1) hMr.1 hfl
      obtain ⟨hg4, hn4, _, hp4, hf4⟩ := sp_moves_trans _ _ _ _ _ _ _ _ _ hMr hMf
      have hmem : ∀ b, b ∈ addrs (.node l3 v2 s r3) → b ∈ addrs (.node ll lv la lr) :=
        fun b hb2 => by
          have := hp4.mem_iff.1 (show b ∈ foot (.node l3 v2 s r3) [] by simp [foot, hb2])
          simpa [foot, ctxAddrs] using this
      simp only [e1, e2]
      refine ⟨true, _, rfl, sp_join m4 l3 r3 r v2 s (some a) hg4 ?_ ndr ?_ ?_ ?_⟩
      · refine sp_rep_congr m3 m4 r _ (fun b hb2 => hf4 b (fun hin => ?_)) hR3
        have : b ∈ addrs (.node ll lv la lr) := by simpa [foot, ctxAddrs] using hin
        exact dlr this hb2
      · exact fun b hb2 hb3 => dlr (hmem b hb3) hb2
      · exact fun b hb2 => by rw [hn4]; exact hbl b (hmem b hb2)
      · exact fun b hb2 => by rw [hn4]; exact hbr b hb2

end SplayTree.Ptr

namespace SplayTree.Ptr

theorem sp_valid_of_rep (m : Mem) (t : TreeNode Nat) :
    ∀ (par : Option Nat) (fuel : Nat), Rep m t par → t.depth < fuel →
      is_parent_pointers_valid fuel m (ptrOf t) par = true := by
  induction t with
  | null =>
    intro par fuel _ hf
    obtain ⟨f, rfl⟩ : ∃ f, fuel = f + 1 := ⟨fuel - 1, by omega⟩
    rfl
  | node l v a r ihl ihr =>
    intro par fuel h hf
    obtain ⟨f, rfl⟩ : ∃ f, fuel = f + 1 := ⟨fuel - 1, by omega⟩
    obtain ⟨h1, h2, h3, h4, h5, h6⟩ := h
    simp only [TreeNode.depth] at hf
    simp only [ptrOf, is_parent_pointers_valid, h4, h2, h3, ne_eq, not_true_eq_false,
      if_false, Bool.and_eq_true]
    exact ⟨ihl _ f h5 (by omega), ihr _ f h6 (by omega)⟩

/-- On a memory with consistent parent pointers the tester of main.cpp returns true. -/
theorem sp_valid_of_consistent (m : Mem) (h : Consistent m) :
    is_parent_pointers_valid (m.next + 1) m m.node none = true := by
  obtain ⟨t, h1, h2, h3, h4⟩ := h
  rw [h2]
  refine sp_valid_of_rep m t none _ h1 ?_
  have := sp_depth_le_addrs t
  have := sp_nodup_bound _ _ h3 h4
  omega

end SplayTree.Ptr

namespace SplayTree.Ptr

theorem sp_step_consistent (m : Mem) (op : Op) (h : Consistent m) : Consistent (step m op).2 := by
  obtain ⟨t, h1, h2, h3, h4⟩ := h
  have hg := sp_good_of_consistent m t h1 h2 h3
  cases op with
  | add k =>
    obtain ⟨b, m1, e, hc⟩ := sp_add_spec m k t hg h4
    simpa [step, e] using hc
  | find k =>
    rcases sp_find_spec m k t hg h4 with e | ⟨m1, l, a, r, e, hM⟩
    · simpa [step, e] using sp_consistent_of_good m t hg h4
    · have hc := sp_consistent_of_moves m m1 t _ []
        (fun b hb => h4 b (by simpa [foot, ctxAddrs] using hb)) hM
      simpa [step, e] using hc
  | remove k =>
    obtain ⟨b, m1, e, hc⟩ := sp_remove_spec m k t hg h4
    simpa [step, e] using hc

/-- Every memory reached from the empty tree by calls of `add`, `find` and `remove` has
consistent parent pointers. -/
theorem sp_run_consistent (ops : List Op) : Consistent (runOps step empty ops).2 :=
  runOps_invariant step Consistent sp_step_consistent ops empty
    ⟨.null, trivial, rfl, by simp [addrs], by simp [addrs]⟩

end SplayTree.Ptr
/-! ## AVLTree: the rotations with heights in 32 bits -/

namespace AVLTree.U32

/-- With stored heights that leave room for two increments the 32-bit `left_rotate` is the
one computed in the natural numbers. -/
theorem u32_left_rotate_eq (t : Node) (hb : HeightsBelow (2 ^ 32 - 2) t) :
    left_rotate t = AVLTree.left_rotate t := by
  cases t with
  | null => rfl
  | node a x h r =>
    cases r with
    | null => rfl
    | node b y h2 c =>
      simp only [HeightsBelow, TreeNode.child] at hb
      obtain ⟨h1, _, _, _, h5, h6⟩ := hb
      simp only [left_rotate, update_height, AVLTree.left_rotate, AVLTree.update_height,
        height_node]
      have e1 : (max (height a) (height b) + 1) % 2 ^ 32 = max (height a) (height b) + 1 :=
        Nat.mod_eq_of_lt (by omega)
      rw [e1]
      have e2 : (max (max (height a) (height b) + 1) (height c) + 1) % 2 ^ 32 =
          max (max (height a) (height b) + 1) (height c) + 1 := Nat.mod_eq_of_lt (by omega)
      rw [e2]

/-- With stored heights that leave room for two increments the 32-bit `right_rotate` is the
one computed in the natural numbers. -/
theorem u32_right_rotate_eq (t : Node) (hb : HeightsBelow (2 ^ 32 - 2) t) :
    right_rotate t = AVLTree.right_rotate t := by
  cases t with
  | null => rfl
  | node l y h2 c =>
    cases l with
    | null => rfl
    | node a x h b =>
      simp only [HeightsBelow, TreeNode.child] at hb
      obtain ⟨_, h2c, h3, h4, _, _⟩ := hb
      simp only [right_rotate, update_height, AVLTree.right_rotate, AVLTree.update_height,
        height_node]
      have e1 : (max (height b) (height c) + 1) % 2 ^ 32 = max (height b) (height c) + 1 :=
        Nat.mod_eq_of_lt (by omega)
      rw [e1]
      have e2 : (max (height a) (max (height b) (height c) + 1) + 1) % 2 ^ 32 =
          max (height a) (max (height b) (height c) + 1) + 1 := Nat.mod_eq_of_lt (by omega)
      rw [e2]

/-- At the largest value of `u_int32_t` the increment of `update_height` wraps to 0, and the
stored height of the rotated node is then not 1 + the maximum of its children's. -/
theorem u32_update_height_wraps :
    left_rotate (.node .null 1 1 (.node (.node .null 2 4294967295 .null) 3 1 .null)) =
        .node (.node .null 1 0 (.node .null 2 4294967295 .null)) 3 1 .null ∧
      ¬ StoredHeightOK ((left_rotate
        (.node .null 1 1 (.node (.node .null 2 4294967295 .null) 3 1 .null))).child .LEFT) := by
  decide

end AVLTree.U32

namespace AVLTree

/-- The rotations computed with heights in the natural numbers keep the in-order keys and
store in the two rotated nodes 1 + the maximum of the stored heights of their children. -/
theorem rotations_nat_keys_heights (t : Node) :
    (t.child .RIGHT ≠ .null →
      (left_rotate t).keys = t.keys ∧ StoredHeightOK (left_rotate t) ∧
        StoredHeightOK ((left_rotate t).child .LEFT) ∧
        (left_rotate t).child .LEFT ≠ .null) ∧
    (t.child .LEFT ≠ .null →
      (right_rotate t).keys = t.keys ∧ StoredHeightOK (right_rotate t) ∧
        StoredHeightOK ((right_rotate t).child .RIGHT) ∧
        (right_rotate t).child .RIGHT ≠ .null) := by
  constructor
  · intro hc
    refine ⟨keys_left_rotate t, ?_⟩
    cases t with
    | null => exact absurd rfl hc
    | node a x h r =>
      cases r with
      | null => exact absurd rfl hc
      | node b y h2 c =>
        simp only [left_rotate, update_height_node, height_node, StoredHeightOK,
          TreeNode.child]
        refine ⟨by omega, by omega, by simp⟩
  · intro hc
    refine ⟨keys_right_rotate t, ?_⟩
    cases t with
    | null => exact absurd rfl hc
    | node l y h2 c =>
      cases l with
      | null => exact absurd rfl hc
      | node a x h b =>
        simp only [right_rotate, update_height_node, height_node, StoredHeightOK,
          TreeNode.child]
        refine ⟨by omega, by omega, by simp⟩

end AVLTree

namespace AVLTree.U32

theorem u32_keys_left_rotate (t : Node) : (left_rotate t).keys = t.keys := by
  cases t with
  | null => rfl
  | node a x h r =>
    cases r with
    | null => rfl
    | node b y h2 c => simp [left_rotate, update_height, TreeNode.keys]

theorem u32_keys_right_rotate (t : Node) : (right_rotate t).keys = t.keys := by
  cases t with
  | null => rfl
  | node l y h2 c =>
    cases l with
    | null => rfl
    | node a x h b => simp [right_rotate, update_height, TreeNode.keys]

end AVLTree.U32
namespace RBTree.Ptr

theorem rbp_left_rotate_toSplay (m : Mem) (gp : Option Nat) (p n : Nat) :
    (left_rotate m gp p n).toSplay = SplayTree.Ptr.left_rotate m.toSplay gp p n := by
  unfold left_rotate SplayTree.Ptr.left_rotate
  cases gp <;>
    simp only [Mem.toSplay, Mem.setChild, Mem.setParent, Mem.setNode, Mem.tick,
      SplayTree.Ptr.Mem.setChild, SplayTree.Ptr.Mem.setParent, SplayTree.Ptr.Mem.setNode] <;>
    split <;> simp_all

theorem rbp_right_rotate_toSplay (m : Mem) (gp : Option Nat) (p n : Nat) :
    (right_rotate m gp p n).toSplay = SplayTree.Ptr.right_rotate m.toSplay gp p n := by
  unfold right_rotate SplayTree.Ptr.right_rotate
  cases gp <;>
    simp only [Mem.toSplay, Mem.setChild, Mem.setParent, Mem.setNode, Mem.tick,
      SplayTree.Ptr.Mem.setChild, SplayTree.Ptr.Mem.setParent, SplayTree.Ptr.Mem.setNode] <;>
    split <;> simp_all

end RBTree.Ptr

namespace RBTree

/-- Under the invariant of `black_leaf_delete` the sibling `S` is a node, and a red `S` has a
non-null child on the side of the deficient node. -/
theorem rb_delInv_sibling (N : Node) (P : Frame color_t) (rest : List (Frame color_t))
    (h : DelInv N (P :: rest)) :
    ∃ sl sv sc sr, P.other = .node sl sv sc sr ∧
      (sc = .RED → ∀ d, (TreeNode.node sl sv sc sr).child d ≠ .null) := by
  obtain ⟨i1, i2, i3, i4⟩ := h
  obtain ⟨d, pv, pc, S⟩ := P
  simp only [PathRB] at i4
  obtain ⟨s1, s2, s3, s4, s5⟩ := i4
  cases S with
  | null => simp [blackHeight] at s3
  | node sl sv sc sr =>
    refine ⟨sl, sv, sc, sr, rfl, fun hc d2 => ?_⟩
    subst hc
    simp only [NoRedRed] at s1
    simp only [BlackBalanced] at s2
    obtain ⟨sl1, sr1, sc1⟩ := s1
    obtain ⟨sl2, sr2, sb⟩ := s2
    obtain ⟨slr, srr⟩ := sc1 trivial
    simp only [rb_bh_red] at s3
    obtain ⟨cl, cv, cr, rfl⟩ := rb_blackHeight_pos sl (by omega) slr sl2 sl1
    obtain ⟨dl, dv, dr, rfl⟩ := rb_blackHeight_pos sr (by omega) srr sr2 sr1
    cases d2 <;> simp [TreeNode.child]

/-- The pass of `black_leaf_delete` that ends with `N = P`: with a black sibling without red
child below a black parent, the subtree at `P` with `S` recoloured red satisfies the invariant
of the loop one level higher. -/
theorem rb_delInv_up (N : Node) (P : Frame color_t) (rest : List (Frame color_t))
    (h : DelInv N (P :: rest)) (hS : is_red P.other = false)
    (hD : is_red (P.other.child P.dir.flip) = false)
    (hC : is_red (P.other.child P.dir) = false) (hP : P.tag ≠ .RED) :
    DelInv ((P.fill N).setChild P.dir.flip (P.other.setTag .RED)) rest := by
  obtain ⟨i1, i2, i3, i4⟩ := h
  obtain ⟨d, pv, pc, S⟩ := P
  simp only [PathRB] at i4
  obtain ⟨s1, s2, s3, s4, s5⟩ := i4
  cases S with
  | null => simp [blackHeight] at s3
  | node sl sv sc sr =>
    simp only [NoRedRed] at s1
    simp only [BlackBalanced] at s2
    obtain ⟨sl1, sr1, sc1⟩ := s1
    obtain ⟨sl2, sr2, sb⟩ := s2
    cases sc with
    | RED => simp [rb_is_red_red] at hS
    | BLACK =>
      simp only [rb_bh_black] at s3
      cases pc with
      | RED => exact absurd rfl hP
      | BLACK =>
        cases d <;>
          · refine ⟨rfl, ?_, ?_, ?_⟩ <;>
              simp_all [NoRedRed, BlackBalanced, rb_bh_red, rb_bh_black, rb_is_red_red,
                rb_is_red_black, TreeNode.setTag, TreeNode.setChild, TreeNode.setRight,
                TreeNode.setLeft, Frame.fill, TreeNode.child, dir_t.flip] <;> omega

/-- The invariant of a position inside a red-black tree, from the two colour conditions on
the whole tree. -/
theorem rb_descInv_of_plug (st : List (Frame color_t)) :
    ∀ t : Node, NoRedRed (plug t st) → BlackBalanced (plug t st) → DescInv t st := by
  induction st with
  | nil => intro t h1 h2; exact ⟨h1, h2, by simp [PathRB], by simp [topRed]⟩
  | cons f st ih =>
    intro t h1 h2
    have h := ih (f.fill t) h1 h2
    obtain ⟨d, v, c, o⟩ := f
    cases d
    · exact (rb_descInv_child t o v c st h).1
    · exact (rb_descInv_child o t v c st h).2

end RBTree

namespace RBTree.Ptr

open SplayTree.Ptr (ptrOf addrs ctxAddrs parentPtr Good Rep RepCtx foot rootPtr)

@[simp] theorem rbp_setColor_toSplay (m : Mem) (a : Nat) (c : color_t) :
    (m.setColor a c).toSplay = m.toSplay := rfl

@[simp] theorem rbp_setColor_rotations (m : Mem) (a : Nat) (c : color_t) :
    (m.setColor a c).rotations = m.rotations := rfl

@[simp] theorem rbp_setColor_color (m : Mem) (a : Nat) (c : color_t) (b : Nat) :
    (m.setColor a c).color b = if b = a then c else m.color b := rfl

@[simp] theorem rbp_setColor_parent (m : Mem) (a : Nat) (c : color_t) :
    (m.setColor a c).parent = m.parent := rfl

@[simp] theorem rbp_setColor_children (m : Mem) (a : Nat) (c : color_t) :
    (m.setColor a c).children = m.children := rfl

@[simp] theorem rbp_rotate_rotations (d : dir_t) (m : Mem) (gp : Option Nat) (p n : Nat) :
    (rotate d m gp p n).rotations = m.rotations + 1 := by
  cases d <;> cases gp <;> simp only [rotate, left_rotate, right_rotate] <;> split <;> rfl

theorem rbp_is_red_some (m : Mem) (D : Option Nat) (h : is_red m D = true) : ∃ d, D = some d := by
  cases D with
  | none => simp [is_red] at h
  | some d => exact ⟨d, rfl⟩

theorem rbp_is_red_paint (m : Mem) (t : TreeNode Nat) :
    is_red m (ptrOf t) = RBTree.is_red (paint m.color t) := by
  cases t with
  | null => rfl
  | node l v a r =>
    simp only [ptrOf, is_red, paint]
    cases m.color a <;> simp [RBTree.is_red]

theorem rbp_paint_child (c : Nat → color_t) (d : dir_t) (t : TreeNode Nat) :
    paint c (t.child d) = (paint c t).child d := by
  cases t <;> cases d <;> rfl

theorem rbp_paint_fill (c : Nat → color_t) (f : Frame Nat) (t : TreeNode Nat) :
    paint c (f.fill t) = (paintF c f).fill (paint c t) := by
  obtain ⟨d, v, a, o⟩ := f
  cases d <;> rfl

theorem rbp_paint_plug (c : Nat → color_t) (st : List (Frame Nat)) :
    ∀ t : TreeNode Nat, paint c (plug t st) = plug (paint c t) (st.map (paintF c)) := by
  induction st with
  | nil => intro t; rfl
  | cons f st ih =>
    intro t
    simp only [plug, List.map_cons]
    rw [ih, rbp_paint_fill]

theorem rbp_paint_congr (c c2 : Nat → color_t) (t : TreeNode Nat)
    (h : ∀ a ∈ addrs t, c2 a = c a) : paint c2 t = paint c t := by
  induction t with
  | null => rfl
  | node l v a r ihl ihr =>
    simp only [paint]
    rw [ihl (fun b hb => h b (by simp [addrs, hb])), ihr (fun b hb => h b (by simp [addrs, hb])),
      h a (by simp [addrs])]

theorem rbp_paintF_congr (c c2 : Nat → color_t) (st : List (Frame Nat))
    (h : ∀ a ∈ ctxAddrs st, c2 a = c a) : st.map (paintF c2) = st.map (paintF c) := by
  induction st with
  | nil => rfl
  | cons f st ih =>
    simp only [List.map_cons]
    rw [ih (fun b hb => h b (by simp [ctxAddrs, hb]))]
    congr 1
    simp only [paintF]
    rw [rbp_paint_congr c c2 f.other (fun b hb => h b (by simp [ctxAddrs, hb])),
      h f.tag (by simp [ctxAddrs])]

theorem rbp_paint_node (c : Nat → color_t) (t : TreeNode Nat) (l r : Node) (v : Int)
    (k : color_t) (h : paint c t = .node l v k r) :
    ∃ tl a tr, t = .node tl v a tr ∧ paint c tl = l ∧ paint c tr = r ∧ c a = k := by
  cases t with
  | null => simp [paint] at h
  | node tl w a tr =>
    simp only [paint, TreeNode.node.injEq] at h
    obtain ⟨h1, h2, h3, h4⟩ := h
    exact ⟨tl, a, tr, by rw [h2], h1, h4, h3⟩

theorem rbp_case_D6 (m : Mem) (dir : dir_t) (P S d : Nat) :
    ∃ m3, case_D6 m dir P S (some d) = some m3 ∧ m3.rotations = m.rotations + 1 :=
  ⟨_, rfl, by simp⟩

theorem rbp_case_D5 (m : Mem) (dir : dir_t) (P S c : Nat) :
    ∃ m3, case_D5 m dir P S (some c) = some m3 ∧ m3.rotations = m.rotations + 2 := by
  obtain ⟨m3, e, h⟩ := rbp_case_D6
    (((rotate dir.flip m (some P) S c).setColor S .RED).setColor c .BLACK) dir P c S
  exact ⟨m3, e, by rw [h]; simp⟩

end RBTree.Ptr

namespace RBTree.Ptr

open SplayTree.Ptr (ptrOf addrs ctxAddrs parentPtr Good Rep RepCtx foot rootPtr)

theorem rbp_rep_child (m : SplayTree.Ptr.Mem) (l r : TreeNode Nat) (v : Int) (a : Nat)
    (par : Option Nat) (h : Rep m (.node l v a r) par) (d : dir_t) :
    m.children a d = ptrOf ((TreeNode.node l v a r).child d) := by
  obtain ⟨_, h2, h3, _⟩ := h
  cases d
  · exact h2
  · exact h3

theorem rbp_ptrOf_ne_none (t : TreeNode Nat) (h : t ≠ .null) : ∃ a, ptrOf t = some a := by
  cases t with
  | null => exact absurd rfl h
  | node l v a r => exact ⟨a, rfl⟩

/-- One pass through the loop of `black_leaf_delete` in memory: under the invariant of the
loop it either returns after at most three rotations, or recolours `S` and goes on one level
higher, where the invariant holds again. -/
theorem rbp_pass (f : Frame Nat) (st : List (Frame Nat)) (m : Mem) (Nsub : TreeNode Nat)
    (N k : Nat) (hg : Good m.toSplay Nsub (f :: st))
    (hi : DelInv (paint m.color Nsub) ((f :: st).map (paintF m.color))) :
    (∃ m2 r, delete_loop (k + 1) m N f.tag f.dir = some (m2, [⟨N, r, false⟩]) ∧ r ≤ 3) ∨
    (∃ s, ptrOf f.other = some s ∧
      delete_loop (k + 1) m N f.tag f.dir =
        (match parentPtr st with
          | none => some (m.setColor s .RED, [⟨N, 0, true⟩])
          | some P2 =>
            match delete_loop k (m.setColor s .RED) f.tag P2
                (if m.children P2 .LEFT = some f.tag then .LEFT else .RIGHT) with
            | none => none
            | some (m2, log) => some (m2, ⟨N, 0, true⟩ :: log)) ∧
      DelInv (paint (m.setColor s .RED).color (f.fill Nsub))
        (st.map (paintF (m.setColor s .RED).color))) := by
  obtain ⟨g1, g2, g3, g4⟩ := hg
  obtain ⟨c1, c2, c3, c4, c5, c6⟩ := g2
  have c3b : m.children f.tag f.dir.flip = ptrOf f.other := c3
  have c4b : m.parent f.tag = parentPtr st := c4
  obtain ⟨sl, sv, sc, sr, e1, e2⟩ := rb_delInv_sibling _ _ _ hi
  obtain ⟨tl, s, tr, e3, e4, e5, e6⟩ := rbp_paint_node m.color f.other sl sr sv sc e1
  have hS : m.children f.tag f.dir.flip = some s := by rw [c3b, e3]; rfl
  rw [e3] at c5
  have hch : ∀ d, m.children s d = ptrOf ((TreeNode.node tl sv s tr).child d) :=
    fun d => rbp_rep_child m.toSplay tl tr sv s _ c5 d
  have hpaintS : paint m.color (.node tl sv s tr) = .node sl sv sc sr := by rw [← e3]; exact e1
  have hrS : is_red m (some s) = RBTree.is_red (.node sl sv sc sr) := by
    rw [← hpaintS]; exact rbp_is_red_paint m (.node tl sv s tr)
  have hrc : ∀ d, is_red m (m.children s d) =
      RBTree.is_red ((TreeNode.node sl sv sc sr).child d) := by
    intro d
    rw [hch d, rbp_is_red_paint, rbp_paint_child, hpaintS]
  by_cases b1 : is_red m (some s) = true
  · -- red sibling
    left
    have hsc : sc = .RED := by
      rw [hrS] at b1
      cases sc
      · rfl
      · simp [RBTree.is_red] at b1
    have hne : (TreeNode.node tl sv s tr).child f.dir ≠ .null := by
      intro h0
      have := e2 hsc f.dir
      rw [← hpaintS, ← rbp_paint_child, h0] at this
      exact this rfl
    obtain ⟨c, hc⟩ := rbp_ptrOf_ne_none _ hne
    have hC : m.children s f.dir = some c := by rw [hch, hc]
    simp only [delete_loop, hS, b1, if_true, hC]
    split_ifs with b2 b3
    · obtain ⟨d, hd⟩ := rbp_is_red_some _ _ b2
      rw [hd]
      obtain ⟨m3, e, hr⟩ := rbp_case_D6
        (((rotate f.dir m (m.parent f.tag) f.tag s).setColor f.tag .RED).setColor s .BLACK)
        f.dir f.tag c d
      rw [e]
      refine ⟨m3, _, rfl, ?_⟩
      rw [hr]; (try simp only [rbp_setColor_rotations, rbp_rotate_rotations]); omega
    · obtain ⟨d, hd⟩ := rbp_is_red_some _ _ b3
      rw [hd]
      obtain ⟨m3, e, hr⟩ := rbp_case_D5
        (((rotate f.dir m (m.parent f.tag) f.tag s).setColor f.tag .RED).setColor s .BLACK)
        f.dir f.tag c d
      rw [e]
      refine ⟨m3, _, rfl, ?_⟩
      rw [hr]; (try simp only [rbp_setColor_rotations, rbp_rotate_rotations]); omega
    · refine ⟨_, _, rfl, ?_⟩
      simp
  · by_cases b2 : is_red m (m.children s f.dir.flip) = true
    · left
      obtain ⟨d, hd⟩ := rbp_is_red_some _ _ b2
      simp only [delete_loop, hS, b1, if_false, b2, if_true]
      rw [hd]
      obtain ⟨m3, e, hr⟩ := rbp_case_D6 m f.dir f.tag s d
      rw [e]
      refine ⟨m3, _, rfl, ?_⟩
      rw [hr]; (try simp only [rbp_setColor_rotations, rbp_rotate_rotations]); omega
    · by_cases b3 : is_red m (m.children s f.dir) = true
      · left
        obtain ⟨d, hd⟩ := rbp_is_red_some _ _ b3
        simp only [delete_loop, hS, b1, if_false, b2, b3, if_true]
        rw [hd]
        obtain ⟨m3, e, hr⟩ := rbp_case_D5 m f.dir f.tag s d
        rw [e]
        refine ⟨m3, _, rfl, ?_⟩
        rw [hr]; omega
      · by_cases b4 : is_red m (some f.tag) = true
        · left
          simp only [delete_loop, hS, b1, if_false, b2, b3, b4, if_true]
          exact ⟨_, _, rfl, by simp⟩
        · right
          refine ⟨s, by rw [e3]; rfl, ?_, ?_⟩
          · simp only [delete_loop, hS, b1, if_false, b2, b3, b4, rbp_setColor_parent, c4b,
              rbp_setColor_rotations, Nat.sub_self, rbp_setColor_children]
            cases parentPtr st <;> rfl
          · have hctx : (ctxAddrs (f :: st)).Nodup := (List.nodup_append.1 g4).2.1
            simp only [ctxAddrs, e3, addrs] at hctx
            obtain ⟨hf1, hf2⟩ := List.nodup_cons.1 hctx
            obtain ⟨hf3, hf4, hf5⟩ := List.nodup_append.1 hf2
            obtain ⟨hf6, _⟩ := List.nodup_cons.1 hf3
            have hsN : s ∉ addrs Nsub := fun h =>
              (List.nodup_append.1 g4).2.2 h (by simp [ctxAddrs, e3, addrs])
            have hsf : f.tag ≠ s := fun h => hf1 (by simp [h])
            have hsst : s ∉ ctxAddrs st := fun h => hf5 (List.mem_cons_self _ _) h
            have hstl : s ∉ addrs tl := fun h => hf6 (by simp [h])
            have hstr : s ∉ addrs tr := fun h => hf6 (by simp [h])
            have hcol : ∀ a, a ≠ s → (m.setColor s .RED).color a = m.color a := fun a ha => by
              simp [ha]
            have up := rb_delInv_up _ _ _ hi
              (by rw [e1, ← hrS]; simpa using b1)
              (by
                have := hrc f.dir.flip
                simp only [paintF] at e1 ⊢
                rw [e1, ← this]; simpa using b2)
              (by
                have := hrc f.dir
                simp only [paintF] at e1 ⊢
                rw [e1, ← this]; simpa using b3)
              (by
                intro h0
                apply b4
                simp only [paintF] at h0
                simp [is_red, h0])
            rw [rbp_paintF_congr m.color _ st (fun a ha => hcol a (fun h => hsst (h ▸ ha)))]
            have e7 : paint (m.setColor s .RED).color (f.fill Nsub) =
                ((paintF m.color f).fill (paint m.color Nsub)).setChild f.dir.flip
                  ((paintF m.color f).other.setTag .RED) := by
              rw [rbp_paint_fill,
                rbp_paint_congr m.color _ Nsub (fun a ha => hcol a (fun h => hsN (h ▸ ha)))]
              obtain ⟨d, pv, P, S⟩ := f
              simp only at e3 hsf
              subst e3
              have p1 : paint (m.setColor s .RED).color tl = sl := by
                rw [rbp_paint_congr m.color _ tl (fun a ha => hcol a (fun h => hstl (h ▸ ha)))]
                exact e4
              have p2 : paint (m.setColor s .RED).color tr = sr := by
                rw [rbp_paint_congr m.color _ tr (fun a ha => hcol a (fun h => hstr (h ▸ ha)))]
                exact e5
              cases d <;>
                simp [paintF, paint, Frame.fill, TreeNode.setChild, TreeNode.setLeft,
                  TreeNode.setRight, TreeNode.setTag, dir_t.flip, p1, p2, hsf, e4, e5]
            rw [e7]
            exact up

end RBTree.Ptr

namespace RBTree.Ptr

open SplayTree.Ptr (ptrOf addrs ctxAddrs parentPtr Good Rep RepCtx foot rootPtr)

theorem rbp_side (m : Mem) (f g : Frame Nat) (t : TreeNode Nat) (rest : List (Frame Nat))
    (hg : Good m.toSplay (f.fill t) (g :: rest)) :
    (if m.children g.tag .LEFT = some f.tag then dir_t.LEFT else dir_t.RIGHT) = g.dir := by
  obtain ⟨d, pv, P, S⟩ := f
  have key : (m.children g.tag .LEFT = some P ↔ g.dir = .LEFT) := by
    cases d
    · exact (SplayTree.Ptr.sp_good_cons_facts m.toSplay t S pv P g rest hg).2.2.1
    · exact (SplayTree.Ptr.sp_good_cons_facts m.toSplay S t pv P g rest hg).2.2.1
  by_cases c : m.children g.tag .LEFT = some P
  · simp only [c, if_true]; exact (key.1 c).symm
  · simp only [c, if_false]
    cases hd : g.dir with
    | LEFT => exact absurd (key.2 hd) c
    | RIGHT => rfl

/-- The loop of `black_leaf_delete` in memory, entered at `start` under its invariant with
more passes allowed than the deficient node has ancestors above `P`: it returns, after at
most as many passes as ancestors; every pass but the last ends with `N = P` and no rotation,
the last with `N = P` at the root or with `return` after at most three rotations; the
deficient nodes of the passes are `N` and its ancestors in order. -/
theorem rbp_delete_loop_spec (st : List (Frame Nat)) :
    ∀ (f : Frame Nat) (m : Mem) (Nsub : TreeNode Nat) (N fuel : Nat),
      Good m.toSplay Nsub (f :: st) →
      DelInv (paint m.color Nsub) ((f :: st).map (paintF m.color)) →
      st.length < fuel →
      ∃ m2 log, delete_loop fuel m N f.tag f.dir = some (m2, log) ∧
        0 < log.length ∧ log.length ≤ st.length + 1 ∧
        (∀ p ∈ log, (p.up = true ∧ p.rotations = 0) ∨ (p.up = false ∧ p.rotations ≤ 3)) ∧
        (∀ p ∈ log.dropLast, p.up = true) ∧
        log.map Pass.N = (N :: (f :: st).map Frame.tag).take log.length := by
  induction st with
  | nil =>
    intro f m Nsub N fuel hg hi hf
    obtain ⟨k, rfl⟩ : ∃ k, fuel = k + 1 := ⟨fuel - 1, by simp at hf; omega⟩
    rcases rbp_pass f [] m Nsub N k hg hi with ⟨m2, r, e, hr⟩ | ⟨s, hs, e, _⟩
    · refine ⟨m2, _, e, by simp, by simp, ?_, by simp, by simp⟩
      intro p hp
      simp only [List.mem_singleton] at hp
      subst hp
      exact Or.inr ⟨rfl, hr⟩
    · simp only [parentPtr] at e
      refine ⟨_, _, e, by simp, by simp, ?_, by simp, by simp⟩
      intro p hp
      simp only [List.mem_singleton] at hp
      subst hp
      exact Or.inl ⟨rfl, rfl⟩
  | cons g rest ih =>
    intro f m Nsub N fuel hg hi hf
    obtain ⟨k, rfl⟩ : ∃ k, fuel = k + 1 := ⟨fuel - 1, by simp at hf; omega⟩
    rcases rbp_pass f (g :: rest) m Nsub N k hg hi with ⟨m2, r, e, hr⟩ | ⟨s, hs, e, hi2⟩
    · refine ⟨m2, _, e, by simp, by simp, ?_, by simp, by simp⟩
      intro p hp
      simp only [List.mem_singleton] at hp
      subst hp
      exact Or.inr ⟨rfl, hr⟩
    · simp only [parentPtr] at e
      have hg2 : Good (m.setColor s .RED).toSplay (f.fill Nsub) (g :: rest) :=
        (SplayTree.Ptr.sp_good_fill m.toSplay f Nsub (g :: rest)).2 hg
      rw [rbp_side m f g Nsub rest hg2] at e
      obtain ⟨m2, log, e2, h0, h1, h2, h3, h4⟩ :=
        ih g (m.setColor s .RED) (f.fill Nsub) f.tag k hg2 hi2 (by simp at hf; omega)
      rw [e2] at e
      refine ⟨m2, _, e, by simp, by simp; omega, ?_, ?_, ?_⟩
      · intro p hp
        rcases List.mem_cons.1 hp with rfl | hp
        · exact Or.inl ⟨rfl, rfl⟩
        · exact h2 p hp
      · intro p hp
        cases log with
        | nil => simp at hp
        | cons a log2 =>
          rw [List.dropLast_cons₂] at hp
          rcases List.mem_cons.1 hp with rfl | hp
          · rfl
          · exact h3 p hp
      · simp only [List.map_cons, List.length_cons, List.take_succ_cons]
        rw [h4]
        simp

end RBTree.Ptr

/-! ## RBTree with parent pointers: the tree `black_leaf_delete` leaves -/

namespace RBTree.Ptr

open SplayTree.Ptr (ptrOf addrs ctxAddrs parentPtr Good Rep RepCtx foot rootPtr)

theorem rbp_rotate_color (d : dir_t) (m : Mem) (gp : Option Nat) (p n : Nat) :
    (rotate d m gp p n).color = m.color := by
  cases d <;> cases gp <;> simp only [rotate, left_rotate, right_rotate] <;> split <;> rfl

theorem rbp_rotate_toSplay (d : dir_t) (m : Mem) (gp : Option Nat) (p n : Nat) :
    (rotate d m gp p n).toSplay =
      SplayTree.Ptr.turn d (SplayTree.Ptr.relink m.toSplay gp p n) p n := by
  cases d
  · exact rbp_left_rotate_toSplay m gp p n
  · exact rbp_right_rotate_toSplay m gp p n

/-- One rotation in the memory of the red-black tree: the node `n` is lifted over its parent
`p`; the colours stay with the addresses. -/
theorem rbp_rotate_good (d : dir_t) (m : Mem) (B A C : TreeNode Nat) (x y : Int) (p n : Nat)
    (st : List (Frame Nat))
    (h : Good m.toSplay ((⟨d, y, n, C⟩ : Frame Nat).fill B) (⟨d.flip, x, p, A⟩ :: st)) :
    Good (rotate d m (m.parent p) p n).toSplay
      ((⟨d, y, n, C⟩ : Frame Nat).fill ((⟨d.flip, x, p, A⟩ : Frame Nat).fill B)) st := by
  have hp : m.parent p = parentPtr st := h.2.1.2.2.2.1
  rw [rbp_rotate_toSplay, hp]
  exact (SplayTree.Ptr.sp_rotate_focus d m.toSplay B A C x y p n st h).1

theorem rbp_paint_setColor (m : Mem) (a : Nat) (k : color_t) (X : TreeNode Nat)
    (h : a ∉ addrs X) : paint (m.setColor a k).color X = paint m.color X :=
  rbp_paint_congr m.color _ X fun b hb => by
    have : b ≠ a := fun e => h (e ▸ hb)
    simp [this]

theorem rbp_good_refill (m : SplayTree.Ptr.Mem) (f g : Frame Nat) (t u : TreeNode Nat)
    (st : List (Frame Nat)) (e : f.fill t = g.fill u) (h : Good m t (f :: st)) :
    Good m u (g :: st) := by
  have h1 := (SplayTree.Ptr.sp_good_fill m f t st).2 h
  rw [e] at h1
  exact (SplayTree.Ptr.sp_good_fill m g u st).1 h1

/-- The label `D6` in memory gives the tree that `case_D6` gives on tree values. -/
theorem rbp_D6_tree (m : Mem) (dir : dir_t) (Nsub Csub dl dr : TreeNode Nat) (pv sv dv : Int)
    (P s d : Nat) (st : List (Frame Nat))
    (hg : Good m.toSplay Nsub
      (⟨dir, pv, P, (⟨dir, sv, s, .node dl dv d dr⟩ : Frame Nat).fill Csub⟩ :: st)) :
    ∃ m3 T3, case_D6 m dir P s (some d) = some m3 ∧ Good m3.toSplay T3 st ∧
      paint m3.color T3 = RBTree.case_D6 dir (paint m.color
        ((⟨dir, pv, P, (⟨dir, sv, s, .node dl dv d dr⟩ : Frame Nat).fill Csub⟩ :
          Frame Nat).fill Nsub)) ∧
      ∀ a ∈ ctxAddrs st, m3.color a = m.color a := by
  have h1 : Good m.toSplay ((⟨dir, sv, s, .node dl dv d dr⟩ : Frame Nat).fill Csub)
      (⟨dir.flip, pv, P, Nsub⟩ :: st) :=
    rbp_good_refill m.toSplay _ _ _ _ st (by cases dir <;> rfl) hg
  have h2 := rbp_rotate_good dir m Csub Nsub (.node dl dv d dr) pv sv P s st h1
  have hnd := h2.2.2.2
  refine ⟨_, (⟨dir, sv, s, .node dl dv d dr⟩ : Frame Nat).fill
    ((⟨dir.flip, pv, P, Nsub⟩ : Frame Nat).fill Csub), rfl, ?_, ?_, ?_⟩
  · simpa using h2
  · have key : (s ≠ P ∧ s ≠ d ∧ d ≠ P) ∧ (s ∉ addrs Nsub ∧ s ∉ addrs Csub ∧ s ∉ addrs dl ∧
        s ∉ addrs dr) ∧ (P ∉ addrs Nsub ∧ P ∉ addrs Csub ∧ P ∉ addrs dl ∧ P ∉ addrs dr) ∧
        (d ∉ addrs Nsub ∧ d ∉ addrs Csub ∧ d ∉ addrs dl ∧ d ∉ addrs dr) := by
      cases dir <;>
      · simp only [foot, ctxAddrs, addrs, Frame.fill, List.nodup_append, List.nodup_cons,
          List.mem_append, List.mem_cons, not_or, List.disjoint_cons_right,
          List.disjoint_append_right, List.disjoint_cons_left, List.disjoint_append_left,
          dir_t.flip] at hnd
        tauto
    obtain ⟨⟨n1, n2, n3⟩, ⟨s1, s2, s3, s4⟩, ⟨p1, p2, p3, p4⟩, ⟨d1, d2, d3, d4⟩⟩ := key
    have n1b := Ne.symm n1
    have n2b := Ne.symm n2
    have n3b := Ne.symm n3
    cases dir <;>
      simp [paint, Frame.fill, RBTree.case_D6, TreeNode.rotate, TreeNode.left_rotate,
        TreeNode.right_rotate, TreeNode.setTag, TreeNode.setChild, TreeNode.setLeft,
        TreeNode.setRight, TreeNode.child, colorOf, dir_t.flip, rbp_paint_setColor,
        rbp_rotate_color, n1, n2, n3, n1b, n2b, n3b, s1, s2, s3, s4, p1, p2, p3, p4, d1, d2,
        d3, d4]
  · intro a ha
    have key : s ∉ ctxAddrs st ∧ P ∉ ctxAddrs st ∧ d ∉ ctxAddrs st := by
      cases dir <;>
      · simp only [foot, ctxAddrs, addrs, Frame.fill, List.nodup_append, List.nodup_cons,
          List.mem_append, List.mem_cons, not_or, List.disjoint_cons_right,
          List.disjoint_append_right, List.disjoint_cons_left, List.disjoint_append_left,
          dir_t.flip] at hnd
        tauto
    have a1 : a ≠ s := fun e => key.1 (e ▸ ha)
    have a2 : a ≠ P := fun e => key.2.1 (e ▸ ha)
    have a3 : a ≠ d := fun e => key.2.2 (e ▸ ha)
    simp [a1, a2, a3, rbp_rotate_color]

/-- The statements `S->color = RED; P->color = BLACK; return;` in memory give the tree that
`case_D4` gives on tree values. -/
theorem rbp_D4_tree (m : Mem) (dir : dir_t) (Nsub tl tr : TreeNode Nat) (pv sv : Int)
    (P s : Nat) (st : List (Frame Nat))
    (hg : Good m.toSplay Nsub (⟨dir, pv, P, .node tl sv s tr⟩ :: st)) :
    Good ((m.setColor s .RED).setColor P .BLACK).toSplay
      ((⟨dir, pv, P, .node tl sv s tr⟩ : Frame Nat).fill Nsub) st ∧
    paint ((m.setColor s .RED).setColor P .BLACK).color
        ((⟨dir, pv, P, .node tl sv s tr⟩ : Frame Nat).fill Nsub) =
      RBTree.case_D4 dir (paint m.color
        ((⟨dir, pv, P, .node tl sv s tr⟩ : Frame Nat).fill Nsub)) ∧
    ∀ a ∈ ctxAddrs st, ((m.setColor s .RED).setColor P .BLACK).color a = m.color a := by
  have hnd := hg.2.2.2
  have key : s ≠ P ∧ (s ∉ addrs Nsub ∧ s ∉ addrs tl ∧ s ∉ addrs tr) ∧
      (P ∉ addrs Nsub ∧ P ∉ addrs tl ∧ P ∉ addrs tr) ∧ s ∉ ctxAddrs st ∧ P ∉ ctxAddrs st := by
    simp only [foot, ctxAddrs, addrs, Frame.fill, List.nodup_append, List.nodup_cons,
      List.mem_append, List.mem_cons, not_or, List.disjoint_cons_right,
      List.disjoint_append_right, List.disjoint_cons_left, List.disjoint_append_left] at hnd
    tauto
  obtain ⟨n1, ⟨s1, s2, s3⟩, ⟨p1, p2, p3⟩, c1, c2⟩ := key
  have n1b := Ne.symm n1
  refine ⟨?_, ?_, fun a ha => ?_⟩
  · simpa using (SplayTree.Ptr.sp_good_fill m.toSplay _ Nsub st).2 hg
  · cases dir <;>
      simp [paint, Frame.fill, RBTree.case_D4, TreeNode.setTag, TreeNode.setChild,
        TreeNode.setLeft, TreeNode.setRight, TreeNode.child, dir_t.flip, rbp_paint_setColor,
        n1, n1b, s1, s2, s3, p1, p2, p3]
  · have a1 : a ≠ s := fun e => c1 (e ▸ ha)
    have a2 : a ≠ P := fun e => c2 (e ▸ ha)
    simp [a1, a2]

/-- The statement `S->color = RED` before `N = P` in memory recolours the sibling in the
tree. -/
theorem rbp_up_tree (m : Mem) (dir : dir_t) (Nsub tl tr : TreeNode Nat) (pv sv : Int)
    (P s : Nat) (st : List (Frame Nat))
    (hg : Good m.toSplay Nsub (⟨dir, pv, P, .node tl sv s tr⟩ :: st)) :
    Good (m.setColor s .RED).toSplay
      ((⟨dir, pv, P, .node tl sv s tr⟩ : Frame Nat).fill Nsub) st ∧
    paint (m.setColor s .RED).color
        ((⟨dir, pv, P, .node tl sv s tr⟩ : Frame Nat).fill Nsub) =
      (paint m.color ((⟨dir, pv, P, .node tl sv s tr⟩ : Frame Nat).fill Nsub)).setChild
        dir.flip ((paint m.color (.node tl sv s tr)).setTag .RED) ∧
    ∀ a ∈ ctxAddrs st, (m.setColor s .RED).color a = m.color a := by
  have hnd := hg.2.2.2
  have key : s ≠ P ∧ (s ∉ addrs Nsub ∧ s ∉ addrs tl ∧ s ∉ addrs tr) ∧ s ∉ ctxAddrs st := by
    simp only [foot, ctxAddrs, addrs, Frame.fill, List.nodup_append, List.nodup_cons,
      List.mem_append, List.mem_cons, not_or, List.disjoint_cons_right,
      List.disjoint_append_right, List.disjoint_cons_left, List.disjoint_append_left] at hnd
    tauto
  obtain ⟨n1, ⟨s1, s2, s3⟩, c1⟩ := key
  have n1b := Ne.symm n1
  refine ⟨?_, ?_, fun a ha => ?_⟩
  · simpa using (SplayTree.Ptr.sp_good_fill m.toSplay _ Nsub st).2 hg
  · cases dir <;>
      simp [paint, Frame.fill, TreeNode.setTag, TreeNode.setChild,
        TreeNode.setLeft, TreeNode.setRight, dir_t.flip, rbp_paint_setColor,
        n1, n1b, s1, s2, s3]
  · have a1 : a ≠ s := fun e => c1 (e ▸ ha)
    simp [a1]

/-- The label `D5` in memory, which falls through to `D6`, gives the tree that `case_D5`
gives on tree values. -/
theorem rbp_D5_tree (m : Mem) (dir : dir_t) (Nsub Dsub cn cf : TreeNode Nat) (pv sv cv : Int)
    (P s c : Nat) (st : List (Frame Nat))
    (hg : Good m.toSplay Nsub (⟨dir, pv, P, (⟨dir.flip, sv, s,
      (⟨dir.flip, cv, c, cn⟩ : Frame Nat).fill cf⟩ : Frame Nat).fill Dsub⟩ :: st)) :
    ∃ m3 T3, case_D5 m dir P s (some c) = some m3 ∧ Good m3.toSplay T3 st ∧
      paint m3.color T3 = RBTree.case_D5 dir (paint m.color
        ((⟨dir, pv, P, (⟨dir.flip, sv, s, (⟨dir.flip, cv, c, cn⟩ : Frame Nat).fill cf⟩ :
          Frame Nat).fill Dsub⟩ : Frame Nat).fill Nsub)) ∧
      ∀ a ∈ ctxAddrs st, m3.color a = m.color a := by
  have hnd := hg.2.2.2
  have key : (s ≠ P ∧ s ≠ c ∧ c ≠ P) ∧
      (s ∉ addrs Nsub ∧ s ∉ addrs Dsub ∧ s ∉ addrs cn ∧ s ∉ addrs cf) ∧
      (c ∉ addrs Nsub ∧ c ∉ addrs Dsub ∧ c ∉ addrs cn ∧ c ∉ addrs cf) ∧
      s ∉ ctxAddrs st ∧ c ∉ ctxAddrs st := by
    cases dir <;>
    · simp only [foot, ctxAddrs, addrs, Frame.fill, List.nodup_append, List.nodup_cons,
        List.mem_append, List.mem_cons, not_or, List.disjoint_cons_right,
        List.disjoint_append_right, List.disjoint_cons_left, List.disjoint_append_left,
        dir_t.flip] at hnd
      tauto
  obtain ⟨⟨n1, n2, n3⟩, ⟨s1, s2, s3, s4⟩, ⟨c1, c2, c3, c4⟩, x1, x2⟩ := key
  have n1b := Ne.symm n1
  have n2b := Ne.symm n2
  have n3b := Ne.symm n3
  -- the rotation of `C` over `S`
  have h1 : Good m.toSplay ((⟨dir.flip, cv, c, cn⟩ : Frame Nat).fill cf)
      (⟨dir.flip.flip, sv, s, Dsub⟩ :: ⟨dir.flip, pv, P, Nsub⟩ :: st) := by
    have h0 : Good m.toSplay ((⟨dir.flip, sv, s,
        (⟨dir.flip, cv, c, cn⟩ : Frame Nat).fill cf⟩ : Frame Nat).fill Dsub)
        (⟨dir.flip, pv, P, Nsub⟩ :: st) :=
      rbp_good_refill m.toSplay _ _ _ _ st (by cases dir <;> rfl) hg
    exact rbp_good_refill m.toSplay _ _ _ _ _ (by cases dir <;> rfl)
      ((SplayTree.Ptr.sp_good_fill m.toSplay _ _ _).1 h0)
  have hps : m.parent s = some P := h1.2.1.2.2.2.1
  have h2 := rbp_rotate_good dir.flip m cf Dsub cn sv cv s c (⟨dir.flip, pv, P, Nsub⟩ :: st) h1
  rw [hps] at h2
  have hcol : ∀ a, a ≠ s → a ≠ c →
      (((rotate dir.flip m (some P) s c).setColor s .RED).setColor c .BLACK).color a =
        m.color a := fun a a1 a2 => by
    simp [a1, a2, rbp_rotate_color]
  cases dir with
  | LEFT =>
    have h3 : Good (((rotate .RIGHT m (some P) s c).setColor s .RED).setColor c .BLACK).toSplay
        Nsub (⟨.LEFT, pv, P, (⟨.LEFT, cv, c, .node cf sv s Dsub⟩ : Frame Nat).fill cn⟩ :: st) :=
      rbp_good_refill _ ⟨.RIGHT, pv, P, Nsub⟩ _ (.node cn cv c (.node cf sv s Dsub)) _ st rfl h2
    obtain ⟨m3, T3, e3, g3, p3, k3⟩ := rbp_D6_tree _ .LEFT Nsub cn cf Dsub pv cv sv P c s st h3
    refine ⟨m3, T3, e3, g3, ?_, fun a ha => ?_⟩
    · rw [p3]
      simp [paint, Frame.fill, RBTree.case_D5, TreeNode.rotate, TreeNode.left_rotate,
        TreeNode.right_rotate, TreeNode.setTag, TreeNode.setChild, TreeNode.setLeft,
        TreeNode.setRight, TreeNode.child, dir_t.flip, rbp_paint_setColor,
        rbp_rotate_color, n1, n2, n3, n1b, n2b, n3b, s1, s2, s3, s4, c1, c2, c3, c4]
    · rw [k3 a ha]
      exact hcol a (fun e => x1 (e ▸ ha)) (fun e => x2 (e ▸ ha))
  | RIGHT =>
    have h3 : Good (((rotate .LEFT m (some P) s c).setColor s .RED).setColor c .BLACK).toSplay
        Nsub (⟨.RIGHT, pv, P, (⟨.RIGHT, cv, c, .node Dsub sv s cf⟩ : Frame Nat).fill cn⟩ :: st) :=
      rbp_good_refill _ ⟨.LEFT, pv, P, Nsub⟩ _ (.node (.node Dsub sv s cf) cv c cn) _ st rfl h2
    obtain ⟨m3, T3, e3, g3, p3, k3⟩ := rbp_D6_tree _ .RIGHT Nsub cn Dsub cf pv cv sv P c s st h3
    refine ⟨m3, T3, e3, g3, ?_, fun a ha => ?_⟩
    · rw [p3]
      simp [paint, Frame.fill, RBTree.case_D5, TreeNode.rotate, TreeNode.left_rotate,
        TreeNode.right_rotate, TreeNode.setTag, TreeNode.setChild, TreeNode.setLeft,
        TreeNode.setRight, TreeNode.child, dir_t.flip, rbp_paint_setColor,
        rbp_rotate_color, n1, n2, n3, n1b, n2b, n3b, s1, s2, s3, s4, c1, c2, c3, c4]
    · rw [k3 a ha]
      exact hcol a (fun e => x1 (e ▸ ha)) (fun e => x2 (e ▸ ha))

end RBTree.Ptr

namespace RBTree

theorem rb_bld_red (N : Node) (P : Frame color_t) (rest : List (Frame color_t))
    (h1 : is_red P.other = true) :
    black_leaf_delete N (P :: rest) =
      plug (((TreeNode.rotate P.dir (P.fill N)).setTag .BLACK).setChild P.dir
        (if is_red ((((TreeNode.rotate P.dir (P.fill N)).child P.dir).setTag .RED).child
            P.dir.flip |>.child P.dir.flip) then
          case_D6 P.dir (((TreeNode.rotate P.dir (P.fill N)).child P.dir).setTag .RED)
        else if is_red ((((TreeNode.rotate P.dir (P.fill N)).child P.dir).setTag .RED).child
            P.dir.flip |>.child P.dir) then
          case_D5 P.dir (((TreeNode.rotate P.dir (P.fill N)).child P.dir).setTag .RED)
        else case_D4 P.dir (((TreeNode.rotate P.dir (P.fill N)).child P.dir).setTag .RED)))
        rest := by
  simp only [black_leaf_delete, h1, if_true]

theorem rb_bld_D6 (N : Node) (P : Frame color_t) (rest : List (Frame color_t))
    (h1 : is_red P.other = false) (h2 : is_red (P.other.child P.dir.flip) = true) :
    black_leaf_delete N (P :: rest) = plug (case_D6 P.dir (P.fill N)) rest := by
  simp [black_leaf_delete, h1, h2]

theorem rb_bld_D5 (N : Node) (P : Frame color_t) (rest : List (Frame color_t))
    (h1 : is_red P.other = false) (h2 : is_red (P.other.child P.dir.flip) = false)
    (h3 : is_red (P.other.child P.dir) = true) :
    black_leaf_delete N (P :: rest) = plug (case_D5 P.dir (P.fill N)) rest := by
  simp [black_leaf_delete, h1, h2, h3]

theorem rb_bld_D4 (N : Node) (P : Frame color_t) (rest : List (Frame color_t))
    (h1 : is_red P.other = false) (h2 : is_red (P.other.child P.dir.flip) = false)
    (h3 : is_red (P.other.child P.dir) = false) (h4 : P.tag = .RED) :
    black_leaf_delete N (P :: rest) = plug (case_D4 P.dir (P.fill N)) rest := by
  simp [black_leaf_delete, h1, h2, h3, h4]

theorem rb_bld_up (N : Node) (P : Frame color_t) (rest : List (Frame color_t))
    (h1 : is_red P.other = false) (h2 : is_red (P.other.child P.dir.flip) = false)
    (h3 : is_red (P.other.child P.dir) = false) (h4 : P.tag ≠ .RED) :
    black_leaf_delete N (P :: rest) =
      black_leaf_delete ((P.fill N).setChild P.dir.flip (P.other.setTag .RED)) rest := by
  simp [black_leaf_delete, h1, h2, h3, h4]

end RBTree

namespace RBTree.Ptr

open SplayTree.Ptr (ptrOf addrs ctxAddrs parentPtr Good Rep RepCtx foot rootPtr)

theorem rbp_node_as_fill (d : dir_t) (l r : TreeNode Nat) (v : Int) (a : Nat) :
    TreeNode.node l v a r = (⟨d, v, a, (TreeNode.node l v a r).child d.flip⟩ : Frame Nat).fill
      ((TreeNode.node l v a r).child d) := by
  cases d <;> rfl

theorem rbp_good_plug (m : SplayTree.Ptr.Mem) (st : List (Frame Nat)) :
    ∀ t : TreeNode Nat, Good m t st → Good m (plug t st) [] := by
  induction st with
  | nil => intro t h; exact h
  | cons f st ih =>
    intro t h
    exact ih (f.fill t) ((SplayTree.Ptr.sp_good_fill m f t st).2 h)

/-- The first three statements of the branch for a red sibling, in memory: after the rotation
of `S` over `P` and the two assignments of colours, the deficient node hangs below `P`, whose
other child is the former near child of `S`, and `P` hangs below `S`. -/
theorem rbp_red_setup (m : Mem) (dir : dir_t) (Nsub Cn Dn : TreeNode Nat) (pv sv : Int)
    (P s : Nat) (st : List (Frame Nat))
    (hg : Good m.toSplay Nsub
      (⟨dir, pv, P, (⟨dir, sv, s, Dn⟩ : Frame Nat).fill Cn⟩ :: st)) :
    Good (((rotate dir m (m.parent P) P s).setColor P .RED).setColor s .BLACK).toSplay Nsub
      (⟨dir, pv, P, Cn⟩ :: ⟨dir, sv, s, Dn⟩ :: st) ∧
    paint (((rotate dir m (m.parent P) P s).setColor P .RED).setColor s .BLACK).color
        ((⟨dir, pv, P, Cn⟩ : Frame Nat).fill Nsub) =
      ((TreeNode.rotate dir (paint m.color ((⟨dir, pv, P,
        (⟨dir, sv, s, Dn⟩ : Frame Nat).fill Cn⟩ : Frame Nat).fill Nsub))).child dir).setTag
          .RED ∧
    (∀ X : Node,
      (paintF (((rotate dir m (m.parent P) P s).setColor P .RED).setColor s .BLACK).color
          ⟨dir, sv, s, Dn⟩).fill X =
        ((TreeNode.rotate dir (paint m.color ((⟨dir, pv, P,
          (⟨dir, sv, s, Dn⟩ : Frame Nat).fill Cn⟩ : Frame Nat).fill Nsub))).setTag
            .BLACK).setChild dir X) ∧
    ∀ a ∈ ctxAddrs st,
      (((rotate dir m (m.parent P) P s).setColor P .RED).setColor s .BLACK).color a =
        m.color a := by
  have hnd := hg.2.2.2
  have key : s ≠ P ∧ (s ∉ addrs Nsub ∧ s ∉ addrs Cn ∧ s ∉ addrs Dn) ∧
      (P ∉ addrs Nsub ∧ P ∉ addrs Cn ∧ P ∉ addrs Dn) ∧ s ∉ ctxAddrs st ∧ P ∉ ctxAddrs st := by
    cases dir <;>
    · simp only [foot, ctxAddrs, addrs, Frame.fill, List.nodup_append, List.nodup_cons,
        List.mem_append, List.mem_cons, not_or, List.disjoint_cons_right,
        List.disjoint_append_right, List.disjoint_cons_left, List.disjoint_append_left] at hnd
      tauto
  obtain ⟨n1, ⟨s1, s2, s3⟩, ⟨p1, p2, p3⟩, x1, x2⟩ := key
  have n1b := Ne.symm n1
  have h1 : Good m.toSplay ((⟨dir, sv, s, Dn⟩ : Frame Nat).fill Cn)
      (⟨dir.flip, pv, P, Nsub⟩ :: st) :=
    rbp_good_refill m.toSplay _ _ _ _ st (by cases dir <;> rfl) hg
  have h2 := rbp_rotate_good dir m Cn Nsub Dn pv sv P s st h1
  have h3 : Good (rotate dir m (m.parent P) P s).toSplay
      ((⟨dir.flip, pv, P, Nsub⟩ : Frame Nat).fill Cn) (⟨dir, sv, s, Dn⟩ :: st) :=
    (SplayTree.Ptr.sp_good_fill _ _ _ _).1 h2
  refine ⟨?_, ?_, fun X => ?_, fun a ha => ?_⟩
  · have e : (⟨dir.flip, pv, P, Nsub⟩ : Frame Nat).fill Cn =
        (⟨dir, pv, P, Cn⟩ : Frame Nat).fill Nsub := by cases dir <;> rfl
    rw [e] at h3
    exact (SplayTree.Ptr.sp_good_fill _ _ _ _).1 h3
  · cases dir <;>
      simp [paint, Frame.fill, TreeNode.rotate, TreeNode.left_rotate, TreeNode.right_rotate,
        TreeNode.setTag, TreeNode.child, dir_t.flip, rbp_paint_setColor, rbp_rotate_color,
        n1, n1b, s1, s2, s3, p1, p2, p3]
  · cases dir <;>
      simp [paint, paintF, Frame.fill, TreeNode.rotate, TreeNode.left_rotate,
        TreeNode.right_rotate, TreeNode.setTag, TreeNode.setChild, TreeNode.setLeft,
        TreeNode.setRight, dir_t.flip, rbp_paint_setColor, rbp_rotate_color,
        n1, n1b, s1, s2, s3, p1, p2, p3]
  · have a1 : a ≠ s := fun e => x1 (e ▸ ha)
    have a2 : a ≠ P := fun e => x2 (e ▸ ha)
    simp [a1, a2, rbp_rotate_color]

end RBTree.Ptr

namespace RBTree.Ptr

open SplayTree.Ptr (ptrOf addrs ctxAddrs parentPtr Good Rep RepCtx foot rootPtr)

theorem rbp_sibling_children (m : Mem) (dir : dir_t) (Nsub tl tr : TreeNode Nat) (pv sv : Int)
    (P s : Nat) (st : List (Frame Nat))
    (hg : Good m.toSplay Nsub (⟨dir, pv, P, .node tl sv s tr⟩ :: st)) (d : dir_t) :
    m.children s d = ptrOf ((TreeNode.node tl sv s tr).child d) ∧
      is_red m (m.children s d) =
        RBTree.is_red ((paint m.color (.node tl sv s tr)).child d) := by
  have h1 : m.children s d = ptrOf ((TreeNode.node tl sv s tr).child d) :=
    rbp_rep_child m.toSplay tl tr sv s _ hg.2.1.2.2.2.2.1 d
  exact ⟨h1, by rw [h1, rbp_is_red_paint, rbp_paint_child]⟩

theorem rbp_flip_flip (d : dir_t) : d.flip.flip = d := by cases d <;> rfl

/-- The label `D6` reached with a red far child of the sibling. -/
theorem rbp_D6_at (m : Mem) (dir : dir_t) (Nsub tl tr : TreeNode Nat) (pv sv : Int)
    (P s : Nat) (st : List (Frame Nat))
    (hg : Good m.toSplay Nsub (⟨dir, pv, P, .node tl sv s tr⟩ :: st))
    (hr : is_red m (m.children s dir.flip) = true) :
    ∃ d m3 T3, m.children s dir.flip = some d ∧ case_D6 m dir P s (some d) = some m3 ∧
      Good m3.toSplay T3 st ∧
      paint m3.color T3 = RBTree.case_D6 dir (paint m.color
        ((⟨dir, pv, P, .node tl sv s tr⟩ : Frame Nat).fill Nsub)) ∧
      ∀ a ∈ ctxAddrs st, m3.color a = m.color a := by
  have hc := (rbp_sibling_children m dir Nsub tl tr pv sv P s st hg dir.flip).1
  cases hD : (TreeNode.node tl sv s tr).child dir.flip with
  | null =>
    rw [hc, hD] at hr
    simp [ptrOf, is_red] at hr
  | node dl dv d dr =>
    have eS : TreeNode.node tl sv s tr = (⟨dir, sv, s, .node dl dv d dr⟩ : Frame Nat).fill
        ((TreeNode.node tl sv s tr).child dir) := by
      rw [← hD]; exact rbp_node_as_fill dir tl tr sv s
    have hg1 : Good m.toSplay Nsub (⟨dir, pv, P, (⟨dir, sv, s, .node dl dv d dr⟩ :
        Frame Nat).fill ((TreeNode.node tl sv s tr).child dir)⟩ :: st) := by
      rw [← eS]; exact hg
    obtain ⟨m3, T3, e3, g3, p3, k3⟩ := rbp_D6_tree m dir Nsub _ dl dr pv sv dv P s d st hg1
    refine ⟨d, m3, T3, by rw [hc, hD]; rfl, e3, g3, ?_, k3⟩
    rw [p3, ← eS]

/-- The label `D5` reached with a red near child of the sibling. -/
theorem rbp_D5_at (m : Mem) (dir : dir_t) (Nsub tl tr : TreeNode Nat) (pv sv : Int)
    (P s : Nat) (st : List (Frame Nat))
    (hg : Good m.toSplay Nsub (⟨dir, pv, P, .node tl sv s tr⟩ :: st))
    (hr : is_red m (m.children s dir) = true) :
    ∃ c m3 T3, m.children s dir = some c ∧ case_D5 m dir P s (some c) = some m3 ∧
      Good m3.toSplay T3 st ∧
      paint m3.color T3 = RBTree.case_D5 dir (paint m.color
        ((⟨dir, pv, P, .node tl sv s tr⟩ : Frame Nat).fill Nsub)) ∧
      ∀ a ∈ ctxAddrs st, m3.color a = m.color a := by
  have hc := (rbp_sibling_children m dir Nsub tl tr pv sv P s st hg dir).1
  cases hC : (TreeNode.node tl sv s tr).child dir with
  | null =>
    rw [hc, hC] at hr
    simp [ptrOf, is_red] at hr
  | node cl cv c cr =>
    have eC : TreeNode.node cl cv c cr = (⟨dir.flip, cv, c, (TreeNode.node cl cv c cr).child
        dir⟩ : Frame Nat).fill ((TreeNode.node cl cv c cr).child dir.flip) := by
      have := rbp_node_as_fill dir.flip cl cr cv c
      rw [rbp_flip_flip] at this
      exact this
    have eS : TreeNode.node tl sv s tr = (⟨dir.flip, sv, s, (⟨dir.flip, cv, c,
        (TreeNode.node cl cv c cr).child dir⟩ : Frame Nat).fill
          ((TreeNode.node cl cv c cr).child dir.flip)⟩ : Frame Nat).fill
        ((TreeNode.node tl sv s tr).child dir.flip) := by
      rw [← eC, ← hC]
      have := rbp_node_as_fill dir.flip tl tr sv s
      rw [rbp_flip_flip] at this
      exact this
    have hg1 : Good m.toSplay Nsub (⟨dir, pv, P, (⟨dir.flip, sv, s, (⟨dir.flip, cv, c,
        (TreeNode.node cl cv c cr).child dir⟩ : Frame Nat).fill
          ((TreeNode.node cl cv c cr).child dir.flip)⟩ : Frame Nat).fill
        ((TreeNode.node tl sv s tr).child dir.flip)⟩ :: st) := by
      rw [← eS]; exact hg
    obtain ⟨m3, T3, e3, g3, p3, k3⟩ :=
      rbp_D5_tree m dir Nsub _ _ _ pv sv cv P s c st hg1
    refine ⟨c, m3, T3, by rw [hc, hC]; rfl, e3, g3, ?_, k3⟩
    rw [p3, ← eS]

end RBTree.Ptr

namespace RBTree.Ptr

open SplayTree.Ptr (ptrOf addrs ctxAddrs parentPtr Good Rep RepCtx foot rootPtr)

theorem rbp_is_red_color (m : Mem) (a : Nat) : is_red m (some a) = true ↔ m.color a = .RED := by
  simp only [is_red]
  cases m.color a <;> simp

/-- One pass through the loop of `black_leaf_delete` in memory and on tree values: either the
pass returns, and the memory then holds the tree that `black_leaf_delete` on tree values
returns, or it recolours `S` and goes on one level higher, as `black_leaf_delete` on tree
values does. -/
theorem rbp_pass_tree (f : Frame Nat) (st : List (Frame Nat)) (m : Mem) (Nsub : TreeNode Nat)
    (N k : Nat) (hg : Good m.toSplay Nsub (f :: st))
    (hi : DelInv (paint m.color Nsub) ((f :: st).map (paintF m.color))) :
    (∃ m2 log T3 st3, delete_loop (k + 1) m N f.tag f.dir = some (m2, log) ∧
        Good m2.toSplay T3 st3 ∧
        plug (paint m2.color T3) (st3.map (paintF m2.color)) =
          RBTree.black_leaf_delete (paint m.color Nsub) ((f :: st).map (paintF m.color))) ∨
    (∃ s, delete_loop (k + 1) m N f.tag f.dir =
        (match parentPtr st with
          | none => some (m.setColor s .RED, [⟨N, 0, true⟩])
          | some P2 =>
            match delete_loop k (m.setColor s .RED) f.tag P2
                (if m.children P2 .LEFT = some f.tag then .LEFT else .RIGHT) with
            | none => none
            | some (m2, log) => some (m2, ⟨N, 0, true⟩ :: log)) ∧
      Good (m.setColor s .RED).toSplay (f.fill Nsub) st ∧
      DelInv (paint (m.setColor s .RED).color (f.fill Nsub))
        (st.map (paintF (m.setColor s .RED).color)) ∧
      RBTree.black_leaf_delete (paint m.color Nsub) ((f :: st).map (paintF m.color)) =
        RBTree.black_leaf_delete (paint (m.setColor s .RED).color (f.fill Nsub))
          (st.map (paintF (m.setColor s .RED).color))) := by
  obtain ⟨dir, pv, P, S⟩ := f
  obtain ⟨sl, sv, sc, sr, e1, e2⟩ := rb_delInv_sibling _ _ _ hi
  simp only [paintF] at e1
  obtain ⟨tl, s, tr, rfl, e4, e5, e6⟩ := rbp_paint_node m.color S sl sr sv sc e1
  have hS : m.children P dir.flip = some s := hg.2.1.2.2.1
  have hpar : m.parent P = parentPtr st := hg.2.1.2.2.2.1
  have hkid := rbp_sibling_children m dir Nsub tl tr pv sv P s st hg
  have hrS : is_red m (some s) = RBTree.is_red (paint m.color (.node tl sv s tr)) :=
    rbp_is_red_paint m (.node tl sv s tr)
  simp only [List.map_cons, paintF]
  by_cases b1 : is_red m (some s) = true
  · left
    have t1 : RBTree.is_red (paint m.color (.node tl sv s tr)) = true := by
      rw [← hrS]; exact b1
    have hsc : sc = .RED := by
      rw [e1] at t1
      cases sc
      · rfl
      · simp [RBTree.is_red] at t1
    have hne : (TreeNode.node tl sv s tr).child dir ≠ .null := by
      intro h0
      have := e2 hsc dir
      rw [← e1, ← rbp_paint_child, h0] at this
      exact this rfl
    have eS := rbp_node_as_fill dir tl tr sv s
    have hC0 := (hkid dir).1
    generalize (TreeNode.node tl sv s tr).child dir = Cn at eS hne hC0
    generalize (TreeNode.node tl sv s tr).child dir.flip = Dn at eS
    cases Cn with
    | null => exact absurd rfl hne
    | node cl cv c cr =>
      have hC : m.children s dir = some c := hC0
      have hg1 : Good m.toSplay Nsub (⟨dir, pv, P, (⟨dir, sv, s, Dn⟩ : Frame Nat).fill
          (.node cl cv c cr)⟩ :: st) := by
        rw [← eS]; exact hg
      obtain ⟨r1, r2, r3, r4⟩ := rbp_red_setup m dir Nsub (.node cl cv c cr) Dn pv sv P s st hg1
      rw [← eS] at r2 r3
      have hbld := rb_bld_red (paint m.color Nsub)
        ⟨dir, pv, m.color P, paint m.color (.node tl sv s tr)⟩ (st.map (paintF m.color)) t1
      have hT : (⟨dir, pv, m.color P, paint m.color (.node tl sv s tr)⟩ : Frame color_t).fill
          (paint m.color Nsub) =
          paint m.color ((⟨dir, pv, P, .node tl sv s tr⟩ : Frame Nat).fill Nsub) :=
        (rbp_paint_fill m.color ⟨dir, pv, P, .node tl sv s tr⟩ Nsub).symm
      simp only [hT] at hbld
      rw [← r2] at hbld
      have hp2 : ∀ c2 : Nat → color_t, (paint c2 ((⟨dir, pv, P, .node cl cv c cr⟩ :
          Frame Nat).fill Nsub)).child dir.flip = paint c2 (.node cl cv c cr) := by
        intro c2; cases dir <;> rfl
      rw [hp2] at hbld
      have hkid2 := rbp_sibling_children _ dir Nsub cl cr pv cv P c (⟨dir, sv, s, Dn⟩ :: st) r1
      simp only [delete_loop, hS, b1, if_true, hC]
      generalize (((rotate dir m (m.parent P) P s).setColor P .RED).setColor s .BLACK) = m2
        at r1 r2 r3 r4 hbld hkid2 ⊢
      have hrest : (⟨dir, sv, s, Dn⟩ :: st).map (paintF m2.color) =
          paintF m2.color ⟨dir, sv, s, Dn⟩ :: st.map (paintF m.color) := by
        rw [List.map_cons, rbp_paintF_congr m.color m2.color st r4]
      by_cases q2 : is_red m2 (m2.children c dir.flip) = true
      · obtain ⟨d, m3, T3, hd, e3, g3, p3, k3⟩ :=
          rbp_D6_at m2 dir Nsub cl cr pv cv P c (⟨dir, sv, s, Dn⟩ :: st) r1 q2
        refine ⟨m3, [⟨N, m3.rotations - m.rotations, false⟩], T3, ⟨dir, sv, s, Dn⟩ :: st,
          ?_, g3, ?_⟩
        · simp only [q2, if_true]
          rw [hd, e3]
          rfl
        · rw [hbld, if_pos (by rw [← (hkid2 dir.flip).2]; exact q2),
            rbp_paintF_congr m2.color m3.color _ k3, hrest, plug, r3, p3]
      · have u2 : RBTree.is_red ((paint m2.color (.node cl cv c cr)).child dir.flip) = false := by
          rw [← (hkid2 dir.flip).2]; simpa using q2
        by_cases q3 : is_red m2 (m2.children c dir) = true
        · obtain ⟨d, m3, T3, hd, e3, g3, p3, k3⟩ :=
            rbp_D5_at m2 dir Nsub cl cr pv cv P c (⟨dir, sv, s, Dn⟩ :: st) r1 q3
          refine ⟨m3, [⟨N, m3.rotations - m.rotations, false⟩], T3, ⟨dir, sv, s, Dn⟩ :: st,
            ?_, g3, ?_⟩
          · simp only [q2, if_false, q3, if_true]
            rw [hd, e3]
            rfl
          · rw [hbld, if_neg (by rw [u2]; simp),
              if_pos (by rw [← (hkid2 dir).2]; exact q3),
              rbp_paintF_congr m2.color m3.color _ k3, hrest, plug, r3, p3]
        · have u3 : RBTree.is_red ((paint m2.color (.node cl cv c cr)).child dir) = false := by
            rw [← (hkid2 dir).2]; simpa using q3
          obtain ⟨g3, p3, k3⟩ := rbp_D4_tree m2 dir Nsub cl cr pv cv P c
            (⟨dir, sv, s, Dn⟩ :: st) r1
          refine ⟨(m2.setColor c .RED).setColor P .BLACK,
            [⟨N, m2.rotations - m.rotations, false⟩], _, ⟨dir, sv, s, Dn⟩ :: st, ?_, g3, ?_⟩
          · simp only [q2, if_false, q3, Bool.false_eq_true]
          · rw [hbld, if_neg (by rw [u2]; simp), if_neg (by rw [u3]; simp),
              rbp_paintF_congr m2.color _ _ k3, hrest, plug, r3, p3]
  · have t1 : RBTree.is_red (paint m.color (.node tl sv s tr)) = false := by
      rw [← hrS]; simpa using b1
    by_cases b2 : is_red m (m.children s dir.flip) = true
    · left
      obtain ⟨d, m3, T3, hd, e3, g3, p3, k3⟩ := rbp_D6_at m dir Nsub tl tr pv sv P s st hg b2
      refine ⟨m3, [⟨N, m3.rotations - m.rotations, false⟩], T3, st, ?_, g3, ?_⟩
      · simp only [delete_loop, hS, b1, if_false, b2, if_true]
        rw [hd, e3]
        rfl
      · rw [rb_bld_D6 _ _ _ t1 (by rw [← (hkid dir.flip).2]; exact b2), p3,
          rbp_paintF_congr m.color m3.color st k3, rbp_paint_fill]
        rfl
    · have t2 : RBTree.is_red ((paint m.color (.node tl sv s tr)).child dir.flip) = false := by
        rw [← (hkid dir.flip).2]; simpa using b2
      by_cases b3 : is_red m (m.children s dir) = true
      · left
        obtain ⟨c, m3, T3, hc, e3, g3, p3, k3⟩ := rbp_D5_at m dir Nsub tl tr pv sv P s st hg b3
        refine ⟨m3, [⟨N, m3.rotations - m.rotations, false⟩], T3, st, ?_, g3, ?_⟩
        · simp only [delete_loop, hS, b1, if_false, b2, b3, if_true]
          rw [hc, e3]
          rfl
        · rw [rb_bld_D5 _ _ _ t1 t2 (by rw [← (hkid dir).2]; exact b3), p3,
            rbp_paintF_congr m.color m3.color st k3, rbp_paint_fill]
          rfl
      · have t3 : RBTree.is_red ((paint m.color (.node tl sv s tr)).child dir) = false := by
          rw [← (hkid dir).2]; simpa using b3
        by_cases b4 : is_red m (some P) = true
        · left
          obtain ⟨g3, p3, k3⟩ := rbp_D4_tree m dir Nsub tl tr pv sv P s st hg
          refine ⟨(m.setColor s .RED).setColor P .BLACK, [⟨N, m.rotations - m.rotations, false⟩],
            _, st, ?_, g3, ?_⟩
          · simp only [delete_loop, hS, b1, if_false, b2, b3, b4, if_true, Bool.false_eq_true]
          · rw [rb_bld_D4 _ _ _ t1 t2 t3 ((rbp_is_red_color m P).1 b4), p3,
              rbp_paintF_congr m.color _ st k3, rbp_paint_fill]
            rfl
        · right
          have t4 : m.color P ≠ .RED := fun h => b4 ((rbp_is_red_color m P).2 h)
          obtain ⟨g3, p3, k3⟩ := rbp_up_tree m dir Nsub tl tr pv sv P s st hg
          have hup := rb_bld_up (paint m.color Nsub)
            ⟨dir, pv, m.color P, paint m.color (.node tl sv s tr)⟩
            (st.map (paintF m.color)) t1 t2 t3 t4
          have hinv := rb_delInv_up (paint m.color Nsub)
            ⟨dir, pv, m.color P, paint m.color (.node tl sv s tr)⟩
            (st.map (paintF m.color)) (by simpa [paintF] using hi) t1 t2 t3 t4
          refine ⟨s, ?_, g3, ?_, ?_⟩
          · simp only [delete_loop, hS, b1, if_false, b2, b3, b4, rbp_setColor_parent, hpar,
              rbp_setColor_rotations, Nat.sub_self, rbp_setColor_children]
            cases parentPtr st <;> rfl
          · rw [p3, rbp_paintF_congr m.color _ st k3, rbp_paint_fill]
            exact hinv
          · rw [hup, p3, rbp_paintF_congr m.color _ st k3, rbp_paint_fill]
            rfl

end RBTree.Ptr

namespace RBTree.Ptr

open SplayTree.Ptr (ptrOf addrs ctxAddrs parentPtr Good Rep RepCtx foot rootPtr)

/-- The loop of `black_leaf_delete` in memory, entered at `start` under its invariant with
more passes allowed than the deficient node has ancestors above `P`: it returns, and the
memory then holds the tree that `black_leaf_delete` on tree values returns. -/
theorem rbp_delete_loop_tree (st : List (Frame Nat)) :
    ∀ (f : Frame Nat) (m : Mem) (Nsub : TreeNode Nat) (N fuel : Nat),
      Good m.toSplay Nsub (f :: st) →
      DelInv (paint m.color Nsub) ((f :: st).map (paintF m.color)) →
      st.length < fuel →
      ∃ m2 log T2, delete_loop fuel m N f.tag f.dir = some (m2, log) ∧
        Good m2.toSplay T2 [] ∧
        paint m2.color T2 =
          RBTree.black_leaf_delete (paint m.color Nsub) ((f :: st).map (paintF m.color)) := by
  induction st with
  | nil =>
    intro f m Nsub N fuel hg hi hf
    obtain ⟨k, rfl⟩ : ∃ k, fuel = k + 1 := ⟨fuel - 1, by simp at hf; omega⟩
    rcases rbp_pass_tree f [] m Nsub N k hg hi with
      ⟨m2, log, T3, st3, e, g, p⟩ | ⟨s, e, g, _, hb⟩
    · exact ⟨m2, log, plug T3 st3, e, rbp_good_plug _ st3 T3 g, by rw [rbp_paint_plug, p]⟩
    · simp only [parentPtr] at e
      refine ⟨_, _, f.fill Nsub, e, g, ?_⟩
      rw [hb]
      rfl
  | cons g rest ih =>
    intro f m Nsub N fuel hg hi hf
    obtain ⟨k, rfl⟩ : ∃ k, fuel = k + 1 := ⟨fuel - 1, by simp at hf; omega⟩
    rcases rbp_pass_tree f (g :: rest) m Nsub N k hg hi with
      ⟨m2, log, T3, st3, e, g3, p⟩ | ⟨s, e, hg2, hi2, hb⟩
    · exact ⟨m2, log, plug T3 st3, e, rbp_good_plug _ st3 T3 g3, by rw [rbp_paint_plug, p]⟩
    · simp only [parentPtr] at e
      rw [rbp_side m f g Nsub rest hg2] at e
      obtain ⟨m2, log, T2, e2, g2, p2⟩ :=
        ih g (m.setColor s .RED) (f.fill Nsub) f.tag k hg2 hi2 (by simp at hf; omega)
      rw [e2] at e
      exact ⟨m2, _, T2, e, g2, by rw [p2, hb]⟩

end RBTree.Ptr

/-! ## AVLTree on the objects in memory: the rotations -/

namespace AVLTree.Ptr

@[simp] theorem avp_ptrOf_null : ptrOf .null = none := rfl

@[simp] theorem avp_ptrOf_node (l r : ANode) (v : Int) (m : Nat × Nat) :
    ptrOf (.node l v m r) = some m.2 := rfl

@[simp] theorem avp_addrs_null : addrs .null = [] := rfl

@[simp] theorem avp_addrs_node (l r : ANode) (v : Int) (m : Nat × Nat) :
    addrs (.node l v m r) = m.2 :: (addrs l ++ addrs r) := rfl

theorem avp_write_get (h : Heap) (p a : Nat) (f : Cell → Cell) :
    (h.write p f)[a]? = if a = p then (h[a]?).map f else h[a]? := by
  by_cases e : a = p
  · subst e
    rw [if_pos rfl]
    cases hc : h[a]? with
    | none => simp [Heap.write, hc]
    | some c => rw [heap_write_eq h a f c hc]; rfl
  · rw [if_neg e, heap_write_ne h p a f e]

theorem avp_rep_congr (T : ANode) (h h2 : Heap) (hr : Rep h T)
    (hf : ∀ a ∈ addrs T, h2[a]? = h[a]?) : Rep h2 T := by
  induction T with
  | null => trivial
  | node l v m r ihl ihr =>
    obtain ⟨c, rl, rr⟩ := hr
    refine ⟨by rw [hf m.2 (by simp [addrs])]; exact c, ihl rl fun a ha => hf a ?_,
      ihr rr fun a ha => hf a ?_⟩
    · simp [addrs, ha]
    · simp [addrs, ha]

theorem avp_rep_lt (T : ANode) (h : Heap) (hr : Rep h T) : ∀ a ∈ addrs T, a < h.length := by
  induction T with
  | null => intro a ha; simp [addrs] at ha
  | node l v m r ihl ihr =>
    obtain ⟨c, rl, rr⟩ := hr
    intro a ha
    simp only [addrs, List.mem_cons, List.mem_append] at ha
    rcases ha with rfl | ha | ha
    · by_contra hh
      rw [List.getElem?_eq_none (by omega)] at c
      cases c
    · exact ihl rl a ha
    · exact ihr rr a ha

theorem avp_height (h : Heap) (T : ANode) (hr : Rep h T) :
    height h (ptrOf T) = some (AVLTree.height (strip T)) := by
  cases T with
  | null => rfl
  | node l v m r => simp [height, ptrOf, Heap.read, hr.1, strip, AVLTree.height]

theorem avp_keys_strip (T : ANode) : (strip T).keys = T.keys := by
  induction T with
  | null => rfl
  | node l v m r ihl ihr => simp [strip, TreeNode.keys, ihl, ihr]

theorem avp_depth_strip (T : ANode) : (strip T).depth = T.depth := by
  induction T with
  | null => rfl
  | node l v m r ihl ihr => simp [strip, TreeNode.depth, ihl, ihr]

/-- On a node held by the memory `update_height` returns; it assigns the member `height` of
the node and nothing else. -/
theorem avp_update_height (h : Heap) (l r : ANode) (v : Int) (ht a : Nat)
    (hc : h[a]? = some ⟨v, ptrOf l, ptrOf r, ht⟩) (hl : Rep h l) (hr : Rep h r) :
    ∃ ht2 h2, update_height h a = some h2 ∧ h2[a]? = some ⟨v, ptrOf l, ptrOf r, ht2⟩ ∧
      h2.length = h.length ∧ ∀ b, b ≠ a → h2[b]? = h[b]? := by
  refine ⟨(max (AVLTree.height (strip l)) (AVLTree.height (strip r)) + 1) % 2 ^ 32,
    h.write a (fun c => { c with
      height := (max (AVLTree.height (strip l)) (AVLTree.height (strip r)) + 1) % 2 ^ 32 }),
    ?_, ?_, heap_write_length _ _ _, fun b hb => heap_write_ne _ _ _ _ hb⟩
  · simp only [update_height, Heap.read, hc, Option.map_some', avp_height h l hl,
      avp_height h r hr]
  · rw [heap_write_eq _ _ _ _ hc]

/-- The function `left_rotate(l, r)` on a node `l` held by the memory with its right child
`r`: it returns `r`, which now has `l` as left child, and touches no other object. -/
theorem avp_left_rotate (h : Heap) (A B C : ANode) (x y : Int) (hx hy l r : Nat)
    (hr : Rep h (.node A x (hx, l) (.node B y (hy, r) C)))
    (hn : (addrs (.node A x (hx, l) (.node B y (hy, r) C))).Nodup) :
    ∃ hx2 hy2 h2, left_rotate h l r = some (r, h2) ∧
      Rep h2 (.node (.node A x (hx2, l) B) y (hy2, r) C) ∧ h2.length = h.length ∧
      ∀ a, a ≠ l → a ≠ r → h2[a]? = h[a]? := by
  obtain ⟨cl, rA, cr, rB, rC⟩ := hr
  simp only [avp_ptrOf_node] at cl cr
  simp only [avp_addrs_node, List.nodup_cons, List.nodup_append, List.mem_cons,
    List.mem_append, not_or, List.cons_append] at hn
  obtain ⟨⟨n2, n1, n3, n4⟩, nA, ⟨⟨n5, n6⟩, nB, nC, dBC⟩, dis⟩ := hn
  have n7 : r ∉ addrs A := fun hh => dis hh (List.mem_cons_self _ _)
  have e1 : (h.write l fun c => { c with right := ptrOf B })[l]? = some ⟨x, ptrOf A, ptrOf B, hx⟩ := by
    rw [heap_write_eq _ _ _ _ cl]
  have e2 : ((h.write l fun c => { c with right := ptrOf B }).write r
      fun c => { c with left := some l })[l]? = some ⟨x, ptrOf A, ptrOf B, hx⟩ := by
    rw [heap_write_ne _ _ _ _ n1, e1]
  have e3 : ((h.write l fun c => { c with right := ptrOf B }).write r
      fun c => { c with left := some l })[r]? = some ⟨y, some l, ptrOf C, hy⟩ := by
    rw [heap_write_eq _ _ _ _ ((heap_write_ne _ _ _ _ (Ne.symm n1)).trans cr)]
  have f2 : ∀ a, a ≠ l → a ≠ r → ((h.write l fun c => { c with right := ptrOf B }).write r
      fun c => { c with left := some l })[a]? = h[a]? := fun a a1 a2 => by
    rw [heap_write_ne _ _ _ _ a2, heap_write_ne _ _ _ _ a1]
  generalize hh2 : ((h.write l fun c => { c with right := ptrOf B }).write r
      fun c => { c with left := some l }) = h2 at e2 e3 f2
  have rA2 : Rep h2 A := avp_rep_congr A h h2 rA fun a ha =>
    f2 a (fun e => n2 (e ▸ ha)) (fun e => n7 (e ▸ ha))
  have rB2 : Rep h2 B := avp_rep_congr B h h2 rB fun a ha =>
    f2 a (fun e => n3 (e ▸ ha)) (fun e => n5 (e ▸ ha))
  have rC2 : Rep h2 C := avp_rep_congr C h h2 rC fun a ha =>
    f2 a (fun e => n4 (e ▸ ha)) (fun e => n6 (e ▸ ha))
  obtain ⟨hx2, h3, u3, c3, len3, f3⟩ := avp_update_height h2 A B x hx l e2 rA2 rB2
  have rA3 : Rep h3 A := avp_rep_congr A h2 h3 rA2 fun a ha => f3 a (fun e => n2 (e ▸ ha))
  have rB3 : Rep h3 B := avp_rep_congr B h2 h3 rB2 fun a ha => f3 a (fun e => n3 (e ▸ ha))
  have rC3 : Rep h3 C := avp_rep_congr C h2 h3 rC2 fun a ha => f3 a (fun e => n4 (e ▸ ha))
  have c3r : h3[r]? = some ⟨y, ptrOf (.node A x (hx2, l) B), ptrOf C, hy⟩ := by
    rw [f3 r (Ne.symm n1), e3]; rfl
  obtain ⟨hy2, h4, u4, c4, len4, f4⟩ :=
    avp_update_height h3 (.node A x (hx2, l) B) C y hy r c3r ⟨c3, rA3, rB3⟩ rC3
  refine ⟨hx2, hy2, h4, ?_, ⟨c4, ⟨?_, ?_, ?_⟩, ?_⟩, ?_, fun a a1 a2 => ?_⟩
  · simp only [left_rotate, Heap.read, cr, Option.map_some', hh2, u3, u4]
  · rw [f4 l n1]; exact c3
  · exact avp_rep_congr A h3 h4 rA3 fun a ha => f4 a (fun e => n7 (e ▸ ha))
  · exact avp_rep_congr B h3 h4 rB3 fun a ha => f4 a (fun e => n5 (e ▸ ha))
  · exact avp_rep_congr C h3 h4 rC3 fun a ha => f4 a (fun e => n6 (e ▸ ha))
  · rw [len4, len3, ← hh2, heap_write_length, heap_write_length]
  · rw [f4 a a2, f3 a a1, f2 a a1 a2]

/-- The function `right_rotate(r, l)` on a node `r` held by the memory with its left child
`l`: it returns `l`, which now has `r` as right child, and touches no other object. -/
theorem avp_right_rotate (h : Heap) (A B C : ANode) (x y : Int) (hx hy l r : Nat)
    (hr : Rep h (.node (.node A x (hx, l) B) y (hy, r) C))
    (hn : (addrs (.node (.node A x (hx, l) B) y (hy, r) C)).Nodup) :
    ∃ hx2 hy2 h2, right_rotate h r l = some (l, h2) ∧
      Rep h2 (.node A x (hx2, l) (.node B y (hy2, r) C)) ∧ h2.length = h.length ∧
      ∀ a, a ≠ l → a ≠ r → h2[a]? = h[a]? := by
  obtain ⟨cr, ⟨cl, rA, rB⟩, rC⟩ := hr
  simp only [avp_ptrOf_node] at cl cr
  simp only [avp_addrs_node, List.nodup_cons, List.nodup_append, List.mem_cons,
    List.mem_append, not_or, List.cons_append] at hn
  obtain ⟨⟨n1, ⟨n5, n6⟩, n7⟩, ⟨⟨n2, n3⟩, n4⟩, _⟩ := hn
  have n1 : l ≠ r := Ne.symm n1
  have e1 : (h.write r fun c => { c with left := ptrOf B })[r]? =
      some ⟨y, ptrOf B, ptrOf C, hy⟩ := by
    rw [heap_write_eq _ _ _ _ cr]
  have e2 : ((h.write r fun c => { c with left := ptrOf B }).write l
      fun c => { c with right := some r })[r]? = some ⟨y, ptrOf B, ptrOf C, hy⟩ := by
    rw [heap_write_ne _ _ _ _ (Ne.symm n1), e1]
  have e3 : ((h.write r fun c => { c with left := ptrOf B }).write l
      fun c => { c with right := some r })[l]? = some ⟨x, ptrOf A, some r, hx⟩ := by
    rw [heap_write_eq _ _ _ _ ((heap_write_ne _ _ _ _ n1).trans cl)]
  have f2 : ∀ a, a ≠ l → a ≠ r → ((h.write r fun c => { c with left := ptrOf B }).write l
      fun c => { c with right := some r })[a]? = h[a]? := fun a a1 a2 => by
    rw [heap_write_ne _ _ _ _ a1, heap_write_ne _ _ _ _ a2]
  generalize hh2 : ((h.write r fun c => { c with left := ptrOf B }).write l
      fun c => { c with right := some r }) = h2 at e2 e3 f2
  have rA2 : Rep h2 A := avp_rep_congr A h h2 rA fun a ha =>
    f2 a (fun e => n2 (e ▸ ha)) (fun e => n5 (e ▸ ha))
  have rB2 : Rep h2 B := avp_rep_congr B h h2 rB fun a ha =>
    f2 a (fun e => n3 (e ▸ ha)) (fun e => n6 (e ▸ ha))
  have rC2 : Rep h2 C := avp_rep_congr C h h2 rC fun a ha =>
    f2 a (fun e => n4 (e ▸ ha)) (fun e => n7 (e ▸ ha))
  obtain ⟨hy2, h3, u3, c3, len3, f3⟩ := avp_update_height h2 B C y hy r e2 rB2 rC2
  have rA3 : Rep h3 A := avp_rep_congr A h2 h3 rA2 fun a ha => f3 a (fun e => n5 (e ▸ ha))
  have rB3 : Rep h3 B := avp_rep_congr B h2 h3 rB2 fun a ha => f3 a (fun e => n6 (e ▸ ha))
  have rC3 : Rep h3 C := avp_rep_congr C h2 h3 rC2 fun a ha => f3 a (fun e => n7 (e ▸ ha))
  have c3l : h3[l]? = some ⟨x, ptrOf A, ptrOf (.node B y (hy2, r) C), hx⟩ := by
    rw [f3 l n1, e3]; rfl
  obtain ⟨hx2, h4, u4, c4, len4, f4⟩ :=
    avp_update_height h3 A (.node B y (hy2, r) C) x hx l c3l rA3 ⟨c3, rB3, rC3⟩
  refine ⟨hx2, hy2, h4, ?_, ⟨c4, ?_, ?_, ?_, ?_⟩, ?_, fun a a1 a2 => ?_⟩
  · simp only [right_rotate, Heap.read, cl, Option.map_some', hh2, u3, u4]
  · exact avp_rep_congr A h3 h4 rA3 fun a ha => f4 a (fun e => n2 (e ▸ ha))
  · rw [f4 r (Ne.symm n1)]; exact c3
  · exact avp_rep_congr B h3 h4 rB3 fun a ha => f4 a (fun e => n3 (e ▸ ha))
  · exact avp_rep_congr C h3 h4 rC3 fun a ha => f4 a (fun e => n4 (e ▸ ha))
  · rw [len4, len3, ← hh2, heap_write_length, heap_write_length]
  · rw [f4 a a1, f3 a a2, f2 a a1 a2]

end AVLTree.Ptr

/-! ## AVLTree on the objects in memory: `balance` and the loop that ends `add` -/

namespace AVLTree.Ptr

theorem avp_height_pos (T : ANode) (n : Nat) (hlt : n < AVLTree.height (strip T)) :
    ∃ l v m r, T = .node l v m r := by
  cases T with
  | null => simp [strip, AVLTree.height] at hlt
  | node l v m r => exact ⟨l, v, m, r, rfl⟩

theorem avp_perm_nodup {l1 l2 : List Nat} (hp : l1.Perm l2) (hn : l2.Nodup) : l1.Nodup :=
  hp.nodup_iff.2 hn

/-- The first branch of `balance` on a node held by the memory whose left child is not null:
it returns, keeps the in-order keys and the objects of the subtree, and touches no other
object. -/
theorem avp_balance_left (h : Heap) (LL LR R : ANode) (lv v : Int) (lht la ht a : Nat)
    (hr : Rep h (.node (.node LL lv (lht, la) LR) v (ht, a) R))
    (hn : (addrs (.node (.node LL lv (lht, la) LR) v (ht, a) R)).Nodup) :
    ∃ T b h2, balance_left h a = some (b, h2) ∧ ptrOf T = some b ∧ Rep h2 T ∧
      T.keys = (TreeNode.node (.node LL lv (lht, la) LR) v (ht, a) R).keys ∧
      (addrs T).Perm (addrs (.node (.node LL lv (lht, la) LR) v (ht, a) R)) ∧
      h2.length = h.length ∧
      ∀ x, x ∉ addrs (.node (.node LL lv (lht, la) LR) v (ht, a) R) → h2[x]? = h[x]? := by
  have hr0 := hr
  obtain ⟨ca, ⟨cla, rLL, rLR⟩, rR⟩ := hr
  simp only [avp_ptrOf_node] at ca cla
  have e0 : balance_left h a =
      match (if AVLTree.height (strip LR) > AVLTree.height (strip LL) then
          match ptrOf LR with
          | none => none
          | some p =>
            match left_rotate h la p with
            | none => none
            | some (q, h1) => some (h1.write a (fun c => { c with left := some q }))
        else some h : Option Heap) with
      | none => none
      | some h2 =>
        match h2.read a Cell.left with
        | some (some p) => right_rotate h2 a p
        | _ => none := by
    simp only [balance_left, Heap.read, ca, cla, Option.map_some', avp_height h LL rLL,
      avp_height h LR rLR]
  rw [e0]
  by_cases c1 : AVLTree.height (strip LR) > AVLTree.height (strip LL)
  · obtain ⟨LRL, lrv, ⟨lrht, lra⟩, LRR, rfl⟩ := avp_height_pos LR _ c1
    have hnL : (addrs (.node LL lv (lht, la) (.node LRL lrv (lrht, lra) LRR))).Nodup := by
      rw [avp_addrs_node] at hn
      exact (List.nodup_append.1 (List.nodup_cons.1 hn).2).1
    obtain ⟨hx2, hy2, h1, r1, rep1, len1, f1⟩ :=
      avp_left_rotate h LL LRL LRR lv lrv lht lrht la lra ⟨cla, rLL, rLR⟩ hnL
    have hmem : a ≠ la ∧ a ≠ lra ∧ a ∉ addrs LL ∧ a ∉ addrs LRL ∧ a ∉ addrs LRR ∧
        a ∉ addrs R ∧ la ∉ addrs R ∧ lra ∉ addrs R := by
      simp only [avp_addrs_node, List.nodup_cons, List.nodup_append, List.mem_cons,
        List.mem_append, not_or, List.cons_append, List.disjoint_cons_left,
        List.disjoint_append_left, List.disjoint_cons_right] at hn
      tauto
    obtain ⟨m1, m2, m3, m4, m5, m6, m7, m8⟩ := hmem
    have c2 : (h1.write a (fun c => { c with left := some lra }))[a]? =
        some ⟨v, some lra, ptrOf R, ht⟩ := by
      rw [heap_write_eq _ _ _ _ ((f1 a m1 m2).trans ca)]
    have f2 : ∀ x, x ≠ a → x ≠ la → x ≠ lra →
        (h1.write a (fun c => { c with left := some lra }))[x]? = h[x]? := fun x x1 x2 x3 => by
      rw [heap_write_ne _ _ _ _ x1, f1 x x2 x3]
    have g2 : ∀ x, x ≠ a →
        (h1.write a (fun c => { c with left := some lra }))[x]? = h1[x]? := fun x x1 =>
      heap_write_ne _ _ _ _ x1
    have len2 : (h1.write a (fun c => { c with left := some lra })).length = h.length := by
      rw [heap_write_length, len1]
    generalize hh2 : (h1.write a (fun c => { c with left := some lra })) = h2 at c2 f2 g2 len2
    have rep2 : Rep h2 (.node (.node (.node LL lv (hx2, la) LRL) lrv (hy2, lra) LRR) v
        (ht, a) R) := by
      refine ⟨c2, avp_rep_congr _ h1 h2 rep1 fun x hx => g2 x ?_,
        avp_rep_congr _ h h2 rR fun x hx => f2 x ?_ ?_ ?_⟩
      · rintro rfl
        simp only [avp_addrs_node, List.mem_cons, List.mem_append] at hx
        tauto
      · rintro rfl; exact m6 hx
      · rintro rfl; exact m7 hx
      · rintro rfl; exact m8 hx
    have hp2 : (addrs (.node (.node (.node LL lv (hx2, la) LRL) lrv (hy2, lra) LRR) v
        (ht, a) R)).Perm
        (addrs (.node (.node LL lv (lht, la) (.node LRL lrv (lrht, lra) LRR)) v (ht, a) R)) := by
      rw [← Multiset.coe_eq_coe]
      simp only [avp_addrs_node, ← Multiset.cons_coe, ← Multiset.coe_add,
        ← Multiset.singleton_add, List.cons_append]
      ac_rfl
    obtain ⟨hx3, hy3, h3, r3, rep3, len3, f3⟩ :=
      avp_right_rotate h2 (.node LL lv (hx2, la) LRL) LRR R lrv v hy2 ht lra a rep2
        (avp_perm_nodup hp2 hn)
    refine ⟨.node (.node LL lv (hx2, la) LRL) lrv (hx3, lra) (.node LRR v (hy3, a) R), lra, h3,
      ?_, rfl, rep3, ?_, ?_, by rw [len3, len2], fun x hx => ?_⟩
    · simp only [c1, if_true, avp_ptrOf_node, r1, hh2, Heap.read, c2, Option.map_some', r3]
    · simp [TreeNode.keys]
    · refine List.Perm.trans ?_ hp2
      rw [← Multiset.coe_eq_coe]
      simp only [avp_addrs_node, ← Multiset.cons_coe, ← Multiset.coe_add,
        ← Multiset.singleton_add, List.cons_append]
      ac_rfl
    · simp only [avp_addrs_node, List.mem_cons, List.mem_append, not_or] at hx
      rw [f3 x (by tauto) (by tauto), f2 x (by tauto) (by tauto) (by tauto)]
  · obtain ⟨hx3, hy3, h3, r3, rep3, len3, f3⟩ :=
      avp_right_rotate h LL LR R lv v lht ht la a hr0 hn
    refine ⟨.node LL lv (hx3, la) (.node LR v (hy3, a) R), la, h3, ?_, rfl, rep3, ?_, ?_, len3,
      fun x hx => ?_⟩
    · simp only [c1, if_false, Heap.read, ca, Option.map_some', r3]
    · simp [TreeNode.keys]
    · rw [← Multiset.coe_eq_coe]
      simp only [avp_addrs_node, ← Multiset.cons_coe, ← Multiset.coe_add,
        ← Multiset.singleton_add, List.cons_append]
      ac_rfl
    · simp only [avp_addrs_node, List.mem_cons, List.mem_append, not_or] at hx
      rw [f3 x (by tauto) (by tauto)]

/-- The second branch of `balance` on a node held by the memory whose right child is not
null; mirror image of `avp_balance_left`. -/
theorem avp_balance_right (h : Heap) (L RL RR : ANode) (rv v : Int) (rht ra ht a : Nat)
    (hr : Rep h (.node L v (ht, a) (.node RL rv (rht, ra) RR)))
    (hn : (addrs (.node L v (ht, a) (.node RL rv (rht, ra) RR))).Nodup) :
    ∃ T b h2, balance_right h a = some (b, h2) ∧ ptrOf T = some b ∧ Rep h2 T ∧
      T.keys = (TreeNode.node L v (ht, a) (.node RL rv (rht, ra) RR)).keys ∧
      (addrs T).Perm (addrs (.node L v (ht, a) (.node RL rv (rht, ra) RR))) ∧
      h2.length = h.length ∧
      ∀ x, x ∉ addrs (.node L v (ht, a) (.node RL rv (rht, ra) RR)) → h2[x]? = h[x]? := by
  have hr0 := hr
  obtain ⟨ca, rL, cra, rRL, rRR⟩ := hr
  simp only [avp_ptrOf_node] at ca cra
  have e0 : balance_right h a =
      match (if AVLTree.height (strip RL) > AVLTree.height (strip RR) then
          match ptrOf RL with
          | none => none
          | some p =>
            match right_rotate h ra p with
            | none => none
            | some (q, h1) => some (h1.write a (fun c => { c with right := some q }))
        else some h : Option Heap) with
      | none => none
      | some h2 =>
        match h2.read a Cell.right with
        | some (some p) => left_rotate h2 a p
        | _ => none := by
    simp only [balance_right, Heap.read, ca, cra, Option.map_some', avp_height h RL rRL,
      avp_height h RR rRR]
  rw [e0]
  by_cases c1 : AVLTree.height (strip RL) > AVLTree.height (strip RR)
  · obtain ⟨RLL, rlv, ⟨rlht, rla⟩, RLR, rfl⟩ := avp_height_pos RL _ c1
    have hnR : (addrs (.node (.node RLL rlv (rlht, rla) RLR) rv (rht, ra) RR)).Nodup := by
      rw [avp_addrs_node] at hn
      exact (List.nodup_append.1 (List.nodup_cons.1 hn).2).2.1
    obtain ⟨hx2, hy2, h1, r1, rep1, len1, f1⟩ :=
      avp_right_rotate h RLL RLR RR rlv rv rlht rht rla ra ⟨cra, rRL, rRR⟩ hnR
    have hmem : a ≠ ra ∧ a ≠ rla ∧ a ∉ addrs RLL ∧ a ∉ addrs RLR ∧ a ∉ addrs RR ∧
        a ∉ addrs L ∧ ra ∉ addrs L ∧ rla ∉ addrs L := by
      simp only [avp_addrs_node, List.nodup_cons, List.nodup_append, List.mem_cons,
        List.mem_append, not_or, List.cons_append, List.disjoint_cons_left,
        List.disjoint_append_left, List.disjoint_cons_right, List.disjoint_append_right] at hn
      tauto
    obtain ⟨m1, m2, m3, m4, m5, m6, m7, m8⟩ := hmem
    have c2 : (h1.write a (fun c => { c with right := some rla }))[a]? =
        some ⟨v, ptrOf L, some rla, ht⟩ := by
      rw [heap_write_eq _ _ _ _ ((f1 a m2 m1).trans ca)]
    have f2 : ∀ x, x ≠ a → x ≠ ra → x ≠ rla →
        (h1.write a (fun c => { c with right := some rla }))[x]? = h[x]? := fun x x1 x2 x3 => by
      rw [heap_write_ne _ _ _ _ x1, f1 x x3 x2]
    have g2 : ∀ x, x ≠ a →
        (h1.write a (fun c => { c with right := some rla }))[x]? = h1[x]? := fun x x1 =>
      heap_write_ne _ _ _ _ x1
    have len2 : (h1.write a (fun c => { c with right := some rla })).length = h.length := by
      rw [heap_write_length, len1]
    generalize hh2 : (h1.write a (fun c => { c with right := some rla })) = h2
      at c2 f2 g2 len2
    have rep2 : Rep h2 (.node L v (ht, a) (.node RLL rlv (hx2, rla)
        (.node RLR rv (hy2, ra) RR))) := by
      refine ⟨c2, avp_rep_congr _ h h2 rL fun x hx => f2 x ?_ ?_ ?_,
        avp_rep_congr _ h1 h2 rep1 fun x hx => g2 x ?_⟩
      · rintro rfl; exact m6 hx
      · rintro rfl; exact m7 hx
      · rintro rfl; exact m8 hx
      · rintro rfl
        simp only [avp_addrs_node, List.mem_cons, List.mem_append] at hx
        tauto
    have hp2 : (addrs (.node L v (ht, a) (.node RLL rlv (hx2, rla)
        (.node RLR rv (hy2, ra) RR)))).Perm
        (addrs (.node L v (ht, a) (.node (.node RLL rlv (rlht, rla) RLR) rv (rht, ra) RR))) := by
      rw [← Multiset.coe_eq_coe]
      simp only [avp_addrs_node, ← Multiset.cons_coe, ← Multiset.coe_add,
        ← Multiset.singleton_add, List.cons_append]
      ac_rfl
    obtain ⟨hx3, hy3, h3, r3, rep3, len3, f3⟩ :=
      avp_left_rotate h2 L RLL (.node RLR rv (hy2, ra) RR) v rlv ht hx2 a rla rep2
        (avp_perm_nodup hp2 hn)
    refine ⟨.node (.node L v (hx3, a) RLL) rlv (hy3, rla) (.node RLR rv (hy2, ra) RR), rla, h3,
      ?_, rfl, rep3, ?_, ?_, by rw [len3, len2], fun x hx => ?_⟩
    · simp only [c1, if_true, avp_ptrOf_node, r1, hh2, Heap.read, c2, Option.map_some', r3]
    · simp [TreeNode.keys]
    · refine List.Perm.trans ?_ hp2
      rw [← Multiset.coe_eq_coe]
      simp only [avp_addrs_node, ← Multiset.cons_coe, ← Multiset.coe_add,
        ← Multiset.singleton_add, List.cons_append]
      ac_rfl
    · simp only [avp_addrs_node, List.mem_cons, List.mem_append, not_or] at hx
      rw [f3 x (by tauto) (by tauto), f2 x (by tauto) (by tauto) (by tauto)]
  · obtain ⟨hx3, hy3, h3, r3, rep3, len3, f3⟩ :=
      avp_left_rotate h L RL RR v rv ht rht a ra hr0 hn
    refine ⟨.node (.node L v (hx3, a) RL) rv (hy3, ra) RR, ra, h3, ?_, rfl, rep3, ?_, ?_, len3,
      fun x hx => ?_⟩
    · simp only [c1, if_false, Heap.read, ca, Option.map_some', r3]
    · simp [TreeNode.keys]
    · rw [← Multiset.coe_eq_coe]
      simp only [avp_addrs_node, ← Multiset.cons_coe, ← Multiset.coe_add,
        ← Multiset.singleton_add, List.cons_append]
      ac_rfl
    · simp only [avp_addrs_node, List.mem_cons, List.mem_append, not_or] at hx
      rw [f3 x (by tauto) (by tauto)]

/-- The function `balance` on a node held by the memory: it returns the root of a subtree
with the same in-order keys, made of the same objects, and touches no other object. -/
theorem avp_balance (h : Heap) (L R : ANode) (v : Int) (ht a : Nat)
    (hr : Rep h (.node L v (ht, a) R)) (hn : (addrs (.node L v (ht, a) R)).Nodup) :
    ∃ T b h2, balance h a = some (b, h2) ∧ ptrOf T = some b ∧ Rep h2 T ∧
      T.keys = (TreeNode.node L v (ht, a) R).keys ∧
      (addrs T).Perm (addrs (.node L v (ht, a) R)) ∧ h2.length = h.length ∧
      ∀ x, x ∉ addrs (.node L v (ht, a) R) → h2[x]? = h[x]? := by
  have hr0 := hr
  obtain ⟨ca, rL, rR⟩ := hr
  have e0 : balance h a =
      if AVLTree.height (strip L) > (1 + AVLTree.height (strip R)) % 2 ^ 32 then
        balance_left h a
      else if AVLTree.height (strip R) > (1 + AVLTree.height (strip L)) % 2 ^ 32 then
        balance_right h a
      else
        match update_height h a with
        | none => none
        | some h1 => some (a, h1) := by
    simp only [balance, Heap.read, ca, Option.map_some', avp_height h L rL,
      avp_height h R rR]
  rw [e0]
  by_cases c1 : AVLTree.height (strip L) > (1 + AVLTree.height (strip R)) % 2 ^ 32
  · obtain ⟨LL, lv, ⟨lht, la⟩, LR, rfl⟩ := avp_height_pos L _ c1
    rw [if_pos c1]
    exact avp_balance_left h LL LR R lv v lht la ht a hr0 hn
  · rw [if_neg c1]
    by_cases c2 : AVLTree.height (strip R) > (1 + AVLTree.height (strip L)) % 2 ^ 32
    · obtain ⟨RL, rv, ⟨rht, ra⟩, RR, rfl⟩ := avp_height_pos R _ c2
      rw [if_pos c2]
      exact avp_balance_right h L RL RR rv v rht ra ht a hr0 hn
    · rw [if_neg c2]
      obtain ⟨ht2, h2, u2, c2, len2, f2⟩ := avp_update_height h L R v ht a ca rL rR
      refine ⟨.node L v (ht2, a) R, a, h2, by rw [u2], rfl, ⟨c2, ?_, ?_⟩, rfl,
        List.Perm.refl _, len2, fun x hx => f2 x ?_⟩
      · refine avp_rep_congr _ h h2 rL fun x hx => f2 x ?_
        rintro rfl
        simp only [avp_addrs_node, List.nodup_cons, List.mem_append, not_or] at hn
        exact hn.1.1 hx
      · refine avp_rep_congr _ h h2 rR fun x hx => f2 x ?_
        rintro rfl
        simp only [avp_addrs_node, List.nodup_cons, List.mem_append, not_or] at hn
        exact hn.1.2 hx
      · rintro rfl
        exact hx (by simp)

end AVLTree.Ptr

namespace AVLTree.Ptr

theorem avp_ptrOf_mem (T : ANode) (a : Nat) (hp : ptrOf T = some a) : a ∈ addrs T := by
  cases T with
  | null => cases hp
  | node l v m r =>
    simp only [avp_ptrOf_node, Option.some.injEq] at hp
    simp [hp]

theorem avp_ptrOf_some (T : ANode) (a : Nat) (hp : ptrOf T = some a) :
    ∃ l v ht r, T = .node l v (ht, a) r := by
  cases T with
  | null => cases hp
  | node l v m r =>
    obtain ⟨ht, b⟩ := m
    simp only [avp_ptrOf_node, Option.some.injEq] at hp
    subst hp
    exact ⟨l, v, ht, r, rfl⟩

theorem avp_repCtx_congr (st : List (Frame (Nat × Nat))) : ∀ (h h2 : Heap) (hole : Option Nat),
    RepCtx h st hole → (∀ a ∈ ctxAddrs st, h2[a]? = h[a]?) → RepCtx h2 st hole := by
  induction st with
  | nil => intro h h2 hole _ _; trivial
  | cons f st ih =>
    intro h h2 hole hr hf
    obtain ⟨c, ro, rc⟩ := hr
    refine ⟨by rw [hf _ (by simp [ctxAddrs])]; exact c,
      avp_rep_congr _ h h2 ro fun a ha => hf a (by simp [ctxAddrs, ha]),
      ih h h2 _ rc fun a ha => hf a (by simp [ctxAddrs, ha])⟩

/-- The loop `do { ... } while (root);` on a subtree held by the memory below the ancestors
the stack names: it returns the root of a tree with the in-order keys of the whole tree,
made of the same objects, and touches no other object. -/
theorem avp_rebalance (st : List (Frame (Nat × Nat))) : ∀ (h : Heap) (T : ANode) (root : Nat),
    ptrOf T = some root → Rep h T → RepCtx h st (some root) → (addrs T ++ ctxAddrs st).Nodup →
    ∃ T2 b h2, rebalance h root (st.map fun f => f.tag.2) = some (some b, h2) ∧
      ptrOf T2 = some b ∧ Rep h2 T2 ∧ T2.keys = (plug T st).keys ∧
      (addrs T2).Perm (addrs T ++ ctxAddrs st) ∧ h2.length = h.length ∧
      ∀ x, x ∉ addrs T ++ ctxAddrs st → h2[x]? = h[x]? := by
  induction st with
  | nil =>
    intro h T root hp hr _ hn
    obtain ⟨L, v, ht, R, rfl⟩ := avp_ptrOf_some T root hp
    simp only [ctxAddrs, List.append_nil] at hn ⊢
    obtain ⟨T2, b, h2, e, p2, r2, k2, a2, len2, f2⟩ := avp_balance h L R v ht root hr hn
    exact ⟨T2, b, h2, by simp [rebalance, e], p2, r2, k2, a2, len2, f2⟩
  | cons f st ih =>
    intro h T root hp hr hc hn
    obtain ⟨L, v, ht, R, rfl⟩ := avp_ptrOf_some T root hp
    obtain ⟨d, fv, ⟨fh, n⟩, o⟩ := f
    obtain ⟨cn, ro, rc⟩ := hc
    simp only at cn ro rc
    have hnT : (addrs (.node L v (ht, root) R)).Nodup := (List.nodup_append.1 hn).1
    obtain ⟨T1, b, h1, e, p1, r1, k1, a1, len1, f1⟩ := avp_balance h L R v ht root hr hnT
    have hn2 : (n :: (addrs (.node L v (ht, root) R) ++ addrs o ++ ctxAddrs st)).Nodup := by
      refine avp_perm_nodup ?_ hn
      rw [← Multiset.coe_eq_coe]
      simp only [ctxAddrs, ← Multiset.cons_coe, ← Multiset.coe_add,
        ← Multiset.singleton_add, List.cons_append]
      ac_rfl
    obtain ⟨hn3, hn4⟩ := List.nodup_cons.1 hn2
    simp only [List.mem_append, not_or] at hn3
    obtain ⟨⟨hn3a, hn3b⟩, hn3c⟩ := hn3
    rw [List.append_assoc] at hn4
    have dis := (List.nodup_append.1 hn4).2.2
    have n1 : n ∉ addrs T1 := fun hh => hn3a (a1.subset hh)
    have hroot : root ∉ addrs o := fun hh =>
      dis (by simp) (List.mem_append_left _ hh)
    have dT : ∀ x, x ∈ ctxAddrs st → x ∉ addrs (.node L v (ht, root) R) := fun x hx hh =>
      dis hh (List.mem_append_right _ hx)
    have dO : ∀ x, x ∈ addrs o → x ∉ addrs (.node L v (ht, root) R) := fun x hx hh =>
      dis hh (List.mem_append_left _ hx)
    have fin : ∀ (hw : Heap) (T3 : ANode), ptrOf T3 = some n → Rep hw T3 →
        T3.keys = (Frame.fill ⟨d, fv, (fh, n), o⟩ (.node L v (ht, root) R)).keys →
        (addrs T3).Perm (n :: (addrs (.node L v (ht, root) R) ++ addrs o)) →
        hw.length = h.length →
        (∀ x, x ≠ n → x ∉ addrs (.node L v (ht, root) R) → hw[x]? = h[x]?) →
        ∃ T2 b2 h2, rebalance hw n (st.map fun f => f.tag.2) = some (some b2, h2) ∧
          ptrOf T2 = some b2 ∧ Rep h2 T2 ∧
          T2.keys = (plug (.node L v (ht, root) R) (⟨d, fv, (fh, n), o⟩ :: st)).keys ∧
          (addrs T2).Perm (addrs (.node L v (ht, root) R) ++
            ctxAddrs (⟨d, fv, (fh, n), o⟩ :: st)) ∧ h2.length = h.length ∧
          ∀ x, x ∉ addrs (.node L v (ht, root) R) ++ ctxAddrs (⟨d, fv, (fh, n), o⟩ :: st) →
            h2[x]? = h[x]? := by
      intro hw T3 p3 r3 k3 a3 len3 f3
      have rc3 : RepCtx hw st (some n) := avp_repCtx_congr st h hw _ rc fun x hx =>
        f3 x (fun e => hn3c (e ▸ hx)) (dT x hx)
      have hp3 : (addrs T3 ++ ctxAddrs st).Perm
          (n :: (addrs (.node L v (ht, root) R) ++ addrs o ++ ctxAddrs st)) := by
        have := a3.append_right (ctxAddrs st)
        simpa using this
      obtain ⟨T2, b2, h2, e2, p2, r2, k2, a2, len2, f2⟩ :=
        ih hw T3 n p3 r3 rc3 (avp_perm_nodup hp3 hn2)
      refine ⟨T2, b2, h2, e2, p2, r2, ?_, ?_, by rw [len2, len3], fun x hx => ?_⟩
      · rw [k2, plug, keys_plug, keys_plug, k3]
      · refine a2.trans (hp3.trans ?_)
        rw [← Multiset.coe_eq_coe]
        simp only [ctxAddrs, ← Multiset.cons_coe, ← Multiset.coe_add,
          ← Multiset.singleton_add, List.cons_append]
        ac_rfl
      · have hx2 : x ∉ addrs T3 ++ ctxAddrs st := fun hh => by
          have := hp3.subset hh
          apply hx
          simp only [ctxAddrs, List.mem_append, List.mem_cons] at this ⊢
          tauto
        rw [f2 x hx2]
        simp only [ctxAddrs, List.mem_append, List.mem_cons, not_or] at hx
        exact f3 x hx.2.1 hx.1
    have cn1 : h1[n]? = h[n]? := f1 n hn3a
    have ro1 : Rep h1 o := avp_rep_congr o h h1 ro fun x hx => f1 x (dO x hx)
    cases d with
    | LEFT =>
      simp only at cn
      have cw : (h1.write n (fun c => { c with left := some b }))[n]? =
          some ⟨fv, ptrOf T1, ptrOf o, fh⟩ := by
        rw [heap_write_eq _ _ _ _ (cn1.trans cn), p1]
      have e3 : rebalance h root (List.map (fun f => f.tag.2) (⟨.LEFT, fv, (fh, n), o⟩ :: st)) =
          rebalance (h1.write n (fun c => { c with left := some b })) n
            (st.map fun f => f.tag.2) := by
        simp only [List.map_cons, rebalance, Heap.read, cn, Option.map_some', e, if_true]
      rw [e3]
      refine fin _ (.node T1 fv (fh, n) o) rfl ⟨cw, ?_, ?_⟩ ?_ ?_ ?_ ?_
      · exact avp_rep_congr T1 h1 _ r1 fun x hx =>
          heap_write_ne _ _ _ _ (fun e => n1 (e ▸ hx))
      · exact avp_rep_congr o h1 _ ro1 fun x hx =>
          heap_write_ne _ _ _ _ (fun e => hn3b (e ▸ hx))
      · simp [Frame.fill, TreeNode.keys, k1]
      · simp only [avp_addrs_node]
        exact List.Perm.cons _ (a1.append_right _)
      · rw [heap_write_length, len1]
      · intro x x1 x2
        rw [heap_write_ne _ _ _ _ x1, f1 x x2]
    | RIGHT =>
      simp only at cn
      have hne : ptrOf o ≠ some root := fun hh => hroot (avp_ptrOf_mem o root hh)
      have cw : (h1.write n (fun c => { c with right := some b }))[n]? =
          some ⟨fv, ptrOf o, ptrOf T1, fh⟩ := by
        rw [heap_write_eq _ _ _ _ (cn1.trans cn), p1]
      have e3 : rebalance h root (List.map (fun f => f.tag.2) (⟨.RIGHT, fv, (fh, n), o⟩ :: st)) =
          rebalance (h1.write n (fun c => { c with right := some b })) n
            (st.map fun f => f.tag.2) := by
        simp only [List.map_cons, rebalance, Heap.read, cn, Option.map_some', e, hne, if_false]
      rw [e3]
      refine fin _ (.node o fv (fh, n) T1) rfl ⟨cw, ?_, ?_⟩ ?_ ?_ ?_ ?_
      · exact avp_rep_congr o h1 _ ro1 fun x hx =>
          heap_write_ne _ _ _ _ (fun e => hn3b (e ▸ hx))
      · exact avp_rep_congr T1 h1 _ r1 fun x hx =>
          heap_write_ne _ _ _ _ (fun e => n1 (e ▸ hx))
      · simp [Frame.fill, TreeNode.keys, k1]
      · simp only [avp_addrs_node]
        refine List.Perm.cons _ ?_
        exact List.perm_append_comm.trans (a1.append_right _)
      · rw [heap_write_length, len1]
      · intro x x1 x2
        rw [heap_write_ne _ _ _ _ x1, f1 x x2]

end AVLTree.Ptr

/-! ## AVLTree on the objects in memory: `find` and `add` -/

namespace AVLTree.Ptr

theorem avp_search (val : Int) (T : ANode) : ∀ (fuel : Nat) (h : Heap)
    (st : List (Frame (Nat × Nat))), Rep h T → T.depth ≤ fuel →
    search fuel h (ptrOf T) (st.map fun f => f.tag.2) val =
      some (ptrOf (descend val T st).1, (descend val T st).2.map fun f => f.tag.2) := by
  induction T with
  | null => intro fuel h st _ _; cases fuel <;> rfl
  | node l v m r ihl ihr =>
    intro fuel h st hr hf
    obtain ⟨c, rl, rr⟩ := hr
    simp only [TreeNode.depth] at hf
    cases fuel with
    | zero => omega
    | succ f =>
      simp only [avp_ptrOf_node, search, Heap.read, c, Option.map_some', descend]
      split_ifs with c1 c2
      · exact ihl f h (⟨.LEFT, v, m, r⟩ :: st) rl (by omega)
      · exact ihr f h (⟨.RIGHT, v, m, l⟩ :: st) rr (by omega)
      · rfl

theorem avp_descend_rep (val : Int) (T : ANode) : ∀ (h : Heap) (st : List (Frame (Nat × Nat))),
    Rep h T → RepCtx h st (ptrOf T) →
    Rep h (descend val T st).1 ∧ RepCtx h (descend val T st).2 (ptrOf (descend val T st).1) := by
  induction T with
  | null => intro h st hr hc; exact ⟨hr, hc⟩
  | node l v m r ihl ihr =>
    intro h st hr hc
    obtain ⟨c, rl, rr⟩ := hr
    unfold descend
    split_ifs with c1 c2
    · exact ihl h _ rl ⟨c, rr, hc⟩
    · exact ihr h _ rr ⟨c, rl, hc⟩
    · exact ⟨⟨c, rl, rr⟩, hc⟩

theorem avp_descend_addrs (val : Int) (T : ANode) : ∀ st : List (Frame (Nat × Nat)),
    (addrs (descend val T st).1 ++ ctxAddrs (descend val T st).2).Perm
      (addrs T ++ ctxAddrs st) := by
  induction T with
  | null => intro st; exact List.Perm.refl _
  | node l v m r ihl ihr =>
    intro st
    unfold descend
    split_ifs with c1 c2
    · refine (ihl _).trans ?_
      rw [← Multiset.coe_eq_coe]
      simp only [ctxAddrs, avp_addrs_node, ← Multiset.cons_coe, ← Multiset.coe_add,
        ← Multiset.singleton_add, List.cons_append]
      ac_rfl
    · refine (ihr _).trans ?_
      rw [← Multiset.coe_eq_coe]
      simp only [ctxAddrs, avp_addrs_node, ← Multiset.cons_coe, ← Multiset.coe_add,
        ← Multiset.singleton_add, List.cons_append]
      ac_rfl
    · exact List.Perm.refl _

theorem avp_descend_fst {μ : Type} (val : Int) (t : TreeNode μ) : ∀ st : List (Frame μ),
    (descend val t st).1 = (descend val t []).1 := by
  induction t with
  | null => intro st; rfl
  | node l v m r ihl ihr =>
    intro st
    unfold descend
    split_ifs with c1 c2
    · rw [ihl, ihl [_]]
    · rw [ihr, ihr [_]]
    · rfl

theorem avp_find_node (l r : Node) (v val : Int) (ht : Nat) :
    AVLTree.find (.node l v ht r) val =
      if v ≠ val then (if val < v then AVLTree.find l val else AVLTree.find r val)
      else true := by
  unfold AVLTree.find
  rw [descend]
  split_ifs with c1 c2
  · rw [avp_descend_fst]
  · rw [avp_descend_fst]
  · rfl

/-- The member function `find` on a tree held by the memory returns what `find` returns on
that tree. -/
theorem avp_find_stored (val : Int) (t : Node) : ∀ (fuel : Nat) (h : Heap) (lo hi : Nat)
    (p : Option Nat), Stored h lo hi p t → t.depth ≤ fuel →
    find fuel h p val = some (AVLTree.find t val) := by
  induction t with
  | null =>
    intro fuel h lo hi p hs _
    cases p with
    | none => cases fuel <;> rfl
    | some _ => exact hs.elim
  | node l v ht r ihl ihr =>
    intro fuel h lo hi p hs hf
    cases p with
    | none => exact hs.elim
    | some a =>
      obtain ⟨_, _, c, s3, s4, _, s6, s7⟩ := hs
      simp only [TreeNode.depth] at hf
      cases fuel with
      | zero => omega
      | succ f =>
        rw [avp_find_node]
        simp only [find, Heap.read, s3, Option.map_some', s4]
        split_ifs with c1 c2
        · exact ihl f h lo hi _ s6 (by omega)
        · exact ihr f h lo hi _ s7 (by omega)
        · rfl

theorem avp_stored_of_rep (T : ANode) (h : Heap) (lo hi : Nat) (hr : Rep h T)
    (hb : ∀ a ∈ addrs T, lo ≤ a ∧ a < hi) : Stored h lo hi (ptrOf T) (strip T) := by
  induction T with
  | null => trivial
  | node l v m r ihl ihr =>
    obtain ⟨c, rl, rr⟩ := hr
    refine ⟨(hb m.2 (by simp)).1, (hb m.2 (by simp)).2, _, c, rfl, rfl,
      ihl rl fun a ha => hb a (by simp [ha]), ihr rr fun a ha => hb a (by simp [ha])⟩

theorem avp_find_rep (val : Int) (T : ANode) (fuel : Nat) (h : Heap) (hr : Rep h T)
    (hf : T.depth ≤ fuel) : find fuel h (ptrOf T) val = some (AVLTree.find (strip T) val) :=
  avp_find_stored val (strip T) fuel h 0 h.length (ptrOf T)
    (avp_stored_of_rep T h 0 h.length hr fun a ha => ⟨Nat.zero_le _, avp_rep_lt T h hr a ha⟩)
    (by rw [avp_depth_strip]; exact hf)

end AVLTree.Ptr

namespace AVLTree.Ptr

theorem avp_keys_descend {μ : Type} (val : Int) (t : TreeNode μ) :
    t.keys = pathL (descend val t []).2 ++ (descend val t []).1.keys ++
      pathR (descend val t []).2 := by
  have := congrArg TreeNode.keys (plug_descend val t [])
  rw [keys_plug] at this
  simpa [plug] using this.symm

/-- The member function `add` on a tree in search order held by the memory: it returns.  A
key already in the tree gives `false` and changes nothing; a new key gives `true`, and the
tree then consists of its former objects and the one `new` has added, holds the former keys
and the new one in search order, and no other object has changed. -/
theorem avp_add (h : Heap) (T : ANode) (val : Int) (fuel : Nat) (hr : Rep h T)
    (hn : (addrs T).Nodup) (hf : T.depth ≤ fuel) (hs : Ascending T.keys) :
    (val ∈ T.keys ∧ add fuel h (ptrOf T) val = some (false, ptrOf T, h)) ∨
    (val ∉ T.keys ∧ ∃ T2 h2, add fuel h (ptrOf T) val = some (true, ptrOf T2, h2) ∧
      Rep h2 T2 ∧ (addrs T2).Perm (h.length :: addrs T) ∧ Ascending T2.keys ∧
      (∀ j, j ∈ T2.keys ↔ j = val ∨ j ∈ T.keys) ∧
      h2.length = h.length + 1 ∧ ∀ x, x < h.length → x ∉ addrs T → h2[x]? = h[x]?) := by
  cases T with
  | null =>
    right
    refine ⟨by simp [TreeNode.keys], .node .null val (1, h.length) .null,
      h ++ [(⟨val, none, none, 1⟩ : Cell)], rfl, ⟨by simp, trivial, trivial⟩, by simp,
      by simp [TreeNode.keys, Ascending], by simp [TreeNode.keys], by simp, fun x hx _ => ?_⟩
    exact List.getElem?_append_left hx
  | node l v m r =>
    have hk := avp_keys_descend val (.node l v m r)
    have hb := descend_between val (.node l v m r) [] (by simpa [pathL, pathR] using hs)
      (by simp [Between, pathL, pathR])
    have hstop := descend_stop val (.node l v m r) ([] : List (Frame (Nat × Nat)))
    have hdir := descend_dirs val (.node l v m r) ([] : List (Frame (Nat × Nat))) (by simp)
    have hplug := plug_descend val (.node l v m r) ([] : List (Frame (Nat × Nat)))
    have hsearch := avp_search val (.node l v m r) fuel h [] hr hf
    have hrep := avp_descend_rep val (.node l v m r) h [] hr trivial
    have haddr := avp_descend_addrs val (.node l v m r) []
    have hlt := avp_rep_lt _ h hr
    simp only [add, avp_ptrOf_node]
    simp only [avp_ptrOf_node, List.map_nil] at hsearch
    rw [hsearch]
    simp only [ctxAddrs, List.append_nil] at haddr
    generalize hT : TreeNode.node l v m r = T at hs hk hb hstop hdir hplug hr hn hrep haddr hlt ⊢
    generalize descend val T [] = res at hk hb hstop hdir hplug hrep haddr
    obtain ⟨t2, st2⟩ := res
    rcases hstop with e | ⟨l2, m2, r2, e⟩
    · simp only at e
      subst e
      cases st2 with
      | nil => simp only [plug] at hplug; rw [← hplug] at hT; cases hT
      | cons top st =>
        right
        simp only [TreeNode.keys, List.append_nil] at hk
        refine ⟨by rw [hk]; exact not_mem_between hb.1 hb.2, ?_⟩
        obtain ⟨d, tv, ⟨th, root⟩, o⟩ := top
        simp only [avp_ptrOf_null, avp_addrs_null, List.nil_append, List.map_cons] at haddr hrep ⊢
        obtain ⟨_, ctop, ro, rc⟩ := hrep
        simp only at ctop ro rc
        have hd : d = .LEFT ↔ val < tv := hdir ⟨d, tv, (th, root), o⟩ (by simp)
        have hnc : (ctxAddrs (⟨d, tv, (th, root), o⟩ :: st)).Nodup := avp_perm_nodup haddr hn
        have hltc : ∀ x ∈ ctxAddrs (⟨d, tv, (th, root), o⟩ :: st), x < h.length := fun x hx =>
          hlt x (haddr.subset hx)
        have hroot : root < h.length := hltc root (by simp [ctxAddrs])
        have hnew : (h ++ [(⟨val, none, none, 1⟩ : Cell)])[h.length]? =
            some ⟨val, none, none, 1⟩ := by simp
        have hold : ∀ x, x < h.length → (h ++ [(⟨val, none, none, 1⟩ : Cell)])[x]? = h[x]? :=
          fun x hx => List.getElem?_append_left hx
        have hrd : (h ++ [(⟨val, none, none, 1⟩ : Cell)]).read root Cell.val = some tv := by
          simp only [Heap.read, hold root hroot, ctop]
          cases d <;> rfl
        rw [hrd]
        simp only [ctxAddrs, List.nodup_cons, List.mem_append, not_or, List.nodup_append] at hnc
        obtain ⟨⟨hro, hrst⟩, hno, hnst, hdis⟩ := hnc
        -- what is left once the new object hangs below `root`
        have fin : ∀ (hw : Heap) (T0 : ANode), ptrOf T0 = some root → Rep hw T0 →
            T0.keys = (Frame.fill ⟨d, tv, (th, root), o⟩ (.node .null val (1, h.length) .null)).keys →
            (addrs T0).Perm (root :: (h.length :: addrs o)) → hw.length = h.length + 1 →
            (∀ x, x < h.length → x ≠ root → hw[x]? = h[x]?) →
            ∃ T2 h2, (match rebalance hw root (st.map fun f => f.tag.2) with
                | none => none
                | some (nd, h3) => some (true, nd, h3)) = some (true, ptrOf T2, h2) ∧
              Rep h2 T2 ∧ (addrs T2).Perm (h.length :: addrs T) ∧ Ascending T2.keys ∧
              (∀ j, j ∈ T2.keys ↔ j = val ∨ j ∈ T.keys) ∧
              h2.length = h.length + 1 ∧ ∀ x, x < h.length → x ∉ addrs T → h2[x]? = h[x]? := by
          intro hw T0 p0 r0 k0 a0 len0 f0
          have rc0 : RepCtx hw st (some root) := avp_repCtx_congr st h hw _ rc fun x hx =>
            f0 x (hltc x (by simp [ctxAddrs, hx])) (fun e => hrst (e ▸ hx))
          have hp0 : (addrs T0 ++ ctxAddrs st).Perm
              (h.length :: ctxAddrs (⟨d, tv, (th, root), o⟩ :: st)) := by
            refine (a0.append_right _).trans ?_
            rw [← Multiset.coe_eq_coe]
            simp only [ctxAddrs, ← Multiset.cons_coe, ← Multiset.coe_add,
              ← Multiset.singleton_add, List.cons_append]
            ac_rfl
          have hn0 : (addrs T0 ++ ctxAddrs st).Nodup := by
            refine avp_perm_nodup hp0 (List.nodup_cons.2 ⟨fun hh => ?_, avp_perm_nodup haddr hn⟩)
            exact Nat.lt_irrefl _ (hltc _ hh)
          obtain ⟨T2, b, h2, e2, p2, r2, k2, a2, len2, f2⟩ :=
            avp_rebalance st hw T0 root p0 r0 rc0 hn0
          have hk2 : T2.keys = pathL (⟨d, tv, (th, root), o⟩ :: st) ++
              val :: pathR (⟨d, tv, (th, root), o⟩ :: st) := by
            rw [k2, keys_plug, k0, keys_fill]
            simp [TreeNode.keys, pathL, pathR]
          rw [hk] at hs
          obtain ⟨as1, as2⟩ := ascending_insert hs hb.1 hb.2
          refine ⟨T2, h2, by rw [e2, p2], r2, a2.trans (hp0.trans (List.Perm.cons _ haddr)),
            by rw [hk2]; exact as1, fun j => by rw [hk2, hk]; exact as2 j, by rw [len2, len0],
            fun x hx hxT => ?_⟩
          have hx0 : x ∉ addrs T0 ++ ctxAddrs st := fun hh => by
            have := hp0.subset hh
            rcases List.mem_cons.1 this with rfl | this
            · exact Nat.lt_irrefl _ hx
            · exact hxT (haddr.subset this)
          rw [f2 x hx0]
          refine f0 x hx fun e => hxT (haddr.subset ?_)
          simp [ctxAddrs, e]
        cases d with
        | LEFT =>
          have hv : val < tv := hd.1 rfl
          simp only [hv, if_true]
          simp only at ctop
          have cw : ((h ++ [(⟨val, none, none, 1⟩ : Cell)]).write root
              (fun c => { c with left := some h.length }))[root]? =
              some ⟨tv, some h.length, ptrOf o, th⟩ := by
            rw [heap_write_eq _ _ _ _ ((hold root hroot).trans ctop)]
          have fw : ∀ x, x ≠ root → ((h ++ [(⟨val, none, none, 1⟩ : Cell)]).write root
              (fun c => { c with left := some h.length }))[x]? =
              (h ++ [(⟨val, none, none, 1⟩ : Cell)])[x]? := fun x hx =>
            heap_write_ne _ _ _ _ hx
          refine fin _ (.node (.node .null val (1, h.length) .null) tv (th, root) o) rfl
            ⟨cw, ⟨?_, trivial, trivial⟩, ?_⟩ ?_ ?_ ?_ ?_
          · rw [fw _ (by omega), hnew]; rfl
          · refine avp_rep_congr o h _ ro fun x hx => ?_
            rw [fw x (fun e => hro (e ▸ hx)), hold x (hltc x (by simp [ctxAddrs, hx]))]
          · rfl
          · simp
          · simp [heap_write_length]
          · intro x x1 x2
            rw [fw x x2, hold x x1]
        | RIGHT =>
          have hv : ¬ val < tv := fun hh => by cases hd.2 hh
          simp only [hv, if_false]
          simp only at ctop
          have cw : ((h ++ [(⟨val, none, none, 1⟩ : Cell)]).write root
              (fun c => { c with right := some h.length }))[root]? =
              some ⟨tv, ptrOf o, some h.length, th⟩ := by
            rw [heap_write_eq _ _ _ _ ((hold root hroot).trans ctop)]
          have fw : ∀ x, x ≠ root → ((h ++ [(⟨val, none, none, 1⟩ : Cell)]).write root
              (fun c => { c with right := some h.length }))[x]? =
              (h ++ [(⟨val, none, none, 1⟩ : Cell)])[x]? := fun x hx =>
            heap_write_ne _ _ _ _ hx
          refine fin _ (.node o tv (th, root) (.node .null val (1, h.length) .null)) rfl
            ⟨cw, ?_, ⟨?_, trivial, trivial⟩⟩ ?_ ?_ ?_ ?_
          · refine avp_rep_congr o h _ ro fun x hx => ?_
            rw [fw x (fun e => hro (e ▸ hx)), hold x (hltc x (by simp [ctxAddrs, hx]))]
          · rw [fw _ (by omega), hnew]; rfl
          · rfl
          · simp only [avp_addrs_node, avp_addrs_null, List.nil_append, List.append_nil]
            exact List.Perm.cons _ (List.perm_append_singleton _ _)
          · simp [heap_write_length]
          · intro x x1 x2
            rw [fw x x2, hold x x1]
    · simp only at e
      subst e
      left
      refine ⟨by rw [hk]; simp [TreeNode.keys], ?_⟩
      rfl

end AVLTree.Ptr

/-! ## AVLTree on the objects in memory: the copy and `clear` -/

namespace AVLTree.Ptr

/-- The lambda `copy` on a tree held by the memory below address `n`: it returns the root of
a tree of the same shape, keys and stored heights, made of distinct objects that `new` has
added, and changes no object that existed before. -/
theorem avp_copy (t : Node) : ∀ (fuel : Nat) (h : Heap) (n : Nat) (p : Option Nat),
    n ≤ h.length → Stored h 0 n p t → t.depth < fuel →
    ∃ T h2, copy fuel h p = some (ptrOf T, h2) ∧ h.length ≤ h2.length ∧
      (∀ a, a < h.length → h2[a]? = h[a]?) ∧ Rep h2 T ∧ strip T = t ∧ (addrs T).Nodup ∧
      ∀ a ∈ addrs T, h.length ≤ a ∧ a < h2.length := by
  induction t with
  | null =>
    intro fuel h n p _ hs _
    cases p with
    | some _ => exact hs.elim
    | none =>
      refine ⟨.null, h, ?_, le_refl _, fun _ _ => rfl, trivial, rfl, by simp, by simp⟩
      cases fuel <;> rfl
  | node l v ht r ihl ihr =>
    intro fuel h n p hn hs hf
    cases p with
    | none => exact hs.elim
    | some a =>
      obtain ⟨_, s2, c, s3, s4, s5, s6, s7⟩ := hs
      cases fuel with
      | zero => omega
      | succ f =>
        simp only [TreeNode.depth] at hf
        let h1 : Heap := h ++ [⟨c.val, none, none, 1⟩]
        let h2 : Heap := h1.write h.length (fun x => { x with height := c.height })
        have a1 : ∀ b, b < h.length → h1[b]? = h[b]? := fun b hb =>
          List.getElem?_append_left hb
        have n1 : h1[h.length]? = some ⟨c.val, none, none, 1⟩ := by
          simp [h1]
        have a2 : ∀ b, b < h.length → h2[b]? = h[b]? := fun b hb => by
          rw [heap_write_ne _ _ _ _ (by omega)]
          exact a1 b hb
        have n2 : h2[h.length]? = some ⟨c.val, none, none, c.height⟩ := by
          rw [heap_write_eq _ _ _ _ n1]
        have l2 : h2.length = h.length + 1 := by
          simp [h2, h1, heap_write_length]
        obtain ⟨Tl, h3, e3, len3, ag3, rep3, st3, nd3, rg3⟩ := ihl f h2 n c.left (by omega)
          (stored_frame l h h2 0 n _ s6 (fun b _ hb => a2 b (by omega))) (by omega)
        let h4 : Heap := h3.write h.length (fun x => { x with left := ptrOf Tl })
        have a4 : ∀ b, b < h.length → h4[b]? = h[b]? := fun b hb => by
          rw [heap_write_ne _ _ _ _ (by omega), ag3 b (by omega)]
          exact a2 b hb
        have n4 : h4[h.length]? = some ⟨c.val, ptrOf Tl, none, c.height⟩ := by
          rw [heap_write_eq _ _ _ _ ((ag3 _ (by omega)).trans n2)]
        have l4 : h4.length = h3.length := heap_write_length _ _ _
        obtain ⟨Tr, h5, e5, len5, ag5, rep5, st5, nd5, rg5⟩ := ihr f h4 n c.right (by omega)
          (stored_frame r h h4 0 n _ s7 (fun b _ hb => a4 b (by omega))) (by omega)
        let h6 : Heap := h5.write h.length (fun x => { x with right := ptrOf Tr })
        have n6 : h6[h.length]? = some ⟨c.val, ptrOf Tl, ptrOf Tr, c.height⟩ := by
          rw [heap_write_eq _ _ _ _ ((ag5 _ (by omega)).trans n4)]
        have l6 : h6.length = h5.length := heap_write_length _ _ _
        have r0 : h.read a Cell.val = some c.val := by simp [Heap.read, s3]
        have r1 : h1.read a Cell.height = some c.height := by
          simp [Heap.read, a1 a (by omega), s3]
        have r2 : h2.read a Cell.left = some c.left := by
          simp [Heap.read, a2 a (by omega), s3]
        have r4 : h4.read a Cell.right = some c.right := by
          simp [Heap.read, a4 a (by omega), s3]
        refine ⟨.node Tl c.val (c.height, h.length) Tr, h6, ?_, by omega, fun b hb => ?_,
          ⟨n6, ?_, ?_⟩, ?_, ?_, fun b hb => ?_⟩
        · simp only [copy, r0, r1, r2, e3, r4, e5, h1, h2, h4, h6, avp_ptrOf_node]
        · rw [heap_write_ne _ _ _ _ (by omega), ag5 b (by omega)]
          exact a4 b hb
        · refine avp_rep_congr Tl h3 h6 rep3 fun b hb => ?_
          have := rg3 b hb
          rw [heap_write_ne _ _ _ _ (by omega), ag5 b (by omega),
            heap_write_ne _ _ _ _ (by omega)]
        · refine avp_rep_congr Tr h5 h6 rep5 fun b hb => ?_
          have := rg5 b hb
          rw [heap_write_ne _ _ _ _ (by omega)]
        · simp [strip, st3, st5, s4, s5]
        · simp only [avp_addrs_node, List.nodup_cons, List.mem_append, not_or,
            List.nodup_append]
          refine ⟨⟨fun hh => ?_, fun hh => ?_⟩, nd3, nd5, fun b hb1 hb2 => ?_⟩
          · have := rg3 _ hh; omega
          · have := rg5 _ hh; omega
          · have := rg3 _ hb1
            have := rg5 _ hb2
            omega
        · simp only [avp_addrs_node, List.mem_cons, List.mem_append] at hb
          rcases hb with rfl | hb | hb
          · omega
          · have := rg3 _ hb; omega
          · have := rg5 _ hb; omega

theorem avp_push_child_addrs (c : ANode) (st : List ANode) :
    ((TreeNode.push_child c st).map addrs).flatten = addrs c ++ (st.map addrs).flatten := by
  cases c <;> simp [TreeNode.push_child]

theorem avp_push_child_mem (c : ANode) (st : List ANode) (t : ANode)
    (ht : t ∈ TreeNode.push_child c st) : t = c ∨ t ∈ st := by
  cases c with
  | null => exact Or.inr ht
  | node l v m r =>
    simp only [TreeNode.push_child, List.mem_cons] at ht
    exact ht

/-- The loop of `clear` on a stack of trees held by the memory, made of distinct objects: it
returns within one iteration per node and one more per node with a child, and assigns to
members of those objects only. -/
theorem avp_clear_loop (fuel : Nat) : ∀ (h : Heap) (ts : List ANode),
    (∀ t ∈ ts, t ≠ .null) → (∀ t ∈ ts, Rep h t) → (ts.map addrs).flatten.Nodup →
    (ts.map TreeNode.clearCost).sum ≤ fuel →
    ∃ h2, clear_loop fuel h (ts.filterMap ptrOf) = some h2 ∧ h2.length = h.length ∧
      ∀ x, x ∉ (ts.map addrs).flatten → h2[x]? = h[x]? := by
  induction fuel with
  | zero =>
    intro h ts hne _ _ hf
    cases ts with
    | nil => exact ⟨h, rfl, rfl, fun _ _ => rfl⟩
    | cons top rest =>
      exfalso
      have h1 := hne top (List.mem_cons_self _ _)
      cases top with
      | null => exact h1 rfl
      | node l v m r =>
        by_cases hc : l ≠ .null ∨ r ≠ .null
        · simp only [List.map_cons, List.sum_cons, TreeNode.clearCost_split l r v m hc] at hf
          omega
        · push_neg at hc
          obtain ⟨rfl, rfl⟩ := hc
          simp [TreeNode.clearCost] at hf
  | succ f ih =>
    intro h ts hne hrep hnd hf
    cases ts with
    | nil => exact ⟨h, rfl, rfl, fun _ _ => rfl⟩
    | cons top rest =>
      have h1 := hne top (List.mem_cons_self _ _)
      have h2 : ∀ t ∈ rest, t ≠ .null := fun t ht => hne t (List.mem_cons_of_mem _ ht)
      cases top with
      | null => exact absurd rfl h1
      | node l v m r =>
        obtain ⟨c, rl, rr⟩ := hrep _ (List.mem_cons_self _ _)
        have hrest : ∀ t ∈ rest, Rep h t := fun t ht => hrep t (List.mem_cons_of_mem _ ht)
        simp only [List.map_cons, List.flatten_cons, avp_addrs_node, List.cons_append,
          List.nodup_cons, List.mem_append, not_or, List.nodup_append] at hnd
        obtain ⟨⟨⟨ml, mr⟩, mrest⟩, ⟨ndl, ndr, dlr⟩, ndrest, dis⟩ := hnd
        by_cases hc : l ≠ .null ∨ r ≠ .null
        · simp only [List.map_cons, List.sum_cons, TreeNode.clearCost_split l r v m hc] at hf
          have key : ∃ hw : Heap, clear_loop (f + 1) h
                (List.filterMap ptrOf (TreeNode.node l v m r :: rest)) =
              clear_loop f hw (List.filterMap ptrOf (TreeNode.push_child r
                (TreeNode.push_child l (.node .null v m .null :: rest)))) ∧
              hw[m.2]? = some ⟨v, none, none, m.1⟩ ∧ hw.length = h.length ∧
              ∀ x, x ≠ m.2 → hw[x]? = h[x]? := by
            cases l with
            | null =>
              cases r with
              | null => simp at hc
              | node rl rv rm rr =>
                refine ⟨h.write m.2 (fun c => { c with right := none }), ?_, ?_,
                  heap_write_length _ _ _, fun x hx => heap_write_ne _ _ _ _ hx⟩
                · simp [clear_loop, Heap.read, c, TreeNode.push_child]
                · rw [heap_write_eq _ _ _ _ c]; rfl
            | node ll lv lm lr =>
              have c1 : (h.write m.2 (fun c => { c with left := none }))[m.2]? =
                  some ⟨v, none, ptrOf r, m.1⟩ := by
                rw [heap_write_eq _ _ _ _ c]
              cases r with
              | null =>
                refine ⟨h.write m.2 (fun c => { c with left := none }), ?_, c1,
                  heap_write_length _ _ _, fun x hx => heap_write_ne _ _ _ _ hx⟩
                simp [clear_loop, Heap.read, c, c1, TreeNode.push_child]
              | node rl rv rm rr =>
                refine ⟨(h.write m.2 (fun c => { c with left := none })).write m.2
                  (fun c => { c with right := none }), ?_, ?_, ?_, fun x hx => ?_⟩
                · simp [clear_loop, Heap.read, c, c1, TreeNode.push_child]
                · rw [heap_write_eq _ _ _ _ c1]
                · rw [heap_write_length, heap_write_length]
                · rw [heap_write_ne _ _ _ _ hx, heap_write_ne _ _ _ _ hx]
          obtain ⟨hw, e, cw, lenw, fw⟩ := key
          have hn2 : ∀ t ∈ TreeNode.push_child r
              (TreeNode.push_child l (.node .null v m .null :: rest)), t ≠ .null := by
            apply TreeNode.push_child_ne
            apply TreeNode.push_child_ne
            intro t ht
            simp only [List.mem_cons] at ht
            rcases ht with rfl | ht
            · simp
            · exact h2 t ht
          have hrestw : ∀ t ∈ rest, Rep hw t := fun t ht =>
            avp_rep_congr t h hw (hrest t ht) fun x hx => fw x fun e => mrest (by
              rw [← e]
              exact List.mem_flatten.2 ⟨addrs t, List.mem_map.2 ⟨t, ht, rfl⟩, hx⟩)
          have hrep2 : ∀ t ∈ TreeNode.push_child r
              (TreeNode.push_child l (.node .null v m .null :: rest)), Rep hw t := by
            intro t ht
            rcases avp_push_child_mem _ _ _ ht with rfl | ht
            · exact avp_rep_congr _ h hw rr fun x hx => fw x fun e => mr (e ▸ hx)
            · rcases avp_push_child_mem _ _ _ ht with rfl | ht
              · exact avp_rep_congr _ h hw rl fun x hx => fw x fun e => ml (e ▸ hx)
              · rcases List.mem_cons.1 ht with rfl | ht
                · exact ⟨cw, trivial, trivial⟩
                · exact hrestw t ht
          have hp : ((TreeNode.push_child r (TreeNode.push_child l
              (.node .null v m .null :: rest))).map addrs).flatten.Perm
              (m.2 :: (addrs l ++ addrs r ++ (rest.map addrs).flatten)) := by
            rw [avp_push_child_addrs, avp_push_child_addrs, ← Multiset.coe_eq_coe]
            simp only [List.map_cons, List.flatten_cons, avp_addrs_node, avp_addrs_null,
              List.nil_append, ← Multiset.cons_coe, ← Multiset.coe_add,
              ← Multiset.singleton_add, List.cons_append]
            ac_rfl
          have hnd2 : (m.2 :: (addrs l ++ addrs r ++ (rest.map addrs).flatten)).Nodup := by
            simp only [List.nodup_cons, List.mem_append, not_or, List.nodup_append]
            exact ⟨⟨⟨ml, mr⟩, mrest⟩, ⟨ndl, ndr, dlr⟩, ndrest, dis⟩
          obtain ⟨h3, e3, len3, f3⟩ := ih hw _ hn2 hrep2 (avp_perm_nodup hp hnd2) (by
            rw [TreeNode.push_child_cost, TreeNode.push_child_cost]
            simp only [List.map_cons, List.sum_cons, TreeNode.clearCost]
            omega)
          refine ⟨h3, by rw [e, e3], by rw [len3, lenw], fun x hx => ?_⟩
          simp only [List.map_cons, List.flatten_cons, avp_addrs_node, List.cons_append,
            List.mem_cons, List.mem_append, not_or] at hx
          rw [f3 x fun hh => ?_, fw x hx.1]
          have := hp.subset hh
          simp only [List.mem_cons, List.mem_append] at this
          tauto
        · push_neg at hc
          obtain ⟨rfl, rfl⟩ := hc
          simp only [List.map_cons, List.sum_cons, TreeNode.clearCost] at hf
          obtain ⟨h3, e3, len3, f3⟩ := ih h rest h2 hrest ndrest (by omega)
          refine ⟨h3, ?_, len3, fun x hx => f3 x fun hh => hx ?_⟩
          · simp only [List.filterMap_cons, avp_ptrOf_node, clear_loop, Heap.read, c,
              Option.map_some', avp_ptrOf_null, Option.isSome_none, Bool.or_self]
            exact e3
          · simp [hh]

end AVLTree.Ptr

/-! ## Claims on `black_leaf_delete`, `balance`, the rotations, the assertions of the splay
`remove`, the roots, the child slots and the parent pointers -/

namespace RBTree

/-- C31: for every tree satisfying the red-black invariants and every key whose removal
deletes a black leaf that is not the root (`remove` then calls `black_leaf_delete` with the
ancestors `st` of that leaf), in every pass of `black_leaf_delete` the sibling `S` of the
deficient node is not null, and after the rotation of a red sibling the new sibling, the
former near nephew `C`, is not null.  These are the only pointers dereferenced without a
test: the others have passed `is_red` or are `S` again. -/
theorem rb_black_leaf_delete_no_null (t : Node) (x : Int) (h1 : NoRedRed t)
    (h2 : BlackBalanced t) (st : List (Frame color_t)) (hc : remove_call t x = some st) :
    ∀ p ∈ black_leaf_delete_passes .null st,
      p.S ≠ .null ∧ ∀ c, p.new_S = some c → c ≠ .null :=
  rb_passes_nonnull st .null (rb_remove_call_inv t x h1 h2 st hc)

theorem rb_black_leaf_delete_no_null_witness :
    NoRedRed sampleTree ∧ BlackBalanced sampleTree ∧
      remove_call sampleTree 30 =
        some [⟨.RIGHT, 20, .BLACK,
          .node (.node .null 5 .RED .null) 10 .BLACK (.node .null 15 .RED .null)⟩] ∧
      ∀ p ∈ black_leaf_delete_passes .null
          [⟨.RIGHT, 20, .BLACK,
            .node (.node .null 5 .RED .null) 10 .BLACK (.node .null 15 .RED .null)⟩],
        p.S ≠ .null ∧ ∀ c, p.new_S = some c → c ≠ .null :=
  ⟨by decide, by decide, by decide,
    rb_black_leaf_delete_no_null sampleTree 30 (by decide) (by decide) _ (by decide)⟩

end RBTree

namespace AVLTree

/-- C33: for every node whose left and right subtrees are valid AVL trees (balanced at every
node, every stored height correct) with heights differing by at most 2, `balance(node)`
returns a valid AVL tree with the same in-order key sequence, whose height is
`1 + max(left height, right height)` of the input or one less. -/
theorem balance_restores_avl (l r : Node) (v : Int) (h : Nat)
    (hl : HeightBalanced l) (hr : HeightBalanced r)
    (h1 : realHeight l ≤ realHeight r + 2) (h2 : realHeight r ≤ realHeight l + 2) :
    HeightBalanced (balance (.node l v h r)) ∧
      (balance (.node l v h r)).keys = (TreeNode.node l v h r).keys ∧
      (realHeight (balance (.node l v h r)) = 1 + max (realHeight l) (realHeight r) ∨
        realHeight (balance (.node l v h r)) + 1 = 1 + max (realHeight l) (realHeight r)) := by
  obtain ⟨b1, b2, b3, _⟩ := balance_heightBalanced l r v h hl hr h1 h2
  refine ⟨b1, keys_balance _, ?_⟩
  omega

theorem balance_restores_avl_witness :
    HeightBalanced sampleSmall ∧ HeightBalanced (.null : Node) ∧
      realHeight sampleSmall ≤ realHeight (.null : Node) + 2 ∧
      realHeight (.null : Node) ≤ realHeight sampleSmall + 2 ∧
      HeightBalanced (balance (.node sampleSmall 60 0 .null)) ∧
      (balance (.node sampleSmall 60 0 .null)).keys =
        (TreeNode.node sampleSmall 60 0 .null).keys ∧
      (realHeight (balance (.node sampleSmall 60 0 .null)) =
          1 + max (realHeight sampleSmall) (realHeight (.null : Node)) ∨
        realHeight (balance (.node sampleSmall 60 0 .null)) + 1 =
          1 + max (realHeight sampleSmall) (realHeight (.null : Node))) :=
  ⟨by decide, by decide, by decide, by decide,
    balance_restores_avl sampleSmall .null 60 0 (by decide) (by decide) (by decide)
      (by decide)⟩

/-- C34: on every subtree with a non-null right child, `left_rotate` returns a tree with the
same in-order key sequence, and on every subtree with a non-null left child so does
`right_rotate`; in both, when the stored heights of the children and grandchildren of the
subtree root are below `2 ^ 32 - 2`, so that the two increments of `update_height` do not
wrap in `u_int32_t`, the stored heights of the two rotated nodes (the new subtree root and
the old one, now its child) are 1 + the maximum of the stored heights of their children.
The rotations are the ones with `update_height` in 32 bits. -/
theorem rotations_keep_keys_and_heights (t : Node) :
    (t.child .RIGHT ≠ .null →
      (U32.left_rotate t).keys = t.keys ∧
        (U32.HeightsBelow (2 ^ 32 - 2) t →
          StoredHeightOK (U32.left_rotate t) ∧
            StoredHeightOK ((U32.left_rotate t).child .LEFT) ∧
            (U32.left_rotate t).child .LEFT ≠ .null)) ∧
    (t.child .LEFT ≠ .null →
      (U32.right_rotate t).keys = t.keys ∧
        (U32.HeightsBelow (2 ^ 32 - 2) t →
          StoredHeightOK (U32.right_rotate t) ∧
            StoredHeightOK ((U32.right_rotate t).child .RIGHT) ∧
            (U32.right_rotate t).child .RIGHT ≠ .null)) := by
  refine ⟨fun hc => ⟨U32.u32_keys_left_rotate t, fun hb => ?_⟩,
    fun hc => ⟨U32.u32_keys_right_rotate t, fun hb => ?_⟩⟩
  · rw [U32.u32_left_rotate_eq t hb]
    exact ((rotations_nat_keys_heights t).1 hc).2
  · rw [U32.u32_right_rotate_eq t hb]
    exact ((rotations_nat_keys_heights t).2 hc).2

theorem rotations_keep_keys_and_heights_witness :
    sampleSmall.child .LEFT ≠ .null ∧ U32.HeightsBelow (2 ^ 32 - 2) sampleSmall ∧
      (U32.right_rotate sampleSmall).keys = sampleSmall.keys ∧
      StoredHeightOK (U32.right_rotate sampleSmall) ∧
      StoredHeightOK ((U32.right_rotate sampleSmall).child .RIGHT) ∧
      (U32.right_rotate sampleSmall).child .RIGHT ≠ .null :=
  ⟨by decide, by decide,
    ((rotations_keep_keys_and_heights sampleSmall).2 (by decide)).1,
    ((rotations_keep_keys_and_heights sampleSmall).2 (by decide)).2 (by decide)⟩

end AVLTree

namespace SplayTree

/-- C35: the two assertions inside `remove` never fail (on any tree, in particular on one
with strictly ascending in-order keys): `remove` with the assertions checked returns what
`remove` returns; after a successful `find(val)` the root holds `val`; and the node splayed
to the root of the detached left subtree, its maximum, has no right child. -/
theorem splay_remove_asserts_hold (t : Node) (x : Int) :
    remove_checked t x = some (remove t x) ∧
    ((find t x).1 = true → ∃ a b, (find t x).2 = .node a x () b) ∧
    (∀ a v m b, ∃ a2 v2,
      fix (rightmost (.node a v m b) []).1 (rightmost (.node a v m b) []).2 =
        .node a2 v2 () .null) := by
  have hmax : ∀ a v m b, ∃ a2 v2,
      fix (rightmost (.node a v m b) []).1 (rightmost (.node a v m b) []).2 =
        .node a2 v2 () .null := by
    intro a v m b
    obtain ⟨⟨a1, v1, e1⟩, e2, _⟩ := splay_rightmost_spec (.node a v m b) [] (by simp) (by simp)
    rw [e1]
    obtain ⟨a2, e3⟩ := splay_fix_right_null _ a1 v1 e2
    exact ⟨a2, v1, e3⟩
  refine ⟨?_, splay_find_root t x, hmax⟩
  have hr := splay_find_root t x
  unfold remove_checked remove
  generalize find t x = res at hr
  obtain ⟨b, t2⟩ := res
  cases b with
  | false => rfl
  | true =>
    obtain ⟨l, r, e⟩ := hr rfl
    simp only at e
    subst e
    cases l with
    | null => simp
    | node a v m b2 =>
      obtain ⟨a2, v2, e2⟩ := hmax a v m b2
      simp [e2, TreeNode.child, TreeNode.setRight]

end SplayTree

namespace BTree

/-- C36: for every minimum degree `N > 1` and every sequence of calls starting from the empty
tree, the resulting tree has no keys if and only if its root pointer is null; in particular,
when it holds exactly one key `x`, `remove(x)` leaves the null root and not a root without
keys. -/
theorem bt_empty_iff_null_root (N : Nat) (hN : 1 < N) (ops : List Op) :
    (treeKeys (runOps (step N) none ops).2 = [] ↔ (runOps (step N) none ops).2 = none) ∧
    ∀ x, treeKeys (runOps (step N) none ops).2 = [x] →
      remove N (runOps (step N) none ops).2 x = (true, none) := by
  obtain ⟨hi, ha⟩ := bt_runOps_inv N hN ops
  refine ⟨bt_inv_empty_iff N _ hi, fun x hx => ?_⟩
  obtain ⟨_, r1, r2⟩ := bt_remove_spec N hN _ x hi ha
  have hi2 := bt_remove_inv N hN _ x hi
  have he : treeKeys (remove N (runOps (step N) none ops).2 x).2 = [] := by
    apply List.eq_nil_iff_forall_not_mem.2
    intro j hj
    have := (r2 j).1 hj
    rw [hx] at this
    simp only [List.mem_singleton] at this
    exact this.2 this.1
  have hn := (bt_inv_empty_iff N _ hi2).1 he
  have hb : (remove N (runOps (step N) none ops).2 x).1 = true := by
    rw [r1, hx]
    simp
  exact Prod.ext hb hn

theorem bt_empty_iff_null_root_witness :
    1 < 2 ∧
      (treeKeys (runOps (step 2) none [.add 3, .add 1, .remove 3]).2 = [] ↔
        (runOps (step 2) none [.add 3, .add 1, .remove 3]).2 = none) ∧
      ∀ x, treeKeys (runOps (step 2) none [.add 3, .add 1, .remove 3]).2 = [x] →
        remove 2 (runOps (step 2) none [.add 3, .add 1, .remove 3]).2 x = (true, none) :=
  ⟨by decide, bt_empty_iff_null_root 2 (by decide) [.add 3, .add 1, .remove 3]⟩

end BTree

namespace RBTree

/-- C37: for every sequence of calls starting from the default-constructed, empty tree, the
resulting tree is empty or has a black root. -/
theorem rb_root_black_after_calls (ops : List Op) :
    (runOps step .null ops).2 = .null ∨
      ∃ l v r, (runOps step .null ops).2 = .node l v .BLACK r := by
  have h : is_red (runOps step .null ops).2 = false := by
    refine runOps_invariant step (fun t => is_red t = false) ?_ ops .null rfl
    intro t op ht
    cases op with
    | add k => exact rb_add_root_black t k ht
    | find k => exact ht
    | remove k => exact rb_remove_root_black t k ht
  generalize (runOps step .null ops).2 = t at h
  cases t with
  | null => exact Or.inl rfl
  | node l v c r =>
    cases c
    · simp [is_red] at h
    · exact Or.inr ⟨l, v, r, rfl⟩

/-- C38, the claim as stated fails: for the key 10, the constructor `RBTree(10)` leaves one
red node, while `add(10)` on the default-constructed tree leaves one black node. -/
theorem rb_constructor_colour_counterexample :
    construct 10 = .node .null 10 .RED .null ∧
      (add .null 10).2 = .node .null 10 .BLACK .null ∧
      construct 10 ≠ (add .null 10).2 := by
  decide

/-- C38, amended: for every key `v`, the constructor `RBTree(v)` produces one node with key
`v`, as `add(v)` on a default-constructed empty tree does, but the node is red where `add(v)`
colours it black.  The red node satisfies the red-black invariants (no red node with a red
child, equal black counts), and the first `add` of another key recolours it black (case 1
of the balancing loop). -/
theorem rb_constructor_red_root (v : Int) :
    construct v = .node .null v .RED .null ∧
      add .null v = (true, .node .null v .BLACK .null) ∧
      (construct v).keys = (add .null v).2.keys ∧
      (construct v).setTag .BLACK = (add .null v).2 ∧
      NoRedRed (construct v) ∧ BlackBalanced (construct v) ∧
      ∀ w, w ≠ v → is_red (add (construct v) w).2 = false := by
  refine ⟨rfl, rfl, rfl, rfl, by simp [construct, newNode, NoRedRed, is_red],
    by simp [construct, newNode, BlackBalanced, blackHeight], fun w hw => ?_⟩
  have hvw : v ≠ w := fun e => hw e.symm
  by_cases c : w < v
  · simp [add, find, descend, construct, newNode, insertion_walk, hvw, c, focusChild,
      Frame.fill, TreeNode.setChild, TreeNode.setLeft, TreeNode.setRight, add_loop, add_step,
      plug, is_red]
  · simp [add, find, descend, construct, newNode, insertion_walk, hvw, c, focusChild,
      Frame.fill, TreeNode.setChild, TreeNode.setLeft, TreeNode.setRight, add_loop, add_step,
      plug, is_red]

end RBTree

namespace BTree.Slot

/-- C39 (the code deviates): for `N = 2`, after `add(1)`, ..., `add(10)` every child slot
behind `children[num_keys]` is null, and `remove(1)`, which calls `left_shift` on the two
children of the root, leaves the second child of the root with `num_keys == 1` and a
non-null pointer in `children[2]`, the old last child that the shift has copied to
`children[1]`; the copy constructor then makes 8 nodes for a tree of 7.  In the same way
`remove(10)` after `add(10)`, ..., `add(1)` calls `right_shift` and leaves the first child of
the root with `num_keys == 1` and a non-null pointer in `children[2]`.  On both inputs the
returned booleans and the in-order keys of the live part of the tree are those of the model
with live slots. -/
theorem bt_shift_leaves_stale_child :
    (runOps (step 2) .null tenAdds).2.deadSlotsNull = true ∧
      (runOps (step 2) .null (tenAdds ++ [.remove 1])).2.deadSlotsNull = false ∧
      ((runOps (step 2) .null (tenAdds ++ [.remove 1])).2.child 1).num_keys = 1 ∧
      (((runOps (step 2) .null (tenAdds ++ [.remove 1])).2.child 1).child 2).isNode = true ∧
      (runOps (step 2) .null (tenAdds ++ [.remove 1])).2.copy_allocs = 8 ∧
      (runOps (step 2) .null (tenAdds ++ [.remove 1])).2.clear_deletes = 7 ∧
      (runOps (step 2) .null tenAddsDown).2.deadSlotsNull = true ∧
      (runOps (step 2) .null (tenAddsDown ++ [.remove 10])).2.deadSlotsNull = false ∧
      ((runOps (step 2) .null (tenAddsDown ++ [.remove 10])).2.child 0).num_keys = 1 ∧
      (((runOps (step 2) .null (tenAddsDown ++ [.remove 10])).2.child 0).child 2).isNode
        = true ∧
      ((runOps (step 2) .null (tenAdds ++ [.remove 1])).1,
          treeKeys (liveRoot (runOps (step 2) .null (tenAdds ++ [.remove 1])).2)) =
        ((runOps (BTree.step 2) none (tenAdds ++ [.remove 1])).1,
          treeKeys (runOps (BTree.step 2) none (tenAdds ++ [.remove 1])).2) ∧
      ((runOps (step 2) .null (tenAddsDown ++ [.remove 10])).1,
          treeKeys (liveRoot (runOps (step 2) .null (tenAddsDown ++ [.remove 10])).2)) =
        ((runOps (BTree.step 2) none (tenAddsDown ++ [.remove 10])).1,
          treeKeys (runOps (BTree.step 2) none (tenAddsDown ++ [.remove 10])).2) := by
  refine ⟨by decide!, by decide!, by decide!, by decide!, by decide!, by decide!, by decide!,
    by decide!, by decide!, by decide!, by decide!, by decide!⟩

end BTree.Slot

namespace SplayTree.Ptr

/-- C40: for every memory of a `SplayTree` whose parent back-references are consistent (the
nodes reached from `node` are a tree of distinct allocated nodes, the root has a null parent
and every other node has as parent the node that holds it as a child) and every key `x`,
each of `find(x)`, `add(x)` and `remove(x)` returns, and in the memory it leaves the parent
back-references are consistent again, so that `is_parent_pointers_valid(node, nullptr)` of
the tester returns true. -/
theorem splay_parent_pointers_consistent (m : Mem) (x : Int) (h : Consistent m) :
    (∃ b m1, find m x = some (b, m1) ∧ Consistent m1 ∧
        is_parent_pointers_valid (m1.next + 1) m1 m1.node none = true) ∧
      (∃ b m1, add m x = some (b, m1) ∧ Consistent m1 ∧
        is_parent_pointers_valid (m1.next + 1) m1 m1.node none = true) ∧
      (∃ b m1, remove m x = some (b, m1) ∧ Consistent m1 ∧
        is_parent_pointers_valid (m1.next + 1) m1 m1.node none = true) := by
  obtain ⟨t, h1, h2, h3, h4⟩ := h
  have hg := sp_good_of_consistent m t h1 h2 h3
  refine ⟨?_, ?_, ?_⟩
  · rcases sp_find_spec m x t hg h4 with e | ⟨m1, l, a, r, e, hM⟩
    · have hc := sp_consistent_of_good m t hg h4
      exact ⟨false, m, e, hc, sp_valid_of_consistent m hc⟩
    · have hc := sp_consistent_of_moves m m1 t _ []
        (fun b hb => h4 b (by simpa [foot, ctxAddrs] using hb)) hM
      exact ⟨true, m1, e, hc, sp_valid_of_consistent m1 hc⟩
  · obtain ⟨b, m1, e, hc⟩ := sp_add_spec m x t hg h4
    exact ⟨b, m1, e, hc, sp_valid_of_consistent m1 hc⟩
  · obtain ⟨b, m1, e, hc⟩ := sp_remove_spec m x t hg h4
    exact ⟨b, m1, e, hc, sp_valid_of_consistent m1 hc⟩

theorem splay_parent_pointers_consistent_witness :
    Consistent sampleMem ∧
      (∃ b m1, find sampleMem 5 = some (b, m1) ∧ Consistent m1 ∧
        is_parent_pointers_valid (m1.next + 1) m1 m1.node none = true) ∧
      (∃ b m1, add sampleMem 5 = some (b, m1) ∧ Consistent m1 ∧
        is_parent_pointers_valid (m1.next + 1) m1 m1.node none = true) ∧
      (∃ b m1, remove sampleMem 5 = some (b, m1) ∧ Consistent m1 ∧
        is_parent_pointers_valid (m1.next + 1) m1 m1.node none = true) :=
  ⟨⟨sampleAddressed,
      ⟨rfl, rfl, rfl, rfl, ⟨rfl, rfl, rfl, rfl, trivial, trivial⟩,
        ⟨rfl, rfl, rfl, rfl, trivial, trivial⟩⟩, rfl, by decide, by decide⟩,
    splay_parent_pointers_consistent sampleMem 5
      ⟨sampleAddressed,
        ⟨rfl, rfl, rfl, rfl, ⟨rfl, rfl, rfl, rfl, trivial, trivial⟩,
          ⟨rfl, rfl, rfl, rfl, trivial, trivial⟩⟩, rfl, by decide, by decide⟩⟩

/-- On the sample memory the three calls return what the model with ancestor lists returns,
and leave the same tree. -/
theorem sp_sample_agrees :
    ((find sampleMem 5).map fun p => (p.1, toTree 4 p.2 p.2.node)) =
        some (SplayTree.find (toTree 4 sampleMem sampleMem.node) 5) ∧
      ((add sampleMem 7).map fun p => (p.1, toTree 5 p.2 p.2.node)) =
        some (SplayTree.add (toTree 4 sampleMem sampleMem.node) 7) ∧
      ((remove sampleMem 10).map fun p => (p.1, toTree 4 p.2 p.2.node)) =
        some (SplayTree.remove (toTree 4 sampleMem sampleMem.node) 10) := by
  refine ⟨by decide!, by decide!, by decide!⟩

end SplayTree.Ptr
/-! ## Claims on the models in memory -/

namespace RBTree.Ptr

open SplayTree.Ptr (ptrOf addrs ctxAddrs parentPtr Good Rep RepCtx foot rootPtr)

/-- C32: `black_leaf_delete` terminates on every `RBTree` satisfying the red-black
invariants.  The memory holds a tree of distinct nodes with consistent parent pointers in
which the black leaf `N` at address `n` has the ancestors `f :: st` (so `N` is not the root
and `(f :: st).length` is its depth), and the tree with the colours of the memory has no red
node with a red child and equal black counts on all paths.  Then `black_leaf_delete(N)`,
allowed at least as many passes as `N` has ancestors, returns: it makes at least one pass
and at most as many passes as `N` has ancestors; each pass either ends with `return` after
at most three calls of `left_rotate` / `right_rotate`, or makes no rotation and moves the
deficient node to its parent; only the last pass can be of the first kind, and the deficient
nodes of the passes are `N`, its parent, its grandparent, and so on.  When it returns the
memory holds, again with consistent parent pointers, the tree that `black_leaf_delete` on
tree values returns for the ancestors of `N`. -/
theorem rb_black_leaf_delete_terminates (m : Mem) (v : Int) (n : Nat) (f : Frame Nat)
    (st : List (Frame Nat)) (fuel : Nat)
    (hg : Good m.toSplay (.node .null v n .null) (f :: st)) (hN : m.color n = .BLACK)
    (h1 : NoRedRed (paint m.color (plug (.node .null v n .null) (f :: st))))
    (h2 : BlackBalanced (paint m.color (plug (.node .null v n .null) (f :: st))))
    (hf : (f :: st).length ≤ fuel) :
    ∃ m2 log, black_leaf_delete fuel m n = some (m2, log) ∧
      0 < log.length ∧ log.length ≤ (f :: st).length ∧
      (∀ p ∈ log, (p.up = true ∧ p.rotations = 0) ∨ (p.up = false ∧ p.rotations ≤ 3)) ∧
      (∀ p ∈ log.dropLast, p.up = true) ∧
      log.map Pass.N = (n :: (f :: st).map Frame.tag).take log.length ∧
      ∃ T2, Good m2.toSplay T2 [] ∧
        paint m2.color T2 = RBTree.black_leaf_delete .null ((f :: st).map (paintF m.color)) := by
  have hg0 := hg
  obtain ⟨g1, g2, g3, g4⟩ := hg
  have hpar : m.parent n = some f.tag := g1.2.2.2.1
  have q := (SplayTree.Ptr.sp_good_cons_facts m.toSplay .null .null v n f st hg0).2.2.1
  have hside : (if m.children f.tag .LEFT = some n then dir_t.LEFT else dir_t.RIGHT) = f.dir := by
    by_cases c : m.children f.tag .LEFT = some n
    · simp only [c, if_true]; exact (q.1 c).symm
    · simp only [c, if_false]
      cases hd : f.dir with
      | LEFT => exact absurd (q.2 hd) c
      | RIGHT => rfl
  have hnd : (ctxAddrs (f :: st)).Nodup := (List.nodup_append.1 g4).2.1
  have hg2 : Good (m.setChild f.tag f.dir none).toSplay .null (f :: st) := by
    refine ⟨trivial, ?_, g3, by simpa [foot, addrs] using hnd⟩
    refine SplayTree.Ptr.sp_repCtx_hole m.toSplay _ f st _ none hnd ⟨rfl, ?_, ?_, rfl⟩ ?_ g2
    · simp [Mem.toSplay, Mem.setChild]
    · have hfl : f.dir.flip ≠ f.dir := by cases f.dir <;> simp [dir_t.flip]
      simp [Mem.toSplay, Mem.setChild, hfl]
    · intro a _ ha
      exact ⟨rfl, fun e => by simp [Mem.toSplay, Mem.setChild, ha], rfl⟩
  have hi : DelInv (paint (m.setChild f.tag f.dir none).color .null)
      ((f :: st).map (paintF (m.setChild f.tag f.dir none).color)) := by
    rw [rbp_paint_plug] at h1 h2
    obtain ⟨_, _, h3, _⟩ := rb_descInv_of_plug _ _ h1 h2
    refine ⟨rfl, trivial, trivial, ?_⟩
    simpa [paint, hN, blackHeight] using h3
  obtain ⟨m2, log, e, r0, r1, r2, r3, r4⟩ :=
    rbp_delete_loop_spec st f (m.setChild f.tag f.dir none) .null n fuel hg2 hi
      (by simpa using hf)
  obtain ⟨m3, log3, T2, e3, g5, p5⟩ :=
    rbp_delete_loop_tree st f (m.setChild f.tag f.dir none) .null n fuel hg2 hi
      (by simpa using hf)
  rw [e] at e3
  simp only [Option.some.injEq, Prod.mk.injEq] at e3
  obtain ⟨rfl, rfl⟩ := e3
  refine ⟨m2, log, ?_, r0, by simpa using r1, r2, r3, r4, T2, g5, p5⟩
  simp only [black_leaf_delete, hpar, hside]
  exact e

theorem rb_black_leaf_delete_terminates_witness :
    Good sampleMem.toSplay (.node .null 30 4 .null) [sampleFrame] ∧
      sampleMem.color 4 = .BLACK ∧
      NoRedRed (paint sampleMem.color (plug (.node .null 30 4 .null) [sampleFrame])) ∧
      BlackBalanced (paint sampleMem.color (plug (.node .null 30 4 .null) [sampleFrame])) ∧
      [sampleFrame].length ≤ 1 ∧
      ∃ m2 log, black_leaf_delete 1 sampleMem 4 = some (m2, log) ∧
        0 < log.length ∧ log.length ≤ [sampleFrame].length ∧
        (∀ p ∈ log, (p.up = true ∧ p.rotations = 0) ∨ (p.up = false ∧ p.rotations ≤ 3)) ∧
        (∀ p ∈ log.dropLast, p.up = true) ∧
        log.map Pass.N = (4 :: [sampleFrame].map Frame.tag).take log.length ∧
        ∃ T2, Good m2.toSplay T2 [] ∧
          paint m2.color T2 =
            RBTree.black_leaf_delete .null ([sampleFrame].map (paintF sampleMem.color)) :=
  ⟨⟨⟨rfl, rfl, rfl, rfl, trivial, trivial⟩,
      ⟨rfl, rfl, rfl, rfl,
        ⟨rfl, rfl, rfl, rfl, ⟨rfl, rfl, rfl, rfl, trivial, trivial⟩,
          ⟨rfl, rfl, rfl, rfl, trivial, trivial⟩⟩, trivial⟩, rfl, by decide⟩,
    rfl, by decide, by decide, by decide,
    rb_black_leaf_delete_terminates sampleMem 30 4 sampleFrame [] 1
      ⟨⟨rfl, rfl, rfl, rfl, trivial, trivial⟩,
        ⟨rfl, rfl, rfl, rfl,
          ⟨rfl, rfl, rfl, rfl, ⟨rfl, rfl, rfl, rfl, trivial, trivial⟩,
            ⟨rfl, rfl, rfl, rfl, trivial, trivial⟩⟩, trivial⟩, rfl, by decide⟩
      rfl (by decide) (by decide) (by decide)⟩

/-- On the sample memory `black_leaf_delete` of the leaf 30 makes one pass with one rotation
(the label `D6`: the sibling 10 is black and its far child 5 is red), as the model with
ancestor lists does, and leaves the tree that model returns. -/
theorem rbp_sample_pass :
    (black_leaf_delete 1 sampleMem 4).map (fun r => r.2) = some [⟨4, 1, false⟩] ∧
      (RBTree.black_leaf_delete_passes .null [paintF sampleMem.color sampleFrame]).map
        (fun p => (p.rotations, p.up)) = [(1, false)] ∧
      (black_leaf_delete 1 sampleMem 4).map (fun r => toTree 4 r.1 r.1.node) =
        some (RBTree.black_leaf_delete .null [paintF sampleMem.color sampleFrame]) := by
  refine ⟨by decide!, by decide!, by decide!⟩

end RBTree.Ptr

namespace RBTree.Ptr

/-- On the memory `sampleBlack`, `black_leaf_delete` of the leaf 70 makes two passes without
a rotation, the first at the leaf and the second at its parent 60, recolours the siblings 50
and 20 red and leaves the loop at the root; one pass does not suffice.  The passes and the
tree it leaves are those of the model with ancestor lists. -/
theorem rbp_sample_climb :
    (black_leaf_delete 2 sampleBlack 6).map (fun r => r.2) =
      some [⟨6, 0, true⟩, ⟨2, 0, true⟩] ∧
    (black_leaf_delete 1 sampleBlack 6).map (fun r => r.2) = none ∧
    (RBTree.black_leaf_delete_passes .null (sampleAncestors.map (paintF sampleBlack.color))).map
      (fun p => (p.rotations, p.up)) = [(0, true), (0, true)] ∧
    (black_leaf_delete 2 sampleBlack 6).map (fun r => toTree 4 r.1 r.1.node) =
      some (RBTree.black_leaf_delete .null (sampleAncestors.map (paintF sampleBlack.color))) := by
  refine ⟨by decide!, by decide!, by decide!, by decide!⟩

end RBTree.Ptr

namespace AVLTree.Ptr

theorem avp_depth_le_size {μ : Type} (t : TreeNode μ) : t.depth ≤ t.size := by
  induction t with
  | null => simp [TreeNode.depth, TreeNode.size]
  | node l v m r ihl ihr =>
    simp only [TreeNode.depth, TreeNode.size]
    omega

theorem avp_addrs_length (T : ANode) : (addrs T).length = T.size := by
  induction T with
  | null => rfl
  | node l v m r ihl ihr =>
    simp only [avp_addrs_node, List.length_cons, List.length_append, ihl, ihr, TreeNode.size]

theorem avp_size_strip (T : ANode) : (strip T).size = T.size := by
  induction T with
  | null => rfl
  | node l v m r ihl ihr => simp [strip, TreeNode.size, ihl, ihr]

theorem avp_clear (h : Heap) (T : ANode) (hr : Rep h T) (hn : (addrs T).Nodup) :
    ∃ h2, clear (2 * T.size) h (ptrOf T) = some h2 ∧ h2.length = h.length ∧
      ∀ x, x ∉ addrs T → h2[x]? = h[x]? := by
  cases T with
  | null => exact ⟨h, rfl, rfl, fun _ _ => rfl⟩
  | node l v m r =>
    obtain ⟨h2, e, len, f⟩ := avp_clear_loop (2 * (TreeNode.node l v m r).size) h
      [.node l v m r] (by simp) (by simpa using hr) (by simpa using hn)
      (by simpa using TreeNode.clearCost_le (TreeNode.node l v m r))
    exact ⟨h2, by simpa [clear] using e, len, fun x hx => f x (by simpa using hx)⟩

/-- C26: let the memory `h` hold the tree `A` of one `AVLTree` object, in search order, and
the tree `old` of a second object, made of distinct objects none of which belongs to `A`.
Copy construction from the first object, and copy assignment of the first object to the
second (two distinct objects), return; the copy `B` has the shape, keys and stored heights
of `A`, and no object of `A` has changed.  For every `v` not in `A`, `B.add(v)`, run on that
memory, returns true; afterwards every object of `A` is as it was, the memory still holds
`A`, `A.find(v)` returns false and `B.find(v)` returns true. -/
theorem avl_copy_independent (h : Heap) (A old : ANode) (self other : Nat) (v : Int)
    (hA : Rep h A) (hs : Ascending A.keys) (hv : v ∉ A.keys) (hB : Rep h old)
    (hn : (addrs old).Nodup) (hd : ∀ a ∈ addrs A, a ∉ addrs old) (hso : self ≠ other)
    (res : Option (Option Nat × Heap))
    (hres : res = copy_construct (A.depth + 1) h (ptrOf A) ∨
      res = copy_assign (A.depth + 1) (2 * old.size) h self other (ptrOf old) (ptrOf A)) :
    ∃ B h2, res = some (ptrOf B, h2) ∧ strip B = strip A ∧ Rep h2 B ∧
      (∀ a ∈ addrs A, h2[a]? = h[a]?) ∧
      ∃ B2 h3, add A.depth h2 (ptrOf B) v = some (true, ptrOf B2, h3) ∧ Rep h3 B2 ∧
        (∀ a ∈ addrs A, h3[a]? = h[a]?) ∧ Rep h3 A ∧
        find A.depth h3 (ptrOf A) v = some false ∧
        find (A.size + 1) h3 (ptrOf B2) v = some true := by
  have hltA := avp_rep_lt A h hA
  have hltO := avp_rep_lt old h hB
  obtain ⟨B, h1, e1, len1, ag1, rep1, st1, nd1, rg1⟩ := avp_copy (strip A) (A.depth + 1) h
    h.length (ptrOf A) (le_refl _)
    (avp_stored_of_rep A h 0 h.length hA fun a ha => ⟨Nat.zero_le _, hltA a ha⟩)
    (by rw [avp_depth_strip]; omega)
  have kB : B.keys = A.keys := by rw [← avp_keys_strip, st1, avp_keys_strip]
  have dB : B.depth = A.depth := by rw [← avp_depth_strip, st1, avp_depth_strip]
  -- what follows in any memory that holds the copy and has left `A` alone
  have fin : ∀ h2 : Heap, Rep h2 B → h.length ≤ h2.length → (∀ a ∈ addrs A, h2[a]? = h[a]?) →
      ∃ B2 h3, add A.depth h2 (ptrOf B) v = some (true, ptrOf B2, h3) ∧ Rep h3 B2 ∧
        (∀ a ∈ addrs A, h3[a]? = h[a]?) ∧ Rep h3 A ∧
        find A.depth h3 (ptrOf A) v = some false ∧
        find (A.size + 1) h3 (ptrOf B2) v = some true := by
    intro h2 rep2 len2 ag2
    rcases avp_add h2 B v A.depth rep2 nd1 (by omega) (by rw [kB]; exact hs) with
      ⟨hm, _⟩ | ⟨_, B2, h3, e3, rep3, a3, as3, k3, len3, f3⟩
    · rw [kB] at hm
      exact absurd hm hv
    · have ag3 : ∀ a ∈ addrs A, h3[a]? = h[a]? := fun a ha => by
        have := hltA a ha
        rw [f3 a (by omega) (fun hh => by have := (rg1 a hh).1; omega), ag2 a ha]
      have rep3A : Rep h3 A := avp_rep_congr A h h3 hA ag3
      refine ⟨B2, h3, e3, rep3, ag3, rep3A, ?_, ?_⟩
      · rw [avp_find_rep v A A.depth h3 rep3A (le_refl _),
          find_eq_mem _ v (by rw [avp_keys_strip]; exact hs), avp_keys_strip]
        simp [hv]
      · have hsz : B2.depth ≤ A.size + 1 := by
          have h1 := avp_depth_le_size B2
          have h2 := a3.length_eq
          rw [avp_addrs_length, List.length_cons, avp_addrs_length] at h2
          have h3 : B.size = A.size := by
            rw [← avp_size_strip, st1, avp_size_strip]
          omega
        rw [avp_find_rep v B2 _ h3 rep3 hsz,
          find_eq_mem _ v (by rw [avp_keys_strip]; exact as3), avp_keys_strip]
        simp [(k3 v).2 (Or.inl rfl)]
  rcases hres with rfl | rfl
  · exact ⟨B, h1, e1, st1, rep1, fun a ha => ag1 a (hltA a ha),
      fin h1 rep1 len1 fun a ha => ag1 a (hltA a ha)⟩
  · have repO : Rep h1 old := avp_rep_congr old h h1 hB fun a ha => ag1 a (hltO a ha)
    obtain ⟨h2, e2, len2, f2⟩ := avp_clear h1 old repO hn
    have ag2 : ∀ a ∈ addrs A, h2[a]? = h[a]? := fun a ha => by
      rw [f2 a (hd a ha), ag1 a (hltA a ha)]
    have rep2 : Rep h2 B := avp_rep_congr B h1 h2 rep1 fun a ha =>
      f2 a fun hh => by
        have := (rg1 a ha).1
        have := hltO a hh
        omega
    refine ⟨B, h2, ?_, st1, rep2, ag2, fin h2 rep2 (by omega) ag2⟩
    simp only [copy_assign, if_neg hso, copy_construct, e1, e2]

theorem avl_copy_independent_witness :
    Rep sampleHeap2 sampleAddressed ∧ Ascending sampleAddressed.keys ∧
    (60 : Int) ∉ sampleAddressed.keys ∧ Rep sampleHeap2 sampleOld ∧
    ∃ B h2, copy_assign (sampleAddressed.depth + 1) (2 * sampleOld.size) sampleHeap2 1 0
        (ptrOf sampleOld) (ptrOf sampleAddressed) = some (ptrOf B, h2) ∧
      strip B = strip sampleAddressed ∧ Rep h2 B ∧
      (∀ a ∈ addrs sampleAddressed, h2[a]? = sampleHeap2[a]?) ∧
      ∃ B2 h3, add sampleAddressed.depth h2 (ptrOf B) 60 = some (true, ptrOf B2, h3) ∧
        Rep h3 B2 ∧ (∀ a ∈ addrs sampleAddressed, h3[a]? = sampleHeap2[a]?) ∧
        Rep h3 sampleAddressed ∧
        find sampleAddressed.depth h3 (ptrOf sampleAddressed) 60 = some false ∧
        find (sampleAddressed.size + 1) h3 (ptrOf B2) 60 = some true :=
  ⟨⟨rfl, ⟨rfl, trivial, trivial⟩, trivial⟩, by decide, by decide, ⟨rfl, trivial, trivial⟩,
    avl_copy_independent sampleHeap2 sampleAddressed sampleOld 1 0 60
      ⟨rfl, ⟨rfl, trivial, trivial⟩, trivial⟩ (by decide) (by decide)
      ⟨rfl, trivial, trivial⟩ (by decide) (by decide) (by decide) _ (Or.inr rfl)⟩

/-- The calls of the test `test_copy_constructor` on `sampleHeap2`, evaluated: the copy of
the tree at address 0 is built at the addresses 3 and 4, `add(60)` to the copy allocates
address 5 and assigns to the objects of the copy only, `find(60)` is false on the original
and true on the copy; copy assignment to the object that holds the node at address 2 gives
the same copy and deletes that node, which has no child to unlink, and self-assignment
changes nothing. -/
theorem avp_sample_copy :
    copy_construct 3 sampleHeap2 (some 0) =
      some (some 3, sampleHeap2 ++ [⟨10, some 4, none, 2⟩, ⟨5, none, none, 1⟩]) ∧
    copy_assign 3 2 sampleHeap2 1 0 (some 2) (some 0) =
      some (some 3, sampleHeap2 ++ [⟨10, some 4, none, 2⟩, ⟨5, none, none, 1⟩]) ∧
    copy_assign 3 2 sampleHeap2 0 0 (some 0) (some 0) = some (some 0, sampleHeap2) ∧
    add 2 (sampleHeap2 ++ [⟨10, some 4, none, 2⟩, ⟨5, none, none, 1⟩]) (some 3) 60 =
      some (true, some 3, sampleHeap2 ++
        [⟨10, some 4, some 5, 2⟩, ⟨5, none, none, 1⟩, ⟨60, none, none, 1⟩]) ∧
    find 2 (sampleHeap2 ++ [⟨10, some 4, some 5, 2⟩, ⟨5, none, none, 1⟩,
      ⟨60, none, none, 1⟩]) (some 0) 60 = some false ∧
    find 2 (sampleHeap2 ++ [⟨10, some 4, some 5, 2⟩, ⟨5, none, none, 1⟩,
      ⟨60, none, none, 1⟩]) (some 3) 60 = some true := by
  decide

end AVLTree.Ptr

namespace AVLTree.Ptr

/-- The call `add(3)` on a memory holding the tree with root 1 at address 0 and right child 2
at address 1, evaluated: the new node is allocated at address 2, `balance` at the root makes
one left rotation, and the new root is the node at address 1; `add` on the tree value returns
the same tree. -/
theorem avp_sample_rotation :
    add 2 [⟨1, none, some 1, 2⟩, ⟨2, none, none, 1⟩] (some 0) 3 =
      some (true, some 1, [⟨1, none, none, 1⟩, ⟨2, some 0, some 2, 2⟩, ⟨3, none, none, 1⟩]) ∧
    AVLTree.add (.node .null 1 2 (.node .null 2 1 .null)) 3 =
      (true, .node (.node .null 1 1 .null) 2 2 (.node .null 3 1 .null)) ∧
    Rep [⟨1, none, none, 1⟩, ⟨2, some 0, some 2, 2⟩, ⟨3, none, none, 1⟩]
      (.node (.node .null 1 (1, 0) .null) 2 (2, 1) (.node .null 3 (1, 2) .null)) :=
  ⟨by decide, by decide, ⟨rfl, ⟨rfl, trivial, trivial⟩, ⟨rfl, trivial, trivial⟩⟩⟩

end AVLTree.Ptr
